import Mathlib

/-!
# Model-based optimisation and projection (z3 `model_based_opt.cpp`)

A shallow embedding of `src/math/simplex/model_based_opt.cpp`.  The engine state
(`m_rows`, `m_var2row_ids`, `m_var2value`, `m_var2is_int`, `m_retired_rows`,
`m_result`) is threaded explicitly.  C++ vectors are lists, `unsigned` ids are
natural numbers, the sentinel `UINT_MAX` is `none`, nullable `def` pointers are
`Option def_`, and exact rationals are `ℚ`.  Loops whose trip count is not a
list length take an explicit fuel argument.
-/

namespace opt

/-! ## Rational arithmetic collaborator -/

/-- Modelled from the spec: `rational::is_int` of the rational arithmetic collaborator
(util/rational.h is not part of the sources): the denominator is one. -/
def is_int_q (q : ℚ) : Bool := q.den == 1

/-- Modelled from the spec: `denominator(q)` of the rational arithmetic collaborator. -/
def denominator (q : ℚ) : ℚ := (q.den : ℚ)

/-- Modelled from the spec: `mod(a, b)` of the rational arithmetic collaborator, the
non-negative remainder on integer-valued rationals (numerators are used). -/
def mod (a b : ℚ) : ℚ := ((a.num % b.num : ℤ) : ℚ)

/-- Modelled from the spec: `div(a, b)` of the rational arithmetic collaborator, the
quotient matching `mod` (floor division for a positive divisor). -/
def div (a b : ℚ) : ℚ := ((a.num / b.num : ℤ) : ℚ)

/-- Modelled from the spec: `gcd(a, b)` of the rational arithmetic collaborator on
integer-valued rationals. -/
def gcd (a b : ℚ) : ℚ := ((Int.gcd a.num b.num : ℕ) : ℚ)

/-- Modelled from the spec: `lcm(a, b)` of the rational arithmetic collaborator on
integer-valued rationals. -/
def lcm (a b : ℚ) : ℚ := ((Int.lcm a.num b.num : ℕ) : ℚ)

/-! ## Data model -/

inductive ineq_type where
  | t_eq | t_lt | t_le | t_divides | t_mod | t_div
  deriving DecidableEq, Repr

/-- A term: variable id and coefficient (`model_based_opt::var`). -/
structure var where
  m_id : Nat := 0
  m_coeff : ℚ := 0
  deriving DecidableEq, Repr

instance : Inhabited var := ⟨{}⟩

/-- A row (`model_based_opt::row`); the default is the C++ constructor `row()`.  The
initial value of `m_id` is declared in model_based_opt.h, which is not part of the sources;
it is taken as 0 here, and the statements that depend on it carry it as a parameter. -/
structure row where
  m_vars : List var := []
  m_coeff : ℚ := 0
  m_mod : ℚ := 0
  m_type : ineq_type := ineq_type.t_le
  m_value : ℚ := 0
  m_alive : Bool := false
  m_id : Nat := 0
  deriving DecidableEq, Repr

instance : Inhabited row := ⟨{}⟩

/-- Symbolic definitions (`model_based_opt::def` and its five subclasses). -/
inductive def_ where
  | add_def (x y : def_)
  | mul_def (x y : def_)
  | div_def (x : def_) (m_div : ℚ)
  | var_def (v : var)
  | const_def (c : ℚ)
  deriving DecidableEq, Repr

/-- The value returned by `maximize`.
Modelled from the spec: `inf_eps` (util/inf_eps_rational.h is not part of the sources):
either `+infinity` or a finite rational with an infinitesimal coefficient
(`0` non-strict, `-1` strict). -/
inductive inf_eps where
  | infinity
  | finite (value : ℚ) (eps : ℚ)
  deriving DecidableEq, Repr

deriving instance DecidableEq for Except

/-- The engine state (`class model_based_opt`, data members). -/
structure model_based_opt where
  m_rows : List row := [{}]
  m_var2row_ids : List (List Nat) := []
  m_var2value : List ℚ := []
  m_var2is_int : List Bool := []
  m_retired_rows : List Nat := []
  m_result : List (Option def_) := []
  deriving DecidableEq, Repr

/-- Abnormal termination: the exception thrown by `solve_divides`
(`default_exception("modulo 0 is not defined")`), carrying the engine state at the
`throw` (the state the caller is left with), and exhaustion of the fuel of the model. -/
inductive error where
  | modulo_zero (s : model_based_opt)
  | out_of_fuel
  deriving DecidableEq, Repr

/-- The id of the objective row (`m_objective_id`). -/
def m_objective_id : Nat := 0

namespace model_based_opt

/-- The state built by the constructor `model_based_opt()`: one (dead) objective row. -/
def init : model_based_opt := {}

/-- Read access `m_rows[i]`. -/
def get_row (s : model_based_opt) (i : Nat) : row := s.m_rows.getD i {}

/-- Write access `m_rows[i] = r`. -/
def put_row (s : model_based_opt) (i : Nat) (r : row) : model_based_opt :=
  { s with m_rows := s.m_rows.set i r }

/-- Read access `m_var2row_ids[x]`. -/
def row_ids (s : model_based_opt) (x : Nat) : List Nat := s.m_var2row_ids.getD x []

/-- The update `m_var2row_ids[x].push_back(row_id)`. -/
def push_row_id (s : model_based_opt) (x row_id : Nat) : model_based_opt :=
  { s with m_var2row_ids := s.m_var2row_ids.set x (s.row_ids x ++ [row_id]) }

/-- Read access `m_var2is_int[x]` (`is_int(x)`). -/
def is_int (s : model_based_opt) (x : Nat) : Bool := s.m_var2is_int.getD x false

/-- `rational eval(unsigned x)`. -/
def eval (s : model_based_opt) (x : Nat) : ℚ := s.m_var2value.getD x 0

/-- The update `m_var2value[x] = val`. -/
def set_value (s : model_based_opt) (x : Nat) (val : ℚ) : model_based_opt :=
  { s with m_var2value := s.m_var2value.set x val }

/-- `objective()`. -/
def objective (s : model_based_opt) : row := s.get_row m_objective_id

end model_based_opt

/-! ## Definitions -/

namespace def_

/-- `def::operator/(rational const&)`. -/
def div_q (d : def_) (r : ℚ) : def_ := if r = 1 then d else div_def d r

/-- `def::operator*(rational const&)`. -/
def mul_q (d : def_) (n : ℚ) : def_ := if n = 1 then d else mul_def d (const_def n)

/-- `def::operator+(rational const&)`. -/
def add_q (d : def_) (n : ℚ) : def_ := if n = 0 then d else add_def d (const_def n)

/-- `def::substitute(unsigned v, def& other)`. -/
def substitute (v : Nat) (other : def_) : def_ → def_
  | add_def x y => add_def (substitute v other x) (substitute v other y)
  | mul_def x y => mul_def (substitute v other x) (substitute v other y)
  | div_def x m => div_q (substitute v other x) m
  | var_def w =>
      if w.m_id ≠ v then var_def w
      else if w.m_coeff = 1 then other
      else mul_q other w.m_coeff
  | const_def c => const_def c

/-- The loop of `def::from_row` computing `lc` and `div` (stops at the term of `x`). -/
def from_row_scan (x : Nat) : List var → ℚ → ℚ × ℚ
  | [], lc => (1, lc)
  | v :: vs, lc =>
      let lc1 := lcm lc (denominator v.m_coeff)
      if v.m_id = x then (-v.m_coeff, lc1) else from_row_scan x vs lc1

/-- `def::from_row(row const& r, unsigned x)`. -/
def from_row (r : row) (x : Nat) : def_ :=
  let p := from_row_scan x r.m_vars (denominator r.m_coeff)
  let lc := p.2
  let dv := p.1 * lc
  let sign : Bool := decide (dv < 0)
  let coeff0 := lc * r.m_coeff
  let coeff1 :=
    match r.m_type with
    | ineq_type.t_lt => coeff0 + dv
    | ineq_type.t_le => if !sign then coeff0 + dv - 1 else coeff0
    | _ => coeff0
  let dv2 := if dv < 0 then -dv else dv
  let lc2 := if dv < 0 then -lc else lc
  let coeff2 := if dv < 0 then -coeff1 else coeff1
  let result := r.m_vars.foldl
    (fun res v => if v.m_id ≠ x then add_def res (var_def ⟨v.m_id, v.m_coeff * lc2⟩) else res)
    (const_def coeff2)
  if dv2 > 1 then div_q result dv2 else result

end def_

namespace row

/-- The `while (lo < hi)` loop of `row::get_coefficient`; returns the final `lo`.
The fuel bounds the number of iterations (`hi - lo` shrinks at every iteration). -/
def bsearch (vs : List var) (var_id : Nat) : Nat → Nat → Nat → Nat
  | 0, lo, _ => lo
  | fuel + 1, lo, hi =>
      if lo < hi then
        let mid := lo + (hi - lo) / 2
        let id := (vs.getD mid {}).m_id
        if id = var_id then mid
        else if id < var_id then bsearch vs var_id fuel (mid + 1) hi
        else bsearch vs var_id fuel lo mid
      else lo

/-- `row::get_coefficient(unsigned var_id)`. -/
def get_coefficient (r : row) (var_id : Nat) : ℚ :=
  if r.m_vars.isEmpty then 0
  else
    let lo := bsearch r.m_vars var_id r.m_vars.length 0 r.m_vars.length
    if lo = r.m_vars.length then 0
    else
      let v := r.m_vars.getD lo {}
      if v.m_id = var_id then v.m_coeff else 0

/-- Modelled from the spec: `row::reset()` (declared inline in model_based_opt.h, which is
not part of the sources): clears the terms, the constant and the cached value. -/
def reset (r : row) : row := { r with m_vars := [], m_coeff := 0, m_value := 0 }

/-- Modelled from the spec: `row::neg()` (declared inline in model_based_opt.h, which is
not part of the sources): negates every coefficient, the constant and the cached value. -/
def neg (r : row) : row :=
  { r with m_vars := r.m_vars.map (fun v => ⟨v.m_id, -v.m_coeff⟩),
           m_coeff := -r.m_coeff, m_value := -r.m_value }

end row

/-- `std::sort(begin, end, var::compare())`: sort terms by ascending id. -/
def sort_vars (vs : List var) : List var :=
  vs.insertionSort (fun a b => a.m_id ≤ b.m_id)

namespace model_based_opt

/-- `rational eval(def const& d)`. -/
def eval_def (s : model_based_opt) : def_ → ℚ
  | def_.add_def x y => eval_def s x + eval_def s y
  | def_.div_def x m => eval_def s x / m
  | def_.mul_def x y => eval_def s x * eval_def s y
  | def_.var_def v => v.m_coeff * s.eval v.m_id
  | def_.const_def c => c

/-- `rational eval(vector<var> const& coeffs)`. -/
def eval_vars (s : model_based_opt) (coeffs : List var) : ℚ :=
  coeffs.foldl (fun val v => val + v.m_coeff * s.eval v.m_id) 0

/-- `rational eval(row const& r)`. -/
def eval_row (s : model_based_opt) (r : row) : ℚ :=
  r.m_vars.foldl (fun val v => val + v.m_coeff * s.eval v.m_id) r.m_coeff

/-- `get_coefficient(unsigned row_id, unsigned var_id)`. -/
def get_coefficient (s : model_based_opt) (row_id var_id : Nat) : ℚ :=
  (s.get_row row_id).get_coefficient var_id

/-- `retire_row(unsigned row_id)`. -/
def retire_row (s : model_based_opt) (row_id : Nat) : model_based_opt :=
  let s1 := s.put_row row_id { s.get_row row_id with m_alive := false }
  { s1 with m_retired_rows := s1.m_retired_rows ++ [row_id] }

/-- `mk_coeffs_without(dst, src, x)` with an empty `dst`. -/
def mk_coeffs_without (src : List var) (x : Nat) : List var :=
  src.filter (fun v => v.m_id ≠ x)

/-- `n_sign(rational const& b)`. -/
def n_sign (b : ℚ) : ℚ := if 0 < b then -1 else 1

/-- `mul(unsigned dst, rational const& c)`. -/
def mul (s : model_based_opt) (dst : Nat) (c : ℚ) : model_based_opt :=
  if c = 1 then s
  else
    let r := s.get_row dst
    s.put_row dst
      { r with m_vars := r.m_vars.map (fun v => ⟨v.m_id, v.m_coeff * c⟩),
               m_mod := r.m_mod * c,
               m_coeff := r.m_coeff * c,
               m_value := if r.m_type ≠ ineq_type.t_div ∧ r.m_type ≠ ineq_type.t_mod
                          then r.m_value * c else r.m_value }

/-- `add(unsigned dst, rational const& c)`. -/
def add (s : model_based_opt) (dst : Nat) (c : ℚ) : model_based_opt :=
  let r := s.get_row dst
  s.put_row dst { r with m_coeff := r.m_coeff + c, m_value := r.m_value + c }

/-- `sub(unsigned dst, rational const& c)`. -/
def sub (s : model_based_opt) (dst : Nat) (c : ℚ) : model_based_opt :=
  let r := s.get_row dst
  s.put_row dst { r with m_coeff := r.m_coeff - c, m_value := r.m_value - c }

/-- The gcd loop of `normalize`: `for (i = 1; all_int && !g.is_one() && i < size; ++i)`. -/
def normalize_gcd : List var → ℚ → Bool → ℚ × Bool
  | [], g, all_int => (g, all_int)
  | v :: vs, g, all_int =>
      if all_int && !(g == 1) then
        if is_int_q v.m_coeff then normalize_gcd vs (gcd g |v.m_coeff|) all_int
        else normalize_gcd vs g false
      else (g, all_int)

/-- `normalize(unsigned row_id)`. -/
def normalize (s : model_based_opt) (row_id : Nat) : model_based_opt :=
  let r := s.get_row row_id
  if !r.m_alive then s
  else if r.m_vars.isEmpty then s.retire_row row_id
  else if r.m_type = ineq_type.t_divides then s
  else if r.m_type = ineq_type.t_mod then s
  else if r.m_type = ineq_type.t_div then s
  else
    let g0 : ℚ := |(r.m_vars.headD {}).m_coeff|
    let p := normalize_gcd r.m_vars.tail g0 (is_int_q g0)
    let p2 : ℚ × Bool :=
      if p.2 && !(r.m_coeff == 0) then
        if is_int_q r.m_coeff then (gcd p.1 |r.m_coeff|, p.2) else (p.1, false)
      else p
    if p2.2 && !(p2.1 == 1) then s.mul row_id (1 / p2.1) else s

/-- The merge loop of `mul_add(bool, unsigned, rational const&, unsigned)`: returns the
merged terms (`m_new_vars`) and, in order, the variable ids whose row index receives
`row_id1`.  The fuel bounds the iterations by the total number of terms. -/
def mul_add_merge (c : ℚ) : Nat → List var → List var → List var × List Nat
  | 0, _, _ => ([], [])
  | _ + 1, r1, [] => (r1, [])
  | _ + 1, [], r2 => (r2.map (fun v => ⟨v.m_id, v.m_coeff * c⟩), r2.map (fun v => v.m_id))
  | fuel + 1, a :: r1, b :: r2 =>
      if a.m_id = b.m_id then
        let p := mul_add_merge c fuel r1 r2
        let k := a.m_coeff + c * b.m_coeff
        if k = 0 then p else (⟨a.m_id, k⟩ :: p.1, p.2)
      else if a.m_id < b.m_id then
        let p := mul_add_merge c fuel r1 (b :: r2)
        (a :: p.1, p.2)
      else
        let p := mul_add_merge c fuel (a :: r1) r2
        (⟨b.m_id, b.m_coeff * c⟩ :: p.1, b.m_id :: p.2)

/-- `mul_add(bool same_sign, unsigned row_id1, rational const& c, unsigned row_id2)`:
set row1 <- row1 + c*row2. -/
def mul_add (s : model_based_opt) (same_sign : Bool) (row_id1 : Nat) (c : ℚ)
    (row_id2 : Nat) : model_based_opt :=
  if c = 0 then s
  else
    let r1 := s.get_row row_id1
    let r2 := s.get_row row_id2
    let p := mul_add_merge c (r1.m_vars.length + r2.m_vars.length + 1) r1.m_vars r2.m_vars
    let s1 := if row_id1 ≠ m_objective_id
              then p.2.foldl (fun st v => st.push_row_id v row_id1) s else s
    let ty :=
      if !same_sign && r2.m_type = ineq_type.t_lt then ineq_type.t_lt
      else if same_sign && r1.m_type = ineq_type.t_lt && r2.m_type = ineq_type.t_lt
      then ineq_type.t_le
      else r1.m_type
    s1.put_row row_id1
      { r1 with m_coeff := r1.m_coeff + c * r2.m_coeff,
                m_vars := p.1,
                m_value := r1.m_value + c * r2.m_value,
                m_type := ty }

/-- `add_var(rational const& value, bool is_int)`; returns the new variable id. -/
def add_var (s : model_based_opt) (value : ℚ) (is_int : Bool) : model_based_opt × Nat :=
  ({ s with m_var2value := s.m_var2value ++ [value],
            m_var2is_int := s.m_var2is_int ++ [is_int],
            m_var2row_ids := s.m_var2row_ids ++ [[]] },
   s.m_var2value.length)

/-- `get_value(unsigned var)`. -/
def get_value (s : model_based_opt) (v : Nat) : ℚ := s.m_var2value.getD v 0

/-- `set_row(row_id, coeffs, c, m, rel)`. -/
def set_row (s : model_based_opt) (row_id : Nat) (coeffs : List var) (c m : ℚ)
    (rel : ineq_type) : model_based_opt :=
  let r := s.get_row row_id
  let val := coeffs.foldl (fun val v => val + s.eval v.m_id * v.m_coeff) c
  let is_int_row := !coeffs.isEmpty && coeffs.all (fun v => s.is_int v.m_id)
  let promote := is_int_row && rel = ineq_type.t_lt
  s.put_row row_id
    { r with m_vars := sort_vars (r.m_vars ++ coeffs),
             m_alive := true,
             m_coeff := if promote then c + 1 else c,
             m_value := if promote then val + 1 else val,
             m_type := if promote then ineq_type.t_le else rel,
             m_mod := m }

/-- `new_row()`; returns the id of the fresh or recycled row. -/
def new_row (s : model_based_opt) : model_based_opt × Nat :=
  match s.m_retired_rows.getLast? with
  | none => ({ s with m_rows := s.m_rows ++ [{}] }, s.m_rows.length)
  | some row_id =>
      let s1 := { s with m_retired_rows := s.m_retired_rows.dropLast }
      (s1.put_row row_id { (s1.get_row row_id).reset with m_alive := true }, row_id)

/-- `copy_row(unsigned src, unsigned excl)`; `excl = none` is the default `UINT_MAX`. -/
def copy_row (s : model_based_opt) (src : Nat) (excl : Option Nat) : model_based_opt × Nat :=
  let p := s.new_row
  let dst := p.2
  let r := p.1.get_row src
  let s1 := p.1.set_row dst r.m_vars r.m_coeff r.m_mod r.m_type
  (r.m_vars.foldl
    (fun st v => if some v.m_id ≠ excl then st.push_row_id v.m_id dst else st) s1, dst)

/-- `add_constraint(coeffs, c, m, rel, id)`; returns the row id. -/
def add_constraint5 (s : model_based_opt) (coeffs : List var) (c m : ℚ) (rel : ineq_type)
    (id : Nat) : model_based_opt × Nat :=
  let r := s.m_rows.getLastD {}
  if r.m_vars = coeffs ∧ r.m_coeff = c ∧ r.m_mod = m ∧ r.m_type = rel ∧ r.m_id = id
      ∧ r.m_alive = true then
    (s, s.m_rows.length - 1)
  else
    let p := s.new_row
    let row_id := p.2
    let s1 := p.1.set_row row_id coeffs c m rel
    let s2 := s1.put_row row_id { s1.get_row row_id with m_id := id }
    let s3 := coeffs.foldl (fun st v => st.push_row_id v.m_id row_id) s2
    (s3.normalize row_id, row_id)

/-- `add_constraint(coeffs, c, rel)`. -/
def add_constraint (s : model_based_opt) (coeffs : List var) (c : ℚ) (rel : ineq_type) :
    model_based_opt :=
  (s.add_constraint5 coeffs c 0 rel 0).1

/-- `add_lower_bound(x, lo)`: the row `-x + lo <= 0`. -/
def add_lower_bound (s : model_based_opt) (x : Nat) (lo : ℚ) : model_based_opt :=
  s.add_constraint [⟨x, -1⟩] lo ineq_type.t_le

/-- `add_upper_bound(x, hi)`: the row `x - hi <= 0`. -/
def add_upper_bound (s : model_based_opt) (x : Nat) (hi : ℚ) : model_based_opt :=
  s.add_constraint [⟨x, 1⟩] (-hi) ineq_type.t_le

/-- `add_divides(coeffs, c, m)`. -/
def add_divides (s : model_based_opt) (coeffs : List var) (c m : ℚ) : model_based_opt :=
  let g := coeffs.foldl (fun g v => gcd v.m_coeff g) c
  if is_int_q (g / m) then s
  else (s.add_constraint5 coeffs c m ineq_type.t_divides 0).1

/-- `add_mod(coeffs, c, m)`; returns the auxiliary variable. -/
def add_mod (s : model_based_opt) (coeffs : List var) (c m : ℚ) : model_based_opt × Nat :=
  let value := coeffs.foldl (fun val v => val + v.m_coeff * s.eval v.m_id) c
  let p := s.add_var (mod value m) true
  ((p.1.add_constraint5 coeffs c m ineq_type.t_mod p.2).1, p.2)

/-- `add_div(coeffs, c, m)`; returns the auxiliary variable. -/
def add_div (s : model_based_opt) (coeffs : List var) (c m : ℚ) : model_based_opt × Nat :=
  let value := coeffs.foldl (fun val v => val + v.m_coeff * s.eval v.m_id) c
  let p := s.add_var (div value m) true
  ((p.1.add_constraint5 coeffs c m ineq_type.t_div p.2).1, p.2)

/-- `set_objective(coeffs, c)`. -/
def set_objective (s : model_based_opt) (coeffs : List var) (c : ℚ) : model_based_opt :=
  s.set_row m_objective_id coeffs c 0 ineq_type.t_le

/-- Integer resolution `mul_add(unsigned x, rational src_c, unsigned row_src,
rational dst_c, unsigned row_dst)`.  The branch guarded by `use_case2 || use_case3`
is disabled in the source (`false && ...`) and is kept as written. -/
def mul_add_int (s : model_based_opt) (x : Nat) (src_c : ℚ) (row_src : Nat) (dst_c : ℚ)
    (row_dst : Nat) : model_based_opt :=
  let dst := s.get_row row_dst
  let src := s.get_row row_src
  let abs_src_c := |src_c|
  let abs_dst_c := |dst_c|
  let x_val := s.eval x
  let slack := (abs_src_c - 1) * (abs_dst_c - 1)
  let dst_val := dst.m_value - x_val * dst_c
  let src_val := src.m_value - x_val * src_c
  let distance := abs_src_c * dst_val + abs_dst_c * src_val + slack
  let use_case1 : Bool :=
    decide (distance ≤ 0) || decide (abs_src_c = 1) || decide (abs_dst_c = 1)
  let use_case2 : Bool :=
    false && decide (abs_src_c = abs_dst_c) && (decide (0 < src_c) != decide (0 < dst_c))
      && !decide (abs_src_c = 1) && decide (dst.m_type = ineq_type.t_le)
      && decide (src.m_type = ineq_type.t_le)
  let use_case3 : Bool :=
    false && (decide (0 < src_c) != decide (0 < dst_c))
      && decide (dst.m_type = ineq_type.t_le) && decide (src.m_type = ineq_type.t_le)
  if use_case1 then
    ((s.mul row_dst abs_src_c).add row_dst slack).mul_add false row_dst abs_dst_c row_src
  else if use_case2 || use_case3 then
    let swapped : Bool := decide (src_c < 0)
    let rs := if swapped then row_dst else row_src
    let rd := if swapped then row_src else row_dst
    let a_s := if swapped then abs_dst_c else abs_src_c
    let a_d := if swapped then abs_src_c else abs_dst_c
    let src_coeff := (s.get_row rs).m_coeff
    let dst_coeff := (s.get_row rd).m_coeff
    let src_coeffs : List var :=
      ((s.get_row rs).m_vars.filter (fun v => v.m_id ≠ x)).map (fun v => ⟨v.m_id, -v.m_coeff⟩)
    let dst_coeffs : List var := (s.get_row rd).m_vars.filter (fun v => v.m_id ≠ x)
    if src_coeffs.isEmpty then
      (s.retire_row row_dst).add_constraint dst_coeffs
        (dst_coeff - a_d * div (-src_coeff) a_s) ineq_type.t_le
    else
      let p := s.add_div src_coeffs (-src_coeff) a_s
      (p.1.retire_row row_dst).add_constraint (dst_coeffs ++ [⟨p.2, -a_d⟩]) dst_coeff
        ineq_type.t_le
  else if abs_dst_c ≤ abs_src_c then
    let z0 := mod dst_val abs_dst_c
    let z := if z0 ≠ 0 then abs_dst_c - z0 else z0
    let coeffs := mk_coeffs_without dst.m_vars x
    let s1 := s.add_divides coeffs (dst.m_coeff + z) abs_dst_c
    let s2 := s1.add row_dst z
    let s3 := s2.mul row_dst (src_c * n_sign dst_c)
    s3.mul_add false row_dst abs_dst_c row_src
  else
    let z0 := mod src_val abs_src_c
    let z := if z0 ≠ 0 then abs_src_c - z0 else z0
    let coeffs := mk_coeffs_without src.m_vars x
    let s1 := s.add_divides coeffs (src.m_coeff + z) abs_src_c
    let s2 := s1.mul row_dst abs_src_c
    let s3 := s2.add row_dst (z * dst_c * n_sign src_c)
    s3.mul_add false row_dst (dst_c * n_sign src_c) row_src

/-- `resolve(unsigned row_src, rational const& a1, unsigned row_dst, unsigned x)`. -/
def resolve (s : model_based_opt) (row_src : Nat) (a1 : ℚ) (row_dst x : Nat) :
    model_based_opt :=
  if (s.get_row row_dst).m_alive then
    let a2 := s.get_coefficient row_dst x
    if s.is_int x then
      let s1 :=
        if (decide (0 < a1) != decide (0 < a2))
            || decide ((s.get_row row_src).m_type = ineq_type.t_eq) then
          s.mul_add_int x a1 row_src a2 row_dst
        else
          (s.mul row_dst |a1|).mul_add false row_dst (-|a2|) row_src
      s1.normalize row_dst
    else
      s.mul_add (decide (row_dst ≠ m_objective_id) && (decide (0 < a1) == decide (0 < a2)))
        row_dst (-a2 / a1) row_src
  else s

/-- `solve(unsigned row_src, rational const& a1, unsigned row_dst, unsigned x)`. -/
def solve (s : model_based_opt) (row_src : Nat) (a1 : ℚ) (row_dst x : Nat) :
    model_based_opt :=
  if !(s.get_row row_dst).m_alive then s
  else
    let a2 := s.get_coefficient row_dst x
    (((s.mul row_dst a1).mul_add false row_dst (-a2) row_src)).normalize row_dst

/-- `replace_var(row_id, x, C)`: update row with x |-> C. -/
def replace_var1 (s : model_based_opt) (row_id x : Nat) (C : ℚ) : model_based_opt :=
  let r := s.get_row row_id
  let coeff := r.m_vars.foldl (fun k v => if v.m_id = x then v.m_coeff else k) 0
  s.put_row row_id
    { r with m_vars := r.m_vars.filter (fun v => v.m_id ≠ x),
             m_coeff := r.m_coeff + coeff * C,
             m_value := r.m_value + coeff * (C - s.eval x) }

/-- `replace_var(row_id, x, A, y, B)`: update row with x |-> A*y + B. -/
def replace_var2 (s : model_based_opt) (row_id x : Nat) (A : ℚ) (y : Nat) (B : ℚ) :
    model_based_opt :=
  let coeff := s.get_coefficient row_id x
  if coeff = 0 then s
  else if !(s.get_row row_id).m_alive then s
  else
    let s1 := s.replace_var1 row_id x B
    let r := s1.get_row row_id
    let vs := r.m_vars ++ [⟨y, coeff * A⟩]
    let vs2 := if !vs.isEmpty && decide ((vs.getLastD {}).m_id > y) then sort_vars vs else vs
    let s2 := s1.put_row row_id
      { r with m_vars := vs2, m_value := r.m_value + coeff * A * s1.eval y }
    s2.push_row_id y row_id

/-- `replace_var(row_id, x, A, y, B, z)`: update row with x |-> A*y + B*z. -/
def replace_var3 (s : model_based_opt) (row_id x : Nat) (A : ℚ) (y : Nat) (B : ℚ) (z : Nat) :
    model_based_opt :=
  let coeff := s.get_coefficient row_id x
  if coeff = 0 ∨ (s.get_row row_id).m_alive = false then s
  else
    let s1 := s.replace_var1 row_id x 0
    let r := s1.get_row row_id
    let vs1 := if A ≠ 0 then r.m_vars ++ [⟨y, coeff * A⟩] else r.m_vars
    let vs2 := if B ≠ 0 then vs1 ++ [⟨z, coeff * B⟩] else vs1
    let s2 := s1.put_row row_id
      { r with m_vars := sort_vars vs2,
               m_value := r.m_value + coeff * A * s1.eval y + coeff * B * s1.eval z }
    let s3 := if A ≠ 0 then s2.push_row_id y row_id else s2
    if B ≠ 0 then s3.push_row_id z row_id else s3

/-- The locals of `find_bound`: `bound_row_index` (`none` is `UINT_MAX`), `bound_coeff`,
`lub_val`, `m_above`, `m_below` and the `visited` set. -/
structure bound_scan where
  bound_row_index : Option Nat := none
  bound_coeff : ℚ := 0
  lub_val : ℚ := 0
  m_above : List Nat := []
  m_below : List Nat := []
  visited : List Nat := []
  deriving DecidableEq, Repr

/-- One iteration of the loop of `find_bound`. -/
def find_bound_step (s : model_based_opt) (x : Nat) (is_pos : Bool) (b : bound_scan)
    (row_id : Nat) : bound_scan :=
  if b.visited.contains row_id then b
  else
    let b := { b with visited := b.visited ++ [row_id] }
    let r := s.get_row row_id
    if !r.m_alive then b
    else
      let a := s.get_coefficient row_id x
      if a = 0 then b
      else if decide (0 < a) == is_pos || decide (r.m_type = ineq_type.t_eq) then
        let value := s.eval x - r.m_value / a
        match b.bound_row_index with
        | none => { b with lub_val := value, bound_row_index := some row_id, bound_coeff := a }
        | some old =>
            if (decide (value = b.lub_val) && decide (r.m_type = ineq_type.t_lt))
                || (is_pos && decide (value < b.lub_val))
                || (!is_pos && decide (value > b.lub_val)) then
              { b with m_above := b.m_above ++ [old], lub_val := value,
                       bound_row_index := some row_id, bound_coeff := a }
            else { b with m_above := b.m_above ++ [row_id] }
      else { b with m_below := b.m_below ++ [row_id] }

/-- `find_bound(x, bound_row_index, bound_coeff, is_pos)`; the result carries the output
parameters and the scratch vectors `m_above`, `m_below`. -/
def find_bound (s : model_based_opt) (x : Nat) (is_pos : Bool) : bound_scan :=
  (s.row_ids x).foldl (find_bound_step s x is_pos) {}

/-- One iteration of the first loop of `update_values` for the trail entry `(x, row_id)`. -/
def update_values_step (s : model_based_opt) (x row_id : Nat) : model_based_opt :=
  let r := s.get_row row_id
  let old_x_val := s.eval x
  let val := r.m_vars.foldl
    (fun val v => if x = v.m_id then val else val + s.eval v.m_id * v.m_coeff) r.m_coeff
  let x_coeff := r.m_vars.foldl (fun k v => if x = v.m_id then v.m_coeff else k) 0
  let new_x_val := -val / x_coeff
  let eps := min 1 (|old_x_val - new_x_val| / 2)
  let new_x_val2 :=
    if r.m_type = ineq_type.t_lt then
      if 0 < x_coeff then new_x_val - eps else new_x_val + eps
    else new_x_val
  let s1 := s.set_value x new_x_val2
  s1.put_row row_id { r with m_value := s1.eval_row r }

/-- `update_values(bound_vars, bound_trail)`. -/
def update_values (s : model_based_opt) (bound_vars bound_trail : List Nat) :
    model_based_opt :=
  let trail := (bound_vars.zip bound_trail).reverse
  let s1 := trail.foldl (fun st p => st.update_values_step p.1 p.2) s
  trail.foldl
    (fun st p => (st.row_ids p.1).foldl
      (fun st2 row_id =>
        let r := st2.get_row row_id
        st2.put_row row_id { r with m_value := st2.eval_row r }) st)
    s1

/-- The body of the `while` loop of `maximize` together with its exits; `none` is
exhaustion of the fuel. -/
def maximize_loop : Nat → model_based_opt → List Nat → List Nat →
    Option (model_based_opt × inf_eps)
  | 0, _, _, _ => none
  | fuel + 1, s, bound_trail, bound_vars =>
      match s.objective.m_vars.getLast? with
      | none =>
          let s1 := s.update_values bound_vars bound_trail
          let value := s1.objective.m_value
          if s1.objective.m_type = ineq_type.t_lt then some (s1, inf_eps.finite value (-1))
          else some (s1, inf_eps.finite value 0)
      | some v =>
          let x := v.m_id
          let coeff := v.m_coeff
          let b := s.find_bound x (decide (0 < coeff))
          match b.bound_row_index with
          | some bound_row_index =>
              let s1 := b.m_above.foldl
                (fun st above => st.resolve bound_row_index b.bound_coeff above x) s
              let s2 := b.m_below.foldl
                (fun st below => st.resolve bound_row_index b.bound_coeff below x) s1
              let s3 := s2.mul_add false m_objective_id (-coeff / b.bound_coeff) bound_row_index
              let s4 := s3.retire_row bound_row_index
              maximize_loop fuel s4 (bound_trail ++ [bound_row_index]) (bound_vars ++ [x])
          | none => some (s.update_values bound_vars bound_trail, inf_eps.infinity)

/-- `maximize()`; `fuel` bounds the number of iterations of the loop. -/
def maximize (fuel : Nat) (s : model_based_opt) : Option (model_based_opt × inf_eps) :=
  maximize_loop fuel s [] []

/-- One iteration of the loop of `solve_for` over `m_var2row_ids[x]`; the state is paired
with the `visited` set. -/
def solve_for_step (row_id1 : Nat) (a : ℚ) (x : Nat) (p : model_based_opt × List Nat)
    (row_id2 : Nat) : model_based_opt × List Nat :=
  if p.2.contains row_id2 then p
  else
    let visited := p.2 ++ [row_id2]
    let s := p.1
    if !(s.get_row row_id2).m_alive then (s, visited)
    else
      let b := s.get_coefficient row_id2 x
      if b = 0 then (s, visited)
      else
        match (s.get_row row_id2).m_type with
        | ineq_type.t_eq => (s.solve row_id1 a row_id2 x, visited)
        | ineq_type.t_lt => (s.solve row_id1 a row_id2 x, visited)
        | ineq_type.t_le => (s.solve row_id1 a row_id2 x, visited)
        | _ => (s, visited)

/-- `solve_for(unsigned row_id1, unsigned x, bool compute_def)`. -/
def solve_for (s : model_based_opt) (row_id1 x : Nat) (compute_def : Bool) :
    model_based_opt × Option def_ :=
  let a0 := s.get_coefficient row_id1 x
  let r0 := s.get_row row_id1
  let ty := r0.m_type
  let a := if a0 < 0 then -a0 else a0
  let r1 := if a0 < 0 then r0.neg else r0
  let r2 := if ty = ineq_type.t_lt
            then { r1 with m_coeff := r1.m_coeff - r1.m_value, m_type := ineq_type.t_le,
                           m_value := 0 }
            else r1
  let s1 :=
    if s.is_int x && !decide (a = 1) then
      let r3 := { r2 with m_coeff := r2.m_coeff - r2.m_value, m_value := 0 }
      let st := s.put_row row_id1 r3
      let coeffs := mk_coeffs_without r3.m_vars x
      let c := mod (-(st.eval_vars coeffs)) a
      st.add_divides coeffs c a
    else s.put_row row_id1 r2
  let s2 := ((s1.row_ids x).foldl (solve_for_step row_id1 a x) (s1, [row_id1])).1
  if compute_def then
    let result := def_.from_row (s2.get_row row_id1) x
    let s3 := s2.set_value x (s2.eval_def result)
    (s3.retire_row row_id1, some result)
  else (s2.retire_row row_id1, none)

/-- `eliminate(unsigned v, def& new_def)`. -/
def eliminate (s : model_based_opt) (v : Nat) (new_def : def_) : model_based_opt :=
  { s with m_result := s.m_result.map (fun d => d.map (def_.substitute v new_def)) }

/-- The locals of the scan loop of `project`; `none` is `UINT_MAX`. -/
structure project_scan where
  lub_rows : List Nat := []
  glb_rows : List Nat := []
  divide_rows : List Nat := []
  mod_rows : List Nat := []
  div_rows : List Nat := []
  lub_index : Option Nat := none
  glb_index : Option Nat := none
  lub_strict : Bool := false
  glb_strict : Bool := false
  lub_val : ℚ := 0
  glb_val : ℚ := 0
  lub_is_unit : Bool := true
  glb_is_unit : Bool := true
  eq_row : Option Nat := none
  visited : List Nat := []
  deriving DecidableEq, Repr

/-- One iteration of the scan loop of `project` ("select the lub and glb"). -/
def project_scan_step (s : model_based_opt) (x : Nat) (p : project_scan) (row_id : Nat) :
    project_scan :=
  if p.visited.contains row_id then p
  else
    let p := { p with visited := p.visited ++ [row_id] }
    let r := s.get_row row_id
    if !r.m_alive then p
    else
      let a := s.get_coefficient row_id x
      if a = 0 then p
      else if r.m_type = ineq_type.t_eq then { p with eq_row := some row_id }
      else if r.m_type = ineq_type.t_mod then { p with mod_rows := p.mod_rows ++ [row_id] }
      else if r.m_type = ineq_type.t_div then { p with div_rows := p.div_rows ++ [row_id] }
      else if r.m_type = ineq_type.t_divides then
        { p with divide_rows := p.divide_rows ++ [row_id] }
      else if 0 < a then
        let lub_value := s.eval x - r.m_value / a
        let p1 :=
          if p.lub_rows.isEmpty || decide (lub_value < p.lub_val)
              || (decide (lub_value = p.lub_val) && decide (r.m_type = ineq_type.t_lt)
                    && !p.lub_strict) then
            { p with lub_val := lub_value, lub_index := some row_id,
                     lub_strict := decide (r.m_type = ineq_type.t_lt) }
          else p
        { p1 with lub_rows := p1.lub_rows ++ [row_id],
                  lub_is_unit := p1.lub_is_unit && decide (a = 1) }
      else
        let glb_value := s.eval x - r.m_value / a
        let p1 :=
          if p.glb_rows.isEmpty || decide (glb_value > p.glb_val)
              || (decide (glb_value = p.glb_val) && decide (r.m_type = ineq_type.t_lt)
                    && !p.glb_strict) then
            { p with glb_val := glb_value, glb_index := some row_id,
                     glb_strict := decide (r.m_type = ineq_type.t_lt) }
          else p
        { p1 with glb_rows := p1.glb_rows ++ [row_id],
                  glb_is_unit := p1.glb_is_unit && decide (a = -1) }

/-- The inner loop of the "small" case of `project`: resolve the upper-bound row
`row_id1` against every lower-bound row (against a copy unless it is the last upper row). -/
def project_small_inner (x : Nat) (row_id1 : Nat) (coeff : ℚ) (last : Bool)
    (s : model_based_opt) (glb_rows : List Nat) : model_based_opt :=
  glb_rows.foldl
    (fun st row_id2 =>
      if last then st.resolve row_id1 coeff row_id2 x
      else
        let p := st.copy_row row_id2 none
        p.1.resolve row_id1 coeff p.2 x)
    s

/-- The outer loop of the "small" case of `project` over `lub_rows[i..]`. -/
def project_small (x : Nat) (glb_rows : List Nat) : model_based_opt → List Nat →
    model_based_opt
  | s, [] => s
  | s, row_id1 :: rest =>
      let coeff := s.get_coefficient row_id1 x
      project_small (x) glb_rows
        (project_small_inner x row_id1 coeff rest.isEmpty s glb_rows) rest

/-- `solve_divides(x, divide_rows, compute_def)`; `proj` is the recursive call of
`project`. -/
def solve_divides
    (proj : model_based_opt → Nat → Bool → Except error (model_based_opt × Option def_))
    (s : model_based_opt) (x : Nat) (divide_rows : List Nat) (compute_def : Bool) :
    Except error (model_based_opt × Option def_) :=
  let D0 := divide_rows.foldl (fun D idx => lcm D (s.get_row idx).m_mod) 1
  if D0 = 0 then Except.error (error.modulo_zero s)
  else
    let D := if D0 < 0 then |D0| else D0
    let val_x := s.eval x
    let u := mod val_x D
    let s1 := divide_rows.foldl (fun st idx => (st.replace_var1 idx x u).normalize idx) s
    let new_val := (val_x - u) / D
    let py := s1.add_var new_val true
    let y := py.2
    let s2 := ((py.1.row_ids x).foldl
      (fun (p : model_based_opt × List Nat) row_id =>
        if p.2.contains row_id then p
        else (((p.1.replace_var2 row_id x D y u)).normalize row_id, p.2 ++ [row_id]))
      (py.1, [])).1
    match proj s2 y compute_def with
    | Except.error e => Except.error e
    | Except.ok (s3, result) =>
        if compute_def then
          match result with
          | some d =>
              let result2 := (d.mul_q D).add_q u
              Except.ok (s3.set_value x (s3.eval_def result2), some result2)
          | none => Except.ok (s3, none)
        else Except.ok (s3, result)

/-- The body of the loop of `solve_mod_div` over the div rows; the state is paired with
the vector `vs` of auxiliary variables. -/
def solve_div_row (x y z : Nat) (K z_value : ℚ) (p : model_based_opt × List Nat) (ri : Nat) :
    model_based_opt × List Nat :=
  let s := p.1
  let a := s.get_coefficient ri x
  let s1 := s.replace_var1 ri x 0
  let coeffs := (s1.get_row ri).m_vars
  let coeff := (s1.get_row ri).m_coeff
  let pw : model_based_opt × Option Nat × ℚ :=
    if K = 1 then (s1, none, coeff)
    else if coeffs.isEmpty then (s1, none, div coeff K)
    else let q := s1.add_div coeffs coeff K; (q.1, some q.2, 0)
  let s2 := pw.1
  let v := (s2.get_row ri).m_id
  let b_value := s2.eval_vars coeffs + coeff
  let k := div (a * z_value + mod b_value K) K
  let div_coeffs : List var :=
    [⟨v, -1⟩, ⟨y, a⟩] ++
      (match pw.2.1 with
       | some w => [⟨w, 1⟩]
       | none => if K = 1 then coeffs else [])
  let s3 := s2.add_constraint div_coeffs (k + pw.2.2) ineq_type.t_eq
  let pu : model_based_opt × Option Nat × ℚ :=
    if K = 1 then (s3, none, 0)
    else if coeffs.isEmpty then (s3, none, mod coeff K)
    else let q := s3.add_mod coeffs coeff K; (q.1, some q.2, 0)
  let s4 := pu.1
  let bound_coeffs : List var :=
    [⟨z, a⟩] ++ (match pu.2.1 with | some u => [⟨u, 1⟩] | none => [])
  let s5 := s4.add_constraint bound_coeffs (1 - K * (k + 1) + pu.2.2) ineq_type.t_le
  let s6 := s5.add_constraint (bound_coeffs.map (fun c => ⟨c.m_id, -c.m_coeff⟩))
    (k * K - pu.2.2) ineq_type.t_le
  (s6.retire_row ri, p.2 ++ [v])

/-- The body of the loop of `solve_mod_div` over the mod rows (the active `#else`
branch); the state is paired with the vector `vs` of auxiliary variables. -/
def solve_mod_row (x z : Nat) (z_value : ℚ) (p : model_based_opt × List Nat) (ri : Nat) :
    model_based_opt × List Nat :=
  let s := p.1
  let a := s.get_coefficient ri x
  let s1 := s.replace_var1 ri x 0
  let rMod := (s1.get_row ri).m_mod
  let coeffs := (s1.get_row ri).m_vars
  let coeff := (s1.get_row ri).m_coeff
  let v := (s1.get_row ri).m_id
  let v_value := s1.eval v
  let pw : model_based_opt × Option Nat × ℚ :=
    if coeffs.isEmpty ∨ rMod = 1 then (s1, none, mod coeff rMod)
    else let q := s1.add_mod coeffs coeff rMod; (q.1, some q.2, 0)
  let s2 := pw.1
  let w_value := match pw.2.1 with | none => pw.2.2 | some w => s2.eval w
  let V := v_value - a * z_value - w_value
  let mod_coeffs : List var :=
    [⟨v, -1⟩, ⟨z, a⟩] ++ (match pw.2.1 with | some w => [⟨w, 1⟩] | none => [])
  let s3 := s2.add_constraint mod_coeffs (V + pw.2.2) ineq_type.t_eq
  let s4 := s3.add_lower_bound v 0
  let s5 := s4.add_upper_bound v (rMod - 1)
  (s5.retire_row ri, p.2 ++ [v])

/-- The loops of `solve_mod_div` that mark the div rows (scaled by `K / m_mod`) and the
mod rows dead and drop duplicates; returns the state, the `visited` set and the kept ids. -/
def mark_dead (scale : Option ℚ) (p : model_based_opt × List Nat × List Nat) (ri : Nat) :
    model_based_opt × List Nat × List Nat :=
  if p.2.1.contains ri then p
  else
    let s1 := match scale with
      | some K => p.1.mul ri (K / (p.1.get_row ri).m_mod)
      | none => p.1
    (s1.put_row ri { s1.get_row ri with m_alive := false }, p.2.1 ++ [ri], p.2.2 ++ [ri])

/-- Sequencing of the recursive calls `project(v, compute_def)` followed by
`eliminate(v, *v_def)` over the vector `vs`. -/
def project_aux_vars
    (proj : model_based_opt → Nat → Bool → Except error (model_based_opt × Option def_))
    (compute_def : Bool) : model_based_opt → List Nat → Except error model_based_opt
  | s, [] => Except.ok s
  | s, v :: vs =>
      match proj s v compute_def with
      | Except.error e => Except.error e
      | Except.ok (s1, v_def) =>
          let s2 := if compute_def then
              (match v_def with | some d => s1.eliminate v d | none => s1)
            else s1
          project_aux_vars proj compute_def s2 vs

/-- `solve_mod_div(x, mod_rows, div_rows, compute_def)`; `proj` is the recursive call of
`project`. -/
def solve_mod_div
    (proj : model_based_opt → Nat → Bool → Except error (model_based_opt × Option def_))
    (s : model_based_opt) (x : Nat) (mod_rows0 div_rows0 : List Nat) (compute_def : Bool) :
    Except error (model_based_opt × Option def_) :=
  let K1 := div_rows0.foldl (fun K ri => lcm K (s.get_row ri).m_mod) 1
  let K := mod_rows0.foldl (fun K ri => lcm K (s.get_row ri).m_mod) K1
  let x_value := s.eval x
  let z_value := mod x_value K
  let y_value := div x_value K
  let pz := s.add_var z_value true
  let z := pz.2
  let py := pz.1.add_var y_value true
  let y := py.2
  let d1 := div_rows0.foldl (mark_dead (some K)) (py.1, [], [])
  let div_rows := d1.2.2
  let d2 := mod_rows0.foldl (mark_dead none) (d1.1, d1.2.1, [])
  let mod_rows := d2.2.2
  let s3 := ((d2.1.row_ids x).foldl
    (fun (p : model_based_opt × List Nat) ri =>
      if p.2.contains ri then p
      else ((p.1.replace_var3 ri x K y 1 z).normalize ri, p.2 ++ [ri]))
    (d2.1, d2.2.1)).1
  let s4 := s3.add_lower_bound z 0
  let s5 := s4.add_upper_bound z (K - 1)
  let p6 := div_rows.foldl (solve_div_row x y z K z_value) (s5, [])
  let p7 := mod_rows.foldl (solve_mod_row x z z_value) p6
  match project_aux_vars proj compute_def p7.1 p7.2 with
  | Except.error e => Except.error e
  | Except.ok s8 =>
      match proj s8 z compute_def with
      | Except.error e => Except.error e
      | Except.ok (s9, z_def) =>
          match proj s9 y compute_def with
          | Except.error e => Except.error e
          | Except.ok (s10, y_def) =>
              if compute_def then
                match z_def, y_def with
                | some zd, some yd =>
                    let zd2 := def_.substitute y yd zd
                    let s11 := (s10.eliminate y yd).eliminate z zd2
                    let result := def_.add_def (yd.mul_q K) zd2
                    Except.ok (s11.set_value x (s11.eval_def result), some result)
                | _, _ => Except.ok (s10, none)
              else Except.ok (s10, none)

/-- `project(unsigned x, bool compute_def)`; the fuel bounds the depth of the recursion
through `solve_divides` and `solve_mod_div`. -/
def project : Nat → model_based_opt → Nat → Bool →
    Except error (model_based_opt × Option def_)
  | 0, _, _, _ => Except.error error.out_of_fuel
  | fuel + 1, s, x, compute_def =>
      let p := (s.row_ids x).foldl (project_scan_step s x) {}
      if !p.divide_rows.isEmpty then
        solve_divides (project fuel) s x p.divide_rows compute_def
      else if !p.div_rows.isEmpty || !p.mod_rows.isEmpty then
        solve_mod_div (project fuel) s x p.mod_rows p.div_rows compute_def
      else
        match p.eq_row with
        | some eq_row => Except.ok (s.solve_for eq_row x compute_def)
        | none =>
            let lub_size := p.lub_rows.length
            let glb_size := p.glb_rows.length
            let row_index := if lub_size ≤ glb_size then p.lub_index else p.glb_index
            match row_index with
            | none =>
                if compute_def then
                  match p.lub_index, p.glb_index with
                  | some lub_index, _ => Except.ok (s.solve_for lub_index x true)
                  | none, some glb_index => Except.ok (s.solve_for glb_index x true)
                  | none, none => Except.ok (s, some (def_.const_def (s.eval x)))
                else
                  let s1 := p.lub_rows.foldl (fun st row_id => st.retire_row row_id) s
                  let s2 := p.glb_rows.foldl (fun st row_id => st.retire_row row_id) s1
                  Except.ok (s2, none)
            | some row_index =>
                let result : Option def_ :=
                  if compute_def then
                    some (def_.from_row (s.get_row row_index) x)
                  else none
                if (decide (lub_size ≤ 2) || decide (glb_size ≤ 2))
                    && (decide (lub_size ≤ 3) && decide (glb_size ≤ 3))
                    && (!s.is_int x || p.lub_is_unit || p.glb_is_unit) then
                  let s1 := project_small x p.glb_rows s p.lub_rows
                  let s2 := p.lub_rows.foldl (fun st row_id => st.retire_row row_id) s1
                  Except.ok (s2, result)
                else
                  let coeff := s.get_coefficient row_index x
                  let s1 := p.lub_rows.foldl
                    (fun st row_id =>
                      if row_id ≠ row_index then st.resolve row_index coeff row_id x else st) s
                  let s2 := p.glb_rows.foldl
                    (fun st row_id =>
                      if row_id ≠ row_index then st.resolve row_index coeff row_id x else st) s1
                  Except.ok (s2.retire_row row_index, result)

/-- The loop of the batched `project(num_vars, vars, compute_def)`. -/
def project_vars_loop (fuel : Nat) (compute_def : Bool) :
    model_based_opt → List Nat → Except error model_based_opt
  | s, [] => Except.ok s
  | s, x :: xs =>
      match project fuel s x compute_def with
      | Except.error e => Except.error e
      | Except.ok (s1, d) =>
          let s2 := { s1 with m_result := s1.m_result ++ [d] }
          let s3 := if compute_def then
              (match d with | some dd => s2.eliminate x dd | none => s2)
            else s2
          project_vars_loop fuel compute_def s3 xs

/-- `project(unsigned num_vars, unsigned const* vars, bool compute_def)`; the returned
vector is `m_result` of the final state. -/
def project_vars (fuel : Nat) (s : model_based_opt) (vars : List Nat) (compute_def : Bool) :
    Except error model_based_opt :=
  project_vars_loop fuel compute_def { s with m_result := [] } vars

/-! ## Specification predicates -/

/-- No row has been classified by the scan loop of `project`. -/
def scan_unclassified (p : project_scan) : Prop :=
  p.lub_rows = [] ∧ p.glb_rows = [] ∧ p.divide_rows = [] ∧ p.mod_rows = [] ∧
  p.div_rows = [] ∧ p.lub_index = none ∧ p.glb_index = none ∧ p.eq_row = none

/-- The linear form of a row (terms and constant) at the assignment `val`. -/
def lin (r : row) (val : Nat → ℚ) : ℚ :=
  r.m_vars.foldl (fun a v => a + v.m_coeff * val v.m_id) r.m_coeff

/-- The relation of a row holds at the assignment `val`. -/
def holds (r : row) (val : Nat → ℚ) : Prop :=
  match r.m_type with
  | ineq_type.t_eq => lin r val = 0
  | ineq_type.t_lt => lin r val < 0
  | ineq_type.t_le => lin r val ≤ 0
  | ineq_type.t_divides => mod (lin r val) r.m_mod = 0
  | ineq_type.t_mod => val r.m_id = mod (lin r val) r.m_mod
  | ineq_type.t_div => val r.m_id = div (lin r val) r.m_mod

instance (r : row) (val : Nat → ℚ) : Decidable (holds r val) := by
  unfold holds; cases r.m_type <;> exact inferInstance

/-- The assignment `val` is integer-valued on the integral variables of `s` and satisfies
every live constraint row (every live row except the objective row 0). -/
def feasible (s : model_based_opt) (val : Nat → ℚ) : Prop :=
  (∀ x, x < s.m_var2is_int.length → s.is_int x = true → is_int_q (val x) = true) ∧
  ∀ r ∈ s.m_rows.tail, r.m_alive = true → holds r val

/-- The assignment stored in `s`. -/
def assignment (s : model_based_opt) : Nat → ℚ := fun x => s.eval x

/-! ## Scenario stores -/

/-- Scenario A: one variable `x` (id 0) with initial value `x0`, objective `x`,
rows `x - 5 <= 0` and `-x + 1 <= 0`. -/
def scenario_A (x0 : ℚ) (x_is_int : Bool) : model_based_opt :=
  let p := init.add_var x0 x_is_int
  let s := p.1.set_objective [⟨0, 1⟩] 0
  let s := s.add_constraint [⟨0, 1⟩] (-5) ineq_type.t_le
  s.add_constraint [⟨0, -1⟩] 1 ineq_type.t_le

/-- Scenario B: one integral variable `x` (id 0) with value `x0`,
rows `2x - 3 <= 0` and `-x <= 0`. -/
def scenario_B (x0 : ℚ) : model_based_opt :=
  let p := init.add_var x0 true
  let s := p.1.add_constraint [⟨0, 2⟩] (-3) ineq_type.t_le
  s.add_constraint [⟨0, -1⟩] 0 ineq_type.t_le

/-- Scenario C: one integral variable `x` (id 0) with value 2 and the divisibility row
`3 | (x + 1)`. -/
def scenario_C : model_based_opt :=
  let p := init.add_var 2 true
  p.1.add_divides [⟨0, 1⟩] 1 3

/-- Two real variables `x` (id 0), `y` (id 1), both 0, objective `x`, rows `x - y <= 0`,
`2x - y - 2 <= 0`, `y - 10 <= 0`. -/
def counter_cell : model_based_opt :=
  let p := init.add_var 0 false
  let p := p.1.add_var 0 false
  let s := p.1.set_objective [⟨0, 1⟩] 0
  let s := s.add_constraint [⟨0, 1⟩, ⟨1, -1⟩] 0 ineq_type.t_le
  let s := s.add_constraint [⟨0, 2⟩, ⟨1, -1⟩] (-2) ineq_type.t_le
  s.add_constraint [⟨1, 1⟩] (-10) ineq_type.t_le

/-- Two integral variables `x` (id 0), `y` (id 1), both 0, objective `x`, rows
`x - y = 0` and `x - 5 <= 0`. -/
def counter_int_eq : model_based_opt :=
  let p := init.add_var 0 true
  let p := p.1.add_var 0 true
  let s := p.1.set_objective [⟨0, 1⟩] 0
  let s := s.add_constraint [⟨0, 1⟩, ⟨1, -1⟩] 0 ineq_type.t_eq
  s.add_constraint [⟨0, 1⟩] (-5) ineq_type.t_le

/-- One real variable `x` (id 0) with value 3, rows `x - 5 <= 0` and `-x + 1 <= 0`. -/
def counter_two_sided : model_based_opt :=
  let p := init.add_var 3 false
  let s := p.1.add_constraint [⟨0, 1⟩] (-5) ineq_type.t_le
  s.add_constraint [⟨0, -1⟩] 1 ineq_type.t_le

/-- Two real variables `x` (id 0), `y` (id 1), both 3, rows `x - y = 0` and `x - 5 <= 0`. -/
def eq_store : model_based_opt :=
  let p := init.add_var 3 false
  let p := p.1.add_var 3 false
  let s := p.1.add_constraint [⟨0, 1⟩, ⟨1, -1⟩] 0 ineq_type.t_eq
  s.add_constraint [⟨0, 1⟩] (-5) ineq_type.t_le

/-- The store of Scenario B with a second, unconstrained real variable (id 1). -/
def scenario_B_extra : model_based_opt := ((scenario_B 1).add_var 7 false).1

/-- Scenario D family: one variable `x` (id 0) with value `x0`, the single row
`x + c <= 0`, objective `x` (Scenario D itself is `c = 1`). -/
def scenario_D (x0 c : ℚ) (x_is_int : Bool) : model_based_opt :=
  let p := init.add_var x0 x_is_int
  let s := p.1.add_constraint [⟨0, 1⟩] c ineq_type.t_le
  s.set_objective [⟨0, 1⟩] 0

end model_based_opt

/-! ## Predicates of the lemma library -/

open model_based_opt

/-- The state `t` agrees with `s` on every row except row `j`, and on the variable
values and integrality flags. -/
def same_except (j : Nat) (s t : model_based_opt) : Prop :=
  (∀ i, i ≠ j → t.get_row i = s.get_row i) ∧ t.m_var2value = s.m_var2value ∧
  t.m_var2is_int = s.m_var2is_int ∧ t.m_rows.length = s.m_rows.length

/-- The sum of the terms `coeff * val id` of a term list. -/
def sum_vars (val : Nat → ℚ) (vs : List var) : ℚ :=
  (vs.map (fun v => v.m_coeff * val v.m_id)).sum

/-- The term list is sorted by strictly ascending variable id. -/
def sorted_ids (vs : List var) : Prop := (vs.map (fun v => v.m_id)).Sorted (· < ·)

/-- Linear lookup of the coefficient of `x` in a term list (0 when absent). -/
def coeff_of (vs : List var) (x : Nat) : ℚ :=
  match vs.find? (fun v => v.m_id = x) with
  | some v => v.m_coeff
  | none => 0

/-- The class that the scan loop of `project` gives to row `j` for the variable `x`:
0 skipped (dead or zero coefficient), 1 equality, 2 mod, 3 div, 4 divisibility,
5 upper bound (positive coefficient), 6 lower bound. -/
def scan_kind (s : model_based_opt) (x j : Nat) : Nat :=
  if (s.get_row j).m_alive = false then 0
  else if s.get_coefficient j x = 0 then 0
  else if (s.get_row j).m_type = ineq_type.t_eq then 1
  else if (s.get_row j).m_type = ineq_type.t_mod then 2
  else if (s.get_row j).m_type = ineq_type.t_div then 3
  else if (s.get_row j).m_type = ineq_type.t_divides then 4
  else if 0 < s.get_coefficient j x then 5
  else 6

/-- The row ids of `l` that are not in `seen`, without repetition, in order of first
occurrence: the rows that a loop guarded by a `visited` set processes. -/
def fresh_ids : List Nat → List Nat → List Nat
  | _, [] => []
  | seen, a :: l => if a ∈ seen then fresh_ids seen l else a :: fresh_ids (seen ++ [a]) l

/-- Row `i` and the variable values are the same in `t` as in `s`. -/
def keeps_row (i : Nat) (s t : model_based_opt) : Prop :=
  t.get_row i = s.get_row i ∧ t.m_var2value = s.m_var2value

/-- The result of the scan loop of `project` on the state `s`. -/
def scan_result (s : model_based_opt) (x : Nat) : project_scan :=
  (s.row_ids x).foldl (project_scan_step s x) {}

/-- `x` occurs in no live divisibility, mod or div row listed for it. -/
def no_div_rows (s : model_based_opt) (x : Nat) : Prop :=
  ∀ j ∈ s.row_ids x, (s.get_row j).m_alive = true → s.get_coefficient j x ≠ 0 →
    (s.get_row j).m_type ≠ ineq_type.t_mod ∧ (s.get_row j).m_type ≠ ineq_type.t_div ∧
    (s.get_row j).m_type ≠ ineq_type.t_divides

/-- The row `2*v1 + 3*v4 + 5*v7 <= 0` (no store attached). -/
def sample_row : row := { m_vars := [⟨1, 2⟩, ⟨4, 3⟩, ⟨7, 5⟩] }

/-- One real variable `x` (id 0) with value 0 and the strict rows `x - 1 < 0` (row 1) and
`x - 2 < 0` (row 2). -/
def counter_strict : model_based_opt :=
  let p := init.add_var 0 false
  let s := p.1.add_constraint [⟨0, 1⟩] (-1) ineq_type.t_lt
  s.add_constraint [⟨0, 1⟩] (-2) ineq_type.t_lt

/-- The pair `(g, all_int)` computed by `normalize` for a row with at least one term. -/
def normalize_pair (r : row) : ℚ × Bool :=
  let g0 : ℚ := |(r.m_vars.headD {}).m_coeff|
  let p := normalize_gcd r.m_vars.tail g0 (is_int_q g0)
  if p.2 && !(r.m_coeff == 0) then
    if is_int_q r.m_coeff then (gcd p.1 |r.m_coeff|, p.2) else (p.1, false)
  else p

/-- One integral variable `x` (id 0) with value -1 and the strict constraint
`x + 1/2 < 0`, which holds at `x = -1`. -/
def counter_promote : model_based_opt :=
  let p := init.add_var (-1) true
  p.1.add_constraint [⟨0, 1⟩] (1 / 2) ineq_type.t_lt

/-- One integral variable `x` (id 0) with value -1 and a fresh row 1. -/
def promote_store : model_based_opt := (init.add_var (-1) true).1.new_row.1

/-- Follows the spec's words: the gcd of the absolute coefficients and (when nonzero) the
absolute constant of a row. -/
def row_gcd (r : row) : ℚ :=
  let g := r.m_vars.foldl (fun g v => gcd g |v.m_coeff|) 0
  if r.m_coeff = 0 then g else gcd g |r.m_coeff|

/-- The store of `promote_store` with the un-normalised row `2x - 4 <= 0` in row 1. -/
def gcd_store : model_based_opt := promote_store.set_row 1 [⟨0, 2⟩] (-4) 0 ineq_type.t_le

/-- The natural-number gcd of a start value and the numerators of a term list. -/
def gcd_nat (l : List var) (k : ℕ) : ℕ :=
  l.foldl (fun k v => Nat.gcd k v.m_coeff.num.natAbs) k

/-- The row obtained by dividing every coefficient, the constant, the cached value and the
modulus of `r` by `g`. -/
def row_div (r : row) (g : ℚ) : row :=
  { r with m_vars := r.m_vars.map (fun v => (⟨v.m_id, v.m_coeff / g⟩ : var)),
           m_coeff := r.m_coeff / g, m_value := r.m_value / g, m_mod := r.m_mod / g }

/-- Two real variables `x` (id 0), `y` (id 1), both 0, and the row `x + y <= 0` (row 1). -/
def copy_store : model_based_opt :=
  let p := init.add_var 0 false
  let p := p.1.add_var 0 false
  p.1.add_constraint [⟨0, 1⟩, ⟨1, 1⟩] 0 ineq_type.t_le

/-- One integral variable `x` (id 0) with value 2 and the divisibility row `0 | (x + 1)`
(modulus zero) in row 1. -/
def divides_zero_store : model_based_opt :=
  let p := init.add_var 2 true
  (p.1.add_constraint5 [⟨0, 1⟩] 1 0 ineq_type.t_divides 0).1

/-- One integral variable `x` (id 0) with value 2 and the mod-definition row
`v1 = x mod 0` (modulus zero) in row 1. -/
def mod_zero_store : model_based_opt :=
  let p := init.add_var 2 true
  (p.1.add_mod [⟨0, 1⟩] 0 0).1

/-- A recursive call that always raises. -/
def failing_proj : model_based_opt → Nat → Bool → Except error (model_based_opt × Option def_) :=
  fun _ _ _ => Except.error error.out_of_fuel

/-- The store of the mod/div round trip: integral variables `x` (id 0, value `x0`) and `w`
(id 1, value `w0`), the auxiliary variable `aux` (id 2) defined by the row
`aux = (a*x + b*w + c) div K` (or `mod K`), and an integral variable `p` (id 3) with the
row `p - aux = 0`, through whose definition the definition of `aux` is returned. -/
def round_trip_store (isdiv : Bool) (x0 w0 a b c K : ℚ) : model_based_opt :=
  let p := init.add_var x0 true
  let p := p.1.add_var w0 true
  let q := if isdiv then p.1.add_div [⟨0, a⟩, ⟨1, b⟩] c K else p.1.add_mod [⟨0, a⟩, ⟨1, b⟩] c K
  let r := q.1.add_var (q.1.eval q.2) true
  r.1.add_constraint [⟨r.2, 1⟩, ⟨q.2, -1⟩] 0 ineq_type.t_eq

/-- Evaluation of a definition at an arbitrary assignment `val` (`eval(def)` of the source
evaluates at the stored assignment). -/
def eval_def_at (val : Nat → ℚ) : def_ → ℚ
  | def_.add_def x y => eval_def_at val x + eval_def_at val y
  | def_.div_def x m => eval_def_at val x / m
  | def_.mul_def x y => eval_def_at val x * eval_def_at val y
  | def_.var_def v => v.m_coeff * val v.m_id
  | def_.const_def c => c

/-- The `i`-th definition returned by the batched `project` (the constant 0 if absent). -/
def result_def (s : model_based_opt) (i : Nat) : def_ :=
  (s.m_result.getD i none).getD (def_.const_def 0)

instance (s : model_based_opt) (val : Nat → ℚ) : Decidable (feasible s val) := by
  unfold feasible
  exact inferInstance

/-- The assignment `val` satisfies every live constraint row of `s` and is integer-valued
on the integral variables that occur in a live constraint row. -/
def rows_hold (s : model_based_opt) (val : Nat → ℚ) : Prop :=
  ∀ r ∈ s.m_rows.tail, r.m_alive = true →
    holds r val ∧ ∀ v ∈ r.m_vars, s.is_int v.m_id = true → is_int_q (val v.m_id) = true

instance (s : model_based_opt) (val : Nat → ℚ) : Decidable (rows_hold s val) := by
  unfold rows_hold
  exact inferInstance

/-- The round-trip identity at the assignment `val` for the definitions returned by
`project({p, x}, true)` on `round_trip_store`: both definitions are returned, `val`
satisfies the live rows (integer-valued on their integral variables), and the value of the
definition of `p` (that is, of `aux`) is `(a*x + b*w + c) div K` (resp. `mod K`) at the
value of the definition of `x`. -/
@[irreducible]
def round_trip_at (isdiv : Bool) (x0 w0 a b c K : ℚ) (val : model_based_opt → Nat → ℚ) : Prop :=
  match project_vars 10 (round_trip_store isdiv x0 w0 a b c K) [3, 0] true with
  | Except.ok s1 =>
      (s1.m_result.getD 0 none).isSome = true ∧ (s1.m_result.getD 1 none).isSome = true ∧
      rows_hold s1 (val s1) ∧
      eval_def_at (val s1) (result_def s1 0) =
        (if isdiv then
          div (a * eval_def_at (val s1) (result_def s1 1) + b * val s1 1 + c) K
         else
          mod (a * eval_def_at (val s1) (result_def s1 1) + b * val s1 1 + c) K)
  | Except.error _ => False

instance (isdiv : Bool) (x0 w0 a b c K : ℚ) (val : model_based_opt → Nat → ℚ) :
    Decidable (round_trip_at isdiv x0 w0 a b c K val) := by
  unfold round_trip_at
  split <;> exact inferInstance

/-- The assignment `w = 7`, `v6 = -4`, `v7 = 2` (all other variables 0). -/
def off_model_val : Nat → ℚ := fun i => [0, 7, 0, 0, 0, 0, -4, 2].getD i 0

/-- The part of well-formedness of a store used by projection: the retired row ids are
distinct dead rows of the store, and the terms of every live row are sorted by strictly
ascending id. -/
def store_wf (s : model_based_opt) : Prop :=
  (∀ j ∈ s.m_retired_rows, (s.get_row j).m_alive = false ∧ j < s.m_rows.length) ∧
  s.m_retired_rows.Nodup ∧
  ∀ j, (s.get_row j).m_alive = true → sorted_ids (s.get_row j).m_vars

/-- Row `j` is dead or has coefficient 0 for `x`. -/
def cancelled (x : Nat) (s : model_based_opt) (j : Nat) : Prop :=
  (s.get_row j).m_alive = true → s.get_coefficient j x = 0

/-- The state `t` is well formed, keeps every live row of `s` outside `P`, and every row
outside `P` that is dead in `s` is dead or without `x` in `t`; the integrality flags are
those of `s`. -/
def frame (x : Nat) (P : Nat → Prop) (s t : model_based_opt) : Prop :=
  store_wf t ∧
  (∀ j, ¬ P j → (s.get_row j).m_alive = true → t.get_row j = s.get_row j) ∧
  (∀ j, ¬ P j → (s.get_row j).m_alive = false → cancelled x t j) ∧
  t.m_var2is_int = s.m_var2is_int

/-- Relative to `s0`, only row `t` has changed in `s`; it is live with coefficient `a`
for `x`. -/
def dst_state (x t : Nat) (a : ℚ) (s0 s : model_based_opt) : Prop :=
  frame x (fun j => j = t) s0 s ∧ (s.get_row t).m_alive = true ∧ s.get_coefficient t x = a

/-- Every live row of `l` outside `V` in which `x` occurs is an equality or an inequality. -/
def open_rows (x : Nat) (l V : List Nat) (s : model_based_opt) : Prop :=
  ∀ j ∈ l, j ∉ V → (s.get_row j).m_alive = true → s.get_coefficient j x ≠ 0 →
    (s.get_row j).m_type = ineq_type.t_eq ∨ (s.get_row j).m_type = ineq_type.t_lt ∨
    (s.get_row j).m_type = ineq_type.t_le

/-- The state of the loop of `solve_for`: the pivot row is `r0` and visited, every other
visited row is without `x`, and `x` occurs outside the visited rows only in equalities and
inequalities. -/
def solve_for_inv (x src : Nat) (l : List Nat) (r0 : row) (p : model_based_opt × List Nat) :
    Prop :=
  store_wf p.1 ∧ p.1.get_row src = r0 ∧ src ∈ p.2 ∧ open_rows x l p.2 p.1 ∧
  ∀ j ∈ p.2, j ≠ src → cancelled x p.1 j

/-- A live row in which `x` occurs and that is not an equality. -/
def bound_row (x : Nat) (s : model_based_opt) (t : Nat) : Prop :=
  (s.get_row t).m_alive = true ∧ s.get_coefficient t x ≠ 0 ∧
  (s.get_row t).m_type ≠ ineq_type.t_eq

/-- The bound on `x` that row `j` gives under the current assignment:
`x_val - value / a` of the scan loop of `project`. -/
def bound_value (s : model_based_opt) (x j : Nat) : ℚ :=
  s.eval x - (s.get_row j).m_value / s.get_coefficient j x

/-- Two real copies of the bound 5 on `x` (id 0, value 0): row 1 is `x - 5 <= 0` and row 2
is `x - 5 < 0`. -/
def tie_store : model_based_opt :=
  let p := init.add_var 0 false
  let s := p.1.add_constraint [⟨0, 1⟩] (-5) ineq_type.t_le
  s.add_constraint [⟨0, 1⟩] (-5) ineq_type.t_lt

/-- The lower-bound analogue of `tie_store`: row 1 is `-x - 5 <= 0` and row 2 is
`-x - 5 < 0`. -/
def tie_store_glb : model_based_opt :=
  let p := init.add_var 0 false
  let s := p.1.add_constraint [⟨0, -1⟩] (-5) ineq_type.t_le
  s.add_constraint [⟨0, -1⟩] (-5) ineq_type.t_lt

/-- The tracked upper-bound row of the scan of `project` gives the least bound among the
upper rows seen so far and is strict when a strict row attains that bound. -/
def lub_tracked (s : model_based_opt) (x : Nat) (p : project_scan) : Prop :=
  (p.lub_index = none ∧ p.lub_rows = []) ∨
  ∃ i, p.lub_index = some i ∧ i ∈ p.lub_rows ∧ p.lub_val = bound_value s x i ∧
    p.lub_strict = decide ((s.get_row i).m_type = ineq_type.t_lt) ∧
    ∀ j ∈ p.lub_rows, bound_value s x i ≤ bound_value s x j ∧
      (bound_value s x j = bound_value s x i → (s.get_row j).m_type = ineq_type.t_lt →
        (s.get_row i).m_type = ineq_type.t_lt)

/-- The tracked lower-bound row of the scan of `project` gives the greatest bound among
the lower rows seen so far and is strict when a strict row attains that bound. -/
def glb_tracked (s : model_based_opt) (x : Nat) (p : project_scan) : Prop :=
  (p.glb_index = none ∧ p.glb_rows = []) ∨
  ∃ i, p.glb_index = some i ∧ i ∈ p.glb_rows ∧ p.glb_val = bound_value s x i ∧
    p.glb_strict = decide ((s.get_row i).m_type = ineq_type.t_lt) ∧
    ∀ j ∈ p.glb_rows, bound_value s x j ≤ bound_value s x i ∧
      (bound_value s x j = bound_value s x i → (s.get_row j).m_type = ineq_type.t_lt →
        (s.get_row i).m_type = ineq_type.t_lt)

/-- The local `slack` of the integer resolution `mul_add(x, src_c, row_src, dst_c,
row_dst)`. -/
def int_slack (src_c dst_c : ℚ) : ℚ := (|src_c| - 1) * (|dst_c| - 1)

/-- The local `distance` of the integer resolution `mul_add(x, src_c, row_src, dst_c,
row_dst)`. -/
def int_distance (s : model_based_opt) (x : Nat) (src_c : ℚ) (row_src : Nat) (dst_c : ℚ)
    (row_dst : Nat) : ℚ :=
  |src_c| * ((s.get_row row_dst).m_value - s.eval x * dst_c)
    + |dst_c| * ((s.get_row row_src).m_value - s.eval x * src_c) + int_slack src_c dst_c

/-- The test `use_case1` of the integer resolution: the distance is non-positive or one of
the two coefficients is a unit. -/
def use_case1 (s : model_based_opt) (x : Nat) (src_c : ℚ) (row_src : Nat) (dst_c : ℚ)
    (row_dst : Nat) : Prop :=
  int_distance s x src_c row_src dst_c row_dst ≤ 0 ∨ |src_c| = 1 ∨ |dst_c| = 1

instance (s : model_based_opt) (x : Nat) (src_c : ℚ) (row_src : Nat) (dst_c : ℚ)
    (row_dst : Nat) : Decidable (use_case1 s x src_c row_src dst_c row_dst) := by
  unfold use_case1
  infer_instance

/-- The local `z` of the fallback of the integer resolution: the distance from `v` up to
the next multiple of `d` (`z = mod(v, d); if (!z.is_zero()) z = d - z`). -/
def int_residue (v d : ℚ) : ℚ := if mod v d ≠ 0 then d - mod v d else mod v d

/-- Integral `x = y = 0`, rows `-2x + y - 6 <= 0` (row 1) and `3x + y - 10 <= 0` (row 2):
the distance of the integer resolution on `x` is `-36 <= 0` and no coefficient is a unit. -/
def slack_store : model_based_opt :=
  let p := init.add_var 0 true
  let p := p.1.add_var 0 true
  let s := p.1.add_constraint [⟨0, -2⟩, ⟨1, 1⟩] (-6) ineq_type.t_le
  s.add_constraint [⟨0, 3⟩, ⟨1, 1⟩] (-10) ineq_type.t_le

/-- Integral `x = 1`, `y = 2`, rows `-3x + y + 1 <= 0` (row 1) and `2x - y <= 0` (row 2):
the distance of the integer resolution on `x` is `2 > 0` and no coefficient is a unit. -/
def fallback_store : model_based_opt :=
  let p := init.add_var 1 true
  let p := p.1.add_var 2 true
  let s := p.1.add_constraint [⟨0, -3⟩, ⟨1, 1⟩] 1 ineq_type.t_le
  s.add_constraint [⟨0, 2⟩, ⟨1, -1⟩] 0 ineq_type.t_le

/-- Relative to `s0`: row `t` of `s` is a non-strict inequality with cached value `v`,
which is its evaluation; variable values and integrality flags are those of `s0`. -/
def val_track (t : Nat) (v : ℚ) (s0 s : model_based_opt) : Prop :=
  (s.get_row t).m_value = v ∧ (s.get_row t).m_value = lin (s.get_row t) s0.eval ∧
  (s.get_row t).m_type = ineq_type.t_le ∧ s.m_var2value = s0.m_var2value ∧
  s.m_var2is_int = s0.m_var2is_int ∧ t < s.m_rows.length

/-- Integral `x = y = 0` (ids 0, 1), objective `x`, rows `2x - 3y = 0` (row 1),
`x - 7 <= 0` (row 2) and `y - 10 <= 0` (row 3), all satisfied. -/
def int_eq_bound_store : model_based_opt :=
  let p := init.add_var 0 true
  let p := p.1.add_var 0 true
  let s := p.1.set_objective [⟨0, 1⟩] 0
  let s := s.add_constraint [⟨0, 2⟩, ⟨1, -3⟩] 0 ineq_type.t_eq
  let s := s.add_constraint [⟨0, 1⟩] (-7) ineq_type.t_le
  s.add_constraint [⟨1, 1⟩] (-10) ineq_type.t_le

/-- The coefficient `a` of `solve_for(row_id1, x, _)` after sign-normalisation. -/
def solve_for_coeff (s : model_based_opt) (row_id1 x : Nat) : ℚ :=
  if s.get_coefficient row_id1 x < 0 then -s.get_coefficient row_id1 x
  else s.get_coefficient row_id1 x

/-- The pivot row `r1` of `solve_for(row_id1, x, _)` for an integral `x` with `a != 1`,
after sign-normalisation, the shift of a strict row and `r1.m_coeff -= r1.m_value;
r1.m_value = 0`. -/
def solve_for_pivot (s : model_based_opt) (row_id1 x : Nat) : row :=
  let r0 := s.get_row row_id1
  let r1 := if s.get_coefficient row_id1 x < 0 then r0.neg else r0
  let r2 := if r0.m_type = ineq_type.t_lt
            then { r1 with m_coeff := r1.m_coeff - r1.m_value, m_type := ineq_type.t_le,
                           m_value := 0 }
            else r1
  { r2 with m_coeff := r2.m_coeff - r2.m_value, m_value := 0 }

/-- The constant `c = mod(-eval(coeffs), a)` of the divisibility side-constraint of
`solve_for(row_id1, x, _)`. -/
def solve_for_residue (s : model_based_opt) (row_id1 x : Nat) : ℚ :=
  mod (-((s.put_row row_id1 (solve_for_pivot s row_id1 x)).eval_vars
    (mk_coeffs_without (solve_for_pivot s row_id1 x).m_vars x))) (solve_for_coeff s row_id1 x)

/-- The part of `solve_for(row_id1, x, compute_def)` after the divisibility
side-constraint: the loop over `m_var2row_ids[x]`, the definition and `retire_row`. -/
def solve_for_loop (s1 : model_based_opt) (row_id1 : Nat) (a : ℚ) (x : Nat)
    (compute_def : Bool) : model_based_opt × Option def_ :=
  let s2 := ((s1.row_ids x).foldl (solve_for_step row_id1 a x) (s1, [row_id1])).1
  if compute_def then
    let result := def_.from_row (s2.get_row row_id1) x
    let s3 := s2.set_value x (s2.eval_def result)
    (s3.retire_row row_id1, some result)
  else (s2.retire_row row_id1, none)

/-- Integral `x = 3`, `y = 1`, the equality row `2x - 3y - 3 = 0` (row 1) and the row
`y - 5 <= 0`. -/
def int_eq_store : model_based_opt :=
  let p := init.add_var 3 true
  let p := p.1.add_var 1 true
  let s := p.1.add_constraint [⟨0, 2⟩, ⟨1, -3⟩] (-3) ineq_type.t_eq
  s.add_constraint [⟨1, 1⟩] (-5) ineq_type.t_le

/-- The terms `rest` of the pivot row of `solve_for(row_id1, x, _)` without `x`
(`mk_coeffs_without(coeffs, r1.m_vars, x)`). -/
def solve_for_rest (s : model_based_opt) (row_id1 x : Nat) : List var :=
  mk_coeffs_without (solve_for_pivot s row_id1 x).m_vars x

/-- Row `r2` is row `r` with `x` replaced by `A*y + B`, up to a positive scaling of the
row and of its cached value; `x` does not occur in `r2`. -/
def substituted (x : Nat) (A : ℚ) (y : Nat) (B : ℚ) (r r2 : row) : Prop :=
  ∃ k : ℚ, 0 < k ∧
    (∀ val : Nat → ℚ, lin r2 val = lin r (Function.update val x (A * val y + B)) * k) ∧
    r2.m_value = r.m_value * k ∧ r2.m_alive = true ∧ r2.m_type = r.m_type ∧
    (∀ t ∈ r2.m_vars, t.m_id ≠ x) ∧ sorted_ids r2.m_vars ∧
    r2.get_coefficient y = r.get_coefficient x * A * k

/-- The modulus `D` of `solve_divides(x, divide_rows, _)`: the lcm of the moduli of the
divisibility rows, made positive. -/
def solve_divides_D (s : model_based_opt) (divide_rows : List Nat) : ℚ :=
  let D0 := divide_rows.foldl (fun D idx => lcm D (s.get_row idx).m_mod) 1
  if D0 < 0 then |D0| else D0

/-- The residue `u = mod(val_x, D)` of `solve_divides(x, divide_rows, _)`. -/
def solve_divides_u (s : model_based_opt) (x : Nat) (divide_rows : List Nat) : ℚ :=
  mod (s.eval x) (solve_divides_D s divide_rows)

/-- The state of `solve_divides(x, divide_rows, _)` after its first loop (`replace_var(idx,
x, u); normalize(idx)` over the divisibility rows). -/
def solve_divides_rows (s : model_based_opt) (x : Nat) (divide_rows : List Nat) :
    model_based_opt :=
  divide_rows.foldl
    (fun st idx => (st.replace_var1 idx x (solve_divides_u s x divide_rows)).normalize idx) s

/-- The state of `solve_divides(x, divide_rows, _)` at the recursive call
`project(y, compute_def)`, paired with the fresh variable `y`. -/
def solve_divides_prep (s : model_based_opt) (x : Nat) (divide_rows : List Nat) :
    model_based_opt × Nat :=
  let D := solve_divides_D s divide_rows
  let u := solve_divides_u s x divide_rows
  let py := (solve_divides_rows s x divide_rows).add_var ((s.eval x - u) / D) true
  (((py.1.row_ids x).foldl
      (fun (p : model_based_opt × List Nat) row_id =>
        if p.2.contains row_id then p
        else (((p.1.replace_var2 row_id x D py.2 u)).normalize row_id, p.2 ++ [row_id]))
      (py.1, [])).1, py.2)

/-- The end of `solve_divides` after the recursive call returned `(s3, result)`. -/
def solve_divides_finish (s3 : model_based_opt) (result : Option def_) (x : Nat) (D u : ℚ)
    (compute_def : Bool) : Except error (model_based_opt × Option def_) :=
  if compute_def then
    match result with
    | some d =>
        let result2 := (d.mul_q D).add_q u
        Except.ok (s3.set_value x (s3.eval_def result2), some result2)
    | none => Except.ok (s3, none)
  else Except.ok (s3, result)

/-- Integral `x = 7`, the divisibility row `3 | x + 2` (row 1) and the row `x - 10 <= 0`
(row 2, cached value -3). -/
def divides_store : model_based_opt :=
  let p := init.add_var 7 true
  let s := p.1.add_divides [⟨0, 1⟩] 2 3
  s.add_constraint [⟨0, 1⟩] (-10) ineq_type.t_le

/-- The modulus `K` of `solve_mod_div(x, mod_rows, div_rows, _)`: the lcm of the moduli of
the div rows and of the mod rows. -/
def solve_mod_div_K (s : model_based_opt) (mod_rows0 div_rows0 : List Nat) : ℚ :=
  let K1 := div_rows0.foldl (fun K ri => lcm K (s.get_row ri).m_mod) 1
  mod_rows0.foldl (fun K ri => lcm K (s.get_row ri).m_mod) K1

/-- The state of `solve_mod_div` after the fresh variables `z`, `y` have been added and the
div and mod rows have been marked dead, with the `visited` set, the kept div rows and the
kept mod rows. -/
def solve_mod_div_marked (s : model_based_opt) (x : Nat) (mod_rows0 div_rows0 : List Nat) :
    model_based_opt × List Nat × List Nat × List Nat :=
  let K := solve_mod_div_K s mod_rows0 div_rows0
  let pz := s.add_var (mod (s.eval x) K) true
  let py := pz.1.add_var (div (s.eval x) K) true
  let d1 := div_rows0.foldl (mark_dead (some K)) (py.1, [], [])
  let d2 := mod_rows0.foldl (mark_dead none) (d1.1, d1.2.1, [])
  (d2.1, d2.2.1, d1.2.2, d2.2.2)

/-- The fresh variable `z` of `solve_mod_div`. -/
def solve_mod_div_z (s : model_based_opt) : Nat := s.m_var2value.length

/-- The fresh variable `y` of `solve_mod_div`. -/
def solve_mod_div_y (s : model_based_opt) : Nat := s.m_var2value.length + 1

/-- The state of `solve_mod_div` after the loop that replaces `x` by `K*y + z` in the
other rows. -/
def solve_mod_div_subst (s : model_based_opt) (x : Nat) (mod_rows0 div_rows0 : List Nat) :
    model_based_opt :=
  let m := solve_mod_div_marked s x mod_rows0 div_rows0
  ((m.1.row_ids x).foldl
    (fun (p : model_based_opt × List Nat) ri =>
      if p.2.contains ri then p
      else ((p.1.replace_var3 ri x (solve_mod_div_K s mod_rows0 div_rows0)
        (solve_mod_div_y s) 1 (solve_mod_div_z s)).normalize ri, p.2 ++ [ri]))
    (m.1, m.2.1)).1

/-- The state of `solve_mod_div` after the bounds `0 <= z <= K - 1` have been added. -/
def solve_mod_div_bounds (s : model_based_opt) (x : Nat) (mod_rows0 div_rows0 : List Nat) :
    model_based_opt :=
  ((solve_mod_div_subst s x mod_rows0 div_rows0).add_lower_bound (solve_mod_div_z s) 0
    ).add_upper_bound (solve_mod_div_z s) (solve_mod_div_K s mod_rows0 div_rows0 - 1)

/-- The rest of `solve_mod_div` from the state `s5` with the bounds of `z`: the loops over
the div rows and the mod rows, the recursive calls and the definition. -/
def solve_mod_div_tail
    (proj : model_based_opt → Nat → Bool → Except error (model_based_opt × Option def_))
    (x y z : Nat) (K z_value : ℚ) (div_rows mod_rows : List Nat) (s5 : model_based_opt)
    (compute_def : Bool) : Except error (model_based_opt × Option def_) :=
  let p6 := div_rows.foldl (solve_div_row x y z K z_value) (s5, [])
  let p7 := mod_rows.foldl (solve_mod_row x z z_value) p6
  match project_aux_vars proj compute_def p7.1 p7.2 with
  | Except.error e => Except.error e
  | Except.ok s8 =>
      match proj s8 z compute_def with
      | Except.error e => Except.error e
      | Except.ok (s9, z_def) =>
          match proj s9 y compute_def with
          | Except.error e => Except.error e
          | Except.ok (s10, y_def) =>
              if compute_def then
                match z_def, y_def with
                | some zd, some yd =>
                    let zd2 := def_.substitute y yd zd
                    let s11 := (s10.eliminate y yd).eliminate z zd2
                    let result := def_.add_def (yd.mul_q K) zd2
                    Except.ok (s11.set_value x (s11.eval_def result), some result)
                | _, _ => Except.ok (s10, none)
              else Except.ok (s10, none)

/-- Row `r2` is row `r` with `x` replaced by `A*y + z`, up to a positive scaling of the row
and of its cached value; `x` does not occur in `r2`. -/
def substituted3 (x : Nat) (A : ℚ) (y z : Nat) (r r2 : row) : Prop :=
  ∃ k : ℚ, 0 < k ∧
    (∀ val : Nat → ℚ, lin r2 val = lin r (Function.update val x (A * val y + val z)) * k) ∧
    r2.m_value = r.m_value * k ∧ r2.m_alive = true ∧ r2.m_type = r.m_type ∧
    (∀ t ∈ r2.m_vars, t.m_id ≠ x) ∧ sorted_ids r2.m_vars ∧
    r2.get_coefficient y = r.get_coefficient x * A * k ∧
    r2.get_coefficient z = r.get_coefficient x * k

/-- The store reached from real `x = 2`, integral `v = 1`, `w = v mod 2` (row 1) and the
rows `x + 2v - 6 <= 0`, `-x + 2v - 2 <= 0` by `project(x, false)`: the resolvent
`4v - 8 <= 0` (row 3, cached value -4) is not reduced by its gcd. -/
def mod_store : model_based_opt :=
  let p := init.add_var 2 false
  let p := p.1.add_var 1 true
  let q := p.1.add_mod [⟨1, 1⟩] 0 2
  let s := q.1.add_constraint [⟨0, 1⟩, ⟨1, 2⟩] (-6) ineq_type.t_le
  let s := s.add_constraint [⟨0, -1⟩, ⟨1, 2⟩] (-2) ineq_type.t_le
  match project 1 s 0 false with
  | Except.ok (s1, _) => s1
  | Except.error _ => s

/-- One iteration of the `while` loop of `maximize` that finds a bound row: the state after
`retire_row(bound_row_index)`, with the bound row and the chosen variable; `none` when the
loop exits instead (no term in the objective, or no bound row). -/
def maximize_iteration (s : model_based_opt) : Option (model_based_opt × Nat × Nat) :=
  match s.objective.m_vars.getLast? with
  | none => none
  | some v =>
      let x := v.m_id
      let coeff := v.m_coeff
      let b := s.find_bound x (decide (0 < coeff))
      match b.bound_row_index with
      | some bound_row_index =>
          let s1 := b.m_above.foldl
            (fun st above => st.resolve bound_row_index b.bound_coeff above x) s
          let s2 := b.m_below.foldl
            (fun st below => st.resolve bound_row_index b.bound_coeff below x) s1
          let s3 := s2.mul_add false m_objective_id (-coeff / b.bound_coeff) bound_row_index
          some (s3.retire_row bound_row_index, bound_row_index, x)
      | none => none

/-- Real variables `x = 0` (id 0), `y = 1` (id 1), the objective `3x - 2y` and the rows
`x - y < 0` (row 1) and `x - 1 <= 0` (row 2). -/
def eps_store : model_based_opt :=
  let p := init.add_var 0 false
  let p := p.1.add_var 1 false
  let s := p.1.set_objective [⟨0, 3⟩, ⟨1, -2⟩] 0
  let s := s.add_constraint [⟨0, 1⟩, ⟨1, -1⟩] 0 ineq_type.t_lt
  s.add_constraint [⟨0, 1⟩] (-1) ineq_type.t_le

/-- Integral variables `u`, `y`, `z` (ids 0, 1, 2) with value 0, the objective `z` and the
rows `z - y <= 0` (row 1), `2y + u <= 0` (row 2) and `-3y + u <= 0` (row 3). -/
def recycle_store : model_based_opt :=
  let p := init.add_var 0 true
  let p := p.1.add_var 0 true
  let p := p.1.add_var 0 true
  let s := p.1.set_objective [⟨2, 1⟩] 0
  let s := s.add_constraint [⟨1, -1⟩, ⟨2, 1⟩] 0 ineq_type.t_le
  let s := s.add_constraint [⟨0, 1⟩, ⟨1, 2⟩] 0 ineq_type.t_le
  s.add_constraint [⟨0, 1⟩, ⟨1, -3⟩] 0 ineq_type.t_le

/-- Real variables with ids 0, 1, 2 and value 0, and the row `x0 + x2 <= 0` (row 1). -/
def rv_store : model_based_opt :=
  let p := init.add_var 0 false
  let p := p.1.add_var 0 false
  let p := p.1.add_var 0 false
  p.1.add_constraint [⟨0, 1⟩, ⟨2, 1⟩] 0 ineq_type.t_le

/-- The strict row `x - 5 < 0` over the variable with id 0. -/
def strict_upper_row : row :=
  { m_vars := [⟨0, 1⟩], m_coeff := -5, m_type := ineq_type.t_lt, m_value := -5, m_alive := true }

/-- The definition has a term of the variable `v` (a `var_def` node with id `v`). -/
def mentions (v : Nat) : def_ → Bool
  | def_.add_def x y => mentions v x || mentions v y
  | def_.mul_def x y => mentions v x || mentions v y
  | def_.div_def x _ => mentions v x
  | def_.var_def w => decide (w.m_id = v)
  | def_.const_def _ => false

/-- `def::dec_ref()`: the new reference count and whether the node is released
(`dealloc(this)`).  The counter `m_ref_count` is declared in model_based_opt.h, which is not
part of the sources; it is an unsigned machine integer whose width `w` is a parameter. -/
def def_.dec_ref (w : Nat) (m_ref_count : Nat) : Nat × Bool :=
  let c := (m_ref_count + 1) % 2 ^ w
  (c, decide (c = 0))

/-- The integral variable `x = 7` (id 0) and the div-definition row `v = x div 2` (row 1,
result variable `v` with id 1 and value 3) created by `add_div`. -/
def div_value_store : model_based_opt :=
  let p := init.add_var 7 true
  (p.1.add_div [⟨0, 1⟩] 0 2).1

/-- Real variables `x0 = 1`, `x1 = 2`, `x2 = 3` and the rows `x0 + x1 - 3 <= 0` (row 1) and
`x1 - x2 + 1 <= 0` (row 2). -/
def merge_store : model_based_opt :=
  let p := init.add_var 1 false
  let p := p.1.add_var 2 false
  let p := p.1.add_var 3 false
  let s := p.1.add_constraint [⟨0, 1⟩, ⟨1, 1⟩] (-3) ineq_type.t_le
  s.add_constraint [⟨1, 1⟩, ⟨2, -1⟩] 1 ineq_type.t_le

/-- The body of the loop of `solve_mod_div` over the div rows up to "add w = b div m": the
state, the auxiliary variable `w` (`none` is `UINT_MAX`) and `offset`. -/
def solve_div_row_w (s : model_based_opt) (x ri : Nat) (K : ℚ) :
    model_based_opt × Option Nat × ℚ :=
  let s1 := s.replace_var1 ri x 0
  let coeffs := (s1.get_row ri).m_vars
  let coeff := (s1.get_row ri).m_coeff
  if K = 1 then (s1, none, coeff)
  else if coeffs.isEmpty then (s1, none, div coeff K)
  else let q := s1.add_div coeffs coeff K; (q.1, some q.2, 0)

/-- The local `k = div(a * z_value + mod(b_value, K), K)` of the body of the loop of
`solve_mod_div` over the div rows. -/
def solve_div_row_k (s : model_based_opt) (x ri : Nat) (K z_value : ℚ) : ℚ :=
  let a := s.get_coefficient ri x
  let s1 := s.replace_var1 ri x 0
  let coeffs := (s1.get_row ri).m_vars
  let coeff := (s1.get_row ri).m_coeff
  let s2 := (solve_div_row_w s x ri K).1
  let b_value := s2.eval_vars coeffs + coeff
  div (a * z_value + mod b_value K) K

/-- The terms `div_coeffs` of the equality row that the body of the loop of `solve_mod_div`
over the div rows passes to `add_constraint`. -/
def solve_div_row_terms (s : model_based_opt) (x y ri : Nat) (K : ℚ) : List var :=
  let a := s.get_coefficient ri x
  let s1 := s.replace_var1 ri x 0
  let coeffs := (s1.get_row ri).m_vars
  let pw := solve_div_row_w s x ri K
  let v := (pw.1.get_row ri).m_id
  [⟨v, -1⟩, ⟨y, a⟩] ++
    (match pw.2.1 with
     | some w => [⟨w, 1⟩]
     | none => if K = 1 then coeffs else [])

/-- The body of the loop of `solve_mod_div` over the div rows from "add u = b mod K" on:
`s3` is the state after the equality row has been added. -/
def solve_div_row_tail (z ri : Nat) (K a k coeff : ℚ) (coeffs : List var) (v : Nat)
    (s3 : model_based_opt) (vs : List Nat) : model_based_opt × List Nat :=
  let pu : model_based_opt × Option Nat × ℚ :=
    if K = 1 then (s3, none, 0)
    else if coeffs.isEmpty then (s3, none, mod coeff K)
    else let q := s3.add_mod coeffs coeff K; (q.1, some q.2, 0)
  let s4 := pu.1
  let bound_coeffs : List var :=
    [⟨z, a⟩] ++ (match pu.2.1 with | some u => [⟨u, 1⟩] | none => [])
  let s5 := s4.add_constraint bound_coeffs (1 - K * (k + 1) + pu.2.2) ineq_type.t_le
  let s6 := s5.add_constraint (bound_coeffs.map (fun c => ⟨c.m_id, -c.m_coeff⟩))
    (k * K - pu.2.2) ineq_type.t_le
  (s6.retire_row ri, vs ++ [v])

/-- The state of `solve_mod_div` at the loop over the div rows for integral `x = 7`
(id 0), `u = 4` (id 1), the div-definition row `v = (x + u + 1) div 3` (row 1, marked dead,
`v` with id 2 and value 4) and the fresh variables `z = 1` (id 3), `y = 2` (id 4) of
`x = 3*y + z`. -/
def div_row_store : model_based_opt :=
  let p := init.add_var 7 true
  let p := p.1.add_var 4 true
  let q := p.1.add_div [⟨0, 1⟩, ⟨1, 1⟩] 1 3
  let p := q.1.add_var 1 true
  let p := p.1.add_var 2 true
  p.1.put_row 1 { p.1.get_row 1 with m_alive := false }

/-- The store built by the constructor `model_based_opt()` when `row()` gives a row the
result-variable id `d`.  The initial value of `m_id` is declared in model_based_opt.h, which
is not part of the sources; it is a parameter here. -/
def init_from (d : Nat) : model_based_opt := { m_rows := [{ m_id := d }] }

/-- One real variable `x = 0`, the objective `x` and no constraint row, built from
`init_from d`. -/
def objective_only_store (d : Nat) : model_based_opt :=
  ((init_from d).add_var 0 false).1.set_objective [⟨0, 1⟩] 0

/-- A recursive call that returns its state unchanged, without a definition. -/
def returning_proj : model_based_opt → Nat → Bool →
    Except error (model_based_opt × Option def_) :=
  fun s _ _ => Except.ok (s, none)

/-- No term of the row is on the variable `x`. -/
def var_free (x : Nat) (r : row) : Prop := ∀ t ∈ r.m_vars, t.m_id ≠ x

/-- The row is not a div- or mod-definition row whose result variable is `x`. -/
def not_def (x : Nat) (r : row) : Prop :=
  r.m_type = ineq_type.t_div ∨ r.m_type = ineq_type.t_mod → r.m_id ≠ x

/-- The part of well-formedness of a store that the elimination of `x` relies on: the
store has a row 0, the retired row ids are distinct dead rows other than row 0, row 0 is
listed in no row index, `x` is a variable of the store, and no live row other than row 0
is a div- or mod-definition of `x`. -/
def store_ok (x : Nat) (s : model_based_opt) : Prop :=
  s.m_rows ≠ [] ∧ s.m_retired_rows.Nodup ∧
  (∀ j ∈ s.m_retired_rows, (s.get_row j).m_alive = false ∧ j ≠ 0) ∧
  (∀ v, 0 ∉ s.row_ids v) ∧
  x < s.m_var2value.length ∧
  (∀ j, j ≠ 0 → (s.get_row j).m_alive = true → not_def x (s.get_row j))

/-- The state `t` is reached from `s` by steps that keep `store_ok`, never add a term on
`x` to a row, make only rows without `x` live, and leave every row outside `D` that is
present and not retired in `s` as it is (and not retired). -/
def safe_step (x : Nat) (D : Nat → Prop) (s t : model_based_opt) : Prop :=
  store_ok x t ∧
  s.m_rows.length ≤ t.m_rows.length ∧ s.m_var2value.length ≤ t.m_var2value.length ∧
  (∀ j, var_free x (s.get_row j) → var_free x (t.get_row j)) ∧
  (∀ j, (t.get_row j).m_alive = true → (s.get_row j).m_alive = true ∨ var_free x (t.get_row j)) ∧
  (∀ j, ¬ D j → j < s.m_rows.length → j ∉ s.m_retired_rows →
    t.get_row j = s.get_row j ∧ j ∉ t.m_retired_rows)

/-- The store is `store_ok` for `x` and no live row other than row 0 has a term on `x`. -/
def var_gone (x : Nat) (s : model_based_opt) : Prop :=
  store_ok x s ∧ ∀ j, j ≠ 0 → (s.get_row j).m_alive = true → var_free x (s.get_row j)

/-- The part of `project(x, compute_def)` after the tests for divisibility, mod and div
rows: the equality, one-sided, pairwise and general resolution cases, on the result `p`
of the scan. -/
def project_bounds (s : model_based_opt) (x : Nat) (compute_def : Bool) (p : project_scan) :
    Except error (model_based_opt × Option def_) :=
  match p.eq_row with
  | some eq_row => Except.ok (s.solve_for eq_row x compute_def)
  | none =>
      let lub_size := p.lub_rows.length
      let glb_size := p.glb_rows.length
      let row_index := if lub_size ≤ glb_size then p.lub_index else p.glb_index
      match row_index with
      | none =>
          if compute_def then
            match p.lub_index, p.glb_index with
            | some lub_index, _ => Except.ok (s.solve_for lub_index x true)
            | none, some glb_index => Except.ok (s.solve_for glb_index x true)
            | none, none => Except.ok (s, some (def_.const_def (s.eval x)))
          else
            let s1 := p.lub_rows.foldl (fun st row_id => st.retire_row row_id) s
            let s2 := p.glb_rows.foldl (fun st row_id => st.retire_row row_id) s1
            Except.ok (s2, none)
      | some row_index =>
          let result : Option def_ :=
            if compute_def then
              some (def_.from_row (s.get_row row_index) x)
            else none
          if (decide (lub_size ≤ 2) || decide (glb_size ≤ 2))
              && (decide (lub_size ≤ 3) && decide (glb_size ≤ 3))
              && (!s.is_int x || p.lub_is_unit || p.glb_is_unit) then
            let s1 := project_small x p.glb_rows s p.lub_rows
            let s2 := p.lub_rows.foldl (fun st row_id => st.retire_row row_id) s1
            Except.ok (s2, result)
          else
            let coeff := s.get_coefficient row_index x
            let s1 := p.lub_rows.foldl
              (fun st row_id =>
                if row_id ≠ row_index then st.resolve row_index coeff row_id x else st) s
            let s2 := p.glb_rows.foldl
              (fun st row_id =>
                if row_id ≠ row_index then st.resolve row_index coeff row_id x else st) s1
            Except.ok (s2.retire_row row_index, result)

/-- The rows of `L` are rows other than row 0 that are present and not on the free list,
none is a definition of `x` by its result-variable id, and none has a term on `x` unless
`x` is the variable `p` being eliminated. -/
def pending (x p : Nat) (L : List Nat) (s : model_based_opt) : Prop :=
  ∀ ri ∈ L, ri ≠ 0 ∧ ri < s.m_rows.length ∧ ri ∉ s.m_retired_rows ∧
    (s.get_row ri).m_id ≠ x ∧ (p ≠ x → var_free x (s.get_row ri))

/-- The body of the loop of `solve_mod_div` over the mod rows up to "add w = b mod m": the
state, the auxiliary variable `w` (`none` is `UINT_MAX`) and the constant residue. -/
def solve_mod_row_w (s : model_based_opt) (x ri : Nat) : model_based_opt × Option Nat × ℚ :=
  let s1 := s.replace_var1 ri x 0
  let rMod := (s1.get_row ri).m_mod
  let coeffs := (s1.get_row ri).m_vars
  let coeff := (s1.get_row ri).m_coeff
  if coeffs.isEmpty ∨ rMod = 1 then (s1, none, mod coeff rMod)
  else let q := s1.add_mod coeffs coeff rMod; (q.1, some q.2, 0)

/-- Integral `x = 7` (id 0) and `q = 2` (id 1), the mod-definition row `v = x mod 3`
(row 1, `v` with id 2 and value 1) and the equality row `x - 3q - v = 0` (row 2). -/
def eq_mod_store : model_based_opt :=
  let p := init.add_var 7 true
  let p := p.1.add_var 2 true
  let q := p.1.add_mod [⟨0, 1⟩] 0 3
  q.1.add_constraint [⟨0, 1⟩, ⟨1, -3⟩, ⟨2, -1⟩] 0 ineq_type.t_eq

/-- Integral `x = 5` (id 0) and `r = 3` (id 1), the div-definition row `v = x div 2`
(row 1, `v` with id 2 and value 2) and the equality row `x - r - v = 0` (row 2). -/
def eq_div_store : model_based_opt :=
  let p := init.add_var 5 true
  let p := p.1.add_var 3 true
  let q := p.1.add_div [⟨0, 1⟩] 0 2
  q.1.add_constraint [⟨0, 1⟩, ⟨1, -1⟩, ⟨2, -1⟩] 0 ineq_type.t_eq

/-- Integral `x = 7` (id 0) and `w = 3` (id 1), the divisibility row `3 | x + 2` (row 1)
and the equality row `x - 2w - 1 = 0` (row 2). -/
def eq_divides_store : model_based_opt :=
  let p := init.add_var 7 true
  let p := p.1.add_var 3 true
  let s := p.1.add_divides [⟨0, 1⟩] 2 3
  s.add_constraint [⟨0, 1⟩, ⟨1, -2⟩] (-1) ineq_type.t_eq

/-- Row `j` is live and has a nonzero coefficient for `x`. -/
def row_on (s : model_based_opt) (x j : Nat) : Prop :=
  (s.get_row j).m_alive = true ∧ s.get_coefficient j x ≠ 0

/-- The side test of `find_bound` on row `j`: the sign of the coefficient of `x` is the
requested one, or the row is an equality. -/
def bound_side (s : model_based_opt) (x : Nat) (is_pos : Bool) (j : Nat) : Bool :=
  decide (0 < s.get_coefficient j x) == is_pos ||
    decide ((s.get_row j).m_type = ineq_type.t_eq)

/-- The locals of `find_bound` during its loop: `m_above` and `m_below` hold, without
repetition, the visited live rows on `x` of the requested side other than the tracked bound
row, and those of the other side; the tracked bound row gives the tightest bound under the
stored assignment among the rows of the requested side. -/
def bound_tracked (s : model_based_opt) (x : Nat) (is_pos : Bool) (b : bound_scan) : Prop :=
  b.m_above.Nodup ∧ b.m_below.Nodup ∧
  (∀ j ∈ b.m_above, j ∈ b.visited ∧ row_on s x j ∧ bound_side s x is_pos j = true ∧
    b.bound_row_index ≠ some j ∧
    (is_pos = true → b.lub_val ≤ bound_value s x j) ∧
    (is_pos = false → bound_value s x j ≤ b.lub_val)) ∧
  (∀ j ∈ b.m_below, j ∈ b.visited ∧ row_on s x j ∧ bound_side s x is_pos j = false) ∧
  (∀ i, b.bound_row_index = some i → i ∈ b.visited ∧ row_on s x i ∧
    bound_side s x is_pos i = true ∧ b.bound_coeff = s.get_coefficient i x ∧
    b.lub_val = bound_value s x i) ∧
  (∀ j ∈ b.visited, row_on s x j →
    (bound_side s x is_pos j = true → b.bound_row_index = some j ∨ j ∈ b.m_above) ∧
    (bound_side s x is_pos j = false → j ∈ b.m_below)) ∧
  (b.bound_row_index = none → b.m_above = [])

/-- The tie rule of `find_bound`: a strict row of `m_above` that gives the same bound as
the tracked bound row was only passed over for a strict bound row. -/
def tie_tracked (s : model_based_opt) (x : Nat) (b : bound_scan) : Prop :=
  ∀ i, b.bound_row_index = some i → ∀ j ∈ b.m_above, bound_value s x j = b.lub_val →
    (s.get_row j).m_type = ineq_type.t_lt → (s.get_row i).m_type = ineq_type.t_lt

/-- Row `j` is well formed: terms sorted by strictly ascending id, nonzero coefficients on
declared variables, and the cached value is the evaluation of the row at the stored
assignment. -/
def row_wf (s : model_based_opt) (j : Nat) : Prop :=
  sorted_ids (s.get_row j).m_vars ∧
  (∀ t ∈ (s.get_row j).m_vars, t.m_coeff ≠ 0 ∧ t.m_id < s.m_var2row_ids.length) ∧
  (s.get_row j).m_value = lin (s.get_row j) s.eval

/-- The type that `mul_add(same_sign, j, c, k)` with `c != 0` gives to row `j` of type `tj`
when row `k` has type `tk`. -/
def resolved_type (same_sign : Bool) (tj tk : ineq_type) : ineq_type :=
  if !same_sign && tk = ineq_type.t_lt then ineq_type.t_lt
  else if same_sign && tj = ineq_type.t_lt && tk = ineq_type.t_lt then ineq_type.t_le
  else tj

/-- Every variable of row `j` lists the row in the variable-to-row index. -/
def row_listed (s : model_based_opt) (j : Nat) : Prop :=
  ∀ t ∈ (s.get_row j).m_vars, j ∈ s.row_ids t.m_id

/-- The row type `t` is one of the linear relations `<=`, `<`, `=`. -/
def lp_type (t : ineq_type) : Prop :=
  t = ineq_type.t_le ∨ t = ineq_type.t_lt ∨ t = ineq_type.t_eq

/-- The relation of the type `t` holds for the value `v` of a linear form. -/
def rel_holds (t : ineq_type) (v : ℚ) : Prop :=
  match t with
  | ineq_type.t_eq => v = 0
  | ineq_type.t_lt => v < 0
  | ineq_type.t_le => v ≤ 0
  | _ => False

/-- A store of linear real arithmetic: row 0 (the objective) exists and is listed in no row
index, no variable is integral, the objective row and every live row are well formed
(`row_wf`), and every live constraint row is of type `<=`, `<` or `=`, is listed in the
index for each of its variables and is satisfied by the stored assignment. -/
def lp_store (s : model_based_opt) : Prop :=
  0 < s.m_rows.length ∧
  (∀ x, s.is_int x = false) ∧
  (∀ x, m_objective_id ∉ s.row_ids x) ∧
  row_wf s m_objective_id ∧
  ∀ j, j ≠ m_objective_id → (s.get_row j).m_alive = true →
    row_wf s j ∧ row_listed s j ∧ lp_type (s.get_row j).m_type ∧
    holds (s.get_row j) s.eval

/-- The assignment `val` satisfies every live constraint row of `s`. -/
def sat (s : model_based_opt) (val : Nat → ℚ) : Prop :=
  ∀ j, j ≠ m_objective_id → (s.get_row j).m_alive = true → holds (s.get_row j) val

/-- The variable `y` has a term in the objective row or in a live row. -/
def var_used (s : model_based_opt) (y : Nat) : Prop :=
  ∃ j, (j = m_objective_id ∨ (s.get_row j).m_alive = true) ∧
    ∃ t ∈ (s.get_row j).m_vars, t.m_id = y

/-- What `find_bound` delivers to an iteration of `maximize` on the variable `x` with
objective coefficient `k`: the bound row `B` with coefficient `a`, which is an equality or
has the sign of `k`, and the list `L` of the other live rows on `x`.  A row of `L` is
either of the side of `B` (an equality, or with a coefficient of the sign of `k`), and then
at most as tight as `B` under the stored assignment, and strict with the same bound only
if `B` is strict; or it is an inequality of the other side. -/
def bound_facts (s : model_based_opt) (x B : Nat) (a k : ℚ) (L : List Nat) : Prop :=
  k ≠ 0 ∧ s.get_coefficient m_objective_id x = k ∧
  B ≠ m_objective_id ∧ (s.get_row B).m_alive = true ∧ s.get_coefficient B x = a ∧ a ≠ 0 ∧
  ((s.get_row B).m_type = ineq_type.t_eq ∨ (0 < a ↔ 0 < k)) ∧
  L.Nodup ∧ B ∉ L ∧ m_objective_id ∉ L ∧
  (∀ j ∈ L, (s.get_row j).m_alive = true ∧ s.get_coefficient j x ≠ 0 ∧
    ((((s.get_row j).m_type = ineq_type.t_eq ∨ (0 < s.get_coefficient j x ↔ 0 < k)) ∧
        (0 < k → bound_value s x B ≤ bound_value s x j) ∧
        (¬ 0 < k → bound_value s x j ≤ bound_value s x B) ∧
        (bound_value s x j = bound_value s x B → (s.get_row j).m_type = ineq_type.t_lt →
          (s.get_row B).m_type = ineq_type.t_lt)) ∨
      ((s.get_row j).m_type ≠ ineq_type.t_eq ∧
        ¬ (0 < s.get_coefficient j x ↔ 0 < k)))) ∧
  ∀ j, j ≠ m_objective_id → (s.get_row j).m_alive = true → s.get_coefficient j x ≠ 0 →
    j = B ∨ j ∈ L

/-- The state `t` arises from `s` by the elimination of `x` with the bound row `B`: the
rows of `L` and the objective row are replaced by their sum with the multiple of row `B`
that cancels `x`, with the types that `mul_add` gives, row `B` is retired, nothing else
changes. -/
def eliminated (s t : model_based_opt) (x B : Nat) (a k : ℚ) (L : List Nat) : Prop :=
  t.m_var2value = s.m_var2value ∧ t.m_var2is_int = s.m_var2is_int ∧
  t.m_rows.length = s.m_rows.length ∧
  t.m_var2row_ids.length = s.m_var2row_ids.length ∧
  (∀ v i, i ∈ s.row_ids v → i ∈ t.row_ids v) ∧
  (∀ v i, i ∈ t.row_ids v → i ∈ s.row_ids v ∨ i ∈ L) ∧
  (t.get_row B).m_alive = false ∧
  (∀ i, i ≠ B → i ≠ m_objective_id → i ∉ L → t.get_row i = s.get_row i) ∧
  (row_wf t m_objective_id ∧
    (∀ val, lin (t.get_row m_objective_id) val
      = lin (s.get_row m_objective_id) val + (-k / a) * lin (s.get_row B) val) ∧
    t.get_coefficient m_objective_id x = 0 ∧
    (∀ w ∈ (t.get_row m_objective_id).m_vars,
      (∃ u ∈ (s.get_row m_objective_id).m_vars, u.m_id = w.m_id) ∨
      (∃ u ∈ (s.get_row B).m_vars, u.m_id = w.m_id)) ∧
    (t.get_row m_objective_id).m_type
      = resolved_type false (s.get_row m_objective_id).m_type (s.get_row B).m_type) ∧
  ∀ j ∈ L,
    row_wf t j ∧ row_listed t j ∧ (t.get_row j).m_alive = true ∧
    t.get_coefficient j x = 0 ∧
    (∀ val, lin (t.get_row j) val
      = lin (s.get_row j) val + (-(s.get_coefficient j x) / a) * lin (s.get_row B) val) ∧
    (∀ w ∈ (t.get_row j).m_vars,
      (∃ u ∈ (s.get_row j).m_vars, u.m_id = w.m_id) ∨
      (∃ u ∈ (s.get_row B).m_vars, u.m_id = w.m_id)) ∧
    (t.get_row j).m_type
      = resolved_type (decide (0 < a) == decide (0 < s.get_coefficient j x))
          (s.get_row j).m_type (s.get_row B).m_type

/-- Two real variables `x` (id 0, value 0) and `y` (id 1, value 3), objective `x`, rows
`x - y < 0` and `y - 3 = 0`. -/
def lp_mixed_store : model_based_opt :=
  let p := init.add_var 0 false
  let q := p.1.add_var 3 false
  let s := q.1.set_objective [⟨0, 1⟩] 0
  let s := s.add_constraint [⟨0, 1⟩, ⟨1, -1⟩] 0 ineq_type.t_lt
  s.add_constraint [⟨1, 1⟩] (-3) ineq_type.t_eq

/-- Neither the objective row nor a live constraint row of `s` is strict. -/
def no_strict (s : model_based_opt) : Prop :=
  (s.get_row m_objective_id).m_type ≠ ineq_type.t_lt ∧
  ∀ j, j ≠ m_objective_id → (s.get_row j).m_alive = true →
    (s.get_row j).m_type ≠ ineq_type.t_lt

/-- The iteration of the loop of `maximize` on `s` is exact: the bound row that
`find_bound` returns is an equality, or it is the only live row on the chosen variable of
its side (`m_above` is empty); also when the loop ends here. -/
def single_bound_step (s : model_based_opt) : Bool :=
  match s.objective.m_vars.getLast? with
  | none => true
  | some v =>
    match (s.find_bound v.m_id (decide (0 < v.m_coeff))).bound_row_index with
    | none => true
    | some B =>
      decide ((s.get_row B).m_type = ineq_type.t_eq) ||
        (s.find_bound v.m_id (decide (0 < v.m_coeff))).m_above.isEmpty

/-- Every one of the first `fuel` iterations of the loop of `maximize` from `s` is exact
(`single_bound_step`). -/
def single_bound_run : Nat → model_based_opt → Bool
  | 0, _ => true
  | fuel + 1, s =>
    single_bound_step s &&
      match maximize_iteration s with
      | none => true
      | some p => single_bound_run fuel p.1

/-- The result `r` of `maximize()` is right for the store `s`: infinity only when the
objective is unbounded above on the assignments satisfying the rows; a finite value comes
with `eps` 0 or -1, is at least the objective at the stored assignment, is approached
within every `ε > 0` by assignments satisfying the rows, with `eps = 0` the objective
row is not strict and the value is attained, `eps = 0` when no row is strict, and the
value is an upper bound of the objective on the assignments satisfying the rows when every
iteration is exact. -/
def max_result_ok (fuel : Nat) (s : model_based_opt) (r : inf_eps) : Prop :=
  (r = inf_eps.infinity →
    ∀ N : ℚ, ∃ val, sat s val ∧ N < lin (s.get_row m_objective_id) val) ∧
  (∀ v e, r = inf_eps.finite v e →
    (e = 0 ∨ e = -1) ∧ lin (s.get_row m_objective_id) s.eval ≤ v ∧
    (∀ ε : ℚ, 0 < ε → ∃ val, sat s val ∧ v - ε ≤ lin (s.get_row m_objective_id) val) ∧
    (e = 0 → (s.get_row m_objective_id).m_type ≠ ineq_type.t_lt ∧
      ∃ val, sat s val ∧ lin (s.get_row m_objective_id) val = v) ∧
    (no_strict s → e = 0) ∧
    (single_bound_run fuel s = true →
      ∀ val, sat s val → lin (s.get_row m_objective_id) val ≤ v))

/-- One integral variable `x` (id 0) with value 0, objective `x` and the row
`2x - 3 <= 0`. -/
def int_half_store : model_based_opt :=
  let p := init.add_var 0 true
  let s := p.1.set_objective [⟨0, 1⟩] 0
  s.add_constraint [⟨0, 2⟩] (-3) ineq_type.t_le

end opt

/-! ## Theorems -/

namespace opt

open model_based_opt

/-- C9 (Scenario B): for the integral variable `x` with value 0 or 1 and the rows
`2x - 3 <= 0`, `-x <= 0`, `project(x, false)` returns without a definition, the stored
rows before the projection are both live and satisfied, and afterwards every
non-objective row is retired, so that no live row mentions `x` and no residual
constraint is left. -/
theorem scenario_B_project :
    ∀ x0 ∈ ([0, 1] : List ℚ),
      (∀ r ∈ (scenario_B x0).m_rows.tail, r.m_alive = true ∧ r.m_value ≤ 0) ∧
      ∃ s1, project 1 (scenario_B x0) 0 false = Except.ok (s1, none) ∧
        s1.m_rows.length = 3 ∧
        (∀ r ∈ s1.m_rows.tail, r.m_alive = false) ∧
        (∀ r ∈ s1.m_rows, r.m_alive = true → r.get_coefficient 0 = 0) := by
  intro x0 hx
  simp only [List.mem_cons, List.mem_singleton, List.not_mem_nil, or_false] at hx
  rcases hx with rfl | rfl
  · refine ⟨by decide!, ((project 1 (scenario_B 0) 0 false).toOption.getD (init, none)).1, ?_⟩
    decide!
  · refine ⟨by decide!, ((project 1 (scenario_B 1) 0 false).toOption.getD (init, none)).1, ?_⟩
    decide!

/-- Witness of `scenario_B_project` at the initial value 1. -/
theorem scenario_B_project_witness :
    ∃ s1, project 1 (scenario_B 1) 0 false = Except.ok (s1, none) ∧
      s1.m_rows.length = 3 ∧
      (∀ r ∈ s1.m_rows.tail, r.m_alive = false) ∧
      (∀ r ∈ s1.m_rows, r.m_alive = true → r.get_coefficient 0 = 0) :=
  (scenario_B_project 1 (by simp)).2

/-- C10 (Scenario C): for the integral variable `x` with value 2 and the single row
`3 | (x + 1)`, `project(x, true)` introduces one fresh integral variable `y` (id 1) with
value 0, returns the definition `(0 * 3) + 2`, which evaluates to `3 * y + 2 = 2`, the
value of `x`, and leaves no live divisibility row. -/
theorem scenario_C_project :
    ∃ s1 d, project 2 scenario_C 0 true = Except.ok (s1, some d) ∧
      scenario_C.m_var2value.length = 1 ∧
      s1.m_var2value.length = 2 ∧
      s1.is_int 1 = true ∧
      s1.eval 1 = 0 ∧
      d = def_.add_def (def_.mul_def (def_.const_def 0) (def_.const_def 3)) (def_.const_def 2) ∧
      s1.eval_def d = 3 * s1.eval 1 + 2 ∧
      s1.eval_def d = 2 ∧
      s1.eval 0 = 3 * s1.eval 1 + 2 ∧
      (∀ r ∈ s1.m_rows, r.m_alive = true → r.m_type ≠ ineq_type.t_divides) := by
  refine ⟨((project 2 scenario_C 0 true).toOption.getD (init, none)).1,
    (((project 2 scenario_C 0 true).toOption.getD (init, none)).2).getD (def_.const_def 0), ?_⟩
  decide!

/-! ### Projection of an absent variable -/

theorem project_scan_step_unclassified (s : model_based_opt) (x : Nat)
    (h : ∀ i, (s.get_row i).m_alive = true → s.get_coefficient i x = 0)
    (p : project_scan) (hp : scan_unclassified p) (row_id : Nat) :
    scan_unclassified (project_scan_step s x p row_id) := by
  unfold project_scan_step
  by_cases hv : p.visited.contains row_id = true
  · rw [if_pos hv]; exact hp
  · rw [if_neg hv]
    by_cases ha : (s.get_row row_id).m_alive = true
    · have h0 := h row_id ha
      simp only [ha, h0, Bool.not_true, Bool.false_eq_true, if_false, if_true]
      exact hp
    · simp only [Bool.not_eq_true] at ha
      simp only [ha, Bool.not_false, if_true]
      exact hp

theorem project_scan_unclassified (s : model_based_opt) (x : Nat)
    (h : ∀ i, (s.get_row i).m_alive = true → s.get_coefficient i x = 0)
    (l : List Nat) (p : project_scan) (hp : scan_unclassified p) :
    scan_unclassified (l.foldl (project_scan_step s x) p) := by
  induction l generalizing p with
  | nil => exact hp
  | cons a l ih =>
    simp only [List.foldl_cons]
    exact ih _ (project_scan_step_unclassified s x h p hp a)

theorem get_row_mem_or_default (s : model_based_opt) (i : Nat) :
    s.get_row i ∈ s.m_rows ∨ s.get_row i = {} := by
  unfold get_row
  by_cases hi : i < s.m_rows.length
  · left
    rw [List.getD_eq_getElem _ _ hi]
    exact List.getElem_mem hi
  · right
    exact List.getD_eq_default _ _ (Nat.le_of_not_lt hi)

/-- C5: if no live row of the store has a nonzero coefficient for `x`, then
`project(x, compute_def)` returns (for every positive fuel) and is a no-op: the whole
state (rows, row index, variable values and integrality flags, free list) is returned
unchanged; with `compute_def` the definition is the constant `x`'s value, without it no
definition is returned. -/
theorem project_absent (s : model_based_opt) (x : Nat) (compute_def : Bool) (fuel : Nat)
    (h : ∀ r ∈ s.m_rows, r.m_alive = true → r.get_coefficient x = 0) :
    project (fuel + 1) s x compute_def =
      Except.ok (s, if compute_def then some (def_.const_def (s.eval x)) else none) := by
  have h' : ∀ i, (s.get_row i).m_alive = true → s.get_coefficient i x = 0 := by
    intro i hi
    rcases get_row_mem_or_default s i with hm | hd
    · exact h _ hm hi
    · rw [hd] at hi; simp at hi
  have hp := project_scan_unclassified s x h' (s.row_ids x) {}
    (by simp [scan_unclassified])
  obtain ⟨h1, h2, h3, h4, h5, h6, h7, h8⟩ := hp
  unfold project
  simp only [h1, h2, h3, h4, h5, h6, h7, h8]
  cases compute_def <;> simp

/-- Witness of `project_absent`: the unconstrained variable 1 of `scenario_B_extra`. -/
theorem project_absent_witness :
    (∀ r ∈ scenario_B_extra.m_rows, r.m_alive = true → r.get_coefficient 1 = 0) ∧
    project 1 scenario_B_extra 1 true =
      Except.ok (scenario_B_extra, some (def_.const_def 7)) :=
  ⟨by decide!, project_absent scenario_B_extra 1 true 0 (by decide!)⟩

/-! ### Counterexamples -/


theorem counter_cell_rows : counter_cell.m_rows =
    [⟨[⟨0, 1⟩], 0, 0, ineq_type.t_le, 0, true, 0⟩,
     ⟨[⟨0, 1⟩, ⟨1, -1⟩], 0, 0, ineq_type.t_le, 0, true, 0⟩,
     ⟨[⟨0, 2⟩, ⟨1, -1⟩], -2, 0, ineq_type.t_le, -2, true, 0⟩,
     ⟨[⟨1, 1⟩], -10, 0, ineq_type.t_le, -10, true, 0⟩] := by decide!

theorem counter_int_eq_rows : counter_int_eq.m_rows =
    [⟨[⟨0, 1⟩], 0, 0, ineq_type.t_le, 0, true, 0⟩,
     ⟨[⟨0, 1⟩, ⟨1, -1⟩], 0, 0, ineq_type.t_eq, 0, true, 0⟩,
     ⟨[⟨0, 1⟩], -5, 0, ineq_type.t_le, -5, true, 0⟩] := by decide!

/-- C7 (failing input): on the store `counter_int_eq` (integral `x = y = 0`, objective
`x`, rows `x - y = 0` and `x - 5 <= 0`, both satisfied) the objective is bounded above
by 5 on the assignments satisfying the rows, yet `maximize()` returns `+infinity`; the
row `x - 5 <= 0`, resolved against the equality row, is left live as `2x - y - 5 <= 0`
with coefficient 2 on `x`. -/
theorem maximize_int_eq_infinite :
    feasible counter_int_eq (assignment counter_int_eq) ∧
    (∀ val, feasible counter_int_eq val → lin counter_int_eq.objective val ≤ 5) ∧
    (∃ s1, maximize 3 counter_int_eq = some (s1, inf_eps.infinity) ∧
      (s1.get_row 2).m_alive = true ∧ (s1.get_row 2).get_coefficient 0 = 2) := by
  refine ⟨?_, ?_, ((maximize 3 counter_int_eq).getD (init, inf_eps.infinity)).1, by decide!⟩
  · refine ⟨by decide!, ?_⟩
    rw [counter_int_eq_rows]
    simp [holds, lin, assignment, model_based_opt.eval]
    decide!
  · intro val hv
    have h := hv.2
    rw [counter_int_eq_rows] at h
    simp [holds, lin] at h
    simp [objective, get_row, m_objective_id, counter_int_eq_rows, lin]
    linarith [h.1, h.2]

/-! ### Scenarios A and D -/

set_option maxRecDepth 100000 in
theorem scenario_A_rows (x0 : ℚ) (i : Bool) : (scenario_A x0 i) =
    { m_rows := [⟨[⟨0,1⟩], 0, 0, ineq_type.t_le, x0, true, 0⟩,
               ⟨[⟨0,1⟩], -5, 0, ineq_type.t_le, -5 + x0, true, 0⟩,
               ⟨[⟨0,-1⟩], 1, 0, ineq_type.t_le, 1 + -x0, true, 0⟩],
      m_var2row_ids := [[1, 2]], m_var2value := [x0], m_var2is_int := [i],
      m_retired_rows := [], m_result := [] } := by
  simp +decide [scenario_A, init, add_var, set_objective, add_constraint, add_constraint5,
    new_row, get_row, put_row, push_row_id, row_ids, model_based_opt.normalize,
    model_based_opt.normalize_gcd, sort_vars,
    model_based_opt.eval, model_based_opt.is_int, m_objective_id, row.reset, is_int_q, opt.gcd,
    retire_row, model_based_opt.mul, set_row]

set_option maxRecDepth 100000 in
set_option maxHeartbeats 1000000 in
/-- C8 (Scenario A): for the store with one variable `x` (real or integral) whose
initial value lies in `[1, 5]`, rows `x - 5 <= 0` and `-x + 1 <= 0` and objective `x`,
both rows are live and satisfied and `maximize()` returns (for every sufficient fuel) the
finite value 5 with infinitesimal part 0, i.e. tagged non-strict. -/
theorem scenario_A_maximize (x0 : ℚ) (x_is_int : Bool) (fuel : Nat)
    (h1 : 1 ≤ x0) (h5 : x0 ≤ 5) :
    (∀ r ∈ (scenario_A x0 x_is_int).m_rows.tail, r.m_alive = true ∧ r.m_value ≤ 0) ∧
    (maximize (fuel + 2) (scenario_A x0 x_is_int)).map (fun p => p.2) =
      some (inf_eps.finite 5 0) := by
  rw [scenario_A_rows]
  constructor
  · simp
    constructor <;> linarith
  · cases x_is_int <;>
    simp +decide [maximize, maximize_loop, find_bound, find_bound_step, resolve,
      model_based_opt.mul_add, mul_add_int, model_based_opt.normalize, model_based_opt.mul,
      model_based_opt.add,
      mul_add_merge, update_values, update_values_step, objective, eval_row, set_value,
      get_row, put_row, push_row_id, row_ids, model_based_opt.get_coefficient,
      row.get_coefficient, row.bsearch,
      model_based_opt.eval, model_based_opt.is_int, m_objective_id, retire_row]

set_option maxRecDepth 100000 in
theorem scenario_D_rows (x0 c : ℚ) (i : Bool) : (scenario_D x0 c i) =
    { m_rows := [⟨[⟨0,1⟩], 0, 0, ineq_type.t_le, x0, true, 0⟩,
               ⟨[⟨0,1⟩], c, 0, ineq_type.t_le, c + x0, true, 0⟩],
      m_var2row_ids := [[1]], m_var2value := [x0], m_var2is_int := [i],
      m_retired_rows := [], m_result := [] } := by
  by_cases hc : c = 0 <;> by_cases hd : c.den = 1 <;>
  simp +decide [scenario_D, init, add_var, set_objective, add_constraint, add_constraint5,
    new_row, get_row, put_row, push_row_id, row_ids, model_based_opt.normalize,
    model_based_opt.normalize_gcd, sort_vars,
    model_based_opt.eval, model_based_opt.is_int, m_objective_id, row.reset, is_int_q, opt.gcd,
    retire_row, model_based_opt.mul, set_row, hc, hd]

set_option maxRecDepth 100000 in
set_option maxHeartbeats 1000000 in
/-- Scenario D: for a store with one variable `x`, the single row `x + c <= 0`
satisfied by the stored assignment (all data integers when `x` is integral) and objective
`x`, `maximize()` returns (for every sufficient fuel) the finite non-strict value `-c`,
and `-c` is the supremum of the objective over the assignments satisfying the row: it is
an upper bound and it is attained. -/
theorem scenario_D_maximize (x0 c : ℚ) (x_is_int : Bool) (fuel : Nat)
    (h0 : x0 + c ≤ 0) (hx : x_is_int = true → is_int_q x0 = true ∧ is_int_q c = true) :
    feasible (scenario_D x0 c x_is_int) (assignment (scenario_D x0 c x_is_int)) ∧
    (maximize (fuel + 2) (scenario_D x0 c x_is_int)).map (fun p => p.2) =
      some (inf_eps.finite (-c) 0) ∧
    (∀ val, feasible (scenario_D x0 c x_is_int) val →
      lin (scenario_D x0 c x_is_int).objective val ≤ -c) ∧
    (∃ val, feasible (scenario_D x0 c x_is_int) val ∧
      lin (scenario_D x0 c x_is_int).objective val = -c) := by
  rw [scenario_D_rows]
  refine ⟨?_, ?_, ?_, fun _ => -c, ?_, ?_⟩
  · constructor
    · intro x hxl hxi
      simp [model_based_opt.is_int] at hxl hxi
      subst hxl
      simp at hxi
      simpa [assignment, model_based_opt.eval] using (hx hxi).1
    · simp [holds, lin, assignment, model_based_opt.eval]
      linarith
  · cases x_is_int <;>
    simp +decide [maximize, maximize_loop, find_bound, find_bound_step, resolve,
      model_based_opt.mul_add, mul_add_int, model_based_opt.normalize, model_based_opt.mul,
      model_based_opt.add,
      mul_add_merge, update_values, update_values_step, objective, eval_row, set_value,
      get_row, put_row, push_row_id, row_ids, model_based_opt.get_coefficient,
      row.get_coefficient, row.bsearch,
      model_based_opt.eval, model_based_opt.is_int, m_objective_id, retire_row]
  · intro val hv
    have h := hv.2
    simp [holds, lin] at h
    simp [objective, get_row, m_objective_id, lin]
    linarith
  · constructor
    · intro x hxl hxi
      simp [model_based_opt.is_int] at hxl hxi
      subst hxl
      simp at hxi
      have := (hx hxi).2
      simpa [is_int_q] using this
    · simp [holds, lin]
  · simp [objective, get_row, m_objective_id, lin]

/-- Witness of `scenario_A_maximize` at the real initial value 3. -/
theorem scenario_A_maximize_witness :
    (1 : ℚ) ≤ 3 ∧ (3 : ℚ) ≤ 5 ∧
    (maximize 2 (scenario_A 3 false)).map (fun p => p.2) = some (inf_eps.finite 5 0) :=
  ⟨by norm_num, by norm_num, (scenario_A_maximize 3 false 0 (by norm_num) (by norm_num)).2⟩

/-- Scenario D itself (`x + 1 <= 0`, integral `x = -1`): `maximize()` returns -1. -/
theorem scenario_D_maximize_witness :
    (maximize 2 (scenario_D (-1) 1 true)).map (fun p => p.2) =
      some (inf_eps.finite (-1) 0) :=
  (scenario_D_maximize (-1) 1 true 0 (by norm_num) (fun _ => by decide!)).2.1

/-! ### Frame lemmas for the row store -/

theorem getD_set_ne {α : Type} (l : List α) (i j : Nat) (a d : α) (h : i ≠ j) :
    (l.set j a).getD i d = l.getD i d := by
  simp [List.getD_eq_getElem?_getD, List.getElem?_set_ne (Ne.symm h)]

theorem getD_set_eq {α : Type} (l : List α) (j : Nat) (a d : α) (h : j < l.length) :
    (l.set j a).getD j d = a := by
  simp [List.getD_eq_getElem?_getD, List.getElem?_set_self, h]

theorem get_row_put_row_ne (s : model_based_opt) (i j : Nat) (r : row) (h : i ≠ j) :
    (s.put_row j r).get_row i = s.get_row i := by
  unfold get_row put_row
  exact getD_set_ne _ _ _ _ _ h

theorem get_row_put_row_eq (s : model_based_opt) (j : Nat) (r : row)
    (h : j < s.m_rows.length) : (s.put_row j r).get_row j = r := by
  unfold get_row put_row
  exact getD_set_eq _ _ _ _ h

theorem alive_lt_length (s : model_based_opt) (i : Nat) (h : (s.get_row i).m_alive = true) :
    i < s.m_rows.length := by
  by_contra hc
  have : s.get_row i = {} := by
    unfold get_row
    exact List.getD_eq_default _ _ (Nat.le_of_not_lt hc)
  rw [this] at h
  simp at h

theorem same_except_refl (j : Nat) (s : model_based_opt) : same_except j s s :=
  ⟨fun _ _ => rfl, rfl, rfl, rfl⟩

theorem same_except_trans {j : Nat} {s t u : model_based_opt}
    (h1 : same_except j s t) (h2 : same_except j t u) : same_except j s u :=
  ⟨fun i hi => (h2.1 i hi).trans (h1.1 i hi), h2.2.1.trans h1.2.1,
   h2.2.2.1.trans h1.2.2.1, h2.2.2.2.trans h1.2.2.2⟩

theorem same_except_put_row (s : model_based_opt) (j : Nat) (r : row) :
    same_except j s (s.put_row j r) :=
  ⟨fun i hi => get_row_put_row_ne s i j r hi, rfl, rfl, by simp [put_row]⟩

theorem same_except_push_row_id (s : model_based_opt) (j v k : Nat) :
    same_except j s (s.push_row_id v k) :=
  ⟨fun _ _ => rfl, rfl, rfl, rfl⟩

theorem same_except_foldl_push (j k : Nat) (l : List Nat) (s : model_based_opt) :
    same_except j s (l.foldl (fun st v => st.push_row_id v k) s) := by
  induction l generalizing s with
  | nil => exact same_except_refl j s
  | cons a l ih => exact same_except_trans (same_except_push_row_id s j a k) (ih _)

theorem same_except_mul (s : model_based_opt) (j : Nat) (c : ℚ) :
    same_except j s (s.mul j c) := by
  unfold model_based_opt.mul
  split
  · exact same_except_refl j s
  · exact same_except_put_row s j _

theorem same_except_add (s : model_based_opt) (j : Nat) (c : ℚ) :
    same_except j s (s.add j c) := same_except_put_row s j _

theorem same_except_retire_row (s : model_based_opt) (j : Nat) :
    same_except j s (s.retire_row j) := by
  unfold retire_row
  exact ⟨fun i hi => get_row_put_row_ne s i j _ hi, rfl, rfl, by simp [put_row]⟩

theorem same_except_mul_add (s : model_based_opt) (b : Bool) (j : Nat) (c : ℚ) (k : Nat) :
    same_except j s (s.mul_add b j c k) := by
  unfold model_based_opt.mul_add
  split
  · exact same_except_refl j s
  · refine same_except_trans ?_ (same_except_put_row _ j _)
    split
    · exact same_except_foldl_push j j _ s
    · exact same_except_refl j s

theorem same_except_normalize (s : model_based_opt) (j : Nat) :
    same_except j s (s.normalize j) := by
  unfold model_based_opt.normalize
  simp only
  split_ifs
  all_goals first
    | exact same_except_refl j s
    | exact same_except_retire_row s j
    | exact same_except_mul s j _

theorem same_except_solve (s : model_based_opt) (src : Nat) (a : ℚ) (j x : Nat) :
    same_except j s (s.solve src a j x) := by
  unfold solve
  split
  · exact same_except_refl j s
  · exact same_except_trans (same_except_trans (same_except_mul s j a)
      (same_except_mul_add _ false j _ src)) (same_except_normalize _ j)

/-! ### Evaluation of rows and definitions -/

theorem foldl_add_eq_sum (f : var → ℚ) (vs : List var) (c : ℚ) :
    vs.foldl (fun a v => a + f v) c = c + (vs.map f).sum := by
  induction vs generalizing c with
  | nil => simp
  | cons a l ih => simp [ih, add_assoc]

theorem eval_row_eq (s : model_based_opt) (r : row) :
    s.eval_row r = r.m_coeff + sum_vars s.eval r.m_vars := by
  unfold eval_row sum_vars
  exact foldl_add_eq_sum _ _ _

theorem lin_eq (r : row) (val : Nat → ℚ) :
    lin r val = r.m_coeff + sum_vars val r.m_vars := by
  unfold lin sum_vars
  exact foldl_add_eq_sum _ _ _

theorem sum_vars_split (val : Nat → ℚ) (x : Nat) (vs : List var)
    (hn : (vs.map (fun v => v.m_id)).Nodup) :
    sum_vars val vs =
      sum_vars val (vs.filter (fun v => v.m_id ≠ x)) + coeff_of vs x * val x := by
  induction vs with
  | nil => simp [sum_vars, coeff_of]
  | cons a l ih =>
    simp only [List.map_cons, List.nodup_cons] at hn
    by_cases hax : a.m_id = x
    · have hl : ∀ v ∈ l, ¬ v.m_id = x := by
        intro v hv hvx
        exact hn.1 (List.mem_map.mpr ⟨v, hv, by rw [hvx, hax]⟩)
      have hf : l.filter (fun v => !decide (v.m_id = x)) = l := by
        rw [List.filter_eq_self]
        intro v hv
        simp [hl v hv]
      simp [sum_vars, coeff_of, List.filter_cons, hax, List.find?_cons, hf]
      ring
    · have := ih hn.2
      simp [sum_vars, coeff_of, List.filter_cons, hax, List.find?_cons] at this ⊢
      rw [this]; ring

theorem get_coefficient_mem (r : row) (x : Nat) (h : r.get_coefficient x ≠ 0) :
    ∃ v ∈ r.m_vars, v.m_id = x ∧ v.m_coeff = r.get_coefficient x := by
  unfold row.get_coefficient at h ⊢
  split at h
  · exact absurd rfl h
  · rename_i hne
    simp only [hne] at h ⊢
    simp only [Bool.false_eq_true, if_false] at h ⊢
    split at h
    · exact absurd rfl h
    · rename_i hlo
      simp only [hlo, if_false] at h ⊢
      split at h
      · rename_i hid
        simp only [hid, if_true] at h ⊢
        set lo := row.bsearch r.m_vars x r.m_vars.length 0 r.m_vars.length with hlo'
        by_cases hlt : lo < r.m_vars.length
        · refine ⟨r.m_vars.getD lo {}, ?_, hid, rfl⟩
          rw [List.getD_eq_getElem _ _ hlt]
          exact List.getElem_mem hlt
        · exfalso
          apply h
          rw [List.getD_eq_default _ _ (Nat.le_of_not_lt hlt)]
      · exact absurd rfl h

theorem coeff_of_mem_nodup (vs : List var) (v : var) (hv : v ∈ vs)
    (hn : (vs.map (fun v => v.m_id)).Nodup) : coeff_of vs v.m_id = v.m_coeff := by
  induction vs with
  | nil => simp at hv
  | cons a l ih =>
    simp only [List.map_cons, List.nodup_cons] at hn
    rcases List.mem_cons.mp hv with rfl | hl
    · simp [coeff_of, List.find?_cons]
    · have hne : a.m_id ≠ v.m_id := by
        intro he
        exact hn.1 (List.mem_map.mpr ⟨v, hl, he.symm⟩)
      have := ih hl hn.2
      simp [coeff_of, List.find?_cons, hne] at this ⊢
      exact this

/-! ### The definition built from an equality row -/

theorem denominator_pos (q : ℚ) : ∃ n : ℕ, 0 < n ∧ denominator q = n :=
  ⟨q.den, q.den_pos, rfl⟩

theorem lcm_nat (n m : ℕ) (hn : 0 < n) (hm : 0 < m) :
    ∃ k t : ℕ, 0 < k ∧ lcm (n : ℚ) (m : ℚ) = k ∧ k = t * m := by
  refine ⟨Nat.lcm n m, Nat.lcm n m / m, Nat.lcm_pos hn hm, ?_, ?_⟩
  · simp [lcm, Int.lcm]
  · exact (Nat.div_mul_cancel (Nat.dvd_lcm_right n m)).symm

theorem from_row_scan_spec (x : Nat) (a : ℚ) (vs : List var)
    (hn : (vs.map (fun v => v.m_id)).Nodup) (hmem : (⟨x, a⟩ : var) ∈ vs)
    (n : ℕ) (hpos : 0 < n) :
    ∃ L t : ℕ, 0 < L ∧ def_.from_row_scan x vs (n : ℚ) = (-a, (L : ℚ)) ∧ L = t * a.den := by
  induction vs generalizing n with
  | nil => simp at hmem
  | cons v l ih =>
    simp only [List.map_cons, List.nodup_cons] at hn
    unfold def_.from_row_scan
    obtain ⟨k, t, hk, hlcm, hkt⟩ := lcm_nat n v.m_coeff.den hpos v.m_coeff.den_pos
    have hd : denominator v.m_coeff = (v.m_coeff.den : ℚ) := rfl
    by_cases hvx : v.m_id = x
    · have hv : v = ⟨x, a⟩ := by
        rcases List.mem_cons.mp hmem with h | h
        · exact h.symm
        · exfalso
          apply hn.1
          exact List.mem_map.mpr ⟨⟨x, a⟩, h, hvx.symm⟩
      simp only [hvx, if_true, hd, hlcm]
      subst hv
      exact ⟨k, t, hk, rfl, hkt⟩
    · have hl : (⟨x, a⟩ : var) ∈ l := by
        rcases List.mem_cons.mp hmem with h | h
        · exfalso; apply hvx; rw [← h]
        · exact h
      simp only [hvx, if_false, hd, hlcm]
      exact ih hn.2 hl k hk

theorem eval_def_fold (s : model_based_opt) (x : Nat) (lc2 : ℚ) (vs : List var) (d : def_) :
    s.eval_def (vs.foldl
      (fun res v => if v.m_id ≠ x then def_.add_def res (def_.var_def ⟨v.m_id, v.m_coeff * lc2⟩)
        else res) d) =
      s.eval_def d + lc2 * sum_vars s.eval (vs.filter (fun v => v.m_id ≠ x)) := by
  induction vs generalizing d with
  | nil => simp [sum_vars]
  | cons v l ih =>
    rw [List.foldl_cons, ih]
    by_cases hvx : v.m_id = x
    · have h1 : ¬ (v.m_id ≠ x) := not_not.mpr hvx
      rw [if_neg h1, List.filter_cons_of_neg (by simpa using hvx)]
    · rw [if_pos hvx, List.filter_cons_of_pos (by simpa using hvx)]
      simp only [eval_def, sum_vars, List.map_cons, List.sum_cons]
      ring

theorem eval_def_div_q (s : model_based_opt) (d : def_) (q : ℚ) :
    s.eval_def (d.div_q q) = s.eval_def d / q := by
  unfold def_.div_q
  split
  · rename_i h; rw [h]; simp
  · rfl

theorem from_row_eval_eq (s : model_based_opt) (r : row) (x : Nat) (a : ℚ)
    (hty : r.m_type = ineq_type.t_eq) (hn : (r.m_vars.map (fun v => v.m_id)).Nodup)
    (hmem : (⟨x, a⟩ : var) ∈ r.m_vars) (ha : a ≠ 0) (h0 : s.eval_row r = 0) :
    s.eval_def (def_.from_row r x) = s.eval x := by
  obtain ⟨n, hnpos, hden⟩ := denominator_pos r.m_coeff
  obtain ⟨L, t, hL, hscan, hLt⟩ := from_row_scan_spec x a r.m_vars hn hmem n hnpos
  have hco := coeff_of_mem_nodup r.m_vars ⟨x, a⟩ hmem hn
  have hsplit := sum_vars_split s.eval x r.m_vars hn
  rw [eval_row_eq, hsplit, hco] at h0
  -- `a * L` is a nonzero integer
  have hLq : (0 : ℚ) < (L : ℚ) := by exact_mod_cast hL
  have haL : a * (L : ℚ) = ((a.num * (t : ℤ) : ℤ) : ℚ) := by
    rw [hLt]
    push_cast
    have := Rat.mul_den_eq_num a
    calc a * ((t : ℚ) * (a.den : ℚ)) = (a * (a.den : ℚ)) * t := by ring
      _ = (a.num : ℚ) * t := by rw [this]
  have hint : ∀ z : ℤ, (0 : ℚ) < (z : ℚ) → ¬ ((z : ℚ) > 1) → (z : ℚ) = 1 := by
    intro z hz h1
    have hz' : 0 < z := by exact_mod_cast hz
    have h1' : ¬ (z > 1) := by
      intro h; apply h1; exact_mod_cast h
    have : z = 1 := by omega
    rw [this]; simp
  unfold def_.from_row
  simp only [hden, hscan, hty]
  set S := sum_vars s.eval (r.m_vars.filter (fun v => v.m_id ≠ x)) with hS
  have hx : s.eval x = -(r.m_coeff + S) / a := by
    field_simp
    linarith
  rcases lt_or_gt_of_ne ha with hneg | hpos
  · -- a < 0, so dv = -a * L > 0
    have hdv : ¬ (-a * (L : ℚ) < 0) := by
      have : 0 < -a * (L : ℚ) := mul_pos (by linarith) hLq
      linarith
    simp only [hdv, if_false]
    have hz : (0 : ℚ) < ((-(a.num * (t : ℤ)) : ℤ) : ℚ) := by
      have : 0 < -a * (L : ℚ) := mul_pos (by linarith) hLq
      rw [neg_mul, haL] at this
      push_cast at this ⊢
      linarith
    have hE : -a * (L : ℚ) = ((-(a.num * (t : ℤ)) : ℤ) : ℚ) := by
      rw [neg_mul, haL]; push_cast; ring
    split
    · rw [eval_def_div_q, eval_def_fold, hx, ← hS]
      simp only [eval_def]
      field_simp
      ring
    · rename_i hgt
      have h1 := hint _ hz (by rw [← hE]; exact hgt)
      rw [← hE] at h1
      rw [eval_def_fold, hx]
      simp only [eval_def]
      have hL' : (L : ℚ) = -1 / a := by
        field_simp
        linarith
      rw [← hS, hL']
      field_simp
      ring
  · -- a > 0, so dv = -a * L < 0
    have hdv : (-a * (L : ℚ) < 0) := by
      have : 0 < a * (L : ℚ) := mul_pos hpos hLq
      linarith
    simp only [hdv, if_true]
    have hz : (0 : ℚ) < (((a.num * (t : ℤ)) : ℤ) : ℚ) := by
      have : 0 < a * (L : ℚ) := mul_pos hpos hLq
      rw [haL] at this
      exact this
    split
    · rw [eval_def_div_q, eval_def_fold, hx, ← hS]
      simp only [eval_def]
      field_simp
      ring
    · rename_i hgt
      have h1 := hint _ hz (by rw [← haL]; simpa using hgt)
      rw [← haL] at h1
      rw [eval_def_fold, hx]
      simp only [eval_def]
      have hL' : (L : ℚ) = 1 / a := by
        field_simp
        linarith
      rw [← hS, hL']
      field_simp
      ring

/-! ### The scan loop of `project` -/

theorem mem_fresh_ids (seen l : List Nat) (j : Nat) :
    j ∈ fresh_ids seen l ↔ j ∈ l ∧ j ∉ seen := by
  induction l generalizing seen with
  | nil => simp [fresh_ids]
  | cons a l ih =>
    unfold fresh_ids
    by_cases ha : a ∈ seen
    · rw [if_pos ha, ih]
      constructor
      · rintro ⟨h1, h2⟩; exact ⟨List.mem_cons_of_mem _ h1, h2⟩
      · rintro ⟨h1, h2⟩
        rcases List.mem_cons.mp h1 with rfl | h
        · exact absurd ha h2
        · exact ⟨h, h2⟩
    · rw [if_neg ha, List.mem_cons, ih]
      constructor
      · rintro (rfl | ⟨h1, h2⟩)
        · exact ⟨List.mem_cons_self _ _, ha⟩
        · refine ⟨List.mem_cons_of_mem _ h1, ?_⟩
          intro h; apply h2; exact List.mem_append_left _ h
      · rintro ⟨h1, h2⟩
        rcases List.mem_cons.mp h1 with rfl | h
        · left; rfl
        · by_cases hja : j = a
          · left; exact hja
          · right
            refine ⟨h, ?_⟩
            intro hm
            rcases List.mem_append.mp hm with h3 | h3
            · exact h2 h3
            · simp at h3; exact hja h3

theorem contains_iff (l : List Nat) (j : Nat) : l.contains j = true ↔ j ∈ l := by simp

theorem scan_step_seen (s : model_based_opt) (x : Nat) (p : project_scan) (j : Nat)
    (hv : j ∈ p.visited) : project_scan_step s x p j = p := by
  unfold project_scan_step
  rw [if_pos ((contains_iff _ _).mpr hv)]

theorem scan_step_lists (s : model_based_opt) (x : Nat) (p : project_scan) (j : Nat)
    (hv : j ∉ p.visited) :
    (project_scan_step s x p j).visited = p.visited ++ [j] ∧
    (project_scan_step s x p j).lub_rows =
      p.lub_rows ++ (if scan_kind s x j = 5 then [j] else []) ∧
    (project_scan_step s x p j).glb_rows =
      p.glb_rows ++ (if scan_kind s x j = 6 then [j] else []) ∧
    (project_scan_step s x p j).divide_rows =
      p.divide_rows ++ (if scan_kind s x j = 4 then [j] else []) ∧
    (project_scan_step s x p j).mod_rows =
      p.mod_rows ++ (if scan_kind s x j = 2 then [j] else []) ∧
    (project_scan_step s x p j).div_rows =
      p.div_rows ++ (if scan_kind s x j = 3 then [j] else []) ∧
    (project_scan_step s x p j).eq_row = (if scan_kind s x j = 1 then some j else p.eq_row) ∧
    ((project_scan_step s x p j).lub_index = p.lub_index ∨
      (scan_kind s x j = 5 ∧ (project_scan_step s x p j).lub_index = some j)) ∧
    ((project_scan_step s x p j).glb_index = p.glb_index ∨
      (scan_kind s x j = 6 ∧ (project_scan_step s x p j).glb_index = some j)) ∧
    (p.lub_rows = [] → scan_kind s x j = 5 → (project_scan_step s x p j).lub_index = some j) ∧
    (p.glb_rows = [] → scan_kind s x j = 6 → (project_scan_step s x p j).glb_index = some j) ∧
    (project_scan_step s x p j).lub_is_unit =
      (p.lub_is_unit && (if scan_kind s x j = 5 then decide (s.get_coefficient j x = 1) else true)) ∧
    (project_scan_step s x p j).glb_is_unit =
      (p.glb_is_unit && (if scan_kind s x j = 6 then decide (s.get_coefficient j x = -1) else true)) := by
  unfold project_scan_step scan_kind
  rw [if_neg (fun h => hv ((contains_iff _ _).mp h))]
  by_cases h1 : (s.get_row j).m_alive = false
  · simp only [h1, Bool.not_false, if_true, List.append_nil, Bool.and_true,
      Nat.zero_ne_one, OfNat.zero_ne_ofNat, if_false, false_and, or_false, and_true,
      imp_false, not_false_eq_true, implies_true, true_and]
    simp
  · have h1' : (s.get_row j).m_alive = true := by simpa using h1
    by_cases h2 : s.get_coefficient j x = 0
    · simp only [h1', h2, Bool.not_true, Bool.false_eq_true, if_false, if_true,
        List.append_nil, Bool.and_true, OfNat.zero_ne_ofNat, false_and, or_false, and_true,
        imp_false, not_false_eq_true, implies_true, true_and]
      simp
    · by_cases h3 : (s.get_row j).m_type = ineq_type.t_eq
      · simp only [h1', h2, h3, Bool.not_true, Bool.false_eq_true, if_false, if_true,
          List.append_nil, Bool.and_true, OfNat.one_ne_ofNat, false_and, or_false, and_true,
          imp_false, not_false_eq_true, implies_true, true_and]
        simp
      · by_cases h4 : (s.get_row j).m_type = ineq_type.t_mod
        · simp only [h1', h2, h3, h4, Bool.not_true, Bool.false_eq_true, if_false, if_true,
            List.append_nil, Bool.and_true, false_and, or_false, and_true,
            imp_false, not_false_eq_true, implies_true, true_and]
          simp
        · by_cases h5 : (s.get_row j).m_type = ineq_type.t_div
          · simp only [h1', h2, h3, h4, h5, Bool.not_true, Bool.false_eq_true, if_false,
              if_true, List.append_nil, Bool.and_true, false_and, or_false, and_true,
              imp_false, not_false_eq_true, implies_true, true_and]
            simp
          · by_cases h6 : (s.get_row j).m_type = ineq_type.t_divides
            · simp only [h1', h2, h3, h4, h5, h6, Bool.not_true, Bool.false_eq_true,
                if_false, if_true, List.append_nil, Bool.and_true, false_and, or_false,
                and_true, imp_false, not_false_eq_true, implies_true, true_and]
              simp
            · by_cases h7 : 0 < s.get_coefficient j x
              · simp only [h1', h2, h3, h4, h5, h6, h7, Bool.not_true, Bool.false_eq_true,
                  if_false, if_true]
                split
                · simp
                · rename_i hc
                  simp only [Bool.or_eq_true, List.isEmpty_iff, not_or] at hc
                  simp
                  intro he
                  exact absurd he hc.1.1
              · simp only [h1', h2, h3, h4, h5, h6, h7, Bool.not_true, Bool.false_eq_true,
                  if_false, if_true]
                split
                · simp
                · rename_i hc
                  simp only [Bool.or_eq_true, List.isEmpty_iff, not_or] at hc
                  simp
                  intro he
                  exact absurd he hc.1.1

theorem fresh_ids_cons_new (seen l : List Nat) (a : Nat) (h : a ∉ seen) :
    fresh_ids seen (a :: l) = a :: fresh_ids (seen ++ [a]) l := by
  simp [fresh_ids, h]

theorem fresh_ids_cons_seen (seen l : List Nat) (a : Nat) (h : a ∈ seen) :
    fresh_ids seen (a :: l) = fresh_ids seen l := by
  simp [fresh_ids, h]

theorem scan_fold_lists (s : model_based_opt) (x : Nat) (l : List Nat) (p : project_scan) :
    (l.foldl (project_scan_step s x) p).visited = p.visited ++ fresh_ids p.visited l ∧
    (l.foldl (project_scan_step s x) p).lub_rows =
      p.lub_rows ++ (fresh_ids p.visited l).filter (fun j => scan_kind s x j = 5) ∧
    (l.foldl (project_scan_step s x) p).glb_rows =
      p.glb_rows ++ (fresh_ids p.visited l).filter (fun j => scan_kind s x j = 6) ∧
    (l.foldl (project_scan_step s x) p).divide_rows =
      p.divide_rows ++ (fresh_ids p.visited l).filter (fun j => scan_kind s x j = 4) ∧
    (l.foldl (project_scan_step s x) p).mod_rows =
      p.mod_rows ++ (fresh_ids p.visited l).filter (fun j => scan_kind s x j = 2) ∧
    (l.foldl (project_scan_step s x) p).div_rows =
      p.div_rows ++ (fresh_ids p.visited l).filter (fun j => scan_kind s x j = 3) := by
  induction l generalizing p with
  | nil => simp [fresh_ids]
  | cons a l ih =>
    rw [List.foldl_cons]
    by_cases hv : a ∈ p.visited
    · rw [scan_step_seen s x p a hv, fresh_ids_cons_seen _ _ _ hv]
      exact ih p
    · obtain ⟨g0, g1, g2, g3, g4, g5, -⟩ := scan_step_lists s x p a hv
      obtain ⟨h0, h1, h2, h3, h4, h5⟩ := ih (project_scan_step s x p a)
      rw [fresh_ids_cons_new _ _ _ hv]
      rw [g0] at h0 h1 h2 h3 h4 h5
      refine ⟨?_, ?_, ?_, ?_, ?_, ?_⟩
      · rw [h0]; simp
      · rw [h1, g1, List.filter_cons]; split_ifs <;> simp_all
      · rw [h2, g2, List.filter_cons]; split_ifs <;> simp_all
      · rw [h3, g3, List.filter_cons]; split_ifs <;> simp_all
      · rw [h4, g4, List.filter_cons]; split_ifs <;> simp_all
      · rw [h5, g5, List.filter_cons]; split_ifs <;> simp_all

theorem scan_fold_eq (s : model_based_opt) (x : Nat) (l : List Nat) (p : project_scan) :
    ((l.foldl (project_scan_step s x) p).eq_row = p.eq_row ∧
        ∀ j ∈ fresh_ids p.visited l, scan_kind s x j ≠ 1) ∨
    (∃ j ∈ fresh_ids p.visited l, scan_kind s x j = 1 ∧
        (l.foldl (project_scan_step s x) p).eq_row = some j) := by
  induction l generalizing p with
  | nil => simp [fresh_ids]
  | cons a l ih =>
    rw [List.foldl_cons]
    by_cases hv : a ∈ p.visited
    · rw [scan_step_seen s x p a hv, fresh_ids_cons_seen _ _ _ hv]
      exact ih p
    · obtain ⟨g0, -, -, -, -, -, g6, -⟩ := scan_step_lists s x p a hv
      rw [fresh_ids_cons_new _ _ _ hv]
      rcases ih (project_scan_step s x p a) with ⟨h1, h2⟩ | ⟨j, hj, hk, he⟩
      · rw [g0] at h2
        by_cases hk : scan_kind s x a = 1
        · right
          refine ⟨a, List.mem_cons_self _ _, hk, ?_⟩
          rw [h1, g6, if_pos hk]
        · left
          refine ⟨?_, ?_⟩
          · rw [h1, g6, if_neg hk]
          · intro j hj
            rcases List.mem_cons.mp hj with rfl | h
            · exact hk
            · exact h2 j h
      · rw [g0] at hj
        right
        exact ⟨j, List.mem_cons_of_mem _ hj, hk, he⟩

theorem scan_fold_lub_index (s : model_based_opt) (x : Nat) (l : List Nat) (p : project_scan) :
    ((l.foldl (project_scan_step s x) p).lub_index = p.lub_index ∨
      ∃ j ∈ fresh_ids p.visited l, scan_kind s x j = 5 ∧
        (l.foldl (project_scan_step s x) p).lub_index = some j) ∧
    (p.lub_rows = [] → (∃ j ∈ fresh_ids p.visited l, scan_kind s x j = 5) →
      ∃ j ∈ fresh_ids p.visited l, scan_kind s x j = 5 ∧
        (l.foldl (project_scan_step s x) p).lub_index = some j) := by
  induction l generalizing p with
  | nil => simp [fresh_ids]
  | cons a l ih =>
    rw [List.foldl_cons]
    by_cases hv : a ∈ p.visited
    · rw [scan_step_seen s x p a hv, fresh_ids_cons_seen _ _ _ hv]
      exact ih p
    · obtain ⟨g0, g1, -, -, -, -, -, g7, -, g9, -⟩ := scan_step_lists s x p a hv
      rw [fresh_ids_cons_new _ _ _ hv]
      obtain ⟨i1, i2⟩ := ih (project_scan_step s x p a)
      rw [g0] at i1 i2
      have part1 : ((l.foldl (project_scan_step s x) (project_scan_step s x p a)).lub_index
            = p.lub_index ∨
          ∃ j ∈ a :: fresh_ids (p.visited ++ [a]) l, scan_kind s x j = 5 ∧
            (l.foldl (project_scan_step s x) (project_scan_step s x p a)).lub_index
              = some j) := by
        rcases i1 with h | ⟨j, hj, hk, he⟩
        · rcases g7 with g | ⟨gk, g⟩
          · left; rw [h, g]
          · right; exact ⟨a, List.mem_cons_self _ _, gk, by rw [h, g]⟩
        · right; exact ⟨j, List.mem_cons_of_mem _ hj, hk, he⟩
      refine ⟨part1, ?_⟩
      intro hemp ⟨j, hj, hk⟩
      by_cases hka : scan_kind s x a = 5
      · have hidx := g9 hemp hka
        rcases i1 with h | ⟨j', hj', hk', he'⟩
        · exact ⟨a, List.mem_cons_self _ _, hka, by rw [h, hidx]⟩
        · exact ⟨j', List.mem_cons_of_mem _ hj', hk', he'⟩
      · have hj' : j ∈ fresh_ids (p.visited ++ [a]) l := by
          rcases List.mem_cons.mp hj with rfl | h
          · exact absurd hk hka
          · exact h
        have hemp' : (project_scan_step s x p a).lub_rows = [] := by
          rw [g1, hemp, if_neg hka]; rfl
        obtain ⟨j2, hj2, hk2, he2⟩ := i2 hemp' ⟨j, hj', hk⟩
        exact ⟨j2, List.mem_cons_of_mem _ hj2, hk2, he2⟩

theorem scan_fold_glb_index (s : model_based_opt) (x : Nat) (l : List Nat) (p : project_scan) :
    ((l.foldl (project_scan_step s x) p).glb_index = p.glb_index ∨
      ∃ j ∈ fresh_ids p.visited l, scan_kind s x j = 6 ∧
        (l.foldl (project_scan_step s x) p).glb_index = some j) ∧
    (p.glb_rows = [] → (∃ j ∈ fresh_ids p.visited l, scan_kind s x j = 6) →
      ∃ j ∈ fresh_ids p.visited l, scan_kind s x j = 6 ∧
        (l.foldl (project_scan_step s x) p).glb_index = some j) := by
  induction l generalizing p with
  | nil => simp [fresh_ids]
  | cons a l ih =>
    rw [List.foldl_cons]
    by_cases hv : a ∈ p.visited
    · rw [scan_step_seen s x p a hv, fresh_ids_cons_seen _ _ _ hv]
      exact ih p
    · obtain ⟨g0, -, g2, -, -, -, -, -, g8, -, g10, -⟩ := scan_step_lists s x p a hv
      rw [fresh_ids_cons_new _ _ _ hv]
      obtain ⟨i1, i2⟩ := ih (project_scan_step s x p a)
      rw [g0] at i1 i2
      have part1 : ((l.foldl (project_scan_step s x) (project_scan_step s x p a)).glb_index
            = p.glb_index ∨
          ∃ j ∈ a :: fresh_ids (p.visited ++ [a]) l, scan_kind s x j = 6 ∧
            (l.foldl (project_scan_step s x) (project_scan_step s x p a)).glb_index
              = some j) := by
        rcases i1 with h | ⟨j, hj, hk, he⟩
        · rcases g8 with g | ⟨gk, g⟩
          · left; rw [h, g]
          · right; exact ⟨a, List.mem_cons_self _ _, gk, by rw [h, g]⟩
        · right; exact ⟨j, List.mem_cons_of_mem _ hj, hk, he⟩
      refine ⟨part1, ?_⟩
      intro hemp ⟨j, hj, hk⟩
      by_cases hka : scan_kind s x a = 6
      · have hidx := g10 hemp hka
        rcases i1 with h | ⟨j', hj', hk', he'⟩
        · exact ⟨a, List.mem_cons_self _ _, hka, by rw [h, hidx]⟩
        · exact ⟨j', List.mem_cons_of_mem _ hj', hk', he'⟩
      · have hj' : j ∈ fresh_ids (p.visited ++ [a]) l := by
          rcases List.mem_cons.mp hj with rfl | h
          · exact absurd hk hka
          · exact h
        have hemp' : (project_scan_step s x p a).glb_rows = [] := by
          rw [g2, hemp, if_neg hka]; rfl
        obtain ⟨j2, hj2, hk2, he2⟩ := i2 hemp' ⟨j, hj', hk⟩
        exact ⟨j2, List.mem_cons_of_mem _ hj2, hk2, he2⟩

theorem scan_fold_units (s : model_based_opt) (x : Nat) (l : List Nat) (p : project_scan) :
    ((l.foldl (project_scan_step s x) p).lub_is_unit = true →
      p.lub_is_unit = true ∧ ∀ j ∈ fresh_ids p.visited l, scan_kind s x j = 5 →
        s.get_coefficient j x = 1) ∧
    ((l.foldl (project_scan_step s x) p).glb_is_unit = true →
      p.glb_is_unit = true ∧ ∀ j ∈ fresh_ids p.visited l, scan_kind s x j = 6 →
        s.get_coefficient j x = -1) := by
  induction l generalizing p with
  | nil => simp [fresh_ids]
  | cons a l ih =>
    rw [List.foldl_cons]
    by_cases hv : a ∈ p.visited
    · rw [scan_step_seen s x p a hv, fresh_ids_cons_seen _ _ _ hv]
      exact ih p
    · obtain ⟨g0, -, -, -, -, -, -, -, -, -, -, g11, g12⟩ := scan_step_lists s x p a hv
      rw [fresh_ids_cons_new _ _ _ hv]
      obtain ⟨i1, i2⟩ := ih (project_scan_step s x p a)
      rw [g0] at i1 i2
      constructor
      · intro h
        obtain ⟨h1, h2⟩ := i1 h
        rw [g11, Bool.and_eq_true] at h1
        refine ⟨h1.1, ?_⟩
        intro j hj hk
        rcases List.mem_cons.mp hj with rfl | hj'
        · have := h1.2
          rw [if_pos hk] at this
          simpa using this
        · exact h2 j hj' hk
      · intro h
        obtain ⟨h1, h2⟩ := i2 h
        rw [g12, Bool.and_eq_true] at h1
        refine ⟨h1.1, ?_⟩
        intro j hj hk
        rcases List.mem_cons.mp hj with rfl | hj'
        · have := h1.2
          rw [if_pos hk] at this
          simpa using this
        · exact h2 j hj' hk

/-! ### Solving an equality row for a definition -/

theorem eval_def_congr (s t : model_based_opt) (h : t.m_var2value = s.m_var2value) (d : def_) :
    t.eval_def d = s.eval_def d := by
  induction d with
  | add_def x y ihx ihy => simp [eval_def, ihx, ihy]
  | mul_def x y ihx ihy => simp [eval_def, ihx, ihy]
  | div_def x m ih => simp [eval_def, ih]
  | var_def v => simp [eval_def, model_based_opt.eval, h]
  | const_def c => simp [eval_def]

theorem sum_vars_neg (val : Nat → ℚ) (vs : List var) :
    sum_vars val (vs.map (fun v => (⟨v.m_id, -v.m_coeff⟩ : var))) = - sum_vars val vs := by
  induction vs with
  | nil => simp [sum_vars]
  | cons a l ih =>
    simp only [sum_vars, List.map_cons, List.sum_cons] at ih ⊢
    rw [ih]; ring

theorem eval_row_neg (s : model_based_opt) (r : row) : s.eval_row r.neg = - s.eval_row r := by
  rw [eval_row_eq, eval_row_eq]
  simp only [row.neg, sum_vars_neg]
  ring

theorem get_row_append (s : model_based_opt) (r : row) (i : Nat) (h : i < s.m_rows.length) :
    ({ s with m_rows := s.m_rows ++ [r] } : model_based_opt).get_row i = s.get_row i := by
  unfold get_row
  simp only
  rw [List.getD_eq_getElem _ _ h, List.getD_eq_getElem _ _ (by simp; omega)]
  exact List.getElem_append_left h

theorem keeps_row_of_same_except {i j : Nat} {s t : model_based_opt} (h : same_except j s t)
    (hij : i ≠ j) : keeps_row i s t := ⟨h.1 i hij, h.2.1⟩

theorem keeps_row_trans {i : Nat} {s t u : model_based_opt} (h1 : keeps_row i s t)
    (h2 : keeps_row i t u) : keeps_row i s u :=
  ⟨h2.1.trans h1.1, h2.2.trans h1.2⟩

theorem same_except_set_row (s : model_based_opt) (j : Nat) (coeffs : List var) (c m : ℚ)
    (rel : ineq_type) : same_except j s (s.set_row j coeffs c m rel) := by
  unfold set_row
  exact same_except_put_row s j _

theorem same_except_foldl_push_var (j k : Nat) (l : List var) (s : model_based_opt) :
    same_except j s (l.foldl (fun st v => st.push_row_id v.m_id k) s) := by
  induction l generalizing s with
  | nil => exact same_except_refl j s
  | cons a l ih => exact same_except_trans (same_except_push_row_id s j a.m_id k) (ih _)

theorem getLast?_mem {α : Type} (l : List α) (a : α) (h : l.getLast? = some a) : a ∈ l := by
  exact List.mem_of_getLast?_eq_some h

theorem new_row_keeps (s : model_based_opt) (i : Nat) (hi : (s.get_row i).m_alive = true)
    (hret : ∀ j ∈ s.m_retired_rows, (s.get_row j).m_alive = false) :
    keeps_row i s s.new_row.1 ∧ s.new_row.2 ≠ i := by
  unfold new_row
  cases hl : s.m_retired_rows.getLast? with
  | none =>
    simp only
    have hlt := alive_lt_length s i hi
    exact ⟨⟨get_row_append s _ i hlt, rfl⟩, by omega⟩
  | some k =>
    simp only
    have hk : k ∈ s.m_retired_rows := List.mem_of_getLast?_eq_some hl
    have hne : i ≠ k := by
      intro h
      have := hret k hk
      rw [← h, hi] at this
      simp at this
    refine ⟨⟨?_, rfl⟩, fun h => hne h.symm⟩
    rw [get_row_put_row_ne _ _ _ _ hne]
    rfl

theorem add_constraint5_keeps (s : model_based_opt) (i : Nat) (coeffs : List var) (c m : ℚ)
    (rel : ineq_type) (id : Nat) (hi : (s.get_row i).m_alive = true)
    (hret : ∀ j ∈ s.m_retired_rows, (s.get_row j).m_alive = false) :
    keeps_row i s (s.add_constraint5 coeffs c m rel id).1 := by
  unfold add_constraint5
  dsimp only
  split
  · exact ⟨rfl, rfl⟩
  · obtain ⟨h1, h2⟩ := new_row_keeps s i hi hret
    refine keeps_row_trans h1 ?_
    have hne : i ≠ s.new_row.2 := fun h => h2 h.symm
    refine keeps_row_of_same_except ?_ hne
    refine same_except_trans ?_ (same_except_normalize _ _)
    refine same_except_trans ?_ (same_except_foldl_push_var _ _ _ _)
    refine same_except_trans ?_ (same_except_put_row _ _ _)
    exact same_except_set_row _ _ _ _ _ _

theorem add_divides_keeps (s : model_based_opt) (i : Nat) (coeffs : List var) (c m : ℚ)
    (hi : (s.get_row i).m_alive = true)
    (hret : ∀ j ∈ s.m_retired_rows, (s.get_row j).m_alive = false) :
    keeps_row i s (s.add_divides coeffs c m) := by
  unfold add_divides
  simp only
  split
  · exact ⟨rfl, rfl⟩
  · exact add_constraint5_keeps s i coeffs c m _ 0 hi hret

theorem solve_for_fold_keeps (i : Nat) (a : ℚ) (x : Nat) (l : List Nat)
    (p : model_based_opt × List Nat) (hi : i ∈ p.2) :
    keeps_row i p.1 (l.foldl (solve_for_step i a x) p).1 := by
  induction l generalizing p with
  | nil => exact ⟨rfl, rfl⟩
  | cons b l ih =>
    rw [List.foldl_cons]
    have hstep : keeps_row i p.1 (solve_for_step i a x p b).1 ∧ i ∈ (solve_for_step i a x p b).2 := by
      unfold solve_for_step
      by_cases hb : p.2.contains b = true
      · rw [if_pos hb]; exact ⟨⟨rfl, rfl⟩, hi⟩
      · rw [if_neg hb]
        have hbi : i ≠ b := by
          intro h; apply hb; rw [← h]; exact (contains_iff _ _).mpr hi
        have hmem : i ∈ p.2 ++ [b] := List.mem_append_left _ hi
        simp only
        split
        · exact ⟨⟨rfl, rfl⟩, hmem⟩
        · split
          · exact ⟨⟨rfl, rfl⟩, hmem⟩
          · split
            · exact ⟨keeps_row_of_same_except (same_except_solve _ _ _ _ _) hbi, hmem⟩
            · exact ⟨keeps_row_of_same_except (same_except_solve _ _ _ _ _) hbi, hmem⟩
            · exact ⟨keeps_row_of_same_except (same_except_solve _ _ _ _ _) hbi, hmem⟩
            · exact ⟨⟨rfl, rfl⟩, hmem⟩
    exact keeps_row_trans hstep.1 (ih _ hstep.2)

theorem set_getD_self (l : List ℚ) (x : Nat) : l.set x (l.getD x 0) = l := by
  induction l generalizing x with
  | nil => rfl
  | cons a l ih =>
    cases x with
    | zero => rfl
    | succ n => simp only [List.set_cons_succ, List.getD_cons_succ, ih]

theorem ite_keeps {c : Prop} [Decidable c] (A B : model_based_opt)
    (P : model_based_opt → Prop) (hA : P A) (hB : P B) : P (if c then A else B) := by
  split <;> assumption

theorem sorted_ids_nodup (vs : List var) (h : sorted_ids vs) :
    (vs.map (fun v => v.m_id)).Nodup := by
  unfold sorted_ids at h
  exact List.Sorted.nodup h

theorem solve_for_eq_def (s : model_based_opt) (i x : Nat)
    (hi : (s.get_row i).m_alive = true) (hty : (s.get_row i).m_type = ineq_type.t_eq)
    (hc : s.get_coefficient i x ≠ 0) (hs : sorted_ids (s.get_row i).m_vars)
    (h0 : s.eval_row (s.get_row i) = 0) (hv : (s.get_row i).m_value = 0)
    (hret : ∀ j ∈ s.m_retired_rows, (s.get_row j).m_alive = false) :
    ∃ s1 d, s.solve_for i x true = (s1, some d) ∧ s1.eval_def d = s.eval x ∧
      s.eval_def d = s.eval x ∧ s1.m_var2value = s.m_var2value := by
  have hlt := alive_lt_length s i hi
  obtain ⟨v, hvm, hvx, hvc⟩ := get_coefficient_mem (s.get_row i) x hc
  have hnd := sorted_ids_nodup _ hs
  -- the sign-normalised row
  obtain ⟨r2, hr2⟩ : ∃ r2, r2 = (if s.get_coefficient i x < 0 then (s.get_row i).neg
      else s.get_row i) := ⟨_, rfl⟩
  have f1 : r2.m_type = ineq_type.t_eq := by
    rw [hr2]; split <;> simp [row.neg, hty]
  have f2 : (r2.m_vars.map (fun v => v.m_id)).Nodup := by
    rw [hr2]; split
    · simpa [row.neg, List.map_map, Function.comp] using hnd
    · exact hnd
  have f3 : ∃ a, a ≠ 0 ∧ (⟨x, a⟩ : var) ∈ r2.m_vars := by
    have hv' : v = ⟨x, s.get_coefficient i x⟩ := by
      cases v; simp_all [model_based_opt.get_coefficient]
    rw [hr2]; split
    · refine ⟨-s.get_coefficient i x, neg_ne_zero.mpr hc, ?_⟩
      simp only [row.neg, List.mem_map]
      exact ⟨v, hvm, by rw [hv']⟩
    · exact ⟨s.get_coefficient i x, hc, hv' ▸ hvm⟩
  have f4 : s.eval_row r2 = 0 := by
    rw [hr2]; split
    · rw [eval_row_neg, h0]; simp
    · exact h0
  have f5 : r2.m_value = 0 := by
    rw [hr2]; split <;> simp [row.neg, hv]
  have f6 : r2.m_alive = true := by
    rw [hr2]; split <;> simp [row.neg, hi]
  have f7 : ({ r2 with m_coeff := r2.m_coeff - r2.m_value, m_value := 0 } : row) = r2 := by
    cases r2; simp_all
  obtain ⟨a, ha, hmem⟩ := f3
  have hfrom := from_row_eval_eq s r2 x a f1 f2 hmem ha f4
  -- the state before the loop keeps row `i` equal to `r2`
  have hput : (s.put_row i r2).get_row i = r2 := get_row_put_row_eq s i r2 hlt
  have key : ∀ (S1 : model_based_opt) (a1 : ℚ), S1.get_row i = r2 →
      S1.m_var2value = s.m_var2value →
      ((((S1.row_ids x).foldl (solve_for_step i a1 x) (S1, [i])).1.set_value x
          (((S1.row_ids x).foldl (solve_for_step i a1 x) (S1, [i])).1.eval_def
            (def_.from_row (((S1.row_ids x).foldl (solve_for_step i a1 x) (S1, [i])).1.get_row i)
              x))).retire_row i).eval_def
          (def_.from_row (((S1.row_ids x).foldl (solve_for_step i a1 x) (S1, [i])).1.get_row i) x)
        = s.eval x ∧
      s.eval_def
          (def_.from_row (((S1.row_ids x).foldl (solve_for_step i a1 x) (S1, [i])).1.get_row i) x)
        = s.eval x ∧
      ((((S1.row_ids x).foldl (solve_for_step i a1 x) (S1, [i])).1.set_value x
          (((S1.row_ids x).foldl (solve_for_step i a1 x) (S1, [i])).1.eval_def
            (def_.from_row (((S1.row_ids x).foldl (solve_for_step i a1 x) (S1, [i])).1.get_row i)
              x))).retire_row i).m_var2value = s.m_var2value := by
    intro S1 a1 hS1 hS1v
    obtain ⟨k1, k2⟩ := solve_for_fold_keeps i a1 x (S1.row_ids x) (S1, [i]) (by simp)
    generalize ((S1.row_ids x).foldl (solve_for_step i a1 x) (S1, [i])).1 = S2 at k1 k2 ⊢
    simp only at k1 k2
    rw [k1, hS1]
    have e1 : S2.eval_def (def_.from_row r2 x) = s.eval x := by
      rw [eval_def_congr s S2 (k2.trans hS1v)]; exact hfrom
    have e3 : ((S2.set_value x (S2.eval_def (def_.from_row r2 x))).retire_row i).m_var2value
        = s.m_var2value := by
      rw [e1]
      simp only [retire_row, set_value, put_row]
      rw [k2, hS1v]
      exact set_getD_self _ _
    exact ⟨by rw [eval_def_congr s _ e3]; exact hfrom, hfrom, e3⟩
  unfold solve_for
  simp only [hty, reduceCtorEq, if_false, ← hr2, f7, if_true]
  have hst_ret : ∀ j ∈ (s.put_row i r2).m_retired_rows,
      ((s.put_row i r2).get_row j).m_alive = false := by
    intro j hj
    have hj' := hret j hj
    have hne : j ≠ i := by
      intro h; rw [h, hi] at hj'; simp at hj'
    rw [get_row_put_row_ne _ _ _ _ hne]; exact hj'
  have hal : ((s.put_row i r2).get_row i).m_alive = true := by rw [hput]; exact f6
  refine ⟨_, _, rfl, key _ _ ?_ ?_⟩
  · refine ite_keeps _ _ (fun S => S.get_row i = r2) ?_ hput
    exact (add_divides_keeps _ i _ _ _ hal hst_ret).1.trans hput
  · refine ite_keeps _ _ (fun S => S.m_var2value = s.m_var2value) ?_ rfl
    exact (add_divides_keeps _ i _ _ _ hal hst_ret).2

theorem scan_kind_on (s : model_based_opt) (x j : Nat) (h : scan_kind s x j ≠ 0) :
    (s.get_row j).m_alive = true ∧ s.get_coefficient j x ≠ 0 := by
  unfold scan_kind at h
  split_ifs at h <;> simp_all

theorem scan_kind_1 (s : model_based_opt) (x j : Nat) :
    scan_kind s x j = 1 ↔ (s.get_row j).m_alive = true ∧ s.get_coefficient j x ≠ 0 ∧
      (s.get_row j).m_type = ineq_type.t_eq := by
  unfold scan_kind
  split_ifs <;> simp_all

theorem scan_kind_2 (s : model_based_opt) (x j : Nat) :
    scan_kind s x j = 2 ↔ (s.get_row j).m_alive = true ∧ s.get_coefficient j x ≠ 0 ∧
      (s.get_row j).m_type = ineq_type.t_mod := by
  unfold scan_kind
  split_ifs <;> simp_all

theorem scan_kind_3 (s : model_based_opt) (x j : Nat) :
    scan_kind s x j = 3 ↔ (s.get_row j).m_alive = true ∧ s.get_coefficient j x ≠ 0 ∧
      (s.get_row j).m_type = ineq_type.t_div := by
  unfold scan_kind
  split_ifs <;> simp_all

theorem scan_kind_4 (s : model_based_opt) (x j : Nat) :
    scan_kind s x j = 4 ↔ (s.get_row j).m_alive = true ∧ s.get_coefficient j x ≠ 0 ∧
      (s.get_row j).m_type = ineq_type.t_divides := by
  unfold scan_kind
  split_ifs <;> simp_all

theorem scan_kind_5 (s : model_based_opt) (x j : Nat) :
    scan_kind s x j = 5 ↔ (s.get_row j).m_alive = true ∧ 0 < s.get_coefficient j x ∧
      ((s.get_row j).m_type = ineq_type.t_lt ∨ (s.get_row j).m_type = ineq_type.t_le) := by
  unfold scan_kind
  cases hT : (s.get_row j).m_type <;> split_ifs <;> simp_all

theorem scan_kind_6 (s : model_based_opt) (x j : Nat) :
    scan_kind s x j = 6 ↔ (s.get_row j).m_alive = true ∧ s.get_coefficient j x < 0 ∧
      ((s.get_row j).m_type = ineq_type.t_lt ∨ (s.get_row j).m_type = ineq_type.t_le) := by
  unfold scan_kind
  cases hT : (s.get_row j).m_type <;> split_ifs <;> simp_all <;>
    first
    | exact le_of_lt (by assumption)
    | exact lt_of_le_of_ne (by assumption) (by assumption)

theorem fresh_ids_nil_mem (l : List Nat) (j : Nat) : j ∈ fresh_ids [] l ↔ j ∈ l := by
  rw [mem_fresh_ids]; simp

theorem scan_no_div_rows (s : model_based_opt) (x : Nat) (h : no_div_rows s x) :
    (scan_result s x).divide_rows = [] ∧ (scan_result s x).mod_rows = [] ∧
    (scan_result s x).div_rows = [] := by
  obtain ⟨-, -, -, h3, h4, h5⟩ := scan_fold_lists s x (s.row_ids x) {}
  unfold scan_result
  rw [h3, h4, h5]
  refine ⟨?_, ?_, ?_⟩
  all_goals
    simp only [List.nil_append, List.filter_eq_nil_iff, decide_eq_true_eq]
    intro j hj hk
    rw [fresh_ids_nil_mem] at hj
  · rw [scan_kind_4] at hk; exact (h j hj hk.1 hk.2.1).2.2 hk.2.2
  · rw [scan_kind_2] at hk; exact (h j hj hk.1 hk.2.1).1 hk.2.2
  · rw [scan_kind_3] at hk; exact (h j hj hk.1 hk.2.1).2.1 hk.2.2

/-- The definition taken from an equality row: if `x` occurs in no live divisibility, mod
or div row but occurs (with nonzero coefficient) in a live equality row listed for it, the live equality rows on `x`
have terms sorted by strictly ascending id and cached value and evaluation 0, and the
retired row ids are dead rows, then `project(x, true)` returns (for every positive fuel)
a definition `d` whose evaluation, at the assignment before and after the projection,
equals the value `x` had before the projection; the variable values are unchanged. -/
theorem project_eq_def (s : model_based_opt) (x fuel : Nat)
    (hdm : no_div_rows s x)
    (heq : ∃ j ∈ s.row_ids x, (s.get_row j).m_alive = true ∧ s.get_coefficient j x ≠ 0 ∧
      (s.get_row j).m_type = ineq_type.t_eq)
    (hrow : ∀ j ∈ s.row_ids x, (s.get_row j).m_alive = true →
      (s.get_row j).m_type = ineq_type.t_eq →
      sorted_ids (s.get_row j).m_vars ∧ s.eval_row (s.get_row j) = 0 ∧
        (s.get_row j).m_value = 0)
    (hret : ∀ j ∈ s.m_retired_rows, (s.get_row j).m_alive = false) :
    ∃ s1 d, project (fuel + 1) s x true = Except.ok (s1, some d) ∧
      s1.eval_def d = s.eval x ∧ s.eval_def d = s.eval x ∧
      s1.m_var2value = s.m_var2value := by
  obtain ⟨d1, d2, d3⟩ := scan_no_div_rows s x hdm
  have he : ∃ i ∈ s.row_ids x, scan_kind s x i = 1 ∧ (scan_result s x).eq_row = some i := by
    rcases scan_fold_eq s x (s.row_ids x) {} with ⟨-, h2⟩ | ⟨i, hi, hk, he⟩
    · exfalso
      obtain ⟨j, hj, hj2⟩ := heq
      exact h2 j ((fresh_ids_nil_mem _ _).mpr hj) ((scan_kind_1 s x j).mpr hj2)
    · exact ⟨i, (fresh_ids_nil_mem _ _).mp hi, hk, he⟩
  obtain ⟨i, hiL, hik, hie⟩ := he
  obtain ⟨hal, hco, hty⟩ := (scan_kind_1 s x i).mp hik
  obtain ⟨hs, h0, hv⟩ := hrow i hiL hal hty
  obtain ⟨s1, d, hsol, e1, e2, e3⟩ := solve_for_eq_def s i x hal hty hco hs h0 hv hret
  refine ⟨s1, d, ?_, e1, e2, e3⟩
  unfold scan_result at d1 d2 d3 hie
  unfold project
  simp only [d1, d2, d3, hie, hsol]
  rfl

/-! ### Binary search and linear lookup -/

theorem coeff_of_nil (x : Nat) : coeff_of [] x = 0 := rfl

theorem coeff_of_cons (a : var) (l : List var) (x : Nat) :
    coeff_of (a :: l) x = if a.m_id = x then a.m_coeff else coeff_of l x := by
  by_cases h : a.m_id = x <;> simp [coeff_of, List.find?_cons, h]

theorem coeff_of_absent (vs : List var) (x : Nat) (h : ∀ t ∈ vs, t.m_id ≠ x) :
    coeff_of vs x = 0 := by
  induction vs with
  | nil => rfl
  | cons a l ih =>
    rw [coeff_of_cons, if_neg (h a (List.mem_cons_self _ _))]
    exact ih (fun t ht => h t (List.mem_cons_of_mem _ ht))

theorem sorted_ids_cons (a : var) (l : List var) :
    sorted_ids (a :: l) ↔ (∀ w ∈ l, a.m_id < w.m_id) ∧ sorted_ids l := by
  unfold sorted_ids
  simp [List.Sorted]

theorem sorted_ids_nil : sorted_ids [] := by
  unfold sorted_ids
  simp

theorem sorted_ids_getD (vs : List var) (h : sorted_ids vs) (i j : Nat) (hij : i < j)
    (hj : j < vs.length) : (vs.getD i {}).m_id < (vs.getD j {}).m_id := by
  unfold sorted_ids at h
  have hi : i < vs.length := lt_trans hij hj
  have h2 := List.pairwise_iff_getElem.mp h i j (by simpa using hi) (by simpa using hj) hij
  rw [List.getD_eq_getElem _ _ hi, List.getD_eq_getElem _ _ hj]
  simpa using h2

theorem bsearch_fuel (vs : List var) (v : Nat) (f1 : Nat) :
    ∀ (f2 lo hi : Nat), hi - lo ≤ f1 → hi - lo ≤ f2 →
      row.bsearch vs v f1 lo hi = row.bsearch vs v f2 lo hi := by
  induction f1 with
  | zero =>
    intro f2 lo hi h1 _
    have hle : ¬ lo < hi := by omega
    cases f2 with
    | zero => rfl
    | succ f2 => simp [row.bsearch, hle]
  | succ f1 ih =>
    intro f2 lo hi h1 h2
    cases f2 with
    | zero =>
      have hle : ¬ lo < hi := by omega
      simp [row.bsearch, hle]
    | succ f2 =>
      unfold row.bsearch
      by_cases hlt : lo < hi
      · simp only [hlt, if_true]
        have hmid : lo + (hi - lo) / 2 < hi := by omega
        split
        · rfl
        · split
          · exact ih f2 _ _ (by omega) (by omega)
          · exact ih f2 _ _ (by omega) (by omega)
      · simp [hlt]

theorem bsearch_found (vs : List var) (v : Nat) (hs : sorted_ids vs) (k : Nat)
    (hk : k < vs.length) (hkv : (vs.getD k {}).m_id = v) (fuel : Nat) :
    ∀ (lo hi : Nat), hi ≤ vs.length → hi - lo ≤ fuel → lo ≤ k → k < hi →
      row.bsearch vs v fuel lo hi < vs.length ∧
      (vs.getD (row.bsearch vs v fuel lo hi) {}).m_id = v := by
  induction fuel with
  | zero => intro lo hi _ h1 h2 h3; omega
  | succ fuel ih =>
    intro lo hi hhi hf hlo hkhi
    unfold row.bsearch
    have hlt : lo < hi := by omega
    simp only [hlt, if_true]
    have hmid : lo + (hi - lo) / 2 < hi := by omega
    have hmid2 : lo ≤ lo + (hi - lo) / 2 := by omega
    split
    · rename_i he
      exact ⟨by omega, he⟩
    · rename_i hne
      split
      · rename_i hlt2
        refine ih _ _ hhi (by omega) ?_ hkhi
        by_contra hc
        have hkm : k ≤ lo + (hi - lo) / 2 := by omega
        rcases Nat.lt_or_eq_of_le hkm with h | h
        · have := sorted_ids_getD vs hs k _ h (by omega)
          rw [hkv] at this
          omega
        · rw [← h, hkv] at hne
          exact hne rfl
      · rename_i hnlt
        refine ih _ _ (by omega) (by omega) hlo ?_
        by_contra hc
        have hkm : lo + (hi - lo) / 2 ≤ k := by omega
        rcases Nat.lt_or_eq_of_le hkm with h | h
        · have := sorted_ids_getD vs hs _ k h hk
          rw [hkv] at this
          omega
        · rw [h, hkv] at hne
          exact hne rfl

theorem row_get_coefficient_absent (r : row) (v : Nat) (h : ∀ t ∈ r.m_vars, t.m_id ≠ v) :
    r.get_coefficient v = 0 := by
  by_contra hc
  obtain ⟨t, ht, hid, _⟩ := get_coefficient_mem r v hc
  exact h t ht hid

theorem row_get_coefficient_present (r : row) (v : Nat) (hs : sorted_ids r.m_vars)
    (t : var) (ht : t ∈ r.m_vars) (hid : t.m_id = v) : r.get_coefficient v = t.m_coeff := by
  obtain ⟨k, hk, hget⟩ := List.getElem_of_mem ht
  have hkv : (r.m_vars.getD k {}).m_id = v := by
    rw [List.getD_eq_getElem _ _ hk, hget, hid]
  have hb := bsearch_found r.m_vars v hs k hk hkv r.m_vars.length 0 r.m_vars.length
    (le_refl _) (by omega) (Nat.zero_le _) hk
  have hne : r.m_vars.isEmpty = false := by
    cases hv : r.m_vars with
    | nil => rw [hv] at hk; simp at hk
    | cons a l => rfl
  unfold row.get_coefficient
  simp only [hne, Bool.false_eq_true, if_false]
  rw [if_neg (Nat.ne_of_lt hb.1), if_pos hb.2]
  -- the entry found has the same id as `t`; ids are unique in a sorted list
  have hnd := sorted_ids_nodup r.m_vars hs
  have h1 : r.m_vars.getD (row.bsearch r.m_vars v r.m_vars.length 0 r.m_vars.length) {}
      ∈ r.m_vars := by
    rw [List.getD_eq_getElem _ _ hb.1]
    exact List.getElem_mem _
  have h2 := coeff_of_mem_nodup r.m_vars _ h1 hnd
  have h3 := coeff_of_mem_nodup r.m_vars t ht hnd
  rw [hb.2] at h2
  rw [hid] at h3
  rw [← h2, h3]

theorem row_get_coefficient_eq (r : row) (v : Nat) (hs : sorted_ids r.m_vars) :
    r.get_coefficient v = coeff_of r.m_vars v := by
  by_cases h : ∃ t ∈ r.m_vars, t.m_id = v
  · obtain ⟨t, ht, hid⟩ := h
    rw [row_get_coefficient_present r v hs t ht hid]
    have := coeff_of_mem_nodup r.m_vars t ht (sorted_ids_nodup r.m_vars hs)
    rw [hid] at this
    exact this.symm
  · have h2 : ∀ t ∈ r.m_vars, t.m_id ≠ v := fun t ht hid => h ⟨t, ht, hid⟩
    rw [row_get_coefficient_absent r v h2, coeff_of_absent r.m_vars v h2]

/-- C15: on a row whose terms are sorted by strictly ascending variable id,
`get_coefficient(v)` returns the coefficient of the term with id `v` when the row has
one and zero when it has none (so zero for the empty row and for ids below the first or
above the last term); the binary search loop exits within `m_vars.size()` iterations:
a larger iteration budget gives the same index. -/
theorem get_coefficient_sorted (r : row) (v : Nat) (hs : sorted_ids r.m_vars) :
    (∀ t ∈ r.m_vars, t.m_id = v → r.get_coefficient v = t.m_coeff) ∧
    ((∀ t ∈ r.m_vars, t.m_id ≠ v) → r.get_coefficient v = 0) ∧
    (r.m_vars = [] → r.get_coefficient v = 0) ∧
    (∀ fuel, r.m_vars.length ≤ fuel →
      row.bsearch r.m_vars v fuel 0 r.m_vars.length =
        row.bsearch r.m_vars v r.m_vars.length 0 r.m_vars.length) := by
  refine ⟨fun t ht hid => row_get_coefficient_present r v hs t ht hid,
    fun h => row_get_coefficient_absent r v h, ?_, ?_⟩
  · intro h
    exact row_get_coefficient_absent r v (by rw [h]; simp)
  · intro fuel hf
    exact bsearch_fuel r.m_vars v fuel _ 0 _ (by omega) (by omega)

/-- Witness of C15: the row `2*v1 + 3*v4 + 5*v7` looked up at `v4` (present) and `v5`
(absent). -/
theorem get_coefficient_sorted_witness :
    sorted_ids sample_row.m_vars ∧ sample_row.get_coefficient 4 = 3 ∧
      sample_row.get_coefficient 5 = 0 :=
  ⟨by unfold sorted_ids sample_row; simp,
   (get_coefficient_sorted sample_row 4 (by unfold sorted_ids sample_row; simp)).1 ⟨4, 3⟩
     (by simp [sample_row]) rfl,
   (get_coefficient_sorted sample_row 5 (by unfold sorted_ids sample_row; simp)).2.1
     (by simp [sample_row])⟩

/-! ### The merge loop of `mul_add` -/

theorem coeff_of_map_scale (c : ℚ) (l : List var) (v : Nat) :
    coeff_of (l.map (fun t => (⟨t.m_id, t.m_coeff * c⟩ : var))) v = coeff_of l v * c := by
  induction l with
  | nil => simp [coeff_of_nil]
  | cons a l ih =>
    rw [List.map_cons, coeff_of_cons, coeff_of_cons]
    by_cases h : a.m_id = v
    · simp [h]
    · simp only [h, if_false]
      exact ih

theorem sorted_ids_map_scale (c : ℚ) (l : List var) (h : sorted_ids l) :
    sorted_ids (l.map (fun t => (⟨t.m_id, t.m_coeff * c⟩ : var))) := by
  unfold sorted_ids at h ⊢
  simpa [List.map_map, Function.comp] using h

theorem coeff_of_below (l : List var) (m : Nat) (h : ∀ t ∈ l, m < t.m_id) :
    coeff_of l m = 0 :=
  coeff_of_absent l m (fun t ht he => by have := h t ht; omega)

theorem merge_spec (c : ℚ) (fuel : Nat) :
    ∀ (r1 r2 : List var), r1.length + r2.length + 1 ≤ fuel → sorted_ids r1 → sorted_ids r2 →
      sorted_ids (mul_add_merge c fuel r1 r2).1 ∧
      (∀ w ∈ (mul_add_merge c fuel r1 r2).1,
        (∃ t ∈ r1, t.m_id = w.m_id) ∨ (∃ t ∈ r2, t.m_id = w.m_id)) ∧
      (∀ v, coeff_of (mul_add_merge c fuel r1 r2).1 v = coeff_of r1 v + c * coeff_of r2 v) ∧
      (c ≠ 0 → (∀ t ∈ r1, t.m_coeff ≠ 0) → (∀ t ∈ r2, t.m_coeff ≠ 0) →
        ∀ w ∈ (mul_add_merge c fuel r1 r2).1, w.m_coeff ≠ 0) := by
  induction fuel with
  | zero => intro r1 r2 h; omega
  | succ fuel ih =>
    intro r1 r2 hf h1 h2
    cases r2 with
    | nil =>
      simp only [mul_add_merge]
      refine ⟨h1, fun w hw => Or.inl ⟨w, hw, rfl⟩, fun v => by simp [coeff_of_nil],
        fun _ hn _ w hw => hn w hw⟩
    | cons b r2 =>
      cases r1 with
      | nil =>
        simp only [mul_add_merge]
        refine ⟨sorted_ids_map_scale c _ h2, ?_, ?_, ?_⟩
        · intro w hw
          obtain ⟨t, ht, rfl⟩ := List.mem_map.mp hw
          exact Or.inr ⟨t, ht, rfl⟩
        · intro v
          rw [coeff_of_map_scale, coeff_of_nil]
          ring
        · intro hc _ hn w hw
          obtain ⟨t, ht, rfl⟩ := List.mem_map.mp hw
          exact mul_ne_zero (hn t ht) hc
      | cons a r1 =>
        have h1c := (sorted_ids_cons a r1).mp h1
        have h2c := (sorted_ids_cons b r2).mp h2
        simp only [List.length_cons] at hf
        unfold mul_add_merge
        by_cases hab : a.m_id = b.m_id
        · simp only [if_pos hab]
          obtain ⟨i1, i2, i3, i4⟩ := ih r1 r2 (by omega) h1c.2 h2c.2
          have hlow : ∀ w ∈ (mul_add_merge c fuel r1 r2).1, a.m_id < w.m_id := by
            intro w hw
            rcases i2 w hw with ⟨t, ht, he⟩ | ⟨t, ht, he⟩
            · rw [← he]; exact h1c.1 t ht
            · rw [← he, hab]; exact h2c.1 t ht
          by_cases hk : a.m_coeff + c * b.m_coeff = 0
          · simp only [hk, if_true]
            refine ⟨i1, ?_, ?_, ?_⟩
            · intro w hw
              rcases i2 w hw with ⟨t, ht, he⟩ | ⟨t, ht, he⟩
              · exact Or.inl ⟨t, List.mem_cons_of_mem _ ht, he⟩
              · exact Or.inr ⟨t, List.mem_cons_of_mem _ ht, he⟩
            · intro v
              rw [coeff_of_cons, coeff_of_cons, i3]
              by_cases hv : a.m_id = v
              · have e1 : coeff_of r1 v = 0 := by
                  rw [← hv]; exact coeff_of_below r1 _ h1c.1
                have e2 : coeff_of r2 v = 0 := by
                  rw [← hv, hab]; exact coeff_of_below r2 _ h2c.1
                have hv2 : b.m_id = v := by rw [← hab]; exact hv
                simp only [hv, hv2, if_true, e1, e2]
                rw [hk]; ring
              · have hv2 : ¬ b.m_id = v := by rw [← hab]; exact hv
                simp only [hv, hv2, if_false]
            · intro hc hn1 hn2 w hw
              exact i4 hc (fun t ht => hn1 t (List.mem_cons_of_mem _ ht))
                (fun t ht => hn2 t (List.mem_cons_of_mem _ ht)) w hw
          · simp only [hk, if_false]
            refine ⟨(sorted_ids_cons _ _).mpr ⟨hlow, i1⟩, ?_, ?_, ?_⟩
            · intro w hw
              rcases List.mem_cons.mp hw with rfl | hw
              · exact Or.inl ⟨a, List.mem_cons_self _ _, rfl⟩
              · rcases i2 w hw with ⟨t, ht, he⟩ | ⟨t, ht, he⟩
                · exact Or.inl ⟨t, List.mem_cons_of_mem _ ht, he⟩
                · exact Or.inr ⟨t, List.mem_cons_of_mem _ ht, he⟩
            · intro v
              rw [coeff_of_cons, coeff_of_cons, coeff_of_cons, i3]
              by_cases hv : a.m_id = v
              · have hv2 : b.m_id = v := by rw [← hab]; exact hv
                simp only [hv, hv2, if_true]
              · have hv2 : ¬ b.m_id = v := by rw [← hab]; exact hv
                simp only [hv, hv2, if_false]
            · intro hc hn1 hn2 w hw
              rcases List.mem_cons.mp hw with rfl | hw
              · exact hk
              · exact i4 hc (fun t ht => hn1 t (List.mem_cons_of_mem _ ht))
                  (fun t ht => hn2 t (List.mem_cons_of_mem _ ht)) w hw
        · simp only [hab, if_false]
          by_cases hlt : a.m_id < b.m_id
          · simp only [hlt, if_true]
            obtain ⟨i1, i2, i3, i4⟩ := ih r1 (b :: r2) (by simp only [List.length_cons]; omega)
              h1c.2 h2
            have hlow : ∀ w ∈ (mul_add_merge c fuel r1 (b :: r2)).1, a.m_id < w.m_id := by
              intro w hw
              rcases i2 w hw with ⟨t, ht, he⟩ | ⟨t, ht, he⟩
              · rw [← he]; exact h1c.1 t ht
              · rw [← he]
                rcases List.mem_cons.mp ht with rfl | ht
                · exact hlt
                · exact lt_trans hlt (h2c.1 t ht)
            refine ⟨(sorted_ids_cons _ _).mpr ⟨hlow, i1⟩, ?_, ?_, ?_⟩
            · intro w hw
              rcases List.mem_cons.mp hw with rfl | hw
              · exact Or.inl ⟨w, List.mem_cons_self _ _, rfl⟩
              · rcases i2 w hw with ⟨t, ht, he⟩ | ⟨t, ht, he⟩
                · exact Or.inl ⟨t, List.mem_cons_of_mem _ ht, he⟩
                · exact Or.inr ⟨t, ht, he⟩
            · intro v
              rw [coeff_of_cons, coeff_of_cons (a := a), i3]
              by_cases hv : a.m_id = v
              · have e2 : coeff_of (b :: r2) v = 0 := by
                  rw [← hv]
                  apply coeff_of_below
                  intro t ht
                  rcases List.mem_cons.mp ht with rfl | ht
                  · exact hlt
                  · exact lt_trans hlt (h2c.1 t ht)
                simp only [hv, if_true, e2]
                ring
              · simp only [hv, if_false]
            · intro hc hn1 hn2 w hw
              rcases List.mem_cons.mp hw with rfl | hw
              · exact hn1 w (List.mem_cons_self _ _)
              · exact i4 hc (fun t ht => hn1 t (List.mem_cons_of_mem _ ht)) hn2 w hw
          · simp only [hlt, if_false]
            have hgt : b.m_id < a.m_id := by omega
            obtain ⟨i1, i2, i3, i4⟩ := ih (a :: r1) r2 (by simp only [List.length_cons]; omega)
              h1 h2c.2
            have hlow : ∀ w ∈ (mul_add_merge c fuel (a :: r1) r2).1, b.m_id < w.m_id := by
              intro w hw
              rcases i2 w hw with ⟨t, ht, he⟩ | ⟨t, ht, he⟩
              · rw [← he]
                rcases List.mem_cons.mp ht with rfl | ht
                · exact hgt
                · exact lt_trans hgt (h1c.1 t ht)
              · rw [← he]; exact h2c.1 t ht
            refine ⟨(sorted_ids_cons _ _).mpr ⟨hlow, i1⟩, ?_, ?_, ?_⟩
            · intro w hw
              rcases List.mem_cons.mp hw with rfl | hw
              · exact Or.inr ⟨b, List.mem_cons_self _ _, rfl⟩
              · rcases i2 w hw with ⟨t, ht, he⟩ | ⟨t, ht, he⟩
                · exact Or.inl ⟨t, ht, he⟩
                · exact Or.inr ⟨t, List.mem_cons_of_mem _ ht, he⟩
            · intro v
              rw [coeff_of_cons, coeff_of_cons (a := b), i3]
              by_cases hv : b.m_id = v
              · have e1 : coeff_of (a :: r1) v = 0 := by
                  rw [← hv]
                  apply coeff_of_below
                  intro t ht
                  rcases List.mem_cons.mp ht with rfl | ht
                  · exact hgt
                  · exact lt_trans hgt (h1c.1 t ht)
                simp only [hv, if_true, e1]
                ring
              · simp only [hv, if_false]
            · intro hc hn1 hn2 w hw
              rcases List.mem_cons.mp hw with rfl | hw
              · exact mul_ne_zero (hn2 b (List.mem_cons_self _ _)) hc
              · exact i4 hc hn1 (fun t ht => hn2 t (List.mem_cons_of_mem _ ht)) w hw

theorem foldl_push_rows (k : Nat) (l : List Nat) (s : model_based_opt) :
    (l.foldl (fun st v => st.push_row_id v k) s).m_rows = s.m_rows := by
  induction l generalizing s with
  | nil => rfl
  | cons a l ih => rw [List.foldl_cons, ih]; rfl

/-- The row written by `mul_add(same_sign, row_id1, c, row_id2)` when `c` is not zero. -/
theorem get_row_mul_add (s : model_based_opt) (b : Bool) (j : Nat) (c : ℚ) (k : Nat)
    (hc : c ≠ 0) (hj : j < s.m_rows.length) :
    (s.mul_add b j c k).get_row j =
      { s.get_row j with
        m_coeff := (s.get_row j).m_coeff + c * (s.get_row k).m_coeff,
        m_vars := (mul_add_merge c ((s.get_row j).m_vars.length + (s.get_row k).m_vars.length + 1)
          (s.get_row j).m_vars (s.get_row k).m_vars).1,
        m_value := (s.get_row j).m_value + c * (s.get_row k).m_value,
        m_type :=
          if !b && (s.get_row k).m_type = ineq_type.t_lt then ineq_type.t_lt
          else if b && (s.get_row j).m_type = ineq_type.t_lt
              && (s.get_row k).m_type = ineq_type.t_lt
          then ineq_type.t_le
          else (s.get_row j).m_type } := by
  unfold model_based_opt.mul_add
  simp only [hc, if_false]
  rw [get_row_put_row_eq]
  split
  · rw [foldl_push_rows]; exact hj
  · exact hj

/-! ### Resolution on a real variable -/

theorem mul_add_zero (s : model_based_opt) (b : Bool) (j k : Nat) :
    s.mul_add b j 0 k = s := by
  unfold model_based_opt.mul_add
  simp

theorem mul_add_row_spec (s : model_based_opt) (b : Bool) (j : Nat) (c : ℚ) (k : Nat)
    (hj : j < s.m_rows.length)
    (h1 : sorted_ids (s.get_row j).m_vars) (h2 : sorted_ids (s.get_row k).m_vars) :
    sorted_ids ((s.mul_add b j c k).get_row j).m_vars ∧
    (∀ v, (s.mul_add b j c k).get_coefficient j v =
      s.get_coefficient j v + c * s.get_coefficient k v) ∧
    ((s.mul_add b j c k).get_row j).m_coeff =
      (s.get_row j).m_coeff + c * (s.get_row k).m_coeff ∧
    ((s.mul_add b j c k).get_row j).m_value =
      (s.get_row j).m_value + c * (s.get_row k).m_value ∧
    ((s.mul_add b j c k).get_row j).m_alive = (s.get_row j).m_alive ∧
    (∀ w ∈ ((s.mul_add b j c k).get_row j).m_vars,
      (∃ t ∈ (s.get_row j).m_vars, t.m_id = w.m_id) ∨
      (∃ t ∈ (s.get_row k).m_vars, t.m_id = w.m_id)) ∧
    ((∀ t ∈ (s.get_row j).m_vars, t.m_coeff ≠ 0) → (∀ t ∈ (s.get_row k).m_vars, t.m_coeff ≠ 0) →
      ∀ w ∈ ((s.mul_add b j c k).get_row j).m_vars, w.m_coeff ≠ 0) := by
  by_cases hc : c = 0
  · subst hc
    rw [mul_add_zero]
    refine ⟨h1, fun v => by ring, by ring, by ring, rfl, fun w hw => Or.inl ⟨w, hw, rfl⟩,
      fun hn _ => hn⟩
  · have hm := merge_spec c ((s.get_row j).m_vars.length + (s.get_row k).m_vars.length + 1)
      (s.get_row j).m_vars (s.get_row k).m_vars (le_refl _) h1 h2
    have hr := get_row_mul_add s b j c k hc hj
    have hv : ((s.mul_add b j c k).get_row j).m_vars =
        (mul_add_merge c ((s.get_row j).m_vars.length + (s.get_row k).m_vars.length + 1)
          (s.get_row j).m_vars (s.get_row k).m_vars).1 := by rw [hr]
    refine ⟨by rw [hv]; exact hm.1, ?_, by rw [hr], by rw [hr], by rw [hr],
      by rw [hv]; exact hm.2.1, fun hn1 hn2 => by rw [hv]; exact hm.2.2.2 hc hn1 hn2⟩
    intro v
    unfold model_based_opt.get_coefficient
    rw [row_get_coefficient_eq _ v (by rw [hv]; exact hm.1), row_get_coefficient_eq _ v h1,
      row_get_coefficient_eq _ v h2, hv]
    exact hm.2.2.1 v

/-- C12: for a non-integral variable `x`, a live row `dst` and a row `src` whose
coefficient on `x` is `a1 != 0` (both rows with terms sorted by strictly ascending id):
after `resolve(src, a1, dst, x)` every coefficient and the constant of `dst` equal those
of `old dst + (-a2/a1) * src`, where `a2` is the old coefficient of `x` in `dst`; the
coefficient of `x` in `dst` is zero, and the terms of `dst` are still sorted. -/
theorem resolve_real_linear (s : model_based_opt) (row_src row_dst x : Nat) (a1 : ℚ)
    (hint : s.is_int x = false) (halive : (s.get_row row_dst).m_alive = true)
    (ha1 : a1 ≠ 0) (hsrc : s.get_coefficient row_src x = a1)
    (hs1 : sorted_ids (s.get_row row_src).m_vars)
    (hs2 : sorted_ids (s.get_row row_dst).m_vars) :
    (∀ v, (s.resolve row_src a1 row_dst x).get_coefficient row_dst v =
      s.get_coefficient row_dst v
        + (-(s.get_coefficient row_dst x) / a1) * s.get_coefficient row_src v) ∧
    ((s.resolve row_src a1 row_dst x).get_row row_dst).m_coeff =
      (s.get_row row_dst).m_coeff
        + (-(s.get_coefficient row_dst x) / a1) * (s.get_row row_src).m_coeff ∧
    (s.resolve row_src a1 row_dst x).get_coefficient row_dst x = 0 ∧
    sorted_ids ((s.resolve row_src a1 row_dst x).get_row row_dst).m_vars := by
  have hj := alive_lt_length s row_dst halive
  unfold resolve
  simp only [halive, hint, if_true, Bool.false_eq_true, if_false]
  obtain ⟨m1, m2, m3, _, _, _, _⟩ := mul_add_row_spec s
    (decide (row_dst ≠ m_objective_id) &&
      (decide (0 < a1) == decide (0 < s.get_coefficient row_dst x)))
    row_dst (-(s.get_coefficient row_dst x) / a1) row_src hj hs2 hs1
  refine ⟨m2, m3, ?_, m1⟩
  rw [m2 x, hsrc]
  field_simp

/-- Witness of C12: the rows `x - 5 <= 0` (row 1) and `-x + 1 <= 0` (row 2) over the real
`x` with value 3. -/
theorem resolve_real_linear_witness :
    (counter_two_sided.resolve 1 1 2 0).get_coefficient 2 0 = 0 ∧
    ((counter_two_sided.resolve 1 1 2 0).get_row 2).m_coeff = -4 := by
  have h := resolve_real_linear counter_two_sided 1 2 0 1 (by decide!) (by decide!)
    (by norm_num) (by decide!) (by unfold sorted_ids; decide!) (by unfold sorted_ids; decide!)
  refine ⟨h.2.2.1, ?_⟩
  rw [h.2.1]
  have e1 : counter_two_sided.get_coefficient 2 0 = -1 := by decide!
  have e2 : (counter_two_sided.get_row 2).m_coeff = 1 := by decide!
  have e3 : (counter_two_sided.get_row 1).m_coeff = -5 := by decide!
  rw [e1, e2, e3]
  norm_num

/-- Counterexample to C13 as stated: resolving the strict row `x - 2 < 0` against the
strict row `x - 1 < 0` (same sign on the real `x`) leaves a non-strict row. -/
theorem resolve_same_sign_not_strict :
    counter_strict.is_int 0 = false ∧
    (counter_strict.get_row 1).m_alive = true ∧ (counter_strict.get_row 2).m_alive = true ∧
    (counter_strict.get_row 1).m_type = ineq_type.t_lt ∧
    (counter_strict.get_row 2).m_type = ineq_type.t_lt ∧
    counter_strict.get_coefficient 1 0 = 1 ∧ counter_strict.get_coefficient 2 0 = 1 ∧
    ((counter_strict.resolve 1 1 2 0).get_row 2).m_type = ineq_type.t_le := by
  decide!

/-- C13 (amended): for a non-integral variable `x`, a live row `dst` with a nonzero
coefficient `a2` on `x` and a row `src` with coefficient `a1 != 0`: after
`resolve(src, a1, dst, x)` the relation of `dst` is strict-less
* iff `src` or `dst` was strict-less, when `a1` and `a2` have opposite signs or `dst` is
  the objective row;
* iff `dst` was strict-less and `src` was not, when `a1` and `a2` have the same sign and
  `dst` is not the objective row. -/
theorem resolve_real_strict (s : model_based_opt) (row_src row_dst x : Nat) (a1 : ℚ)
    (hint : s.is_int x = false) (halive : (s.get_row row_dst).m_alive = true)
    (ha1 : a1 ≠ 0) (ha2 : s.get_coefficient row_dst x ≠ 0) :
    (((s.resolve row_src a1 row_dst x).get_row row_dst).m_type = ineq_type.t_lt ↔
      if row_dst ≠ m_objective_id ∧ ((0 < a1) ↔ (0 < s.get_coefficient row_dst x)) then
        (s.get_row row_dst).m_type = ineq_type.t_lt ∧
          (s.get_row row_src).m_type ≠ ineq_type.t_lt
      else
        (s.get_row row_src).m_type = ineq_type.t_lt ∨
          (s.get_row row_dst).m_type = ineq_type.t_lt) := by
  have hj := alive_lt_length s row_dst halive
  have hc : -(s.get_coefficient row_dst x) / a1 ≠ 0 := by
    apply div_ne_zero _ ha1
    exact neg_ne_zero.mpr ha2
  unfold resolve
  simp only [halive, hint, if_true, Bool.false_eq_true, if_false]
  rw [get_row_mul_add _ _ _ _ _ hc hj]
  simp only
  by_cases hd : row_dst = m_objective_id
  · simp only [hd, ne_eq, not_true_eq_false, decide_False, Bool.false_and, Bool.not_false,
      Bool.true_and, false_and, if_false, Bool.false_eq_true, decide_eq_true_eq]
    by_cases h2 : (s.get_row row_src).m_type = ineq_type.t_lt
    · simp [h2]
    · simp [h2]
  · by_cases hsgn : (0 < a1) ↔ (0 < s.get_coefficient row_dst x)
    · have hb : (decide (0 < a1) == decide (0 < s.get_coefficient row_dst x)) = true := by
        by_cases hp : 0 < a1
        · simp [hp, hsgn.mp hp]
        · have : ¬ 0 < s.get_coefficient row_dst x := fun h => hp (hsgn.mpr h)
          simp [hp, this]
      simp only [hd, ne_eq, not_false_eq_true, decide_True, hb, Bool.and_self, Bool.not_true,
        Bool.false_and, Bool.false_eq_true, if_false, Bool.true_and, true_and, hsgn, if_true,
        decide_eq_true_eq, Bool.and_eq_true]
      by_cases h1 : (s.get_row row_dst).m_type = ineq_type.t_lt <;>
        by_cases h2 : (s.get_row row_src).m_type = ineq_type.t_lt <;> simp [h1, h2]
    · have hb : (decide (0 < a1) == decide (0 < s.get_coefficient row_dst x)) = false := by
        by_cases hp : 0 < a1
        · have : ¬ 0 < s.get_coefficient row_dst x := fun h => hsgn ⟨fun _ => h, fun _ => hp⟩
          simp [hp, this]
        · have : 0 < s.get_coefficient row_dst x := by
            by_contra hq
            exact hsgn ⟨fun h => absurd h hp, fun h => absurd h hq⟩
          simp [hp, this]
      simp only [hb, Bool.and_false, Bool.not_false, Bool.true_and, Bool.false_and,
        Bool.false_eq_true, if_false, hsgn, and_false, decide_eq_true_eq]
      by_cases h2 : (s.get_row row_src).m_type = ineq_type.t_lt
      · simp [h2]
      · simp [h2]

/-- Witness of C13 (amended): the two strict rows of `counter_strict`. -/
theorem resolve_real_strict_witness :
    ¬ ((counter_strict.resolve 1 1 2 0).get_row 2).m_type = ineq_type.t_lt := by
  have h := resolve_real_strict counter_strict 1 2 0 1 (by decide!) (by decide!)
    (by norm_num) (by decide!)
  rw [h]
  decide!

/-! ### Scaling, retiring and normalising a row -/

theorem mul_one_eq (s : model_based_opt) (j : Nat) : s.mul j 1 = s := by
  unfold model_based_opt.mul
  simp

theorem get_row_mul (s : model_based_opt) (j : Nat) (c : ℚ) (hc : c ≠ 1)
    (hj : j < s.m_rows.length) :
    (s.mul j c).get_row j =
      { s.get_row j with
        m_vars := (s.get_row j).m_vars.map (fun v => (⟨v.m_id, v.m_coeff * c⟩ : var)),
        m_mod := (s.get_row j).m_mod * c,
        m_coeff := (s.get_row j).m_coeff * c,
        m_value := if (s.get_row j).m_type ≠ ineq_type.t_div ∧
                      (s.get_row j).m_type ≠ ineq_type.t_mod
                   then (s.get_row j).m_value * c else (s.get_row j).m_value } := by
  unfold model_based_opt.mul
  simp only [hc, if_false]
  rw [get_row_put_row_eq _ _ _ hj]

theorem mul_row_spec (s : model_based_opt) (j : Nat) (c : ℚ) (hj : j < s.m_rows.length)
    (h1 : sorted_ids (s.get_row j).m_vars) :
    sorted_ids ((s.mul j c).get_row j).m_vars ∧
    (∀ v, (s.mul j c).get_coefficient j v = s.get_coefficient j v * c) ∧
    ((s.mul j c).get_row j).m_coeff = (s.get_row j).m_coeff * c ∧
    (∃ f, (f = c ∨ f = 1) ∧ ((s.mul j c).get_row j).m_value = (s.get_row j).m_value * f) ∧
    ((s.mul j c).get_row j).m_alive = (s.get_row j).m_alive ∧
    ((s.mul j c).get_row j).m_type = (s.get_row j).m_type ∧
    (((s.mul j c).get_row j).m_vars = [] ↔ (s.get_row j).m_vars = []) ∧
    (c ≠ 0 → (∀ t ∈ (s.get_row j).m_vars, t.m_coeff ≠ 0) →
      ∀ w ∈ ((s.mul j c).get_row j).m_vars, w.m_coeff ≠ 0) ∧
    (s.mul j c).m_retired_rows = s.m_retired_rows := by
  by_cases hc : c = 1
  · subst hc
    rw [mul_one_eq]
    exact ⟨h1, fun v => by ring, by ring, ⟨1, Or.inl rfl, by ring⟩, rfl, rfl, Iff.rfl,
      fun _ hn => hn, rfl⟩
  · have hr := get_row_mul s j c hc hj
    have hv : ((s.mul j c).get_row j).m_vars =
        (s.get_row j).m_vars.map (fun v => (⟨v.m_id, v.m_coeff * c⟩ : var)) := by rw [hr]
    refine ⟨by rw [hv]; exact sorted_ids_map_scale c _ h1, ?_, by rw [hr], ?_, by rw [hr],
      by rw [hr], by rw [hv]; simp, ?_, ?_⟩
    · intro v
      unfold model_based_opt.get_coefficient
      rw [row_get_coefficient_eq _ v (by rw [hv]; exact sorted_ids_map_scale c _ h1),
        row_get_coefficient_eq _ v h1, hv]
      exact coeff_of_map_scale c _ v
    · rw [hr]
      simp only
      split
      · exact ⟨c, Or.inl rfl, rfl⟩
      · exact ⟨1, Or.inr rfl, by ring⟩
    · intro hc0 hn w hw
      rw [hv] at hw
      obtain ⟨t, ht, rfl⟩ := List.mem_map.mp hw
      exact mul_ne_zero (hn t ht) hc0
    · unfold model_based_opt.mul
      simp only [hc, if_false]
      rfl

theorem get_row_retire_row (s : model_based_opt) (j : Nat) (hj : j < s.m_rows.length) :
    (s.retire_row j).get_row j = { s.get_row j with m_alive := false } ∧
    j ∈ (s.retire_row j).m_retired_rows := by
  unfold retire_row
  constructor
  · show ((s.put_row j _).get_row j) = _
    exact get_row_put_row_eq _ _ _ hj
  · simp [put_row]

theorem gcd_pos_left (a b : ℚ) (ha : 0 < a) : 0 < gcd a b := by
  unfold gcd
  have : a.num ≠ 0 := by
    have := Rat.num_pos.mpr ha
    omega
  exact_mod_cast Int.gcd_pos_of_ne_zero_left b.num this

theorem normalize_gcd_pos (l : List var) (g : ℚ) (b : Bool) (hg : 0 < g) :
    0 < (normalize_gcd l g b).1 := by
  induction l generalizing g b with
  | nil => exact hg
  | cons a l ih =>
    unfold model_based_opt.normalize_gcd
    split
    · split
      · exact ih _ _ (gcd_pos_left _ _ hg)
      · exact ih _ _ hg
    · exact hg

theorem normalize_eq (s : model_based_opt) (j : Nat) :
    s.normalize j =
      if !(s.get_row j).m_alive then s
      else if (s.get_row j).m_vars.isEmpty then s.retire_row j
      else if (s.get_row j).m_type = ineq_type.t_divides then s
      else if (s.get_row j).m_type = ineq_type.t_mod then s
      else if (s.get_row j).m_type = ineq_type.t_div then s
      else if (normalize_pair (s.get_row j)).2 && !((normalize_pair (s.get_row j)).1 == 1)
        then s.mul j (1 / (normalize_pair (s.get_row j)).1)
        else s := by
  unfold model_based_opt.normalize normalize_pair
  rfl

theorem normalize_pair_pos (r : row) (hh : (r.m_vars.headD {}).m_coeff ≠ 0) :
    0 < (normalize_pair r).1 := by
  have hg0 : 0 < |(r.m_vars.headD {}).m_coeff| := abs_pos.mpr hh
  have hp := normalize_gcd_pos r.m_vars.tail _ (is_int_q |(r.m_vars.headD {}).m_coeff|) hg0
  unfold normalize_pair
  simp only
  split
  · split
    · exact gcd_pos_left _ _ hp
    · exact hp
  · exact hp

/-- The effect of `normalize(row_id)` on a live row: a row without terms is retired, any
other row is scaled by a positive rational (1 when nothing is done). -/
theorem normalize_cases (s : model_based_opt) (j : Nat)
    (halive : (s.get_row j).m_alive = true) :
    ((s.get_row j).m_vars = [] → s.normalize j = s.retire_row j) ∧
    ((s.get_row j).m_vars ≠ [] → ((s.get_row j).m_vars.headD {}).m_coeff ≠ 0 →
      ∃ k : ℚ, 0 < k ∧ s.normalize j = s.mul j k) := by
  constructor
  · intro hv
    rw [normalize_eq]
    simp [halive, hv]
  · intro hv hh
    have hne : (s.get_row j).m_vars.isEmpty = false := by
      cases h : (s.get_row j).m_vars with
      | nil => exact absurd h hv
      | cons a l => rfl
    rw [normalize_eq]
    simp only [halive, hne, Bool.not_true, Bool.false_eq_true, if_false]
    by_cases h1 : (s.get_row j).m_type = ineq_type.t_divides
    · rw [if_pos h1]; exact ⟨1, one_pos, (mul_one_eq s j).symm⟩
    rw [if_neg h1]
    by_cases h2 : (s.get_row j).m_type = ineq_type.t_mod
    · rw [if_pos h2]; exact ⟨1, one_pos, (mul_one_eq s j).symm⟩
    rw [if_neg h2]
    by_cases h3 : (s.get_row j).m_type = ineq_type.t_div
    · rw [if_pos h3]; exact ⟨1, one_pos, (mul_one_eq s j).symm⟩
    rw [if_neg h3]
    by_cases h4 : ((normalize_pair (s.get_row j)).2 &&
        !((normalize_pair (s.get_row j)).1 == 1)) = true
    · rw [if_pos h4]
      exact ⟨_, one_div_pos.mpr (normalize_pair_pos _ hh), rfl⟩
    · rw [if_neg h4]; exact ⟨1, one_pos, (mul_one_eq s j).symm⟩

/-- C14: for a row `src` whose coefficient on `x` is `a1 > 0` and a live row `dst`
(`src != dst`, both with terms sorted by strictly ascending id and nonzero
coefficients): after `solve(src, a1, dst, x)` the coefficient of `x` in `dst` is zero,
every coefficient and the constant of `dst` are those of `a1 * (old dst) - a2 * src`
divided by a positive rational `d`, and `dst` is still live or has no term left and is
on the retired list; if the cached value of `src` is its evaluation and `src` evaluates
to 0, the sign of the cached value of `dst` is unchanged. -/
theorem solve_linear (s : model_based_opt) (row_src row_dst x : Nat) (a1 : ℚ)
    (ha1 : 0 < a1) (hsrc : s.get_coefficient row_src x = a1) (hne : row_src ≠ row_dst)
    (halive : (s.get_row row_dst).m_alive = true)
    (hs1 : sorted_ids (s.get_row row_src).m_vars)
    (hs2 : sorted_ids (s.get_row row_dst).m_vars)
    (hn1 : ∀ t ∈ (s.get_row row_src).m_vars, t.m_coeff ≠ 0)
    (hn2 : ∀ t ∈ (s.get_row row_dst).m_vars, t.m_coeff ≠ 0)
    (hval : (s.get_row row_src).m_value = s.eval_row (s.get_row row_src)) :
    (s.solve row_src a1 row_dst x).get_coefficient row_dst x = 0 ∧
    (∃ d : ℚ, 0 < d ∧
      (∀ v, (s.solve row_src a1 row_dst x).get_coefficient row_dst v =
        (a1 * s.get_coefficient row_dst v
          - s.get_coefficient row_dst x * s.get_coefficient row_src v) / d) ∧
      ((s.solve row_src a1 row_dst x).get_row row_dst).m_coeff =
        (a1 * (s.get_row row_dst).m_coeff
          - s.get_coefficient row_dst x * (s.get_row row_src).m_coeff) / d) ∧
    (((s.solve row_src a1 row_dst x).get_row row_dst).m_alive = true ∨
      (((s.solve row_src a1 row_dst x).get_row row_dst).m_vars = [] ∧
        row_dst ∈ (s.solve row_src a1 row_dst x).m_retired_rows)) ∧
    (s.eval_row (s.get_row row_src) = 0 →
      (0 < ((s.solve row_src a1 row_dst x).get_row row_dst).m_value ↔
        0 < (s.get_row row_dst).m_value) ∧
      (((s.solve row_src a1 row_dst x).get_row row_dst).m_value < 0 ↔
        (s.get_row row_dst).m_value < 0)) := by
  have hj := alive_lt_length s row_dst halive
  -- the row after `mul(row_dst, a1)`
  obtain ⟨u1, u2, u3, ⟨f, hf, u4⟩, u5, _, _, u8, _⟩ := mul_row_spec s row_dst a1 hj hs2
  have hfr := (same_except_mul s row_dst a1)
  have hsrc_row : (s.mul row_dst a1).get_row row_src = s.get_row row_src := hfr.1 _ hne
  have hj1 : row_dst < (s.mul row_dst a1).m_rows.length := by rw [hfr.2.2.2]; exact hj
  -- the row after `mul_add(false, row_dst, -a2, row_src)`
  obtain ⟨m1, m2, m3, m4, m5, _, m7⟩ := mul_add_row_spec (s.mul row_dst a1) false row_dst
    (-(s.get_coefficient row_dst x)) row_src hj1 u1 (by rw [hsrc_row]; exact hs1)
  have m7' := m7 (u8 (ne_of_gt ha1) hn2) (by rw [hsrc_row]; exact hn1)
  have hsc : ∀ v, (s.mul row_dst a1).get_coefficient row_src v = s.get_coefficient row_src v := by
    intro v
    unfold model_based_opt.get_coefficient
    rw [hsrc_row]
  set s2 := (s.mul row_dst a1).mul_add false row_dst (-(s.get_coefficient row_dst x)) row_src
    with hs2def
  have halive2 : (s2.get_row row_dst).m_alive = true := by rw [m5, u5]; exact halive
  have hj2 : row_dst < s2.m_rows.length := alive_lt_length s2 row_dst halive2
  have hcoef : ∀ v, s2.get_coefficient row_dst v =
      a1 * s.get_coefficient row_dst v
        - s.get_coefficient row_dst x * s.get_coefficient row_src v := by
    intro v
    rw [m2 v, u2 v, hsc v]
    ring
  have hconst : (s2.get_row row_dst).m_coeff =
      a1 * (s.get_row row_dst).m_coeff
        - s.get_coefficient row_dst x * (s.get_row row_src).m_coeff := by
    rw [m3, u3, hsrc_row]
    ring
  have hvalue : (s.get_row row_src).m_value = 0 →
      (s2.get_row row_dst).m_value = (s.get_row row_dst).m_value * f := by
    intro h0
    rw [m4, u4, hsrc_row, h0]
    ring
  have hfpos : 0 < f := by
    rcases hf with h | h
    · rw [h]; exact ha1
    · rw [h]; exact one_pos
  have hsolve : s.solve row_src a1 row_dst x = s2.normalize row_dst := by
    unfold solve
    simp only [halive, Bool.not_true, Bool.false_eq_true, if_false]
  obtain ⟨n1, n2⟩ := normalize_cases s2 row_dst halive2
  rw [hsolve]
  by_cases hv : (s2.get_row row_dst).m_vars = []
  · rw [n1 hv]
    obtain ⟨r1, r2⟩ := get_row_retire_row s2 row_dst hj2
    have hgc : ∀ v, (s2.retire_row row_dst).get_coefficient row_dst v =
        s2.get_coefficient row_dst v := by
      intro v
      unfold model_based_opt.get_coefficient
      rw [r1]
      rfl
    refine ⟨?_, ⟨1, one_pos, ?_, ?_⟩, Or.inr ⟨by rw [r1]; exact hv, r2⟩, ?_⟩
    · rw [hgc, hcoef, hsrc]; ring
    · intro v; rw [hgc, hcoef]; ring
    · rw [r1]; simp only; rw [hconst]; ring
    · intro h0
      rw [← hval] at h0
      rw [r1]
      simp only
      rw [hvalue h0]
      constructor
      · constructor
        · intro h; exact (mul_pos_iff_of_pos_right hfpos).mp h
        · intro h; exact mul_pos h hfpos
      · constructor
        · intro h
          by_contra hc
          have := mul_nonneg (not_lt.mp hc) (le_of_lt hfpos)
          linarith
        · intro h; exact mul_neg_of_neg_of_pos h hfpos
  · have hhead : ((s2.get_row row_dst).m_vars.headD {}).m_coeff ≠ 0 := by
      cases hl : (s2.get_row row_dst).m_vars with
      | nil => exact absurd hl hv
      | cons a l =>
        simp only [List.headD_cons]
        exact m7' a (by rw [hl]; exact List.mem_cons_self _ _)
    obtain ⟨k, hk, hnk⟩ := n2 hv hhead
    rw [hnk]
    obtain ⟨w1, w2, w3, ⟨f2, hf2, w4⟩, w5, _, _, _, _⟩ := mul_row_spec s2 row_dst k hj2 m1
    have hf2pos : 0 < f2 := by
      rcases hf2 with h | h
      · rw [h]; exact hk
      · rw [h]; exact one_pos
    refine ⟨?_, ⟨1 / k, one_div_pos.mpr hk, ?_, ?_⟩, Or.inl (by rw [w5]; exact halive2), ?_⟩
    · rw [w2, hcoef, hsrc]; ring
    · intro v; rw [w2, hcoef]; field_simp
    · rw [w3, hconst]; field_simp
    · intro h0
      rw [← hval] at h0
      rw [w4, hvalue h0]
      have hff : 0 < f * f2 := mul_pos hfpos hf2pos
      rw [mul_assoc]
      constructor
      · constructor
        · intro h; exact (mul_pos_iff_of_pos_right hff).mp h
        · intro h; exact mul_pos h hff
      · constructor
        · intro h
          by_contra hc
          have := mul_nonneg (not_lt.mp hc) (le_of_lt hff)
          linarith
        · intro h; exact mul_neg_of_neg_of_pos h hff

/-- Witness of C14: `eq_store` (rows `x - y = 0` and `x - 5 <= 0` at `x = y = 3`), solving
row 2 against the equality row 1. -/
theorem solve_linear_witness :
    (eq_store.solve 1 1 2 0).get_coefficient 2 0 = 0 :=
  (solve_linear eq_store 1 2 0 1 (by norm_num) (by decide!) (by decide) (by decide!)
    (by unfold sorted_ids; decide!) (by unfold sorted_ids; decide!)
    (by decide!) (by decide!) (by decide!)).1

/-! ### Integer-valued rationals -/

theorem is_int_q_iff (q : ℚ) : is_int_q q = true ↔ ∃ n : ℤ, q = n := by
  unfold is_int_q
  constructor
  · intro h
    refine ⟨q.num, ?_⟩
    have h1 : q.den = 1 := by simpa using h
    exact (Rat.den_eq_one_iff q).mp h1 |>.symm
  · rintro ⟨n, rfl⟩
    simp

theorem is_int_q_add (a b : ℚ) (ha : is_int_q a = true) (hb : is_int_q b = true) :
    is_int_q (a + b) = true := by
  obtain ⟨m, rfl⟩ := (is_int_q_iff a).mp ha
  obtain ⟨n, rfl⟩ := (is_int_q_iff b).mp hb
  exact (is_int_q_iff _).mpr ⟨m + n, by push_cast; ring⟩

theorem is_int_q_mul (a b : ℚ) (ha : is_int_q a = true) (hb : is_int_q b = true) :
    is_int_q (a * b) = true := by
  obtain ⟨m, rfl⟩ := (is_int_q_iff a).mp ha
  obtain ⟨n, rfl⟩ := (is_int_q_iff b).mp hb
  exact (is_int_q_iff _).mpr ⟨m * n, by push_cast; ring⟩

theorem is_int_q_sum_vars (val : Nat → ℚ) (vs : List var)
    (h1 : ∀ v ∈ vs, is_int_q v.m_coeff = true) (h2 : ∀ v ∈ vs, is_int_q (val v.m_id) = true) :
    is_int_q (sum_vars val vs) = true := by
  induction vs with
  | nil => simp [sum_vars, is_int_q]
  | cons a l ih =>
    have : sum_vars val (a :: l) = a.m_coeff * val a.m_id + sum_vars val l := by
      simp [sum_vars]
    rw [this]
    exact is_int_q_add _ _
      (is_int_q_mul _ _ (h1 a (List.mem_cons_self _ _)) (h2 a (List.mem_cons_self _ _)))
      (ih (fun v hv => h1 v (List.mem_cons_of_mem _ hv))
        (fun v hv => h2 v (List.mem_cons_of_mem _ hv)))

theorem int_add_one_le_iff (t : ℚ) (ht : is_int_q t = true) : t + 1 ≤ 0 ↔ t < 0 := by
  obtain ⟨n, rfl⟩ := (is_int_q_iff t).mp ht
  constructor
  · intro h
    have : (n + 1 : ℤ) ≤ 0 := by exact_mod_cast h
    have : n < 0 := by omega
    exact_mod_cast this
  · intro h
    have : n < 0 := by exact_mod_cast h
    have : (n + 1 : ℤ) ≤ 0 := by omega
    exact_mod_cast this

theorem sum_vars_sort (val : Nat → ℚ) (vs : List var) :
    sum_vars val (sort_vars vs) = sum_vars val vs := by
  unfold sum_vars sort_vars
  exact ((List.perm_insertionSort _ vs).map _).sum_eq

theorem foldl_set_row_value (s : model_based_opt) (coeffs : List var) (c : ℚ) :
    coeffs.foldl (fun val v => val + s.eval v.m_id * v.m_coeff) c
      = c + sum_vars s.eval coeffs := by
  have := foldl_add_eq_sum (fun v => s.eval v.m_id * v.m_coeff) coeffs c
  rw [this]
  unfold sum_vars
  congr 2
  apply List.map_congr_left
  intro v _
  ring

/-- C16 (failing input): for the integral `x = -1` the strict constraint `x + 1/2 < 0`
holds, and `add_constraint` stores it as the non-strict row `x + 3/2 <= 0` with cached
value `1/2`: the stored row is violated at the assignment at which the constraint holds,
and it is a live non-strict row with a positive cached value. -/
theorem promote_fraction_differs :
    counter_promote.is_int 0 = true ∧
    (1 : ℚ) * counter_promote.eval 0 + 1 / 2 < 0 ∧
    counter_promote.get_row 1 =
      { m_vars := [⟨0, 1⟩], m_coeff := 3 / 2, m_mod := 0, m_type := ineq_type.t_le,
        m_value := 1 / 2, m_alive := true, m_id := 0 } ∧
    ¬ holds (counter_promote.get_row 1) (assignment counter_promote) := by
  decide!

/-- The promotion of `set_row`: `set_row` on a fresh row (no terms yet) with relation strict-less over
a non-empty list of terms whose variables are all integral stores the non-strict row
`sum(a_i*x_i) + c + 1 <= 0` (terms sorted, live, cached value the evaluation plus one),
for every rational constant `c`.  When the coefficients and the constant `c` are
integers, the stored row holds at exactly the integer assignments at which
`sum(a_i*x_i) + c < 0`, and if the stored values of the variables are integers and satisfy
the strict row, the cached value of the stored row is `<= 0`. -/
theorem set_row_promote (s : model_based_opt) (row_id : Nat) (coeffs : List var) (c m : ℚ)
    (hrow : row_id < s.m_rows.length) (hfresh : (s.get_row row_id).m_vars = [])
    (hne : coeffs ≠ []) (hint : ∀ v ∈ coeffs, s.is_int v.m_id = true) :
    ((s.set_row row_id coeffs c m ineq_type.t_lt).get_row row_id).m_type = ineq_type.t_le ∧
    ((s.set_row row_id coeffs c m ineq_type.t_lt).get_row row_id).m_coeff = c + 1 ∧
    ((s.set_row row_id coeffs c m ineq_type.t_lt).get_row row_id).m_vars = sort_vars coeffs ∧
    ((s.set_row row_id coeffs c m ineq_type.t_lt).get_row row_id).m_alive = true ∧
    ((s.set_row row_id coeffs c m ineq_type.t_lt).get_row row_id).m_value
      = sum_vars s.eval coeffs + c + 1 ∧
    (is_int_q c = true → (∀ v ∈ coeffs, is_int_q v.m_coeff = true) →
      (∀ val : Nat → ℚ, (∀ v ∈ coeffs, is_int_q (val v.m_id) = true) →
        (holds ((s.set_row row_id coeffs c m ineq_type.t_lt).get_row row_id) val ↔
          sum_vars val coeffs + c < 0)) ∧
      ((∀ v ∈ coeffs, is_int_q (s.eval v.m_id) = true) → sum_vars s.eval coeffs + c < 0 →
        ((s.set_row row_id coeffs c m ineq_type.t_lt).get_row row_id).m_value ≤ 0)) := by
  have hall : coeffs.all (fun v => s.is_int v.m_id) = true := by
    rw [List.all_eq_true]
    exact hint
  have hemp : coeffs.isEmpty = false := by
    cases coeffs with
    | nil => exact absurd rfl hne
    | cons a l => rfl
  have hr : (s.set_row row_id coeffs c m ineq_type.t_lt).get_row row_id =
      { s.get_row row_id with
        m_vars := sort_vars coeffs, m_alive := true, m_coeff := c + 1,
        m_value := sum_vars s.eval coeffs + c + 1, m_type := ineq_type.t_le, m_mod := m } := by
    unfold set_row
    rw [get_row_put_row_eq _ _ _ hrow]
    simp only [hall, hemp, hfresh, Bool.not_false, Bool.and_self, decide_True, if_true,
      List.nil_append, foldl_set_row_value]
    congr 1
    ring
  rw [hr]
  refine ⟨rfl, rfl, rfl, rfl, rfl, ?_⟩
  intro hc hcoef
  have key : ∀ val : Nat → ℚ, (∀ v ∈ coeffs, is_int_q (val v.m_id) = true) →
      (sum_vars val coeffs + c + 1 ≤ 0 ↔ sum_vars val coeffs + c < 0) := by
    intro val hval
    exact int_add_one_le_iff _ (is_int_q_add _ _ (is_int_q_sum_vars val coeffs hcoef hval) hc)
  constructor
  · intro val hval
    unfold holds
    simp only
    rw [lin_eq]
    simp only
    rw [sum_vars_sort, ← key val hval]
    constructor <;> intro h <;> linarith
  · intro hval hlt
    exact (key s.eval hval).mpr hlt

/-- The promotion of `set_row` for the strict constraint `x + 0 < 0` set on a fresh row of the
store with the integral `x = -1`. -/
theorem set_row_promote_witness :
    ((promote_store.set_row 1 [⟨0, 1⟩] 0 0 ineq_type.t_lt).get_row 1).m_coeff = 0 + 1 :=
  (set_row_promote promote_store 1 [⟨0, 1⟩] 0 0 (by decide!) (by decide!) (by simp)
    (by decide!)).2.1

/-! ### The gcd computed by `normalize` -/

theorem gcd_int (m n : ℤ) : gcd (m : ℚ) (n : ℚ) = ((Int.gcd m n : ℕ) : ℚ) := by
  unfold gcd
  simp

theorem gcd_one_left (b : ℚ) : gcd 1 b = 1 := by
  unfold gcd
  simp

theorem gcd_nat_abs_int (k : ℕ) (n : ℤ) :
    gcd (k : ℚ) |(n : ℚ)| = ((Nat.gcd k n.natAbs : ℕ) : ℚ) := by
  have h1 : (k : ℚ) = ((k : ℤ) : ℚ) := by simp
  have h2 : |(n : ℚ)| = ((|n| : ℤ) : ℚ) := by simp
  rw [h1, h2, gcd_int]
  simp [Int.gcd, Int.natAbs_abs]

theorem is_int_q_abs (q : ℚ) (h : is_int_q q = true) : is_int_q |q| = true := by
  obtain ⟨n, rfl⟩ := (is_int_q_iff q).mp h
  exact (is_int_q_iff _).mpr ⟨|n|, by simp⟩

theorem is_int_q_of_abs (q : ℚ) (h : is_int_q |q| = true) : is_int_q q = true := by
  rcases abs_choice q with h1 | h1
  · rw [h1] at h; exact h
  · rw [h1] at h
    obtain ⟨n, hn⟩ := (is_int_q_iff _).mp h
    exact (is_int_q_iff _).mpr ⟨-n, by push_cast; linarith⟩

theorem gfold_eq_gcd_nat (l : List var) (hl : ∀ v ∈ l, is_int_q v.m_coeff = true) (k : ℕ) :
    l.foldl (fun g v => gcd g |v.m_coeff|) (k : ℚ) = ((gcd_nat l k : ℕ) : ℚ) := by
  induction l generalizing k with
  | nil => rfl
  | cons a l ih =>
    obtain ⟨n, hn⟩ := (is_int_q_iff _).mp (hl a (List.mem_cons_self _ _))
    simp only [List.foldl_cons, gcd_nat]
    have e : gcd (k : ℚ) |a.m_coeff| = ((Nat.gcd k a.m_coeff.num.natAbs : ℕ) : ℚ) := by
      rw [hn, gcd_nat_abs_int]
      simp
    rw [e]
    exact ih (fun v hv => hl v (List.mem_cons_of_mem _ hv)) _

theorem gcd_nat_dvd (l : List var) (k : ℕ) :
    gcd_nat l k ∣ k ∧ ∀ v ∈ l, gcd_nat l k ∣ v.m_coeff.num.natAbs := by
  induction l generalizing k with
  | nil => exact ⟨dvd_refl _, fun v hv => by simp at hv⟩
  | cons a l ih =>
    obtain ⟨h1, h2⟩ := ih (Nat.gcd k a.m_coeff.num.natAbs)
    have e : gcd_nat (a :: l) k = gcd_nat l (Nat.gcd k a.m_coeff.num.natAbs) := rfl
    rw [e]
    refine ⟨dvd_trans h1 (Nat.gcd_dvd_left _ _), ?_⟩
    intro v hv
    rcases List.mem_cons.mp hv with rfl | hv
    · exact dvd_trans h1 (Nat.gcd_dvd_right _ _)
    · exact h2 v hv

theorem gcd_nat_ne_zero (l : List var) (k : ℕ)
    (h : k ≠ 0 ∨ ∃ v ∈ l, v.m_coeff ≠ 0) : gcd_nat l k ≠ 0 := by
  intro h0
  obtain ⟨h1, h2⟩ := gcd_nat_dvd l k
  rw [h0] at h1 h2
  rcases h with h | ⟨v, hv, hne⟩
  · exact h (Nat.eq_zero_of_zero_dvd h1)
  · have := Nat.eq_zero_of_zero_dvd (h2 v hv)
    have : v.m_coeff.num = 0 := Int.natAbs_eq_zero.mp this
    exact hne (Rat.num_eq_zero.mp this)

theorem gcd_nat_scale (d : ℕ) (l : List var) (hl : ∀ v ∈ l, is_int_q v.m_coeff = true)
    (k : ℕ) :
    gcd_nat (l.map (fun v => (⟨v.m_id, (d : ℚ) * v.m_coeff⟩ : var))) (d * k)
      = d * gcd_nat l k := by
  induction l generalizing k with
  | nil => rfl
  | cons a l ih =>
    obtain ⟨n, hn⟩ := (is_int_q_iff _).mp (hl a (List.mem_cons_self _ _))
    have e1 : gcd_nat (a :: l) k = gcd_nat l (Nat.gcd k a.m_coeff.num.natAbs) := rfl
    have e2 : gcd_nat ((a :: l).map (fun v => (⟨v.m_id, (d : ℚ) * v.m_coeff⟩ : var))) (d * k)
        = gcd_nat (l.map (fun v => (⟨v.m_id, (d : ℚ) * v.m_coeff⟩ : var)))
            (Nat.gcd (d * k) ((d : ℚ) * a.m_coeff).num.natAbs) := rfl
    rw [e1, e2]
    have e3 : ((d : ℚ) * a.m_coeff).num.natAbs = d * a.m_coeff.num.natAbs := by
      rw [hn]
      have : ((d : ℚ) * (n : ℚ)) = (((d : ℤ) * n : ℤ) : ℚ) := by push_cast; ring
      rw [this, Rat.num_intCast, Int.natAbs_mul, Int.natAbs_ofNat, Rat.num_intCast]
    rw [e3, Nat.gcd_mul_left]
    exact ih (fun v hv => hl v (List.mem_cons_of_mem _ hv)) _

theorem normalize_gcd_false (l : List var) (g : ℚ) :
    normalize_gcd l g false = (g, false) := by
  cases l with
  | nil => rfl
  | cons a l => simp [model_based_opt.normalize_gcd]

theorem gfold_one (l : List var) : l.foldl (fun g v => gcd g |v.m_coeff|) 1 = 1 := by
  induction l with
  | nil => rfl
  | cons a l ih => rw [List.foldl_cons, gcd_one_left]; exact ih

theorem normalize_gcd_all_int (l : List var) (g : ℚ)
    (hl : ∀ v ∈ l, is_int_q v.m_coeff = true) :
    normalize_gcd l g true = (l.foldl (fun g v => gcd g |v.m_coeff|) g, true) := by
  induction l generalizing g with
  | nil => rfl
  | cons a l ih =>
    unfold model_based_opt.normalize_gcd
    by_cases hg : g = 1
    · subst hg
      simp [gfold_one, gcd_one_left]
    · have ha := hl a (List.mem_cons_self _ _)
      have hcond : (true && !(g == 1)) = true := by simp [hg]
      rw [if_pos hcond, if_pos ha, List.foldl_cons]
      exact ih _ (fun v hv => hl v (List.mem_cons_of_mem _ hv))

theorem normalize_gcd_true (l : List var) (g : ℚ) (b : Bool)
    (h1 : (normalize_gcd l g b).2 = true) (h2 : (normalize_gcd l g b).1 ≠ 1) :
    b = true ∧ ∀ v ∈ l, is_int_q v.m_coeff = true := by
  induction l generalizing g b with
  | nil =>
    simp only [model_based_opt.normalize_gcd] at h1
    exact ⟨h1, fun v hv => by simp at hv⟩
  | cons a l ih =>
    unfold model_based_opt.normalize_gcd at h1 h2
    by_cases hc : (b && !(g == 1)) = true
    · rw [if_pos hc] at h1 h2
      have hb : b = true := by
        cases b
        · simp at hc
        · rfl
      by_cases ha : is_int_q a.m_coeff = true
      · rw [if_pos ha] at h1 h2
        obtain ⟨_, i2⟩ := ih _ _ h1 h2
        refine ⟨hb, ?_⟩
        intro v hv
        rcases List.mem_cons.mp hv with rfl | hv
        · exact ha
        · exact i2 v hv
      · rw [if_neg ha, normalize_gcd_false] at h1
        simp at h1
    · rw [if_neg hc] at h1 h2
      simp only at h1 h2
      subst h1
      simp [h2] at hc

theorem normalize_pair_true (r : row) (hv : r.m_vars ≠ [])
    (h1 : (normalize_pair r).2 = true) (h2 : (normalize_pair r).1 ≠ 1) :
    (∀ v ∈ r.m_vars, is_int_q v.m_coeff = true) ∧ is_int_q r.m_coeff = true := by
  unfold normalize_pair at h1 h2
  simp only at h1 h2
  have main : ∀ (p : ℚ × Bool), p = normalize_gcd r.m_vars.tail |(r.m_vars.headD {}).m_coeff|
      (is_int_q |(r.m_vars.headD {}).m_coeff|) → p.2 = true → p.1 ≠ 1 →
      ∀ v ∈ r.m_vars, is_int_q v.m_coeff = true := by
    intro p hp hp1 hp2
    rw [hp] at hp1 hp2
    obtain ⟨i1, i2⟩ := normalize_gcd_true _ _ _ hp1 hp2
    cases hl : r.m_vars with
    | nil => exact absurd hl hv
    | cons a l =>
      rw [hl] at i1 i2
      simp only [List.headD_cons, List.tail_cons] at i1 i2
      intro v hv2
      rcases List.mem_cons.mp hv2 with rfl | hv2
      · exact is_int_q_of_abs _ i1
      · exact i2 v hv2
  by_cases hc : ((normalize_gcd r.m_vars.tail |(r.m_vars.headD {}).m_coeff|
      (is_int_q |(r.m_vars.headD {}).m_coeff|)).2 && !(r.m_coeff == 0)) = true
  · rw [if_pos hc] at h1 h2
    by_cases hi : is_int_q r.m_coeff = true
    · rw [if_pos hi] at h1 h2
      simp only at h1 h2
      refine ⟨main _ rfl h1 ?_, hi⟩
      intro h
      apply h2
      rw [h, gcd_one_left]
    · rw [if_neg hi] at h1
      simp at h1
  · rw [if_neg hc] at h1 h2
    have h0 : r.m_coeff = 0 := by
      rw [h1] at hc
      simpa using hc
    refine ⟨main _ rfl h1 h2, ?_⟩
    rw [h0]
    rfl

theorem gcd_zero_abs (q : ℚ) (h : is_int_q q = true) : gcd 0 |q| = |q| := by
  obtain ⟨n, rfl⟩ := (is_int_q_iff q).mp h
  have := gcd_nat_abs_int 0 n
  simp only [Nat.cast_zero, Nat.gcd_zero_left] at this
  rw [this]
  simp [Nat.cast_natAbs]

theorem normalize_pair_all_int (r : row) (hv : r.m_vars ≠ [])
    (hl : ∀ v ∈ r.m_vars, is_int_q v.m_coeff = true) (hc : is_int_q r.m_coeff = true) :
    normalize_pair r = (row_gcd r, true) := by
  cases hvs : r.m_vars with
  | nil => exact absurd hvs hv
  | cons a l =>
    rw [hvs] at hl
    have ha := hl a (List.mem_cons_self _ _)
    have hp : normalize_gcd l |a.m_coeff| (is_int_q |a.m_coeff|)
        = ((a :: l).foldl (fun g v => gcd g |v.m_coeff|) 0, true) := by
      rw [is_int_q_abs _ ha, normalize_gcd_all_int _ _ (fun v hv => hl v (List.mem_cons_of_mem _ hv)),
        List.foldl_cons, gcd_zero_abs _ ha]
    unfold normalize_pair row_gcd
    simp only [hvs, List.headD_cons, List.tail_cons, hp, Bool.true_and, hc, if_true]
    by_cases h0 : r.m_coeff = 0
    · simp [h0]
    · simp [h0]

theorem row_gcd_nat (r : row) (hl : ∀ v ∈ r.m_vars, is_int_q v.m_coeff = true) :
    row_gcd r = ((Nat.gcd (gcd_nat r.m_vars 0) r.m_coeff.num.natAbs : ℕ) : ℚ) ∨
    (r.m_coeff = 0 ∧ row_gcd r = ((gcd_nat r.m_vars 0 : ℕ) : ℚ)) := by
  have h := gfold_eq_gcd_nat r.m_vars hl 0
  simp only [Nat.cast_zero] at h
  unfold row_gcd
  simp only [h]
  by_cases h0 : r.m_coeff = 0
  · right
    simp [h0]
  · left
    simp only [h0, if_false]
    have e : |r.m_coeff|.num.natAbs = r.m_coeff.num.natAbs := by
      rcases abs_choice r.m_coeff with h1 | h1
      · rw [h1]
      · rw [h1, Rat.neg_num, Int.natAbs_neg]
    unfold gcd
    simp [Int.gcd, e]

theorem row_gcd_eq (r : row) (hl : ∀ v ∈ r.m_vars, is_int_q v.m_coeff = true) :
    row_gcd r = ((Nat.gcd (gcd_nat r.m_vars 0) r.m_coeff.num.natAbs : ℕ) : ℚ) := by
  rcases row_gcd_nat r hl with h | ⟨h0, h⟩
  · exact h
  · rw [h, h0]; simp

theorem int_div_nat (q : ℚ) (G : ℕ) (hq : is_int_q q = true) (hG : G ≠ 0)
    (hd : G ∣ q.num.natAbs) :
    is_int_q (q / G) = true ∧ G * (q / G).num.natAbs = q.num.natAbs := by
  obtain ⟨n, rfl⟩ := (is_int_q_iff q).mp hq
  rw [Rat.num_intCast] at hd ⊢
  obtain ⟨m, hm⟩ := Int.natCast_dvd.mpr hd
  have hG' : (G : ℚ) ≠ 0 := by exact_mod_cast hG
  have e : (n : ℚ) / G = (m : ℚ) := by
    rw [hm]
    push_cast
    field_simp
  rw [e]
  refine ⟨(is_int_q_iff _).mpr ⟨m, rfl⟩, ?_⟩
  rw [Rat.num_intCast, hm, Int.natAbs_mul, Int.natAbs_ofNat]

theorem sum_vars_map_div (val : Nat → ℚ) (g : ℚ) (vs : List var) :
    sum_vars val (vs.map (fun v => (⟨v.m_id, v.m_coeff / g⟩ : var))) = sum_vars val vs / g := by
  induction vs with
  | nil => simp [sum_vars]
  | cons a l ih =>
    simp only [sum_vars, List.map_cons, List.sum_cons] at ih ⊢
    rw [ih]
    ring

theorem map_div_one (vs : List var) :
    vs.map (fun v => (⟨v.m_id, v.m_coeff / 1⟩ : var)) = vs := by
  induction vs with
  | nil => rfl
  | cons a l ih => simp [ih]

theorem map_scale_div (G : ℚ) (hG : G ≠ 0) (vs : List var) :
    (vs.map (fun v => (⟨v.m_id, v.m_coeff / G⟩ : var))).map
      (fun v => (⟨v.m_id, G * v.m_coeff⟩ : var)) = vs := by
  induction vs with
  | nil => rfl
  | cons a l ih =>
    simp only [List.map_cons, ih]
    congr 1
    cases a
    simp only [var.mk.injEq, true_and]
    field_simp

theorem row_gcd_row_div (r : row) (hl : ∀ v ∈ r.m_vars, is_int_q v.m_coeff = true)
    (hc : is_int_q r.m_coeff = true) (hnz : ∃ v ∈ r.m_vars, v.m_coeff ≠ 0) :
    0 < row_gcd r ∧ row_gcd (row_div r (row_gcd r)) = 1 := by
  have hg := row_gcd_eq r hl
  set G := Nat.gcd (gcd_nat r.m_vars 0) r.m_coeff.num.natAbs with hGdef
  have hA : gcd_nat r.m_vars 0 ≠ 0 := gcd_nat_ne_zero _ _ (Or.inr hnz)
  have hG : G ≠ 0 := by
    intro h
    exact hA (Nat.eq_zero_of_gcd_eq_zero_left h)
  have hGq : (G : ℚ) ≠ 0 := by exact_mod_cast hG
  have hpos : 0 < row_gcd r := by
    rw [hg]
    exact_mod_cast Nat.pos_of_ne_zero hG
  refine ⟨hpos, ?_⟩
  rw [hg]
  have hdv := gcd_nat_dvd r.m_vars 0
  have hGA : G ∣ gcd_nat r.m_vars 0 := Nat.gcd_dvd_left _ _
  have hGC : G ∣ r.m_coeff.num.natAbs := Nat.gcd_dvd_right _ _
  -- the divided row has integer coefficients
  have hl' : ∀ v ∈ (row_div r (G : ℚ)).m_vars, is_int_q v.m_coeff = true := by
    intro v hv
    simp only [row_div] at hv
    obtain ⟨t, ht, rfl⟩ := List.mem_map.mp hv
    exact (int_div_nat _ G (hl t ht) hG (dvd_trans hGA (hdv.2 t ht))).1
  have hc' := int_div_nat _ G hc hG hGC
  rw [row_gcd_eq _ hl']
  -- homogeneity of the gcd
  have hs := gcd_nat_scale G (row_div r (G : ℚ)).m_vars hl' 0
  have hmap : (row_div r (G : ℚ)).m_vars.map (fun v => (⟨v.m_id, (G : ℚ) * v.m_coeff⟩ : var))
      = r.m_vars := by
    simp only [row_div]
    exact map_scale_div _ hGq _
  rw [hmap, Nat.mul_zero] at hs
  have hcc : (row_div r (G : ℚ)).m_coeff = r.m_coeff / G := rfl
  have key : G = G * Nat.gcd (gcd_nat (row_div r (G : ℚ)).m_vars 0)
      (row_div r (G : ℚ)).m_coeff.num.natAbs := by
    rw [← Nat.gcd_mul_left, ← hs, hcc, hc'.2]
  have : Nat.gcd (gcd_nat (row_div r (G : ℚ)).m_vars 0)
      (row_div r (G : ℚ)).m_coeff.num.natAbs = 1 := by
    have h1 : G * 1 = G * Nat.gcd (gcd_nat (row_div r (G : ℚ)).m_vars 0)
      (row_div r (G : ℚ)).m_coeff.num.natAbs := by rw [Nat.mul_one]; exact key
    exact (Nat.eq_of_mul_eq_mul_left (Nat.pos_of_ne_zero hG) h1).symm
  rw [this]
  simp

theorem holds_row_div (r : row) (g : ℚ) (hg : 0 < g)
    (hty : r.m_type = ineq_type.t_eq ∨ r.m_type = ineq_type.t_lt ∨ r.m_type = ineq_type.t_le)
    (val : Nat → ℚ) : holds (row_div r g) val ↔ holds r val := by
  have hlin : lin (row_div r g) val = lin r val / g := by
    rw [lin_eq, lin_eq]
    simp only [row_div]
    rw [sum_vars_map_div]
    ring
  have hne : g ≠ 0 := ne_of_gt hg
  unfold holds
  have hty' : (row_div r g).m_type = r.m_type := rfl
  rw [hty', hlin]
  rcases hty with h | h | h <;> rw [h] <;> simp only
  · constructor
    · intro h0
      rcases div_eq_zero_iff.mp h0 with h1 | h1
      · exact h1
      · exact absurd h1 hne
    · intro h0; rw [h0]; simp
  · constructor
    · intro h0
      by_contra hc
      have := div_nonneg (not_lt.mp hc) (le_of_lt hg)
      linarith
    · intro h0; exact div_neg_of_neg_of_pos h0 hg
  · constructor
    · intro h0
      by_contra hc
      have := div_pos (not_le.mp hc) hg
      linarith
    · intro h0; exact div_nonpos_of_nonpos_of_nonneg h0 (le_of_lt hg)

theorem normalize_all_int_row (s : model_based_opt) (j : Nat)
    (halive : (s.get_row j).m_alive = true) (hv : (s.get_row j).m_vars ≠ [])
    (hty : (s.get_row j).m_type = ineq_type.t_eq ∨ (s.get_row j).m_type = ineq_type.t_lt ∨
      (s.get_row j).m_type = ineq_type.t_le)
    (hl : ∀ v ∈ (s.get_row j).m_vars, is_int_q v.m_coeff = true)
    (hc : is_int_q (s.get_row j).m_coeff = true)
    (hpos : 0 < row_gcd (s.get_row j)) :
    (s.normalize j).get_row j = row_div (s.get_row j) (row_gcd (s.get_row j)) ∨
    (row_gcd (s.get_row j) = 1 ∧ s.normalize j = s) := by
  have hj := alive_lt_length s j halive
  have hne : (s.get_row j).m_vars.isEmpty = false := by
    cases h : (s.get_row j).m_vars with
    | nil => exact absurd h hv
    | cons a l => rfl
  have h1 : (s.get_row j).m_type ≠ ineq_type.t_divides := by
    rcases hty with h | h | h <;> rw [h] <;> decide
  have h2 : (s.get_row j).m_type ≠ ineq_type.t_mod := by
    rcases hty with h | h | h <;> rw [h] <;> decide
  have h3 : (s.get_row j).m_type ≠ ineq_type.t_div := by
    rcases hty with h | h | h <;> rw [h] <;> decide
  rw [normalize_eq]
  simp only [halive, hne, Bool.not_true, Bool.false_eq_true, if_false, h1, h2, h3,
    normalize_pair_all_int _ hv hl hc, Bool.true_and]
  by_cases hg1 : row_gcd (s.get_row j) = 1
  · right
    refine ⟨hg1, ?_⟩
    simp [hg1]
  · left
    have hcond : (!(row_gcd (s.get_row j) == 1)) = true := by simp [hg1]
    rw [if_pos hcond]
    have hk : (1 : ℚ) / row_gcd (s.get_row j) ≠ 1 := by
      intro h
      apply hg1
      have := ne_of_gt hpos
      field_simp at h
      exact h.symm
    rw [get_row_mul _ _ _ hk hj]
    unfold row_div
    have hplain : (s.get_row j).m_type ≠ ineq_type.t_div ∧
        (s.get_row j).m_type ≠ ineq_type.t_mod := ⟨h3, h2⟩
    simp only [hplain, ne_eq, not_false_eq_true, and_self, if_true, mul_one_div]

/-- C17: `normalize(row_id)` on a live row.
* A row with no terms is retired (dead and on the retired list).
* A row with at least one term that is a divisibility, mod or div row, or has a
  non-integer coefficient or a non-integer constant, is left unchanged (the whole state
  is unchanged).
* An equality, strict or non-strict row with at least one term, all coefficients and the
  constant integers and some coefficient nonzero: with `g` the gcd of the absolute
  coefficients and (when nonzero) the absolute constant, `g > 0` and every coefficient,
  the constant and the cached value are divided by `g`; the relation kind is unchanged,
  the row stays live, the gcd of the new row is 1, and the new row holds at exactly the
  assignments at which the old row holds. -/
theorem normalize_spec (s : model_based_opt) (row_id : Nat)
    (halive : (s.get_row row_id).m_alive = true) :
    ((s.get_row row_id).m_vars = [] →
      ((s.normalize row_id).get_row row_id).m_alive = false ∧
      row_id ∈ (s.normalize row_id).m_retired_rows) ∧
    ((s.get_row row_id).m_vars ≠ [] →
      ((s.get_row row_id).m_type = ineq_type.t_divides ∨
        (s.get_row row_id).m_type = ineq_type.t_mod ∨
        (s.get_row row_id).m_type = ineq_type.t_div ∨
        (∃ v ∈ (s.get_row row_id).m_vars, is_int_q v.m_coeff = false) ∨
        is_int_q (s.get_row row_id).m_coeff = false) →
      s.normalize row_id = s) ∧
    ((s.get_row row_id).m_vars ≠ [] →
      ((s.get_row row_id).m_type = ineq_type.t_eq ∨ (s.get_row row_id).m_type = ineq_type.t_lt ∨
        (s.get_row row_id).m_type = ineq_type.t_le) →
      (∀ v ∈ (s.get_row row_id).m_vars, is_int_q v.m_coeff = true) →
      is_int_q (s.get_row row_id).m_coeff = true →
      (∃ v ∈ (s.get_row row_id).m_vars, v.m_coeff ≠ 0) →
      0 < row_gcd (s.get_row row_id) ∧
      ((s.normalize row_id).get_row row_id).m_vars =
        (s.get_row row_id).m_vars.map
          (fun v => (⟨v.m_id, v.m_coeff / row_gcd (s.get_row row_id)⟩ : var)) ∧
      ((s.normalize row_id).get_row row_id).m_coeff =
        (s.get_row row_id).m_coeff / row_gcd (s.get_row row_id) ∧
      ((s.normalize row_id).get_row row_id).m_value =
        (s.get_row row_id).m_value / row_gcd (s.get_row row_id) ∧
      ((s.normalize row_id).get_row row_id).m_type = (s.get_row row_id).m_type ∧
      ((s.normalize row_id).get_row row_id).m_alive = true ∧
      row_gcd ((s.normalize row_id).get_row row_id) = 1 ∧
      ∀ val : Nat → ℚ, holds ((s.normalize row_id).get_row row_id) val ↔
        holds (s.get_row row_id) val) := by
  have hj := alive_lt_length s row_id halive
  refine ⟨?_, ?_, ?_⟩
  · intro hv
    rw [(normalize_cases s row_id halive).1 hv]
    obtain ⟨r1, r2⟩ := get_row_retire_row s row_id hj
    exact ⟨by rw [r1], r2⟩
  · intro hv hcase
    have hne : (s.get_row row_id).m_vars.isEmpty = false := by
      cases h : (s.get_row row_id).m_vars with
      | nil => exact absurd h hv
      | cons a l => rfl
    rw [normalize_eq]
    simp only [halive, hne, Bool.not_true, Bool.false_eq_true, if_false]
    by_cases h1 : (s.get_row row_id).m_type = ineq_type.t_divides
    · rw [if_pos h1]
    rw [if_neg h1]
    by_cases h2 : (s.get_row row_id).m_type = ineq_type.t_mod
    · rw [if_pos h2]
    rw [if_neg h2]
    by_cases h3 : (s.get_row row_id).m_type = ineq_type.t_div
    · rw [if_pos h3]
    rw [if_neg h3]
    by_cases h4 : ((normalize_pair (s.get_row row_id)).2 &&
        !((normalize_pair (s.get_row row_id)).1 == 1)) = true
    · exfalso
      have h5 : (normalize_pair (s.get_row row_id)).2 = true := by
        cases hb : (normalize_pair (s.get_row row_id)).2
        · rw [hb] at h4; simp at h4
        · rfl
      have h6 : (normalize_pair (s.get_row row_id)).1 ≠ 1 := by
        intro h
        rw [h] at h4
        simp at h4
      obtain ⟨i1, i2⟩ := normalize_pair_true _ hv h5 h6
      rcases hcase with h | h | h | ⟨v, hv2, h⟩ | h
      · exact h1 h
      · exact h2 h
      · exact h3 h
      · rw [i1 v hv2] at h; exact absurd h (by decide)
      · rw [i2] at h; exact absurd h (by decide)
    · rw [if_neg h4]
  · intro hv hty hl hc hnz
    obtain ⟨hpos, hone⟩ := row_gcd_row_div (s.get_row row_id) hl hc hnz
    have hrow : (s.normalize row_id).get_row row_id =
        row_div (s.get_row row_id) (row_gcd (s.get_row row_id)) := by
      rcases normalize_all_int_row s row_id halive hv hty hl hc hpos with h | ⟨hg1, h⟩
      · exact h
      · rw [h, hg1]
        unfold row_div
        rw [map_div_one]
        simp only [div_one]
    rw [hrow]
    exact ⟨hpos, rfl, rfl, rfl, rfl, halive, hone,
      fun val => holds_row_div _ _ hpos hty val⟩

/-- Witness of C17: the live row `2x - 4 <= 0` of `gcd_store` becomes `x - 2 <= 0`. -/
theorem normalize_spec_witness :
    (gcd_store.get_row 1).m_alive = true ∧
    ((gcd_store.normalize 1).get_row 1).m_coeff =
      (gcd_store.get_row 1).m_coeff / row_gcd (gcd_store.get_row 1) :=
  ⟨by decide!,
   ((normalize_spec gcd_store 1 (by decide!)).2.2 (by decide!) (by decide!) (by decide!)
     (by decide!) ⟨⟨0, 2⟩, by decide!, by norm_num⟩).2.2.1⟩

/-! ### `copy_row` -/

/-- C18 (divergence): `copy_row(1, x)` on the row `x + y <= 0` creates the live row 2
with the same relation and constant whose terms are ALL the terms of row 1, the term of
the excluded variable `x` included; only the row index of `x` does not list the new row
(the index of `y` does), so the new row violates the index part of `invariant`. -/
theorem copy_row_keeps_excluded_term :
    (copy_store.get_row 1).m_vars = [⟨0, 1⟩, ⟨1, 1⟩] ∧
    (copy_store.copy_row 1 (some 0)).2 = 2 ∧
    ((copy_store.copy_row 1 (some 0)).1.get_row 2).m_alive = true ∧
    ((copy_store.copy_row 1 (some 0)).1.get_row 2).m_type = ineq_type.t_le ∧
    ((copy_store.copy_row 1 (some 0)).1.get_row 2).m_coeff = 0 ∧
    ((copy_store.copy_row 1 (some 0)).1.get_row 2).m_vars = [⟨0, 1⟩, ⟨1, 1⟩] ∧
    (copy_store.copy_row 1 (some 0)).1.get_coefficient 2 0 = 1 ∧
    2 ∉ (copy_store.copy_row 1 (some 0)).1.row_ids 0 ∧
    2 ∈ (copy_store.copy_row 1 (some 0)).1.row_ids 1 := by
  decide!

/-! ### Modulus zero -/

theorem lcm_eq_zero (a b : ℚ) : lcm a b = 0 ↔ a = 0 ∨ b = 0 := by
  unfold lcm
  constructor
  · intro h
    by_contra hc
    push_neg at hc
    have h1 : a.num ≠ 0 := fun h1 => hc.1 (Rat.num_eq_zero.mp h1)
    have h2 : b.num ≠ 0 := fun h2 => hc.2 (Rat.num_eq_zero.mp h2)
    have := Int.lcm_ne_zero h1 h2
    apply this
    exact_mod_cast h
  · rintro (h | h)
    · rw [h]; simp
    · rw [h]; simp

theorem lcm_fold_eq_zero (s : model_based_opt) (l : List Nat) (D : ℚ) :
    l.foldl (fun D idx => lcm D (s.get_row idx).m_mod) D = 0 ↔
      D = 0 ∨ ∃ idx ∈ l, (s.get_row idx).m_mod = 0 := by
  induction l generalizing D with
  | nil => simp
  | cons a l ih =>
    rw [List.foldl_cons, ih, lcm_eq_zero]
    constructor
    · rintro ((h | h) | ⟨i, hi, h⟩)
      · exact Or.inl h
      · exact Or.inr ⟨a, List.mem_cons_self _ _, h⟩
      · exact Or.inr ⟨i, List.mem_cons_of_mem _ hi, h⟩
    · rintro (h | ⟨i, hi, h⟩)
      · exact Or.inl (Or.inl h)
      · rcases List.mem_cons.mp hi with rfl | hi
        · exact Or.inl (Or.inr h)
        · exact Or.inr ⟨i, hi, h⟩

theorem solve_divides_error
    (proj : model_based_opt → Nat → Bool → Except error (model_based_opt × Option def_))
    (s : model_based_opt) (x : Nat) (divide_rows : List Nat) (compute_def : Bool) :
    (divide_rows.foldl (fun D idx => lcm D (s.get_row idx).m_mod) 1 = 0 →
      solve_divides proj s x divide_rows compute_def = Except.error (error.modulo_zero s)) ∧
    (divide_rows.foldl (fun D idx => lcm D (s.get_row idx).m_mod) 1 ≠ 0 →
      ∀ e, solve_divides proj s x divide_rows compute_def = Except.error e →
        ∃ s1 y, proj s1 y compute_def = Except.error e) := by
  constructor
  · intro h
    unfold solve_divides
    simp only [h, if_true]
  · intro h e he
    unfold solve_divides at he
    simp only [h, if_false] at he
    split at he
    · rename_i e' hp
      have he' : e' = e := by simpa using he
      rw [he'] at hp
      exact ⟨_, _, hp⟩
    · rename_i s3 result hp
      exfalso
      split at he
      · split at he <;> simp at he
      · simp at he

theorem project_divides_eq (s : model_based_opt) (x fuel : Nat) (compute_def : Bool)
    (h : (scan_result s x).divide_rows ≠ []) :
    project (fuel + 1) s x compute_def =
      solve_divides (project fuel) s x (scan_result s x).divide_rows compute_def := by
  have hne : (scan_result s x).divide_rows.isEmpty = false := by
    cases hl : (scan_result s x).divide_rows with
    | nil => exact absurd hl h
    | cons a l => rfl
  unfold scan_result at hne
  unfold project scan_result
  simp only [hne, Bool.not_false, if_true]

/-- C19: when the scan of `project(x, _)` finds live divisibility rows on `x` (so that
`solve_divides` is reached), the lcm of their moduli is zero exactly when one of them has
modulus zero; in that case `project` raises "modulo 0 is not defined" and the engine
state at the `throw` is the state before the call (no row, variable value, index entry
or free-list entry has been modified); when the lcm is not zero `solve_divides` does not
raise by itself: every error of the call is an error of a nested `project` call. -/
theorem project_modulo_zero (s : model_based_opt) (x fuel : Nat) (compute_def : Bool)
    (h : (scan_result s x).divide_rows ≠ []) :
    ((scan_result s x).divide_rows.foldl (fun D idx => lcm D (s.get_row idx).m_mod) 1 = 0 ↔
      ∃ idx ∈ (scan_result s x).divide_rows, (s.get_row idx).m_mod = 0) ∧
    ((scan_result s x).divide_rows.foldl (fun D idx => lcm D (s.get_row idx).m_mod) 1 = 0 →
      project (fuel + 1) s x compute_def = Except.error (error.modulo_zero s)) ∧
    ((scan_result s x).divide_rows.foldl (fun D idx => lcm D (s.get_row idx).m_mod) 1 ≠ 0 →
      ∀ e, project (fuel + 1) s x compute_def = Except.error e →
        ∃ s1 y, project fuel s1 y compute_def = Except.error e) := by
  rw [project_divides_eq s x fuel compute_def h]
  refine ⟨?_, (solve_divides_error _ s x _ compute_def).1,
    (solve_divides_error _ s x _ compute_def).2⟩
  rw [lcm_fold_eq_zero]
  simp

/-- Witness of C19: the divisibility row `0 | (x + 1)` of `divides_zero_store`. -/
theorem project_modulo_zero_witness :
    (scan_result divides_zero_store 0).divide_rows ≠ [] ∧
    project 1 divides_zero_store 0 true = Except.error (error.modulo_zero divides_zero_store) :=
  ⟨by decide!,
   (project_modulo_zero divides_zero_store 0 0 true (by decide!)).2.1
     (((project_modulo_zero divides_zero_store 0 0 true (by decide!)).1).mpr
       ⟨1, by decide!, by decide!⟩)⟩

theorem project_aux_vars_error
    (proj : model_based_opt → Nat → Bool → Except error (model_based_opt × Option def_))
    (compute_def : Bool) (vs : List Nat) :
    ∀ (s : model_based_opt) (e : error),
      project_aux_vars proj compute_def s vs = Except.error e →
        ∃ s1 y, proj s1 y compute_def = Except.error e := by
  induction vs with
  | nil =>
    intro s e he
    simp [project_aux_vars] at he
  | cons v vs ih =>
    intro s e he
    unfold project_aux_vars at he
    split at he
    · rename_i e' hp
      have he' : e' = e := by simpa using he
      rw [he'] at hp
      exact ⟨_, _, hp⟩
    · exact ih _ e he

theorem solve_mod_div_error
    (proj : model_based_opt → Nat → Bool → Except error (model_based_opt × Option def_))
    (s : model_based_opt) (x : Nat) (mod_rows div_rows : List Nat) (compute_def : Bool)
    (e : error) (he : solve_mod_div proj s x mod_rows div_rows compute_def = Except.error e) :
    ∃ s1 y, proj s1 y compute_def = Except.error e := by
  unfold solve_mod_div at he
  simp only at he
  split at he
  · rename_i e' hp
    have := project_aux_vars_error proj compute_def _ _ _ hp
    simp only [Except.error.injEq] at he
    rw [← he]
    exact this
  · split at he
    · rename_i e' hp
      have he' : e' = e := by simpa using he
      rw [he'] at hp
      exact ⟨_, _, hp⟩
    · split at he
      · rename_i e' hp
        have he' : e' = e := by simpa using he
        rw [he'] at hp
        exact ⟨_, _, hp⟩
      · exfalso
        split at he
        · split at he <;> simp at he
        · simp at he

/-! ### Mod/div round trip -/

set_option maxRecDepth 100000 in
/-- The round trip away from the stored assignment: for `aux = (x - 2w - 4) div 5` at
`x = 8`, `w = 3`, `project({p, x}, true)` returns `p := 1 + v6` (the definition of `aux`) and `x := 9`, and
leaves the live rows `v6 = (-2w - 4) div 5`, `v7 = (-2w - 4) mod 5`, `v7 - 4 <= 0`,
`-v7 - 4 <= 0`.  The assignment `w = 7`, `v6 = -4`, `v7 = 2` satisfies these rows, but
there the definition of `aux` evaluates to `-3` while `(x - 2w - 4) div 5 = -2` for
`x = 9`. -/
theorem round_trip_fails_off_model :
    ∃ s1, project_vars 10 (round_trip_store true 8 3 1 (-2) (-4) 5) [3, 0] true = Except.ok s1 ∧
      (s1.m_result.getD 0 none).isSome = true ∧ (s1.m_result.getD 1 none).isSome = true ∧
      feasible s1 off_model_val ∧
      eval_def_at off_model_val (result_def s1 0) = -3 ∧
      eval_def_at off_model_val (result_def s1 1) = 9 ∧
      div (1 * 9 + (-2) * off_model_val 1 + (-4)) 5 = -2 :=
  ⟨(project_vars 10 (round_trip_store true 8 3 1 (-2) (-4) 5) [3, 0] true).toOption.getD init,
    by decide!⟩

set_option maxRecDepth 1000000 in
/-- The round trip at the stored assignment, by evaluation on a finite family: for the
stores `round_trip_store` with `aux = (a*x + b*w + c) div K`
or `mod K`, `x0` in {-3, 2, 8}, `w0 = 3`, `a` in {1, 2, -3}, `b = -2`, `c = -4` and `K`
in {2, 5}: `project({p, x}, true)` returns definitions of `p` (standing for `aux`) and of
`x`, the assignment stored in the engine afterwards satisfies the live rows, and at that
stored assignment the definition of `aux` evaluates to `(a*x + b*w + c) div K` (resp.
`mod K`) for the value of the definition of `x`. -/
theorem round_trip_at_model :
    ∀ isdiv ∈ [true, false], ∀ x0 ∈ [(-3 : ℚ), 2, 8], ∀ a ∈ [(1 : ℚ), 2, -3],
      ∀ K ∈ [(2 : ℚ), 5], round_trip_at isdiv x0 3 a (-2) (-4) K assignment := by
  decide!

/-- The div row `aux = (x - 2w - 4) div 5` at `x = 8`, `w = 3`, at the stored assignment. -/
theorem round_trip_at_model_witness :
    round_trip_at true 8 3 1 (-2) (-4) 5 assignment :=
  round_trip_at_model true (List.mem_cons_self _ _) 8
    (List.mem_cons_of_mem _ (List.mem_cons_of_mem _ (List.mem_cons_self _ _))) 1
    (List.mem_cons_self _ _) 5 (List.mem_cons_of_mem _ (List.mem_cons_self _ _))

/-! ### Frames of the row operations -/

theorem frame_refl (x : Nat) (P : Nat → Prop) (s : model_based_opt) (h : store_wf s) :
    frame x P s s :=
  ⟨h, fun _ _ _ => rfl, fun j _ hd ha => by rw [hd] at ha; simp at ha, rfl⟩

theorem frame_mono {x : Nat} {P Q : Nat → Prop} {s t : model_based_opt}
    (h : frame x P s t) (hpq : ∀ j, P j → Q j) : frame x Q s t :=
  ⟨h.1, fun j hq => h.2.1 j (fun hp => hq (hpq j hp)),
    fun j hq => h.2.2.1 j (fun hp => hq (hpq j hp)), h.2.2.2⟩

theorem frame_trans {x : Nat} {P : Nat → Prop} {s t u : model_based_opt}
    (h1 : frame x P s t) (h2 : frame x P t u) : frame x P s u := by
  refine ⟨h2.1, ?_, ?_, h2.2.2.2.trans h1.2.2.2⟩
  · intro j hp ha
    have e1 := h1.2.1 j hp ha
    have ha2 : (t.get_row j).m_alive = true := by rw [e1]; exact ha
    rw [h2.2.1 j hp ha2, e1]
  · intro j hp hd
    by_cases ht : (t.get_row j).m_alive = true
    · have hz := h1.2.2.1 j hp hd ht
      intro hu
      have e2 := h2.2.1 j hp ht
      unfold model_based_opt.get_coefficient at hz ⊢
      rw [e2]
      exact hz
    · have ht2 : (t.get_row j).m_alive = false := by
        cases h : (t.get_row j).m_alive
        · rfl
        · exact absurd h ht
      exact h2.2.2.1 j hp ht2

theorem frame_cancelled {x : Nat} {P : Nat → Prop} {s t : model_based_opt}
    (h : frame x P s t) (j : Nat) (hp : ¬ P j) (hz : cancelled x s j) : cancelled x t j := by
  by_cases ha : (s.get_row j).m_alive = true
  · intro _
    have e := h.2.1 j hp ha
    unfold model_based_opt.get_coefficient
    rw [e]
    exact hz ha
  · have hd : (s.get_row j).m_alive = false := by
      cases h2 : (s.get_row j).m_alive
      · rfl
      · exact absurd h2 ha
    exact h.2.2.1 j hp hd

theorem wf_not_retired (s : model_based_opt) (h : store_wf s) (t : Nat)
    (hal : (s.get_row t).m_alive = true) : t ∉ s.m_retired_rows := by
  intro hm
  have := (h.1 t hm).1
  rw [hal] at this
  simp at this

/-- Replacing a live row by a live row with sorted terms. -/
theorem frame_put_row (x : Nat) (s : model_based_opt) (t : Nat) (r : row) (hwf : store_wf s)
    (hal : (s.get_row t).m_alive = true) (hs : sorted_ids r.m_vars) :
    frame x (fun j => j = t) s (s.put_row t r) := by
  have hlt := alive_lt_length s t hal
  have hnr := wf_not_retired s hwf t hal
  refine ⟨⟨?_, hwf.2.1, ?_⟩, ?_, ?_, rfl⟩
  · intro j hj
    have hjt : j ≠ t := fun h => hnr (h ▸ hj)
    rw [get_row_put_row_ne _ _ _ _ hjt]
    refine ⟨(hwf.1 j hj).1, ?_⟩
    simp only [put_row, List.length_set]
    exact (hwf.1 j hj).2
  · intro j hj
    by_cases hjt : j = t
    · subst hjt
      rw [get_row_put_row_eq _ _ _ hlt]
      exact hs
    · rw [get_row_put_row_ne _ _ _ _ hjt] at hj ⊢
      exact hwf.2.2 j hj
  · intro j hjt _
    exact get_row_put_row_ne _ _ _ _ hjt
  · intro j hjt hd ha
    rw [get_row_put_row_ne _ _ _ _ hjt, hd] at ha
    simp at ha

/-- A state with the same rows, retired list and integrality flags. -/
theorem frame_of_rows (x : Nat) (P : Nat → Prop) (s t : model_based_opt) (hwf : store_wf s)
    (h1 : t.m_rows = s.m_rows) (h2 : t.m_retired_rows = s.m_retired_rows)
    (h3 : t.m_var2is_int = s.m_var2is_int) : frame x P s t := by
  have hg : ∀ j, t.get_row j = s.get_row j := by
    intro j
    unfold get_row
    rw [h1]
  refine ⟨⟨?_, by rw [h2]; exact hwf.2.1, ?_⟩, fun j _ _ => hg j, ?_, h3⟩
  · intro j hj
    rw [h2] at hj
    rw [hg, h1]
    exact hwf.1 j hj
  · intro j hj
    rw [hg] at hj ⊢
    exact hwf.2.2 j hj
  · intro j _ hd ha
    rw [hg, hd] at ha
    simp at ha

theorem frame_retire_row (x : Nat) (s : model_based_opt) (t : Nat) (hwf : store_wf s)
    (hal : (s.get_row t).m_alive = true) :
    frame x (fun j => j = t) s (s.retire_row t) ∧
      ((s.retire_row t).get_row t).m_alive = false := by
  have hlt := alive_lt_length s t hal
  have hnr := wf_not_retired s hwf t hal
  have hrow := (get_row_retire_row s t hlt).1
  have hother : ∀ j, j ≠ t → (s.retire_row t).get_row j = s.get_row j :=
    (same_except_retire_row s t).1
  have hret : (s.retire_row t).m_retired_rows = s.m_retired_rows ++ [t] := by
    unfold retire_row
    simp [put_row]
  refine ⟨⟨⟨?_, ?_, ?_⟩, ?_, ?_, ?_⟩, by rw [hrow]⟩
  · intro j hj
    rw [hret] at hj
    have hlen : (s.retire_row t).m_rows.length = s.m_rows.length :=
      (same_except_retire_row s t).2.2.2
    rw [hlen]
    by_cases hjt : j = t
    · subst hjt; rw [hrow]; exact ⟨rfl, hlt⟩
    · rw [hother j hjt]
      rcases List.mem_append.mp hj with h | h
      · exact hwf.1 j h
      · simp at h; exact absurd h hjt
  · rw [hret]
    exact List.Nodup.append hwf.2.1 (List.nodup_singleton t)
      (fun a ha hb => hnr (by simp at hb; subst hb; exact ha))
  · intro j hj
    by_cases hjt : j = t
    · subst hjt
      rw [hrow] at hj
      simp at hj
    · rw [hother j hjt] at hj ⊢
      exact hwf.2.2 j hj
  · intro j hjt _
    exact hother j hjt
  · intro j hjt hd ha
    rw [hother j hjt, hd] at ha
    simp at ha
  · unfold retire_row
    rfl

theorem frame_mul (x : Nat) (s : model_based_opt) (t : Nat) (c : ℚ) (hwf : store_wf s)
    (hal : (s.get_row t).m_alive = true) :
    frame x (fun j => j = t) s (s.mul t c) := by
  unfold model_based_opt.mul
  split
  · exact frame_refl x _ s hwf
  · exact frame_put_row x s t _ hwf hal (sorted_ids_map_scale c _ (hwf.2.2 t hal))

theorem frame_add (x : Nat) (s : model_based_opt) (t : Nat) (c : ℚ) (hwf : store_wf s)
    (hal : (s.get_row t).m_alive = true) :
    frame x (fun j => j = t) s (s.add t c) :=
  frame_put_row x s t _ hwf hal (hwf.2.2 t hal)

theorem foldl_push_fields (k : Nat) (l : List Nat) (s : model_based_opt) :
    (l.foldl (fun st v => st.push_row_id v k) s).m_rows = s.m_rows ∧
    (l.foldl (fun st v => st.push_row_id v k) s).m_retired_rows = s.m_retired_rows ∧
    (l.foldl (fun st v => st.push_row_id v k) s).m_var2is_int = s.m_var2is_int := by
  induction l generalizing s with
  | nil => exact ⟨rfl, rfl, rfl⟩
  | cons a l ih =>
    rw [List.foldl_cons]
    obtain ⟨h1, h2, h3⟩ := ih (s.push_row_id a k)
    exact ⟨h1, h2, h3⟩

theorem frame_mul_add (x : Nat) (s : model_based_opt) (b : Bool) (t : Nat) (c : ℚ) (k : Nat)
    (hwf : store_wf s) (hal : (s.get_row t).m_alive = true)
    (hk : sorted_ids (s.get_row k).m_vars) :
    frame x (fun j => j = t) s (s.mul_add b t c k) := by
  have hlt := alive_lt_length s t hal
  have hsp := mul_add_row_spec s b t c k hlt (hwf.2.2 t hal) hk
  have hse := same_except_mul_add s b t c k
  have hret : (s.mul_add b t c k).m_retired_rows = s.m_retired_rows := by
    unfold model_based_opt.mul_add
    split
    · rfl
    · split
      · simp only [put_row]
        exact (foldl_push_fields t _ s).2.1
      · rfl
  have hnr := wf_not_retired s hwf t hal
  refine ⟨⟨?_, by rw [hret]; exact hwf.2.1, ?_⟩, ?_, ?_, hse.2.2.1⟩
  · intro j hj
    rw [hret] at hj
    have hjt : j ≠ t := fun h => hnr (h ▸ hj)
    rw [hse.1 j hjt, hse.2.2.2]
    exact hwf.1 j hj
  · intro j hj
    by_cases hjt : j = t
    · subst hjt
      exact hsp.1
    · rw [hse.1 j hjt] at hj ⊢
      exact hwf.2.2 j hj
  · intro j hjt _
    exact hse.1 j hjt
  · intro j hjt hd ha
    rw [hse.1 j hjt, hd] at ha
    simp at ha

theorem frame_normalize (x : Nat) (s : model_based_opt) (t : Nat) (hwf : store_wf s) :
    frame x (fun j => j = t) s (s.normalize t) := by
  rw [normalize_eq]
  by_cases hal : (s.get_row t).m_alive = true
  · simp only [hal, Bool.not_true, Bool.false_eq_true, if_false]
    split
    · exact (frame_retire_row x s t hwf hal).1
    · split
      · exact frame_refl x _ s hwf
      · split
        · exact frame_refl x _ s hwf
        · split
          · exact frame_refl x _ s hwf
          · split
            · exact frame_mul x s t _ hwf hal
            · exact frame_refl x _ s hwf
  · have hd : (s.get_row t).m_alive = false := by
      cases h : (s.get_row t).m_alive
      · rfl
      · exact absurd h hal
    simp only [hd, Bool.not_false, if_true]
    exact frame_refl x _ s hwf

/-- The coefficient of `x` after `normalize`: zero stays zero, a retired row is dead. -/
theorem cancelled_normalize (x : Nat) (s : model_based_opt) (t : Nat) (hwf : store_wf s)
    (hz : cancelled x s t) : cancelled x (s.normalize t) t := by
  rw [normalize_eq]
  by_cases hal : (s.get_row t).m_alive = true
  · have hlt := alive_lt_length s t hal
    have hmul : ∀ c, cancelled x (s.mul t c) t := by
      intro c _
      rw [(mul_row_spec s t c hlt (hwf.2.2 t hal)).2.1 x, hz hal]
      ring
    simp only [hal, Bool.not_true, Bool.false_eq_true, if_false]
    split
    · intro ha
      rw [(frame_retire_row x s t hwf hal).2] at ha
      simp at ha
    · split
      · exact hz
      · split
        · exact hz
        · split
          · exact hz
          · split
            · exact hmul _
            · exact hz
  · have hd : (s.get_row t).m_alive = false := by
      cases h : (s.get_row t).m_alive
      · rfl
      · exact absurd h hal
    simp only [hd, Bool.not_false, if_true]
    exact hz

/-! ### New rows -/

theorem sort_vars_eq (l : List var) (h : sorted_ids l) : sort_vars l = l := by
  unfold sort_vars
  apply List.Sorted.insertionSort_eq
  unfold sorted_ids at h
  unfold List.Sorted at h ⊢
  rw [List.pairwise_map] at h
  exact h.imp (fun hlt => le_of_lt hlt)

theorem dead_of_not_alive (r : row) (h : ¬ r.m_alive = true) : r.m_alive = false := by
  cases h2 : r.m_alive
  · rfl
  · exact absurd h2 h

theorem get_row_default (s : model_based_opt) (j : Nat) (h : s.m_rows.length ≤ j) :
    s.get_row j = {} := by
  unfold get_row
  exact List.getD_eq_default _ _ h

theorem new_row_spec (s : model_based_opt) (hwf : store_wf s) :
    (s.get_row s.new_row.2).m_alive = false ∧
    (∀ j, j ≠ s.new_row.2 → s.new_row.1.get_row j = s.get_row j) ∧
    (s.new_row.1.get_row s.new_row.2).m_vars = [] ∧
    s.new_row.2 < s.new_row.1.m_rows.length ∧
    s.new_row.1.m_retired_rows.Nodup ∧
    (∀ j ∈ s.new_row.1.m_retired_rows, j ≠ s.new_row.2 ∧ j ∈ s.m_retired_rows) ∧
    s.new_row.1.m_var2is_int = s.m_var2is_int := by
  unfold new_row
  cases hl : s.m_retired_rows.getLast? with
  | none =>
    simp only
    have hnil : s.m_retired_rows = [] := List.getLast?_eq_none_iff.mp hl
    refine ⟨?_, ?_, ?_, ?_, ?_, ?_, trivial⟩
    · rw [get_row_default s _ (le_refl _)]
    · intro j hj
      unfold get_row
      simp only
      by_cases hlt : j < s.m_rows.length
      · rw [List.getD_eq_getElem?_getD, List.getD_eq_getElem?_getD,
          List.getElem?_append_left hlt]
      · have hgt : s.m_rows.length < j := by omega
        rw [List.getD_eq_default _ _ (by simp; omega), List.getD_eq_default _ _ (by omega)]
    · unfold get_row
      simp
    · simp
    · rw [hnil]; exact List.nodup_nil
    · intro j hj
      rw [hnil] at hj
      simp at hj
  | some k =>
    simp only
    have hk : k ∈ s.m_retired_rows := List.mem_of_getLast?_eq_some hl
    have hdead := (hwf.1 k hk).1
    have hlt := (hwf.1 k hk).2
    have hsplit : s.m_retired_rows = s.m_retired_rows.dropLast ++ [k] := by
      have hne : s.m_retired_rows ≠ [] := by
        intro h; rw [h] at hk; simp at hk
      have := List.dropLast_append_getLast hne
      rw [List.getLast?_eq_getLast _ hne] at hl
      simp only [Option.some.injEq] at hl
      rw [hl] at this
      exact this.symm
    have hnd := hwf.2.1
    rw [hsplit] at hnd
    have hnd2 := List.nodup_append.mp hnd
    refine ⟨hdead, ?_, ?_, ?_, hnd2.1, ?_, rfl⟩
    · intro j hj
      rw [get_row_put_row_ne _ _ _ _ hj]
      rfl
    · rw [get_row_put_row_eq _ _ _ (by exact hlt)]
      rfl
    · simp only [put_row, List.length_set]
      exact hlt
    · intro j hj
      refine ⟨?_, ?_⟩
      · intro hjk
        have := hnd2.2.2
        exact this hj (by rw [hjk]; simp)
      · rw [hsplit]
        exact List.mem_append_left _ hj

theorem frame_shrink {x : Nat} {P Q : Nat → Prop} {s t : model_based_opt} (h : frame x P s t)
    (hq : ∀ j, P j → ¬ Q j → (s.get_row j).m_alive = false ∧ cancelled x t j) :
    frame x Q s t := by
  refine ⟨h.1, ?_, ?_, h.2.2.2⟩
  · intro j hj ha
    by_cases hp : P j
    · have := (hq j hp hj).1
      rw [ha] at this
      simp at this
    · exact h.2.1 j hp ha
  · intro j hj hd
    by_cases hp : P j
    · exact (hq j hp hj).2
    · exact h.2.2.1 j hp hd

theorem row_absent_zero (r : row) (x : Nat) (h : ∀ t ∈ r.m_vars, t.m_id ≠ x) :
    r.get_coefficient x = 0 :=
  row_get_coefficient_absent r x h

/-- A fresh row filled by `set_row` with sorted terms. -/
theorem frame_new_set_row (x : Nat) (s : model_based_opt) (coeffs : List var) (c m : ℚ)
    (rel : ineq_type) (hwf : store_wf s) (hs : sorted_ids coeffs) :
    (s.get_row s.new_row.2).m_alive = false ∧
    frame x (fun j => j = s.new_row.2) s (s.new_row.1.set_row s.new_row.2 coeffs c m rel) ∧
    ((s.new_row.1.set_row s.new_row.2 coeffs c m rel).get_row s.new_row.2).m_vars = coeffs ∧
    ((s.new_row.1.set_row s.new_row.2 coeffs c m rel).get_row s.new_row.2).m_alive = true ∧
    (s.new_row.1.set_row s.new_row.2 coeffs c m rel).m_var2row_ids = s.m_var2row_ids := by
  obtain ⟨hdead, hother, hvars, hlt, hnd, hret, hint⟩ := new_row_spec s hwf
  have hrow : (s.new_row.1.set_row s.new_row.2 coeffs c m rel).get_row s.new_row.2 =
      { s.new_row.1.get_row s.new_row.2 with
        m_vars := sort_vars ((s.new_row.1.get_row s.new_row.2).m_vars ++ coeffs),
        m_alive := true,
        m_coeff := if (!coeffs.isEmpty && coeffs.all (fun v => s.new_row.1.is_int v.m_id))
            && rel = ineq_type.t_lt then c + 1 else c,
        m_value := if (!coeffs.isEmpty && coeffs.all (fun v => s.new_row.1.is_int v.m_id))
            && rel = ineq_type.t_lt
          then coeffs.foldl (fun val v => val + s.new_row.1.eval v.m_id * v.m_coeff) c + 1
          else coeffs.foldl (fun val v => val + s.new_row.1.eval v.m_id * v.m_coeff) c,
        m_type := if (!coeffs.isEmpty && coeffs.all (fun v => s.new_row.1.is_int v.m_id))
            && rel = ineq_type.t_lt then ineq_type.t_le else rel,
        m_mod := m } := by
    unfold set_row
    exact get_row_put_row_eq _ _ _ hlt
  have hne : ∀ j, j ≠ s.new_row.2 →
      (s.new_row.1.set_row s.new_row.2 coeffs c m rel).get_row j = s.get_row j := by
    intro j hj
    unfold set_row
    rw [get_row_put_row_ne _ _ _ _ hj]
    exact hother j hj
  have hv : ((s.new_row.1.set_row s.new_row.2 coeffs c m rel).get_row s.new_row.2).m_vars
      = coeffs := by
    rw [hrow]
    simp only [hvars, List.nil_append]
    exact sort_vars_eq coeffs hs
  have hal : ((s.new_row.1.set_row s.new_row.2 coeffs c m rel).get_row s.new_row.2).m_alive
      = true := by
    rw [hrow]
  have hlen : s.m_rows.length ≤ (s.new_row.1.set_row s.new_row.2 coeffs c m rel).m_rows.length := by
    unfold set_row put_row
    simp only [List.length_set]
    unfold new_row
    cases s.m_retired_rows.getLast? with
    | none => simp
    | some k => simp [put_row]
  have hretl : (s.new_row.1.set_row s.new_row.2 coeffs c m rel).m_retired_rows
      = s.new_row.1.m_retired_rows := by
    unfold set_row put_row
    rfl
  refine ⟨hdead, ⟨⟨?_, ?_, ?_⟩, ?_, ?_, ?_⟩, hv, hal, ?_⟩
  · intro j hj
    rw [hretl] at hj
    obtain ⟨h1, h2⟩ := hret j hj
    rw [hne j h1]
    exact ⟨(hwf.1 j h2).1, lt_of_lt_of_le (hwf.1 j h2).2 hlen⟩
  · rw [hretl]; exact hnd
  · intro j hj
    by_cases hjk : j = s.new_row.2
    · rw [hjk, hv]; exact hs
    · rw [hne j hjk] at hj ⊢
      exact hwf.2.2 j hj
  · intro j hj _
    exact hne j hj
  · intro j hj hd ha
    rw [hne j hj, hd] at ha
    simp at ha
  · unfold set_row put_row
    simp only
    exact hint
  · unfold set_row put_row
    simp only
    unfold new_row
    cases s.m_retired_rows.getLast? with
    | none => rfl
    | some k => rfl

/-! ### Added rows -/

theorem ids_normalize (s : model_based_opt) (j : Nat) :
    (s.normalize j).m_var2row_ids = s.m_var2row_ids := by
  rw [normalize_eq]
  unfold model_based_opt.mul retire_row put_row
  split_ifs <;> rfl

theorem row_ids_push_ne (s : model_based_opt) (v k x : Nat) (h : v ≠ x) :
    (s.push_row_id v k).row_ids x = s.row_ids x := by
  unfold push_row_id row_ids
  simp only
  exact getD_set_ne _ _ _ _ _ (Ne.symm h)

theorem row_ids_foldl_push (x k : Nat) (l : List var) (h : ∀ t ∈ l, t.m_id ≠ x)
    (s : model_based_opt) :
    (l.foldl (fun st v => st.push_row_id v.m_id k) s).row_ids x = s.row_ids x := by
  induction l generalizing s with
  | nil => rfl
  | cons a l ih =>
    rw [List.foldl_cons, ih (fun t ht => h t (List.mem_cons_of_mem _ ht))]
    exact row_ids_push_ne s a.m_id k x (h a (List.mem_cons_self _ _))

theorem foldl_push_var_fields (k : Nat) (l : List var) (s : model_based_opt) :
    (l.foldl (fun st v => st.push_row_id v.m_id k) s).m_rows = s.m_rows ∧
    (l.foldl (fun st v => st.push_row_id v.m_id k) s).m_retired_rows = s.m_retired_rows ∧
    (l.foldl (fun st v => st.push_row_id v.m_id k) s).m_var2is_int = s.m_var2is_int := by
  induction l generalizing s with
  | nil => exact ⟨rfl, rfl, rfl⟩
  | cons a l ih =>
    rw [List.foldl_cons]
    obtain ⟨h1, h2, h3⟩ := ih (s.push_row_id a.m_id k)
    exact ⟨h1, h2, h3⟩

theorem get_row_congr (s t : model_based_opt) (h : t.m_rows = s.m_rows) (j : Nat) :
    t.get_row j = s.get_row j := by
  unfold get_row
  rw [h]

/-- A constraint row without `x` changes no live row and adds no occurrence of `x`. -/
theorem frame_add_constraint5 (x : Nat) (s : model_based_opt) (coeffs : List var) (c m : ℚ)
    (rel : ineq_type) (id : Nat) (hwf : store_wf s) (hs : sorted_ids coeffs)
    (hx : ∀ t ∈ coeffs, t.m_id ≠ x) :
    frame x (fun _ => False) s (s.add_constraint5 coeffs c m rel id).1 ∧
    (s.add_constraint5 coeffs c m rel id).1.row_ids x = s.row_ids x := by
  unfold add_constraint5
  dsimp only
  split
  · exact ⟨frame_refl x _ s hwf, rfl⟩
  · obtain ⟨hdead, hf1, hv1, hal1, hids1⟩ := frame_new_set_row x s coeffs c m rel hwf hs
    generalize s.new_row.1.set_row s.new_row.2 coeffs c m rel = t1 at hf1 hv1 hal1 hids1
    generalize s.new_row.2 = k at hdead hf1 hv1 hal1
    have hlt1 := alive_lt_length t1 k hal1
    have hf2 : frame x (fun j => j = k) t1 (t1.put_row k { t1.get_row k with m_id := id }) :=
      frame_put_row x t1 k _ hf1.1 hal1 (by simp only [hv1]; exact hs)
    have hr2 : (t1.put_row k { t1.get_row k with m_id := id }).get_row k =
        { t1.get_row k with m_id := id } := get_row_put_row_eq _ _ _ hlt1
    have hids2 : (t1.put_row k { t1.get_row k with m_id := id }).m_var2row_ids =
        t1.m_var2row_ids := rfl
    generalize t1.put_row k { t1.get_row k with m_id := id } = t2 at hf2 hr2 hids2
    obtain ⟨g1, g2, g3⟩ := foldl_push_var_fields k coeffs t2
    have hf3 : frame x (fun j => j = k) t2
        (coeffs.foldl (fun st v => st.push_row_id v.m_id k) t2) :=
      frame_of_rows x _ t2 _ hf2.1 g1 g2 g3
    have hr3 : (coeffs.foldl (fun st v => st.push_row_id v.m_id k) t2).get_row k =
        { t1.get_row k with m_id := id } := by
      rw [get_row_congr _ _ g1, hr2]
    have hz3 : cancelled x (coeffs.foldl (fun st v => st.push_row_id v.m_id k) t2) k := by
      intro _
      unfold model_based_opt.get_coefficient
      rw [hr3]
      apply row_get_coefficient_absent
      simp only [hv1]
      exact hx
    have hf4 := frame_normalize x _ k hf3.1
    have hz4 := cancelled_normalize x _ k hf3.1 hz3
    refine ⟨frame_shrink (frame_trans (frame_trans (frame_trans hf1 hf2) hf3) hf4) ?_, ?_⟩
    · intro j hj _
      rw [hj]
      exact ⟨hdead, hz4⟩
    · have e1 : ∀ u : model_based_opt, (u.normalize k).row_ids x = u.row_ids x := by
        intro u
        unfold row_ids
        rw [ids_normalize]
      rw [e1, row_ids_foldl_push x k coeffs hx]
      unfold row_ids
      rw [hids2, hids1]

theorem sorted_ids_filter (l : List var) (p : var → Bool) (h : sorted_ids l) :
    sorted_ids (l.filter p) := by
  unfold sorted_ids List.Sorted at h ⊢
  rw [List.pairwise_map] at h ⊢
  exact h.sublist (List.filter_sublist l)

theorem mk_coeffs_without_spec (l : List var) (x : Nat) (h : sorted_ids l) :
    sorted_ids (mk_coeffs_without l x) ∧ ∀ t ∈ mk_coeffs_without l x, t.m_id ≠ x := by
  unfold mk_coeffs_without
  refine ⟨sorted_ids_filter l _ h, ?_⟩
  intro t ht
  have := (List.mem_filter.mp ht).2
  simpa using this

theorem frame_add_divides (x : Nat) (s : model_based_opt) (coeffs : List var) (c m : ℚ)
    (hwf : store_wf s) (hs : sorted_ids coeffs) (hx : ∀ t ∈ coeffs, t.m_id ≠ x) :
    frame x (fun _ => False) s (s.add_divides coeffs c m) ∧
    (s.add_divides coeffs c m).row_ids x = s.row_ids x := by
  unfold add_divides
  dsimp only
  split
  · exact ⟨frame_refl x _ s hwf, rfl⟩
  · exact frame_add_constraint5 x s coeffs c m _ 0 hwf hs hx

/-! ### Cancellation of a variable in a destination row -/

theorem dst_state_start (x t : Nat) (s : model_based_opt) (hwf : store_wf s)
    (hal : (s.get_row t).m_alive = true) : dst_state x t (s.get_coefficient t x) s s :=
  ⟨frame_refl x _ s hwf, hal, rfl⟩

theorem dst_state_frame {x t : Nat} {a : ℚ} {s0 s u : model_based_opt}
    (h : dst_state x t a s0 s) (hf : frame x (fun _ => False) s u) :
    dst_state x t a s0 u := by
  have e := hf.2.1 t (fun h => h) h.2.1
  refine ⟨frame_trans h.1 (frame_mono hf (fun _ h => h.elim)), ?_, ?_⟩
  · rw [e]; exact h.2.1
  · unfold model_based_opt.get_coefficient
    rw [e]
    exact h.2.2

theorem dst_state_mul {x t : Nat} {a : ℚ} {s0 s : model_based_opt}
    (h : dst_state x t a s0 s) (c : ℚ) : dst_state x t (a * c) s0 (s.mul t c) := by
  have hlt := alive_lt_length s t h.2.1
  have hsp := mul_row_spec s t c hlt (h.1.1.2.2 t h.2.1)
  refine ⟨frame_trans h.1 (frame_mul x s t c h.1.1 h.2.1), ?_, ?_⟩
  · rw [hsp.2.2.2.2.1]; exact h.2.1
  · rw [hsp.2.1 x, h.2.2]

theorem dst_state_add {x t : Nat} {a : ℚ} {s0 s : model_based_opt}
    (h : dst_state x t a s0 s) (c : ℚ) : dst_state x t a s0 (s.add t c) := by
  have hlt := alive_lt_length s t h.2.1
  have hr : (s.add t c).get_row t =
      { s.get_row t with m_coeff := (s.get_row t).m_coeff + c,
                         m_value := (s.get_row t).m_value + c } := by
    unfold model_based_opt.add
    exact get_row_put_row_eq _ _ _ hlt
  refine ⟨frame_trans h.1 (frame_add x s t c h.1.1 h.2.1), ?_, ?_⟩
  · rw [hr]; exact h.2.1
  · have := h.2.2
    unfold model_based_opt.get_coefficient row.get_coefficient at this ⊢
    rw [hr]
    exact this

theorem dst_state_mul_add {x t : Nat} {a : ℚ} {s0 s : model_based_opt}
    (h : dst_state x t a s0 s) (b : Bool) (c : ℚ) (src : Nat) (hne : src ≠ t)
    (hsrc : (s0.get_row src).m_alive = true) :
    dst_state x t (a + c * s0.get_coefficient src x) s0 (s.mul_add b t c src) := by
  have hlt := alive_lt_length s t h.2.1
  have e := h.1.2.1 src hne hsrc
  have hsal : (s.get_row src).m_alive = true := by rw [e]; exact hsrc
  have hsp := mul_add_row_spec s b t c src hlt (h.1.1.2.2 t h.2.1) (h.1.1.2.2 src hsal)
  refine ⟨frame_trans h.1 (frame_mul_add x s b t c src h.1.1 h.2.1 (h.1.1.2.2 src hsal)),
    ?_, ?_⟩
  · rw [hsp.2.2.2.2.1]; exact h.2.1
  · rw [hsp.2.1 x, h.2.2]
    unfold model_based_opt.get_coefficient
    rw [e]

theorem dst_state_normalize {x t : Nat} {s0 s : model_based_opt}
    (h : dst_state x t 0 s0 s) :
    frame x (fun j => j = t) s0 (s.normalize t) ∧ cancelled x (s.normalize t) t :=
  ⟨frame_trans h.1 (frame_normalize x s t h.1.1),
    cancelled_normalize x s t h.1.1 (fun _ => h.2.2)⟩

theorem dst_state_done {x t : Nat} {s0 s : model_based_opt}
    (h : dst_state x t 0 s0 s) :
    frame x (fun j => j = t) s0 s ∧ cancelled x s t :=
  ⟨h.1, fun _ => h.2.2⟩

theorem dst_state_cast {x t : Nat} {a b : ℚ} {s0 s : model_based_opt}
    (h : dst_state x t a s0 s) (hab : a = b) : dst_state x t b s0 s := hab ▸ h

/-! ### The resolution steps cancel the variable -/

theorem abs_cancel_diff (a1 a2 : ℚ) (h : (decide (0 < a1) != decide (0 < a2)) = true) :
    a2 * |a1| + |a2| * a1 = 0 := by
  by_cases h1 : 0 < a1 <;> by_cases h2 : 0 < a2 <;> simp [h1, h2] at h
  · rw [abs_of_pos h1, abs_of_nonpos (le_of_not_lt h2)]; ring
  · rw [abs_of_nonpos (le_of_not_lt h1), abs_of_pos h2]; ring

theorem abs_cancel_same (a1 a2 : ℚ) (h : ¬ (decide (0 < a1) != decide (0 < a2)) = true) :
    a2 * |a1| + -|a2| * a1 = 0 := by
  by_cases h1 : 0 < a1 <;> by_cases h2 : 0 < a2 <;> simp [h1, h2] at h
  · rw [abs_of_pos h1, abs_of_pos h2]; ring
  · rw [abs_of_nonpos (le_of_not_lt h1), abs_of_nonpos (le_of_not_lt h2)]; ring

theorem n_sign_cancel_dst (a1 a2 : ℚ) : a2 * (a1 * n_sign a2) + |a2| * a1 = 0 := by
  unfold n_sign
  by_cases h2 : 0 < a2
  · rw [if_pos h2, abs_of_pos h2]; ring
  · rw [if_neg h2, abs_of_nonpos (le_of_not_lt h2)]; ring

theorem n_sign_cancel_src (a1 a2 : ℚ) : a2 * |a1| + a2 * n_sign a1 * a1 = 0 := by
  unfold n_sign
  by_cases h1 : 0 < a1
  · rw [if_pos h1, abs_of_pos h1]; ring
  · rw [if_neg h1, abs_of_nonpos (le_of_not_lt h1)]; ring

/-- Integer resolution of rows of opposite sign cancels `x` in the destination row. -/
theorem mul_add_int_state (x : Nat) (s : model_based_opt) (src dst : Nat) (hwf : store_wf s)
    (hsrc : (s.get_row src).m_alive = true) (hdst : (s.get_row dst).m_alive = true)
    (hne : src ≠ dst)
    (hsign : (decide (0 < s.get_coefficient src x) != decide (0 < s.get_coefficient dst x))
      = true) :
    dst_state x dst 0 s
      (s.mul_add_int x (s.get_coefficient src x) src (s.get_coefficient dst x) dst) := by
  have h0 := dst_state_start x dst s hwf hdst
  unfold mul_add_int
  dsimp only
  split
  · exact dst_state_cast
      (dst_state_mul_add (dst_state_add (dst_state_mul h0 _) _) false _ src hne hsrc)
      (abs_cancel_diff _ _ hsign)
  · split
    · rename_i h
      simp at h
    · split
      · have hc := mk_coeffs_without_spec (s.get_row dst).m_vars x (hwf.2.2 dst hdst)
        have hf := (frame_add_divides x s _
          ((s.get_row dst).m_coeff +
            if mod ((s.get_row dst).m_value - s.eval x * s.get_coefficient dst x)
                |s.get_coefficient dst x| ≠ 0
            then |s.get_coefficient dst x| -
              mod ((s.get_row dst).m_value - s.eval x * s.get_coefficient dst x)
                |s.get_coefficient dst x|
            else mod ((s.get_row dst).m_value - s.eval x * s.get_coefficient dst x)
                |s.get_coefficient dst x|)
          |s.get_coefficient dst x| hwf hc.1 hc.2).1
        exact dst_state_cast
          (dst_state_mul_add (dst_state_mul (dst_state_add (dst_state_frame h0 hf) _) _)
            false _ src hne hsrc)
          (n_sign_cancel_dst _ _)
      · have hc := mk_coeffs_without_spec (s.get_row src).m_vars x (hwf.2.2 src hsrc)
        have hf := (frame_add_divides x s _
          ((s.get_row src).m_coeff +
            if mod ((s.get_row src).m_value - s.eval x * s.get_coefficient src x)
                |s.get_coefficient src x| ≠ 0
            then |s.get_coefficient src x| -
              mod ((s.get_row src).m_value - s.eval x * s.get_coefficient src x)
                |s.get_coefficient src x|
            else mod ((s.get_row src).m_value - s.eval x * s.get_coefficient src x)
                |s.get_coefficient src x|)
          |s.get_coefficient src x| hwf hc.1 hc.2).1
        exact dst_state_cast
          (dst_state_mul_add (dst_state_add (dst_state_mul (dst_state_frame h0 hf) _) _)
            false _ src hne hsrc)
          (n_sign_cancel_src _ _)

/-- One call of `resolve` cancels `x` in the destination row and changes no other live
row. -/
theorem resolve_step (x : Nat) (s : model_based_opt) (src dst : Nat) (hwf : store_wf s)
    (hsrc : (s.get_row src).m_alive = true) (hne : src ≠ dst)
    (ha1 : s.get_coefficient src x ≠ 0)
    (hty : (s.get_row src).m_type ≠ ineq_type.t_eq) :
    frame x (fun j => j = dst) s (s.resolve src (s.get_coefficient src x) dst x) ∧
    cancelled x (s.resolve src (s.get_coefficient src x) dst x) dst := by
  unfold resolve
  by_cases hdst : (s.get_row dst).m_alive = true
  · rw [if_pos hdst]
    dsimp only
    have h0 := dst_state_start x dst s hwf hdst
    split
    · apply dst_state_normalize
      split
      · rename_i hc
        simp only [hty, decide_False, Bool.or_false] at hc
        exact mul_add_int_state x s src dst hwf hsrc hdst hne hc
      · rename_i hc
        simp only [hty, decide_False, Bool.or_false] at hc
        exact dst_state_cast (dst_state_mul_add (dst_state_mul h0 _) false _ src hne hsrc)
          (abs_cancel_same _ _ hc)
    · apply dst_state_done
      refine dst_state_cast (dst_state_mul_add h0 _ _ src hne hsrc) ?_
      field_simp
  · rw [if_neg hdst]
    refine ⟨frame_refl x _ s hwf, ?_⟩
    intro h
    exact absurd h hdst

/-- One call of `solve` cancels `x` in the destination row and changes no other live
row. -/
theorem solve_step (x : Nat) (s : model_based_opt) (src dst : Nat) (hwf : store_wf s)
    (hsrc : (s.get_row src).m_alive = true) (hne : src ≠ dst) :
    frame x (fun j => j = dst) s (s.solve src (s.get_coefficient src x) dst x) ∧
    cancelled x (s.solve src (s.get_coefficient src x) dst x) dst := by
  unfold solve
  by_cases hdst : (s.get_row dst).m_alive = true
  · simp only [hdst, Bool.not_true, Bool.false_eq_true, if_false]
    have h0 := dst_state_start x dst s hwf hdst
    apply dst_state_normalize
    refine dst_state_cast (dst_state_mul_add (dst_state_mul h0 _) false _ src hne hsrc) ?_
    ring
  · have hd := dead_of_not_alive _ hdst
    simp only [hd, Bool.not_false, if_true]
    refine ⟨frame_refl x _ s hwf, ?_⟩
    intro h
    exact absurd h hdst

/-! ### Loops of resolution steps -/

/-- A loop whose step on `t` cancels `x` in row `t` (when `Q t`) and changes no other live
row, while the source row `src` stays as it is. -/
theorem fold_frame (x src : Nat) (r0 : row) (hr0 : r0.m_alive = true)
    (f : model_based_opt → Nat → model_based_opt) (Q : Nat → Prop) (hQ : ¬ Q src)
    (l : List Nat)
    (hstep : ∀ s, ∀ t ∈ l, store_wf s → s.get_row src = r0 →
      frame x (fun j => j = t ∧ Q t) s (f s t) ∧ (Q t → cancelled x (f s t) t))
    (s : model_based_opt) (hwf : store_wf s) (hsrc : s.get_row src = r0) :
    frame x (fun j => j ∈ l ∧ Q j) s (l.foldl f s) ∧
    (∀ t ∈ l, Q t → cancelled x (l.foldl f s) t) ∧ (l.foldl f s).get_row src = r0 := by
  induction l generalizing s with
  | nil =>
    exact ⟨frame_refl x _ s hwf, fun t ht => absurd ht (List.not_mem_nil t), hsrc⟩
  | cons a l ih =>
    rw [List.foldl_cons]
    obtain ⟨F1, C1⟩ := hstep s a (List.mem_cons_self _ _) hwf hsrc
    have hsrc1 : (f s a).get_row src = r0 := by
      rw [F1.2.1 src (fun h => hQ (h.1 ▸ h.2)) (by rw [hsrc]; exact hr0)]
      exact hsrc
    obtain ⟨F2, C2, S2⟩ := ih (fun s t ht => hstep s t (List.mem_cons_of_mem _ ht))
      (f s a) F1.1 hsrc1
    refine ⟨frame_trans (frame_mono F1 ?_) (frame_mono F2 ?_), ?_, S2⟩
    · intro j hj
      exact ⟨hj.1 ▸ List.mem_cons_self _ _, hj.1 ▸ hj.2⟩
    · intro j hj
      exact ⟨List.mem_cons_of_mem _ hj.1, hj.2⟩
    · intro t ht hq
      by_cases htl : t ∈ l
      · exact C2 t htl hq
      · have hta : t = a := by
          rcases List.mem_cons.mp ht with h | h
          · exact h
          · exact absurd h htl
        subst hta
        exact frame_cancelled F2 t (fun h => htl h.1) (C1 hq)

theorem open_rows_frame {x : Nat} {P : Nat → Prop} {l V W : List Nat}
    {s t : model_based_opt}
    (h : open_rows x l V s) (hf : frame x P s t)
    (hp : ∀ j, P j → j ∈ W ∨ cancelled x t j) (hvw : ∀ j ∈ V, j ∈ W) :
    open_rows x l W t := by
  intro j hjl hj hal hco
  by_cases hpj : P j
  · rcases hp j hpj with h1 | h1
    · exact absurd h1 hj
    · exact absurd (h1 hal) hco
  · by_cases hs : (s.get_row j).m_alive = true
    · have e := hf.2.1 j hpj hs
      unfold model_based_opt.get_coefficient at hco
      rw [e] at hco ⊢
      exact h j hjl (fun hv => hj (hvw j hv)) hs hco
    · exact absurd (hf.2.2.1 j hpj (dead_of_not_alive _ hs) hal) hco

theorem solve_for_step_frame (x src : Nat) (l : List Nat) (r0 : row)
    (hr0 : r0.m_alive = true)
    (p : model_based_opt × List Nat) (t : Nat) (htl : t ∈ l) (h : solve_for_inv x src l r0 p) :
    frame x (fun j => j = t ∧ j ≠ src) p.1 (solve_for_step src (r0.get_coefficient x) x p t).1 ∧
    solve_for_inv x src l r0 (solve_for_step src (r0.get_coefficient x) x p t) ∧
    t ∈ (solve_for_step src (r0.get_coefficient x) x p t).2 ∧
    ∀ j ∈ p.2, j ∈ (solve_for_step src (r0.get_coefficient x) x p t).2 := by
  obtain ⟨hwf, hsrc, hv, hop, hcan⟩ := h
  unfold solve_for_step
  by_cases hb : p.2.contains t = true
  · rw [if_pos hb]
    exact ⟨frame_refl x _ _ hwf, ⟨hwf, hsrc, hv, hop, hcan⟩, (contains_iff _ _).mp hb,
      fun j hj => hj⟩
  · rw [if_neg hb]
    have htv : t ∉ p.2 := fun h => hb ((contains_iff _ _).mpr h)
    have hts : src ≠ t := fun h => htv (h ▸ hv)
    have hmem : ∀ j ∈ p.2, j ∈ p.2 ++ [t] := fun j hj => List.mem_append_left _ hj
    have ht : t ∈ p.2 ++ [t] := by simp
    have hsame : cancelled x p.1 t →
        frame x (fun j => j = t ∧ j ≠ src) p.1 p.1 ∧
        solve_for_inv x src l r0 (p.1, p.2 ++ [t]) ∧ t ∈ p.2 ++ [t] ∧
        ∀ j ∈ p.2, j ∈ p.2 ++ [t] := by
      intro hz
      refine ⟨frame_refl x _ _ hwf, ⟨hwf, hsrc, hmem _ hv, ?_, ?_⟩, ht, hmem⟩
      · intro j hjl hj
        exact hop j hjl (fun h => hj (hmem j h))
      · intro j hj hjs
        rcases List.mem_append.mp hj with h1 | h1
        · exact hcan j h1 hjs
        · simp at h1
          rw [h1]
          exact hz
    have hsolve :
        frame x (fun j => j = t ∧ j ≠ src) p.1 (p.1.solve src (r0.get_coefficient x) t x) ∧
        solve_for_inv x src l r0 (p.1.solve src (r0.get_coefficient x) t x, p.2 ++ [t]) ∧
        t ∈ p.2 ++ [t] ∧ ∀ j ∈ p.2, j ∈ p.2 ++ [t] := by
      have ha : r0.get_coefficient x = p.1.get_coefficient src x := by
        unfold model_based_opt.get_coefficient
        rw [hsrc]
      rw [ha]
      obtain ⟨F, C⟩ := solve_step x p.1 src t hwf (by rw [hsrc]; exact hr0) hts
      refine ⟨frame_mono F (fun j hj => ⟨hj, fun h => hts (h ▸ hj)⟩),
        ⟨F.1, ?_, hmem _ hv, ?_, ?_⟩, ht, hmem⟩
      · rw [F.2.1 src hts (by rw [hsrc]; exact hr0)]
        exact hsrc
      · exact open_rows_frame hop F (fun j hj => Or.inl (by rw [hj]; exact ht)) hmem
      · intro j hj hjs
        rcases List.mem_append.mp hj with h1 | h1
        · by_cases hjt : j = t
          · rw [hjt]; exact C
          · exact frame_cancelled F j hjt (hcan j h1 hjs)
        · simp at h1
          rw [h1]
          exact C
    dsimp only
    by_cases hal : (p.1.get_row t).m_alive = true
    · simp only [hal, Bool.not_true, Bool.false_eq_true, if_false]
      by_cases hco : p.1.get_coefficient t x = 0
      · rw [if_pos hco]
        exact hsame (fun _ => hco)
      · rw [if_neg hco]
        rcases hop t htl htv hal hco with hty | hty | hty
        · simp only [hty]; exact hsolve
        · simp only [hty]; exact hsolve
        · simp only [hty]; exact hsolve
    · have hd := dead_of_not_alive _ hal
      simp only [hd, Bool.not_false, if_true]
      exact hsame (fun h => absurd h hal)

theorem solve_for_fold_frame (x src : Nat) (l0 : List Nat) (r0 : row)
    (hr0 : r0.m_alive = true)
    (l : List Nat) (hl : ∀ t ∈ l, t ∈ l0) (p : model_based_opt × List Nat)
    (h : solve_for_inv x src l0 r0 p) :
    frame x (fun j => j ∈ l ∧ j ≠ src) p.1
      (l.foldl (solve_for_step src (r0.get_coefficient x) x) p).1 ∧
    solve_for_inv x src l0 r0 (l.foldl (solve_for_step src (r0.get_coefficient x) x) p) ∧
    (∀ t ∈ l, t ∈ (l.foldl (solve_for_step src (r0.get_coefficient x) x) p).2) ∧
    ∀ j ∈ p.2, j ∈ (l.foldl (solve_for_step src (r0.get_coefficient x) x) p).2 := by
  induction l generalizing p with
  | nil =>
    exact ⟨frame_refl x _ _ h.1, h, fun t ht => absurd ht (List.not_mem_nil t), fun j hj => hj⟩
  | cons a l ih =>
    rw [List.foldl_cons]
    obtain ⟨F1, I1, M1, S1⟩ :=
      solve_for_step_frame x src l0 r0 hr0 p a (hl a (List.mem_cons_self _ _)) h
    obtain ⟨F2, I2, M2, S2⟩ := ih (fun t ht => hl t (List.mem_cons_of_mem _ ht))
      (solve_for_step src (r0.get_coefficient x) x p a) I1
    refine ⟨frame_trans (frame_mono F1 ?_) (frame_mono F2 ?_), I2, ?_, fun j hj => S2 j (S1 j hj)⟩
    · intro j hj
      exact ⟨hj.1 ▸ List.mem_cons_self _ _, hj.2⟩
    · intro j hj
      exact ⟨List.mem_cons_of_mem _ hj.1, hj.2⟩
    · intro t ht
      rcases List.mem_cons.mp ht with h1 | h1
      · rw [h1]; exact S2 a M1
      · exact M2 t h1

/-! ### Elimination by `solve_for` -/

theorem sorted_ids_map_neg (l : List var) (h : sorted_ids l) :
    sorted_ids (l.map (fun v => (⟨v.m_id, -v.m_coeff⟩ : var))) := by
  unfold sorted_ids at h ⊢
  simpa [List.map_map, Function.comp] using h

theorem coeff_of_map_neg (l : List var) (v : Nat) :
    coeff_of (l.map (fun t => (⟨t.m_id, -t.m_coeff⟩ : var))) v = -coeff_of l v := by
  induction l with
  | nil => simp [coeff_of_nil]
  | cons a l ih =>
    rw [List.map_cons, coeff_of_cons, coeff_of_cons]
    by_cases h : a.m_id = v
    · simp [h]
    · simp only [h, if_false]
      exact ih

theorem get_coefficient_neg (r : row) (x : Nat) (hs : sorted_ids r.m_vars) :
    r.neg.get_coefficient x = -r.get_coefficient x := by
  rw [row_get_coefficient_eq r x hs, row_get_coefficient_eq r.neg x (sorted_ids_map_neg _ hs)]
  exact coeff_of_map_neg _ _

theorem row_get_coefficient_congr (r r2 : row) (x : Nat) (h : r2.m_vars = r.m_vars) :
    r2.get_coefficient x = r.get_coefficient x := by
  unfold row.get_coefficient
  rw [h]

theorem cancelled_retire (x : Nat) (s : model_based_opt) (i j : Nat)
    (hal : (s.get_row i).m_alive = true) (h : j ≠ i → cancelled x s j) :
    cancelled x (s.retire_row i) j := by
  by_cases hji : j = i
  · intro ha
    rw [hji, (get_row_retire_row s i (alive_lt_length s i hal)).1] at ha
    simp at ha
  · have e := (same_except_retire_row s i).1 j hji
    intro ha
    unfold model_based_opt.get_coefficient
    rw [e] at ha ⊢
    exact h hji ha

theorem cancelled_set_value (x : Nat) (s : model_based_opt) (y : Nat) (v : ℚ) (j : Nat)
    (h : cancelled x s j) : cancelled x (s.set_value y v) j := h

theorem solve_for_fold_cancelled (x i : Nat) (a : ℚ) (s s1 : model_based_opt) (r0 : row)
    (hr0 : r0.m_alive = true) (ha : r0.get_coefficient x = a)
    (hinv : solve_for_inv x i (s.row_ids x) r0 (s1, [i])) (hf : frame x (fun j => j = i) s s1)
    (hids : s1.row_ids x = s.row_ids x) (j : Nat)
    (hj : (s.get_row j).m_alive = true → s.get_coefficient j x ≠ 0 →
      j ∈ s.row_ids x ∨ j = i) :
    ((((s1.row_ids x).foldl (solve_for_step i a x) (s1, [i])).1).get_row i).m_alive = true ∧
    (j ≠ i → cancelled x (((s1.row_ids x).foldl (solve_for_step i a x) (s1, [i])).1) j) := by
  subst ha
  obtain ⟨F, I, M, -⟩ := solve_for_fold_frame x i (s.row_ids x) r0 hr0 (s1.row_ids x)
    (fun t ht => hids ▸ ht) (s1, [i]) hinv
  refine ⟨by rw [I.2.1]; exact hr0, ?_⟩
  intro hji
  by_cases hjl : j ∈ s1.row_ids x
  · exact I.2.2.2.2 j (M j hjl) hji
  · have F2 : frame x (fun j => j = i ∨ j ∈ s1.row_ids x) s
        (((s1.row_ids x).foldl (solve_for_step i (r0.get_coefficient x) x) (s1, [i])).1) :=
      frame_trans (frame_mono hf (fun _ h => Or.inl h)) (frame_mono F (fun _ h => Or.inr h.1))
    refine frame_cancelled F2 j (fun h => h.elim hji hjl) ?_
    intro hal
    by_contra hco
    rcases hj hal hco with h | h
    · rw [hids] at hjl
      exact hjl h
    · exact hji h

/-- After `solve_for(i, x, compute_def)` a row is dead or without `x`, if before the call
it was dead, without `x`, the pivot row `i`, or listed in the row index of `x`. -/
theorem solve_for_eliminates (x : Nat) (s : model_based_opt) (i : Nat) (cd : Bool)
    (hwf : store_wf s) (hal : (s.get_row i).m_alive = true)
    (hop : open_rows x (s.row_ids x) [i] s)
    (j : Nat)
    (hj : (s.get_row j).m_alive = true → s.get_coefficient j x ≠ 0 →
      j ∈ s.row_ids x ∨ j = i) :
    cancelled x (s.solve_for i x cd).1 j := by
  have hlt := alive_lt_length s i hal
  have hso := hwf.2.2 i hal
  -- the sign-normalised pivot row
  obtain ⟨r1, hr1⟩ : ∃ r1, r1 = (if s.get_coefficient i x < 0 then (s.get_row i).neg
      else s.get_row i) := ⟨_, rfl⟩
  obtain ⟨a, ha⟩ : ∃ a, a = (if s.get_coefficient i x < 0 then -s.get_coefficient i x
      else s.get_coefficient i x) := ⟨_, rfl⟩
  have f1 : r1.m_alive = true := by
    rw [hr1]; split <;> simp [row.neg, hal]
  have f2 : sorted_ids r1.m_vars := by
    rw [hr1]; split
    · exact sorted_ids_map_neg _ hso
    · exact hso
  have f3 : r1.get_coefficient x = a := by
    rw [hr1, ha]; split
    · exact get_coefficient_neg _ _ hso
    · rfl
  have prep : ∀ r : row, r.m_alive = true → r.m_vars = r1.m_vars →
      solve_for_inv x i (s.row_ids x) r (s.put_row i r, [i]) ∧ frame x (fun j => j = i) s (s.put_row i r) ∧
      (s.put_row i r).row_ids x = s.row_ids x ∧ r.get_coefficient x = a := by
    intro r h1 h2
    have F := frame_put_row x s i r hwf hal (by rw [h2]; exact f2)
    refine ⟨⟨F.1, get_row_put_row_eq s i r hlt, by simp, ?_, ?_⟩, F, rfl, ?_⟩
    · exact open_rows_frame hop F (fun j hj => Or.inl (by rw [hj]; simp)) (fun j hj => hj)
    · intro j hj hji
      simp at hj
      exact absurd hj hji
    · rw [row_get_coefficient_congr r1 r x h2]; exact f3
  have prep2 : ∀ (r : row) (c m : ℚ), r.m_alive = true → r.m_vars = r1.m_vars →
      solve_for_inv x i (s.row_ids x) r
        ((s.put_row i r).add_divides (mk_coeffs_without r.m_vars x) c m, [i]) ∧
      frame x (fun j => j = i) s
        ((s.put_row i r).add_divides (mk_coeffs_without r.m_vars x) c m) ∧
      ((s.put_row i r).add_divides (mk_coeffs_without r.m_vars x) c m).row_ids x
        = s.row_ids x ∧ r.get_coefficient x = a := by
    intro r c m h1 h2
    obtain ⟨I, F, hid, hco⟩ := prep r h1 h2
    have hc := mk_coeffs_without_spec r.m_vars x (by rw [h2]; exact f2)
    obtain ⟨G, gid⟩ := frame_add_divides x (s.put_row i r) _ c m I.1 hc.1 hc.2
    have hri : ((s.put_row i r).get_row i).m_alive = true := by rw [I.2.1]; exact h1
    refine ⟨⟨G.1, ?_, by simp, ?_, ?_⟩, frame_trans F (frame_mono G (fun _ h => h.elim)),
      gid.trans hid, hco⟩
    · rw [G.2.1 i (fun h => h) hri]
      exact I.2.1
    · exact open_rows_frame I.2.2.2.1 G (fun j hj => hj.elim) (fun j hj => hj)
    · intro j hj hji
      simp at hj
      exact absurd hj hji
  have tail : ∀ (s1 : model_based_opt),
      (∃ r : row, r.m_alive = true ∧ (solve_for_inv x i (s.row_ids x) r (s1, [i]) ∧
        frame x (fun j => j = i) s s1 ∧ s1.row_ids x = s.row_ids x ∧
        r.get_coefficient x = a)) →
      ∀ v : model_based_opt → ℚ,
      cancelled x
        (((((s1.row_ids x).foldl (solve_for_step i a x) (s1, [i])).1).set_value x
          (v (((s1.row_ids x).foldl (solve_for_step i a x) (s1, [i])).1))).retire_row i) j ∧
      cancelled x
        ((((s1.row_ids x).foldl (solve_for_step i a x) (s1, [i])).1).retire_row i) j := by
    intro s1 h v
    obtain ⟨r, h1, h⟩ := h
    obtain ⟨hA, hB⟩ := solve_for_fold_cancelled x i a s s1 r h1 h.2.2.2 h.1 h.2.1 h.2.2.1 j hj
    exact ⟨cancelled_retire x _ i j hA (fun hji => cancelled_set_value x _ x _ j (hB hji)),
      cancelled_retire x _ i j hA hB⟩
  unfold solve_for
  simp only [← hr1, ← ha]
  cases cd
  · by_cases hint : (s.is_int x && !decide (a = 1)) = true
    · by_cases htl : (s.get_row i).m_type = ineq_type.t_lt
      · simp only [hint, htl, if_true, if_false, Bool.false_eq_true]
        refine (tail _ ?_ (fun _ => 0)).2
        refine ⟨_, ?_, prep2 _ _ _ ?_ ?_⟩
        · exact f1
        · exact f1
        · rfl
      · simp only [hint, htl, if_true, if_false, Bool.false_eq_true]
        refine (tail _ ?_ (fun _ => 0)).2
        refine ⟨_, ?_, prep2 _ _ _ ?_ ?_⟩
        · exact f1
        · exact f1
        · rfl
    · by_cases htl : (s.get_row i).m_type = ineq_type.t_lt
      · simp only [hint, htl, if_true, if_false, Bool.false_eq_true]
        refine (tail _ ?_ (fun _ => 0)).2
        refine ⟨_, ?_, prep _ ?_ ?_⟩
        · exact f1
        · exact f1
        · rfl
      · simp only [hint, htl, if_true, if_false, Bool.false_eq_true]
        refine (tail _ ?_ (fun _ => 0)).2
        refine ⟨_, ?_, prep _ ?_ ?_⟩
        · exact f1
        · exact f1
        · rfl
  · by_cases hint : (s.is_int x && !decide (a = 1)) = true
    · by_cases htl : (s.get_row i).m_type = ineq_type.t_lt
      · simp only [hint, htl, if_true, if_false, Bool.false_eq_true]
        refine (tail _ ?_ (fun S => S.eval_def (def_.from_row (S.get_row i) x))).1
        refine ⟨_, ?_, prep2 _ _ _ ?_ ?_⟩
        · exact f1
        · exact f1
        · rfl
      · simp only [hint, htl, if_true, if_false, Bool.false_eq_true]
        refine (tail _ ?_ (fun S => S.eval_def (def_.from_row (S.get_row i) x))).1
        refine ⟨_, ?_, prep2 _ _ _ ?_ ?_⟩
        · exact f1
        · exact f1
        · rfl
    · by_cases htl : (s.get_row i).m_type = ineq_type.t_lt
      · simp only [hint, htl, if_true, if_false, Bool.false_eq_true]
        refine (tail _ ?_ (fun S => S.eval_def (def_.from_row (S.get_row i) x))).1
        refine ⟨_, ?_, prep _ ?_ ?_⟩
        · exact f1
        · exact f1
        · rfl
      · simp only [hint, htl, if_true, if_false, Bool.false_eq_true]
        refine (tail _ ?_ (fun S => S.eval_def (def_.from_row (S.get_row i) x))).1
        refine ⟨_, ?_, prep _ ?_ ?_⟩
        · exact f1
        · exact f1
        · rfl

/-! ### The loops of `project` -/

/-- A loop whose step on `t` cancels `x` in row `t` (when `Q t`) and changes no other live
row, while the rows of `K` stay as they are in `s0`. -/
theorem fold_frame_keep (x : Nat) (K : Nat → Prop) (s0 : model_based_opt)
    (hK : ∀ k, K k → (s0.get_row k).m_alive = true)
    (f : model_based_opt → Nat → model_based_opt) (Q : Nat → Prop) (hQ : ∀ k, K k → ¬ Q k)
    (l : List Nat)
    (hstep : ∀ s, ∀ t ∈ l, store_wf s → (∀ k, K k → s.get_row k = s0.get_row k) →
      frame x (fun j => j = t ∧ Q t) s (f s t) ∧ (Q t → cancelled x (f s t) t))
    (s : model_based_opt) (hwf : store_wf s) (hs : ∀ k, K k → s.get_row k = s0.get_row k) :
    frame x (fun j => j ∈ l ∧ Q j) s (l.foldl f s) ∧
    (∀ t ∈ l, Q t → cancelled x (l.foldl f s) t) := by
  induction l generalizing s with
  | nil =>
    exact ⟨frame_refl x _ s hwf, fun t ht => absurd ht (List.not_mem_nil t)⟩
  | cons a l ih =>
    rw [List.foldl_cons]
    obtain ⟨F1, C1⟩ := hstep s a (List.mem_cons_self _ _) hwf hs
    have hs1 : ∀ k, K k → (f s a).get_row k = s0.get_row k := by
      intro k hk
      rw [F1.2.1 k (fun h => hQ k hk (h.1 ▸ h.2)) (by rw [hs k hk]; exact hK k hk)]
      exact hs k hk
    obtain ⟨F2, C2⟩ := ih (fun s t ht => hstep s t (List.mem_cons_of_mem _ ht))
      (f s a) F1.1 hs1
    refine ⟨frame_trans (frame_mono F1 ?_) (frame_mono F2 ?_), ?_⟩
    · intro j hj
      exact ⟨hj.1 ▸ List.mem_cons_self _ _, hj.1 ▸ hj.2⟩
    · intro j hj
      exact ⟨List.mem_cons_of_mem _ hj.1, hj.2⟩
    · intro t ht hq
      by_cases htl : t ∈ l
      · exact C2 t htl hq
      · have hta : t = a := by
          rcases List.mem_cons.mp ht with h | h
          · exact h
          · exact absurd h htl
        subst hta
        exact frame_cancelled F2 t (fun h => htl h.1) (C1 hq)

theorem foldl_push_cond_fields (k : Nat) (excl : Option Nat) (l : List var)
    (s : model_based_opt) :
    (l.foldl (fun st v => if some v.m_id ≠ excl then st.push_row_id v.m_id k else st)
      s).m_rows = s.m_rows ∧
    (l.foldl (fun st v => if some v.m_id ≠ excl then st.push_row_id v.m_id k else st)
      s).m_retired_rows = s.m_retired_rows ∧
    (l.foldl (fun st v => if some v.m_id ≠ excl then st.push_row_id v.m_id k else st)
      s).m_var2is_int = s.m_var2is_int := by
  induction l generalizing s with
  | nil => exact ⟨rfl, rfl, rfl⟩
  | cons a l ih =>
    rw [List.foldl_cons]
    by_cases h : some a.m_id ≠ excl
    · rw [if_pos h]
      obtain ⟨h1, h2, h3⟩ := ih (s.push_row_id a.m_id k)
      exact ⟨h1, h2, h3⟩
    · rw [if_neg h]
      exact ih s

/-- The copy of a live row is a row that was dead; no other row changes. -/
theorem copy_row_frame (x : Nat) (s : model_based_opt) (src : Nat) (excl : Option Nat)
    (hwf : store_wf s) (hsrc : (s.get_row src).m_alive = true) :
    (s.get_row (s.copy_row src excl).2).m_alive = false ∧
    frame x (fun j => j = (s.copy_row src excl).2) s (s.copy_row src excl).1 := by
  unfold copy_row
  dsimp only
  obtain ⟨hdead, hother, -⟩ := new_row_spec s hwf
  have hne : src ≠ s.new_row.2 := by
    intro h
    rw [← h, hsrc] at hdead
    simp at hdead
  rw [hother src hne]
  obtain ⟨-, F, -⟩ := frame_new_set_row x s (s.get_row src).m_vars (s.get_row src).m_coeff
    (s.get_row src).m_mod (s.get_row src).m_type hwf (hwf.2.2 src hsrc)
  refine ⟨hdead, frame_trans F ?_⟩
  obtain ⟨g1, g2, g3⟩ := foldl_push_cond_fields s.new_row.2 excl (s.get_row src).m_vars
    (s.new_row.1.set_row s.new_row.2 (s.get_row src).m_vars (s.get_row src).m_coeff
      (s.get_row src).m_mod (s.get_row src).m_type)
  exact frame_of_rows x _ _ _ F.1 g1 g2 g3

/-- Resolving into a copy of a live row changes no live row and leaves no new occurrence
of `x`. -/
theorem copy_resolve_step (x : Nat) (s : model_based_opt) (src t : Nat) (hwf : store_wf s)
    (hsrc : (s.get_row src).m_alive = true) (ht : (s.get_row t).m_alive = true)
    (ha1 : s.get_coefficient src x ≠ 0) (hty : (s.get_row src).m_type ≠ ineq_type.t_eq) :
    frame x (fun _ => False) s
      ((s.copy_row t none).1.resolve src (s.get_coefficient src x) (s.copy_row t none).2 x) := by
  obtain ⟨hdead, F⟩ := copy_row_frame x s t none hwf ht
  have hne : src ≠ (s.copy_row t none).2 := by
    intro h
    rw [← h, hsrc] at hdead
    simp at hdead
  have e := F.2.1 src hne hsrc
  have hco : (s.copy_row t none).1.get_coefficient src x = s.get_coefficient src x := by
    unfold model_based_opt.get_coefficient
    rw [e]
  obtain ⟨G, C⟩ := resolve_step x (s.copy_row t none).1 src (s.copy_row t none).2 F.1
    (by rw [e]; exact hsrc) hne (by rw [hco]; exact ha1) (by rw [e]; exact hty)
  rw [hco] at G C
  exact frame_shrink (frame_trans F G) (fun j hj _ => by rw [hj]; exact ⟨hdead, C⟩)

theorem bound_row_congr {x : Nat} {s u : model_based_opt} {t : Nat}
    (h : bound_row x s t) (e : u.get_row t = s.get_row t) : bound_row x u t := by
  unfold bound_row model_based_opt.get_coefficient at h ⊢
  rw [e]
  exact h

/-- The inner loop of the small case for an upper row that is not the last one. -/
theorem project_small_inner_copy (x : Nat) (s : model_based_opt) (src : Nat)
    (glb : List Nat) (hwf : store_wf s) (hsrc : bound_row x s src)
    (hglb : ∀ t ∈ glb, (s.get_row t).m_alive = true) :
    frame x (fun _ => False) s
      (project_small_inner x src (s.get_coefficient src x) false s glb) := by
  unfold project_small_inner
  simp only [Bool.false_eq_true, if_false]
  have h := (fold_frame_keep x (fun k => k = src ∨ k ∈ glb) s
    (fun k hk => hk.elim (fun h => h ▸ hsrc.1) (hglb k))
    (fun st row_id2 =>
      (st.copy_row row_id2 none).1.resolve src (s.get_coefficient src x)
        (st.copy_row row_id2 none).2 x)
    (fun _ => False) (fun _ _ h => h) glb ?_ s hwf (fun _ _ => rfl)).1
  · exact frame_mono h (fun _ h => h.2)
  · intro st t ht hst hk
    have e1 := hk src (Or.inl rfl)
    have e2 := hk t (Or.inr ht)
    have hb := bound_row_congr hsrc e1
    have hco : s.get_coefficient src x = st.get_coefficient src x := by
      unfold model_based_opt.get_coefficient
      rw [e1]
    rw [hco]
    refine ⟨frame_mono (copy_resolve_step x st src t hst hb.1 (by rw [e2]; exact hglb t ht)
      hb.2.1 hb.2.2) (fun _ h => h.elim), fun h => h.elim⟩

/-- The inner loop of the small case for the last upper row. -/
theorem project_small_inner_last (x : Nat) (s : model_based_opt) (src : Nat)
    (glb : List Nat) (hwf : store_wf s) (hsrc : bound_row x s src)
    (hglb : ∀ t ∈ glb, t ≠ src) :
    frame x (fun j => j ∈ glb) s
      (project_small_inner x src (s.get_coefficient src x) true s glb) ∧
    ∀ t ∈ glb, cancelled x (project_small_inner x src (s.get_coefficient src x) true s glb) t
    := by
  unfold project_small_inner
  simp only [if_true]
  have h := fold_frame_keep x (fun k => k = src) s
    (fun k hk => hk ▸ hsrc.1)
    (fun st row_id2 => st.resolve src (s.get_coefficient src x) row_id2 x)
    (fun t => t ≠ src) (fun _ hk h => h hk) glb ?_ s hwf (fun _ _ => rfl)
  · exact ⟨frame_mono h.1 (fun _ h => h.1), fun t ht => h.2 t ht (hglb t ht)⟩
  · intro st t ht hst hk
    have e1 := hk src rfl
    have hb := bound_row_congr hsrc e1
    have hco : s.get_coefficient src x = st.get_coefficient src x := by
      unfold model_based_opt.get_coefficient
      rw [e1]
    rw [hco]
    obtain ⟨F, C⟩ := resolve_step x st src t hst hb.1 (fun h => hglb t ht h.symm) hb.2.1 hb.2.2
    exact ⟨frame_mono F (fun _ h => ⟨h, hglb t ht⟩), fun _ => C⟩

/-- The small case of `project`: every lower row is resolved against every upper row. -/
theorem project_small_frame (x : Nat) (glb lub : List Nat) (hne : lub ≠ [])
    (s : model_based_opt) (hwf : store_wf s) (hlub : ∀ t ∈ lub, bound_row x s t)
    (hglb : ∀ t ∈ glb, (s.get_row t).m_alive = true ∧ t ∉ lub) :
    frame x (fun j => j ∈ glb) s (project_small x glb s lub) ∧
    ∀ t ∈ glb, cancelled x (project_small x glb s lub) t := by
  induction lub generalizing s with
  | nil => exact absurd rfl hne
  | cons a rest ih =>
    unfold project_small
    dsimp only
    cases rest with
    | nil =>
      simp only [List.isEmpty_nil]
      unfold project_small
      exact project_small_inner_last x s a glb hwf (hlub a (List.mem_cons_self _ _))
        (fun t ht h => (hglb t ht).2 (h ▸ List.mem_cons_self _ _))
    | cons b rest2 =>
      simp only [List.isEmpty_cons]
      have F := project_small_inner_copy x s a glb hwf (hlub a (List.mem_cons_self _ _))
        (fun t ht => (hglb t ht).1)
      have hrow : ∀ t, (s.get_row t).m_alive = true →
          (project_small_inner x a (s.get_coefficient a x) false s glb).get_row t
            = s.get_row t := fun t ht => F.2.1 t (fun h => h) ht
      obtain ⟨G, C⟩ := ih (by simp) _ F.1
        (fun t ht => bound_row_congr (hlub t (List.mem_cons_of_mem _ ht))
          (hrow t (hlub t (List.mem_cons_of_mem _ ht)).1))
        (fun t ht => ⟨by rw [hrow t (hglb t ht).1]; exact (hglb t ht).1,
          fun h => (hglb t ht).2 (List.mem_cons_of_mem _ h)⟩)
      exact ⟨frame_trans (frame_mono F (fun _ h => h.elim)) G, C⟩

theorem retire_row_dead (s : model_based_opt) (a : Nat) :
    ((s.retire_row a).get_row a).m_alive = false := by
  by_cases h : a < s.m_rows.length
  · rw [(get_row_retire_row s a h).1]
  · rw [get_row_default _ _ (by rw [(same_except_retire_row s a).2.2.2]; omega)]

theorem retire_fold_rows (l : List Nat) (s : model_based_opt) :
    (∀ j, j ∉ l → (l.foldl (fun st row_id => st.retire_row row_id) s).get_row j
      = s.get_row j) ∧
    (∀ j ∈ l, ((l.foldl (fun st row_id => st.retire_row row_id) s).get_row j).m_alive
      = false) := by
  induction l generalizing s with
  | nil => exact ⟨fun _ _ => rfl, fun j hj => absurd hj (List.not_mem_nil j)⟩
  | cons a l ih =>
    rw [List.foldl_cons]
    obtain ⟨h1, h2⟩ := ih (s.retire_row a)
    refine ⟨?_, ?_⟩
    · intro j hj
      rw [h1 j (fun h => hj (List.mem_cons_of_mem _ h))]
      exact (same_except_retire_row s a).1 j (fun h => hj (h ▸ List.mem_cons_self _ _))
    · intro j hj
      by_cases hjl : j ∈ l
      · exact h2 j hjl
      · have hja : j = a := by
          rcases List.mem_cons.mp hj with h | h
          · exact h
          · exact absurd h hjl
        rw [h1 j hjl, hja]
        exact retire_row_dead s a

theorem cancelled_retire_fold (x : Nat) (l : List Nat) (s : model_based_opt) (j : Nat)
    (h : j ∉ l → cancelled x s j) :
    cancelled x (l.foldl (fun st row_id => st.retire_row row_id) s) j := by
  obtain ⟨h1, h2⟩ := retire_fold_rows l s
  by_cases hjl : j ∈ l
  · intro ha
    rw [h2 j hjl] at ha
    simp at ha
  · intro ha
    unfold model_based_opt.get_coefficient
    rw [h1 j hjl] at ha ⊢
    exact h hjl ha

/-- The loops of the general case of `project`: every row of the list other than the
pivot row is resolved against the pivot row. -/
theorem project_general_fold (x : Nat) (s0 : model_based_opt) (ri : Nat)
    (hri : bound_row x s0 ri) (l : List Nat) (s : model_based_opt) (hwf : store_wf s)
    (hs : s.get_row ri = s0.get_row ri) :
    frame x (fun j => j ∈ l ∧ j ≠ ri) s
      (l.foldl (fun st row_id =>
        if row_id ≠ ri then st.resolve ri (s0.get_coefficient ri x) row_id x else st) s) ∧
    ∀ t ∈ l, t ≠ ri → cancelled x
      (l.foldl (fun st row_id =>
        if row_id ≠ ri then st.resolve ri (s0.get_coefficient ri x) row_id x else st) s) t := by
  refine fold_frame_keep x (fun k => k = ri) s0 (fun k hk => hk ▸ hri.1) _
    (fun t => t ≠ ri) (fun _ hk h => h hk) l ?_ s hwf (fun k hk => hk ▸ hs)
  intro st t _ hst hk
  have e1 := hk ri rfl
  have hb := bound_row_congr hri e1
  have hco : s0.get_coefficient ri x = st.get_coefficient ri x := by
    unfold model_based_opt.get_coefficient
    rw [e1]
  by_cases hti : t ≠ ri
  · simp only [if_pos hti]
    rw [hco]
    obtain ⟨F, C⟩ := resolve_step x st ri t hst hb.1 (fun h => hti h.symm) hb.2.1 hb.2.2
    exact ⟨frame_mono F (fun _ h => ⟨h, hti⟩), fun _ => C⟩
  · simp only [if_neg hti]
    exact ⟨frame_refl x _ st hst, fun h => absurd h hti⟩

/-! ### The scan loop of `project` and the elimination theorem -/

theorem scan_facts (s : model_based_opt) (x : Nat) (hnd : no_div_rows s x) :
    ((scan_result s x).divide_rows = [] ∧ (scan_result s x).mod_rows = [] ∧
      (scan_result s x).div_rows = []) ∧
    (∀ j, j ∈ (scan_result s x).lub_rows ↔ j ∈ s.row_ids x ∧ scan_kind s x j = 5) ∧
    (∀ j, j ∈ (scan_result s x).glb_rows ↔ j ∈ s.row_ids x ∧ scan_kind s x j = 6) ∧
    (∀ i, (scan_result s x).eq_row = some i → scan_kind s x i = 1) ∧
    ((scan_result s x).eq_row = none → ∀ j ∈ s.row_ids x, scan_kind s x j ≠ 1) ∧
    (∀ i, (scan_result s x).lub_index = some i → i ∈ (scan_result s x).lub_rows) ∧
    ((scan_result s x).lub_index = none → (scan_result s x).lub_rows = []) ∧
    (∀ i, (scan_result s x).glb_index = some i → i ∈ (scan_result s x).glb_rows) ∧
    ((scan_result s x).glb_index = none → (scan_result s x).glb_rows = []) := by
  obtain ⟨-, h1, h2, -⟩ := scan_fold_lists s x (s.row_ids x) {}
  have hl : ∀ j, j ∈ (scan_result s x).lub_rows ↔ j ∈ s.row_ids x ∧ scan_kind s x j = 5 := by
    intro j
    unfold scan_result
    rw [h1]
    simp [fresh_ids_nil_mem]
  have hg : ∀ j, j ∈ (scan_result s x).glb_rows ↔ j ∈ s.row_ids x ∧ scan_kind s x j = 6 := by
    intro j
    unfold scan_result
    rw [h2]
    simp [fresh_ids_nil_mem]
  refine ⟨scan_no_div_rows s x hnd, hl, hg, ?_, ?_, ?_, ?_, ?_, ?_⟩
  · intro i hi
    rcases scan_fold_eq s x (s.row_ids x) {} with ⟨h, -⟩ | ⟨j, -, hk, he⟩
    · unfold scan_result at hi
      rw [h] at hi
      simp at hi
    · unfold scan_result at hi
      rw [he] at hi
      simp only [Option.some.injEq] at hi
      rw [← hi]
      exact hk
  · intro hn j hj
    rcases scan_fold_eq s x (s.row_ids x) {} with ⟨-, h⟩ | ⟨j, -, -, he⟩
    · exact h j ((fresh_ids_nil_mem _ _).mpr hj)
    · unfold scan_result at hn
      rw [he] at hn
      simp at hn
  · intro i hi
    rcases (scan_fold_lub_index s x (s.row_ids x) {}).1 with h | ⟨j, hjf, hk, he⟩
    · unfold scan_result at hi
      rw [h] at hi
      simp at hi
    · rw [hl]
      unfold scan_result at hi
      rw [he] at hi
      simp only [Option.some.injEq] at hi
      rw [← hi]
      exact ⟨(fresh_ids_nil_mem _ _).mp hjf, hk⟩
  · intro hn
    apply List.eq_nil_iff_forall_not_mem.mpr
    intro j hj
    obtain ⟨hj1, hj2⟩ := (hl j).mp hj
    obtain ⟨k, -, -, he⟩ := (scan_fold_lub_index s x (s.row_ids x) {}).2 rfl
      ⟨j, (fresh_ids_nil_mem _ _).mpr hj1, hj2⟩
    unfold scan_result at hn
    rw [he] at hn
    simp at hn
  · intro i hi
    rcases (scan_fold_glb_index s x (s.row_ids x) {}).1 with h | ⟨j, hjf, hk, he⟩
    · unfold scan_result at hi
      rw [h] at hi
      simp at hi
    · rw [hg]
      unfold scan_result at hi
      rw [he] at hi
      simp only [Option.some.injEq] at hi
      rw [← hi]
      exact ⟨(fresh_ids_nil_mem _ _).mp hjf, hk⟩
  · intro hn
    apply List.eq_nil_iff_forall_not_mem.mpr
    intro j hj
    obtain ⟨hj1, hj2⟩ := (hg j).mp hj
    obtain ⟨k, -, -, he⟩ := (scan_fold_glb_index s x (s.row_ids x) {}).2 rfl
      ⟨j, (fresh_ids_nil_mem _ _).mpr hj1, hj2⟩
    unfold scan_result at hn
    rw [he] at hn
    simp at hn

theorem open_rows_of_no_div (s : model_based_opt) (x : Nat) (V : List Nat)
    (hnd : no_div_rows s x) : open_rows x (s.row_ids x) V s := by
  intro j hj _ hal hco
  obtain ⟨h1, h2, h3⟩ := hnd j hj hal hco
  cases hT : (s.get_row j).m_type <;> simp_all

/-- The rows found by the scan loop cover every indexed occurrence of `x`. -/
theorem scan_cover (s : model_based_opt) (x : Nat) (hnd : no_div_rows s x)
    (he : (scan_result s x).eq_row = none) (j : Nat) (hj : j ∈ s.row_ids x)
    (hal : (s.get_row j).m_alive = true) (hco : s.get_coefficient j x ≠ 0) :
    j ∈ (scan_result s x).lub_rows ∨ j ∈ (scan_result s x).glb_rows := by
  obtain ⟨-, hl, hg, -, hne, -⟩ := scan_facts s x hnd
  have h1 := hne he j hj
  rcases open_rows_of_no_div s x [] hnd j hj (by simp) hal hco with hty | hty | hty
  · exact absurd ((scan_kind_1 s x j).mpr ⟨hal, hco, hty⟩) h1
  · by_cases hp : 0 < s.get_coefficient j x
    · exact Or.inl ((hl j).mpr ⟨hj, (scan_kind_5 s x j).mpr ⟨hal, hp, Or.inl hty⟩⟩)
    · exact Or.inr ((hg j).mpr ⟨hj, (scan_kind_6 s x j).mpr
        ⟨hal, lt_of_le_of_ne (le_of_not_lt hp) hco, Or.inl hty⟩⟩)
  · by_cases hp : 0 < s.get_coefficient j x
    · exact Or.inl ((hl j).mpr ⟨hj, (scan_kind_5 s x j).mpr ⟨hal, hp, Or.inr hty⟩⟩)
    · exact Or.inr ((hg j).mpr ⟨hj, (scan_kind_6 s x j).mpr
        ⟨hal, lt_of_le_of_ne (le_of_not_lt hp) hco, Or.inr hty⟩⟩)

theorem bound_row_of_kind (s : model_based_opt) (x j : Nat)
    (h : scan_kind s x j = 5 ∨ scan_kind s x j = 6) : bound_row x s j := by
  rcases h with h | h
  · obtain ⟨h1, h2, h3⟩ := (scan_kind_5 s x j).mp h
    refine ⟨h1, ne_of_gt h2, ?_⟩
    rcases h3 with h3 | h3 <;> rw [h3] <;> simp
  · obtain ⟨h1, h2, h3⟩ := (scan_kind_6 s x j).mp h
    refine ⟨h1, ne_of_lt h2, ?_⟩
    rcases h3 with h3 | h3 <;> rw [h3] <;> simp

theorem store_wf_of_rows (s : model_based_opt)
    (h1 : ∀ j ∈ s.m_retired_rows, (s.get_row j).m_alive = false ∧ j < s.m_rows.length)
    (h2 : s.m_retired_rows.Nodup)
    (h3 : ∀ j < s.m_rows.length, (s.get_row j).m_alive = true →
      sorted_ids (s.get_row j).m_vars) : store_wf s :=
  ⟨h1, h2, fun j hj => h3 j (alive_lt_length s j hj) hj⟩

theorem indexed_of_rows (s : model_based_opt) (x : Nat)
    (h : ∀ j ∈ List.range s.m_rows.length, j = m_objective_id ∨
      (s.get_row j).m_alive = false ∨ s.get_coefficient j x = 0 ∨ j ∈ s.row_ids x) :
    ∀ j, j ≠ m_objective_id → (s.get_row j).m_alive = true →
      s.get_coefficient j x ≠ 0 → j ∈ s.row_ids x := by
  intro j h0 ha hc
  rcases h j (List.mem_range.mpr (alive_lt_length s j ha)) with h1 | h1 | h1 | h1
  · exact absurd h1 h0
  · rw [ha] at h1; simp at h1
  · exact absurd h1 hc
  · exact h1

/-- C1 (counterexample): in Scenario A (real `x = 3`, objective `x`, rows `x - 5 <= 0` and
`-x + 1 <= 0`) the objective row (row 0) is live with coefficient 1 for `x`, and
`project(x, false)` returns a state in which it is still live with coefficient 1 for
`x`: the projection only visits the rows listed in the row index of `x`, and the objective
row is never listed. -/
theorem project_keeps_objective_term :
    ((scenario_A 3 false).get_row m_objective_id).m_alive = true ∧
    (scenario_A 3 false).get_coefficient m_objective_id 0 = 1 ∧
    ∃ s1 d, project 1 (scenario_A 3 false) 0 false = Except.ok (s1, d) ∧
      (s1.get_row m_objective_id).m_alive = true ∧
      s1.get_coefficient m_objective_id 0 = 1 := by
  refine ⟨by decide!, by decide!,
    ((project 1 (scenario_A 3 false) 0 false).toOption.getD (init, none)).1,
    ((project 1 (scenario_A 3 false) 0 false).toOption.getD (init, none)).2, ?_⟩
  decide!

/-- Elimination when `x` occurs in no divisibility, mod or div row: let the retired row
ids of the store be distinct dead rows, the terms of
every live row be sorted by strictly ascending id, every live row other than the objective
row (row 0) in which `x` has a nonzero coefficient be listed in the row index of `x`, and
let `x` occur in no live divisibility, mod or div row listed for it.  Then
`project(x, compute_def)` returns (for every positive fuel, with either value of
`compute_def`), and in the returned state no live row other than the objective row has a
nonzero coefficient for `x`. -/
theorem project_eliminates (s : model_based_opt) (x fuel : Nat) (cd : Bool)
    (hwf : store_wf s)
    (hidx : ∀ j, j ≠ m_objective_id → (s.get_row j).m_alive = true →
      s.get_coefficient j x ≠ 0 → j ∈ s.row_ids x)
    (hnd : no_div_rows s x) :
    ∃ s1 d, project (fuel + 1) s x cd = Except.ok (s1, d) ∧
      ∀ j, j ≠ m_objective_id → (s1.get_row j).m_alive = true →
        s1.get_coefficient j x = 0 := by
  obtain ⟨⟨d1, d2, d3⟩, hl, hg, heq, hne, hli, hln, hgi, hgn⟩ := scan_facts s x hnd
  have hp : (s.row_ids x).foldl (project_scan_step s x) {} = scan_result s x := rfl
  have hsolve : ∀ (i : Nat) (c : Bool), (s.get_row i).m_alive = true →
      ∃ s1 d, (Except.ok (s.solve_for i x c) : Except error (model_based_opt × Option def_))
          = Except.ok (s1, d) ∧
        ∀ j, j ≠ m_objective_id → (s1.get_row j).m_alive = true →
          s1.get_coefficient j x = 0 :=
    fun i c hal => ⟨_, _, rfl, fun j hj0 =>
      solve_for_eliminates x s i c hwf hal (open_rows_of_no_div s x [i] hnd) j
        (fun ha hc => Or.inl (hidx j hj0 ha hc))⟩
  have hlb : ∀ t ∈ (scan_result s x).lub_rows, bound_row x s t :=
    fun t ht => bound_row_of_kind s x t (Or.inl ((hl t).mp ht).2)
  have hgb : ∀ t ∈ (scan_result s x).glb_rows, bound_row x s t :=
    fun t ht => bound_row_of_kind s x t (Or.inr ((hg t).mp ht).2)
  unfold project
  simp only [hp, d1, d2, d3, List.isEmpty_nil, Bool.not_true, Bool.or_self, Bool.false_eq_true,
    if_false]
  rcases he : (scan_result s x).eq_row with _ | i
  · simp only
    have hcov : ∀ j, j ≠ m_objective_id → j ∉ (scan_result s x).lub_rows →
        j ∉ (scan_result s x).glb_rows → cancelled x s j := by
      intro j hj0 h1 h2 ha
      by_contra hc
      rcases scan_cover s x hnd he j (hidx j hj0 ha hc) ha hc with h | h
      · exact h1 h
      · exact h2 h
    rcases hr : (if (scan_result s x).lub_rows.length ≤ (scan_result s x).glb_rows.length
        then (scan_result s x).lub_index else (scan_result s x).glb_index) with _ | ri
    · simp only
      cases cd
      · simp only [Bool.false_eq_true, if_false]
        refine ⟨_, _, rfl, fun j hj0 => ?_⟩
        exact cancelled_retire_fold x _ _ j (fun hjg =>
          cancelled_retire_fold x _ s j (fun hjl => hcov j hj0 hjl hjg))
      · simp only [if_true]
        rcases h1 : (scan_result s x).lub_index with _ | i1
        · rcases h2 : (scan_result s x).glb_index with _ | i2
          · simp only
            refine ⟨_, _, rfl, fun j hj0 => ?_⟩
            refine hcov j hj0 ?_ ?_
            · rw [hln h1]; simp
            · rw [hgn h2]; simp
          · simp only
            exact hsolve i2 true (hgb i2 (hgi i2 h2)).1
        · simp only
          exact hsolve i1 true (hlb i1 (hli i1 h1)).1
    · simp only
      have hrm : ri ∈ (scan_result s x).lub_rows ∨ ri ∈ (scan_result s x).glb_rows := by
        by_cases hc : (scan_result s x).lub_rows.length ≤ (scan_result s x).glb_rows.length
        · rw [if_pos hc] at hr
          exact Or.inl (hli ri hr)
        · rw [if_neg hc] at hr
          exact Or.inr (hgi ri hr)
      have hri : bound_row x s ri := hrm.elim (hlb ri) (hgb ri)
      have hlne : (scan_result s x).lub_rows ≠ [] := by
        intro hnil
        by_cases hc : (scan_result s x).lub_rows.length ≤ (scan_result s x).glb_rows.length
        · rw [if_pos hc] at hr
          have := hli ri hr
          rw [hnil] at this
          simp at this
        · rw [hnil] at hc
          simp at hc
      split
      · refine ⟨_, _, rfl, fun j hj0 => ?_⟩
        obtain ⟨F, C⟩ := project_small_frame x (scan_result s x).glb_rows
          (scan_result s x).lub_rows hlne s hwf hlb
          (fun t ht => ⟨(hgb t ht).1, fun h => by
            have h5 := ((hl t).mp h).2
            have h6 := ((hg t).mp ht).2
            omega⟩)
        refine cancelled_retire_fold x _ _ j (fun hjl => ?_)
        by_cases hjg : j ∈ (scan_result s x).glb_rows
        · exact C j hjg
        · exact frame_cancelled F j hjg (hcov j hj0 hjl hjg)
      · refine ⟨_, _, rfl, fun j hj0 => ?_⟩
        obtain ⟨F1, C1⟩ := project_general_fold x s ri hri (scan_result s x).lub_rows s hwf rfl
        have e1 := F1.2.1 ri (fun h => h.2 rfl) hri.1
        obtain ⟨F2, C2⟩ := project_general_fold x s ri hri (scan_result s x).glb_rows _ F1.1 e1
        have e2 := F2.2.1 ri (fun h => h.2 rfl) (by rw [e1]; exact hri.1)
        refine cancelled_retire x _ ri j (by rw [e2, e1]; exact hri.1) (fun hji => ?_)
        by_cases hjg : j ∈ (scan_result s x).glb_rows
        · exact C2 j hjg hji
        · by_cases hjl : j ∈ (scan_result s x).lub_rows
          · exact frame_cancelled F2 j (fun h => hjg h.1) (C1 j hjl hji)
          · exact frame_cancelled F2 j (fun h => hjg h.1)
              (frame_cancelled F1 j (fun h => hjl h.1) (hcov j hj0 hjl hjg))
  · simp only
    exact hsolve i cd ((scan_kind_1 s x i).mp (heq i he)).1

/-- The elimination of `x` in Scenario A, where afterwards only the objective row mentions
`x`. -/
theorem project_eliminates_witness :
    ∃ s1 d, project 1 (scenario_A 3 false) 0 false = Except.ok (s1, d) ∧
      ∀ j, j ≠ m_objective_id → (s1.get_row j).m_alive = true →
        s1.get_coefficient j 0 = 0 :=
  project_eliminates (scenario_A 3 false) 0 0 false
    (store_wf_of_rows _ (by decide!) (by decide!) (by simp only [sorted_ids]; decide!))
    (indexed_of_rows _ 0 (by decide!))
    (by unfold no_div_rows; decide!)

theorem scan_step_lub (s : model_based_opt) (x : Nat) (p : project_scan) (j : Nat)
    (hv : j ∉ p.visited) :
    (scan_kind s x j ≠ 5 →
      (project_scan_step s x p j).lub_rows = p.lub_rows ∧
      (project_scan_step s x p j).lub_index = p.lub_index ∧
      (project_scan_step s x p j).lub_val = p.lub_val ∧
      (project_scan_step s x p j).lub_strict = p.lub_strict) ∧
    (scan_kind s x j = 5 →
      (project_scan_step s x p j).lub_rows = p.lub_rows ++ [j] ∧
      (((p.lub_rows.isEmpty || decide (bound_value s x j < p.lub_val)
          || (decide (bound_value s x j = p.lub_val)
                && decide ((s.get_row j).m_type = ineq_type.t_lt) && !p.lub_strict)) = true →
        (project_scan_step s x p j).lub_index = some j ∧
        (project_scan_step s x p j).lub_val = bound_value s x j ∧
        (project_scan_step s x p j).lub_strict = decide ((s.get_row j).m_type = ineq_type.t_lt)) ∧
       (¬ (p.lub_rows.isEmpty || decide (bound_value s x j < p.lub_val)
          || (decide (bound_value s x j = p.lub_val)
                && decide ((s.get_row j).m_type = ineq_type.t_lt) && !p.lub_strict)) = true →
        (project_scan_step s x p j).lub_index = p.lub_index ∧
        (project_scan_step s x p j).lub_val = p.lub_val ∧
        (project_scan_step s x p j).lub_strict = p.lub_strict))) := by
  unfold project_scan_step scan_kind bound_value
  rw [if_neg (fun h => hv ((contains_iff _ _).mp h))]
  by_cases h1 : (s.get_row j).m_alive = false
  · simp [h1]
  · have h1' : (s.get_row j).m_alive = true := by simpa using h1
    by_cases h2 : s.get_coefficient j x = 0
    · simp [h1', h2]
    · cases hT : (s.get_row j).m_type <;> by_cases h3 : 0 < s.get_coefficient j x <;>
        simp [h1', h2, hT, h3]
      all_goals (split_ifs <;> simp_all)
      · rename_i h
        intro ha hb hc
        exfalso
        rcases h with (h | h) | ⟨h5, h6⟩
        · exact ha h
        · exact absurd h (not_lt.mpr hb)
        · have := hc h5
          rw [h6] at this
          simp at this
      · rename_i h
        intro ha hb
        exfalso
        rcases h with h | h
        · exact ha h
        · exact absurd h (not_lt.mpr hb)

theorem scan_step_glb (s : model_based_opt) (x : Nat) (p : project_scan) (j : Nat)
    (hv : j ∉ p.visited) :
    (scan_kind s x j ≠ 6 →
      (project_scan_step s x p j).glb_rows = p.glb_rows ∧
      (project_scan_step s x p j).glb_index = p.glb_index ∧
      (project_scan_step s x p j).glb_val = p.glb_val ∧
      (project_scan_step s x p j).glb_strict = p.glb_strict) ∧
    (scan_kind s x j = 6 →
      (project_scan_step s x p j).glb_rows = p.glb_rows ++ [j] ∧
      (((p.glb_rows.isEmpty || decide (bound_value s x j > p.glb_val)
          || (decide (bound_value s x j = p.glb_val)
                && decide ((s.get_row j).m_type = ineq_type.t_lt) && !p.glb_strict)) = true →
        (project_scan_step s x p j).glb_index = some j ∧
        (project_scan_step s x p j).glb_val = bound_value s x j ∧
        (project_scan_step s x p j).glb_strict = decide ((s.get_row j).m_type = ineq_type.t_lt)) ∧
       (¬ (p.glb_rows.isEmpty || decide (bound_value s x j > p.glb_val)
          || (decide (bound_value s x j = p.glb_val)
                && decide ((s.get_row j).m_type = ineq_type.t_lt) && !p.glb_strict)) = true →
        (project_scan_step s x p j).glb_index = p.glb_index ∧
        (project_scan_step s x p j).glb_val = p.glb_val ∧
        (project_scan_step s x p j).glb_strict = p.glb_strict))) := by
  unfold project_scan_step scan_kind bound_value
  rw [if_neg (fun h => hv ((contains_iff _ _).mp h))]
  by_cases h1 : (s.get_row j).m_alive = false
  · simp [h1]
  · have h1' : (s.get_row j).m_alive = true := by simpa using h1
    by_cases h2 : s.get_coefficient j x = 0
    · simp [h1', h2]
    · cases hT : (s.get_row j).m_type <;> by_cases h3 : 0 < s.get_coefficient j x <;>
        simp [h1', h2, hT, h3]
      all_goals (split_ifs <;> simp_all)
      · rename_i h
        intro ha hb hc
        exfalso
        rcases h with (h | h) | ⟨h5, h6⟩
        · exact ha h
        · linarith
        · have := hc h5
          rw [h6] at this
          simp at this
      · rename_i h
        intro ha hb
        exfalso
        rcases h with h | h
        · exact ha h
        · linarith

theorem lub_tracked_step (s : model_based_opt) (x : Nat) (p : project_scan) (j : Nat)
    (h : lub_tracked s x p) : lub_tracked s x (project_scan_step s x p j) := by
  by_cases hv : j ∈ p.visited
  · rw [scan_step_seen s x p j hv]; exact h
  obtain ⟨hA, hB⟩ := scan_step_lub s x p j hv
  by_cases hk : scan_kind s x j = 5
  · obtain ⟨hr, hT, hF⟩ := hB hk
    by_cases hc : (p.lub_rows.isEmpty || decide (bound_value s x j < p.lub_val)
          || (decide (bound_value s x j = p.lub_val)
                && decide ((s.get_row j).m_type = ineq_type.t_lt) && !p.lub_strict)) = true
    · obtain ⟨e1, e2, e3⟩ := hT hc
      right
      refine ⟨j, e1, by rw [hr]; simp, e2, e3, ?_⟩
      intro k hkm
      rw [hr] at hkm
      rcases List.mem_append.mp hkm with hk1 | hk1
      · rcases h with ⟨-, hnil⟩ | ⟨i, -, him, hval, hst, hall⟩
        · rw [hnil] at hk1; simp at hk1
        · have hne : p.lub_rows ≠ [] := fun hn => by rw [hn] at him; simp at him
          obtain ⟨hle, htie⟩ := hall k hk1
          simp only [Bool.or_eq_true, Bool.and_eq_true, decide_eq_true_eq, List.isEmpty_iff,
            Bool.not_eq_true'] at hc
          rcases hc with (hc | hc) | ⟨⟨hc1, hc2⟩, -⟩
          · exact absurd hc hne
          · rw [hval] at hc
            exact ⟨le_of_lt (lt_of_lt_of_le hc hle), fun he => by linarith⟩
          · rw [hval] at hc1
            exact ⟨by rw [hc1]; exact hle, fun _ _ => hc2⟩
      · simp at hk1
        rw [hk1]
        exact ⟨le_refl _, fun _ h => h⟩
    · obtain ⟨e1, e2, e3⟩ := hF hc
      simp only [Bool.or_eq_true, Bool.and_eq_true, decide_eq_true_eq, List.isEmpty_iff,
        Bool.not_eq_true', not_or, not_and] at hc
      obtain ⟨⟨hne, hnl⟩, hnt⟩ := hc
      rcases h with ⟨-, hnil⟩ | ⟨i, hidx, him, hval, hst, hall⟩
      · exact absurd hnil hne
      · right
        refine ⟨i, by rw [e1]; exact hidx, by rw [hr]; exact List.mem_append_left _ him,
          by rw [e2]; exact hval, by rw [e3]; exact hst, ?_⟩
        intro k hkm
        rw [hr] at hkm
        rcases List.mem_append.mp hkm with hk1 | hk1
        · exact hall k hk1
        · simp at hk1
          rw [hk1]
          rw [hval] at hnl hnt
          refine ⟨not_lt.mp hnl, fun he ht => ?_⟩
          have h5 := hnt ⟨he, ht⟩
          rw [hst] at h5
          simpa using h5
  · obtain ⟨e1, e2, e3, e4⟩ := hA hk
    unfold lub_tracked
    rw [e1, e2, e3, e4]
    exact h

theorem lub_tracked_fold (s : model_based_opt) (x : Nat) (l : List Nat) (p : project_scan)
    (h : lub_tracked s x p) : lub_tracked s x (l.foldl (project_scan_step s x) p) := by
  induction l generalizing p with
  | nil => exact h
  | cons a l ih => exact ih _ (lub_tracked_step s x p a h)

theorem glb_tracked_step (s : model_based_opt) (x : Nat) (p : project_scan) (j : Nat)
    (h : glb_tracked s x p) : glb_tracked s x (project_scan_step s x p j) := by
  by_cases hv : j ∈ p.visited
  · rw [scan_step_seen s x p j hv]; exact h
  obtain ⟨hA, hB⟩ := scan_step_glb s x p j hv
  by_cases hk : scan_kind s x j = 6
  · obtain ⟨hr, hT, hF⟩ := hB hk
    by_cases hc : (p.glb_rows.isEmpty || decide (bound_value s x j > p.glb_val)
          || (decide (bound_value s x j = p.glb_val)
                && decide ((s.get_row j).m_type = ineq_type.t_lt) && !p.glb_strict)) = true
    · obtain ⟨e1, e2, e3⟩ := hT hc
      right
      refine ⟨j, e1, by rw [hr]; simp, e2, e3, ?_⟩
      intro k hkm
      rw [hr] at hkm
      rcases List.mem_append.mp hkm with hk1 | hk1
      · rcases h with ⟨-, hnil⟩ | ⟨i, -, him, hval, hst, hall⟩
        · rw [hnil] at hk1; simp at hk1
        · have hne : p.glb_rows ≠ [] := fun hn => by rw [hn] at him; simp at him
          obtain ⟨hle, htie⟩ := hall k hk1
          simp only [Bool.or_eq_true, Bool.and_eq_true, decide_eq_true_eq, List.isEmpty_iff,
            Bool.not_eq_true'] at hc
          rcases hc with (hc | hc) | ⟨⟨hc1, hc2⟩, -⟩
          · exact absurd hc hne
          · rw [hval] at hc
            exact ⟨by linarith, fun he => by linarith⟩
          · rw [hval] at hc1
            exact ⟨by rw [hc1]; exact hle, fun _ _ => hc2⟩
      · simp at hk1
        rw [hk1]
        exact ⟨le_refl _, fun _ h => h⟩
    · obtain ⟨e1, e2, e3⟩ := hF hc
      simp only [Bool.or_eq_true, Bool.and_eq_true, decide_eq_true_eq, List.isEmpty_iff,
        Bool.not_eq_true', not_or, not_and] at hc
      obtain ⟨⟨hne, hnl⟩, hnt⟩ := hc
      rcases h with ⟨-, hnil⟩ | ⟨i, hidx, him, hval, hst, hall⟩
      · exact absurd hnil hne
      · right
        refine ⟨i, by rw [e1]; exact hidx, by rw [hr]; exact List.mem_append_left _ him,
          by rw [e2]; exact hval, by rw [e3]; exact hst, ?_⟩
        intro k hkm
        rw [hr] at hkm
        rcases List.mem_append.mp hkm with hk1 | hk1
        · exact hall k hk1
        · simp at hk1
          rw [hk1]
          rw [hval] at hnl hnt
          refine ⟨not_lt.mp hnl, fun he ht => ?_⟩
          have h5 := hnt ⟨he, ht⟩
          rw [hst] at h5
          simpa using h5
  · obtain ⟨e1, e2, e3, e4⟩ := hA hk
    unfold glb_tracked
    rw [e1, e2, e3, e4]
    exact h

theorem glb_tracked_fold (s : model_based_opt) (x : Nat) (l : List Nat) (p : project_scan)
    (h : glb_tracked s x p) : glb_tracked s x (l.foldl (project_scan_step s x) p) := by
  induction l generalizing p with
  | nil => exact h
  | cons a l ih => exact ih _ (glb_tracked_step s x p a h)

/-- C27 (counterexample): in `tie_store` the rows `x - 5 <= 0` (row 1) and `x - 5 < 0`
(row 2) give the same upper bound 5 on `x`, and the scan of `project` tracks the strict
row 2; in `tie_store_glb` the rows `-x - 5 <= 0` and `-x - 5 < 0` give the same lower bound
-5 and the scan tracks the strict row 2. -/
theorem scan_tie_tracks_strict :
    bound_value tie_store 0 1 = 5 ∧ bound_value tie_store 0 2 = 5 ∧
    (tie_store.get_row 1).m_type = ineq_type.t_le ∧
    (tie_store.get_row 2).m_type = ineq_type.t_lt ∧
    (scan_result tie_store 0).lub_rows = [1, 2] ∧
    (scan_result tie_store 0).lub_index = some 2 ∧
    bound_value tie_store_glb 0 1 = -5 ∧ bound_value tie_store_glb 0 2 = -5 ∧
    (tie_store_glb.get_row 1).m_type = ineq_type.t_le ∧
    (tie_store_glb.get_row 2).m_type = ineq_type.t_lt ∧
    (scan_result tie_store_glb 0).glb_rows = [1, 2] ∧
    (scan_result tie_store_glb 0).glb_index = some 2 := by
  decide!

/-- C27 (amended): in the scan of `project(x, _)` over the rows listed for `x`, whenever
there is a live upper row on `x` (an inequality with positive coefficient), the tracked
upper-bound row `lub_index` is such a row, its bound `x_val - value/a` is the least among
all upper rows, and if a strict upper row attains that least bound then the tracked row is
strict; likewise the tracked lower-bound row `glb_index` is a lower row whose bound is the
greatest among all lower rows, and it is strict if a strict lower row attains that bound.
Ties are resolved in favour of the strict row. -/
theorem scan_tracks_tightest (s : model_based_opt) (x : Nat) :
    (∀ j ∈ s.row_ids x, scan_kind s x j = 5 →
      ∃ i ∈ s.row_ids x, (scan_result s x).lub_index = some i ∧ scan_kind s x i = 5 ∧
        bound_value s x i ≤ bound_value s x j ∧
        (bound_value s x j = bound_value s x i → (s.get_row j).m_type = ineq_type.t_lt →
          (s.get_row i).m_type = ineq_type.t_lt)) ∧
    (∀ j ∈ s.row_ids x, scan_kind s x j = 6 →
      ∃ i ∈ s.row_ids x, (scan_result s x).glb_index = some i ∧ scan_kind s x i = 6 ∧
        bound_value s x j ≤ bound_value s x i ∧
        (bound_value s x j = bound_value s x i → (s.get_row j).m_type = ineq_type.t_lt →
          (s.get_row i).m_type = ineq_type.t_lt)) := by
  obtain ⟨-, h1, h2, -⟩ := scan_fold_lists s x (s.row_ids x) {}
  have hl : ∀ j, j ∈ (scan_result s x).lub_rows ↔ j ∈ s.row_ids x ∧ scan_kind s x j = 5 := by
    intro j
    unfold scan_result
    rw [h1]
    simp [fresh_ids_nil_mem]
  have hg : ∀ j, j ∈ (scan_result s x).glb_rows ↔ j ∈ s.row_ids x ∧ scan_kind s x j = 6 := by
    intro j
    unfold scan_result
    rw [h2]
    simp [fresh_ids_nil_mem]
  have tl : lub_tracked s x (scan_result s x) :=
    lub_tracked_fold s x (s.row_ids x) {} (Or.inl ⟨rfl, rfl⟩)
  have tg : glb_tracked s x (scan_result s x) :=
    glb_tracked_fold s x (s.row_ids x) {} (Or.inl ⟨rfl, rfl⟩)
  refine ⟨?_, ?_⟩
  · intro j hj hk
    have hm := (hl j).mpr ⟨hj, hk⟩
    rcases tl with ⟨-, hnil⟩ | ⟨i, hidx, him, -, -, hall⟩
    · rw [hnil] at hm; simp at hm
    · obtain ⟨hi1, hi2⟩ := (hl i).mp him
      exact ⟨i, hi1, hidx, hi2, (hall j hm).1, (hall j hm).2⟩
  · intro j hj hk
    have hm := (hg j).mpr ⟨hj, hk⟩
    rcases tg with ⟨-, hnil⟩ | ⟨i, hidx, him, -, -, hall⟩
    · rw [hnil] at hm; simp at hm
    · obtain ⟨hi1, hi2⟩ := (hg i).mp him
      exact ⟨i, hi1, hidx, hi2, (hall j hm).1, (hall j hm).2⟩

/-- Witness of C27 (amended): the upper rows of `tie_store`; the tracked row gives the
bound 5 of the non-strict row 1 and is strict. -/
theorem scan_tracks_tightest_witness :
    ∃ i ∈ tie_store.row_ids 0, (scan_result tie_store 0).lub_index = some i ∧
      scan_kind tie_store 0 i = 5 ∧
      bound_value tie_store 0 i ≤ bound_value tie_store 0 1 ∧
      (bound_value tie_store 0 1 = bound_value tie_store 0 i →
        (tie_store.get_row 1).m_type = ineq_type.t_lt →
        (tie_store.get_row i).m_type = ineq_type.t_lt) :=
  (scan_tracks_tightest tie_store 0).1 1 (by decide!) (by decide!)

/-! ### The linear form of a row under the row operations -/

theorem sum_vars_nil (val : Nat → ℚ) : sum_vars val [] = 0 := by
  simp [sum_vars]

theorem sum_vars_cons (val : Nat → ℚ) (a : var) (l : List var) :
    sum_vars val (a :: l) = a.m_coeff * val a.m_id + sum_vars val l := by
  simp [sum_vars]

theorem sum_vars_map_scale (val : Nat → ℚ) (c : ℚ) (l : List var) :
    sum_vars val (l.map (fun t => (⟨t.m_id, t.m_coeff * c⟩ : var))) = sum_vars val l * c := by
  induction l with
  | nil => simp [sum_vars]
  | cons a l ih =>
    rw [List.map_cons, sum_vars_cons, sum_vars_cons, ih]
    ring

theorem merge_sum_vars (val : Nat → ℚ) (c : ℚ) (fuel : Nat) :
    ∀ (r1 r2 : List var), r1.length + r2.length + 1 ≤ fuel →
      sum_vars val (mul_add_merge c fuel r1 r2).1 = sum_vars val r1 + c * sum_vars val r2 := by
  induction fuel with
  | zero => intro r1 r2 h; omega
  | succ fuel ih =>
    intro r1 r2 hf
    cases r2 with
    | nil =>
      simp only [mul_add_merge, sum_vars_nil]
      ring
    | cons b r2 =>
      cases r1 with
      | nil =>
        simp only [mul_add_merge, sum_vars_nil]
        rw [sum_vars_map_scale]
        ring
      | cons a r1 =>
        simp only [List.length_cons] at hf
        unfold mul_add_merge
        by_cases hab : a.m_id = b.m_id
        · simp only [if_pos hab]
          have i := ih r1 r2 (by omega)
          by_cases hk : a.m_coeff + c * b.m_coeff = 0
          · simp only [hk, if_true]
            rw [i, sum_vars_cons, sum_vars_cons, hab]
            have : a.m_coeff * val b.m_id + c * (b.m_coeff * val b.m_id)
                = (a.m_coeff + c * b.m_coeff) * val b.m_id := by ring
            linarith [this, hk ▸ (zero_mul (val b.m_id))]
          · simp only [hk, if_false]
            rw [sum_vars_cons, i, sum_vars_cons, sum_vars_cons, hab]
            ring
        · simp only [if_neg hab]
          by_cases hlt : a.m_id < b.m_id
          · simp only [if_pos hlt]
            have i := ih r1 (b :: r2) (by simp only [List.length_cons]; omega)
            rw [sum_vars_cons, i, sum_vars_cons val a r1]
            ring
          · simp only [if_neg hlt]
            have i := ih (a :: r1) r2 (by simp only [List.length_cons]; omega)
            rw [sum_vars_cons, i, sum_vars_cons val b r2]
            simp only
            ring

theorem eval_row_lin (s : model_based_opt) (r : row) : s.eval_row r = lin r s.eval := by
  rw [eval_row_eq, lin_eq]

/-- The row `j` after `mul_add(same_sign, j, c, k)`. -/
theorem mul_add_lin (s : model_based_opt) (b : Bool) (j : Nat) (c : ℚ) (k : Nat)
    (hj : j < s.m_rows.length) :
    (∀ val, lin ((s.mul_add b j c k).get_row j) val
      = lin (s.get_row j) val + c * lin (s.get_row k) val) ∧
    ((s.mul_add b j c k).get_row j).m_value
      = (s.get_row j).m_value + c * (s.get_row k).m_value ∧
    ((s.mul_add b j c k).get_row j).m_coeff
      = (s.get_row j).m_coeff + c * (s.get_row k).m_coeff ∧
    ((s.mul_add b j c k).get_row j).m_alive = (s.get_row j).m_alive ∧
    ((s.mul_add b j c k).get_row j).m_mod = (s.get_row j).m_mod ∧
    (c ≠ 0 → ((s.mul_add b j c k).get_row j).m_type =
      if !b && (s.get_row k).m_type = ineq_type.t_lt then ineq_type.t_lt
      else if b && (s.get_row j).m_type = ineq_type.t_lt
          && (s.get_row k).m_type = ineq_type.t_lt
      then ineq_type.t_le
      else (s.get_row j).m_type) ∧
    (c = 0 → ((s.mul_add b j c k).get_row j).m_type = (s.get_row j).m_type) := by
  by_cases hc : c = 0
  · subst hc
    rw [mul_add_zero]
    refine ⟨fun val => by ring, by ring, by ring, rfl, rfl, fun h => absurd rfl h, fun _ => rfl⟩
  · rw [get_row_mul_add s b j c k hc hj]
    refine ⟨?_, rfl, rfl, rfl, rfl, fun _ => rfl, fun h => absurd h hc⟩
    intro val
    rw [lin_eq, lin_eq, lin_eq]
    simp only
    rw [merge_sum_vars val c _ _ _ (le_refl _)]
    ring

/-- The row `j` after `mul(j, c)`. -/
theorem mul_lin (s : model_based_opt) (j : Nat) (c : ℚ) (hj : j < s.m_rows.length) :
    (∀ val, lin ((s.mul j c).get_row j) val = lin (s.get_row j) val * c) ∧
    ((s.get_row j).m_type ≠ ineq_type.t_div → (s.get_row j).m_type ≠ ineq_type.t_mod →
      ((s.mul j c).get_row j).m_value = (s.get_row j).m_value * c) ∧
    ((s.mul j c).get_row j).m_coeff = (s.get_row j).m_coeff * c ∧
    ((s.mul j c).get_row j).m_alive = (s.get_row j).m_alive ∧
    ((s.mul j c).get_row j).m_type = (s.get_row j).m_type := by
  by_cases hc : c = 1
  · subst hc
    rw [mul_one_eq]
    refine ⟨fun val => by ring, fun _ _ => by ring, by ring, rfl, rfl⟩
  · rw [get_row_mul s j c hc hj]
    refine ⟨?_, ?_, rfl, rfl, rfl⟩
    · intro val
      rw [lin_eq, lin_eq]
      simp only
      rw [sum_vars_map_scale]
      ring
    · intro h1 h2
      simp only [h1, h2, ne_eq, not_false_eq_true, and_self, if_true]

/-- The row `j` after `add(j, c)`. -/
theorem add_lin (s : model_based_opt) (j : Nat) (c : ℚ) (hj : j < s.m_rows.length) :
    (∀ val, lin ((s.add j c).get_row j) val = lin (s.get_row j) val + c) ∧
    ((s.add j c).get_row j).m_value = (s.get_row j).m_value + c ∧
    ((s.add j c).get_row j).m_coeff = (s.get_row j).m_coeff + c ∧
    ((s.add j c).get_row j).m_alive = (s.get_row j).m_alive ∧
    ((s.add j c).get_row j).m_type = (s.get_row j).m_type ∧
    ((s.add j c).get_row j).m_vars = (s.get_row j).m_vars := by
  have hr : (s.add j c).get_row j =
      { s.get_row j with m_coeff := (s.get_row j).m_coeff + c,
                         m_value := (s.get_row j).m_value + c } := by
    unfold model_based_opt.add
    exact get_row_put_row_eq _ _ _ hj
  rw [hr]
  refine ⟨?_, rfl, rfl, rfl, rfl, rfl⟩
  intro val
  rw [lin_eq, lin_eq]
  simp only
  ring

/-! ### The branches of the integer resolution -/

theorem mul_add_int_case1 (s : model_based_opt) (x : Nat) (src_c : ℚ) (row_src : Nat)
    (dst_c : ℚ) (row_dst : Nat) (h : use_case1 s x src_c row_src dst_c row_dst) :
    s.mul_add_int x src_c row_src dst_c row_dst =
      ((s.mul row_dst |src_c|).add row_dst (int_slack src_c dst_c)).mul_add false row_dst
        |dst_c| row_src := by
  unfold use_case1 int_distance int_slack at h
  unfold mul_add_int int_slack
  dsimp only
  rw [if_pos]
  simpa [or_assoc] using h

theorem mul_add_int_fallback_eq (s : model_based_opt) (x : Nat) (src_c : ℚ) (row_src : Nat)
    (dst_c : ℚ) (row_dst : Nat) (h : ¬ use_case1 s x src_c row_src dst_c row_dst) :
    s.mul_add_int x src_c row_src dst_c row_dst =
      if |dst_c| ≤ |src_c| then
        (((s.add_divides (mk_coeffs_without (s.get_row row_dst).m_vars x)
            ((s.get_row row_dst).m_coeff +
              int_residue ((s.get_row row_dst).m_value - s.eval x * dst_c) |dst_c|)
            |dst_c|).add row_dst
              (int_residue ((s.get_row row_dst).m_value - s.eval x * dst_c) |dst_c|)).mul
            row_dst (src_c * n_sign dst_c)).mul_add false row_dst |dst_c| row_src
      else
        (((s.add_divides (mk_coeffs_without (s.get_row row_src).m_vars x)
            ((s.get_row row_src).m_coeff +
              int_residue ((s.get_row row_src).m_value - s.eval x * src_c) |src_c|)
            |src_c|).mul row_dst |src_c|).add row_dst
              (int_residue ((s.get_row row_src).m_value - s.eval x * src_c) |src_c|
                * dst_c * n_sign src_c)).mul_add false row_dst (dst_c * n_sign src_c)
            row_src := by
  unfold use_case1 int_distance int_slack at h
  unfold mul_add_int int_residue
  dsimp only
  rw [if_neg (by simpa [and_assoc] using h), if_neg (by simp)]

theorem get_coefficient_congr (s t : model_based_opt) (i j : Nat)
    (h : (t.get_row j).m_vars = (s.get_row i).m_vars) (v : Nat) :
    t.get_coefficient j v = s.get_coefficient i v := by
  unfold model_based_opt.get_coefficient row.get_coefficient
  rw [h]

/-- C24 (counterexample): on `slack_store` the non-positivity test of the integer
resolution of row 2 against row 1 on `x` holds (distance -36) and no coefficient is a unit;
the constant of the new row 2 is -36, while the constant of the scaled sum
`|-2| * (3x + y - 10) + |3| * (-2x + y - 6)` is -38: the slack `(2-1)*(3-1) = 2` has been
added. -/
theorem mul_add_int_adds_slack :
    use_case1 slack_store 0 (-2) 1 3 2 ∧ int_distance slack_store 0 (-2) 1 3 2 = -36 ∧
    (slack_store.get_row 2).m_coeff = -10 ∧ (slack_store.get_row 1).m_coeff = -6 ∧
    slack_store.get_coefficient 1 0 = -2 ∧ slack_store.get_coefficient 2 0 = 3 ∧
    ((slack_store.mul_add_int 0 (-2) 1 3 2).get_row 2).m_coeff = -36 ∧
    |(-2 : ℚ)| * (-10) + |(3 : ℚ)| * (-6) = -38 := by
  decide!

/-- C24 (amended): in the integer resolution `mul_add(x, src_c, row_src, dst_c, row_dst)`
on two distinct rows with terms sorted by id, whenever the non-positivity test holds
(`distance <= 0`) or `|src_c| = 1` or `|dst_c| = 1`: every coefficient of `dst` becomes
that of `|src_c|*dst + |dst_c|*src`, the constant becomes the constant of that scaled sum
plus the slack `(|src_c| - 1) * (|dst_c| - 1)`, which is zero when one of the two
coefficients is a unit; no other row, no variable value and no integrality flag changes
and no row is added. -/
theorem mul_add_int_scaled_sum (s : model_based_opt) (x : Nat) (src_c : ℚ) (row_src : Nat)
    (dst_c : ℚ) (row_dst : Nat) (hj : row_dst < s.m_rows.length) (hne : row_src ≠ row_dst)
    (hs1 : sorted_ids (s.get_row row_dst).m_vars)
    (hs2 : sorted_ids (s.get_row row_src).m_vars)
    (h : use_case1 s x src_c row_src dst_c row_dst) :
    (∀ v, (s.mul_add_int x src_c row_src dst_c row_dst).get_coefficient row_dst v =
      |src_c| * s.get_coefficient row_dst v + |dst_c| * s.get_coefficient row_src v) ∧
    ((s.mul_add_int x src_c row_src dst_c row_dst).get_row row_dst).m_coeff =
      |src_c| * (s.get_row row_dst).m_coeff + |dst_c| * (s.get_row row_src).m_coeff
        + (|src_c| - 1) * (|dst_c| - 1) ∧
    ((|src_c| = 1 ∨ |dst_c| = 1) → (|src_c| - 1) * (|dst_c| - 1) = 0) ∧
    same_except row_dst s (s.mul_add_int x src_c row_src dst_c row_dst) := by
  rw [mul_add_int_case1 _ _ _ _ _ _ h]
  unfold int_slack
  have se1 := same_except_mul s row_dst |src_c|
  have se2 := same_except_add (s.mul row_dst |src_c|) row_dst ((|src_c| - 1) * (|dst_c| - 1))
  have se3 := same_except_mul_add ((s.mul row_dst |src_c|).add row_dst
    ((|src_c| - 1) * (|dst_c| - 1))) false row_dst |dst_c| row_src
  have hj1 : row_dst < (s.mul row_dst |src_c|).m_rows.length := by rw [se1.2.2.2]; exact hj
  have hj2 : row_dst < ((s.mul row_dst |src_c|).add row_dst
      ((|src_c| - 1) * (|dst_c| - 1))).m_rows.length := by rw [se2.2.2.2]; exact hj1
  obtain ⟨m1, m2, m3, -⟩ := mul_row_spec s row_dst |src_c| hj hs1
  obtain ⟨-, -, a3, -, -, a6⟩ := add_lin (s.mul row_dst |src_c|) row_dst
    ((|src_c| - 1) * (|dst_c| - 1)) hj1
  have esrc : ((s.mul row_dst |src_c|).add row_dst ((|src_c| - 1) * (|dst_c| - 1))).get_row
      row_src = s.get_row row_src := by
    rw [se2.1 row_src hne, se1.1 row_src hne]
  obtain ⟨-, r2, r3, -⟩ := mul_add_row_spec ((s.mul row_dst |src_c|).add row_dst
    ((|src_c| - 1) * (|dst_c| - 1))) false row_dst |dst_c| row_src hj2
    (by rw [a6]; exact m1) (by rw [esrc]; exact hs2)
  refine ⟨?_, ?_, ?_, same_except_trans (same_except_trans se1 se2) se3⟩
  · intro v
    rw [r2 v, get_coefficient_congr (s.mul row_dst |src_c|) _ row_dst row_dst a6 v, m2 v,
      get_coefficient_congr s _ row_src row_src (by rw [esrc]) v]
    ring
  · rw [r3, a3, m3, esrc]
    ring
  · rintro (h1 | h1) <;> rw [h1] <;> ring

/-- Witness of C24 (amended): the rows of `slack_store`; the new constant is
`2 * (-10) + 3 * (-6) + 2`. -/
theorem mul_add_int_scaled_sum_witness :
    ((slack_store.mul_add_int 0 (-2) 1 3 2).get_row 2).m_coeff =
      |(-2 : ℚ)| * (slack_store.get_row 2).m_coeff + |(3 : ℚ)| * (slack_store.get_row 1).m_coeff
        + (|(-2 : ℚ)| - 1) * (|(3 : ℚ)| - 1) :=
  (mul_add_int_scaled_sum slack_store 0 (-2) 1 3 2 (by decide!) (by decide)
    (by unfold sorted_ids; decide!) (by unfold sorted_ids; decide!) (by decide!)).2.1

/-! ### The divisibility row added by `add_divides` -/

theorem new_row_values (s : model_based_opt) :
    s.new_row.1.m_var2value = s.m_var2value ∧ s.new_row.1.m_var2is_int = s.m_var2is_int := by
  unfold new_row
  cases s.m_retired_rows.getLast? with
  | none => exact ⟨rfl, rfl⟩
  | some k => exact ⟨rfl, rfl⟩

theorem eval_congr (s t : model_based_opt) (h : t.m_var2value = s.m_var2value) :
    t.eval = s.eval := by
  funext v
  unfold eval
  rw [h]

/-- The rows and values after `add_divides`: the variable values are unchanged, and a row
that became live is the divisibility row `m | coeffs + c` with its evaluation as cached
value. -/
theorem add_divides_rows (s : model_based_opt) (coeffs : List var) (c m : ℚ)
    (hwf : store_wf s) (hs : sorted_ids coeffs) :
    (s.add_divides coeffs c m).m_var2value = s.m_var2value ∧
    (s.add_divides coeffs c m).m_var2is_int = s.m_var2is_int ∧
    ∀ j, (s.get_row j).m_alive = false → ((s.add_divides coeffs c m).get_row j).m_alive = true →
      ((s.add_divides coeffs c m).get_row j).m_vars = coeffs ∧
      ((s.add_divides coeffs c m).get_row j).m_coeff = c ∧
      ((s.add_divides coeffs c m).get_row j).m_mod = m ∧
      ((s.add_divides coeffs c m).get_row j).m_type = ineq_type.t_divides ∧
      ((s.add_divides coeffs c m).get_row j).m_value = c + sum_vars s.eval coeffs := by
  have triv : ∀ j, (s.get_row j).m_alive = false → (s.get_row j).m_alive = true →
      (s.get_row j).m_vars = coeffs ∧ (s.get_row j).m_coeff = c ∧ (s.get_row j).m_mod = m ∧
      (s.get_row j).m_type = ineq_type.t_divides ∧
      (s.get_row j).m_value = c + sum_vars s.eval coeffs := by
    intro j h1 h2
    rw [h1] at h2
    simp at h2
  unfold add_divides
  dsimp only
  split
  · exact ⟨rfl, rfl, triv⟩
  · unfold add_constraint5
    dsimp only
    split
    · exact ⟨rfl, rfl, triv⟩
    · obtain ⟨hdead, hother, hvars, hlt, -⟩ := new_row_spec s hwf
      obtain ⟨hv0, hi0⟩ := new_row_values s
      have hrow : (s.new_row.1.set_row s.new_row.2 coeffs c m ineq_type.t_divides).get_row
          s.new_row.2 =
          { s.new_row.1.get_row s.new_row.2 with
            m_vars := sort_vars ((s.new_row.1.get_row s.new_row.2).m_vars ++ coeffs),
            m_alive := true,
            m_coeff := c,
            m_value := coeffs.foldl (fun val v => val + s.new_row.1.eval v.m_id * v.m_coeff) c,
            m_type := ineq_type.t_divides,
            m_mod := m } := by
        unfold set_row
        rw [get_row_put_row_eq _ _ _ hlt]
        simp
      have se1 := same_except_set_row s.new_row.1 s.new_row.2 coeffs c m ineq_type.t_divides
      generalize s.new_row.1.set_row s.new_row.2 coeffs c m ineq_type.t_divides = t1
        at hrow se1
      have hlt1 : s.new_row.2 < t1.m_rows.length := by rw [se1.2.2.2]; exact hlt
      have se2 := same_except_put_row t1 s.new_row.2 { t1.get_row s.new_row.2 with m_id := 0 }
      have hr2 := get_row_put_row_eq t1 s.new_row.2 { t1.get_row s.new_row.2 with m_id := 0 }
        hlt1
      generalize t1.put_row s.new_row.2 { t1.get_row s.new_row.2 with m_id := 0 } = t2
        at se2 hr2
      have se3 := same_except_foldl_push_var s.new_row.2 s.new_row.2 coeffs t2
      have hr3 : (coeffs.foldl (fun st v => st.push_row_id v.m_id s.new_row.2) t2).get_row
          s.new_row.2 = t2.get_row s.new_row.2 :=
        get_row_congr _ _ (foldl_push_var_fields s.new_row.2 coeffs t2).1 _
      generalize coeffs.foldl (fun st v => st.push_row_id v.m_id s.new_row.2) t2 = t3
        at se3 hr3
      have se4 := same_except_normalize t3 s.new_row.2
      have se := same_except_trans (same_except_trans (same_except_trans se1 se2) se3) se4
      refine ⟨se.2.1.trans hv0, se.2.2.1.trans hi0, ?_⟩
      intro j hd ha
      by_cases hjk : j = s.new_row.2
      · rw [hjk] at ha ⊢
        have hrow3 : t3.get_row s.new_row.2 =
            { m_vars := coeffs, m_coeff := c, m_mod := m, m_type := ineq_type.t_divides,
              m_value := c + sum_vars s.eval coeffs, m_alive := true, m_id := 0 } := by
          rw [hr3, hr2, hrow]
          simp only [hvars, List.nil_append, sort_vars_eq coeffs hs, foldl_set_row_value,
            eval_congr s s.new_row.1 hv0]
        rw [normalize_eq] at ha ⊢
        simp only [hrow3, Bool.not_true, Bool.false_eq_true, if_false, if_true] at ha ⊢
        by_cases he : coeffs.isEmpty = true
        · rw [if_pos he] at ha
          rw [retire_row_dead] at ha
          simp at ha
        · rw [if_neg he]
          rw [hrow3]
          exact ⟨rfl, rfl, rfl, rfl, rfl⟩
      · rw [se.1 j hjk, hother j hjk, hd] at ha
        simp at ha

/-! ### The cached value of the destination row -/

theorem val_track_start (t : Nat) (s : model_based_opt)
    (hal : (s.get_row t).m_alive = true) (hty : (s.get_row t).m_type = ineq_type.t_le)
    (hv : (s.get_row t).m_value = s.eval_row (s.get_row t)) :
    val_track t (s.get_row t).m_value s s :=
  ⟨rfl, by rw [hv, eval_row_lin], hty, rfl, rfl, alive_lt_length s t hal⟩

theorem val_track_rows {t : Nat} {v : ℚ} {s0 s u : model_based_opt}
    (h : val_track t v s0 s) (hr : u.get_row t = s.get_row t)
    (h1 : u.m_var2value = s.m_var2value) (h2 : u.m_var2is_int = s.m_var2is_int)
    (h3 : t < u.m_rows.length) : val_track t v s0 u := by
  unfold val_track
  rw [hr]
  exact ⟨h.1, h.2.1, h.2.2.1, h1.trans h.2.2.2.1, h2.trans h.2.2.2.2.1, h3⟩

theorem val_track_mul {t : Nat} {v : ℚ} {s0 s : model_based_opt}
    (h : val_track t v s0 s) (c : ℚ) : val_track t (v * c) s0 (s.mul t c) := by
  obtain ⟨m1, m2, -, -, m5⟩ := mul_lin s t c h.2.2.2.2.2
  have se := same_except_mul s t c
  have hv := m2 (by rw [h.2.2.1]; simp) (by rw [h.2.2.1]; simp)
  refine ⟨by rw [hv, h.1], by rw [hv, m1, h.2.1], by rw [m5]; exact h.2.2.1,
    se.2.1.trans h.2.2.2.1, se.2.2.1.trans h.2.2.2.2.1, by rw [se.2.2.2]; exact h.2.2.2.2.2⟩

theorem val_track_add {t : Nat} {v : ℚ} {s0 s : model_based_opt}
    (h : val_track t v s0 s) (c : ℚ) : val_track t (v + c) s0 (s.add t c) := by
  obtain ⟨a1, a2, -, -, a5, -⟩ := add_lin s t c h.2.2.2.2.2
  have se := same_except_add s t c
  refine ⟨by rw [a2, h.1], by rw [a2, a1, h.2.1], by rw [a5]; exact h.2.2.1,
    se.2.1.trans h.2.2.2.1, se.2.2.1.trans h.2.2.2.2.1, by rw [se.2.2.2]; exact h.2.2.2.2.2⟩

theorem val_track_mul_add {t : Nat} {v : ℚ} {s0 s : model_based_opt}
    (h : val_track t v s0 s) (c : ℚ) (src : Nat)
    (hsrc : s.get_row src = s0.get_row src)
    (hty : (s0.get_row src).m_type = ineq_type.t_le)
    (hv : (s0.get_row src).m_value = s0.eval_row (s0.get_row src)) :
    val_track t (v + c * (s0.get_row src).m_value) s0 (s.mul_add false t c src) := by
  obtain ⟨m1, m2, -, -, -, m6, m7⟩ := mul_add_lin s false t c src h.2.2.2.2.2
  have se := same_except_mul_add s false t c src
  have hlin : lin (s0.get_row src) s0.eval = (s0.get_row src).m_value := by
    rw [hv, eval_row_lin]
  refine ⟨by rw [m2, h.1, hsrc], by rw [m2, m1, h.2.1, hsrc, hlin], ?_,
    se.2.1.trans h.2.2.2.1, se.2.2.1.trans h.2.2.2.2.1, by rw [se.2.2.2]; exact h.2.2.2.2.2⟩
  by_cases hc : c = 0
  · rw [m7 hc]; exact h.2.2.1
  · rw [m6 hc, hsrc, hty, h.2.2.1]
    simp

/-! ### The fallback of the integer resolution -/

theorem fallback_assemble (x : Nat) (s D t : model_based_opt) (dst : Nat)
    (hdst : (s.get_row dst).m_alive = true)
    (hD : D.m_var2value = s.m_var2value ∧ D.m_var2is_int = s.m_var2is_int ∧
      ∀ j, (s.get_row j).m_alive = false → (D.get_row j).m_alive = true →
        (D.get_row j).m_type = ineq_type.t_divides)
    (hfin : dst_state x dst 0 s t) (se : same_except dst D t) :
    t.m_var2value = s.m_var2value ∧ t.m_var2is_int = s.m_var2is_int ∧
    (∀ j, j ≠ dst → (s.get_row j).m_alive = true → t.get_row j = s.get_row j) ∧
    (∀ j, (s.get_row j).m_alive = false → (t.get_row j).m_alive = true →
      (t.get_row j).m_type = ineq_type.t_divides ∧ t.get_coefficient j x = 0) ∧
    (t.get_row dst).m_alive = true ∧ t.get_coefficient dst x = 0 := by
  refine ⟨se.2.1.trans hD.1, se.2.2.1.trans hD.2.1, hfin.1.2.1, ?_, hfin.2.1, hfin.2.2⟩
  intro j hd ha
  have hj : j ≠ dst := by
    intro h
    rw [h, hdst] at hd
    simp at hd
  refine ⟨?_, hfin.1.2.2.1 j hj hd ha⟩
  rw [se.1 j hj] at ha ⊢
  exact hD.2.2 j hd ha

theorem ops_type_le (u : model_based_opt) (t src : Nat) (c1 c2 c3 : ℚ) (hne : src ≠ t)
    (hlt : t < u.m_rows.length) (h1 : (u.get_row t).m_type = ineq_type.t_le)
    (h2 : (u.get_row src).m_type = ineq_type.t_le) :
    ((((u.add t c1).mul t c2).mul_add false t c3 src).get_row t).m_type = ineq_type.t_le ∧
    ((((u.mul t c1).add t c2).mul_add false t c3 src).get_row t).m_type = ineq_type.t_le := by
  have key : ∀ w : model_based_opt, t < w.m_rows.length →
      (w.get_row t).m_type = ineq_type.t_le → (w.get_row src).m_type = ineq_type.t_le →
      ((w.mul_add false t c3 src).get_row t).m_type = ineq_type.t_le := by
    intro w hw g1 g2
    obtain ⟨-, -, -, -, -, m6, m7⟩ := mul_add_lin w false t c3 src hw
    by_cases hc : c3 = 0
    · rw [m7 hc]; exact g1
    · rw [m6 hc, g1, g2]; simp
  have sa := same_except_add u t c1
  have sm := same_except_mul (u.add t c1) t c2
  have sm2 := same_except_mul u t c1
  have sa2 := same_except_add (u.mul t c1) t c2
  have la : t < (u.add t c1).m_rows.length := by rw [sa.2.2.2]; exact hlt
  have lm : t < (u.mul t c1).m_rows.length := by rw [sm2.2.2.2]; exact hlt
  refine ⟨key _ (by rw [sm.2.2.2]; exact la) ?_ ?_, key _ (by rw [sa2.2.2.2]; exact lm) ?_ ?_⟩
  · rw [(mul_lin (u.add t c1) t c2 la).2.2.2.2, (add_lin u t c1 hlt).2.2.2.2.1]; exact h1
  · rw [sm.1 src hne, sa.1 src hne]; exact h2
  · rw [(add_lin (u.mul t c1) t c2 lm).2.2.2.2.1, (mul_lin u t c1 hlt).2.2.2.2]; exact h1
  · rw [sa2.1 src hne, sm2.1 src hne]; exact h2

/-- C25 (counterexample): on `fallback_store` the integer resolution of row 2 against row 1
on `x` takes the fallback (distance 2, coefficients -3 and 2): the variable table keeps its
two entries (no fresh variable), one divisibility row `2 | -y` is added as row 3, and row 2
becomes `-y + 2 <= 0`. -/
theorem mul_add_int_no_fresh_variable :
    ¬ use_case1 fallback_store 0 (-3) 1 2 2 ∧
    fallback_store.m_var2value.length = 2 ∧
    (fallback_store.mul_add_int 0 (-3) 1 2 2).m_var2value.length = 2 ∧
    (fallback_store.mul_add_int 0 (-3) 1 2 2).m_var2value = fallback_store.m_var2value ∧
    fallback_store.m_rows.length = 3 ∧
    (fallback_store.mul_add_int 0 (-3) 1 2 2).m_rows.length = 4 ∧
    (fallback_store.mul_add_int 0 (-3) 1 2 2).get_row 3 =
      { m_vars := [⟨1, -1⟩], m_coeff := 0, m_mod := 2, m_type := ineq_type.t_divides,
        m_value := -2, m_alive := true, m_id := 0 } ∧
    (fallback_store.mul_add_int 0 (-3) 1 2 2).get_row 2 =
      { m_vars := [⟨1, -1⟩], m_coeff := 2, m_mod := 0, m_type := ineq_type.t_le,
        m_value := 0, m_alive := true, m_id := 0 } := by
  decide!

/-- C25 (amended): in the integer resolution `mul_add(x, a1, row_src, a2, row_dst)` of two
distinct live rows of a well-formed store (`a1`, `a2` their coefficients on `x`), when
neither the non-positivity test nor a unit coefficient applies: no variable is introduced
(the variable values and integrality flags are unchanged; the residue is a constant
computed from the current assignment), every other live row is unchanged, every row that
becomes live is a divisibility row that does not mention `x` (the side-constraint emitted
by `add_divides`, which adds no row when the constraint is trivial), and `dst` stays live
with coefficient zero on `x`; it stays a non-strict inequality when both rows were
non-strict. -/
theorem mul_add_int_fallback (s : model_based_opt) (x src dst : Nat) (hwf : store_wf s)
    (hsrc : (s.get_row src).m_alive = true) (hdst : (s.get_row dst).m_alive = true)
    (hne : src ≠ dst)
    (hcase : ¬ use_case1 s x (s.get_coefficient src x) src (s.get_coefficient dst x) dst) :
    (s.mul_add_int x (s.get_coefficient src x) src (s.get_coefficient dst x) dst).m_var2value
      = s.m_var2value ∧
    (s.mul_add_int x (s.get_coefficient src x) src (s.get_coefficient dst x) dst).m_var2is_int
      = s.m_var2is_int ∧
    (∀ j, j ≠ dst → (s.get_row j).m_alive = true →
      (s.mul_add_int x (s.get_coefficient src x) src (s.get_coefficient dst x) dst).get_row j
        = s.get_row j) ∧
    (∀ j, (s.get_row j).m_alive = false →
      ((s.mul_add_int x (s.get_coefficient src x) src (s.get_coefficient dst x) dst).get_row
        j).m_alive = true →
      ((s.mul_add_int x (s.get_coefficient src x) src (s.get_coefficient dst x) dst).get_row
        j).m_type = ineq_type.t_divides ∧
      (s.mul_add_int x (s.get_coefficient src x) src (s.get_coefficient dst x)
        dst).get_coefficient j x = 0) ∧
    ((s.mul_add_int x (s.get_coefficient src x) src (s.get_coefficient dst x) dst).get_row
      dst).m_alive = true ∧
    (s.mul_add_int x (s.get_coefficient src x) src (s.get_coefficient dst x)
      dst).get_coefficient dst x = 0 ∧
    ((s.get_row src).m_type = ineq_type.t_le → (s.get_row dst).m_type = ineq_type.t_le →
      ((s.mul_add_int x (s.get_coefficient src x) src (s.get_coefficient dst x) dst).get_row
        dst).m_type = ineq_type.t_le) := by
  rw [mul_add_int_fallback_eq _ _ _ _ _ _ hcase]
  have h0 := dst_state_start x dst s hwf hdst
  have hlt := alive_lt_length s dst hdst
  have main : ∀ (coeffs : List var) (c m : ℚ), sorted_ids coeffs →
      (∀ t ∈ coeffs, t.m_id ≠ x) →
      ∀ t : model_based_opt, same_except dst (s.add_divides coeffs c m) t →
      (dst_state x dst (s.get_coefficient dst x) s (s.add_divides coeffs c m) →
        dst_state x dst 0 s t) →
      (((s.add_divides coeffs c m).get_row dst).m_type = ineq_type.t_le →
        ((s.add_divides coeffs c m).get_row src).m_type = ineq_type.t_le →
        dst < (s.add_divides coeffs c m).m_rows.length →
        (t.get_row dst).m_type = ineq_type.t_le) →
      t.m_var2value = s.m_var2value ∧ t.m_var2is_int = s.m_var2is_int ∧
      (∀ j, j ≠ dst → (s.get_row j).m_alive = true → t.get_row j = s.get_row j) ∧
      (∀ j, (s.get_row j).m_alive = false → (t.get_row j).m_alive = true →
        (t.get_row j).m_type = ineq_type.t_divides ∧ t.get_coefficient j x = 0) ∧
      (t.get_row dst).m_alive = true ∧ t.get_coefficient dst x = 0 ∧
      ((s.get_row src).m_type = ineq_type.t_le → (s.get_row dst).m_type = ineq_type.t_le →
        (t.get_row dst).m_type = ineq_type.t_le) := by
    intro coeffs c m hs hx t se hst hty
    obtain ⟨Fd, -⟩ := frame_add_divides x s coeffs c m hwf hs hx
    obtain ⟨dv, di, drow⟩ := add_divides_rows s coeffs c m hwf hs
    have hD := dst_state_frame h0 Fd
    obtain ⟨r1, r2, r3, r4, r5, r6⟩ := fallback_assemble x s _ t dst hdst
      ⟨dv, di, fun j hd ha => (drow j hd ha).2.2.2.1⟩ (hst hD) se
    refine ⟨r1, r2, r3, r4, r5, r6, ?_⟩
    intro t1 t2
    apply hty
    · rw [Fd.2.1 dst (fun h => h) hdst]; exact t2
    · rw [Fd.2.1 src (fun h => h) hsrc]; exact t1
    · exact alive_lt_length _ _ hD.2.1
  split
  · have hc := mk_coeffs_without_spec (s.get_row dst).m_vars x (hwf.2.2 dst hdst)
    refine main _ ((s.get_row dst).m_coeff +
        int_residue ((s.get_row dst).m_value - s.eval x * s.get_coefficient dst x)
          |s.get_coefficient dst x|) |s.get_coefficient dst x| hc.1 hc.2 _ ?h1 ?h2 ?h3
    case h1 =>
      exact same_except_trans (same_except_trans (same_except_add _ _ _)
        (same_except_mul _ _ _)) (same_except_mul_add _ _ _ _ _)
    case h2 =>
      intro hD
      exact dst_state_cast
        (dst_state_mul_add (dst_state_mul (dst_state_add hD _) _) false _ src hne hsrc)
        (n_sign_cancel_dst _ _)
    case h3 =>
      intro g1 g2 g3
      exact (ops_type_le _ dst src _ _ _ hne g3 g1 g2).1
  · have hc := mk_coeffs_without_spec (s.get_row src).m_vars x (hwf.2.2 src hsrc)
    refine main _ ((s.get_row src).m_coeff +
        int_residue ((s.get_row src).m_value - s.eval x * s.get_coefficient src x)
          |s.get_coefficient src x|) |s.get_coefficient src x| hc.1 hc.2 _ ?h1 ?h2 ?h3
    case h1 =>
      exact same_except_trans (same_except_trans (same_except_mul _ _ _)
        (same_except_add _ _ _)) (same_except_mul_add _ _ _ _ _)
    case h2 =>
      intro hD
      exact dst_state_cast
        (dst_state_mul_add (dst_state_add (dst_state_mul hD _) _) false _ src hne hsrc)
        (n_sign_cancel_src _ _)
    case h3 =>
      intro g1 g2 g3
      exact (ops_type_le _ dst src _ _ _ hne g3 g1 g2).2

/-- Witness of C25 (amended): the fallback on `fallback_store`. -/
theorem mul_add_int_fallback_witness :
    (fallback_store.mul_add_int 0 (fallback_store.get_coefficient 1 0) 1
      (fallback_store.get_coefficient 2 0) 2).m_var2value = fallback_store.m_var2value :=
  (mul_add_int_fallback fallback_store 0 1 2
    (store_wf_of_rows _ (by decide!) (by decide!) (by simp only [sorted_ids]; decide!))
    (by decide!) (by decide!) (by decide) (by decide!)).1

/-! ### Integer arithmetic of the residue -/

theorem mod_int_cast (a d : ℤ) : mod (a : ℚ) (d : ℚ) = ((a % d : ℤ) : ℚ) := by
  unfold mod
  simp

theorem dvd_round (n m z d : ℤ) (hd : 0 < d) (hz : z < d) (hm : d ∣ m)
    (hn : d ∣ n + z) (h : m + n ≤ 0) : m + n + z ≤ 0 := by
  have hdvd : d ∣ m + n + z := by
    have := dvd_add hm hn
    rwa [← add_assoc] at this
  obtain ⟨k, hk⟩ := hdvd
  have hlt : d * k < d * 1 := by
    rw [← hk]; omega
  have hk1 : k < 1 := lt_of_mul_lt_mul_left hlt (le_of_lt hd)
  have hk0 : k ≤ 0 := by omega
  rw [hk]
  exact mul_nonpos_of_nonneg_of_nonpos (le_of_lt hd) hk0

theorem int_residue_int (n d : ℤ) (hd : 0 < d) :
    ∃ z : ℤ, int_residue (n : ℚ) (d : ℚ) = z ∧ 0 ≤ z ∧ z < d ∧ d ∣ n + z := by
  unfold int_residue
  rw [mod_int_cast]
  by_cases h : n % d = 0
  · refine ⟨0, ?_, le_refl _, hd, ?_⟩
    · simp [h]
    · simpa using Int.dvd_of_emod_eq_zero h
  · refine ⟨d - n % d, ?_, ?_, ?_, ?_⟩
    · have : ((n % d : ℤ) : ℚ) ≠ 0 := by exact_mod_cast h
      rw [if_pos this]
      push_cast
      ring
    · have := Int.emod_lt_of_pos n hd
      omega
    · have := Int.emod_nonneg n (ne_of_gt hd)
      omega
    · have e : n + (d - n % d) = d + (n - n % d) := by ring
      rw [e]
      exact dvd_add (dvd_refl d) (Int.dvd_sub_of_emod_eq rfl)

/-- The residue added to a satisfied integer row keeps it satisfied and makes the part
without `x` divisible by `|a|`. -/
theorem residue_round (v xv a : ℚ) (hv : is_int_q v = true) (hx : is_int_q xv = true)
    (ha : is_int_q a = true) (ha0 : a ≠ 0) (hle : v ≤ 0) :
    v + int_residue (v - xv * a) |a| ≤ 0 ∧ 0 ≤ int_residue (v - xv * a) |a| ∧
    mod ((v - xv * a) + int_residue (v - xv * a) |a|) |a| = 0 := by
  obtain ⟨vn, rfl⟩ := (is_int_q_iff v).mp hv
  obtain ⟨xn, rfl⟩ := (is_int_q_iff xv).mp hx
  obtain ⟨an, rfl⟩ := (is_int_q_iff a).mp ha
  have han : an ≠ 0 := by exact_mod_cast ha0
  have hd : 0 < |an| := abs_pos.mpr han
  have e1 : ((vn : ℚ) - xn * an) = ((vn - xn * an : ℤ) : ℚ) := by push_cast; ring
  have e2 : |(an : ℚ)| = ((|an| : ℤ) : ℚ) := by push_cast; rfl
  rw [e1, e2]
  obtain ⟨z, hz, hz0, hzd, hdvd⟩ := int_residue_int (vn - xn * an) |an| hd
  rw [hz]
  have hm : |an| ∣ xn * an := Dvd.dvd.mul_left ((abs_dvd an an).mpr (dvd_refl an)) xn
  have hr := dvd_round (vn - xn * an) (xn * an) z |an| hd hzd hm hdvd
    (by have : (vn : ℤ) ≤ 0 := by exact_mod_cast hle
        omega)
  refine ⟨?_, by exact_mod_cast hz0, ?_⟩
  · have : (vn : ℤ) + z ≤ 0 := by omega
    exact_mod_cast this
  · have e3 : ((vn - xn * an : ℤ) : ℚ) + (z : ℚ) = ((vn - xn * an + z : ℤ) : ℚ) := by
      push_cast; ring
    rw [e3, mod_int_cast]
    have := Int.emod_eq_zero_of_dvd hdvd
    exact_mod_cast this

theorem opposite_signs (a1 a2 : ℚ) (h : a1 * a2 < 0) :
    a1 ≠ 0 ∧ a2 ≠ 0 ∧ (decide (0 < a1) != decide (0 < a2)) = true ∧
    a1 * n_sign a2 = |a1| ∧ a2 * n_sign a1 = |a2| := by
  have h1 : a1 ≠ 0 := fun h0 => by rw [h0] at h; simp at h
  have h2 : a2 ≠ 0 := fun h0 => by rw [h0] at h; simp at h
  unfold n_sign
  rcases lt_or_gt_of_ne h1 with g1 | g1
  · have g2 : 0 < a2 := by
      by_contra hc
      have : 0 ≤ a1 * a2 := mul_nonneg_of_nonpos_of_nonpos (le_of_lt g1) (not_lt.mp hc)
      linarith
    refine ⟨h1, h2, by simp [g2, not_lt.mpr (le_of_lt g1)], ?_, ?_⟩
    · rw [if_pos g2, abs_of_neg g1]; ring
    · rw [if_neg (not_lt.mpr (le_of_lt g1)), abs_of_pos g2]; ring
  · have g2 : a2 < 0 := by
      by_contra hc
      have : 0 ≤ a1 * a2 := mul_nonneg (le_of_lt g1) (not_lt.mp hc)
      linarith
    refine ⟨h1, h2, by simp [g1, not_lt.mpr (le_of_lt g2)], ?_, ?_⟩
    · rw [if_neg (not_lt.mpr (le_of_lt g2)), abs_of_pos g1]; ring
    · rw [if_pos g1, abs_of_neg g2]; ring

/-- The facts used about a satisfied integer row `r` with a term on `x`. -/
theorem int_row_facts (s : model_based_opt) (r : row) (x : Nat)
    (hs : sorted_ids r.m_vars) (ha : r.get_coefficient x ≠ 0)
    (hint : ∀ v ∈ r.m_vars, is_int_q v.m_coeff = true ∧ is_int_q (s.eval v.m_id) = true)
    (hc : is_int_q r.m_coeff = true) :
    is_int_q (lin r s.eval) = true ∧ is_int_q (s.eval x) = true ∧
    is_int_q (r.get_coefficient x) = true ∧
    ∀ z : ℚ, r.m_coeff + z + sum_vars s.eval (mk_coeffs_without r.m_vars x)
      = (lin r s.eval - s.eval x * r.get_coefficient x) + z := by
  obtain ⟨v, hvm, hvx, hvc⟩ := get_coefficient_mem r x ha
  refine ⟨?_, ?_, ?_, ?_⟩
  · rw [lin_eq]
    exact is_int_q_add _ _ hc
      (is_int_q_sum_vars s.eval r.m_vars (fun v hv => (hint v hv).1) (fun v hv => (hint v hv).2))
  · rw [← hvx]; exact (hint v hvm).2
  · rw [← hvc]; exact (hint v hvm).1
  · intro z
    rw [lin_eq, sum_vars_split s.eval x r.m_vars (sorted_ids_nodup _ hs),
      row_get_coefficient_eq r x hs]
    unfold mk_coeffs_without
    ring

/-! ### Soundness of the integer resolution at the current assignment -/

theorem dst_finish (x dst : Nat) (v : ℚ) (s t : model_based_opt)
    (hd : dst_state x dst 0 s t) (hw : val_track dst v s t) (hv : v ≤ 0) :
    t.get_coefficient dst x = 0 ∧
    (t.get_row dst).m_value = t.eval_row (t.get_row dst) ∧ (t.get_row dst).m_value ≤ 0 := by
  refine ⟨hd.2.2, ?_, by rw [hw.1]; exact hv⟩
  rw [eval_row_lin, eval_congr s t hw.2.2.2.1]
  exact hw.2.1

/-- C26: for two distinct live non-strict rows `src`, `dst` of a well-formed store, with
integer coefficients and constants, whose coefficients `a1`, `a2` on `x` have opposite
signs, whose cached values are their evaluations and are `<= 0` at the integer-valued
current assignment: after the integer resolution `mul_add(x, a1, src, a2, dst)`, on every
path, `dst` has coefficient zero on `x`, its cached value equals its evaluation and is
`<= 0`, and every row that became live is a divisibility row whose cached value is its
evaluation and is divisible by its modulus. -/
theorem mul_add_int_sound (s : model_based_opt) (x src dst : Nat) (hwf : store_wf s)
    (hsrc : (s.get_row src).m_alive = true) (hdst : (s.get_row dst).m_alive = true)
    (hne : src ≠ dst)
    (hty1 : (s.get_row src).m_type = ineq_type.t_le)
    (hty2 : (s.get_row dst).m_type = ineq_type.t_le)
    (hop : s.get_coefficient src x * s.get_coefficient dst x < 0)
    (hv1 : (s.get_row src).m_value = s.eval_row (s.get_row src))
    (hv2 : (s.get_row dst).m_value = s.eval_row (s.get_row dst))
    (hsat1 : (s.get_row src).m_value ≤ 0) (hsat2 : (s.get_row dst).m_value ≤ 0)
    (hint1 : ∀ v ∈ (s.get_row src).m_vars,
      is_int_q v.m_coeff = true ∧ is_int_q (s.eval v.m_id) = true)
    (hc1 : is_int_q (s.get_row src).m_coeff = true)
    (hint2 : ∀ v ∈ (s.get_row dst).m_vars,
      is_int_q v.m_coeff = true ∧ is_int_q (s.eval v.m_id) = true)
    (hc2 : is_int_q (s.get_row dst).m_coeff = true) :
    (s.mul_add_int x (s.get_coefficient src x) src (s.get_coefficient dst x)
      dst).get_coefficient dst x = 0 ∧
    ((s.mul_add_int x (s.get_coefficient src x) src (s.get_coefficient dst x) dst).get_row
      dst).m_value =
      (s.mul_add_int x (s.get_coefficient src x) src (s.get_coefficient dst x) dst).eval_row
        ((s.mul_add_int x (s.get_coefficient src x) src (s.get_coefficient dst x)
          dst).get_row dst) ∧
    ((s.mul_add_int x (s.get_coefficient src x) src (s.get_coefficient dst x) dst).get_row
      dst).m_value ≤ 0 ∧
    ∀ j, (s.get_row j).m_alive = false →
      ((s.mul_add_int x (s.get_coefficient src x) src (s.get_coefficient dst x) dst).get_row
        j).m_alive = true →
      ((s.mul_add_int x (s.get_coefficient src x) src (s.get_coefficient dst x) dst).get_row
        j).m_type = ineq_type.t_divides ∧
      ((s.mul_add_int x (s.get_coefficient src x) src (s.get_coefficient dst x) dst).get_row
        j).m_value =
        (s.mul_add_int x (s.get_coefficient src x) src (s.get_coefficient dst x)
          dst).eval_row
          ((s.mul_add_int x (s.get_coefficient src x) src (s.get_coefficient dst x)
            dst).get_row j) ∧
      mod ((s.mul_add_int x (s.get_coefficient src x) src (s.get_coefficient dst x)
          dst).get_row j).m_value
        ((s.mul_add_int x (s.get_coefficient src x) src (s.get_coefficient dst x)
          dst).get_row j).m_mod = 0 := by
  obtain ⟨ha1, ha2, hsgn, hn1, hn2⟩ := opposite_signs _ _ hop
  have h0 := dst_state_start x dst s hwf hdst
  have w0 := val_track_start dst s hdst hty2 hv2
  have hlin1 : lin (s.get_row src) s.eval = (s.get_row src).m_value := by
    rw [hv1, eval_row_lin]
  have hlin2 : lin (s.get_row dst) s.eval = (s.get_row dst).m_value := by
    rw [hv2, eval_row_lin]
  obtain ⟨i1, ix1, ia1, iz1⟩ := int_row_facts s (s.get_row src) x (hwf.2.2 src hsrc) ha1
    hint1 hc1
  obtain ⟨i2, ix2, ia2, iz2⟩ := int_row_facts s (s.get_row dst) x (hwf.2.2 dst hdst) ha2
    hint2 hc2
  rw [hlin1] at i1 iz1
  rw [hlin2] at i2 iz2
  -- rows added by `add_divides` on the part without `x` of a row `r` with residue `z`
  have added : ∀ (r : row) (z : ℚ) (t : model_based_opt),
      sorted_ids r.m_vars →
      same_except dst (s.add_divides (mk_coeffs_without r.m_vars x) (r.m_coeff + z)
        |r.get_coefficient x|) t →
      mod (r.m_coeff + z + sum_vars s.eval (mk_coeffs_without r.m_vars x))
        |r.get_coefficient x| = 0 →
      ∀ j, (s.get_row j).m_alive = false → (t.get_row j).m_alive = true →
        (t.get_row j).m_type = ineq_type.t_divides ∧
        (t.get_row j).m_value = t.eval_row (t.get_row j) ∧
        mod (t.get_row j).m_value (t.get_row j).m_mod = 0 := by
    intro r z t hs se hmod j hd ha
    have hj : j ≠ dst := by
      intro h
      rw [h, hdst] at hd
      simp at hd
    obtain ⟨dv, -, drow⟩ := add_divides_rows s (mk_coeffs_without r.m_vars x) (r.m_coeff + z)
      |r.get_coefficient x| hwf (mk_coeffs_without_spec r.m_vars x hs).1
    rw [se.1 j hj] at ha ⊢
    obtain ⟨f1, f2, f3, f4, f5⟩ := drow j hd ha
    refine ⟨f4, ?_, ?_⟩
    · rw [eval_row_eq, f5, f1, f2, eval_congr s t (se.2.1.trans dv)]
    · rw [f5, f3]
      exact hmod
  by_cases hcase : use_case1 s x (s.get_coefficient src x) src (s.get_coefficient dst x) dst
  · rw [mul_add_int_case1 _ _ _ _ _ _ hcase]
    have se12 := same_except_trans (same_except_mul s dst |s.get_coefficient src x|)
      (same_except_add _ dst (int_slack (s.get_coefficient src x) (s.get_coefficient dst x)))
    have se := same_except_trans se12 (same_except_mul_add _ false dst
      |s.get_coefficient dst x| src)
    have D := dst_state_cast
      (dst_state_mul_add (dst_state_add (dst_state_mul h0 |s.get_coefficient src x|)
        (int_slack (s.get_coefficient src x) (s.get_coefficient dst x))) false
        |s.get_coefficient dst x| src hne hsrc)
      (abs_cancel_diff _ _ hsgn)
    have W := val_track_mul_add (val_track_add (val_track_mul w0 |s.get_coefficient src x|)
      (int_slack (s.get_coefficient src x) (s.get_coefficient dst x)))
      |s.get_coefficient dst x| src (se12.1 src hne) hty1 hv1
    have hz := abs_cancel_diff _ _ hsgn
    have hle : (s.get_row dst).m_value * |s.get_coefficient src x|
        + int_slack (s.get_coefficient src x) (s.get_coefficient dst x)
        + |s.get_coefficient dst x| * (s.get_row src).m_value ≤ 0 := by
      rcases hcase with hd | hu | hu
      · have e : (s.get_row dst).m_value * |s.get_coefficient src x|
            + int_slack (s.get_coefficient src x) (s.get_coefficient dst x)
            + |s.get_coefficient dst x| * (s.get_row src).m_value
            = int_distance s x (s.get_coefficient src x) src (s.get_coefficient dst x) dst
              + s.eval x * (s.get_coefficient dst x * |s.get_coefficient src x|
                + |s.get_coefficient dst x| * s.get_coefficient src x) := by
          unfold int_distance
          ring
        rw [e, hz]
        linarith
      · have e0 : int_slack (s.get_coefficient src x) (s.get_coefficient dst x) = 0 := by
          unfold int_slack; rw [hu]; ring
        rw [e0, hu]
        have := mul_nonpos_of_nonneg_of_nonpos (abs_nonneg (s.get_coefficient dst x)) hsat1
        linarith
      · have e0 : int_slack (s.get_coefficient src x) (s.get_coefficient dst x) = 0 := by
          unfold int_slack; rw [hu]; ring
        rw [e0, hu]
        have := mul_nonpos_of_nonpos_of_nonneg hsat2 (abs_nonneg (s.get_coefficient src x))
        linarith
    obtain ⟨r1, r2, r3⟩ := dst_finish x dst _ s _ D W hle
    refine ⟨r1, r2, r3, ?_⟩
    intro j hd ha
    have hj : j ≠ dst := by
      intro h
      rw [h, hdst] at hd
      simp at hd
    rw [se.1 j hj, hd] at ha
    simp at ha
  · rw [mul_add_int_fallback_eq _ _ _ _ _ _ hcase]
    split
    · obtain ⟨z1, z2, z3⟩ := residue_round (s.get_row dst).m_value (s.eval x)
        (s.get_coefficient dst x) i2 ix2 ia2 ha2 hsat2
      obtain ⟨z, hz⟩ : ∃ z, z = int_residue
          ((s.get_row dst).m_value - s.eval x * s.get_coefficient dst x)
          |s.get_coefficient dst x| := ⟨_, rfl⟩
      rw [← hz] at z1 z2 z3 ⊢
      have hc := mk_coeffs_without_spec (s.get_row dst).m_vars x (hwf.2.2 dst hdst)
      obtain ⟨Fd, -⟩ := frame_add_divides x s (mk_coeffs_without (s.get_row dst).m_vars x)
        ((s.get_row dst).m_coeff + z) |s.get_coefficient dst x| hwf hc.1 hc.2
      obtain ⟨dv, di, -⟩ := add_divides_rows s (mk_coeffs_without (s.get_row dst).m_vars x)
        ((s.get_row dst).m_coeff + z) |s.get_coefficient dst x| hwf hc.1
      have hadd := added (s.get_row dst) z
      obtain ⟨D0, hD0⟩ : ∃ D0, D0 = s.add_divides
          (mk_coeffs_without (s.get_row dst).m_vars x) ((s.get_row dst).m_coeff + z)
          |s.get_coefficient dst x| := ⟨_, rfl⟩
      have hadd2 : ∀ t, same_except dst D0 t →
          ∀ j, (s.get_row j).m_alive = false → (t.get_row j).m_alive = true →
          (t.get_row j).m_type = ineq_type.t_divides ∧
          (t.get_row j).m_value = t.eval_row (t.get_row j) ∧
          mod (t.get_row j).m_value (t.get_row j).m_mod = 0 := by
        intro t se
        rw [hD0] at se
        exact hadd t (hwf.2.2 dst hdst) se (by rw [iz2]; exact z3)
      rw [← hD0] at Fd dv di ⊢
      have hD := dst_state_frame h0 Fd
      have wD := val_track_rows w0 (Fd.2.1 dst (fun h => h) hdst) dv di
        (alive_lt_length _ _ hD.2.1)
      have se12 := same_except_trans (same_except_add D0 dst z)
        (same_except_mul _ dst (s.get_coefficient src x * n_sign (s.get_coefficient dst x)))
      have se := same_except_trans se12 (same_except_mul_add _ false dst
        |s.get_coefficient dst x| src)
      have D := dst_state_cast
        (dst_state_mul_add (dst_state_mul (dst_state_add hD z)
          (s.get_coefficient src x * n_sign (s.get_coefficient dst x))) false
          |s.get_coefficient dst x| src hne hsrc)
        (n_sign_cancel_dst _ _)
      have W := val_track_mul_add (val_track_mul (val_track_add wD z)
        (s.get_coefficient src x * n_sign (s.get_coefficient dst x)))
        |s.get_coefficient dst x| src
        (by rw [se12.1 src hne]; exact Fd.2.1 src (fun h => h) hsrc) hty1 hv1
      have hle : ((s.get_row dst).m_value + z)
          * (s.get_coefficient src x * n_sign (s.get_coefficient dst x))
          + |s.get_coefficient dst x| * (s.get_row src).m_value ≤ 0 := by
        rw [hn1]
        have p1 := mul_nonpos_of_nonpos_of_nonneg z1 (abs_nonneg (s.get_coefficient src x))
        have p2 := mul_nonpos_of_nonneg_of_nonpos (abs_nonneg (s.get_coefficient dst x)) hsat1
        linarith
      obtain ⟨r1, r2, r3⟩ := dst_finish x dst _ s _ D W hle
      exact ⟨r1, r2, r3, hadd2 _ se⟩
    · obtain ⟨z1, z2, z3⟩ := residue_round (s.get_row src).m_value (s.eval x)
        (s.get_coefficient src x) i1 ix1 ia1 ha1 hsat1
      obtain ⟨z, hz⟩ : ∃ z, z = int_residue
          ((s.get_row src).m_value - s.eval x * s.get_coefficient src x)
          |s.get_coefficient src x| := ⟨_, rfl⟩
      rw [← hz] at z1 z2 z3 ⊢
      have hc := mk_coeffs_without_spec (s.get_row src).m_vars x (hwf.2.2 src hsrc)
      obtain ⟨Fd, -⟩ := frame_add_divides x s (mk_coeffs_without (s.get_row src).m_vars x)
        ((s.get_row src).m_coeff + z) |s.get_coefficient src x| hwf hc.1 hc.2
      obtain ⟨dv, di, -⟩ := add_divides_rows s (mk_coeffs_without (s.get_row src).m_vars x)
        ((s.get_row src).m_coeff + z) |s.get_coefficient src x| hwf hc.1
      have hadd := added (s.get_row src) z
      obtain ⟨D0, hD0⟩ : ∃ D0, D0 = s.add_divides
          (mk_coeffs_without (s.get_row src).m_vars x) ((s.get_row src).m_coeff + z)
          |s.get_coefficient src x| := ⟨_, rfl⟩
      have hadd2 : ∀ t, same_except dst D0 t →
          ∀ j, (s.get_row j).m_alive = false → (t.get_row j).m_alive = true →
          (t.get_row j).m_type = ineq_type.t_divides ∧
          (t.get_row j).m_value = t.eval_row (t.get_row j) ∧
          mod (t.get_row j).m_value (t.get_row j).m_mod = 0 := by
        intro t se
        rw [hD0] at se
        exact hadd t (hwf.2.2 src hsrc) se (by rw [iz1]; exact z3)
      rw [← hD0] at Fd dv di ⊢
      have hD := dst_state_frame h0 Fd
      have wD := val_track_rows w0 (Fd.2.1 dst (fun h => h) hdst) dv di
        (alive_lt_length _ _ hD.2.1)
      have se12 := same_except_trans (same_except_mul D0 dst |s.get_coefficient src x|)
        (same_except_add _ dst (z * s.get_coefficient dst x
            * n_sign (s.get_coefficient src x)))
      have se := same_except_trans se12 (same_except_mul_add _ false dst
        (s.get_coefficient dst x * n_sign (s.get_coefficient src x)) src)
      have D := dst_state_cast
        (dst_state_mul_add (dst_state_add (dst_state_mul hD |s.get_coefficient src x|)
          (z * s.get_coefficient dst x * n_sign (s.get_coefficient src x))) false
          (s.get_coefficient dst x * n_sign (s.get_coefficient src x)) src hne hsrc)
        (n_sign_cancel_src _ _)
      have W := val_track_mul_add (val_track_add (val_track_mul wD |s.get_coefficient src x|)
        (z * s.get_coefficient dst x * n_sign (s.get_coefficient src x)))
        (s.get_coefficient dst x * n_sign (s.get_coefficient src x)) src
        (by rw [se12.1 src hne]; exact Fd.2.1 src (fun h => h) hsrc) hty1 hv1
      have hle : (s.get_row dst).m_value * |s.get_coefficient src x|
          + z * s.get_coefficient dst x * n_sign (s.get_coefficient src x)
          + s.get_coefficient dst x * n_sign (s.get_coefficient src x)
            * (s.get_row src).m_value ≤ 0 := by
        have e : (s.get_row dst).m_value * |s.get_coefficient src x|
            + z * s.get_coefficient dst x * n_sign (s.get_coefficient src x)
            + s.get_coefficient dst x * n_sign (s.get_coefficient src x)
              * (s.get_row src).m_value
            = (s.get_row dst).m_value * |s.get_coefficient src x|
              + (s.get_coefficient dst x * n_sign (s.get_coefficient src x))
                * ((s.get_row src).m_value + z) := by ring
        rw [e, hn2]
        have p1 := mul_nonpos_of_nonpos_of_nonneg hsat2 (abs_nonneg (s.get_coefficient src x))
        have p2 := mul_nonpos_of_nonneg_of_nonpos (abs_nonneg (s.get_coefficient dst x)) z1
        linarith
      obtain ⟨r1, r2, r3⟩ := dst_finish x dst _ s _ D W hle
      exact ⟨r1, r2, r3, hadd2 _ se⟩

/-- Witness of C26: the fallback path on `fallback_store` (rows `-3x + y + 1 <= 0` and
`2x - y <= 0` at `x = 1`, `y = 2`). -/
theorem mul_add_int_sound_witness :
    (fallback_store.mul_add_int 0 (fallback_store.get_coefficient 1 0) 1
      (fallback_store.get_coefficient 2 0) 2).get_coefficient 2 0 = 0 ∧
    ((fallback_store.mul_add_int 0 (fallback_store.get_coefficient 1 0) 1
      (fallback_store.get_coefficient 2 0) 2).get_row 2).m_value ≤ 0 :=
  have h := mul_add_int_sound fallback_store 0 1 2
    (store_wf_of_rows _ (by decide!) (by decide!) (by simp only [sorted_ids]; decide!))
    (by decide!) (by decide!) (by decide) (by decide!) (by decide!) (by decide!)
    (by decide!) (by decide!) (by decide!) (by decide!) (by decide!) (by decide!)
    (by decide!) (by decide!)
  ⟨h.1, h.2.2.1⟩

/-- C21 (failing input): on `int_eq_bound_store` the rows are satisfied by the stored
assignment and `maximize()` returns the finite non-strict value 15, leaving the values
`x = 15`, `y = 10`; the objective `x` evaluates to 15 there, but the row `x - 7 <= 0`,
live on entry, is violated. -/
theorem maximize_witness_violates_row :
    feasible int_eq_bound_store (assignment int_eq_bound_store) ∧
    int_eq_bound_store.get_row 2 =
      { m_vars := [⟨0, 1⟩], m_coeff := -7, m_mod := 0, m_type := ineq_type.t_le,
        m_value := -7, m_alive := true, m_id := 0 } ∧
    ∃ s1, maximize 5 int_eq_bound_store = some (s1, inf_eps.finite 15 0) ∧
      s1.m_var2value = [15, 10] ∧
      lin int_eq_bound_store.objective (assignment s1) = 15 ∧
      ¬ holds (int_eq_bound_store.get_row 2) (assignment s1) := by
  refine ⟨by decide!, by decide!,
    ((maximize 5 int_eq_bound_store).getD (init, inf_eps.infinity)).1, ?_⟩
  decide!

/-! ### The divisibility side-constraint of `solve_for` -/

theorem solve_for_int_split (s : model_based_opt) (i x : Nat) (cd : Bool)
    (hint : s.is_int x = true) (ha : solve_for_coeff s i x ≠ 1) :
    s.solve_for i x cd =
      solve_for_loop
        ((s.put_row i (solve_for_pivot s i x)).add_divides
          (mk_coeffs_without (solve_for_pivot s i x).m_vars x) (solve_for_residue s i x)
          (solve_for_coeff s i x))
        i (solve_for_coeff s i x) x cd := by
  unfold solve_for_coeff at ha
  unfold solve_for solve_for_loop solve_for_residue solve_for_pivot solve_for_coeff
  simp only [hint, ha, Bool.true_and, decide_False, Bool.not_false, if_true]

theorem eval_vars_eq (s : model_based_opt) (l : List var) :
    s.eval_vars l = sum_vars s.eval l := by
  unfold eval_vars sum_vars
  rw [foldl_add_eq_sum (fun v => v.m_coeff * s.eval v.m_id) l 0]
  ring

theorem is_int_q_neg (q : ℚ) (h : is_int_q q = true) : is_int_q (-q) = true := by
  obtain ⟨n, rfl⟩ := (is_int_q_iff q).mp h
  exact (is_int_q_iff _).mpr ⟨-n, by push_cast; ring⟩

/-- The gcd loop of `add_divides` on integer data: the result is an integer dividing the
constant and every coefficient. -/
theorem gcd_fold_dvd (l : List var) (hl : ∀ v ∈ l, is_int_q v.m_coeff = true) (C : ℤ) :
    ∃ N : ℤ, l.foldl (fun g v => gcd v.m_coeff g) (C : ℚ) = (N : ℚ) ∧ N ∣ C ∧
      ∀ v ∈ l, ∃ m : ℤ, v.m_coeff = ((N * m : ℤ) : ℚ) := by
  induction l generalizing C with
  | nil => exact ⟨C, rfl, dvd_refl C, fun v hv => absurd hv (List.not_mem_nil v)⟩
  | cons a l ih =>
    obtain ⟨A, hA⟩ := (is_int_q_iff a.m_coeff).mp (hl a (List.mem_cons_self _ _))
    rw [List.foldl_cons, hA, gcd_int]
    obtain ⟨N, h1, h2, h3⟩ := ih (fun v hv => hl v (List.mem_cons_of_mem _ hv))
      ((Int.gcd A C : ℕ) : ℤ)
    have e : (((Int.gcd A C : ℕ) : ℤ) : ℚ) = ((Int.gcd A C : ℕ) : ℚ) := by push_cast; rfl
    rw [e] at h1
    refine ⟨N, h1, dvd_trans h2 (Int.gcd_dvd_right), ?_⟩
    intro v hv
    rcases List.mem_cons.mp hv with rfl | hv
    · obtain ⟨m, hm⟩ := dvd_trans h2 (Int.gcd_dvd_left : ((Int.gcd A C : ℕ) : ℤ) ∣ A)
      exact ⟨m, by rw [hA, hm]⟩
    · exact h3 v hv

theorem dvd_of_is_int_div (N A : ℤ) (hA : A ≠ 0)
    (h : is_int_q ((N : ℚ) / (A : ℚ)) = true) : A ∣ N := by
  obtain ⟨m, hm⟩ := (is_int_q_iff _).mp h
  have hA2 : (A : ℚ) ≠ 0 := by exact_mod_cast hA
  have : (N : ℚ) = ((A * m : ℤ) : ℚ) := by
    push_cast
    field_simp at hm
    linarith
  exact ⟨m, by exact_mod_cast this⟩

theorem sum_vars_dvd (A : ℤ) (val : Nat → ℚ) (l : List var)
    (hc : ∀ v ∈ l, ∃ m : ℤ, v.m_coeff = ((A * m : ℤ) : ℚ))
    (hv : ∀ v ∈ l, is_int_q (val v.m_id) = true) :
    ∃ m : ℤ, sum_vars val l = ((A * m : ℤ) : ℚ) := by
  induction l with
  | nil => exact ⟨0, by simp [sum_vars]⟩
  | cons a l ih =>
    obtain ⟨m1, h1⟩ := hc a (List.mem_cons_self _ _)
    obtain ⟨n1, h2⟩ := (is_int_q_iff _).mp (hv a (List.mem_cons_self _ _))
    obtain ⟨m2, h3⟩ := ih (fun v h => hc v (List.mem_cons_of_mem _ h))
      (fun v h => hv v (List.mem_cons_of_mem _ h))
    refine ⟨m1 * n1 + m2, ?_⟩
    rw [sum_vars_cons, h1, h2, h3]
    push_cast
    ring

theorem int_mod_facts (K A R X : ℤ) (hA : 0 < A) (h0 : K + (R + A * X) = 0) :
    mod (-(R : ℚ)) (A : ℚ) = mod (K : ℚ) (A : ℚ) ∧
    (0 : ℚ) ≤ mod (K : ℚ) (A : ℚ) ∧ mod (K : ℚ) (A : ℚ) < (A : ℚ) ∧
    mod ((R : ℚ) + mod (K : ℚ) (A : ℚ)) (A : ℚ) = 0 ∧
    ∀ S : ℤ, (mod ((S : ℚ) + mod (K : ℚ) (A : ℚ)) (A : ℚ) = 0 ↔
      mod ((S : ℚ) + (K : ℚ)) (A : ℚ) = 0) := by
  have e1 : (-(R : ℚ)) = ((-R : ℤ) : ℚ) := by push_cast; rfl
  have hR : -R = K + A * X := by omega
  have hk : ∀ S : ℤ, ((S : ℚ) + mod (K : ℚ) (A : ℚ)) = ((S + K % A : ℤ) : ℚ) := by
    intro S; rw [mod_int_cast]; push_cast; rfl
  have hk2 : ∀ S : ℤ, ((S : ℚ) + (K : ℚ)) = ((S + K : ℤ) : ℚ) := by
    intro S; push_cast; rfl
  have hmod : ∀ S : ℤ, (S + K % A) % A = (S + K) % A := by
    intro S
    rw [Int.add_emod, Int.emod_emod, ← Int.add_emod]
  refine ⟨?_, ?_, ?_, ?_, ?_⟩
  · rw [e1, mod_int_cast, mod_int_cast, hR, Int.add_mul_emod_self_left]
  · rw [mod_int_cast]
    exact_mod_cast Int.emod_nonneg K (ne_of_gt hA)
  · rw [mod_int_cast]
    exact_mod_cast Int.emod_lt_of_pos K hA
  · rw [hk, mod_int_cast, hmod]
    have : (R + K) % A = 0 := by
      have : R + K = A * (-X) := by linarith
      rw [this]
      exact Int.mul_emod_right A (-X)
    rw [this]
    rfl
  · intro S
    rw [hk, hk2, mod_int_cast, mod_int_cast, hmod]

/-- The residue of the divisibility side-constraint for a satisfied integer row
`a*x + rest + k = 0` with `a > 1`. -/
theorem pivot_residue (s : model_based_opt) (r : row) (x : Nat) (a : ℚ)
    (hs : sorted_ids r.m_vars) (hco : r.get_coefficient x = a) (ha : 1 < a)
    (hev : lin r s.eval = 0)
    (hci : ∀ v ∈ r.m_vars, is_int_q v.m_coeff = true)
    (hki : is_int_q r.m_coeff = true)
    (hvi : ∀ v ∈ r.m_vars, is_int_q (s.eval v.m_id) = true) :
    (∀ val, lin r val = a * val x + sum_vars val (mk_coeffs_without r.m_vars x) + r.m_coeff) ∧
    mod (-(sum_vars s.eval (mk_coeffs_without r.m_vars x))) a = mod r.m_coeff a ∧
    0 ≤ mod r.m_coeff a ∧ mod r.m_coeff a < a ∧
    mod (sum_vars s.eval (mk_coeffs_without r.m_vars x) + mod r.m_coeff a) a = 0 ∧
    (∀ val : Nat → ℚ, (∀ v, is_int_q (val v) = true) →
      (mod (sum_vars val (mk_coeffs_without r.m_vars x) + mod r.m_coeff a) a = 0 ↔
       mod (sum_vars val (mk_coeffs_without r.m_vars x) + r.m_coeff) a = 0)) ∧
    (is_int_q ((mk_coeffs_without r.m_vars x).foldl (fun g v => gcd v.m_coeff g)
        (mod r.m_coeff a) / a) = true →
      ∀ val : Nat → ℚ, (∀ v, is_int_q (val v) = true) →
        mod (sum_vars val (mk_coeffs_without r.m_vars x) + mod r.m_coeff a) a = 0) := by
  have hne : r.get_coefficient x ≠ 0 := by rw [hco]; linarith
  obtain ⟨v, hvm, hvx, hvc⟩ := get_coefficient_mem r x hne
  have hai : is_int_q a = true := by rw [← hco, ← hvc]; exact hci v hvm
  have hsplit : ∀ val, lin r val
      = a * val x + sum_vars val (mk_coeffs_without r.m_vars x) + r.m_coeff := by
    intro val
    rw [lin_eq, sum_vars_split val x r.m_vars (sorted_ids_nodup _ hs),
      ← row_get_coefficient_eq r x hs, hco]
    unfold mk_coeffs_without
    ring
  have hmem : ∀ t ∈ mk_coeffs_without r.m_vars x, t ∈ r.m_vars := by
    intro t ht
    unfold mk_coeffs_without at ht
    exact (List.mem_filter.mp ht).1
  have hrest : ∀ val : Nat → ℚ, (∀ v, is_int_q (val v) = true) →
      is_int_q (sum_vars val (mk_coeffs_without r.m_vars x)) = true := by
    intro val hval
    exact is_int_q_sum_vars val _ (fun t ht => hci t (hmem t ht)) (fun t _ => hval t.m_id)
  obtain ⟨A, rfl⟩ := (is_int_q_iff a).mp hai
  obtain ⟨K, hK⟩ := (is_int_q_iff _).mp hki
  obtain ⟨R, hR⟩ := (is_int_q_iff _).mp
    (is_int_q_sum_vars s.eval _ (fun t ht => hci t (hmem t ht)) (fun t ht => hvi t (hmem t ht)))
  obtain ⟨X, hX⟩ := (is_int_q_iff _).mp (hvx ▸ hvi v hvm)
  have hA : 0 < A := by
    have : (1 : ℚ) < (A : ℚ) := ha
    have : (1 : ℤ) < A := by exact_mod_cast this
    omega
  have h0 : K + (R + A * X) = 0 := by
    have := hsplit s.eval
    rw [hev, hR, hK, hX] at this
    have e : ((K + (R + A * X) : ℤ) : ℚ) = 0 := by
      push_cast
      linarith
    exact_mod_cast e
  obtain ⟨f1, f2, f3, f4, f5⟩ := int_mod_facts K A R X hA h0
  rw [hK, hR]
  refine ⟨?_, f1, f2, f3, f4, ?_, ?_⟩
  · intro val
    rw [← hK]
    exact hsplit val
  · intro val hval
    obtain ⟨S, hS⟩ := (is_int_q_iff _).mp (hrest val hval)
    rw [hS]
    exact f5 S
  · intro hg val hval
    rw [mod_int_cast] at hg ⊢
    obtain ⟨N, hN, hdC, hdl⟩ := gcd_fold_dvd (mk_coeffs_without r.m_vars x)
      (fun t ht => hci t (hmem t ht)) (K % A)
    rw [hN] at hg
    obtain ⟨q, hq⟩ := dvd_of_is_int_div N A (ne_of_gt hA) hg
    have hl2 : ∀ t ∈ mk_coeffs_without r.m_vars x, ∃ m : ℤ, t.m_coeff = ((A * m : ℤ) : ℚ) := by
      intro t ht
      obtain ⟨m, hm⟩ := hdl t ht
      exact ⟨q * m, by rw [hm, hq, mul_assoc]⟩
    obtain ⟨m1, hm1⟩ := sum_vars_dvd A val _ hl2 (fun t _ => hval t.m_id)
    obtain ⟨m2, hm2⟩ := hdC
    rw [hm1, hm2, hq]
    have e : (((A * m1 : ℤ) : ℚ) + ((A * q * m2 : ℤ) : ℚ)) = ((A * (m1 + q * m2) : ℤ) : ℚ) := by
      push_cast
      ring
    rw [e, mod_int_cast, Int.mul_emod_right]
    rfl

theorem getLastD_eq_get_row (s : model_based_opt) :
    s.m_rows.getLastD {} = s.get_row (s.m_rows.length - 1) := by
  unfold get_row
  rw [List.getLastD_eq_getLast?, List.getLast?_eq_getElem?, List.getD_eq_getElem?_getD]

/-- A divisibility row that `add_divides` does not omit is present in the store. -/
theorem add_divides_emits (s : model_based_opt) (coeffs : List var) (c m : ℚ)
    (hwf : store_wf s) (hs : sorted_ids coeffs) (hne : coeffs ≠ [])
    (hg : is_int_q (coeffs.foldl (fun g v => gcd v.m_coeff g) c / m) = false) :
    ∃ j, ((s.add_divides coeffs c m).get_row j).m_alive = true ∧
      ((s.add_divides coeffs c m).get_row j).m_type = ineq_type.t_divides ∧
      ((s.add_divides coeffs c m).get_row j).m_vars = coeffs ∧
      ((s.add_divides coeffs c m).get_row j).m_coeff = c ∧
      ((s.add_divides coeffs c m).get_row j).m_mod = m := by
  unfold add_divides
  dsimp only
  rw [if_neg (by rw [hg]; simp)]
  unfold add_constraint5
  dsimp only
  split
  · rename_i h
    rw [getLastD_eq_get_row] at h
    exact ⟨s.m_rows.length - 1, h.2.2.2.2.2, h.2.2.2.1, h.1, h.2.1, h.2.2.1⟩
  · obtain ⟨hdead, hother, hvars, hlt, -⟩ := new_row_spec s hwf
    obtain ⟨hv0, hi0⟩ := new_row_values s
    have hrow : (s.new_row.1.set_row s.new_row.2 coeffs c m ineq_type.t_divides).get_row
        s.new_row.2 =
        { s.new_row.1.get_row s.new_row.2 with
          m_vars := sort_vars ((s.new_row.1.get_row s.new_row.2).m_vars ++ coeffs),
          m_alive := true,
          m_coeff := c,
          m_value := coeffs.foldl (fun val v => val + s.new_row.1.eval v.m_id * v.m_coeff) c,
          m_type := ineq_type.t_divides,
          m_mod := m } := by
      unfold set_row
      rw [get_row_put_row_eq _ _ _ hlt]
      simp
    have se1 := same_except_set_row s.new_row.1 s.new_row.2 coeffs c m ineq_type.t_divides
    generalize s.new_row.1.set_row s.new_row.2 coeffs c m ineq_type.t_divides = t1
      at hrow se1
    have hlt1 : s.new_row.2 < t1.m_rows.length := by rw [se1.2.2.2]; exact hlt
    have hr2 := get_row_put_row_eq t1 s.new_row.2 { t1.get_row s.new_row.2 with m_id := 0 }
      hlt1
    generalize t1.put_row s.new_row.2 { t1.get_row s.new_row.2 with m_id := 0 } = t2
      at hr2
    have hr3 : (coeffs.foldl (fun st v => st.push_row_id v.m_id s.new_row.2) t2).get_row
        s.new_row.2 = t2.get_row s.new_row.2 :=
      get_row_congr _ _ (foldl_push_var_fields s.new_row.2 coeffs t2).1 _
    generalize coeffs.foldl (fun st v => st.push_row_id v.m_id s.new_row.2) t2 = t3
      at hr3
    have hrow3 : t3.get_row s.new_row.2 =
        { m_vars := coeffs, m_coeff := c, m_mod := m, m_type := ineq_type.t_divides,
          m_value := c + sum_vars s.eval coeffs, m_alive := true, m_id := 0 } := by
      rw [hr3, hr2, hrow]
      simp only [hvars, List.nil_append, sort_vars_eq coeffs hs, foldl_set_row_value,
        eval_congr s s.new_row.1 hv0]
    have he : ¬ coeffs.isEmpty = true := by
      intro h
      exact hne (List.isEmpty_iff.mp h)
    refine ⟨s.new_row.2, ?_⟩
    rw [normalize_eq]
    simp only [hrow3, Bool.not_true, Bool.false_eq_true, if_false, if_true]
    rw [if_neg he, hrow3]
    exact ⟨rfl, rfl, rfl, rfl, rfl⟩

theorem solve_for_pivot_eq (s : model_based_opt) (i x : Nat)
    (hty : (s.get_row i).m_type = ineq_type.t_eq) (hval : (s.get_row i).m_value = 0) :
    solve_for_pivot s i x =
      if s.get_coefficient i x < 0 then (s.get_row i).neg else s.get_row i := by
  unfold solve_for_pivot
  dsimp only
  rw [if_neg (by rw [hty]; decide)]
  split
  · simp [row.neg, hval]
  · cases h : s.get_row i with
    | mk vars coeff md ty value alive id =>
      rw [h] at hval
      simp only at hval
      simp [hval]

/-- C30: `solve_for(i, x, _)` on a satisfied equality row with integer coefficients and
integer values, `x` integral and sign-normalised coefficient `a > 1`.  The pivot row is
the row itself or its negation, it reads `a*x + rest + k`, and the call continues from
`add_divides(rest, c, a)` with `c = mod(-eval(rest), a)`.  This `c` equals `mod(k, a)`,
lies in `[0, a)`, so for integer assignments `a | rest + c` is equivalent to
`a | rest + k`; the constraint holds at the current assignment; when `add_divides` omits
it (the gcd test) it holds for every integer assignment, and otherwise a live
divisibility row `a | rest + c` is in the store. -/
theorem solve_for_divides_side_constraint (s : model_based_opt) (i x : Nat) (cd : Bool)
    (hwf : store_wf s)
    (halive : (s.get_row i).m_alive = true)
    (hty : (s.get_row i).m_type = ineq_type.t_eq)
    (hval : (s.get_row i).m_value = 0)
    (hev : s.eval_row (s.get_row i) = 0)
    (hint : s.is_int x = true)
    (ha : 1 < solve_for_coeff s i x)
    (hci : ∀ v ∈ (s.get_row i).m_vars,
      is_int_q v.m_coeff = true ∧ is_int_q (s.eval v.m_id) = true)
    (hki : is_int_q (s.get_row i).m_coeff = true) :
    s.solve_for i x cd =
      solve_for_loop
        ((s.put_row i (solve_for_pivot s i x)).add_divides (solve_for_rest s i x)
          (solve_for_residue s i x) (solve_for_coeff s i x))
        i (solve_for_coeff s i x) x cd ∧
    (solve_for_pivot s i x =
      if s.get_coefficient i x < 0 then (s.get_row i).neg else s.get_row i) ∧
    (∀ val, lin (solve_for_pivot s i x) val =
      solve_for_coeff s i x * val x + sum_vars val (solve_for_rest s i x)
        + (solve_for_pivot s i x).m_coeff) ∧
    solve_for_residue s i x
      = mod (-(sum_vars s.eval (solve_for_rest s i x))) (solve_for_coeff s i x) ∧
    solve_for_residue s i x = mod (solve_for_pivot s i x).m_coeff (solve_for_coeff s i x) ∧
    0 ≤ solve_for_residue s i x ∧ solve_for_residue s i x < solve_for_coeff s i x ∧
    (∀ val : Nat → ℚ, (∀ v, is_int_q (val v) = true) →
      (mod (sum_vars val (solve_for_rest s i x) + solve_for_residue s i x)
          (solve_for_coeff s i x) = 0 ↔
       mod (sum_vars val (solve_for_rest s i x) + (solve_for_pivot s i x).m_coeff)
          (solve_for_coeff s i x) = 0)) ∧
    mod (sum_vars s.eval (solve_for_rest s i x) + solve_for_residue s i x)
      (solve_for_coeff s i x) = 0 ∧
    (is_int_q ((solve_for_rest s i x).foldl (fun g v => gcd v.m_coeff g)
        (solve_for_residue s i x) / solve_for_coeff s i x) = true →
      (s.put_row i (solve_for_pivot s i x)).add_divides (solve_for_rest s i x)
          (solve_for_residue s i x) (solve_for_coeff s i x)
        = s.put_row i (solve_for_pivot s i x) ∧
      ∀ val : Nat → ℚ, (∀ v, is_int_q (val v) = true) →
        mod (sum_vars val (solve_for_rest s i x) + solve_for_residue s i x)
          (solve_for_coeff s i x) = 0) ∧
    (is_int_q ((solve_for_rest s i x).foldl (fun g v => gcd v.m_coeff g)
        (solve_for_residue s i x) / solve_for_coeff s i x) = false →
      ∃ j, (((s.put_row i (solve_for_pivot s i x)).add_divides (solve_for_rest s i x)
          (solve_for_residue s i x) (solve_for_coeff s i x)).get_row j).m_alive = true ∧
        (((s.put_row i (solve_for_pivot s i x)).add_divides (solve_for_rest s i x)
          (solve_for_residue s i x) (solve_for_coeff s i x)).get_row j).m_type
            = ineq_type.t_divides ∧
        (((s.put_row i (solve_for_pivot s i x)).add_divides (solve_for_rest s i x)
          (solve_for_residue s i x) (solve_for_coeff s i x)).get_row j).m_vars
            = solve_for_rest s i x ∧
        (((s.put_row i (solve_for_pivot s i x)).add_divides (solve_for_rest s i x)
          (solve_for_residue s i x) (solve_for_coeff s i x)).get_row j).m_coeff
            = solve_for_residue s i x ∧
        (((s.put_row i (solve_for_pivot s i x)).add_divides (solve_for_rest s i x)
          (solve_for_residue s i x) (solve_for_coeff s i x)).get_row j).m_mod
            = solve_for_coeff s i x) := by
  have hs0 : sorted_ids (s.get_row i).m_vars := hwf.2.2 i halive
  have hP := solve_for_pivot_eq s i x hty hval
  have hev0 : lin (s.get_row i) s.eval = 0 := by rw [← eval_row_lin]; exact hev
  -- the pivot row
  have hfacts : sorted_ids (solve_for_pivot s i x).m_vars ∧
      (solve_for_pivot s i x).get_coefficient x = solve_for_coeff s i x ∧
      lin (solve_for_pivot s i x) s.eval = 0 ∧
      (∀ v ∈ (solve_for_pivot s i x).m_vars, is_int_q v.m_coeff = true) ∧
      is_int_q (solve_for_pivot s i x).m_coeff = true ∧
      (∀ v ∈ (solve_for_pivot s i x).m_vars, is_int_q (s.eval v.m_id) = true) := by
    rw [hP]
    unfold solve_for_coeff
    by_cases hneg : s.get_coefficient i x < 0
    · rw [if_pos hneg, if_pos hneg]
      refine ⟨sorted_ids_map_neg _ hs0, ?_, ?_, ?_, is_int_q_neg _ hki, ?_⟩
      · rw [get_coefficient_neg _ _ hs0]
        rfl
      · rw [← eval_row_lin, eval_row_neg, hev]
        simp
      · intro v hv
        obtain ⟨w, hw, rfl⟩ := List.mem_map.mp hv
        exact is_int_q_neg _ (hci w hw).1
      · intro v hv
        obtain ⟨w, hw, rfl⟩ := List.mem_map.mp hv
        exact (hci w hw).2
    · rw [if_neg hneg, if_neg hneg]
      exact ⟨hs0, rfl, hev0, fun v hv => (hci v hv).1, hki, fun v hv => (hci v hv).2⟩
  obtain ⟨p1, p2, p3, p4, p5, p6⟩ := hfacts
  obtain ⟨q1, q2, q3, q4, q5, q6, q7⟩ :=
    pivot_residue s (solve_for_pivot s i x) x (solve_for_coeff s i x) p1 p2 ha p3 p4 p5 p6
  have hres : solve_for_residue s i x
      = mod (-(sum_vars s.eval (solve_for_rest s i x))) (solve_for_coeff s i x) := by
    unfold solve_for_residue solve_for_rest
    rw [eval_vars_eq]
    have : (s.put_row i (solve_for_pivot s i x)).eval = s.eval := eval_congr _ _ rfl
    rw [this]
  have hres2 : solve_for_residue s i x
      = mod (solve_for_pivot s i x).m_coeff (solve_for_coeff s i x) := by
    rw [hres]
    exact q2
  have hwf1 : store_wf (s.put_row i (solve_for_pivot s i x)) :=
    (frame_put_row x s i _ hwf halive p1).1
  have hrs := mk_coeffs_without_spec (solve_for_pivot s i x).m_vars x p1
  refine ⟨solve_for_int_split s i x cd hint (ne_of_gt ha), hP, q1, hres, hres2, ?_, ?_, ?_, ?_,
    ?_, ?_⟩
  · rw [hres2]; exact q3
  · rw [hres2]; exact q4
  · rw [hres2]; exact q6
  · rw [hres2]; exact q5
  · intro hg
    refine ⟨?_, ?_⟩
    · unfold add_divides
      dsimp only
      rw [if_pos hg]
    · rw [hres2] at hg ⊢
      exact q7 hg
  · intro hg
    have hne : solve_for_rest s i x ≠ [] := by
      intro he
      have h0 : solve_for_residue s i x = 0 := by
        rw [hres, he]
        simp [sum_vars, mod]
      rw [he, h0] at hg
      simp [is_int_q] at hg
    exact add_divides_emits _ _ _ _ hwf1 hrs.1 hne hg

theorem solve_for_divides_side_constraint_witness :
    store_wf int_eq_store ∧
    solve_for_coeff int_eq_store 1 0 = 2 ∧
    solve_for_rest int_eq_store 1 0 = [⟨1, -3⟩] ∧
    solve_for_residue int_eq_store 1 0 = 1 ∧
    ∃ j, (((int_eq_store.put_row 1 (solve_for_pivot int_eq_store 1 0)).add_divides
        (solve_for_rest int_eq_store 1 0) (solve_for_residue int_eq_store 1 0)
        (solve_for_coeff int_eq_store 1 0)).get_row j).m_vars
          = solve_for_rest int_eq_store 1 0 :=
  have hwf : store_wf int_eq_store :=
    store_wf_of_rows _ (by decide!) (by decide!) (by simp only [sorted_ids]; decide!)
  have h := solve_for_divides_side_constraint int_eq_store 1 0 true hwf
    (by decide!) (by decide!) (by decide!) (by decide!) (by decide!) (by decide!) (by decide!)
    (by decide!)
  ⟨hwf, by decide!, by decide!, by decide!,
    (h.2.2.2.2.2.2.2.2.2.2 (by decide!)).imp (fun _ hj => hj.2.2.1)⟩

/-! ### Loops over row ids that rewrite one row at a time -/

theorem fresh_ids_nodup (l seen : List Nat) : (fresh_ids seen l).Nodup := by
  induction l generalizing seen with
  | nil => simp [fresh_ids]
  | cons a l ih =>
    by_cases h : a ∈ seen
    · rw [fresh_ids_cons_seen _ _ _ h]
      exact ih seen
    · rw [fresh_ids_cons_new _ _ _ h]
      refine List.nodup_cons.mpr ⟨?_, ih _⟩
      intro hm
      have := ((mem_fresh_ids _ _ _).mp hm).2
      exact this (by simp)

/-- A loop guarded by a `visited` set processes the fresh ids once each. -/
theorem visited_fold (f : model_based_opt → Nat → model_based_opt) (l : List Nat)
    (s : model_based_opt) (V : List Nat) :
    (l.foldl (fun (p : model_based_opt × List Nat) j =>
        if p.2.contains j then p else (f p.1 j, p.2 ++ [j])) (s, V)).1
      = (fresh_ids V l).foldl f s := by
  induction l generalizing s V with
  | nil => simp [fresh_ids]
  | cons a l ih =>
    rw [List.foldl_cons]
    by_cases h : a ∈ V
    · rw [if_pos ((contains_iff _ _).mpr h), fresh_ids_cons_seen _ _ _ h]
      exact ih s V
    · have hc : ¬ (V.contains a = true) := fun hh => h ((contains_iff _ _).mp hh)
      rw [if_neg hc, fresh_ids_cons_new _ _ _ h, List.foldl_cons]
      exact ih _ _

/-- A loop whose body rewrites only the row it visits, in a way that depends only on that
row and on the variable values: every visited row is related to its initial content, every
other row is unchanged. -/
theorem fold_rel (f : model_based_opt → Nat → model_based_opt) (R : Nat → row → row → Prop)
    (s0 : model_based_opt)
    (hse : ∀ st j, same_except j st (f st j))
    (hR : ∀ st j, st.m_var2value = s0.m_var2value →
      R j (st.get_row j) ((f st j).get_row j)) :
    ∀ (L : List Nat) (s : model_based_opt), L.Nodup → s.m_var2value = s0.m_var2value →
      (L.foldl f s).m_var2value = s.m_var2value ∧
      (L.foldl f s).m_var2is_int = s.m_var2is_int ∧
      (L.foldl f s).m_rows.length = s.m_rows.length ∧
      (∀ j, j ∉ L → (L.foldl f s).get_row j = s.get_row j) ∧
      ∀ j ∈ L, R j (s.get_row j) ((L.foldl f s).get_row j) := by
  intro L
  induction L with
  | nil =>
    intro s _ _
    exact ⟨rfl, rfl, rfl, fun _ _ => rfl, fun j hj => absurd hj (List.not_mem_nil j)⟩
  | cons a L ih =>
    intro s hnd hv
    rw [List.foldl_cons]
    obtain ⟨hna, hndL⟩ := List.nodup_cons.mp hnd
    have se := hse s a
    have hv1 : (f s a).m_var2value = s0.m_var2value := se.2.1.trans hv
    obtain ⟨i1, i2, i3, i4, i5⟩ := ih (f s a) hndL hv1
    refine ⟨i1.trans se.2.1, i2.trans se.2.2.1, i3.trans se.2.2.2, ?_, ?_⟩
    · intro j hj
      have hja : j ≠ a := fun h => hj (h ▸ List.mem_cons_self _ _)
      have hjL : j ∉ L := fun h => hj (List.mem_cons_of_mem _ h)
      rw [i4 j hjL, se.1 j hja]
    · intro j hj
      rcases List.mem_cons.mp hj with rfl | hjL
      · rw [i4 j hna]
        exact hR s j hv
      · have hja : j ≠ a := fun h => hna (h ▸ hjL)
        have := i5 j hjL
        rw [se.1 j hja] at this
        exact this

/-! ### `replace_var` on one row -/

theorem sum_vars_append_one (val : Nat → ℚ) (l : List var) (a : var) :
    sum_vars val (l ++ [a]) = sum_vars val l + a.m_coeff * val a.m_id := by
  simp [sum_vars]

theorem scan_coeff_eq (vs : List var) (x : Nat) (hn : (vs.map (fun v => v.m_id)).Nodup) :
    vs.foldl (fun k v => if v.m_id = x then v.m_coeff else k) 0 = coeff_of vs x := by
  have gen : ∀ (l : List var) (k : ℚ), (l.map (fun v => v.m_id)).Nodup →
      l.foldl (fun k v => if v.m_id = x then v.m_coeff else k) k
        = if (∃ t ∈ l, t.m_id = x) then coeff_of l x else k := by
    intro l
    induction l with
    | nil => intro k _; simp
    | cons a l ih =>
      intro k hn
      simp only [List.map_cons, List.nodup_cons] at hn
      rw [List.foldl_cons, ih _ hn.2, coeff_of_cons]
      by_cases hax : a.m_id = x
      · have hl : ∀ t ∈ l, t.m_id ≠ x := by
          intro t ht htx
          exact hn.1 (List.mem_map.mpr ⟨t, ht, by rw [htx, hax]⟩)
        have hno : ¬ ∃ t ∈ l, t.m_id = x := fun ⟨t, ht, htx⟩ => hl t ht htx
        rw [if_neg hno, if_pos hax, if_pos hax, if_pos ⟨a, List.mem_cons_self _ _, hax⟩]
      · rw [if_neg hax, if_neg hax]
        by_cases hex : ∃ t ∈ l, t.m_id = x
        · obtain ⟨t, ht, htx⟩ := hex
          rw [if_pos ⟨t, ht, htx⟩, if_pos ⟨t, List.mem_cons_of_mem _ ht, htx⟩]
        · have hno : ¬ ∃ t ∈ a :: l, t.m_id = x := by
            rintro ⟨t, ht, htx⟩
            rcases List.mem_cons.mp ht with rfl | h
            · exact hax htx
            · exact hex ⟨t, h, htx⟩
          rw [if_neg hex, if_neg hno]
  rw [gen vs 0 hn]
  split
  · rfl
  · rename_i h
    exact (coeff_of_absent vs x (fun t ht htx => h ⟨t, ht, htx⟩)).symm

theorem same_except_replace_var1 (s : model_based_opt) (j x : Nat) (C : ℚ) :
    same_except j s (s.replace_var1 j x C) := by
  unfold replace_var1
  exact same_except_put_row _ _ _

/-- The row after `replace_var(row_id, x, C)`. -/
theorem replace_var1_row (s : model_based_opt) (j x : Nat) (C : ℚ) (hj : j < s.m_rows.length)
    (hs : sorted_ids (s.get_row j).m_vars) :
    (s.replace_var1 j x C).get_row j =
      { s.get_row j with
        m_vars := mk_coeffs_without (s.get_row j).m_vars x,
        m_coeff := (s.get_row j).m_coeff + s.get_coefficient j x * C,
        m_value := (s.get_row j).m_value + s.get_coefficient j x * (C - s.eval x) } := by
  unfold replace_var1
  dsimp only
  rw [get_row_put_row_eq _ _ _ hj, scan_coeff_eq _ _ (sorted_ids_nodup _ hs)]
  unfold model_based_opt.get_coefficient mk_coeffs_without
  rw [row_get_coefficient_eq _ _ hs]

theorem sum_vars_update_absent (val : Nat → ℚ) (x : Nat) (q : ℚ) (l : List var)
    (h : ∀ t ∈ l, t.m_id ≠ x) :
    sum_vars (Function.update val x q) l = sum_vars val l := by
  induction l with
  | nil => rfl
  | cons a l ih =>
    rw [sum_vars_cons, sum_vars_cons, ih (fun t ht => h t (List.mem_cons_of_mem _ ht)),
      Function.update_noteq (h a (List.mem_cons_self _ _))]

/-- Substituting a value for `x` in the linear form of a row. -/
theorem lin_update (r : row) (x : Nat) (q : ℚ) (val : Nat → ℚ) (hs : sorted_ids r.m_vars) :
    lin r (Function.update val x q) =
      r.m_coeff + sum_vars val (mk_coeffs_without r.m_vars x) + r.get_coefficient x * q := by
  rw [lin_eq, sum_vars_split _ x r.m_vars (sorted_ids_nodup _ hs),
    row_get_coefficient_eq r x hs, Function.update_same]
  have := sum_vars_update_absent val x q (r.m_vars.filter (fun v => v.m_id ≠ x))
    (fun t ht => by simpa using (List.mem_filter.mp ht).2)
  rw [this]
  unfold mk_coeffs_without
  ring

theorem mul_ids (s : model_based_opt) (j : Nat) (c : ℚ) (hj : j < s.m_rows.length) :
    ((s.mul j c).get_row j).m_vars.map (fun v => v.m_id)
      = (s.get_row j).m_vars.map (fun v => v.m_id) := by
  by_cases hc : c = 1
  · rw [hc, mul_one_eq]
  · rw [get_row_mul s j c hc hj]
    simp [List.map_map, Function.comp]

/-- The effect of `normalize(row_id)` on a live row with terms: a positive scaling. -/
theorem normalize_scale (s : model_based_opt) (j : Nat)
    (hal : (s.get_row j).m_alive = true) (hv : (s.get_row j).m_vars ≠ [])
    (hh : ((s.get_row j).m_vars.headD {}).m_coeff ≠ 0)
    (hs : sorted_ids (s.get_row j).m_vars) :
    ∃ k : ℚ, 0 < k ∧
      (∀ val, lin ((s.normalize j).get_row j) val = lin (s.get_row j) val * k) ∧
      ((s.normalize j).get_row j).m_value = (s.get_row j).m_value * k ∧
      ((s.normalize j).get_row j).m_alive = true ∧
      ((s.normalize j).get_row j).m_type = (s.get_row j).m_type ∧
      ((s.normalize j).get_row j).m_vars.map (fun v => v.m_id)
        = (s.get_row j).m_vars.map (fun v => v.m_id) ∧
      sorted_ids ((s.normalize j).get_row j).m_vars ∧
      (∀ v, (s.normalize j).get_coefficient j v = s.get_coefficient j v * k) := by
  have hj := alive_lt_length s j hal
  have hne : (s.get_row j).m_vars.isEmpty = false := by
    cases h : (s.get_row j).m_vars with
    | nil => exact absurd h hv
    | cons a l => rfl
  have triv : ∃ k : ℚ, 0 < k ∧
      (∀ val, lin (s.get_row j) val = lin (s.get_row j) val * k) ∧
      (s.get_row j).m_value = (s.get_row j).m_value * k ∧
      (s.get_row j).m_alive = true ∧
      (s.get_row j).m_type = (s.get_row j).m_type ∧
      (s.get_row j).m_vars.map (fun v => v.m_id)
        = (s.get_row j).m_vars.map (fun v => v.m_id) ∧
      sorted_ids (s.get_row j).m_vars ∧
      (∀ v, s.get_coefficient j v = s.get_coefficient j v * k) :=
    ⟨1, one_pos, fun val => by ring, by ring, hal, rfl, rfl, hs, fun v => by ring⟩
  rw [normalize_eq]
  simp only [hal, hne, Bool.not_true, Bool.false_eq_true, if_false]
  by_cases h1 : (s.get_row j).m_type = ineq_type.t_divides
  · rw [if_pos h1]; exact triv
  rw [if_neg h1]
  by_cases h2 : (s.get_row j).m_type = ineq_type.t_mod
  · rw [if_pos h2]; exact triv
  rw [if_neg h2]
  by_cases h3 : (s.get_row j).m_type = ineq_type.t_div
  · rw [if_pos h3]; exact triv
  rw [if_neg h3]
  split
  · have hg := normalize_pair_pos (s.get_row j) hh
    obtain ⟨m1, m2, m3, m4, m5⟩ := mul_lin s j (1 / (normalize_pair (s.get_row j)).1) hj
    obtain ⟨n1, n2, -⟩ := mul_row_spec s j (1 / (normalize_pair (s.get_row j)).1) hj hs
    exact ⟨1 / (normalize_pair (s.get_row j)).1, by positivity, m1, m2 h3 h2, by rw [m4, hal],
      m5, mul_ids s j _ hj, n1, n2⟩
  · exact triv

theorem get_row_push_row_id (s : model_based_opt) (v k j : Nat) :
    (s.push_row_id v k).get_row j = s.get_row j := rfl

/-- The row after `replace_var(row_id, x, A, y, B)` followed by `normalize(row_id)`, for a
live row that mentions `x` and a variable `y` above every variable of the row. -/
theorem replace_var2_normalize_row (st : model_based_opt) (j x y : Nat) (A B : ℚ)
    (hal : (st.get_row j).m_alive = true) (ha : st.get_coefficient j x ≠ 0)
    (hs : sorted_ids (st.get_row j).m_vars)
    (hnz : ∀ t ∈ (st.get_row j).m_vars, t.m_coeff ≠ 0)
    (hy : ∀ t ∈ (st.get_row j).m_vars, t.m_id < y)
    (hA : A ≠ 0) (hxy : st.eval x = A * st.eval y + B) :
    substituted x A y B (st.get_row j) (((st.replace_var2 j x A y B).normalize j).get_row j) := by
  have hj := alive_lt_length st j hal
  have hr1 := replace_var1_row st j x B hj hs
  have se1 := same_except_replace_var1 st j x B
  have hj1 : j < (st.replace_var1 j x B).m_rows.length := by rw [se1.2.2.2]; exact hj
  have hev1 : (st.replace_var1 j x B).eval = st.eval := eval_congr _ _ se1.2.1
  obtain ⟨hfs, hfx⟩ := mk_coeffs_without_spec (st.get_row j).m_vars x hs
  have hmem : ∀ t ∈ mk_coeffs_without (st.get_row j).m_vars x, t ∈ (st.get_row j).m_vars := by
    intro t ht
    unfold mk_coeffs_without at ht
    exact (List.mem_filter.mp ht).1
  -- the row after `replace_var`
  have hrow : (st.replace_var2 j x A y B).get_row j =
      { st.get_row j with
        m_vars := mk_coeffs_without (st.get_row j).m_vars x ++ [⟨y, st.get_coefficient j x * A⟩],
        m_coeff := (st.get_row j).m_coeff + st.get_coefficient j x * B,
        m_value := (st.get_row j).m_value } := by
    unfold replace_var2
    simp only [ha, if_false, hal, Bool.not_true, Bool.false_eq_true]
    rw [get_row_push_row_id, get_row_put_row_eq _ _ _ hj1, hr1, hev1]
    simp only [List.getLastD_concat, gt_iff_lt, lt_self_iff_false, decide_False, Bool.and_false,
      Bool.false_eq_true, if_false]
    congr 1
    rw [hxy]
    ring
  have hsorted : sorted_ids
      (mk_coeffs_without (st.get_row j).m_vars x ++ [⟨y, st.get_coefficient j x * A⟩]) := by
    unfold sorted_ids List.Sorted at hfs ⊢
    rw [List.map_append]
    refine List.pairwise_append.mpr ⟨hfs, by simp, ?_⟩
    intro a ha' b hb
    obtain ⟨t, ht, rfl⟩ := List.mem_map.mp ha'
    simp only [List.map_cons, List.map_nil, List.mem_singleton] at hb
    rw [hb]
    exact hy t (hmem t ht)
  have hal2 : ((st.replace_var2 j x A y B).get_row j).m_alive = true := by rw [hrow]; exact hal
  have hv2 : ((st.replace_var2 j x A y B).get_row j).m_vars ≠ [] := by
    rw [hrow]
    simp
  have hh2 : (((st.replace_var2 j x A y B).get_row j).m_vars.headD {}).m_coeff ≠ 0 := by
    rw [hrow]
    simp only
    cases hl : mk_coeffs_without (st.get_row j).m_vars x with
    | nil => simpa using mul_ne_zero ha hA
    | cons a l =>
      simp only [List.cons_append, List.headD_cons]
      exact hnz a (hmem a (by rw [hl]; exact List.mem_cons_self _ _))
  have hs2 : sorted_ids ((st.replace_var2 j x A y B).get_row j).m_vars := by
    rw [hrow]; exact hsorted
  obtain ⟨k, hk, n1, n2, n3, n4, n5, n6, n7⟩ :=
    normalize_scale (st.replace_var2 j x A y B) j hal2 hv2 hh2 hs2
  have hxy2 : x ≠ y := by
    obtain ⟨v, hvm, hvx, -⟩ := get_coefficient_mem (st.get_row j) x ha
    have := hy v hvm
    omega
  refine ⟨k, hk, ?_, ?_, n3, ?_, ?_, n6, ?_⟩
  · intro val
    rw [n1, lin_update _ _ _ _ hs, hrow, lin_eq]
    simp only
    rw [sum_vars_append_one]
    unfold model_based_opt.get_coefficient
    ring
  · rw [n2, hrow]
  · rw [n4, hrow]
  · intro t ht
    have hid : t.m_id ∈ (((st.replace_var2 j x A y B).normalize j).get_row j).m_vars.map
        (fun v => v.m_id) := List.mem_map.mpr ⟨t, ht, rfl⟩
    rw [n5, hrow] at hid
    simp only [List.map_append, List.map_cons, List.map_nil, List.mem_append, List.mem_map,
      List.mem_singleton] at hid
    rcases hid with ⟨w, hw, hwid⟩ | hid
    · rw [← hwid]; exact hfx w hw
    · rw [hid]; exact fun h => hxy2 h.symm
  · have := n7 y
    unfold model_based_opt.get_coefficient at this
    rw [this]
    congr 1
    rw [hrow]
    exact row_get_coefficient_present _ y hsorted ⟨y, st.get_coefficient j x * A⟩
      (by simp) rfl

/-! ### `solve_divides` -/

theorem solve_divides_split
    (proj : model_based_opt → Nat → Bool → Except error (model_based_opt × Option def_))
    (s : model_based_opt) (x : Nat) (divide_rows : List Nat) (compute_def : Bool)
    (hD : divide_rows.foldl (fun D idx => lcm D (s.get_row idx).m_mod) 1 ≠ 0) :
    solve_divides proj s x divide_rows compute_def =
      match proj (solve_divides_prep s x divide_rows).1 (solve_divides_prep s x divide_rows).2
          compute_def with
      | Except.error e => Except.error e
      | Except.ok (s3, result) =>
          solve_divides_finish s3 result x (solve_divides_D s divide_rows)
            (solve_divides_u s x divide_rows) compute_def := by
  unfold solve_divides solve_divides_prep solve_divides_rows solve_divides_u solve_divides_D
    solve_divides_finish
  simp only [hD, if_false]

/-- The lcm loop: the result is a natural number that every modulus (numerator) divides. -/
theorem lcm_fold_dvd (s : model_based_opt) (l : List Nat) (d0 : ℕ) :
    ∃ n : ℕ, l.foldl (fun D idx => lcm D (s.get_row idx).m_mod) (d0 : ℚ) = (n : ℚ) ∧
      (d0 : ℤ) ∣ (n : ℤ) ∧ ∀ idx ∈ l, (s.get_row idx).m_mod.num ∣ (n : ℤ) := by
  induction l generalizing d0 with
  | nil => exact ⟨d0, rfl, dvd_refl _, fun idx h => absurd h (List.not_mem_nil idx)⟩
  | cons a l ih =>
    rw [List.foldl_cons]
    have e : lcm (d0 : ℚ) (s.get_row a).m_mod
        = ((Int.lcm (d0 : ℤ) (s.get_row a).m_mod.num : ℕ) : ℚ) := by
      unfold lcm
      simp
    rw [e]
    obtain ⟨n, h1, h2, h3⟩ := ih (Int.lcm (d0 : ℤ) (s.get_row a).m_mod.num)
    refine ⟨n, h1, dvd_trans Int.dvd_lcm_left h2, ?_⟩
    intro idx hidx
    rcases List.mem_cons.mp hidx with rfl | h
    · exact dvd_trans Int.dvd_lcm_right h2
    · exact h3 idx h

/-- The arithmetic of `solve_divides`: `D > 0`, `0 <= u < D`, and the value of the fresh
variable is the integer `(val - u) / D` with `val = D * y_val + u`. -/
theorem solve_divides_arith (s : model_based_opt) (x : Nat) (divide_rows : List Nat)
    (hD : divide_rows.foldl (fun D idx => lcm D (s.get_row idx).m_mod) 1 ≠ 0)
    (hx : is_int_q (s.eval x) = true) :
    ∃ n : ℕ, 0 < n ∧ solve_divides_D s divide_rows = (n : ℚ) ∧
      (∀ idx ∈ divide_rows, (s.get_row idx).m_mod.num ∣ (n : ℤ)) ∧
      solve_divides_u s x divide_rows = mod (s.eval x) (solve_divides_D s divide_rows) ∧
      0 ≤ solve_divides_u s x divide_rows ∧
      solve_divides_u s x divide_rows < solve_divides_D s divide_rows ∧
      is_int_q (solve_divides_u s x divide_rows) = true ∧
      is_int_q ((s.eval x - solve_divides_u s x divide_rows) / solve_divides_D s divide_rows)
        = true ∧
      s.eval x = solve_divides_D s divide_rows *
        ((s.eval x - solve_divides_u s x divide_rows) / solve_divides_D s divide_rows)
        + solve_divides_u s x divide_rows := by
  obtain ⟨n, h1, -, h3⟩ := lcm_fold_dvd s divide_rows 1
  rw [Nat.cast_one] at h1
  have hn : 0 < n := by
    rcases Nat.eq_zero_or_pos n with h | h
    · rw [h, Nat.cast_zero] at h1
      exact absurd h1 hD
    · exact h
  have hDn : solve_divides_D s divide_rows = (n : ℚ) := by
    unfold solve_divides_D
    simp only [h1]
    rw [if_neg (by simp)]
  obtain ⟨V, hV⟩ := (is_int_q_iff _).mp hx
  have hnz : ((n : ℤ) : ℚ) ≠ 0 := by
    have : (n : ℤ) ≠ 0 := by omega
    exact_mod_cast this
  have hu : solve_divides_u s x divide_rows = ((V % (n : ℤ) : ℤ) : ℚ) := by
    unfold solve_divides_u
    rw [hDn, hV]
    have := mod_int_cast V (n : ℤ)
    simpa using this
  have hq : (s.eval x - solve_divides_u s x divide_rows) / solve_divides_D s divide_rows
      = ((V / (n : ℤ) : ℤ) : ℚ) := by
    rw [hu, hDn, hV]
    have e : ((V : ℚ) - ((V % (n : ℤ) : ℤ) : ℚ)) = ((n : ℤ) : ℚ) * ((V / (n : ℤ) : ℤ) : ℚ) := by
      have := Int.emod_add_ediv V (n : ℤ)
      have e2 : (V : ℚ) = ((V % (n : ℤ) + (n : ℤ) * (V / (n : ℤ)) : ℤ) : ℚ) := by rw [this]
      rw [e2]
      push_cast
      ring
    rw [e]
    have : ((n : ℚ)) = ((n : ℤ) : ℚ) := by push_cast; rfl
    rw [this]
    field_simp
  refine ⟨n, hn, hDn, h3, rfl, ?_, ?_, ?_, ?_, ?_⟩
  · rw [hu]
    exact_mod_cast Int.emod_nonneg V (by omega)
  · rw [hu, hDn]
    have := Int.emod_lt_of_pos V (show (0 : ℤ) < (n : ℤ) by omega)
    exact_mod_cast this
  · rw [hu]
    exact (is_int_q_iff _).mpr ⟨_, rfl⟩
  · rw [hq]
    exact (is_int_q_iff _).mpr ⟨_, rfl⟩
  · have hne : (n : ℚ) ≠ 0 := by
      have : (n : ℕ) ≠ 0 := by omega
      exact_mod_cast this
    rw [hDn, mul_div_cancel₀ _ hne]
    ring

theorem replace_var1_ids (s : model_based_opt) (j x : Nat) (C : ℚ) :
    (s.replace_var1 j x C).m_var2row_ids = s.m_var2row_ids := rfl

/-- One iteration of the first loop of `solve_divides` on a live divisibility row. -/
theorem divides_step_row (st : model_based_opt) (j x : Nat) (u : ℚ)
    (hal : (st.get_row j).m_alive = true)
    (hty : (st.get_row j).m_type = ineq_type.t_divides)
    (hs : sorted_ids (st.get_row j).m_vars) :
    ((st.replace_var1 j x u).normalize j).get_row j =
      { st.get_row j with
        m_vars := mk_coeffs_without (st.get_row j).m_vars x,
        m_coeff := (st.get_row j).m_coeff + st.get_coefficient j x * u,
        m_value := (st.get_row j).m_value + st.get_coefficient j x * (u - st.eval x),
        m_alive := !(mk_coeffs_without (st.get_row j).m_vars x).isEmpty } := by
  have hj := alive_lt_length st j hal
  have hr1 := replace_var1_row st j x u hj hs
  have se1 := same_except_replace_var1 st j x u
  have hj1 : j < (st.replace_var1 j x u).m_rows.length := by rw [se1.2.2.2]; exact hj
  rw [normalize_eq]
  simp only [hr1, hal, Bool.not_true, Bool.false_eq_true, if_false, hty, if_true]
  by_cases he : (mk_coeffs_without (st.get_row j).m_vars x).isEmpty = true
  · rw [if_pos he, (get_row_retire_row _ j hj1).1, hr1]
    simp [he, hty]
  · rw [if_neg he, hr1]
    simp [he, hty, hal]

/-- The first loop of `solve_divides`: in every divisibility row the term `a*x` is
replaced by the constant `a*u` (a row left without terms is retired); nothing else
changes. -/
theorem solve_divides_rows_spec (s : model_based_opt) (x : Nat) (divide_rows : List Nat)
    (hwf : store_wf s) (hnd : divide_rows.Nodup)
    (hdiv : ∀ idx ∈ divide_rows, (s.get_row idx).m_alive = true ∧
      (s.get_row idx).m_type = ineq_type.t_divides) :
    (solve_divides_rows s x divide_rows).m_var2value = s.m_var2value ∧
    (solve_divides_rows s x divide_rows).m_var2is_int = s.m_var2is_int ∧
    (solve_divides_rows s x divide_rows).m_var2row_ids = s.m_var2row_ids ∧
    (∀ j, j ∉ divide_rows → (solve_divides_rows s x divide_rows).get_row j = s.get_row j) ∧
    ∀ idx ∈ divide_rows, (solve_divides_rows s x divide_rows).get_row idx =
      { s.get_row idx with
        m_vars := mk_coeffs_without (s.get_row idx).m_vars x,
        m_coeff := (s.get_row idx).m_coeff
          + s.get_coefficient idx x * solve_divides_u s x divide_rows,
        m_value := (s.get_row idx).m_value
          + s.get_coefficient idx x * (solve_divides_u s x divide_rows - s.eval x),
        m_alive := !(mk_coeffs_without (s.get_row idx).m_vars x).isEmpty } := by
  have hfold := fold_rel
    (fun st idx => (st.replace_var1 idx x (solve_divides_u s x divide_rows)).normalize idx)
    (fun _ r r2 => r.m_alive = true → r.m_type = ineq_type.t_divides → sorted_ids r.m_vars →
      r2 = { r with
        m_vars := mk_coeffs_without r.m_vars x,
        m_coeff := r.m_coeff + r.get_coefficient x * solve_divides_u s x divide_rows,
        m_value := r.m_value
          + r.get_coefficient x * (solve_divides_u s x divide_rows - s.eval x),
        m_alive := !(mk_coeffs_without r.m_vars x).isEmpty })
    s
    (fun st j => same_except_trans (same_except_replace_var1 st j x _)
      (same_except_normalize _ j))
    (by
      intro st j hv hal hty hs
      have := divides_step_row st j x (solve_divides_u s x divide_rows) hal hty hs
      rw [eval_congr s st hv] at this
      exact this)
    divide_rows s hnd rfl
  obtain ⟨f1, f2, -, f4, f5⟩ := hfold
  have hids : ∀ (l : List Nat) (st : model_based_opt),
      (l.foldl (fun st idx =>
        (st.replace_var1 idx x (solve_divides_u s x divide_rows)).normalize idx)
        st).m_var2row_ids = st.m_var2row_ids := by
    intro l
    induction l with
    | nil => intro st; rfl
    | cons a l ih =>
      intro st
      rw [List.foldl_cons, ih, ids_normalize, replace_var1_ids]
  refine ⟨f1, f2, hids _ _, f4, ?_⟩
  intro idx hidx
  exact f5 idx hidx (hdiv idx hidx).1 (hdiv idx hidx).2 (hwf.2.2 idx (hdiv idx hidx).1)

theorem getD_append_last (l : List ℚ) (q d : ℚ) : (l ++ [q]).getD l.length d = q := by
  rw [List.getD_eq_getElem?_getD, List.getElem?_append_right (le_refl _)]
  simp

theorem getD_append_lt (l : List ℚ) (q d : ℚ) (v : Nat) (h : v < l.length) :
    (l ++ [q]).getD v d = l.getD v d := by
  rw [List.getD_eq_getElem?_getD, List.getD_eq_getElem?_getD, List.getElem?_append_left h]

theorem row_ids_add_var (s : model_based_opt) (q : ℚ) (b : Bool) (x : Nat) :
    (s.add_var q b).1.row_ids x = s.row_ids x := by
  unfold add_var row_ids
  simp only
  by_cases h : x < s.m_var2row_ids.length
  · rw [List.getD_eq_getElem?_getD, List.getD_eq_getElem?_getD, List.getElem?_append_left h]
  · rw [List.getD_eq_default s.m_var2row_ids _ (by omega)]
    by_cases h2 : x = s.m_var2row_ids.length
    · rw [h2, List.getD_eq_getElem?_getD, List.getElem?_append_right (le_refl _)]
      simp
    · rw [List.getD_eq_default _ _ (by simp; omega)]

/-- One iteration of the second loop of `solve_divides`. -/
theorem divides_step2_row (st : model_based_opt) (j x y : Nat) (D u : ℚ) (hD : D ≠ 0) :
    ((st.get_row j).m_alive = false →
      ((st.replace_var2 j x D y u).normalize j).get_row j = st.get_row j) ∧
    ((st.get_row j).m_alive = true → (st.get_row j).m_type = ineq_type.t_divides →
      (st.get_row j).get_coefficient x = 0 → (st.get_row j).m_vars ≠ [] →
      ((st.replace_var2 j x D y u).normalize j).get_row j = st.get_row j) ∧
    ((st.get_row j).m_alive = true → (st.get_row j).get_coefficient x ≠ 0 →
      sorted_ids (st.get_row j).m_vars →
      (∀ t ∈ (st.get_row j).m_vars, t.m_coeff ≠ 0 ∧ t.m_id < y) →
      st.eval x = D * st.eval y + u →
      substituted x D y u (st.get_row j)
        (((st.replace_var2 j x D y u).normalize j).get_row j)) := by
  refine ⟨?_, ?_, ?_⟩
  · intro hd
    have h1 : st.replace_var2 j x D y u = st := by
      unfold replace_var2
      simp only [hd, Bool.not_false, if_true]
      split <;> rfl
    rw [h1, normalize_eq]
    simp [hd]
  · intro hal hty h0 hv
    have h1 : st.replace_var2 j x D y u = st := by
      unfold replace_var2 model_based_opt.get_coefficient
      simp only [h0, if_true]
    have hne : (st.get_row j).m_vars.isEmpty = false := by
      cases h : (st.get_row j).m_vars with
      | nil => exact absurd h hv
      | cons a l => rfl
    rw [h1, normalize_eq]
    simp [hal, hne, hty]
  · intro hal ha hs hrow hxy
    exact replace_var2_normalize_row st j x y D u hal ha hs (fun t ht => (hrow t ht).1)
      (fun t ht => (hrow t ht).2) hD hxy

theorem same_except_replace_var2 (s : model_based_opt) (j x y : Nat) (A B : ℚ) :
    same_except j s (s.replace_var2 j x A y B) := by
  unfold replace_var2
  dsimp only
  split
  · exact same_except_refl j s
  · split
    · exact same_except_refl j s
    · exact same_except_trans (same_except_trans (same_except_replace_var1 s j x B)
        (same_except_put_row _ _ _)) (same_except_push_row_id _ _ _ _)

/-- The state of `solve_divides` at its recursive call. -/
theorem solve_divides_prep_spec (s : model_based_opt) (x : Nat) (divide_rows : List Nat)
    (hwf : store_wf s)
    (hD : divide_rows.foldl (fun D idx => lcm D (s.get_row idx).m_mod) 1 ≠ 0)
    (hx : is_int_q (s.eval x) = true)
    (hnd : divide_rows.Nodup)
    (hdiv : ∀ idx ∈ divide_rows, (s.get_row idx).m_alive = true ∧
      (s.get_row idx).m_type = ineq_type.t_divides) :
    (solve_divides_prep s x divide_rows).2 = s.m_var2value.length ∧
    (solve_divides_prep s x divide_rows).1.m_var2value = s.m_var2value ++
      [(s.eval x - solve_divides_u s x divide_rows) / solve_divides_D s divide_rows] ∧
    (solve_divides_prep s x divide_rows).1.m_var2is_int = s.m_var2is_int ++ [true] ∧
    (∀ idx ∈ divide_rows, (solve_divides_prep s x divide_rows).1.get_row idx =
      { s.get_row idx with
        m_vars := mk_coeffs_without (s.get_row idx).m_vars x,
        m_coeff := (s.get_row idx).m_coeff
          + s.get_coefficient idx x * solve_divides_u s x divide_rows,
        m_value := (s.get_row idx).m_value
          + s.get_coefficient idx x * (solve_divides_u s x divide_rows - s.eval x),
        m_alive := !(mk_coeffs_without (s.get_row idx).m_vars x).isEmpty }) ∧
    (∀ j ∈ s.row_ids x, j ∉ divide_rows → (s.get_row j).m_alive = true →
      s.get_coefficient j x ≠ 0 →
      (∀ t ∈ (s.get_row j).m_vars, t.m_coeff ≠ 0 ∧ t.m_id < s.m_var2value.length) →
      substituted x (solve_divides_D s divide_rows) s.m_var2value.length
        (solve_divides_u s x divide_rows) (s.get_row j)
        ((solve_divides_prep s x divide_rows).1.get_row j)) := by
  obtain ⟨n, hn, hDn, -, -, -, -, -, -, harith⟩ := solve_divides_arith s x divide_rows hD hx
  have hDne : solve_divides_D s divide_rows ≠ 0 := by
    rw [hDn]
    have : (n : ℕ) ≠ 0 := by omega
    exact_mod_cast this
  obtain ⟨r1, r2, r3, r4, r5⟩ := solve_divides_rows_spec s x divide_rows hwf hnd hdiv
  generalize hs1 : solve_divides_rows s x divide_rows = s1 at r1 r2 r3 r4 r5
  generalize hnv : (s.eval x - solve_divides_u s x divide_rows) / solve_divides_D s divide_rows
    = nv at harith
  have hprep : solve_divides_prep s x divide_rows =
      (((fresh_ids [] ((s1.add_var nv true).1.row_ids x)).foldl
        (fun st j => (st.replace_var2 j x (solve_divides_D s divide_rows)
          (s1.add_var nv true).2 (solve_divides_u s x divide_rows)).normalize j)
        (s1.add_var nv true).1), (s1.add_var nv true).2) := by
    unfold solve_divides_prep
    simp only [hs1, hnv]
    rw [visited_fold (fun st j => (st.replace_var2 j x (solve_divides_D s divide_rows)
          (s1.add_var nv true).2 (solve_divides_u s x divide_rows)).normalize j)]
  have hy : (s1.add_var nv true).2 = s.m_var2value.length := by
    unfold add_var
    simp only
    rw [r1]
  have hpv : (s1.add_var nv true).1.m_var2value = s.m_var2value ++ [nv] := by
    unfold add_var
    simp only
    rw [r1]
  have hpi : (s1.add_var nv true).1.m_var2is_int = s.m_var2is_int ++ [true] := by
    unfold add_var
    simp only
    rw [r2]
  have hprow : ∀ j, (s1.add_var nv true).1.get_row j = s1.get_row j := fun j => rfl
  have hpids : (s1.add_var nv true).1.row_ids x = s.row_ids x := by
    rw [row_ids_add_var]
    unfold row_ids
    rw [r3]
  rw [hprep, hy, hpids]
  simp only
  rw [hy] at hprep
  generalize hpy : (s1.add_var nv true).1 = p1 at hpv hpi hprow hprep
  have hfold := fold_rel
    (fun st j => (st.replace_var2 j x (solve_divides_D s divide_rows)
      s.m_var2value.length (solve_divides_u s x divide_rows)).normalize j)
    (fun _ r r2 =>
      (r.m_alive = false → r2 = r) ∧
      (r.m_alive = true → r.m_type = ineq_type.t_divides → r.get_coefficient x = 0 →
        r.m_vars ≠ [] → r2 = r) ∧
      (r.m_alive = true → r.get_coefficient x ≠ 0 → sorted_ids r.m_vars →
        (∀ t ∈ r.m_vars, t.m_coeff ≠ 0 ∧ t.m_id < s.m_var2value.length) →
        substituted x (solve_divides_D s divide_rows) s.m_var2value.length
          (solve_divides_u s x divide_rows) r r2))
    p1
    (fun st j => same_except_trans (same_except_replace_var2 st j x _ _ _)
      (same_except_normalize _ j))
    (by
      intro st j hv
      obtain ⟨c1, c2, c3⟩ := divides_step2_row st j x s.m_var2value.length
        (solve_divides_D s divide_rows) (solve_divides_u s x divide_rows) hDne
      refine ⟨c1, c2, ?_⟩
      intro hal ha hs hrow
      refine c3 hal ha hs hrow ?_
      obtain ⟨v, hvm, hvx, -⟩ := get_coefficient_mem (st.get_row j) x ha
      have hxlt : x < s.m_var2value.length := by rw [← hvx]; exact (hrow v hvm).2
      have e1 : st.eval x = s.eval x := by
        unfold eval
        rw [hv, hpv, getD_append_lt _ _ _ _ hxlt]
      have e2 : st.eval s.m_var2value.length = nv := by
        unfold eval
        rw [hv, hpv, getD_append_last]
      rw [e1, e2]
      exact harith)
    (fresh_ids [] (s.row_ids x)) p1 (fresh_ids_nodup _ _) rfl
  obtain ⟨f1, f2, -, f4, f5⟩ := hfold
  refine ⟨trivial, f1.trans hpv, f2.trans hpi, ?_, ?_⟩
  · intro idx hidx
    have hrow1 : p1.get_row idx = _ := (hprow idx).trans (r5 idx hidx)
    by_cases hm : idx ∈ fresh_ids [] (s.row_ids x)
    · obtain ⟨g1, g2, -⟩ := f5 idx hm
      by_cases he : (mk_coeffs_without (s.get_row idx).m_vars x).isEmpty = true
      · have hdead : (p1.get_row idx).m_alive = false := by rw [hrow1]; simp [he]
        rw [g1 hdead, hrow1]
      · have hal : (p1.get_row idx).m_alive = true := by rw [hrow1]; simp [he]
        have hty : (p1.get_row idx).m_type = ineq_type.t_divides := by
          rw [hrow1]; exact (hdiv idx hidx).2
        have hsort := hwf.2.2 idx (hdiv idx hidx).1
        have hco : (p1.get_row idx).get_coefficient x = 0 := by
          apply row_get_coefficient_absent
          rw [hrow1]
          exact (mk_coeffs_without_spec _ x hsort).2
        have hv : (p1.get_row idx).m_vars ≠ [] := by
          rw [hrow1]
          simp only
          intro h
          rw [h] at he
          simp at he
        rw [g2 hal hty hco hv, hrow1]
    · rw [f4 idx hm, hrow1]
  · intro j hj hnd2 hal ha hrow
    have hm : j ∈ fresh_ids [] (s.row_ids x) := (mem_fresh_ids _ _ _).mpr ⟨hj, by simp⟩
    have hrow1 : p1.get_row j = s.get_row j := (hprow j).trans (r4 j hnd2)
    obtain ⟨-, -, g3⟩ := f5 j hm
    rw [hrow1] at g3
    exact g3 hal ha (hwf.2.2 j hal) hrow

theorem eval_def_mul_add_q (s : model_based_opt) (d : def_) (D u : ℚ) :
    s.eval_def ((d.mul_q D).add_q u) = D * s.eval_def d + u := by
  unfold def_.add_q def_.mul_q
  by_cases h1 : D = 1 <;> by_cases h2 : u = 0 <;> simp [h1, h2, eval_def] <;> ring

theorem divides_value_kept (V A Y M : ℤ) (n : ℕ) (hM : M ∣ (n : ℤ))
    (h : mod (V : ℚ) (M : ℚ) = 0) (u val yv : ℚ) (hyv : yv = (Y : ℚ))
    (hval : val = (n : ℚ) * yv + u) :
    mod ((V : ℚ) + (A : ℚ) * (u - val)) (M : ℚ) = 0 := by
  obtain ⟨k, hk⟩ := hM
  have e : (V : ℚ) + (A : ℚ) * (u - val) = ((V + M * (-(A * Y * k)) : ℤ) : ℚ) := by
    rw [hval, hyv]
    have : ((n : ℚ)) = ((n : ℤ) : ℚ) := by push_cast; rfl
    rw [this, hk]
    push_cast
    ring
  rw [mod_int_cast] at h
  rw [e, mod_int_cast, Int.add_mul_emod_self_left]
  exact h

/-- C28 (counterexample): on `divides_store` (`x = 7`, rows `3 | x + 2` and `x - 10 <= 0`
with cached value -3) `solve_divides` has `D = 3`, `u = 1` and the fresh variable `y = 2`;
at the recursive call row 2 is `y - 3 <= 0` with cached value -1, not `3y - 9 <= 0` with
cached value -3: `normalize` has divided the substituted row and its cached value by 3. -/
theorem solve_divides_rescales_value :
    (scan_result divides_store 0).divide_rows = [1] ∧
    divides_store.get_row 2 =
      { m_vars := [⟨0, 1⟩], m_coeff := -10, m_mod := 0, m_type := ineq_type.t_le,
        m_value := -3, m_alive := true, m_id := 0 } ∧
    solve_divides_D divides_store [1] = 3 ∧ solve_divides_u divides_store 0 [1] = 1 ∧
    (solve_divides_prep divides_store 0 [1]).2 = 1 ∧
    (solve_divides_prep divides_store 0 [1]).1.m_var2value = [7, 2] ∧
    (solve_divides_prep divides_store 0 [1]).1.get_row 2 =
      { m_vars := [⟨1, 1⟩], m_coeff := -3, m_mod := 0, m_type := ineq_type.t_le,
        m_value := -1, m_alive := true, m_id := 0 } := by
  decide!

/-- C28 (amended): `solve_divides(x, divide_rows, compute_def)` on a well-formed store, for
an integer-valued `x`, distinct live divisibility rows and a nonzero lcm `D0` of their
moduli.  With `D = |D0|`, `u = mod(val, D)`: `D > 0` and `0 <= u < D`; the fresh variable
`y` is integral with the integer value `(val - u)/D`, so `val = D*y_val + u`, and the other
variables keep their values; in each divisibility row the term `a*x` is replaced by the
constant `a*u` (a row left without terms is retired) and, for integer data, its modulus
still divides its cached value; every other live row listed for `x` with a nonzero
coefficient `a` on `x` is, at the recursive call, the row with `a*x` replaced by
`a*D*y + a*u` divided by the positive gcd of `normalize`, its cached value being the old
one divided by the same factor, and `x` does not occur in it; the call then returns what
`project(y, compute_def)` returns, and a requested definition is `d*D + u` for the
definition `d` of `y`, whose evaluation `D*eval(d) + u` is stored for `x`. -/
theorem solve_divides_spec
    (proj : model_based_opt → Nat → Bool → Except error (model_based_opt × Option def_))
    (s : model_based_opt) (x : Nat) (divide_rows : List Nat) (compute_def : Bool)
    (hwf : store_wf s)
    (htab : s.m_var2is_int.length = s.m_var2value.length)
    (hD : divide_rows.foldl (fun D idx => lcm D (s.get_row idx).m_mod) 1 ≠ 0)
    (hx : is_int_q (s.eval x) = true)
    (hnd : divide_rows.Nodup)
    (hdiv : ∀ idx ∈ divide_rows, (s.get_row idx).m_alive = true ∧
      (s.get_row idx).m_type = ineq_type.t_divides) :
    (0 < solve_divides_D s divide_rows ∧
      solve_divides_u s x divide_rows = mod (s.eval x) (solve_divides_D s divide_rows) ∧
      0 ≤ solve_divides_u s x divide_rows ∧
      solve_divides_u s x divide_rows < solve_divides_D s divide_rows) ∧
    ((solve_divides_prep s x divide_rows).2 = s.m_var2value.length ∧
      (solve_divides_prep s x divide_rows).1.is_int (solve_divides_prep s x divide_rows).2
        = true ∧
      (solve_divides_prep s x divide_rows).1.eval (solve_divides_prep s x divide_rows).2
        = (s.eval x - solve_divides_u s x divide_rows) / solve_divides_D s divide_rows ∧
      is_int_q ((solve_divides_prep s x divide_rows).1.eval
        (solve_divides_prep s x divide_rows).2) = true ∧
      s.eval x = solve_divides_D s divide_rows *
        (solve_divides_prep s x divide_rows).1.eval (solve_divides_prep s x divide_rows).2
        + solve_divides_u s x divide_rows ∧
      ∀ v < s.m_var2value.length, (solve_divides_prep s x divide_rows).1.eval v = s.eval v) ∧
    (∀ idx ∈ divide_rows,
      (solve_divides_prep s x divide_rows).1.get_row idx =
        { s.get_row idx with
          m_vars := mk_coeffs_without (s.get_row idx).m_vars x,
          m_coeff := (s.get_row idx).m_coeff
            + s.get_coefficient idx x * solve_divides_u s x divide_rows,
          m_value := (s.get_row idx).m_value
            + s.get_coefficient idx x * (solve_divides_u s x divide_rows - s.eval x),
          m_alive := !(mk_coeffs_without (s.get_row idx).m_vars x).isEmpty } ∧
      (is_int_q (s.get_coefficient idx x) = true → is_int_q (s.get_row idx).m_value = true →
        is_int_q (s.get_row idx).m_mod = true →
        mod (s.get_row idx).m_value (s.get_row idx).m_mod = 0 →
        mod ((solve_divides_prep s x divide_rows).1.get_row idx).m_value
          ((solve_divides_prep s x divide_rows).1.get_row idx).m_mod = 0)) ∧
    (∀ j ∈ s.row_ids x, j ∉ divide_rows → (s.get_row j).m_alive = true →
      s.get_coefficient j x ≠ 0 →
      (∀ t ∈ (s.get_row j).m_vars, t.m_coeff ≠ 0 ∧ t.m_id < s.m_var2value.length) →
      substituted x (solve_divides_D s divide_rows) (solve_divides_prep s x divide_rows).2
        (solve_divides_u s x divide_rows) (s.get_row j)
        ((solve_divides_prep s x divide_rows).1.get_row j)) ∧
    (solve_divides proj s x divide_rows compute_def =
      match proj (solve_divides_prep s x divide_rows).1 (solve_divides_prep s x divide_rows).2
          compute_def with
      | Except.error e => Except.error e
      | Except.ok (s3, result) =>
          solve_divides_finish s3 result x (solve_divides_D s divide_rows)
            (solve_divides_u s x divide_rows) compute_def) ∧
    (∀ s3 d, solve_divides_finish s3 (some d) x (solve_divides_D s divide_rows)
        (solve_divides_u s x divide_rows) true =
        Except.ok (s3.set_value x (solve_divides_D s divide_rows * s3.eval_def d
            + solve_divides_u s x divide_rows),
          some ((d.mul_q (solve_divides_D s divide_rows)).add_q
            (solve_divides_u s x divide_rows))) ∧
      s3.eval_def ((d.mul_q (solve_divides_D s divide_rows)).add_q
          (solve_divides_u s x divide_rows))
        = solve_divides_D s divide_rows * s3.eval_def d + solve_divides_u s x divide_rows) := by
  obtain ⟨n, hn, hDn, hdvd, a1, a2, a3, -, a5, a6⟩ := solve_divides_arith s x divide_rows hD hx
  obtain ⟨p1, p2, p3, p4, p5⟩ := solve_divides_prep_spec s x divide_rows hwf hD hx hnd hdiv
  have hevy : (solve_divides_prep s x divide_rows).1.eval (solve_divides_prep s x divide_rows).2
      = (s.eval x - solve_divides_u s x divide_rows) / solve_divides_D s divide_rows := by
    have he : ∀ (t : model_based_opt) (v : Nat), t.eval v = t.m_var2value.getD v 0 :=
      fun _ _ => rfl
    rw [he, p1, p2, getD_append_last]
  refine ⟨⟨?_, a1, a2, a3⟩, ⟨p1, ?_, hevy, ?_, ?_, ?_⟩, ?_, ?_,
    solve_divides_split proj s x divide_rows compute_def hD, ?_⟩
  · rw [hDn]
    exact_mod_cast hn
  · unfold is_int
    rw [p1, p3, ← htab, List.getD_eq_getElem?_getD, List.getElem?_append_right (le_refl _)]
    simp
  · rw [hevy]; exact a5
  · rw [hevy]; exact a6
  · intro v hv
    have he : ∀ (t : model_based_opt) (v : Nat), t.eval v = t.m_var2value.getD v 0 :=
      fun _ _ => rfl
    rw [he, he, p2, getD_append_lt _ _ _ _ hv]
  · intro idx hidx
    refine ⟨p4 idx hidx, ?_⟩
    intro i1 i2 i3 hm
    rw [p4 idx hidx]
    simp only
    obtain ⟨A, hA⟩ := (is_int_q_iff _).mp i1
    obtain ⟨V, hV⟩ := (is_int_q_iff _).mp i2
    obtain ⟨M, hM⟩ := (is_int_q_iff _).mp i3
    obtain ⟨Y, hY⟩ := (is_int_q_iff _).mp a5
    have hMn : M ∣ (n : ℤ) := by
      have := hdvd idx hidx
      rw [hM] at this
      simpa using this
    rw [hA, hV, hM]
    rw [hV, hM] at hm
    refine divides_value_kept V A Y M n hMn hm _ (s.eval x) _ hY ?_
    rw [← hDn]
    exact a6
  · rw [p1]
    exact p5
  · intro s3 d
    have e := eval_def_mul_add_q s3 d (solve_divides_D s divide_rows)
      (solve_divides_u s x divide_rows)
    refine ⟨?_, e⟩
    unfold solve_divides_finish
    simp only [if_true]
    rw [e]

theorem solve_divides_spec_witness :
    store_wf divides_store ∧
    solve_divides_D divides_store [1] = 3 ∧
    substituted 0 (solve_divides_D divides_store [1]) (solve_divides_prep divides_store 0 [1]).2
      (solve_divides_u divides_store 0 [1]) (divides_store.get_row 2)
      ((solve_divides_prep divides_store 0 [1]).1.get_row 2) :=
  have hwf : store_wf divides_store :=
    store_wf_of_rows _ (by decide!) (by decide!) (by simp only [sorted_ids]; decide!)
  have h := solve_divides_spec (project 3) divides_store 0 [1] true hwf
    (by decide!) (by decide!) (by decide!) (by decide!) (by decide!)
  ⟨hwf, by decide!,
    h.2.2.2.1 2 (by decide!) (by decide!) (by decide!) (by decide!) (by decide!)⟩

/-! ### `solve_mod_div` -/

theorem solve_mod_div_split
    (proj : model_based_opt → Nat → Bool → Except error (model_based_opt × Option def_))
    (s : model_based_opt) (x : Nat) (mod_rows0 div_rows0 : List Nat) (compute_def : Bool) :
    solve_mod_div proj s x mod_rows0 div_rows0 compute_def =
      solve_mod_div_tail proj x (solve_mod_div_y s) (solve_mod_div_z s)
        (solve_mod_div_K s mod_rows0 div_rows0)
        (mod (s.eval x) (solve_mod_div_K s mod_rows0 div_rows0))
        (solve_mod_div_marked s x mod_rows0 div_rows0).2.2.1
        (solve_mod_div_marked s x mod_rows0 div_rows0).2.2.2
        (solve_mod_div_bounds s x mod_rows0 div_rows0) compute_def := by
  have hy : ((s.add_var (mod (s.eval x) (solve_mod_div_K s mod_rows0 div_rows0)) true).1.add_var
      (div (s.eval x) (solve_mod_div_K s mod_rows0 div_rows0)) true).2 = solve_mod_div_y s := by
    unfold add_var solve_mod_div_y
    simp
  unfold solve_mod_div solve_mod_div_tail solve_mod_div_bounds solve_mod_div_subst
    solve_mod_div_marked
  simp only
  rw [show solve_mod_div_K s mod_rows0 div_rows0 =
    mod_rows0.foldl (fun K ri => lcm K (s.get_row ri).m_mod)
      (div_rows0.foldl (fun K ri => lcm K (s.get_row ri).m_mod) 1) from rfl] at hy ⊢
  rw [hy]
  rfl

theorem div_int_cast (a d : ℤ) : div (a : ℚ) (d : ℚ) = ((a / d : ℤ) : ℚ) := by
  unfold div
  simp

/-- The arithmetic of `solve_mod_div`: `K > 0`, `val = K * div(val, K) + mod(val, K)` and
`0 <= mod(val, K) < K`, both values being integers. -/
theorem solve_mod_div_arith (s : model_based_opt) (x : Nat) (mod_rows0 div_rows0 : List Nat)
    (hK : solve_mod_div_K s mod_rows0 div_rows0 ≠ 0)
    (hx : is_int_q (s.eval x) = true) :
    0 < solve_mod_div_K s mod_rows0 div_rows0 ∧
    is_int_q (solve_mod_div_K s mod_rows0 div_rows0) = true ∧
    is_int_q (mod (s.eval x) (solve_mod_div_K s mod_rows0 div_rows0)) = true ∧
    is_int_q (div (s.eval x) (solve_mod_div_K s mod_rows0 div_rows0)) = true ∧
    s.eval x = solve_mod_div_K s mod_rows0 div_rows0 *
        div (s.eval x) (solve_mod_div_K s mod_rows0 div_rows0)
      + mod (s.eval x) (solve_mod_div_K s mod_rows0 div_rows0) ∧
    0 ≤ mod (s.eval x) (solve_mod_div_K s mod_rows0 div_rows0) ∧
    mod (s.eval x) (solve_mod_div_K s mod_rows0 div_rows0)
      < solve_mod_div_K s mod_rows0 div_rows0 := by
  obtain ⟨n1, h1, -, -⟩ := lcm_fold_dvd s div_rows0 1
  rw [Nat.cast_one] at h1
  obtain ⟨n, h2, -, -⟩ := lcm_fold_dvd s mod_rows0 n1
  have hKn : solve_mod_div_K s mod_rows0 div_rows0 = (n : ℚ) := by
    unfold solve_mod_div_K
    simp only [h1, h2]
  rw [hKn] at hK ⊢
  have hn : 0 < n := by
    rcases Nat.eq_zero_or_pos n with h | h
    · rw [h, Nat.cast_zero] at hK
      exact absurd rfl hK
    · exact h
  obtain ⟨V, hV⟩ := (is_int_q_iff _).mp hx
  have e : ((n : ℚ)) = ((n : ℤ) : ℚ) := by push_cast; rfl
  rw [hV, e, mod_int_cast, div_int_cast]
  have hnz : (0 : ℤ) < (n : ℤ) := by omega
  refine ⟨by exact_mod_cast hnz, (is_int_q_iff _).mpr ⟨_, rfl⟩, (is_int_q_iff _).mpr ⟨_, rfl⟩,
    (is_int_q_iff _).mpr ⟨_, rfl⟩, ?_, ?_, ?_⟩
  · have := Int.emod_add_ediv V (n : ℤ)
    have e2 : (V : ℚ) = ((V % (n : ℤ) + (n : ℤ) * (V / (n : ℤ)) : ℤ) : ℚ) := by rw [this]
    rw [e2]
    push_cast
    ring_nf
  · exact_mod_cast Int.emod_nonneg V (by omega)
  · exact_mod_cast Int.emod_lt_of_pos V hnz

/-- Writing a row keeps the store well formed when a live row written has sorted terms and
a retired row id only receives a dead row. -/
theorem store_wf_put_row (s : model_based_opt) (j : Nat) (r : row) (hwf : store_wf s)
    (hr : r.m_alive = true → sorted_ids r.m_vars)
    (hd : j ∈ s.m_retired_rows → r.m_alive = false) : store_wf (s.put_row j r) := by
  have hlen : (s.put_row j r).m_rows.length = s.m_rows.length := by simp [put_row]
  have hrow : ∀ i, (s.put_row j r).get_row i = s.get_row i ∨
      (i = j ∧ (s.put_row j r).get_row i = r) := by
    intro i
    by_cases hij : i = j
    · by_cases hlt : j < s.m_rows.length
      · right; exact ⟨hij, by rw [hij]; exact get_row_put_row_eq _ _ _ hlt⟩
      · left
        rw [hij]
        unfold get_row put_row
        simp only
        rw [List.getD_eq_default _ _ (by simp; omega), List.getD_eq_default _ _ (by omega)]
    · left; exact get_row_put_row_ne _ _ _ _ hij
  refine ⟨?_, hwf.2.1, ?_⟩
  · intro i hi
    have hi2 : i ∈ s.m_retired_rows := hi
    rw [hlen]
    refine ⟨?_, (hwf.1 i hi2).2⟩
    rcases hrow i with h | ⟨hij, h⟩
    · rw [h]; exact (hwf.1 i hi2).1
    · rw [h]; exact hd (hij ▸ hi2)
  · intro i hal
    rcases hrow i with h | ⟨-, h⟩
    · rw [h] at hal ⊢; exact hwf.2.2 i hal
    · rw [h] at hal ⊢; exact hr hal

theorem store_wf_of_rows_eq (s t : model_based_opt) (hwf : store_wf s)
    (h1 : t.m_rows = s.m_rows) (h2 : t.m_retired_rows = s.m_retired_rows) : store_wf t := by
  have hg : ∀ j, t.get_row j = s.get_row j := fun j => get_row_congr s t h1 j
  refine ⟨?_, by rw [h2]; exact hwf.2.1, ?_⟩
  · intro j hj
    rw [h2] at hj
    rw [hg, h1]
    exact hwf.1 j hj
  · intro j hj
    rw [hg] at hj ⊢
    exact hwf.2.2 j hj

theorem store_wf_mul (s : model_based_opt) (j : Nat) (c : ℚ) (hwf : store_wf s) :
    store_wf (s.mul j c) := by
  unfold model_based_opt.mul
  split
  · exact hwf
  · refine store_wf_put_row s j _ hwf ?_ ?_
    · intro hal
      exact sorted_ids_map_scale c _ (hwf.2.2 j hal)
    · intro hj
      exact (hwf.1 j hj).1

theorem mul_fields (s : model_based_opt) (j : Nat) (c : ℚ) :
    (s.mul j c).m_var2value = s.m_var2value ∧ (s.mul j c).m_var2is_int = s.m_var2is_int ∧
    (s.mul j c).m_var2row_ids = s.m_var2row_ids ∧
    (s.mul j c).m_retired_rows = s.m_retired_rows := by
  unfold model_based_opt.mul
  split <;> exact ⟨rfl, rfl, rfl, rfl⟩

/-- The loops of `solve_mod_div` that mark rows dead: only the listed rows change, the
variable tables and the row index are unchanged and the store stays well formed. -/
theorem mark_dead_fold (scale : Option ℚ) (l : List Nat)
    (p : model_based_opt × List Nat × List Nat) (hwf : store_wf p.1) :
    store_wf (l.foldl (mark_dead scale) p).1 ∧
    (l.foldl (mark_dead scale) p).1.m_var2value = p.1.m_var2value ∧
    (l.foldl (mark_dead scale) p).1.m_var2is_int = p.1.m_var2is_int ∧
    (l.foldl (mark_dead scale) p).1.m_var2row_ids = p.1.m_var2row_ids ∧
    (∀ j, j ∉ l → (l.foldl (mark_dead scale) p).1.get_row j = p.1.get_row j) ∧
    (∀ j ∈ (l.foldl (mark_dead scale) p).2.1, j ∈ p.2.1 ∨ j ∈ l) := by
  induction l generalizing p with
  | nil => exact ⟨hwf, rfl, rfl, rfl, fun _ _ => rfl, fun j hj => Or.inl hj⟩
  | cons a l ih =>
    rw [List.foldl_cons]
    have hstep : store_wf (mark_dead scale p a).1 ∧
        (mark_dead scale p a).1.m_var2value = p.1.m_var2value ∧
        (mark_dead scale p a).1.m_var2is_int = p.1.m_var2is_int ∧
        (mark_dead scale p a).1.m_var2row_ids = p.1.m_var2row_ids ∧
        (∀ j, j ≠ a → (mark_dead scale p a).1.get_row j = p.1.get_row j) ∧
        (∀ j ∈ (mark_dead scale p a).2.1, j ∈ p.2.1 ∨ j = a) := by
      unfold mark_dead
      split
      · exact ⟨hwf, rfl, rfl, rfl, fun _ _ => rfl, fun j hj => Or.inl hj⟩
      · simp only
        cases scale with
        | none =>
          simp only
          refine ⟨store_wf_put_row _ _ _ hwf (fun h => by simp at h) (fun _ => rfl), rfl, rfl,
            rfl, fun j hj => get_row_put_row_ne _ _ _ _ hj, ?_⟩
          intro j hj
          simpa using hj
        | some K =>
          simp only
          obtain ⟨m1, m2, m3, -⟩ := mul_fields p.1 a (K / (p.1.get_row a).m_mod)
          refine ⟨store_wf_put_row _ _ _ (store_wf_mul _ _ _ hwf) (fun h => by simp at h)
            (fun _ => rfl), m1, m2, m3, ?_, ?_⟩
          · intro j hj
            rw [get_row_put_row_ne _ _ _ _ hj]
            exact (same_except_mul p.1 a _).1 j hj
          · intro j hj
            simpa using hj
    obtain ⟨s1, s2, s3, s4, s5, s6⟩ := hstep
    obtain ⟨i1, i2, i3, i4, i5, i6⟩ := ih (mark_dead scale p a) s1
    refine ⟨i1, i2.trans s2, i3.trans s3, i4.trans s4, ?_, ?_⟩
    · intro j hj
      have hja : j ≠ a := fun h => hj (h ▸ List.mem_cons_self _ _)
      have hjl : j ∉ l := fun h => hj (List.mem_cons_of_mem _ h)
      rw [i5 j hjl, s5 j hja]
    · intro j hj
      rcases i6 j hj with h | h
      · rcases s6 j h with h2 | h2
        · exact Or.inl h2
        · exact Or.inr (h2 ▸ List.mem_cons_self _ _)
      · exact Or.inr (List.mem_cons_of_mem _ h)

/-! ### The substitution loop of `solve_mod_div` -/

theorem sorted_ids_sort_vars (l : List var) (hn : (l.map (fun v => v.m_id)).Nodup) :
    sorted_ids (sort_vars l) := by
  haveI : IsTotal var (fun a b => a.m_id ≤ b.m_id) := ⟨fun a b => le_total a.m_id b.m_id⟩
  haveI : IsTrans var (fun a b => a.m_id ≤ b.m_id) := ⟨fun a b c h1 h2 => le_trans h1 h2⟩
  have h1 : (sort_vars l).Sorted (fun a b => a.m_id ≤ b.m_id) :=
    List.sorted_insertionSort _ l
  have h2 : ((sort_vars l).map (fun v => v.m_id)).Sorted (· ≤ ·) := by
    unfold List.Sorted at h1 ⊢
    exact List.pairwise_map.mpr h1
  have h3 : ((sort_vars l).map (fun v => v.m_id)).Nodup :=
    ((List.perm_insertionSort _ l).map _).nodup_iff.mpr hn
  exact h2.lt_of_le h3

theorem mem_sort_vars (l : List var) (t : var) : t ∈ sort_vars l ↔ t ∈ l :=
  (List.perm_insertionSort _ l).mem_iff

theorem same_except_replace_var3 (s : model_based_opt) (j x y z : Nat) (A B : ℚ) :
    same_except j s (s.replace_var3 j x A y B z) := by
  have hput : ∀ r, same_except j s ((s.replace_var1 j x 0).put_row j r) := fun r =>
    same_except_trans (same_except_replace_var1 s j x 0) (same_except_put_row _ _ _)
  have hpush : ∀ (t : model_based_opt) (v : Nat), same_except j s t →
      same_except j s (t.push_row_id v j) := fun t v h =>
    same_except_trans h (same_except_push_row_id _ _ _ _)
  unfold replace_var3
  dsimp only
  split_ifs
  all_goals first
    | exact same_except_refl j s
    | exact hpush _ _ (hpush _ _ (hput _))
    | exact hpush _ _ (hput _)
    | exact hput _

/-- The row after `replace_var(row_id, x, A, y, 1, z)` for a live row that mentions `x`
and fresh variables `z < y` above every variable of the row. -/
theorem replace_var3_row (st : model_based_opt) (j x y z : Nat) (A : ℚ)
    (hal : (st.get_row j).m_alive = true) (ha : st.get_coefficient j x ≠ 0)
    (hs : sorted_ids (st.get_row j).m_vars) (hA : A ≠ 0) :
    (st.replace_var3 j x A y 1 z).get_row j =
      { st.get_row j with
        m_vars := sort_vars (mk_coeffs_without (st.get_row j).m_vars x
          ++ [⟨y, st.get_coefficient j x * A⟩] ++ [⟨z, st.get_coefficient j x * 1⟩]),
        m_coeff := (st.get_row j).m_coeff + st.get_coefficient j x * 0,
        m_value := (st.get_row j).m_value + st.get_coefficient j x * (0 - st.eval x)
          + st.get_coefficient j x * A * st.eval y
          + st.get_coefficient j x * 1 * st.eval z } ∧
    (st.replace_var3 j x A y 1 z).m_retired_rows = st.m_retired_rows := by
  have hj := alive_lt_length st j hal
  have hr1 := replace_var1_row st j x 0 hj hs
  have se1 := same_except_replace_var1 st j x 0
  have hj1 : j < (st.replace_var1 j x 0).m_rows.length := by rw [se1.2.2.2]; exact hj
  have hev1 : (st.replace_var1 j x 0).eval = st.eval := eval_congr _ _ se1.2.1
  have h1 : (1 : ℚ) ≠ 0 := one_ne_zero
  unfold replace_var3
  simp only [ha, hal, false_or, Bool.true_eq_false, if_false, hA, h1, ne_eq, not_false_eq_true,
    if_true]
  refine ⟨?_, rfl⟩
  rw [get_row_push_row_id, get_row_push_row_id, get_row_put_row_eq _ _ _ hj1, hr1, hev1]
  dsimp only
  rw [hal]

/-- One iteration of the substitution loop of `solve_mod_div` on a live row that mentions
`x`: the row becomes the substituted row up to the scaling of `normalize`. -/
theorem replace_var3_normalize_row (st : model_based_opt) (j x y z : Nat) (A : ℚ)
    (hal : (st.get_row j).m_alive = true) (ha : st.get_coefficient j x ≠ 0)
    (hs : sorted_ids (st.get_row j).m_vars)
    (hnz : ∀ t ∈ (st.get_row j).m_vars, t.m_coeff ≠ 0)
    (hz : ∀ t ∈ (st.get_row j).m_vars, t.m_id < z) (hzy : z < y)
    (hA : A ≠ 0) (hxy : st.eval x = A * st.eval y + st.eval z) :
    substituted3 x A y z (st.get_row j)
      (((st.replace_var3 j x A y 1 z).normalize j).get_row j) := by
  obtain ⟨hrow, -⟩ := replace_var3_row st j x y z A hal ha hs hA
  obtain ⟨hfs, hfx⟩ := mk_coeffs_without_spec (st.get_row j).m_vars x hs
  have hmem : ∀ t ∈ mk_coeffs_without (st.get_row j).m_vars x, t ∈ (st.get_row j).m_vars := by
    intro t ht
    unfold mk_coeffs_without at ht
    exact (List.mem_filter.mp ht).1
  have hxz : x < z := by
    obtain ⟨v, hvm, hvx, -⟩ := get_coefficient_mem (st.get_row j) x ha
    rw [← hvx]; exact hz v hvm
  have hnd : ((mk_coeffs_without (st.get_row j).m_vars x
      ++ [(⟨y, st.get_coefficient j x * A⟩ : var)]
      ++ [(⟨z, st.get_coefficient j x * 1⟩ : var)]).map (fun v => v.m_id)).Nodup := by
    simp only [List.map_append, List.map_cons, List.map_nil, List.append_assoc,
      List.singleton_append]
    refine List.nodup_append.mpr ⟨sorted_ids_nodup _ hfs, ?_, ?_⟩
    · simp only [List.nodup_cons, List.mem_singleton, List.not_mem_nil, not_false_eq_true,
        List.nodup_nil, and_true]
      omega
    · intro a h1 h2
      obtain ⟨t, ht, rfl⟩ := List.mem_map.mp h1
      have := hz t (hmem t ht)
      simp only [List.mem_cons, List.mem_singleton, List.not_mem_nil, or_false] at h2
      omega
  have hsorted := sorted_ids_sort_vars _ hnd
  have hal2 : ((st.replace_var3 j x A y 1 z).get_row j).m_alive = true := by
    rw [hrow]; exact hal
  have hv2 : ((st.replace_var3 j x A y 1 z).get_row j).m_vars ≠ [] := by
    rw [hrow]
    simp only
    intro h
    have : (⟨z, st.get_coefficient j x * 1⟩ : var) ∈ sort_vars
        (mk_coeffs_without (st.get_row j).m_vars x
          ++ [⟨y, st.get_coefficient j x * A⟩] ++ [⟨z, st.get_coefficient j x * 1⟩]) :=
      (mem_sort_vars _ _).mpr (by simp)
    rw [h] at this
    simp at this
  have hallnz : ∀ t ∈ ((st.replace_var3 j x A y 1 z).get_row j).m_vars, t.m_coeff ≠ 0 := by
    rw [hrow]
    simp only
    intro t ht
    have := (mem_sort_vars _ _).mp ht
    simp only [List.append_assoc, List.singleton_append, List.mem_append, List.mem_cons,
      List.mem_singleton, List.not_mem_nil, or_false] at this
    rcases this with h | h | h
    · exact hnz t (hmem t h)
    · rw [h]; exact mul_ne_zero ha hA
    · rw [h]; simpa using ha
  have hh2 : (((st.replace_var3 j x A y 1 z).get_row j).m_vars.headD {}).m_coeff ≠ 0 := by
    cases hl : ((st.replace_var3 j x A y 1 z).get_row j).m_vars with
    | nil => exact absurd hl hv2
    | cons a l =>
      simp only [List.headD_cons]
      exact hallnz a (by rw [hl]; exact List.mem_cons_self _ _)
  have hs2 : sorted_ids ((st.replace_var3 j x A y 1 z).get_row j).m_vars := by
    rw [hrow]; exact hsorted
  obtain ⟨k, hk, n1, n2, n3, n4, n5, n6, n7⟩ :=
    normalize_scale (st.replace_var3 j x A y 1 z) j hal2 hv2 hh2 hs2
  have hco : ∀ (w : Nat) (c : ℚ), (⟨w, c⟩ : var) ∈ (mk_coeffs_without (st.get_row j).m_vars x
      ++ [⟨y, st.get_coefficient j x * A⟩] ++ [⟨z, st.get_coefficient j x * 1⟩]) →
      ((st.replace_var3 j x A y 1 z).get_row j).get_coefficient w = c := by
    intro w c hm
    refine row_get_coefficient_present _ w hs2 ⟨w, c⟩ ?_ rfl
    rw [hrow]
    exact (mem_sort_vars _ _).mpr hm
  refine ⟨k, hk, ?_, ?_, n3, ?_, ?_, n6, ?_, ?_⟩
  · intro val
    rw [n1, lin_update _ _ _ _ hs, hrow, lin_eq]
    simp only
    rw [sum_vars_sort, sum_vars_append_one, sum_vars_append_one]
    unfold model_based_opt.get_coefficient
    ring
  · rw [n2, hrow]
    simp only
    rw [hxy]
    ring
  · rw [n4, hrow]
  · intro t ht
    have hid : t.m_id ∈ (((st.replace_var3 j x A y 1 z).normalize j).get_row j).m_vars.map
        (fun v => v.m_id) := List.mem_map.mpr ⟨t, ht, rfl⟩
    rw [n5, hrow] at hid
    obtain ⟨w, hw, hwid⟩ := List.mem_map.mp hid
    have := (mem_sort_vars _ _).mp hw
    simp only [List.append_assoc, List.singleton_append, List.mem_append, List.mem_cons,
      List.mem_singleton, List.not_mem_nil, or_false] at this
    rw [← hwid]
    rcases this with h | h | h
    · exact hfx w h
    · rw [h]; simp only; omega
    · rw [h]; simp only; omega
  · have := n7 y
    unfold model_based_opt.get_coefficient at this
    rw [this, hco y (st.get_coefficient j x * A) (by simp)]
    rfl
  · have := n7 z
    unfold model_based_opt.get_coefficient at this
    rw [this, hco z (st.get_coefficient j x * 1) (by simp)]
    unfold model_based_opt.get_coefficient
    ring

/-! ### The bound rows of `solve_mod_div` -/

theorem normalize_pair_unit (r : row) (z : Nat) (c : ℚ) (hc : |c| = 1)
    (hv : r.m_vars = [⟨z, c⟩]) :
    ((normalize_pair r).2 && !((normalize_pair r).1 == 1)) = false := by
  have h0 : model_based_opt.normalize_gcd [] 1 (is_int_q 1) = (1, is_int_q 1) := rfl
  unfold normalize_pair
  simp only [hv, List.headD_cons, List.tail_cons, hc, h0]
  split
  · split
    · simp [gcd_one_left]
    · simp
  · simp

/-- A non-strict row `c*z + k <= 0` with `|c| = 1` added by `add_constraint` is present in
the store as written. -/
theorem add_constraint_unit_emits (s : model_based_opt) (hwf : store_wf s) (z : Nat) (c k : ℚ)
    (hc : |c| = 1) :
    ∃ j, ((s.add_constraint [⟨z, c⟩] k ineq_type.t_le).get_row j).m_alive = true ∧
      ((s.add_constraint [⟨z, c⟩] k ineq_type.t_le).get_row j).m_type = ineq_type.t_le ∧
      ((s.add_constraint [⟨z, c⟩] k ineq_type.t_le).get_row j).m_vars = [⟨z, c⟩] ∧
      ((s.add_constraint [⟨z, c⟩] k ineq_type.t_le).get_row j).m_coeff = k := by
  have hs : sorted_ids [(⟨z, c⟩ : var)] := by
    unfold sorted_ids
    simp
  unfold add_constraint add_constraint5
  dsimp only
  split
  · rename_i h
    rw [getLastD_eq_get_row] at h
    exact ⟨s.m_rows.length - 1, h.2.2.2.2.2, h.2.2.2.1, h.1, h.2.1⟩
  · obtain ⟨hdead, hother, hvars, hlt, -⟩ := new_row_spec s hwf
    have hrow : (s.new_row.1.set_row s.new_row.2 [⟨z, c⟩] k 0 ineq_type.t_le).get_row
        s.new_row.2 =
        { s.new_row.1.get_row s.new_row.2 with
          m_vars := sort_vars ((s.new_row.1.get_row s.new_row.2).m_vars ++ [⟨z, c⟩]),
          m_alive := true,
          m_coeff := k,
          m_value := [(⟨z, c⟩ : var)].foldl
            (fun val v => val + s.new_row.1.eval v.m_id * v.m_coeff) k,
          m_type := ineq_type.t_le,
          m_mod := 0 } := by
      unfold set_row
      rw [get_row_put_row_eq _ _ _ hlt]
      simp
    have se1 := same_except_set_row s.new_row.1 s.new_row.2 [⟨z, c⟩] k 0 ineq_type.t_le
    generalize s.new_row.1.set_row s.new_row.2 [⟨z, c⟩] k 0 ineq_type.t_le = t1
      at hrow se1
    have hlt1 : s.new_row.2 < t1.m_rows.length := by rw [se1.2.2.2]; exact hlt
    have hr2 := get_row_put_row_eq t1 s.new_row.2 { t1.get_row s.new_row.2 with m_id := 0 }
      hlt1
    generalize t1.put_row s.new_row.2 { t1.get_row s.new_row.2 with m_id := 0 } = t2
      at hr2
    have hr3 : ([(⟨z, c⟩ : var)].foldl (fun st v => st.push_row_id v.m_id s.new_row.2)
        t2).get_row s.new_row.2 = t2.get_row s.new_row.2 :=
      get_row_congr _ _ (foldl_push_var_fields s.new_row.2 [⟨z, c⟩] t2).1 _
    generalize [(⟨z, c⟩ : var)].foldl (fun st v => st.push_row_id v.m_id s.new_row.2) t2 = t3
      at hr3
    have hrow3 : (t3.get_row s.new_row.2).m_vars = [⟨z, c⟩] ∧
        (t3.get_row s.new_row.2).m_alive = true ∧
        (t3.get_row s.new_row.2).m_type = ineq_type.t_le ∧
        (t3.get_row s.new_row.2).m_coeff = k := by
      rw [hr3, hr2, hrow]
      simp only [hvars, List.nil_append, sort_vars_eq _ hs]
      exact ⟨trivial, trivial, trivial, trivial⟩
    obtain ⟨w1, w2, w3, w4⟩ := hrow3
    refine ⟨s.new_row.2, ?_⟩
    have hnorm : t3.normalize s.new_row.2 = t3 := by
      rw [normalize_eq]
      simp only [w2, Bool.not_true, Bool.false_eq_true, if_false, w1, List.isEmpty_cons, w3,
        normalize_pair_unit _ z c hc w1]
      simp
    rw [hnorm]
    exact ⟨w2, w3, w1, w4⟩

/-- A loop whose body rewrites only the row it visits and keeps the store well formed:
every visited row is related to its initial content, every other row is unchanged. -/
theorem fold_rel_wf (f : model_based_opt → Nat → model_based_opt)
    (R : Nat → row → row → Prop) (P : Nat → Prop) (s0 : model_based_opt)
    (hstep : ∀ st j, P j → store_wf st → st.m_var2value = s0.m_var2value →
      st.get_row j = s0.get_row j →
      store_wf (f st j) ∧ same_except j st (f st j) ∧
        R j (st.get_row j) ((f st j).get_row j)) :
    ∀ (L : List Nat) (s : model_based_opt), L.Nodup → (∀ j ∈ L, P j) → store_wf s →
      s.m_var2value = s0.m_var2value → (∀ j ∈ L, s.get_row j = s0.get_row j) →
      store_wf (L.foldl f s) ∧
      (L.foldl f s).m_var2value = s.m_var2value ∧
      (L.foldl f s).m_var2is_int = s.m_var2is_int ∧
      (∀ j, j ∉ L → (L.foldl f s).get_row j = s.get_row j) ∧
      ∀ j ∈ L, R j (s.get_row j) ((L.foldl f s).get_row j) := by
  intro L
  induction L with
  | nil =>
    intro s _ _ hwf _ _
    exact ⟨hwf, rfl, rfl, fun _ _ => rfl, fun j hj => absurd hj (List.not_mem_nil j)⟩
  | cons a L ih =>
    intro s hnd hP hwf hv hrows
    rw [List.foldl_cons]
    obtain ⟨hna, hndL⟩ := List.nodup_cons.mp hnd
    obtain ⟨w1, se, r1⟩ := hstep s a (hP a (List.mem_cons_self _ _)) hwf hv
      (hrows a (List.mem_cons_self _ _))
    have hv1 : (f s a).m_var2value = s0.m_var2value := se.2.1.trans hv
    have hrows1 : ∀ j ∈ L, (f s a).get_row j = s0.get_row j := by
      intro j hj
      have hja : j ≠ a := fun h => hna (h ▸ hj)
      rw [se.1 j hja]
      exact hrows j (List.mem_cons_of_mem _ hj)
    obtain ⟨i0, i1, i2, i4, i5⟩ := ih (f s a) hndL
      (fun j hj => hP j (List.mem_cons_of_mem _ hj)) w1 hv1 hrows1
    refine ⟨i0, i1.trans se.2.1, i2.trans se.2.2.1, ?_, ?_⟩
    · intro j hj
      have hja : j ≠ a := fun h => hj (h ▸ List.mem_cons_self _ _)
      have hjL : j ∉ L := fun h => hj (List.mem_cons_of_mem _ h)
      rw [i4 j hjL, se.1 j hja]
    · intro j hj
      rcases List.mem_cons.mp hj with rfl | hjL
      · rw [i4 j hna]
        exact r1
      · have hja : j ≠ a := fun h => hna (h ▸ hjL)
        have := i5 j hjL
        rw [se.1 j hja] at this
        exact this

/-- One iteration of the substitution loop of `solve_mod_div` keeps the store well
formed. -/
theorem subst_step_wf (st : model_based_opt) (j x y z : Nat) (A : ℚ) (hwf : store_wf st)
    (hA : A ≠ 0) (hzy : z < y)
    (hids : (st.get_row j).m_alive = true → ∀ t ∈ (st.get_row j).m_vars, t.m_id < z) :
    store_wf ((st.replace_var3 j x A y 1 z).normalize j) := by
  have hmid : store_wf (st.replace_var3 j x A y 1 z) := by
    by_cases hcase : st.get_coefficient j x = 0 ∨ (st.get_row j).m_alive = false
    · have : st.replace_var3 j x A y 1 z = st := by
        unfold replace_var3
        simp only [hcase, if_true]
      rw [this]
      exact hwf
    · push_neg at hcase
      obtain ⟨ha, hal0⟩ := hcase
      have hal : (st.get_row j).m_alive = true := by
        cases h : (st.get_row j).m_alive with
        | true => rfl
        | false => exact absurd h hal0
      have hs := hwf.2.2 j hal
      obtain ⟨hrow, hret⟩ := replace_var3_row st j x y z A hal ha hs hA
      obtain ⟨hfs, hfx⟩ := mk_coeffs_without_spec (st.get_row j).m_vars x hs
      have hmem : ∀ t ∈ mk_coeffs_without (st.get_row j).m_vars x,
          t ∈ (st.get_row j).m_vars := by
        intro t ht
        unfold mk_coeffs_without at ht
        exact (List.mem_filter.mp ht).1
      have hnd : ((mk_coeffs_without (st.get_row j).m_vars x
          ++ [(⟨y, st.get_coefficient j x * A⟩ : var)]
          ++ [(⟨z, st.get_coefficient j x * 1⟩ : var)]).map (fun v => v.m_id)).Nodup := by
        simp only [List.map_append, List.map_cons, List.map_nil, List.append_assoc,
          List.singleton_append]
        refine List.nodup_append.mpr ⟨sorted_ids_nodup _ hfs, ?_, ?_⟩
        · simp only [List.nodup_cons, List.mem_singleton, List.not_mem_nil, not_false_eq_true,
            List.nodup_nil, and_true]
          omega
        · intro a h1 h2
          obtain ⟨t, ht, rfl⟩ := List.mem_map.mp h1
          have := hids hal t (hmem t ht)
          simp only [List.mem_cons, List.mem_singleton, List.not_mem_nil, or_false] at h2
          omega
      have se := same_except_replace_var3 st j x y z A 1
      refine ⟨?_, by rw [hret]; exact hwf.2.1, ?_⟩
      · intro i hi
        rw [hret] at hi
        have hij : i ≠ j := fun h => wf_not_retired st hwf j hal (h ▸ hi)
        rw [se.1 i hij, se.2.2.2]
        exact hwf.1 i hi
      · intro i hi
        by_cases hij : i = j
        · rw [hij, hrow]
          exact sorted_ids_sort_vars _ hnd
        · rw [se.1 i hij] at hi ⊢
          exact hwf.2.2 i hi
  exact (frame_normalize x _ j hmid).1

theorem add_constraint5_values (s : model_based_opt) (coeffs : List var) (c m : ℚ)
    (rel : ineq_type) (id : Nat) :
    (s.add_constraint5 coeffs c m rel id).1.m_var2value = s.m_var2value ∧
    (s.add_constraint5 coeffs c m rel id).1.m_var2is_int = s.m_var2is_int := by
  unfold add_constraint5
  dsimp only
  split
  · exact ⟨rfl, rfl⟩
  · obtain ⟨hv0, hi0⟩ := new_row_values s
    have se : same_except s.new_row.2 s.new_row.1
        ((coeffs.foldl (fun st v => st.push_row_id v.m_id s.new_row.2)
          ((s.new_row.1.set_row s.new_row.2 coeffs c m rel).put_row s.new_row.2
            { (s.new_row.1.set_row s.new_row.2 coeffs c m rel).get_row s.new_row.2 with
              m_id := id })).normalize s.new_row.2) := by
      refine same_except_trans ?_ (same_except_normalize _ _)
      refine same_except_trans ?_ (same_except_foldl_push_var _ _ _ _)
      refine same_except_trans ?_ (same_except_put_row _ _ _)
      exact same_except_set_row _ _ _ _ _ _
    exact ⟨se.2.1.trans hv0, se.2.2.1.trans hi0⟩

theorem mark_dead_visited (scale : Option ℚ) (l : List Nat)
    (p : model_based_opt × List Nat × List Nat) :
    (∀ j ∈ p.2.1, j ∈ (l.foldl (mark_dead scale) p).2.1) ∧
    (∀ j ∈ l, j ∈ (l.foldl (mark_dead scale) p).2.1) := by
  induction l generalizing p with
  | nil => exact ⟨fun j hj => hj, fun j hj => absurd hj (List.not_mem_nil j)⟩
  | cons a l ih =>
    rw [List.foldl_cons]
    have hstep : (∀ j ∈ p.2.1, j ∈ (mark_dead scale p a).2.1) ∧ a ∈ (mark_dead scale p a).2.1 := by
      unfold mark_dead
      split
      · rename_i h
        exact ⟨fun j hj => hj, (contains_iff _ _).mp h⟩
      · simp only
        exact ⟨fun j hj => List.mem_append_left _ hj, by simp⟩
    obtain ⟨i1, i2⟩ := ih (mark_dead scale p a)
    refine ⟨fun j hj => i1 j (hstep.1 j hj), ?_⟩
    intro j hj
    rcases List.mem_cons.mp hj with rfl | h
    · exact i1 j hstep.2
    · exact i2 j h

theorem getD_append2 (l : List ℚ) (a b d : ℚ) :
    (l ++ [a] ++ [b]).getD l.length d = a ∧ (l ++ [a] ++ [b]).getD (l.length + 1) d = b ∧
    ∀ v < l.length, (l ++ [a] ++ [b]).getD v d = l.getD v d := by
  refine ⟨?_, ?_, ?_⟩
  · rw [List.getD_eq_getElem?_getD, List.getElem?_append_left (by simp),
      List.getElem?_append_right (le_refl _)]
    simp
  · rw [List.getD_eq_getElem?_getD, List.getElem?_append_right (by simp)]
    simp
  · intro v hv
    rw [List.getD_eq_getElem?_getD, List.getD_eq_getElem?_getD,
      List.getElem?_append_left (by simp; omega), List.getElem?_append_left hv]

/-- The state of `solve_mod_div` after the fresh variables and the marking loops. -/
theorem solve_mod_div_marked_spec (s : model_based_opt) (x : Nat)
    (mod_rows0 div_rows0 : List Nat) (hwf : store_wf s) :
    store_wf (solve_mod_div_marked s x mod_rows0 div_rows0).1 ∧
    (solve_mod_div_marked s x mod_rows0 div_rows0).1.m_var2value =
      s.m_var2value ++ [mod (s.eval x) (solve_mod_div_K s mod_rows0 div_rows0)]
        ++ [div (s.eval x) (solve_mod_div_K s mod_rows0 div_rows0)] ∧
    (solve_mod_div_marked s x mod_rows0 div_rows0).1.m_var2is_int =
      s.m_var2is_int ++ [true] ++ [true] ∧
    (solve_mod_div_marked s x mod_rows0 div_rows0).1.row_ids x = s.row_ids x ∧
    (∀ j, j ∉ div_rows0 → j ∉ mod_rows0 →
      (solve_mod_div_marked s x mod_rows0 div_rows0).1.get_row j = s.get_row j) ∧
    (∀ j, j ∈ (solve_mod_div_marked s x mod_rows0 div_rows0).2.1 ↔
      (j ∈ div_rows0 ∨ j ∈ mod_rows0)) := by
  unfold solve_mod_div_marked
  simp only
  generalize solve_mod_div_K s mod_rows0 div_rows0 = K
  have hpy : store_wf ((s.add_var (mod (s.eval x) K) true).1.add_var (div (s.eval x) K) true).1 :=
    store_wf_of_rows_eq s _ hwf rfl rfl
  generalize hp : ((s.add_var (mod (s.eval x) K) true).1.add_var (div (s.eval x) K) true).1 = p1
    at hpy
  have hv : p1.m_var2value = s.m_var2value ++ [mod (s.eval x) K] ++ [div (s.eval x) K] := by
    rw [← hp]; rfl
  have hi : p1.m_var2is_int = s.m_var2is_int ++ [true] ++ [true] := by
    rw [← hp]; rfl
  have hids : p1.row_ids x = s.row_ids x := by
    rw [← hp, row_ids_add_var, row_ids_add_var]
  have hrows : ∀ j, p1.get_row j = s.get_row j := by
    intro j
    rw [← hp]
    rfl
  obtain ⟨a1, a2, a3, a4, a5, a6⟩ := mark_dead_fold (some K) div_rows0 (p1, [], []) hpy
  obtain ⟨a7, a8⟩ := mark_dead_visited (some K) div_rows0 (p1, [], [])
  generalize div_rows0.foldl (mark_dead (some K)) (p1, [], []) = d1 at a1 a2 a3 a4 a5 a6 a7 a8
  obtain ⟨b1, b2, b3, b4, b5, b6⟩ := mark_dead_fold none mod_rows0 (d1.1, d1.2.1, []) a1
  obtain ⟨b7, b8⟩ := mark_dead_visited none mod_rows0 (d1.1, d1.2.1, [])
  generalize mod_rows0.foldl (mark_dead none) (d1.1, d1.2.1, []) = d2
    at b1 b2 b3 b4 b5 b6 b7 b8
  refine ⟨b1, (b2.trans a2).trans hv, (b3.trans a3).trans hi, ?_, ?_, ?_⟩
  · unfold row_ids at hids ⊢
    rw [b4, a4]
    exact hids
  · intro j h1 h2
    rw [b5 j h2, a5 j h1, hrows]
  · intro j
    constructor
    · intro hj
      rcases b6 j hj with h | h
      · rcases a6 j h with h2 | h2
        · simp at h2
        · exact Or.inl h2
      · exact Or.inr h
    · rintro (h | h)
      · exact b7 j (a8 j h)
      · exact b8 j h

/-- The state of `solve_mod_div` after its substitution loop. -/
theorem solve_mod_div_subst_spec (s : model_based_opt) (x : Nat)
    (mod_rows0 div_rows0 : List Nat) (hwf : store_wf s)
    (hK : solve_mod_div_K s mod_rows0 div_rows0 ≠ 0)
    (hx : is_int_q (s.eval x) = true)
    (hids : ∀ j, (s.get_row j).m_alive = true →
      ∀ t ∈ (s.get_row j).m_vars, t.m_id < s.m_var2value.length) :
    store_wf (solve_mod_div_subst s x mod_rows0 div_rows0) ∧
    (solve_mod_div_subst s x mod_rows0 div_rows0).m_var2value =
      s.m_var2value ++ [mod (s.eval x) (solve_mod_div_K s mod_rows0 div_rows0)]
        ++ [div (s.eval x) (solve_mod_div_K s mod_rows0 div_rows0)] ∧
    (solve_mod_div_subst s x mod_rows0 div_rows0).m_var2is_int =
      s.m_var2is_int ++ [true] ++ [true] ∧
    (∀ j ∈ s.row_ids x, j ∉ mod_rows0 → j ∉ div_rows0 → (s.get_row j).m_alive = true →
      s.get_coefficient j x ≠ 0 → (∀ t ∈ (s.get_row j).m_vars, t.m_coeff ≠ 0) →
      substituted3 x (solve_mod_div_K s mod_rows0 div_rows0) (solve_mod_div_y s)
        (solve_mod_div_z s) (s.get_row j)
        ((solve_mod_div_subst s x mod_rows0 div_rows0).get_row j)) := by
  obtain ⟨-, -, -, -, harith, -, -⟩ := solve_mod_div_arith s x mod_rows0 div_rows0 hK hx
  obtain ⟨m1, m2, m3, m4, m5, m6⟩ := solve_mod_div_marked_spec s x mod_rows0 div_rows0 hwf
  unfold solve_mod_div_subst
  simp only
  rw [visited_fold (fun st j => (st.replace_var3 j x (solve_mod_div_K s mod_rows0 div_rows0)
    (solve_mod_div_y s) 1 (solve_mod_div_z s)).normalize j), m4]
  generalize hM : solve_mod_div_marked s x mod_rows0 div_rows0 = M at m1 m2 m3 m5 m6
  generalize hKK : solve_mod_div_K s mod_rows0 div_rows0 = K at hK harith m2 ⊢
  have hzy : solve_mod_div_z s < solve_mod_div_y s := by
    unfold solve_mod_div_z solve_mod_div_y
    omega
  have hfold := fold_rel_wf
    (fun st j => (st.replace_var3 j x K (solve_mod_div_y s) 1 (solve_mod_div_z s)).normalize j)
    (fun _ r r2 => r.m_alive = true → r.get_coefficient x ≠ 0 →
      (∀ t ∈ r.m_vars, t.m_coeff ≠ 0) →
      substituted3 x K (solve_mod_div_y s) (solve_mod_div_z s) r r2)
    (fun j => j ∉ div_rows0 ∧ j ∉ mod_rows0)
    M.1
    (by
      intro st j hP hwfst hv hrow
      have hrow2 : st.get_row j = s.get_row j := hrow.trans (m5 j hP.1 hP.2)
      have hidj : (st.get_row j).m_alive = true →
          ∀ t ∈ (st.get_row j).m_vars, t.m_id < solve_mod_div_z s := by
        rw [hrow2]
        exact hids j
      refine ⟨subst_step_wf st j x _ _ K hwfst hK hzy hidj,
        same_except_trans (same_except_replace_var3 st j x _ _ _ _)
          (same_except_normalize _ j), ?_⟩
      intro hal ha hnz
      refine replace_var3_normalize_row st j x _ _ K hal ha (hwfst.2.2 j hal) hnz (hidj hal)
        hzy hK ?_
      obtain ⟨v, hvm, hvx, -⟩ := get_coefficient_mem (st.get_row j) x ha
      have hxlt : x < s.m_var2value.length := by rw [← hvx]; exact hidj hal v hvm
      obtain ⟨g1, g2, g3⟩ := getD_append2 s.m_var2value (mod (s.eval x) K) (div (s.eval x) K) 0
      have he : ∀ (t : model_based_opt) (v : Nat), t.eval v = t.m_var2value.getD v 0 :=
        fun _ _ => rfl
      have e1 : st.eval x = s.eval x := by rw [he, he, hv, m2, g3 x hxlt]
      have e2 : st.eval (solve_mod_div_z s) = mod (s.eval x) K := by
        rw [he, hv, m2]; exact g1
      have e3 : st.eval (solve_mod_div_y s) = div (s.eval x) K := by
        rw [he, hv, m2]; exact g2
      rw [e1, e2, e3]
      exact harith)
    (fresh_ids M.2.1 (s.row_ids x)) M.1 (fresh_ids_nodup _ _)
    (by
      intro j hj
      have hnv := ((mem_fresh_ids _ _ _).mp hj).2
      have := (m6 j).not.mp hnv
      push_neg at this
      exact this)
    m1 rfl (fun _ _ => rfl)
  obtain ⟨f0, f1, f2, -, f5⟩ := hfold
  refine ⟨f0, f1.trans m2, f2.trans m3, ?_⟩
  intro j hj h1 h2 hal ha hnz
  have hnv : j ∉ M.2.1 := by
    intro h
    rcases (m6 j).mp h with h3 | h3
    · exact h2 h3
    · exact h1 h3
  have hm : j ∈ fresh_ids M.2.1 (s.row_ids x) := (mem_fresh_ids _ _ _).mpr ⟨hj, hnv⟩
  have := f5 j hm
  rw [m5 j h2 h1] at this
  exact this hal ha hnz

theorem ids_of_rows (s : model_based_opt) (n : Nat)
    (h : ∀ j ∈ List.range s.m_rows.length, ∀ t ∈ (s.get_row j).m_vars, t.m_id < n) :
    ∀ j, (s.get_row j).m_alive = true → ∀ t ∈ (s.get_row j).m_vars, t.m_id < n :=
  fun j hal => h j (List.mem_range.mpr (alive_lt_length s j hal))

/-- C29 (counterexample): `mod_store` is reached through the public operations; its row 3
is `4v - 8 <= 0` with cached value -4 and `v = 1` occurs in the mod row 1 (modulus 2).  In
`solve_mod_div(v, [1], [], _)`, `K = 2`, `z = 1`, `y = 0`, and after the substitution and
the bounds row 3 is `z + 2y - 2 <= 0` with cached value -1, not `4z + 8y - 8 <= 0` with
cached value -4: `normalize` has divided the substituted row and its cached value by 4. -/
theorem solve_mod_div_rescales_value :
    (scan_result mod_store 1).mod_rows = [1] ∧ (scan_result mod_store 1).div_rows = [] ∧
    (scan_result mod_store 1).divide_rows = [] ∧
    mod_store.m_var2value = [2, 1, 1] ∧
    mod_store.get_row 3 =
      { m_vars := [⟨1, 4⟩], m_coeff := -8, m_mod := 0, m_type := ineq_type.t_le,
        m_value := -4, m_alive := true, m_id := 0 } ∧
    solve_mod_div_K mod_store [1] [] = 2 ∧
    (solve_mod_div_bounds mod_store 1 [1] []).m_var2value = [2, 1, 1, 1, 0] ∧
    (solve_mod_div_bounds mod_store 1 [1] []).get_row 3 =
      { m_vars := [⟨3, 1⟩, ⟨4, 2⟩], m_coeff := -2, m_mod := 0, m_type := ineq_type.t_le,
        m_value := -1, m_alive := true, m_id := 0 } := by
  decide!

/-- C29 (amended): `solve_mod_div(x, mod_rows, div_rows, compute_def)` on a well-formed
store whose live rows mention existing variables only, for an integer-valued `x` and a
nonzero lcm `K` of the moduli.  `K > 0`; the fresh variables `z`, `y` are integral with the
integer values `mod(val, K)` and `div(val, K)`, so `val = K*y_val + z_val` and
`0 <= z_val < K`, and the other variables keep their values; once the bounds are added,
the live rows `-z <= 0` and `z - (K-1) <= 0` are in the store; every other live row listed
for `x` with a nonzero coefficient `a` on `x` is then the row with `a*x` replaced by
`a*K*y + a*z` divided by the positive gcd of `normalize`, its cached value being the old one
divided by the same factor, and `x` does not occur in it; the call continues from that
state with the loops over the div and mod rows and the recursive calls. -/
theorem solve_mod_div_spec
    (proj : model_based_opt → Nat → Bool → Except error (model_based_opt × Option def_))
    (s : model_based_opt) (x : Nat) (mod_rows0 div_rows0 : List Nat) (compute_def : Bool)
    (hwf : store_wf s)
    (htab : s.m_var2is_int.length = s.m_var2value.length)
    (hK : solve_mod_div_K s mod_rows0 div_rows0 ≠ 0)
    (hx : is_int_q (s.eval x) = true)
    (hids : ∀ j, (s.get_row j).m_alive = true →
      ∀ t ∈ (s.get_row j).m_vars, t.m_id < s.m_var2value.length) :
    (0 < solve_mod_div_K s mod_rows0 div_rows0 ∧
      s.eval x = solve_mod_div_K s mod_rows0 div_rows0 *
          div (s.eval x) (solve_mod_div_K s mod_rows0 div_rows0)
        + mod (s.eval x) (solve_mod_div_K s mod_rows0 div_rows0) ∧
      0 ≤ mod (s.eval x) (solve_mod_div_K s mod_rows0 div_rows0) ∧
      mod (s.eval x) (solve_mod_div_K s mod_rows0 div_rows0)
        < solve_mod_div_K s mod_rows0 div_rows0) ∧
    (solve_mod_div_z s = s.m_var2value.length ∧ solve_mod_div_y s = s.m_var2value.length + 1 ∧
      (solve_mod_div_bounds s x mod_rows0 div_rows0).is_int (solve_mod_div_z s) = true ∧
      (solve_mod_div_bounds s x mod_rows0 div_rows0).is_int (solve_mod_div_y s) = true ∧
      (solve_mod_div_bounds s x mod_rows0 div_rows0).eval (solve_mod_div_z s)
        = mod (s.eval x) (solve_mod_div_K s mod_rows0 div_rows0) ∧
      (solve_mod_div_bounds s x mod_rows0 div_rows0).eval (solve_mod_div_y s)
        = div (s.eval x) (solve_mod_div_K s mod_rows0 div_rows0) ∧
      is_int_q (mod (s.eval x) (solve_mod_div_K s mod_rows0 div_rows0)) = true ∧
      is_int_q (div (s.eval x) (solve_mod_div_K s mod_rows0 div_rows0)) = true ∧
      ∀ v < s.m_var2value.length,
        (solve_mod_div_bounds s x mod_rows0 div_rows0).eval v = s.eval v) ∧
    (∃ j1 j2,
      ((solve_mod_div_bounds s x mod_rows0 div_rows0).get_row j1).m_alive = true ∧
      ((solve_mod_div_bounds s x mod_rows0 div_rows0).get_row j1).m_type = ineq_type.t_le ∧
      ((solve_mod_div_bounds s x mod_rows0 div_rows0).get_row j1).m_vars
        = [⟨solve_mod_div_z s, -1⟩] ∧
      ((solve_mod_div_bounds s x mod_rows0 div_rows0).get_row j1).m_coeff = 0 ∧
      ((solve_mod_div_bounds s x mod_rows0 div_rows0).get_row j2).m_alive = true ∧
      ((solve_mod_div_bounds s x mod_rows0 div_rows0).get_row j2).m_type = ineq_type.t_le ∧
      ((solve_mod_div_bounds s x mod_rows0 div_rows0).get_row j2).m_vars
        = [⟨solve_mod_div_z s, 1⟩] ∧
      ((solve_mod_div_bounds s x mod_rows0 div_rows0).get_row j2).m_coeff
        = -(solve_mod_div_K s mod_rows0 div_rows0 - 1)) ∧
    (∀ j ∈ s.row_ids x, j ∉ mod_rows0 → j ∉ div_rows0 → (s.get_row j).m_alive = true →
      s.get_coefficient j x ≠ 0 → (∀ t ∈ (s.get_row j).m_vars, t.m_coeff ≠ 0) →
      substituted3 x (solve_mod_div_K s mod_rows0 div_rows0) (solve_mod_div_y s)
        (solve_mod_div_z s) (s.get_row j)
        ((solve_mod_div_bounds s x mod_rows0 div_rows0).get_row j)) ∧
    solve_mod_div proj s x mod_rows0 div_rows0 compute_def =
      solve_mod_div_tail proj x (solve_mod_div_y s) (solve_mod_div_z s)
        (solve_mod_div_K s mod_rows0 div_rows0)
        (mod (s.eval x) (solve_mod_div_K s mod_rows0 div_rows0))
        (solve_mod_div_marked s x mod_rows0 div_rows0).2.2.1
        (solve_mod_div_marked s x mod_rows0 div_rows0).2.2.2
        (solve_mod_div_bounds s x mod_rows0 div_rows0) compute_def := by
  obtain ⟨a1, -, a3, a4, a5, a6, a7⟩ := solve_mod_div_arith s x mod_rows0 div_rows0 hK hx
  obtain ⟨w3, v3, i3, r3⟩ := solve_mod_div_subst_spec s x mod_rows0 div_rows0 hwf hK hx hids
  -- the two bound rows
  have hsl : sorted_ids [(⟨solve_mod_div_z s, -1⟩ : var)] := by unfold sorted_ids; simp
  have hsu : sorted_ids [(⟨solve_mod_div_z s, 1⟩ : var)] := by unfold sorted_ids; simp
  have hzne : ∀ (c : ℚ), ∀ t ∈ [(⟨solve_mod_div_z s, c⟩ : var)],
      t.m_id ≠ solve_mod_div_z s + 1 := by
    intro c t ht
    rw [List.mem_singleton.mp ht]
    simp
  generalize hs3 : solve_mod_div_subst s x mod_rows0 div_rows0 = s3 at w3 v3 i3 r3
  obtain ⟨fr4, -⟩ := frame_add_constraint5 (solve_mod_div_z s + 1) s3
    [⟨solve_mod_div_z s, -1⟩] 0 0 ineq_type.t_le 0 w3 hsl (hzne _)
  obtain ⟨j1, e1, e2, e3, e4⟩ := add_constraint_unit_emits s3 w3 (solve_mod_div_z s) (-1) 0
    (by simp)
  obtain ⟨v4, i4⟩ := add_constraint5_values s3 [⟨solve_mod_div_z s, -1⟩] 0 0 ineq_type.t_le 0
  have hs4 : s3.add_lower_bound (solve_mod_div_z s) 0
      = (s3.add_constraint5 [⟨solve_mod_div_z s, -1⟩] 0 0 ineq_type.t_le 0).1 := rfl
  have hs4' : s3.add_constraint [⟨solve_mod_div_z s, -1⟩] 0 ineq_type.t_le
      = (s3.add_constraint5 [⟨solve_mod_div_z s, -1⟩] 0 0 ineq_type.t_le 0).1 := rfl
  rw [hs4'] at e1 e2 e3 e4
  generalize (s3.add_constraint5 [⟨solve_mod_div_z s, -1⟩] 0 0 ineq_type.t_le 0).1 = s4
    at fr4 e1 e2 e3 e4 v4 i4 hs4
  obtain ⟨fr5, -⟩ := frame_add_constraint5 (solve_mod_div_z s + 1) s4
    [⟨solve_mod_div_z s, 1⟩] (-(solve_mod_div_K s mod_rows0 div_rows0 - 1)) 0 ineq_type.t_le 0
    fr4.1 hsu (hzne _)
  obtain ⟨j2, u1, u2, u3, u4⟩ := add_constraint_unit_emits s4 fr4.1 (solve_mod_div_z s) 1
    (-(solve_mod_div_K s mod_rows0 div_rows0 - 1)) (by simp)
  obtain ⟨v5, i5⟩ := add_constraint5_values s4 [⟨solve_mod_div_z s, 1⟩]
    (-(solve_mod_div_K s mod_rows0 div_rows0 - 1)) 0 ineq_type.t_le 0
  have hs5 : solve_mod_div_bounds s x mod_rows0 div_rows0
      = (s4.add_constraint5 [⟨solve_mod_div_z s, 1⟩]
          (-(solve_mod_div_K s mod_rows0 div_rows0 - 1)) 0 ineq_type.t_le 0).1 := by
    unfold solve_mod_div_bounds
    rw [hs3, hs4]
    rfl
  have hu' : s4.add_constraint [⟨solve_mod_div_z s, 1⟩]
        (-(solve_mod_div_K s mod_rows0 div_rows0 - 1)) ineq_type.t_le
      = (s4.add_constraint5 [⟨solve_mod_div_z s, 1⟩]
          (-(solve_mod_div_K s mod_rows0 div_rows0 - 1)) 0 ineq_type.t_le 0).1 := rfl
  rw [hu'] at u1 u2 u3 u4
  rw [hs5]
  generalize (s4.add_constraint5 [⟨solve_mod_div_z s, 1⟩]
    (-(solve_mod_div_K s mod_rows0 div_rows0 - 1)) 0 ineq_type.t_le 0).1 = s5
    at fr5 u1 u2 u3 u4 v5 i5 hs5
  have hv5 : s5.m_var2value = s.m_var2value
      ++ [mod (s.eval x) (solve_mod_div_K s mod_rows0 div_rows0)]
      ++ [div (s.eval x) (solve_mod_div_K s mod_rows0 div_rows0)] := (v5.trans v4).trans v3
  have hi5 : s5.m_var2is_int = s.m_var2is_int ++ [true] ++ [true] := (i5.trans i4).trans i3
  obtain ⟨g1, g2, g3⟩ := getD_append2 s.m_var2value
    (mod (s.eval x) (solve_mod_div_K s mod_rows0 div_rows0))
    (div (s.eval x) (solve_mod_div_K s mod_rows0 div_rows0)) 0
  have he : ∀ (t : model_based_opt) (v : Nat), t.eval v = t.m_var2value.getD v 0 :=
    fun _ _ => rfl
  have hkeep : ∀ j, (s3.get_row j).m_alive = true → s5.get_row j = s3.get_row j := by
    intro j hal
    have h4 := fr4.2.1 j (fun h => h) hal
    have hal4 : (s4.get_row j).m_alive = true := by rw [h4]; exact hal
    rw [fr5.2.1 j (fun h => h) hal4, h4]
  have h1keep : s5.get_row j1 = s4.get_row j1 := fr5.2.1 j1 (fun h => h) e1
  refine ⟨⟨a1, a5, a6, a7⟩, ⟨rfl, rfl, ?_, ?_, ?_, ?_, a3, a4, ?_⟩,
    ⟨j1, j2, by rw [h1keep]; exact e1, by rw [h1keep]; exact e2, by rw [h1keep]; exact e3,
      by rw [h1keep]; exact e4, u1, u2, u3, u4⟩, ?_,
    by rw [← hs5]; exact solve_mod_div_split proj s x mod_rows0 div_rows0 compute_def⟩
  · unfold is_int solve_mod_div_z
    rw [hi5, ← htab, List.getD_eq_getElem?_getD, List.getElem?_append_left (by simp),
      List.getElem?_append_right (le_refl _)]
    simp
  · unfold is_int solve_mod_div_y
    rw [hi5, ← htab, List.getD_eq_getElem?_getD, List.getElem?_append_right (by simp)]
    simp
  · rw [he, hv5]; exact g1
  · rw [he, hv5]; exact g2
  · intro v hv
    rw [he, he, hv5, g3 v hv]
  · intro j hj h1 h2 hal ha hnz
    have hsub := r3 j hj h1 h2 hal ha hnz
    have hal3 : (s3.get_row j).m_alive = true := by
      obtain ⟨k, -, -, -, h, -⟩ := hsub
      exact h
    rw [hkeep j hal3]
    exact hsub

theorem solve_mod_div_spec_witness :
    store_wf mod_store ∧ solve_mod_div_K mod_store [1] [] = 2 ∧
    substituted3 1 (solve_mod_div_K mod_store [1] []) (solve_mod_div_y mod_store)
      (solve_mod_div_z mod_store) (mod_store.get_row 3)
      ((solve_mod_div_bounds mod_store 1 [1] []).get_row 3) :=
  have hwf : store_wf mod_store :=
    store_wf_of_rows _ (by decide!) (by decide!) (by simp only [sorted_ids]; decide!)
  have h := solve_mod_div_spec (project 3) mod_store 1 [1] [] true hwf
    (by decide!) (by decide!) (by decide!) (ids_of_rows _ _ (by decide!))
  ⟨hwf, by decide!,
    h.2.2.2.1 3 (by decide!) (by decide!) (by decide!) (by decide!) (by decide!) (by decide!)⟩

/-! ### The loop of `maximize` -/

theorem maximize_loop_step (fuel : Nat) (s s4 : model_based_opt) (i x : Nat)
    (bound_trail bound_vars : List Nat) (h : maximize_iteration s = some (s4, i, x)) :
    maximize_loop (fuel + 1) s bound_trail bound_vars =
      maximize_loop fuel s4 (bound_trail ++ [i]) (bound_vars ++ [x]) := by
  unfold maximize_iteration at h
  conv_lhs => rw [maximize_loop]
  cases hv : s.objective.m_vars.getLast? with
  | none => rw [hv] at h; simp at h
  | some v =>
    rw [hv] at h
    simp only at h ⊢
    cases hb : (s.find_bound v.m_id (decide (0 < v.m_coeff))).bound_row_index with
    | none => rw [hb] at h; simp at h
    | some k =>
      rw [hb] at h
      simp only [Option.some.injEq, Prod.mk.injEq] at h ⊢
      obtain ⟨h1, h2, h3⟩ := h
      rw [h1, h2, h3]

/-- C23 (failing input): on `int_eq_bound_store` (integral `x`, `y`, objective `x`, rows
`2x - 3y = 0`, `x - 7 <= 0`, `y - 10 <= 0`) the first iteration of the loop of `maximize`
chooses `x` with the equality row 1 as bound row; afterwards the objective is `(3/2)y`
without `x`, but the live row 2 is `4x - 3y - 14 <= 0` and still has coefficient 4 on `x`.
The loop nevertheless ends: `maximize()` returns after two iterations. -/
theorem maximize_iteration_keeps_variable :
    int_eq_bound_store.is_int 0 = true ∧
    int_eq_bound_store.objective.m_vars = [⟨0, 1⟩] ∧
    ∃ s4, maximize_iteration int_eq_bound_store = some (s4, 1, 0) ∧
      s4.objective.m_vars = [⟨1, 3 / 2⟩] ∧
      (s4.get_row 1).m_alive = false ∧
      s4.get_row 2 =
        { m_vars := [⟨0, 4⟩, ⟨1, -3⟩], m_coeff := -14, m_mod := 0, m_type := ineq_type.t_le,
          m_value := -14, m_alive := true, m_id := 0 } ∧
      s4.get_coefficient 2 0 = 4 ∧
      (maximize 3 int_eq_bound_store).isSome = true := by
  refine ⟨by decide!, by decide!,
    ((maximize_iteration int_eq_bound_store).getD (init, 0, 0)).1, ?_⟩
  decide!

/-- C31 (failing input): on `eps_store` the strict row `x - y < 0` is live and satisfied on
entry (cached value -1).  `maximize()` takes it as bound row of `y` and then `x - 1 <= 0`
as bound row of `x`, and returns the strict value `1 - eps`.  When `update_values` replays
the trail, `x` becomes 1 and the new bound of `y` is `-t/a = 1`, the value `y` already has:
the back-off `min(1, |1 - 1|/2)` is zero, `y` stays 1, and the strict row evaluates to 0 at
the final assignment. -/
theorem update_values_zero_backoff :
    eps_store.get_row 1 =
      { m_vars := [⟨0, 1⟩, ⟨1, -1⟩], m_coeff := 0, m_mod := 0, m_type := ineq_type.t_lt,
        m_value := -1, m_alive := true, m_id := 0 } ∧
    feasible eps_store (assignment eps_store) ∧
    ∃ s1 s2 s3, maximize_iteration eps_store = some (s1, 1, 1) ∧
      maximize_iteration s1 = some (s2, 2, 0) ∧
      (s2.get_row 1).m_vars = [⟨0, 1⟩, ⟨1, -1⟩] ∧ (s2.get_row 1).m_coeff = 0 ∧
      (s2.get_row 1).m_type = ineq_type.t_lt ∧
      (s2.update_values_step 0 2).eval 0 = 1 ∧ (s2.update_values_step 0 2).eval 1 = 1 ∧
      ((s2.update_values_step 0 2).update_values_step 1 1).eval 1 = 1 ∧
      maximize 5 eps_store = some (s3, inf_eps.finite 1 (-1)) ∧
      s3.m_var2value = [1, 1] ∧
      lin (eps_store.get_row 1) (assignment s3) = 0 ∧
      ¬ holds (eps_store.get_row 1) (assignment s3) := by
  refine ⟨by decide!, by decide!,
    ((maximize_iteration eps_store).getD (init, 0, 0)).1,
    ((maximize_iteration ((maximize_iteration eps_store).getD (init, 0, 0)).1).getD
      (init, 0, 0)).1,
    ((maximize 5 eps_store).getD (init, inf_eps.infinity)).1, ?_⟩
  decide!

/-- C35 (failing input): on `recycle_store` the first iteration of the loop of `maximize`
retires the bound row 1 (`z - y <= 0`) of `z` and pushes it on the trail.  The second
iteration resolves the bound row 2 of `y` with row 3 by the integer resolution, whose
fallback calls `add_divides`; `new_row` hands out the retired id 1 again, and row 1 becomes
the live divisibility row `2 | u`, in which `z` has no term.  The loop then exits without a
bound for `u`, and `update_values` replays the trail entry `(z, 1)` on that row. -/
theorem maximize_recycles_trail_row :
    ∃ s1 s2, maximize_iteration recycle_store = some (s1, 1, 2) ∧
      s1.get_row 1 =
        { m_vars := [⟨1, -1⟩, ⟨2, 1⟩], m_coeff := 0, m_mod := 0, m_type := ineq_type.t_le,
          m_value := 0, m_alive := false, m_id := 0 } ∧
      s1.m_retired_rows = [1] ∧
      maximize_iteration s1 = some (s2, 2, 1) ∧
      s2.get_row 1 =
        { m_vars := [⟨0, 1⟩], m_coeff := 0, m_mod := 2, m_type := ineq_type.t_divides,
          m_value := 0, m_alive := true, m_id := 0 } ∧
      s2.get_coefficient 1 2 = 0 ∧
      s2.m_retired_rows = [2] ∧
      maximize_iteration s2 = none ∧
      maximize 5 recycle_store = some (s2.update_values [2, 1] [1, 2], inf_eps.infinity) := by
  refine ⟨((maximize_iteration recycle_store).getD (init, 0, 0)).1,
    ((maximize_iteration ((maximize_iteration recycle_store).getD (init, 0, 0)).1).getD
      (init, 0, 0)).1, ?_⟩
  decide!

/-- C37 (failing input): the strict row `x - 5 < 0` is satisfied at `x = 0`, and
`def::from_row` returns the constant definition 6 for `x`; with `x = 6` the row evaluates
to 1, so the relation is violated.  For the mirrored row `-x + 5 < 0` (satisfied at
`x = 7`) the definition is again 6, which satisfies it. -/
theorem from_row_strict_upper_violates :
    holds strict_upper_row (fun _ => 0) ∧
    strict_upper_row.get_coefficient 0 = 1 ∧
    def_.from_row strict_upper_row 0 = def_.const_def 6 ∧
    lin strict_upper_row (Function.update (fun _ => 0) 0
      (eval_def_at (fun _ => 0) (def_.from_row strict_upper_row 0))) = 1 ∧
    ¬ holds strict_upper_row (Function.update (fun _ => 0) 0
      (eval_def_at (fun _ => 0) (def_.from_row strict_upper_row 0))) ∧
    def_.from_row { strict_upper_row with m_vars := [⟨0, -1⟩], m_coeff := 5 } 0
      = def_.const_def 6 := by
  decide!

/-- C39 (failing input): in `rv_store` row 1 is the live row `x0 + x2 <= 0` with sorted
terms, and variable 1 does not occur in it.  `replace_var(1, x0, 1, x1, 0)` appends the
term of `x1` after the term of `x2` and does not sort: the terms are `[(2, 1), (1, 1)]`,
and the binary search of `get_coefficient` no longer finds the coefficient 1 of `x2`. -/
theorem replace_var_leaves_unsorted :
    rv_store.get_row 1 =
      { m_vars := [⟨0, 1⟩, ⟨2, 1⟩], m_coeff := 0, m_mod := 0, m_type := ineq_type.t_le,
        m_value := 0, m_alive := true, m_id := 0 } ∧
    ((rv_store.replace_var2 1 0 1 1 0).get_row 1).m_vars = [⟨2, 1⟩, ⟨1, 1⟩] ∧
    ¬ sorted_ids ((rv_store.replace_var2 1 0 1 1 0).get_row 1).m_vars ∧
    (rv_store.replace_var2 1 0 1 1 0).get_coefficient 1 1 = 1 ∧
    (rv_store.replace_var2 1 0 1 1 0).get_coefficient 1 2 = 0 := by
  refine ⟨by decide!, by decide!, ?_, by decide!, by decide!⟩
  have h : ((rv_store.replace_var2 1 0 1 1 0).get_row 1).m_vars = [⟨2, 1⟩, ⟨1, 1⟩] := by
    decide!
  rw [h]
  unfold sorted_ids
  simp

theorem eval_def_at_stored (s : model_based_opt) (d : def_) :
    s.eval_def d = eval_def_at s.eval d := by
  induction d with
  | add_def x y ihx ihy => simp only [eval_def, eval_def_at, ihx, ihy]
  | mul_def x y ihx ihy => simp only [eval_def, eval_def_at, ihx, ihy]
  | div_def x m ih => simp only [eval_def, eval_def_at, ih]
  | var_def v => rfl
  | const_def c => rfl

theorem eval_def_at_div_q (val : Nat → ℚ) (d : def_) (q : ℚ) :
    eval_def_at val (d.div_q q) = eval_def_at val d / q := by
  unfold def_.div_q
  split
  · rename_i h; rw [h]; simp
  · rfl

theorem eval_def_at_mul_q (val : Nat → ℚ) (d : def_) (q : ℚ) :
    eval_def_at val (d.mul_q q) = eval_def_at val d * q := by
  unfold def_.mul_q
  split
  · rename_i h; rw [h]; simp
  · rfl

theorem eval_def_at_substitute (val : Nat → ℚ) (v : Nat) (e d : def_) :
    eval_def_at val (def_.substitute v e d)
      = eval_def_at (Function.update val v (eval_def_at val e)) d := by
  induction d with
  | add_def x y ihx ihy => simp only [def_.substitute, eval_def_at, ihx, ihy]
  | mul_def x y ihx ihy => simp only [def_.substitute, eval_def_at, ihx, ihy]
  | div_def x m ih => simp only [def_.substitute, eval_def_at, eval_def_at_div_q, ih]
  | var_def w =>
    unfold def_.substitute
    by_cases h : w.m_id = v
    · subst h
      simp only [ne_eq, not_true_eq_false, if_false]
      split
      · rename_i h1
        simp only [eval_def_at, Function.update_same, h1, one_mul]
      · rw [eval_def_at_mul_q, mul_comm]
        simp only [eval_def_at, Function.update_same]
    · simp only [ne_eq, h, not_false_eq_true, if_true, eval_def_at]
      rw [Function.update_noteq h]
  | const_def c => rfl

theorem mentions_substitute (v : Nat) (e d : def_) (he : mentions v e = false) :
    mentions v (def_.substitute v e d) = false := by
  induction d with
  | add_def x y ihx ihy => simp only [def_.substitute, mentions, ihx, ihy, Bool.or_self]
  | mul_def x y ihx ihy => simp only [def_.substitute, mentions, ihx, ihy, Bool.or_self]
  | div_def x m ih =>
    simp only [def_.substitute]
    unfold def_.div_q
    split
    · exact ih
    · simp only [mentions, ih]
  | var_def w =>
    unfold def_.substitute
    by_cases h : w.m_id = v
    · simp only [h, ne_eq, not_true_eq_false, if_false]
      split
      · exact he
      · unfold def_.mul_q
        split
        · exact he
        · simp only [mentions, he, Bool.or_self]
    · simp only [ne_eq, h, not_false_eq_true, if_true, mentions, decide_False]
  | const_def c => rfl

/-- C36: substitution lemma for definitions.  For every definition `d`, variable `v`,
definition `e` and store `s`, `eval(d.substitute(v, e))` equals the evaluation of `d` at the
stored assignment with the value of `v` replaced by `eval(e)` (and the same holds at every
assignment `val`); and if `e` does not mention `v`, then `d.substitute(v, e)` does not
mention `v`. -/
theorem substitute_spec (s : model_based_opt) (val : Nat → ℚ) (d e : def_) (v : Nat) :
    s.eval_def (def_.substitute v e d)
      = eval_def_at (Function.update s.eval v (s.eval_def e)) d ∧
    eval_def_at val (def_.substitute v e d)
      = eval_def_at (Function.update val v (eval_def_at val e)) d ∧
    (mentions v e = false → mentions v (def_.substitute v e d) = false) := by
  refine ⟨?_, eval_def_at_substitute val v e d, mentions_substitute v e d⟩
  rw [eval_def_at_stored, eval_def_at_stored, eval_def_at_substitute]

/-- Witness of C36: substituting `x1 |-> (2*x0 + 3)/2` in `5*x1 + x0`, on a store with
`x0 = 4`, `x1 = 7`. -/
theorem substitute_spec_witness :
    mentions 1 (def_.div_def (def_.add_def (def_.var_def ⟨0, 2⟩) (def_.const_def 3)) 2)
      = false ∧
    mentions 1 (def_.substitute 1
      (def_.div_def (def_.add_def (def_.var_def ⟨0, 2⟩) (def_.const_def 3)) 2)
      (def_.add_def (def_.var_def ⟨1, 5⟩) (def_.var_def ⟨0, 1⟩))) = false :=
  ⟨by decide, (substitute_spec ((init.add_var 4 false).1.add_var 7 false).1 (fun _ => 0)
    (def_.add_def (def_.var_def ⟨1, 5⟩) (def_.var_def ⟨0, 1⟩))
    (def_.div_def (def_.add_def (def_.var_def ⟨0, 2⟩) (def_.const_def 3)) 2) 1).2.2
    (by decide)⟩

theorem dec_ref_ne_pred (w n : Nat) (hw : 2 ≤ w) (hn : 0 < n) (hlt : n < 2 ^ w) :
    (n + 1) % 2 ^ w ≠ n - 1 := by
  have h4 : 4 ≤ 2 ^ w := by
    calc 4 = 2 ^ 2 := by norm_num
      _ ≤ 2 ^ w := Nat.pow_le_pow_right (by norm_num) hw
  by_cases h : n + 1 < 2 ^ w
  · rw [Nat.mod_eq_of_lt h]; omega
  · have e : n + 1 = 2 ^ w := by omega
    rw [e, Nat.mod_self]; omega

/-- C40 (failing inputs): `def::dec_ref` on a node with reference count `n > 0` (an
unsigned counter of width `w >= 2` bits) increments the counter: the new count is
`(n + 1) mod 2^w`, which is never `n - 1`, and the node is released exactly when the
incremented counter wraps around to zero, that is for `n = 2^w - 1`; a node with count 1
is left with count 2 and is not released. -/
theorem dec_ref_increments (w n : Nat) (hw : 2 ≤ w) (hn : 0 < n) (hlt : n < 2 ^ w) :
    (def_.dec_ref w n).1 = (n + 1) % 2 ^ w ∧
    (def_.dec_ref w n).1 ≠ n - 1 ∧
    ((def_.dec_ref w n).2 = true ↔ n = 2 ^ w - 1) ∧
    (n = 1 → def_.dec_ref w n = (2, false)) := by
  have h4 : 4 ≤ 2 ^ w := by
    calc 4 = 2 ^ 2 := by norm_num
      _ ≤ 2 ^ w := Nat.pow_le_pow_right (by norm_num) hw
  refine ⟨rfl, dec_ref_ne_pred w n hw hn hlt, ?_, ?_⟩
  · unfold def_.dec_ref
    simp only [decide_eq_true_eq]
    constructor
    · intro h
      by_cases h1 : n + 1 < 2 ^ w
      · rw [Nat.mod_eq_of_lt h1] at h; omega
      · omega
    · intro h
      have e : n + 1 = 2 ^ w := by omega
      rw [e, Nat.mod_self]
  · intro h1
    subst h1
    unfold def_.dec_ref
    have e : (1 + 1) % 2 ^ w = 2 := Nat.mod_eq_of_lt (by omega)
    simp only [e]
    rfl

/-- Witness of C40: a node with reference count 1 and a 32-bit counter is left with
count 2 and is not released. -/
theorem dec_ref_increments_witness :
    def_.dec_ref 32 1 = (2, false) :=
  (dec_ref_increments 32 1 (by decide) (by decide) (by norm_num)).2.2.2 rfl

theorem sub_lin (s : model_based_opt) (j : Nat) (c : ℚ) (hj : j < s.m_rows.length) :
    (∀ val, lin ((s.sub j c).get_row j) val = lin (s.get_row j) val - c) ∧
    ((s.sub j c).get_row j).m_value = (s.get_row j).m_value - c ∧
    (s.sub j c).eval = s.eval := by
  have hr : (s.sub j c).get_row j =
      { s.get_row j with m_coeff := (s.get_row j).m_coeff - c,
                         m_value := (s.get_row j).m_value - c } := by
    unfold model_based_opt.sub
    exact get_row_put_row_eq _ _ _ hj
  rw [hr]
  refine ⟨fun val => ?_, rfl, ?_⟩
  · rw [lin_eq, lin_eq]
    ring
  · exact eval_congr _ _ (same_except_put_row s j _).2.1

/-- C33 (counterexample): in `div_value_store` the div-definition row 1 is `x div 2` with
cached value 7, its evaluation at `x = 7`.  After `mul(1, 3)` the row is `3x div 6`, which
evaluates to 21, while the cached value is still 7. -/
theorem mul_keeps_div_value :
    (div_value_store.get_row 1).m_type = ineq_type.t_div ∧
    (div_value_store.get_row 1).m_alive = true ∧
    (div_value_store.get_row 1).m_value = div_value_store.eval_row (div_value_store.get_row 1) ∧
    (div_value_store.mul 1 3).get_row 1 =
      { m_vars := [⟨0, 3⟩], m_coeff := 0, m_mod := 6, m_type := ineq_type.t_div,
        m_value := 7, m_alive := true, m_id := 1 } ∧
    (div_value_store.mul 1 3).eval_row ((div_value_store.mul 1 3).get_row 1) = 21 ∧
    ¬ ((div_value_store.mul 1 3).get_row 1).m_value
        = (div_value_store.mul 1 3).eval_row ((div_value_store.mul 1 3).get_row 1) := by
  decide!

/-- C33 (amended): for a row whose cached value equals its evaluation at the current
assignment and every rational `c`: after `mul(row, c)` the cached value equals the
evaluation of the scaled row when the row is an equality, strict, non-strict or
divisibility row; for a mod- or div-definition row `mul` scales the terms and the constant
but keeps the cached value, so the scaled row evaluates to `c` times the cached value;
after `add(row, c)` and after `sub(row, c)` the cached value equals the evaluation of the
shifted row, for every relation kind. -/
theorem mul_add_sub_value (s : model_based_opt) (j : Nat) (c : ℚ) (hj : j < s.m_rows.length)
    (hv : (s.get_row j).m_value = s.eval_row (s.get_row j)) :
    ((s.get_row j).m_type ≠ ineq_type.t_div → (s.get_row j).m_type ≠ ineq_type.t_mod →
      ((s.mul j c).get_row j).m_value = (s.mul j c).eval_row ((s.mul j c).get_row j)) ∧
    ((s.get_row j).m_type = ineq_type.t_div ∨ (s.get_row j).m_type = ineq_type.t_mod →
      c ≠ 1 →
      ((s.mul j c).get_row j).m_value = (s.get_row j).m_value ∧
      (s.mul j c).eval_row ((s.mul j c).get_row j) = (s.get_row j).m_value * c) ∧
    ((s.add j c).get_row j).m_value = (s.add j c).eval_row ((s.add j c).get_row j) ∧
    ((s.sub j c).get_row j).m_value = (s.sub j c).eval_row ((s.sub j c).get_row j) := by
  have em : (s.mul j c).eval = s.eval := eval_congr _ _ (same_except_mul s j c).2.1
  have ea : (s.add j c).eval = s.eval := eval_congr _ _ (same_except_add s j c).2.1
  obtain ⟨m1, m2, -⟩ := mul_lin s j c hj
  obtain ⟨a1, a2, -⟩ := add_lin s j c hj
  obtain ⟨s1, s2, es⟩ := sub_lin s j c hj
  rw [eval_row_lin] at hv
  refine ⟨?_, ?_, ?_, ?_⟩
  · intro h1 h2
    rw [eval_row_lin, em, m1, m2 h1 h2, hv]
  · intro h hc
    have hval : ((s.mul j c).get_row j).m_value = (s.get_row j).m_value := by
      rw [get_row_mul s j c hc hj]
      rcases h with h | h <;> simp [h]
    refine ⟨hval, ?_⟩
    rw [eval_row_lin, em, m1, hv]
  · rw [eval_row_lin, ea, a1, a2, hv]
  · rw [eval_row_lin, es, s1, s2, hv]

/-- Witness of C33 (amended): row 1 of `div_value_store` and `c = 3`. -/
theorem mul_add_sub_value_witness :
    ((div_value_store.add 1 3).get_row 1).m_value
      = (div_value_store.add 1 3).eval_row ((div_value_store.add 1 3).get_row 1) ∧
    (div_value_store.mul 1 3).eval_row ((div_value_store.mul 1 3).get_row 1)
      = (div_value_store.get_row 1).m_value * 3 :=
  have h := mul_add_sub_value div_value_store 1 3 (by decide!) (by decide!)
  ⟨h.2.2.1, (h.2.1 (Or.inl (by decide!)) (by norm_num)).2⟩

/-- Every merged term comes from `r1` or its variable receives the row id, and only
variables of `r2` receive it. -/
theorem merge_pushed (c : ℚ) (fuel : Nat) :
    ∀ (r1 r2 : List var), r1.length + r2.length + 1 ≤ fuel →
      (∀ w ∈ (mul_add_merge c fuel r1 r2).1,
        (∃ t ∈ r1, t.m_id = w.m_id) ∨ w.m_id ∈ (mul_add_merge c fuel r1 r2).2) ∧
      (∀ v ∈ (mul_add_merge c fuel r1 r2).2, ∃ t ∈ r2, t.m_id = v) := by
  induction fuel with
  | zero => intro r1 r2 h; omega
  | succ fuel ih =>
    intro r1 r2 hf
    cases r2 with
    | nil =>
      simp only [mul_add_merge]
      exact ⟨fun w hw => Or.inl ⟨w, hw, rfl⟩, fun v hv => absurd hv (List.not_mem_nil v)⟩
    | cons b r2 =>
      cases r1 with
      | nil =>
        simp only [mul_add_merge]
        refine ⟨?_, ?_⟩
        · intro w hw
          obtain ⟨t, ht, rfl⟩ := List.mem_map.mp hw
          exact Or.inr (List.mem_map.mpr ⟨t, ht, rfl⟩)
        · intro v hv
          obtain ⟨t, ht, rfl⟩ := List.mem_map.mp hv
          exact ⟨t, ht, rfl⟩
      | cons a r1 =>
        simp only [List.length_cons] at hf
        unfold mul_add_merge
        by_cases hab : a.m_id = b.m_id
        · simp only [if_pos hab]
          obtain ⟨i1, i2⟩ := ih r1 r2 (by omega)
          have i1c : ∀ w ∈ (mul_add_merge c fuel r1 r2).1,
              (∃ t ∈ a :: r1, t.m_id = w.m_id) ∨ w.m_id ∈ (mul_add_merge c fuel r1 r2).2 := by
            intro w hw
            rcases i1 w hw with ⟨t, ht, he⟩ | h
            · exact Or.inl ⟨t, List.mem_cons_of_mem _ ht, he⟩
            · exact Or.inr h
          have i2c : ∀ v ∈ (mul_add_merge c fuel r1 r2).2, ∃ t ∈ b :: r2, t.m_id = v := by
            intro v hv
            obtain ⟨t, ht, he⟩ := i2 v hv
            exact ⟨t, List.mem_cons_of_mem _ ht, he⟩
          by_cases hk : a.m_coeff + c * b.m_coeff = 0
          · simp only [hk, if_true]
            exact ⟨i1c, i2c⟩
          · simp only [hk, if_false]
            refine ⟨?_, i2c⟩
            intro w hw
            rcases List.mem_cons.mp hw with rfl | hw
            · exact Or.inl ⟨a, List.mem_cons_self _ _, rfl⟩
            · exact i1c w hw
        · simp only [hab, if_false]
          by_cases hlt : a.m_id < b.m_id
          · simp only [hlt, if_true]
            obtain ⟨i1, i2⟩ := ih r1 (b :: r2) (by simp only [List.length_cons]; omega)
            refine ⟨?_, i2⟩
            intro w hw
            rcases List.mem_cons.mp hw with rfl | hw
            · exact Or.inl ⟨w, List.mem_cons_self _ _, rfl⟩
            · rcases i1 w hw with ⟨t, ht, he⟩ | h
              · exact Or.inl ⟨t, List.mem_cons_of_mem _ ht, he⟩
              · exact Or.inr h
          · simp only [hlt, if_false]
            obtain ⟨i1, i2⟩ := ih (a :: r1) r2 (by simp only [List.length_cons]; omega)
            refine ⟨?_, ?_⟩
            · intro w hw
              rcases List.mem_cons.mp hw with rfl | hw
              · exact Or.inr (List.mem_cons_self _ _)
              · rcases i1 w hw with h | h
                · exact Or.inl h
                · exact Or.inr (List.mem_cons_of_mem _ h)
            · intro v hv
              rcases List.mem_cons.mp hv with rfl | hv
              · exact ⟨b, List.mem_cons_self _ _, rfl⟩
              · obtain ⟨t, ht, he⟩ := i2 v hv
                exact ⟨t, List.mem_cons_of_mem _ ht, he⟩

theorem row_ids_push_mono (s : model_based_opt) (v k x i : Nat) (h : i ∈ s.row_ids x) :
    i ∈ (s.push_row_id v k).row_ids x := by
  by_cases hvx : v = x
  · subst hvx
    by_cases hlt : v < s.m_var2row_ids.length
    · unfold push_row_id row_ids
      simp only
      rw [getD_set_eq _ _ _ _ hlt]
      exact List.mem_append_left _ h
    · unfold row_ids at h
      rw [List.getD_eq_default _ _ (by omega)] at h
      exact absurd h (List.not_mem_nil i)
  · rw [row_ids_push_ne s v k x hvx]
    exact h

theorem row_ids_push_self (s : model_based_opt) (v k : Nat) (h : v < s.m_var2row_ids.length) :
    k ∈ (s.push_row_id v k).row_ids v := by
  unfold push_row_id row_ids
  simp only
  rw [getD_set_eq _ _ _ _ h]
  simp

theorem push_row_id_length (s : model_based_opt) (v k : Nat) :
    (s.push_row_id v k).m_var2row_ids.length = s.m_var2row_ids.length := by
  unfold push_row_id
  simp

theorem row_ids_foldl_push_mem (k : Nat) (l : List Nat) :
    ∀ s : model_based_opt, (∀ v ∈ l, v < s.m_var2row_ids.length) →
      (∀ x i, i ∈ s.row_ids x → i ∈ (l.foldl (fun st v => st.push_row_id v k) s).row_ids x) ∧
      (∀ v ∈ l, k ∈ (l.foldl (fun st v => st.push_row_id v k) s).row_ids v) := by
  induction l with
  | nil => intro s _; exact ⟨fun x i h => h, fun v hv => absurd hv (List.not_mem_nil v)⟩
  | cons a l ih =>
    intro s hl
    rw [List.foldl_cons]
    obtain ⟨i1, i2⟩ := ih (s.push_row_id a k) (fun v hv => by
      rw [push_row_id_length]; exact hl v (List.mem_cons_of_mem _ hv))
    refine ⟨fun x i h => i1 x i (row_ids_push_mono s a k x i h), ?_⟩
    intro v hv
    rcases List.mem_cons.mp hv with rfl | hv
    · exact i1 v k (row_ids_push_self s v k (hl v (List.mem_cons_self _ _)))
    · exact i2 v hv

theorem row_ids_put_row (s : model_based_opt) (j : Nat) (r : row) (x : Nat) :
    (s.put_row j r).row_ids x = s.row_ids x := rfl

/-- C32: `mul_add(same_sign, r1, c, r2)` on distinct rows with terms sorted by strictly
ascending id and nonzero coefficients.  Afterwards the terms of `r1` are sorted by strictly
ascending id with nonzero coefficients; the coefficient of every variable `v` in `r1` is
`old_coeff_r1(v) + c*coeff_r2(v)`, the constant is `old_const_r1 + c*const_r2` and the cached
value is `old_value_r1 + c*value_r2`, so that cached value = evaluation is preserved; when
`r1` is not the objective, its variables were listed in the variable-to-row index and the
variables of `r2` exist, every variable of `r1` lists `r1` in the index; `r2` and the
assignment are unchanged. -/
theorem mul_add_invariant (s : model_based_opt) (same_sign : Bool) (j : Nat) (c : ℚ) (k : Nat)
    (hjk : j ≠ k) (hj : j < s.m_rows.length)
    (h1 : sorted_ids (s.get_row j).m_vars) (h2 : sorted_ids (s.get_row k).m_vars)
    (hn1 : ∀ t ∈ (s.get_row j).m_vars, t.m_coeff ≠ 0)
    (hn2 : ∀ t ∈ (s.get_row k).m_vars, t.m_coeff ≠ 0) :
    sorted_ids ((s.mul_add same_sign j c k).get_row j).m_vars ∧
    (∀ w ∈ ((s.mul_add same_sign j c k).get_row j).m_vars, w.m_coeff ≠ 0) ∧
    (∀ v, (s.mul_add same_sign j c k).get_coefficient j v =
      s.get_coefficient j v + c * s.get_coefficient k v) ∧
    ((s.mul_add same_sign j c k).get_row j).m_coeff =
      (s.get_row j).m_coeff + c * (s.get_row k).m_coeff ∧
    ((s.mul_add same_sign j c k).get_row j).m_value =
      (s.get_row j).m_value + c * (s.get_row k).m_value ∧
    ((s.get_row j).m_value = s.eval_row (s.get_row j) →
      (s.get_row k).m_value = s.eval_row (s.get_row k) →
      ((s.mul_add same_sign j c k).get_row j).m_value =
        (s.mul_add same_sign j c k).eval_row ((s.mul_add same_sign j c k).get_row j)) ∧
    (j ≠ m_objective_id →
      (∀ t ∈ (s.get_row j).m_vars, j ∈ s.row_ids t.m_id) →
      (∀ t ∈ (s.get_row k).m_vars, t.m_id < s.m_var2row_ids.length) →
      ∀ w ∈ ((s.mul_add same_sign j c k).get_row j).m_vars,
        j ∈ (s.mul_add same_sign j c k).row_ids w.m_id) ∧
    (s.mul_add same_sign j c k).get_row k = s.get_row k ∧
    (s.mul_add same_sign j c k).m_var2value = s.m_var2value := by
  obtain ⟨a1, a2, a3, a4, -, -, a7⟩ := mul_add_row_spec s same_sign j c k hj h1 h2
  have se := same_except_mul_add s same_sign j c k
  have ev : (s.mul_add same_sign j c k).eval = s.eval := eval_congr _ _ se.2.1
  obtain ⟨l1, -⟩ := mul_add_lin s same_sign j c k hj
  refine ⟨a1, a7 hn1 hn2, a2, a3, a4, ?_, ?_, se.1 k (Ne.symm hjk), se.2.1⟩
  · intro hv1 hv2
    rw [eval_row_lin] at hv1 hv2
    rw [eval_row_lin, ev, l1, a4, hv1, hv2]
  · intro hobj hidx hex
    by_cases hc : c = 0
    · subst hc
      rw [mul_add_zero]
      exact hidx
    · intro w hw
      have hr := get_row_mul_add s same_sign j c k hc hj
      have hv : ((s.mul_add same_sign j c k).get_row j).m_vars =
          (mul_add_merge c ((s.get_row j).m_vars.length + (s.get_row k).m_vars.length + 1)
            (s.get_row j).m_vars (s.get_row k).m_vars).1 := by rw [hr]
      rw [hv] at hw
      obtain ⟨m1, m2⟩ := merge_pushed c
        ((s.get_row j).m_vars.length + (s.get_row k).m_vars.length + 1)
        (s.get_row j).m_vars (s.get_row k).m_vars (le_refl _)
      obtain ⟨f1, f2⟩ := row_ids_foldl_push_mem j
        (mul_add_merge c ((s.get_row j).m_vars.length + (s.get_row k).m_vars.length + 1)
          (s.get_row j).m_vars (s.get_row k).m_vars).2 s
        (fun v hv => by
          obtain ⟨t, ht, he⟩ := m2 v hv
          rw [← he]; exact hex t ht)
      have hids : (s.mul_add same_sign j c k).row_ids w.m_id =
          ((mul_add_merge c ((s.get_row j).m_vars.length + (s.get_row k).m_vars.length + 1)
            (s.get_row j).m_vars (s.get_row k).m_vars).2.foldl
              (fun st v => st.push_row_id v j) s).row_ids w.m_id := by
        unfold model_based_opt.mul_add
        simp only [hc, if_false, ne_eq, hobj, not_false_eq_true, if_true]
        rfl
      rw [hids]
      rcases m1 w hw with ⟨t, ht, he⟩ | h
      · rw [← he]
        exact f1 _ _ (hidx t ht)
      · exact f2 _ h

/-- Witness of C32: `mul_add(false, 1, 2, 2)` on `merge_store`; row 1 becomes
`x0 + 3*x1 - 2*x2 - 1 <= 0`. -/
theorem mul_add_invariant_witness :
    sorted_ids ((merge_store.mul_add false 1 2 2).get_row 1).m_vars ∧
    ((merge_store.mul_add false 1 2 2).get_row 1).m_vars = [⟨0, 1⟩, ⟨1, 3⟩, ⟨2, -2⟩] ∧
    (∀ w ∈ ((merge_store.mul_add false 1 2 2).get_row 1).m_vars,
      1 ∈ (merge_store.mul_add false 1 2 2).row_ids w.m_id) :=
  have h := mul_add_invariant merge_store false 1 2 2 (by decide) (by decide!)
    (by simp only [sorted_ids]; decide!) (by simp only [sorted_ids]; decide!)
    (by decide!) (by decide!)
  ⟨h.1, by decide!, h.2.2.2.2.2.2.1 (by decide) (by decide!) (by decide!)⟩

theorem solve_div_row_split (x y z : Nat) (K z_value : ℚ) (p : model_based_opt × List Nat)
    (ri : Nat) :
    solve_div_row x y z K z_value p ri =
      solve_div_row_tail z ri K (p.1.get_coefficient ri x)
        (solve_div_row_k p.1 x ri K z_value)
        ((p.1.replace_var1 ri x 0).get_row ri).m_coeff
        ((p.1.replace_var1 ri x 0).get_row ri).m_vars
        ((solve_div_row_w p.1 x ri K).1.get_row ri).m_id
        ((solve_div_row_w p.1 x ri K).1.add_constraint (solve_div_row_terms p.1 x y ri K)
          (solve_div_row_k p.1 x ri K z_value + (solve_div_row_w p.1 x ri K).2.2)
          ineq_type.t_eq)
        p.2 := rfl

theorem int_div_split (K a b y z : ℤ) (hK : 0 < K) :
    (a * (K * y + z) + b) / K = a * y + b / K + (a * z + b % K) / K := by
  have h := Int.emod_add_ediv b K
  have e : a * (K * y + z) + b = (a * z + b % K) + K * (a * y + b / K) := by
    linear_combination (-1 : ℤ) * h
  rw [e, Int.add_mul_ediv_left _ _ (ne_of_gt hK)]
  ring

theorem int_div_unique (K m k : ℤ) (hK : 0 < K) (h1 : K * k ≤ m) (h2 : m < K * (k + 1)) :
    m / K = k := by
  have h : m / K = k ∧ m % K = m - K * k :=
    (Int.ediv_emod_unique hK).mpr ⟨by ring, by linarith, by linarith⟩
  exact h.1

theorem new_row_row_ne (s : model_based_opt) (i : Nat) (hi : i < s.m_rows.length)
    (hr : i ∉ s.m_retired_rows) :
    s.new_row.1.get_row i = s.get_row i ∧ i ≠ s.new_row.2 := by
  unfold new_row
  cases hl : s.m_retired_rows.getLast? with
  | none =>
    simp only
    refine ⟨?_, by omega⟩
    unfold get_row
    simp only
    rw [List.getD_eq_getElem?_getD, List.getD_eq_getElem?_getD, List.getElem?_append_left hi]
  | some k =>
    simp only
    have hk : k ∈ s.m_retired_rows := getLast?_mem _ _ hl
    have hne : i ≠ k := fun h => hr (h ▸ hk)
    refine ⟨?_, hne⟩
    rw [get_row_put_row_ne _ _ _ _ hne]
    rfl

theorem add_constraint5_row_ne (s : model_based_opt) (i : Nat) (coeffs : List var) (c m : ℚ)
    (rel : ineq_type) (id : Nat) (hi : i < s.m_rows.length) (hr : i ∉ s.m_retired_rows) :
    (s.add_constraint5 coeffs c m rel id).1.get_row i = s.get_row i := by
  unfold add_constraint5
  dsimp only
  split
  · rfl
  · obtain ⟨h1, hne⟩ := new_row_row_ne s i hi hr
    have se : same_except s.new_row.2 s.new_row.1
        ((coeffs.foldl (fun st v => st.push_row_id v.m_id s.new_row.2)
          ((s.new_row.1.set_row s.new_row.2 coeffs c m rel).put_row s.new_row.2
            { (s.new_row.1.set_row s.new_row.2 coeffs c m rel).get_row s.new_row.2 with
              m_id := id })).normalize s.new_row.2) := by
      refine same_except_trans ?_ (same_except_normalize _ _)
      refine same_except_trans ?_ (same_except_foldl_push_var _ _ _ _)
      refine same_except_trans ?_ (same_except_put_row _ _ _)
      exact same_except_set_row _ _ _ _ _ _
    rw [se.1 i hne, h1]

/-- The state after `add_div(coeffs, c, m)`: the fresh variable has the value
`div(c + coeffs, m)`, the other values and the rows that are not retired are unchanged. -/
theorem add_div_spec (s : model_based_opt) (coeffs : List var) (c m : ℚ) :
    (s.add_div coeffs c m).2 = s.m_var2value.length ∧
    (s.add_div coeffs c m).1.eval s.m_var2value.length = div (c + sum_vars s.eval coeffs) m ∧
    (∀ v < s.m_var2value.length, (s.add_div coeffs c m).1.eval v = s.eval v) ∧
    (∀ i < s.m_rows.length, i ∉ s.m_retired_rows →
      (s.add_div coeffs c m).1.get_row i = s.get_row i) := by
  have hval : (s.add_div coeffs c m).1.m_var2value
      = s.m_var2value ++ [div (c + sum_vars s.eval coeffs) m] := by
    unfold model_based_opt.add_div
    dsimp only
    rw [(add_constraint5_values _ _ _ _ _ _).1]
    unfold add_var
    simp only
    rw [foldl_add_eq_sum (fun v => v.m_coeff * s.eval v.m_id) coeffs c]
    rfl
  have he : ∀ (t : model_based_opt) (v : Nat), t.eval v = t.m_var2value.getD v 0 :=
    fun _ _ => rfl
  refine ⟨rfl, ?_, ?_, ?_⟩
  · rw [he, hval, getD_append_last]
  · intro v hv
    rw [he, hval, getD_append_lt _ _ _ _ hv]
    rfl
  · intro i hi hr
    have hi2 : i < (s.add_var
        (div (coeffs.foldl (fun val v => val + v.m_coeff * s.eval v.m_id) c) m)
        true).1.m_rows.length := hi
    have hr2 : i ∉ (s.add_var
        (div (coeffs.foldl (fun val v => val + v.m_coeff * s.eval v.m_id) c) m)
        true).1.m_retired_rows := hr
    have h := add_constraint5_row_ne _ i coeffs c m ineq_type.t_div
      (s.add_var (div (coeffs.foldl (fun val v => val + v.m_coeff * s.eval v.m_id) c) m)
        true).2 hi2 hr2
    unfold model_based_opt.add_div
    dsimp only
    rw [h]
    rfl

theorem sum_vars_congr_mem (val1 val2 : Nat → ℚ) (l : List var)
    (h : ∀ t ∈ l, val1 t.m_id = val2 t.m_id) : sum_vars val1 l = sum_vars val2 l := by
  induction l with
  | nil => rfl
  | cons a l ih =>
    rw [sum_vars_cons, sum_vars_cons, ih (fun t ht => h t (List.mem_cons_of_mem _ ht)),
      h a (List.mem_cons_self _ _)]

theorem sum_vars_append (val : Nat → ℚ) (l1 l2 : List var) :
    sum_vars val (l1 ++ l2) = sum_vars val l1 + sum_vars val l2 := by
  simp [sum_vars]

theorem div_row_core (K a yv z E vv b : ℚ) (hK : 0 < K) (hKi : is_int_q K = true)
    (ha : is_int_q a = true) (hy : is_int_q yv = true) (hz : is_int_q z = true)
    (hE : is_int_q E = true) (hv : vv = div E K) (hb : E = b + a * (K * yv + z)) :
    -vv + a * yv + div b K + div (a * z + mod b K) K = 0 ∧
    K * div (a * z + mod b K) K ≤ a * z + mod b K ∧
    a * z + mod b K < K * (div (a * z + mod b K) K + 1) ∧
    is_int_q b = true := by
  obtain ⟨Kz, rfl⟩ := (is_int_q_iff K).mp hKi
  obtain ⟨az, rfl⟩ := (is_int_q_iff a).mp ha
  obtain ⟨yz, rfl⟩ := (is_int_q_iff yv).mp hy
  obtain ⟨zz, rfl⟩ := (is_int_q_iff z).mp hz
  obtain ⟨ez, rfl⟩ := (is_int_q_iff E).mp hE
  have hKz : 0 < Kz := by exact_mod_cast hK
  have hbz : b = ((ez - az * (Kz * yz + zz) : ℤ) : ℚ) := by
    push_cast
    linarith
  subst hbz
  subst hv
  have hm : (az : ℚ) * zz + mod ((ez - az * (Kz * yz + zz) : ℤ) : ℚ) (Kz : ℚ)
      = ((az * zz + (ez - az * (Kz * yz + zz)) % Kz : ℤ) : ℚ) := by
    rw [mod_int_cast]
    push_cast
    ring
  rw [hm, div_int_cast, div_int_cast, div_int_cast]
  have hsplit := int_div_split Kz az (ez - az * (Kz * yz + zz)) yz zz hKz
  have he : az * (Kz * yz + zz) + (ez - az * (Kz * yz + zz)) = ez := by ring
  rw [he] at hsplit
  have hd := Int.emod_add_ediv (az * zz + (ez - az * (Kz * yz + zz)) % Kz) Kz
  have hm0 := Int.emod_nonneg (az * zz + (ez - az * (Kz * yz + zz)) % Kz) (ne_of_gt hKz)
  have hm1 := Int.emod_lt_of_pos (az * zz + (ez - az * (Kz * yz + zz)) % Kz) hKz
  refine ⟨?_, ?_, ?_, (is_int_q_iff _).mpr ⟨_, rfl⟩⟩
  · rw [hsplit]
    push_cast
    ring
  · have : Kz * ((az * zz + (ez - az * (Kz * yz + zz)) % Kz) / Kz)
        ≤ az * zz + (ez - az * (Kz * yz + zz)) % Kz := by linarith
    exact_mod_cast this
  · have : az * zz + (ez - az * (Kz * yz + zz)) % Kz
        < Kz * ((az * zz + (ez - az * (Kz * yz + zz)) % Kz) / Kz + 1) := by linarith
    exact_mod_cast this

theorem div_one_int (b : ℚ) (h : is_int_q b = true) : div b 1 = b := by
  obtain ⟨n, rfl⟩ := (is_int_q_iff b).mp h
  have := div_int_cast n 1
  simp only [Int.cast_one, Int.ediv_one] at this
  exact this

/-- C34: the identity behind the div rows of `solve_mod_div` holds for all integers: for
`K > 0`, `0 <= z < K` and `K*k <= a*z + (b mod K) < K*(k+1)`,
`(a*(K*y + z) + b) div K = a*y + (b div K) + k`.  In the body of the loop over the div rows,
for a div-definition row `v = (a*x + b) div K` that holds at the stored assignment, with
integer data and `x = K*y + z`, the local `k` is `(a*z_val + (b_val mod K)) div K`, it
satisfies `K*k <= a*z_val + (b_val mod K) < K*(k+1)`, and the equality row
`-v + a*y + w + k = 0` passed to `add_constraint` evaluates to zero at the assignment of the
state in which it is added; the body continues from that call. -/
theorem solve_div_row_equality (s : model_based_opt) (x y z ri : Nat) (K z_value : ℚ)
    (vs : List Nat)
    (hj : ri < s.m_rows.length) (hret : ri ∉ s.m_retired_rows)
    (hs : sorted_ids (s.get_row ri).m_vars)
    (hty : (s.get_row ri).m_type = ineq_type.t_div) (hmod : (s.get_row ri).m_mod = K)
    (hdef : holds (s.get_row ri) (assignment s))
    (hK : 0 < K) (hKi : is_int_q K = true)
    (ha : is_int_q (s.get_coefficient ri x) = true)
    (hyi : is_int_q (s.eval y) = true) (hzi : is_int_q z_value = true)
    (hx : s.eval x = K * s.eval y + z_value)
    (hE : is_int_q (s.eval_row (s.get_row ri)) = true)
    (hv : (s.get_row ri).m_id < s.m_var2value.length) (hy : y < s.m_var2value.length)
    (hids : ∀ t ∈ (s.get_row ri).m_vars, t.m_id < s.m_var2value.length) :
    (∀ K0 a0 b0 y0 z0 k0 : ℤ, 0 < K0 → 0 ≤ z0 → z0 < K0 →
      (K0 : ℚ) * k0 ≤ a0 * z0 + mod (b0 : ℚ) (K0 : ℚ) →
      (a0 : ℚ) * z0 + mod (b0 : ℚ) (K0 : ℚ) < K0 * (k0 + 1) →
      div ((a0 * (K0 * y0 + z0) + b0 : ℤ) : ℚ) (K0 : ℚ)
        = a0 * y0 + div (b0 : ℚ) (K0 : ℚ) + k0) ∧
    solve_div_row_k s x ri K z_value =
      div (s.get_coefficient ri x * z_value
        + mod (s.eval_row (s.get_row ri) - s.get_coefficient ri x * s.eval x) K) K ∧
    K * solve_div_row_k s x ri K z_value ≤ s.get_coefficient ri x * z_value
        + mod (s.eval_row (s.get_row ri) - s.get_coefficient ri x * s.eval x) K ∧
    s.get_coefficient ri x * z_value
        + mod (s.eval_row (s.get_row ri) - s.get_coefficient ri x * s.eval x) K
      < K * (solve_div_row_k s x ri K z_value + 1) ∧
    (solve_div_row_w s x ri K).1.eval_vars (solve_div_row_terms s x y ri K)
        + (solve_div_row_k s x ri K z_value + (solve_div_row_w s x ri K).2.2) = 0 ∧
    solve_div_row x y z K z_value (s, vs) ri =
      solve_div_row_tail z ri K (s.get_coefficient ri x) (solve_div_row_k s x ri K z_value)
        ((s.replace_var1 ri x 0).get_row ri).m_coeff
        ((s.replace_var1 ri x 0).get_row ri).m_vars
        ((solve_div_row_w s x ri K).1.get_row ri).m_id
        ((solve_div_row_w s x ri K).1.add_constraint (solve_div_row_terms s x y ri K)
          (solve_div_row_k s x ri K z_value + (solve_div_row_w s x ri K).2.2)
          ineq_type.t_eq)
        vs := by
  refine ⟨?_, ?_⟩
  · intro K0 a0 b0 y0 z0 k0 hK0 _ _ h1 h2
    rw [mod_int_cast] at h1 h2
    have h1z : K0 * k0 ≤ a0 * z0 + b0 % K0 := by exact_mod_cast h1
    have h2z : a0 * z0 + b0 % K0 < K0 * (k0 + 1) := by exact_mod_cast h2
    have hk := int_div_unique K0 (a0 * z0 + b0 % K0) k0 hK0 h1z h2z
    rw [div_int_cast, div_int_cast, int_div_split K0 a0 b0 y0 z0 hK0, hk]
    push_cast
    ring
  -- the row after `replace_var(ri, x, 0)`
  have hr1 := replace_var1_row s ri x 0 hj hs
  have se1 := same_except_replace_var1 s ri x 0
  have hev1 : (s.replace_var1 ri x 0).eval = s.eval := eval_congr _ _ se1.2.1
  have hcs : ((s.replace_var1 ri x 0).get_row ri).m_vars
      = mk_coeffs_without (s.get_row ri).m_vars x := by rw [hr1]
  have hco : ((s.replace_var1 ri x 0).get_row ri).m_coeff = (s.get_row ri).m_coeff := by
    rw [hr1]; simp
  have hid1 : ((s.replace_var1 ri x 0).get_row ri).m_id = (s.get_row ri).m_id := by rw [hr1]
  have hmem : ∀ t ∈ mk_coeffs_without (s.get_row ri).m_vars x, t ∈ (s.get_row ri).m_vars := by
    intro t ht
    unfold mk_coeffs_without at ht
    exact (List.mem_filter.mp ht).1
  -- the value `b` of the rest of the row
  have hEb : s.eval_row (s.get_row ri) =
      ((s.get_row ri).m_coeff + sum_vars s.eval (mk_coeffs_without (s.get_row ri).m_vars x))
        + s.get_coefficient ri x * (K * s.eval y + z_value) := by
    rw [eval_row_eq, sum_vars_split s.eval x _ (sorted_ids_nodup _ hs), ← hx]
    unfold model_based_opt.get_coefficient mk_coeffs_without
    rw [row_get_coefficient_eq _ _ hs]
    ring
  have hbE : s.eval_row (s.get_row ri) - s.get_coefficient ri x * s.eval x
      = (s.get_row ri).m_coeff + sum_vars s.eval (mk_coeffs_without (s.get_row ri).m_vars x) := by
    rw [hEb, hx]; ring
  have hvv : s.eval (s.get_row ri).m_id = div (s.eval_row (s.get_row ri)) K := by
    unfold holds at hdef
    rw [hty] at hdef
    simp only at hdef
    rw [hmod] at hdef
    rw [eval_row_lin]
    exact hdef
  obtain ⟨c1, c2, c3, c4⟩ := div_row_core K (s.get_coefficient ri x) (s.eval y) z_value
    (s.eval_row (s.get_row ri)) (s.eval (s.get_row ri).m_id)
    ((s.get_row ri).m_coeff + sum_vars s.eval (mk_coeffs_without (s.get_row ri).m_vars x))
    hK hKi ha hyi hzi hE hvv hEb
  -- the state after "add w = b div m"
  have hW : (solve_div_row_w s x ri K).1.eval_vars (mk_coeffs_without (s.get_row ri).m_vars x)
        = sum_vars s.eval (mk_coeffs_without (s.get_row ri).m_vars x) ∧
      (solve_div_row_w s x ri K).1.eval (s.get_row ri).m_id = s.eval (s.get_row ri).m_id ∧
      (solve_div_row_w s x ri K).1.eval y = s.eval y ∧
      ((solve_div_row_w s x ri K).1.get_row ri).m_id = (s.get_row ri).m_id ∧
      (solve_div_row_w s x ri K).1.eval_vars
          (match (solve_div_row_w s x ri K).2.1 with
           | some w => [⟨w, 1⟩]
           | none => if K = 1 then mk_coeffs_without (s.get_row ri).m_vars x else [])
        + (solve_div_row_w s x ri K).2.2
        = div ((s.get_row ri).m_coeff
            + sum_vars s.eval (mk_coeffs_without (s.get_row ri).m_vars x)) K := by
    unfold solve_div_row_w
    simp only [hcs, hco]
    by_cases h1 : K = 1
    · simp only [h1, if_true]
      rw [eval_vars_eq, hev1, hid1, div_one_int _ c4]
      exact ⟨rfl, rfl, rfl, rfl, by ring⟩
    · simp only [h1, if_false]
      cases h2 : (mk_coeffs_without (s.get_row ri).m_vars x).isEmpty with
      | true =>
        simp only [if_true]
        have hnil : mk_coeffs_without (s.get_row ri).m_vars x = [] := by
          simpa using h2
        rw [eval_vars_eq, eval_vars_eq, hev1, hid1, hnil]
        simp [sum_vars]
      | false =>
        simp only [Bool.false_eq_true, if_false]
        obtain ⟨d1, d2, d3, d4⟩ := add_div_spec (s.replace_var1 ri x 0)
          (mk_coeffs_without (s.get_row ri).m_vars x) (s.get_row ri).m_coeff K
        have hlen : (s.replace_var1 ri x 0).m_var2value.length = s.m_var2value.length := by
          rw [se1.2.1]
        rw [hlen] at d2 d3
        rw [hev1] at d2 d3
        refine ⟨?_, d3 _ hv, d3 _ hy, ?_, ?_⟩
        · rw [eval_vars_eq]
          exact sum_vars_congr_mem _ _ _ (fun t ht => d3 _ (hids t (hmem t ht)))
        · rw [d4 ri (by rw [se1.2.2.2]; exact hj) hret, hid1]
        · rw [d1, hlen, eval_vars_eq, sum_vars_cons, sum_vars_nil]
          dsimp only
          rw [d2]
          ring
  obtain ⟨w1, w2, w3, w4, w5⟩ := hW
  have hk : solve_div_row_k s x ri K z_value =
      div (s.get_coefficient ri x * z_value
        + mod (s.eval_row (s.get_row ri) - s.get_coefficient ri x * s.eval x) K) K := by
    unfold solve_div_row_k
    simp only [hcs, hco]
    rw [w1, hbE, add_comm (sum_vars s.eval _) _]
  refine ⟨hk, ?_, ?_, ?_, solve_div_row_split x y z K z_value (s, vs) ri⟩
  · rw [hk, hbE]; exact c2
  · rw [hk, hbE]; exact c3
  · rw [hk, hbE]
    unfold solve_div_row_terms
    simp only [hcs]
    rw [eval_vars_eq, sum_vars_append, sum_vars_cons, sum_vars_cons, sum_vars_nil,
      ← eval_vars_eq]
    dsimp only
    rw [w4, w2, w3]
    linarith [c1, w5]

/-- Witness of C34: the div row `v = (x + u + 1) div 3` of `div_row_store` with `x = 7`,
`u = 4`, `v = 4` and `x = 3*y + z` for `y = 2`, `z = 1`: `w = 5 div 3 = 1`,
`k = (1 + 5 mod 3) div 3 = 1` and `-v + y + w + k = 0`. -/
theorem solve_div_row_equality_witness :
    solve_div_row_k div_row_store 0 1 3 1 = 1 ∧
    solve_div_row_terms div_row_store 0 4 1 3 = [⟨2, -1⟩, ⟨4, 1⟩, ⟨5, 1⟩] ∧
    (solve_div_row_w div_row_store 0 1 3).1.eval_vars (solve_div_row_terms div_row_store 0 4 1 3)
        + (solve_div_row_k div_row_store 0 1 3 1 + (solve_div_row_w div_row_store 0 1 3).2.2)
      = 0 :=
  have h := solve_div_row_equality div_row_store 0 4 3 1 3 1 [] (by decide!) (by decide!)
    (by simp only [sorted_ids]; decide!) (by decide!) (by decide!) (by decide!)
    (by norm_num) (by decide!) (by decide!) (by decide!) (by decide!) (by decide!)
    (by decide!) (by decide!) (by decide!) (by decide!)
  ⟨by decide!, by decide!, h.2.2.2.2.1⟩

theorem add_constraint_fresh_row (s : model_based_opt) (coeffs : List var) (c : ℚ)
    (rel : ineq_type)
    (hwf : store_wf s) (hrows : s.m_rows ≠ []) (h0 : 0 ∉ s.m_retired_rows)
    (hid : (s.get_row 0).m_id ≠ 0)
    (hc : coeffs ≠ []) (hnz : ∀ t ∈ coeffs, t.m_coeff ≠ 0)
    (hnd : (coeffs.map (fun v => v.m_id)).Nodup) :
    1 ≤ (s.add_constraint5 coeffs c 0 rel 0).2 ∧
    (s.add_constraint5 coeffs c 0 rel 0).2 < (s.add_constraint5 coeffs c 0 rel 0).1.m_rows.length ∧
    ((s.add_constraint5 coeffs c 0 rel 0).1.get_row
      (s.add_constraint5 coeffs c 0 rel 0).2).m_alive = true ∧
    (∃ k shift : ℚ, 0 < k ∧
      ((shift = 0 ∧
          ((s.add_constraint5 coeffs c 0 rel 0).1.get_row
            (s.add_constraint5 coeffs c 0 rel 0).2).m_type = rel) ∨
        (shift = 1 ∧ rel = ineq_type.t_lt ∧
          coeffs.all (fun v => s.is_int v.m_id) = true ∧
          ((s.add_constraint5 coeffs c 0 rel 0).1.get_row
            (s.add_constraint5 coeffs c 0 rel 0).2).m_type = ineq_type.t_le)) ∧
      ∀ val, lin ((s.add_constraint5 coeffs c 0 rel 0).1.get_row
          (s.add_constraint5 coeffs c 0 rel 0).2) val
        = (c + sum_vars val coeffs + shift) * k) ∧
    (s.add_constraint5 coeffs c 0 rel 0).1.get_row 0 = s.get_row 0 := by
  have hL : 0 < s.m_rows.length := List.length_pos.mpr hrows
  unfold add_constraint5
  dsimp only
  split
  · rename_i h
    rw [getLastD_eq_get_row] at h
    obtain ⟨e1, e2, -, e4, e5, e6⟩ := h
    have h1 : 1 ≤ s.m_rows.length - 1 := by
      by_contra hlt
      have hz : s.m_rows.length - 1 = 0 := by omega
      rw [hz] at e5
      exact hid e5
    refine ⟨h1, Nat.sub_lt hL one_pos, e6, ⟨1, 0, one_pos, Or.inl ⟨rfl, e4⟩, ?_⟩, rfl⟩
    intro val
    rw [lin_eq, e1, e2]
    ring
  · obtain ⟨-, -, hvars, hlt, -⟩ := new_row_spec s hwf
    obtain ⟨hr0, hne0⟩ := new_row_row_ne s 0 hL h0
    obtain ⟨-, hint⟩ := new_row_values s
    have hrow : (s.new_row.1.set_row s.new_row.2 coeffs c 0 rel).get_row s.new_row.2 =
        { s.new_row.1.get_row s.new_row.2 with
          m_vars := sort_vars ((s.new_row.1.get_row s.new_row.2).m_vars ++ coeffs),
          m_alive := true,
          m_coeff := if ((!coeffs.isEmpty && coeffs.all (fun v => s.new_row.1.is_int v.m_id))
            && decide (rel = ineq_type.t_lt)) = true then c + 1 else c,
          m_value := if ((!coeffs.isEmpty && coeffs.all (fun v => s.new_row.1.is_int v.m_id))
            && decide (rel = ineq_type.t_lt)) = true
            then coeffs.foldl (fun val v => val + s.new_row.1.eval v.m_id * v.m_coeff) c + 1
            else coeffs.foldl (fun val v => val + s.new_row.1.eval v.m_id * v.m_coeff) c,
          m_type := if ((!coeffs.isEmpty && coeffs.all (fun v => s.new_row.1.is_int v.m_id))
            && decide (rel = ineq_type.t_lt)) = true then ineq_type.t_le else rel,
          m_mod := 0 } := by
      unfold set_row
      rw [get_row_put_row_eq _ _ _ hlt]
    have hisint : (fun v : var => s.new_row.1.is_int v.m_id) = (fun v : var => s.is_int v.m_id) := by
      funext v
      unfold is_int
      rw [hint]
    rw [hisint, hvars, List.nil_append] at hrow
    have se1 := same_except_set_row s.new_row.1 s.new_row.2 coeffs c 0 rel
    generalize s.new_row.1.set_row s.new_row.2 coeffs c 0 rel = t1 at hrow se1
    have hlt1 : s.new_row.2 < t1.m_rows.length := by rw [se1.2.2.2]; exact hlt
    have hr2 := get_row_put_row_eq t1 s.new_row.2 { t1.get_row s.new_row.2 with m_id := 0 }
      hlt1
    have se2 := same_except_trans se1 (same_except_put_row t1 s.new_row.2
      { t1.get_row s.new_row.2 with m_id := 0 })
    generalize t1.put_row s.new_row.2 { t1.get_row s.new_row.2 with m_id := 0 } = t2
      at hr2 se2
    have hr3 : (coeffs.foldl (fun st v => st.push_row_id v.m_id s.new_row.2)
        t2).get_row s.new_row.2 = t2.get_row s.new_row.2 :=
      get_row_congr _ _ (foldl_push_var_fields s.new_row.2 coeffs t2).1 _
    have se3 := same_except_trans se2 (same_except_foldl_push_var s.new_row.2 s.new_row.2
      coeffs t2)
    generalize coeffs.foldl (fun st v => st.push_row_id v.m_id s.new_row.2) t2 = t3
      at hr3 se3
    have hsne : sort_vars coeffs ≠ [] := by
      obtain ⟨a, ha⟩ := List.exists_mem_of_ne_nil coeffs hc
      exact List.ne_nil_of_mem ((mem_sort_vars coeffs a).mpr ha)
    have w1 : (t3.get_row s.new_row.2).m_vars = sort_vars coeffs := by
      rw [hr3, hr2, hrow]
    have w2 : (t3.get_row s.new_row.2).m_alive = true := by
      rw [hr3, hr2, hrow]
    have hhead : ((t3.get_row s.new_row.2).m_vars.headD {}).m_coeff ≠ 0 := by
      rw [w1]
      cases hsv : sort_vars coeffs with
      | nil => exact absurd hsv hsne
      | cons a l =>
        have ha : a ∈ sort_vars coeffs := by rw [hsv]; exact List.mem_cons_self _ _
        exact hnz a ((mem_sort_vars coeffs a).mp ha)
    obtain ⟨k, hk, n1, -, n3, n4, -⟩ := normalize_scale t3 s.new_row.2 w2
      (by rw [w1]; exact hsne) hhead (by rw [w1]; exact sorted_ids_sort_vars coeffs hnd)
    have se4 := same_except_trans se3 (same_except_normalize t3 s.new_row.2)
    refine ⟨by omega, by rw [se4.2.2.2]; exact hlt, n3, ?_, ?_⟩
    · cases hp : ((!coeffs.isEmpty && coeffs.all (fun v => s.is_int v.m_id))
          && decide (rel = ineq_type.t_lt)) with
      | false =>
        rw [hp] at hrow
        refine ⟨k, 0, hk, Or.inl ⟨rfl, ?_⟩, ?_⟩
        · rw [n4, hr3, hr2, hrow]
          simp
        · intro val
          rw [n1, lin_eq, w1, sum_vars_sort, hr3, hr2, hrow]
          simp
      | true =>
        rw [hp] at hrow
        simp only [Bool.and_eq_true, decide_eq_true_eq] at hp
        refine ⟨k, 1, hk, Or.inr ⟨rfl, hp.2, hp.1.2, ?_⟩, ?_⟩
        · rw [n4, hr3, hr2, hrow]
          simp
        · intro val
          rw [n1, lin_eq, w1, sum_vars_sort, hr3, hr2, hrow]
          simp only [if_true]
          ring
    · rw [se4.1 0 hne0, hr0]

/-- C38: `add_constraint(coeffs, c, rel)` with non-empty `coeffs` (nonzero coefficients,
distinct variables) on a well-formed store in which row 0 exists and is not retired.  The
result-variable id that `row()` gives the objective row is declared in the header, which is
not part of the sources; it enters as the hypothesis that the objective row's id differs
from the id 0 that `add_constraint` passes.  Then the objective row is not taken as a
duplicate: the returned row id is at least 1 and names a live row of the store whose linear
form is the constraint's, times a positive factor (the gcd reduction), shifted by 1 with the
relation `<=` when a strict constraint over integral variables is promoted; the objective
row is unchanged. -/
theorem add_constraint_not_objective (s : model_based_opt) (coeffs : List var) (c : ℚ)
    (rel : ineq_type)
    (hwf : store_wf s) (hrows : s.m_rows ≠ []) (h0 : 0 ∉ s.m_retired_rows)
    (hid : (s.get_row 0).m_id ≠ 0)
    (hc : coeffs ≠ []) (hnz : ∀ t ∈ coeffs, t.m_coeff ≠ 0)
    (hnd : (coeffs.map (fun v => v.m_id)).Nodup) :
    s.add_constraint coeffs c rel = (s.add_constraint5 coeffs c 0 rel 0).1 ∧
    1 ≤ (s.add_constraint5 coeffs c 0 rel 0).2 ∧
    (s.add_constraint5 coeffs c 0 rel 0).2 < (s.add_constraint coeffs c rel).m_rows.length ∧
    ((s.add_constraint coeffs c rel).get_row (s.add_constraint5 coeffs c 0 rel 0).2).m_alive
      = true ∧
    (∃ k shift : ℚ, 0 < k ∧
      ((shift = 0 ∧
          ((s.add_constraint coeffs c rel).get_row
            (s.add_constraint5 coeffs c 0 rel 0).2).m_type = rel) ∨
        (shift = 1 ∧ rel = ineq_type.t_lt ∧
          coeffs.all (fun v => s.is_int v.m_id) = true ∧
          ((s.add_constraint coeffs c rel).get_row
            (s.add_constraint5 coeffs c 0 rel 0).2).m_type = ineq_type.t_le)) ∧
      ∀ val, lin ((s.add_constraint coeffs c rel).get_row
          (s.add_constraint5 coeffs c 0 rel 0).2) val
        = (c + sum_vars val coeffs + shift) * k) ∧
    (s.add_constraint coeffs c rel).get_row 0 = s.get_row 0 :=
  ⟨rfl, add_constraint_fresh_row s coeffs c rel hwf hrows h0 hid hc hnz hnd⟩

/-- Witness of C38: the store with the objective `x` and no constraint row, built from a
constructor that gives the objective row the result-variable id `UINT_MAX`; the constraint
`x <= 0` gets the row id 1. -/
theorem add_constraint_not_objective_witness :
    (objective_only_store 4294967295).objective.m_vars = [⟨0, 1⟩] ∧
    (objective_only_store 4294967295).m_rows.length = 1 ∧
    ((objective_only_store 4294967295).add_constraint5 [⟨0, 1⟩] 0 0 ineq_type.t_le 0).2 = 1 ∧
    (((objective_only_store 4294967295).add_constraint [⟨0, 1⟩] 0 ineq_type.t_le).get_row
      ((objective_only_store 4294967295).add_constraint5 [⟨0, 1⟩] 0 0 ineq_type.t_le 0).2).m_alive
      = true :=
  have h := add_constraint_not_objective (objective_only_store 4294967295) [⟨0, 1⟩] 0
    ineq_type.t_le
    (store_wf_of_rows _ (by decide!) (by decide!) (by simp only [sorted_ids]; decide!))
    (by decide!) (by decide!) (by decide!) (by decide) (by decide!) (by decide)
  ⟨by decide!, by decide!, by decide!, h.2.2.2.1⟩

/-- C20 (failing input): `project(x, _)` for a variable `x` whose scan finds no live
divisibility row but a live mod-definition or div-definition row hands the elimination to
`solve_mod_div`, and `solve_mod_div` has no error exit of its own, whatever the moduli of
the rows: for every store and every recursive call that returns, it returns.  On
`mod_zero_store` the row `v1 = x mod 0` is live with modulus zero, and with the returning
recursive call `solve_mod_div` returns a state instead of raising an error. -/
theorem project_mod_div_unchecked (s : model_based_opt) (x fuel : Nat) (compute_def : Bool)
    (hnd : (scan_result s x).divide_rows = [])
    (hmd : (scan_result s x).div_rows ≠ [] ∨ (scan_result s x).mod_rows ≠ []) :
    project (fuel + 1) s x compute_def =
      solve_mod_div (project fuel) s x (scan_result s x).mod_rows (scan_result s x).div_rows
        compute_def ∧
    (∀ proj : model_based_opt → Nat → Bool → Except error (model_based_opt × Option def_),
      (∀ s1 y, ∃ r, proj s1 y compute_def = Except.ok r) →
      ∃ r, solve_mod_div proj s x (scan_result s x).mod_rows (scan_result s x).div_rows
        compute_def = Except.ok r) ∧
    (∀ e, project (fuel + 1) s x compute_def = Except.error e →
      ∃ s1 y, project fuel s1 y compute_def = Except.error e) := by
  have hc : (!(scan_result s x).div_rows.isEmpty || !(scan_result s x).mod_rows.isEmpty)
      = true := by
    rcases hmd with h | h
    · cases hl : (scan_result s x).div_rows with
      | nil => exact absurd hl h
      | cons a l => simp
    · cases hl : (scan_result s x).mod_rows with
      | nil => exact absurd hl h
      | cons a l => simp
  have hp : project (fuel + 1) s x compute_def =
      solve_mod_div (project fuel) s x (scan_result s x).mod_rows (scan_result s x).div_rows
        compute_def := by
    unfold scan_result at hnd hc ⊢
    conv_lhs => unfold project
    simp only [hnd, List.isEmpty_nil, Bool.not_true, Bool.false_eq_true, if_false, hc,
      if_true]
  refine ⟨hp, ?_, ?_⟩
  · intro proj hproj
    cases hr : solve_mod_div proj s x (scan_result s x).mod_rows (scan_result s x).div_rows
        compute_def with
    | ok r => exact ⟨r, rfl⟩
    | error e =>
      obtain ⟨s1, y, h1⟩ := solve_mod_div_error proj s x _ _ compute_def e hr
      obtain ⟨r, h2⟩ := hproj s1 y
      rw [h2] at h1
      simp at h1
  · intro e he
    rw [hp] at he
    exact solve_mod_div_error _ _ _ _ _ _ e he

/-- Witness of C20 (failing input): on `mod_zero_store` the integral `x` occurs with
coefficient 1 in the live mod-definition row 1, whose modulus is zero; the scan of
`project(x, _)` classifies it as a mod row, and `solve_mod_div` returns. -/
theorem project_mod_div_unchecked_witness :
    (mod_zero_store.get_row 1).m_alive = true ∧
    (mod_zero_store.get_row 1).m_type = ineq_type.t_mod ∧
    (mod_zero_store.get_row 1).m_mod = 0 ∧
    mod_zero_store.get_coefficient 1 0 = 1 ∧
    (scan_result mod_zero_store 0).mod_rows = [1] ∧
    ∃ r, solve_mod_div returning_proj mod_zero_store 0 (scan_result mod_zero_store 0).mod_rows
      (scan_result mod_zero_store 0).div_rows false = Except.ok r :=
  ⟨by decide!, by decide!, by decide!, by decide!, by decide!,
    (project_mod_div_unchecked mod_zero_store 0 0 false (by decide!) (Or.inr (by decide!))).2.1
      returning_proj (fun s1 _ => ⟨(s1, none), rfl⟩)⟩

theorem safe_step_refl (x : Nat) (D : Nat → Prop) (s : model_based_opt) (h : store_ok x s) :
    safe_step x D s s :=
  ⟨h, le_refl _, le_refl _, fun _ h => h, fun _ h => Or.inl h, fun _ _ _ hr => ⟨rfl, hr⟩⟩

theorem safe_step_trans {x : Nat} {D1 D2 D : Nat → Prop} {s t u : model_based_opt}
    (h1 : safe_step x D1 s t) (h2 : safe_step x D2 t u) (hD1 : ∀ j, D1 j → D j)
    (hD2 : ∀ j, D2 j → j < s.m_rows.length → j ∉ s.m_retired_rows → D j) :
    safe_step x D s u := by
  obtain ⟨-, a2, a3, a4, a5, a6⟩ := h1
  obtain ⟨b1, b2, b3, b4, b5, b6⟩ := h2
  refine ⟨b1, le_trans a2 b2, le_trans a3 b3, fun j h => b4 j (a4 j h), ?_, ?_⟩
  · intro j h
    rcases b5 j h with h | h
    · rcases a5 j h with h | h
      · exact Or.inl h
      · exact Or.inr (b4 j h)
    · exact Or.inr h
  · intro j hj hl hr
    obtain ⟨e1, e2⟩ := a6 j (fun h => hj (hD1 j h)) hl hr
    obtain ⟨e3, e4⟩ := b6 j (fun h => hj (hD2 j h hl hr)) (lt_of_lt_of_le hl a2) e2
    exact ⟨e3.trans e1, e4⟩

theorem safe_step_mono {x : Nat} {D1 D : Nat → Prop} {s t : model_based_opt}
    (h1 : safe_step x D1 s t) (hD1 : ∀ j, D1 j → D j) : safe_step x D s t :=
  ⟨h1.1, h1.2.1, h1.2.2.1, h1.2.2.2.1, h1.2.2.2.2.1,
    fun j hj hl hr => h1.2.2.2.2.2 j (fun h => hj (hD1 j h)) hl hr⟩

theorem var_gone_step {x : Nat} {D : Nat → Prop} {s t : model_based_opt}
    (h : var_gone x s) (h1 : safe_step x D s t) : var_gone x t := by
  refine ⟨h1.1, fun j hj hal => ?_⟩
  rcases h1.2.2.2.2.1 j hal with h2 | h2
  · exact h1.2.2.2.1 j (h.2 j hj h2)
  · exact h2

theorem put_row_ge (s : model_based_opt) (j : Nat) (r : row) (h : s.m_rows.length ≤ j) :
    s.put_row j r = s := by
  unfold put_row
  rw [List.set_eq_of_length_le h]

theorem get_row_put_row (s : model_based_opt) (j i : Nat) (r : row) :
    (s.put_row j r).get_row i = if i = j ∧ j < s.m_rows.length then r else s.get_row i := by
  by_cases h : i = j
  · subst h
    by_cases hl : i < s.m_rows.length
    · rw [get_row_put_row_eq s i r hl, if_pos ⟨rfl, hl⟩]
    · rw [put_row_ge s i r (by omega), if_neg (fun h => hl h.2)]
  · rw [get_row_put_row_ne s i j r h, if_neg (fun hh => h hh.1)]

theorem put_row_length (s : model_based_opt) (j : Nat) (r : row) :
    (s.put_row j r).m_rows.length = s.m_rows.length := by
  unfold put_row
  simp

/-- Writing a row that is live only if the old row was, has no new term on `x` and is
not a definition of `x`. -/
theorem safe_step_put_row (x j : Nat) (s : model_based_opt) (r : row) (h : store_ok x s)
    (hal : r.m_alive = true → (s.get_row j).m_alive = true)
    (hv : var_free x (s.get_row j) → var_free x r)
    (hd : j ≠ 0 → r.m_alive = true → not_def x r) :
    safe_step x (fun i => i = j) s (s.put_row j r) := by
  obtain ⟨h1, h2, h3, h4, h5, h6⟩ := h
  have hrow := get_row_put_row s j
  refine ⟨⟨?_, h2, ?_, h4, h5, ?_⟩, ?_, le_refl _, ?_, ?_, ?_⟩
  · intro hh
    have := put_row_length s j r
    rw [hh] at this
    exact h1 (List.length_eq_zero.mp this.symm)
  · intro i hi
    rw [hrow]
    split
    · rename_i hc
      obtain ⟨rfl, -⟩ := hc
      refine ⟨?_, (h3 i hi).2⟩
      by_contra hne
      have := hal (by simpa using hne)
      rw [(h3 i hi).1] at this
      exact absurd this (by simp)
    · exact h3 i hi
  · intro i hi0 hia
    rw [hrow] at hia ⊢
    split
    · rename_i hc
      rw [if_pos hc] at hia
      exact hd (hc.1 ▸ hi0) hia
    · rename_i hc
      rw [if_neg hc] at hia
      exact h6 i hi0 hia
  · rw [put_row_length]
  · intro i hi
    rw [hrow]
    split
    · rename_i hc
      exact hv (hc.1 ▸ hi)
    · exact hi
  · intro i hi
    rw [hrow] at hi ⊢
    split
    · rename_i hc
      rw [if_pos hc] at hi
      exact Or.inl (hc.1 ▸ hal hi)
    · rename_i hc
      rw [if_neg hc] at hi
      exact Or.inl hi
  · intro i hi _ hr
    exact ⟨get_row_put_row_ne s i j r hi, hr⟩

theorem mem_row_ids_push (s : model_based_opt) (v k w i : Nat)
    (h : i ∈ (s.push_row_id v k).row_ids w) : i ∈ s.row_ids w ∨ i = k := by
  by_cases hvw : v = w
  · subst hvw
    by_cases hlt : v < s.m_var2row_ids.length
    · unfold push_row_id row_ids at h
      simp only at h
      rw [getD_set_eq _ _ _ _ hlt] at h
      rcases List.mem_append.mp h with h | h
      · exact Or.inl h
      · exact Or.inr (by simpa using h)
    · unfold push_row_id row_ids at h
      simp only at h
      rw [List.set_eq_of_length_le (by omega)] at h
      exact Or.inl h
  · rw [row_ids_push_ne s v k w hvw] at h
    exact Or.inl h

theorem safe_step_push (x v k : Nat) (D : Nat → Prop) (s : model_based_opt) (h : store_ok x s)
    (hk : k ≠ 0) : safe_step x D s (s.push_row_id v k) := by
  obtain ⟨h1, h2, h3, h4, h5, h6⟩ := h
  refine ⟨⟨h1, h2, h3, ?_, h5, h6⟩, le_refl _, le_refl _, fun _ h => h, fun _ h => Or.inl h,
    fun _ _ _ hr => ⟨rfl, hr⟩⟩
  intro w hw
  rcases mem_row_ids_push s v k w 0 hw with h | h
  · exact h4 w h
  · exact hk h.symm

theorem safe_step_foldl_push (x k : Nat) (D : Nat → Prop) (hk : k ≠ 0) (l : List Nat) :
    ∀ s : model_based_opt, store_ok x s →
      safe_step x D s (l.foldl (fun st v => st.push_row_id v k) s) := by
  induction l with
  | nil => intro s h; exact safe_step_refl x D s h
  | cons a l ih =>
    intro s h
    rw [List.foldl_cons]
    have h1 := safe_step_push x a k D s h hk
    exact safe_step_trans h1 (ih _ h1.1) (fun _ h => h) (fun _ h _ _ => h)

theorem safe_step_foldl_push_var (x k : Nat) (D : Nat → Prop) (hk : k ≠ 0) (l : List var) :
    ∀ s : model_based_opt, store_ok x s →
      safe_step x D s (l.foldl (fun st v => st.push_row_id v.m_id k) s) := by
  induction l with
  | nil => intro s h; exact safe_step_refl x D s h
  | cons a l ih =>
    intro s h
    rw [List.foldl_cons]
    have h1 := safe_step_push x a.m_id k D s h hk
    exact safe_step_trans h1 (ih _ h1.1) (fun _ h => h) (fun _ h _ _ => h)

theorem get_row_retire_row_ne (s : model_based_opt) (j i : Nat) (h : i ≠ j) :
    (s.retire_row j).get_row i = s.get_row i := (same_except_retire_row s j).1 i h

/-- Retiring a row other than row 0 that is not yet on the free list. -/
theorem safe_step_retire (x j : Nat) (s : model_based_opt) (h : store_ok x s)
    (hj : j ≠ 0) (hr : j ∉ s.m_retired_rows) :
    safe_step x (fun i => i = j) s (s.retire_row j) := by
  have hp := safe_step_put_row x j s { s.get_row j with m_alive := false } h
    (by simp) (fun hv => hv) (by simp)
  obtain ⟨⟨h1, h2, h3, h4, h5, h6⟩, g2, g3, g4, g5, g6⟩ := hp
  have hrow : ∀ i, (s.retire_row j).get_row i
      = (s.put_row j { s.get_row j with m_alive := false }).get_row i := fun i => rfl
  have hret : (s.retire_row j).m_retired_rows = s.m_retired_rows ++ [j] := rfl
  refine ⟨⟨h1, ?_, ?_, h4, h5, fun i => by rw [hrow]; exact h6 i⟩, g2, g3,
    fun i => by rw [hrow]; exact g4 i, fun i => by rw [hrow]; exact g5 i, ?_⟩
  · rw [hret]
    exact List.Nodup.append h.2.1 (List.nodup_singleton j) (by
      intro a ha hb
      rw [List.mem_singleton] at hb
      exact hr (hb ▸ ha))
  · intro i hi
    rw [hret] at hi
    rw [hrow]
    rcases List.mem_append.mp hi with hi | hi
    · exact h3 i hi
    · rw [List.mem_singleton] at hi
      subst hi
      refine ⟨?_, hj⟩
      rw [get_row_put_row]
      split
      · rfl
      · rename_i hc
        have hl : s.m_rows.length ≤ i := by
          by_contra hh
          exact hc ⟨rfl, by omega⟩
        rw [get_row_default s i hl]
  · intro i hi hl hri
    refine ⟨(g6 i hi hl hri).1, ?_⟩
    rw [hret]
    intro hm
    rcases List.mem_append.mp hm with hm | hm
    · exact hri hm
    · exact hi (List.mem_singleton.mp hm)

theorem safe_step_add_var (x : Nat) (D : Nat → Prop) (s : model_based_opt) (h : store_ok x s)
    (q : ℚ) (b : Bool) :
    safe_step x D s (s.add_var q b).1 ∧ (s.add_var q b).2 = s.m_var2value.length ∧
    x ≠ (s.add_var q b).2 := by
  obtain ⟨h1, h2, h3, h4, h5, h6⟩ := h
  refine ⟨⟨⟨h1, h2, h3, ?_, ?_, h6⟩, le_refl _, ?_, fun _ h => h, fun _ h => Or.inl h,
    fun _ _ _ hr => ⟨rfl, hr⟩⟩, rfl, ?_⟩
  · intro v hv
    rw [row_ids_add_var] at hv
    exact h4 v hv
  · unfold add_var
    simp only [List.length_append, List.length_singleton]
    omega
  · unfold add_var
    simp only [List.length_append, List.length_singleton]
    omega
  · unfold add_var
    simp only
    omega

theorem safe_step_of_rows (x : Nat) (D : Nat → Prop) (s t : model_based_opt)
    (h : store_ok x s) (h1 : t.m_rows = s.m_rows) (h2 : t.m_retired_rows = s.m_retired_rows)
    (h3 : t.m_var2row_ids = s.m_var2row_ids)
    (h4 : t.m_var2value.length = s.m_var2value.length) : safe_step x D s t := by
  have hr : ∀ j, t.get_row j = s.get_row j := fun j => get_row_congr s t h1 j
  have hi : ∀ v, t.row_ids v = s.row_ids v := fun v => by unfold row_ids; rw [h3]
  obtain ⟨a1, a2, a3, a4, a5, a6⟩ := h
  refine ⟨⟨by rw [h1]; exact a1, by rw [h2]; exact a2, ?_, ?_, by rw [h4]; exact a5, ?_⟩,
    by rw [h1], by rw [h4], fun j hj => by rw [hr]; exact hj,
    fun j hj => Or.inl (by rw [← hr]; exact hj), fun j _ _ hrr => ⟨hr j, by rw [h2]; exact hrr⟩⟩
  · intro j hj
    rw [h2] at hj
    rw [hr]
    exact a3 j hj
  · intro v
    rw [hi]
    exact a4 v
  · intro j hj hal
    rw [hr] at hal ⊢
    exact a6 j hj hal

theorem safe_step_set_value (x : Nat) (D : Nat → Prop) (s : model_based_opt)
    (h : store_ok x s) (v : Nat) (q : ℚ) : safe_step x D s (s.set_value v q) :=
  safe_step_of_rows x D s _ h rfl rfl rfl (by unfold set_value; simp)

theorem safe_step_eliminate (x : Nat) (D : Nat → Prop) (s : model_based_opt)
    (h : store_ok x s) (v : Nat) (d : def_) : safe_step x D s (s.eliminate v d) :=
  safe_step_of_rows x D s _ h rfl rfl rfl rfl

/-- Sequencing: a step lemma applied to the state reached so far. -/
theorem safe_step_then {x : Nat} {D D2 : Nat → Prop} {s t u : model_based_opt}
    (h1 : safe_step x D s t) (h2 : store_ok x t → safe_step x D2 t u)
    (hD2 : ∀ j, D2 j → j < s.m_rows.length → j ∉ s.m_retired_rows → D j) :
    safe_step x D s u :=
  safe_step_trans h1 (h2 h1.1) (fun _ h => h) hD2

/-- A loop each of whose iterations extends a step from the initial state. -/
theorem safe_step_foldl {α : Type} (x : Nat) (D : Nat → Prop)
    (f : model_based_opt → α → model_based_opt) (s : model_based_opt) (l : List α)
    (hf : ∀ st a, a ∈ l → safe_step x D s st → safe_step x D s (f st a)) :
    ∀ st, safe_step x D s st → safe_step x D s (l.foldl f st) := by
  induction l with
  | nil => intro st h; exact h
  | cons a l ih =>
    intro st h
    rw [List.foldl_cons]
    exact ih (fun st2 b hb h2 => hf st2 b (List.mem_cons_of_mem _ hb) h2) _
      (hf st a (List.mem_cons_self _ _) h)

/-- Sequencing, with the step reached so far available to the next step lemma. -/
theorem safe_step_seq {x : Nat} {D D2 : Nat → Prop} {s t u : model_based_opt}
    (h1 : safe_step x D s t) (h2 : safe_step x D s t → safe_step x D2 t u)
    (hD2 : ∀ j, D2 j → j < s.m_rows.length → j ∉ s.m_retired_rows → D j) :
    safe_step x D s u :=
  safe_step_trans h1 (h2 h1) (fun _ h => h) hD2

/-- Sequencing of a step with rows `D1` and a step with rows `D2`. -/
theorem safe_step_seq2 {x : Nat} {D1 D2 D : Nat → Prop} {s t u : model_based_opt}
    (h1 : safe_step x D1 s t) (h2 : safe_step x D1 s t → safe_step x D2 t u)
    (hD1 : ∀ j, D1 j → D j)
    (hD2 : ∀ j, D2 j → j < s.m_rows.length → j ∉ s.m_retired_rows → D j) :
    safe_step x D s u :=
  safe_step_trans h1 (h2 h1) hD1 hD2

theorem var_free_of_ids (x : Nat) (r r2 : row)
    (h : ∀ t ∈ r2.m_vars, ∃ a ∈ r.m_vars, a.m_id = t.m_id) (hv : var_free x r) :
    var_free x r2 := by
  intro t ht
  obtain ⟨a, ha, e⟩ := h t ht
  rw [← e]
  exact hv a ha

theorem safe_step_mul (x j : Nat) (s : model_based_opt) (c : ℚ) (h : store_ok x s) :
    safe_step x (fun i => i = j) s (s.mul j c) := by
  unfold model_based_opt.mul
  split
  · exact safe_step_refl x _ s h
  · refine safe_step_put_row x j s _ h (fun ha => ha) ?_ ?_
    · intro hv t ht
      simp only [List.mem_map] at ht
      obtain ⟨a, ha, rfl⟩ := ht
      exact hv a ha
    · intro hj ha
      exact h.2.2.2.2.2 j hj ha

theorem safe_step_add (x j : Nat) (s : model_based_opt) (c : ℚ) (h : store_ok x s) :
    safe_step x (fun i => i = j) s (s.add j c) := by
  unfold model_based_opt.add
  exact safe_step_put_row x j s _ h (fun ha => ha) (fun hv => hv)
    (fun hj ha => h.2.2.2.2.2 j hj ha)

theorem mul_add_merge_ids (c : ℚ) (fuel : Nat) :
    ∀ r1 r2 : List var, ∀ t ∈ (mul_add_merge c fuel r1 r2).1,
      (∃ a ∈ r1, a.m_id = t.m_id) ∨ (∃ a ∈ r2, a.m_id = t.m_id) := by
  induction fuel with
  | zero =>
    intro r1 r2 t ht
    simp [mul_add_merge] at ht
  | succ n ih =>
    intro r1 r2 t ht
    cases r1 with
    | nil =>
      cases r2 with
      | nil => simp [mul_add_merge] at ht
      | cons b r2 =>
        simp only [mul_add_merge, List.mem_map] at ht
        obtain ⟨a, ha, rfl⟩ := ht
        exact Or.inr ⟨a, ha, rfl⟩
    | cons a r1 =>
      cases r2 with
      | nil =>
        simp only [mul_add_merge] at ht
        exact Or.inl ⟨t, ht, rfl⟩
      | cons b r2 =>
        simp only [mul_add_merge] at ht
        split at ht
        · split at ht
          · rcases ih r1 r2 t ht with ⟨u, hu, e⟩ | ⟨u, hu, e⟩
            · exact Or.inl ⟨u, List.mem_cons_of_mem _ hu, e⟩
            · exact Or.inr ⟨u, List.mem_cons_of_mem _ hu, e⟩
          · rcases List.mem_cons.mp ht with rfl | ht
            · exact Or.inl ⟨a, List.mem_cons_self _ _, rfl⟩
            · rcases ih r1 r2 t ht with ⟨u, hu, e⟩ | ⟨u, hu, e⟩
              · exact Or.inl ⟨u, List.mem_cons_of_mem _ hu, e⟩
              · exact Or.inr ⟨u, List.mem_cons_of_mem _ hu, e⟩
        · split at ht
          · rcases List.mem_cons.mp ht with rfl | ht
            · exact Or.inl ⟨t, List.mem_cons_self _ _, rfl⟩
            · rcases ih r1 (b :: r2) t ht with ⟨u, hu, e⟩ | ⟨u, hu, e⟩
              · exact Or.inl ⟨u, List.mem_cons_of_mem _ hu, e⟩
              · exact Or.inr ⟨u, hu, e⟩
          · rcases List.mem_cons.mp ht with rfl | ht
            · exact Or.inr ⟨b, List.mem_cons_self _ _, rfl⟩
            · rcases ih (a :: r1) r2 t ht with ⟨u, hu, e⟩ | ⟨u, hu, e⟩
              · exact Or.inl ⟨u, hu, e⟩
              · exact Or.inr ⟨u, List.mem_cons_of_mem _ hu, e⟩

/-- The update `mul_add` into row `j` from a source row without `x`. -/
theorem safe_step_mul_add (x j k : Nat) (s : model_based_opt) (b : Bool) (c : ℚ)
    (h : store_ok x s) (hk : var_free x (s.get_row k)) :
    safe_step x (fun i => i = j) s (s.mul_add b j c k) := by
  unfold model_based_opt.mul_add
  split
  · exact safe_step_refl x _ s h
  · dsimp only
    generalize hs1 : (if j ≠ m_objective_id then
          (mul_add_merge c ((s.get_row j).m_vars.length + (s.get_row k).m_vars.length + 1)
            (s.get_row j).m_vars (s.get_row k).m_vars).2.foldl
              (fun st v => st.push_row_id v j) s
        else s) = s1
    have hpush : safe_step x (fun i => i = j) s s1 := by
      rw [← hs1]
      split
      · rename_i hj
        exact safe_step_foldl_push x j _ hj _ s h
      · exact safe_step_refl x _ s h
    have hrow : ∀ i, s1.get_row i = s.get_row i := by
      intro i
      rw [← hs1]
      split
      · exact get_row_congr _ _ (foldl_push_fields j _ s).1 i
      · rfl
    refine safe_step_trans hpush (safe_step_put_row x j s1 _ hpush.1 ?_ ?_ ?_)
      (fun _ h => h) (fun _ h _ _ => h)
    · intro ha
      rw [hrow]
      exact ha
    · intro hv
      rw [hrow] at hv
      intro t ht
      rcases mul_add_merge_ids c _ _ _ t ht with ⟨a, ha, e⟩ | ⟨a, ha, e⟩
      · rw [← e]; exact hv a ha
      · rw [← e]; exact hk a ha
    · intro hj ha
      have hd := h.2.2.2.2.2 j hj ha
      intro hty
      simp only at hty ⊢
      apply hd
      split_ifs at hty with h1 h2
      · simp at hty
      · simp at hty
      · exact hty

theorem safe_step_retire_alive (x j : Nat) (s : model_based_opt) (h : store_ok x s)
    (hj : j ≠ 0) (ha : (s.get_row j).m_alive = true) :
    safe_step x (fun i => i = j) s (s.retire_row j) :=
  safe_step_retire x j s h hj (fun hr => by
    have := (h.2.2.1 j hr).1
    rw [ha] at this
    exact absurd this (by simp))

theorem safe_step_normalize (x j : Nat) (s : model_based_opt) (h : store_ok x s)
    (hj : j ≠ 0) : safe_step x (fun i => i = j) s (s.normalize j) := by
  unfold model_based_opt.normalize
  simp only
  split_ifs with h1 h2 h3 h4 h5 h6
  all_goals first
    | exact safe_step_refl x _ s h
    | exact safe_step_mul x j s _ h
    | exact safe_step_retire_alive x j s h hj (by simpa using h1)

theorem replace_var1_row_eq (s : model_based_opt) (j x : Nat) (C : ℚ) (i : Nat) :
    ((s.replace_var1 j x C).get_row i).m_vars =
      if i = j then (s.get_row i).m_vars.filter (fun v => v.m_id ≠ x)
      else (s.get_row i).m_vars := by
  unfold replace_var1
  simp only
  rw [get_row_put_row]
  by_cases hij : i = j
  · subst hij
    by_cases hl : i < s.m_rows.length
    · simp [hl]
    · simp only [hl, and_false, if_false, if_true]
      rw [get_row_default s i (by omega)]
      rfl
  · simp [hij]

/-- After `replace_var(j, x, C)` row `j` has no term on `x`. -/
theorem replace_var1_var_free (s : model_based_opt) (j x : Nat) (C : ℚ) :
    var_free x ((s.replace_var1 j x C).get_row j) := by
  intro t ht
  rw [replace_var1_row_eq, if_pos rfl] at ht
  simpa using (List.mem_filter.mp ht).2

theorem safe_step_replace_var1 (x j : Nat) (s : model_based_opt) (p : Nat) (C : ℚ)
    (h : store_ok x s) : safe_step x (fun i => i = j) s (s.replace_var1 j p C) := by
  unfold replace_var1
  refine safe_step_put_row x j s _ h (fun ha => ha) ?_ (fun hj ha => h.2.2.2.2.2 j hj ha)
  intro hv t ht
  exact hv t (List.mem_filter.mp ht).1

theorem safe_step_replace_var2 (x j : Nat) (s : model_based_opt) (p : Nat) (A : ℚ) (y : Nat)
    (B : ℚ) (h : store_ok x s) (hj : j ≠ 0) (hy : y ≠ x) :
    safe_step x (fun i => i = j) s (s.replace_var2 j p A y B) := by
  unfold replace_var2
  dsimp only
  split
  · exact safe_step_refl x _ s h
  · split
    · exact safe_step_refl x _ s h
    · refine safe_step_then ?_ (fun ht => safe_step_push x y j (fun i => i = j) _ ht hj)
        (fun _ h _ _ => h)
      refine safe_step_then (safe_step_replace_var1 x j s p B h)
        (fun ht => safe_step_put_row x j _ _ ht (fun ha => ha) ?_
          (fun hj ha => ht.2.2.2.2.2 j hj ha)) (fun _ h _ _ => h)
      intro hv t ht
      simp only at ht
      have key : t ∈ ((s.replace_var1 j p B).get_row j).m_vars ++
          [⟨y, s.get_coefficient j p * A⟩] := by
        split at ht
        · exact (mem_sort_vars _ _).mp ht
        · exact ht
      rcases List.mem_append.mp key with h2 | h2
      · exact hv t h2
      · rw [List.mem_singleton] at h2
        subst h2
        exact hy

/-- When `replace_var(j, x, A, y, B)` rewrites the row, the row has no term on `x`
afterwards. -/
theorem replace_var2_var_free (s : model_based_opt) (j x y : Nat) (A B : ℚ)
    (hc : s.get_coefficient j x ≠ 0) (ha : (s.get_row j).m_alive = true) (hy : y ≠ x) :
    var_free x ((s.replace_var2 j x A y B).get_row j) := by
  have hl := alive_lt_length s j ha
  have hl1 : j < (s.replace_var1 j x B).m_rows.length := by
    unfold replace_var1; rw [put_row_length]; exact hl
  unfold replace_var2
  simp only [hc, ha, if_false, Bool.not_true, Bool.false_eq_true]
  rw [get_row_push_row_id, get_row_put_row_eq _ _ _ hl1]
  intro t ht
  simp only at ht
  have key : t ∈ ((s.replace_var1 j x B).get_row j).m_vars ++
      [⟨y, s.get_coefficient j x * A⟩] := by
    split at ht
    · exact (mem_sort_vars _ _).mp ht
    · exact ht
  rcases List.mem_append.mp key with h2 | h2
  · exact replace_var1_var_free s j x B t h2
  · rw [List.mem_singleton] at h2
    subst h2
    exact hy

theorem safe_step_put_vars (x j : Nat) (s : model_based_opt) (p : Nat) (C : ℚ)
    (vs : List var) (val : ℚ) (h : store_ok x s)
    (hvs : var_free x ((s.replace_var1 j p C).get_row j) → ∀ t ∈ vs, t.m_id ≠ x) :
    safe_step x (fun i => i = j) s
      ((s.replace_var1 j p C).put_row j
        { (s.replace_var1 j p C).get_row j with m_vars := vs, m_value := val }) :=
  safe_step_then (safe_step_replace_var1 x j s p C h)
    (fun ht => safe_step_put_row x j _ _ ht (fun ha => ha) hvs
      (fun hj ha => ht.2.2.2.2.2 j hj ha)) (fun _ h _ _ => h)

theorem safe_step_replace_var3 (x j : Nat) (s : model_based_opt) (p : Nat) (A : ℚ) (y : Nat)
    (B : ℚ) (z : Nat) (h : store_ok x s) (hj : j ≠ 0) (hy : y ≠ x) (hz : z ≠ x) :
    safe_step x (fun i => i = j) s (s.replace_var3 j p A y B z) := by
  unfold replace_var3
  dsimp only
  split
  · exact safe_step_refl x _ s h
  · by_cases hA : A = 0 <;> by_cases hB : B = 0 <;>
      simp only [hA, hB, ne_eq, not_true_eq_false, not_false_eq_true, if_true, if_false]
    · refine safe_step_put_vars x j s p 0 _ _ h ?_
      intro hv t ht
      rw [mem_sort_vars] at ht
      exact hv t ht
    · refine safe_step_then ?_ (fun ht => safe_step_push x z j (fun i => i = j) _ ht hj)
        (fun _ h _ _ => h)
      refine safe_step_put_vars x j s p 0 _ _ h ?_
      intro hv t ht
      rw [mem_sort_vars] at ht
      rcases List.mem_append.mp ht with h3 | h3
      · exact hv t h3
      · rw [List.mem_singleton] at h3; subst h3; exact hz
    · refine safe_step_then ?_ (fun ht => safe_step_push x y j (fun i => i = j) _ ht hj)
        (fun _ h _ _ => h)
      refine safe_step_put_vars x j s p 0 _ _ h ?_
      intro hv t ht
      rw [mem_sort_vars] at ht
      rcases List.mem_append.mp ht with h3 | h3
      · exact hv t h3
      · rw [List.mem_singleton] at h3; subst h3; exact hy
    · refine safe_step_then ?_ (fun ht => safe_step_push x z j (fun i => i = j) _ ht hj)
        (fun _ h _ _ => h)
      refine safe_step_then ?_ (fun ht => safe_step_push x y j (fun i => i = j) _ ht hj)
        (fun _ h _ _ => h)
      refine safe_step_put_vars x j s p 0 _ _ h ?_
      intro hv t ht
      rw [mem_sort_vars] at ht
      rcases List.mem_append.mp ht with h3 | h3
      · rcases List.mem_append.mp h3 with h4 | h4
        · exact hv t h4
        · rw [List.mem_singleton] at h4; subst h4; exact hy
      · rw [List.mem_singleton] at h3; subst h3; exact hz

/-- When `replace_var(j, x, A, y, B, z)` rewrites the row, the row has no term on `x`
afterwards. -/
theorem replace_var3_var_free (s : model_based_opt) (j x y z : Nat) (A B : ℚ)
    (hc : s.get_coefficient j x ≠ 0) (ha : (s.get_row j).m_alive = true) (hy : y ≠ x)
    (hz : z ≠ x) : var_free x ((s.replace_var3 j x A y B z).get_row j) := by
  have hl := alive_lt_length s j ha
  have hl1 : j < (s.replace_var1 j x 0).m_rows.length := by
    unfold replace_var1; rw [put_row_length]; exact hl
  have h1 := replace_var1_var_free s j x 0
  unfold replace_var3
  simp only [hc, ha, false_or, Bool.true_eq_false, if_false]
  by_cases hA : A = 0 <;> by_cases hB : B = 0 <;>
    simp only [hA, hB, ne_eq, not_true_eq_false, not_false_eq_true, if_true, if_false,
      get_row_push_row_id] <;>
    rw [get_row_put_row_eq _ _ _ hl1] <;>
    intro t ht <;>
    simp only [mem_sort_vars, List.mem_append, List.mem_singleton] at ht
  · exact h1 t ht
  · rcases ht with ht | rfl
    · exact h1 t ht
    · exact hz
  · rcases ht with ht | rfl
    · exact h1 t ht
    · exact hy
  · rcases ht with (ht | rfl) | rfl
    · exact h1 t ht
    · exact hy
    · exact hz

theorem new_row_cases (s : model_based_opt) :
    (s.m_retired_rows = [] ∧ s.new_row = ({ s with m_rows := s.m_rows ++ [{}] }, s.m_rows.length))
    ∨ (∃ k, s.m_retired_rows = s.m_retired_rows.dropLast ++ [k] ∧
        s.new_row = (({ s with m_retired_rows := s.m_retired_rows.dropLast } : model_based_opt).put_row k
          { (s.get_row k).reset with m_alive := true }, k)) := by
  unfold new_row
  cases hl : s.m_retired_rows.getLast? with
  | none =>
    left
    exact ⟨List.getLast?_eq_none_iff.mp hl, rfl⟩
  | some k =>
    right
    exact ⟨k, (List.dropLast_append_getLast? k hl).symm, rfl⟩

/-- Taking a fresh or recycled row and writing to it a row without `x` that is not a
definition of `x`. -/
theorem safe_step_new_row_put (x : Nat) (s : model_based_opt) (r : row) (h : store_ok x s)
    (hr : var_free x r) (hd : r.m_alive = true → not_def x r) :
    safe_step x (fun _ => False) s (s.new_row.1.put_row s.new_row.2 r) ∧
    s.new_row.2 ≠ 0 ∧
    (s.new_row.2 < s.m_rows.length → s.new_row.2 ∈ s.m_retired_rows) := by
  obtain ⟨h1, h2, h3, h4, h5, h6⟩ := h
  have hlen : 0 < s.m_rows.length := List.length_pos.mpr h1
  rcases new_row_cases s with ⟨he, hn⟩ | ⟨k, he, hn⟩
  · rw [hn]
    dsimp only
    have hrow : ∀ i, (({ s with m_rows := s.m_rows ++ [{}] } : model_based_opt).put_row
        s.m_rows.length r).get_row i = if i = s.m_rows.length then r else s.get_row i := by
      intro i
      rw [get_row_put_row]
      by_cases hi : i = s.m_rows.length
      · simp [hi]
      · simp only [hi, false_and, if_false]
        by_cases hl : i < s.m_rows.length
        · exact get_row_append s {} i hl
        · rw [get_row_default s i (by omega)]
          unfold get_row
          exact List.getD_eq_default _ _ (by simp; omega)
    refine ⟨⟨⟨?_, h2, ?_, h4, h5, ?_⟩, ?_, le_refl _, ?_, ?_, ?_⟩, by omega, fun hh => by omega⟩
    · intro hh
      have := congrArg List.length hh
      rw [put_row_length] at this
      simp at this
    · intro i hi
      change i ∈ s.m_retired_rows at hi
      rw [he] at hi
      exact absurd hi (List.not_mem_nil i)
    · intro i hi hal
      rw [hrow] at hal ⊢
      split
      · rename_i hc
        rw [if_pos hc] at hal
        exact hd hal
      · rename_i hc
        rw [if_neg hc] at hal
        exact h6 i hi hal
    · rw [put_row_length]
      simp
    · intro i hi
      rw [hrow]
      split
      · exact hr
      · exact hi
    · intro i hi
      rw [hrow] at hi ⊢
      split
      · exact Or.inr hr
      · rename_i hc
        rw [if_neg hc] at hi
        exact Or.inl hi
    · intro i _ hl hri
      refine ⟨?_, hri⟩
      rw [hrow, if_neg (by omega)]
  · rw [hn]
    dsimp only
    have hk : k ∈ s.m_retired_rows := by rw [he]; simp
    have hnd : k ∉ s.m_retired_rows.dropLast := by
      have := h2
      rw [he] at this
      intro hm
      have h7 := (List.nodup_append.mp this).2.2
      exact h7 hm (List.mem_singleton_self k) 
    have hrow : ∀ i, i ≠ k → ((({ s with m_retired_rows := s.m_retired_rows.dropLast } :
        model_based_opt).put_row k { (s.get_row k).reset with m_alive := true }).put_row k
          r).get_row i = s.get_row i := by
      intro i hi
      rw [get_row_put_row_ne _ _ _ _ hi, get_row_put_row_ne _ _ _ _ hi]
      rfl
    have hrowk : ((({ s with m_retired_rows := s.m_retired_rows.dropLast } :
        model_based_opt).put_row k { (s.get_row k).reset with m_alive := true }).put_row k
          r).get_row k = if k < s.m_rows.length then r else s.get_row k := by
      rw [get_row_put_row]
      simp only [put_row_length, true_and]
      split
      · rfl
      · rw [get_row_put_row]
        rename_i hc
        rw [if_neg (fun hh => hc hh.2)]
        rfl
    have hsub : ∀ i, i ∈ s.m_retired_rows.dropLast → i ∈ s.m_retired_rows :=
      fun i hi => List.mem_of_mem_dropLast hi
    refine ⟨⟨⟨?_, ?_, ?_, h4, h5, ?_⟩, ?_, le_refl _, ?_, ?_, ?_⟩, (h3 k hk).2, fun _ => hk⟩
    · intro hh
      have := congrArg List.length hh
      rw [put_row_length, put_row_length] at this
      simp only [List.length_nil] at this
      omega
    · exact List.Nodup.sublist (List.dropLast_sublist _) h2
    · intro i hi
      have hik : i ≠ k := fun hh => hnd (hh ▸ hi)
      rw [hrow i hik]
      exact h3 i (hsub i hi)
    · intro i hi hal
      by_cases hik : i = k
      · subst hik
        rw [hrowk] at hal ⊢
        split
        · rename_i hc
          rw [if_pos hc] at hal
          exact hd hal
        · rename_i hc
          rw [if_neg hc] at hal
          exact h6 i hi hal
      · rw [hrow i hik] at hal ⊢
        exact h6 i hi hal
    · rw [put_row_length, put_row_length]
    · intro i hi
      by_cases hik : i = k
      · subst hik
        rw [hrowk]
        split
        · exact hr
        · exact hi
      · rw [hrow i hik]
        exact hi
    · intro i hi
      by_cases hik : i = k
      · subst hik
        rw [hrowk] at hi ⊢
        split
        · exact Or.inr hr
        · rename_i hc
          rw [if_neg hc] at hi
          exact Or.inl hi
      · rw [hrow i hik] at hi ⊢
        exact Or.inl hi
    · intro i _ _ hri
      have hik : i ≠ k := fun hh => hri (hh ▸ hk)
      exact ⟨hrow i hik, fun hm => hri (hsub i hm)⟩

theorem put_row_put_row (s : model_based_opt) (j : Nat) (r r2 : row) :
    (s.put_row j r).put_row j r2 = s.put_row j r2 := by
  unfold put_row
  simp only [List.set_set]

theorem set_row_put_row (s : model_based_opt) (k : Nat) (coeffs : List var) (c m : ℚ)
    (rel : ineq_type) (r : row) :
    (s.set_row k coeffs c m rel).put_row k r = s.put_row k r := by
  unfold set_row
  exact put_row_put_row _ _ _ _

theorem new_row_vars (s : model_based_opt) :
    (s.new_row.1.get_row s.new_row.2).m_vars = [] := by
  rcases new_row_cases s with ⟨-, hn⟩ | ⟨k, -, hn⟩
  · rw [hn]
    unfold get_row
    simp
  · rw [hn]
    dsimp only
    rw [get_row_put_row]
    split
    · rfl
    · rename_i hc
      simp only [put_row_length, true_and] at hc
      have hl : s.m_rows.length ≤ k := by
        by_contra hh
        exact hc (by
          have : k < s.m_rows.length := by omega
          exact this)
      exact congrArg row.m_vars (get_row_default s k hl)

theorem set_row_row (s : model_based_opt) (k : Nat) (coeffs : List var) (c m : ℚ)
    (rel : ineq_type) (hv : (s.get_row k).m_vars = []) :
    (∀ t ∈ ((s.set_row k coeffs c m rel).get_row k).m_vars, t ∈ coeffs) ∧
    (((s.set_row k coeffs c m rel).get_row k).m_alive = true →
      ((s.set_row k coeffs c m rel).get_row k).m_type = rel ∨
      ((s.set_row k coeffs c m rel).get_row k).m_type = ineq_type.t_le) := by
  unfold set_row
  simp only
  rw [get_row_put_row]
  split
  · refine ⟨?_, ?_⟩
    · intro t ht
      simp only [hv, List.nil_append] at ht
      exact (mem_sort_vars _ _).mp ht
    · intro _
      simp only
      split
      · exact Or.inr rfl
      · exact Or.inl rfl
  · rename_i hc
    have hl : s.m_rows.length ≤ k := by
      by_contra hh
      exact hc ⟨rfl, by omega⟩
    rw [get_row_default s k hl]
    exact ⟨fun t ht => absurd ht (List.not_mem_nil t), fun ha => by simp at ha⟩

/-- Adding a row whose terms are not on `x` and which is not a definition of `x`. -/
theorem safe_step_add_constraint5 (x : Nat) (s : model_based_opt) (coeffs : List var)
    (c m : ℚ) (rel : ineq_type) (id : Nat) (h : store_ok x s)
    (hc : ∀ t ∈ coeffs, t.m_id ≠ x)
    (hid : rel = ineq_type.t_div ∨ rel = ineq_type.t_mod → id ≠ x) :
    safe_step x (fun _ => False) s (s.add_constraint5 coeffs c m rel id).1 := by
  unfold add_constraint5
  dsimp only
  split
  · exact safe_step_refl x _ s h
  · dsimp only
    rw [set_row_put_row]
    obtain ⟨r1, r2⟩ := set_row_row s.new_row.1 s.new_row.2 coeffs c m rel (new_row_vars s)
    obtain ⟨n1, n2, n3⟩ := safe_step_new_row_put x s
      { (s.new_row.1.set_row s.new_row.2 coeffs c m rel).get_row s.new_row.2 with m_id := id } h
      (fun t ht => hc t (r1 t ht))
      (by
        intro ha hty
        simp only at ha hty ⊢
        rcases r2 ha with e | e
        · rw [e] at hty
          exact hid hty
        · rw [e] at hty
          simp at hty)
    refine safe_step_then ?_ (fun ht => safe_step_normalize x s.new_row.2 _ ht n2)
      (fun j hj hl hr => hr (hj ▸ n3 (hj ▸ hl)))
    exact safe_step_then n1 (fun ht => safe_step_foldl_push_var x s.new_row.2 _ n2 coeffs _ ht)
      (fun _ h _ _ => h)

theorem safe_step_add_constraint (x : Nat) (s : model_based_opt) (coeffs : List var)
    (c : ℚ) (rel : ineq_type) (h : store_ok x s) (hc : ∀ t ∈ coeffs, t.m_id ≠ x)
    (hrel : rel ≠ ineq_type.t_div ∧ rel ≠ ineq_type.t_mod) :
    safe_step x (fun _ => False) s (s.add_constraint coeffs c rel) :=
  safe_step_add_constraint5 x s coeffs c 0 rel 0 h hc (fun hh => by
    rcases hh with e | e
    · exact absurd e hrel.1
    · exact absurd e hrel.2)

theorem safe_step_add_lower_bound (x : Nat) (s : model_based_opt) (z : Nat) (lo : ℚ)
    (h : store_ok x s) (hz : z ≠ x) :
    safe_step x (fun _ => False) s (s.add_lower_bound z lo) :=
  safe_step_add_constraint x s _ _ _ h (fun t ht => by
    rw [List.mem_singleton] at ht; subst ht; exact hz) (by decide)

theorem safe_step_add_upper_bound (x : Nat) (s : model_based_opt) (z : Nat) (hi : ℚ)
    (h : store_ok x s) (hz : z ≠ x) :
    safe_step x (fun _ => False) s (s.add_upper_bound z hi) :=
  safe_step_add_constraint x s _ _ _ h (fun t ht => by
    rw [List.mem_singleton] at ht; subst ht; exact hz) (by decide)

theorem safe_step_add_divides (x : Nat) (s : model_based_opt) (coeffs : List var) (c m : ℚ)
    (h : store_ok x s) (hc : ∀ t ∈ coeffs, t.m_id ≠ x) :
    safe_step x (fun _ => False) s (s.add_divides coeffs c m) := by
  unfold add_divides
  dsimp only
  split
  · exact safe_step_refl x _ s h
  · exact safe_step_add_constraint5 x s coeffs c m _ 0 h hc (by simp)

theorem safe_step_add_mod (x : Nat) (s : model_based_opt) (coeffs : List var) (c m : ℚ)
    (h : store_ok x s) (hc : ∀ t ∈ coeffs, t.m_id ≠ x) :
    safe_step x (fun _ => False) s (s.add_mod coeffs c m).1 ∧ (s.add_mod coeffs c m).2 ≠ x := by
  unfold add_mod
  dsimp only
  obtain ⟨a1, a2, a3⟩ := safe_step_add_var x (fun _ => False) s h
    (mod (coeffs.foldl (fun val v => val + v.m_coeff * s.eval v.m_id) c) m) true
  exact ⟨safe_step_then a1 (fun ht => safe_step_add_constraint5 x _ coeffs c m _ _ ht hc
    (fun _ => Ne.symm a3)) (fun _ h _ _ => h), Ne.symm a3⟩

theorem safe_step_add_div (x : Nat) (s : model_based_opt) (coeffs : List var) (c m : ℚ)
    (h : store_ok x s) (hc : ∀ t ∈ coeffs, t.m_id ≠ x) :
    safe_step x (fun _ => False) s (s.add_div coeffs c m).1 ∧ (s.add_div coeffs c m).2 ≠ x := by
  unfold model_based_opt.add_div
  dsimp only
  obtain ⟨a1, a2, a3⟩ := safe_step_add_var x (fun _ => False) s h
    (div (coeffs.foldl (fun val v => val + v.m_coeff * s.eval v.m_id) c) m) true
  exact ⟨safe_step_then a1 (fun ht => safe_step_add_constraint5 x _ coeffs c m _ _ ht hc
    (fun _ => Ne.symm a3)) (fun _ h _ _ => h), Ne.symm a3⟩

/-- Copying a live row without `x` that is not a div- or mod-definition row. -/
theorem safe_step_copy_row (x : Nat) (s : model_based_opt) (src : Nat) (excl : Option Nat)
    (h : store_ok x s) (ha : (s.get_row src).m_alive = true) (hv : var_free x (s.get_row src))
    (hty : (s.get_row src).m_type ≠ ineq_type.t_div ∧ (s.get_row src).m_type ≠ ineq_type.t_mod) :
    safe_step x (fun _ => False) s (s.copy_row src excl).1 ∧ (s.copy_row src excl).2 ≠ 0 ∧
    ((s.copy_row src excl).2 < s.m_rows.length → (s.copy_row src excl).2 ∈ s.m_retired_rows) := by
  have hl := alive_lt_length s src ha
  have hr : src ∉ s.m_retired_rows := fun hh => by
    have := (h.2.2.1 src hh).1
    rw [ha] at this
    exact absurd this (by simp)
  obtain ⟨e1, -⟩ := new_row_row_ne s src hl hr
  unfold copy_row
  dsimp only
  rw [e1]
  obtain ⟨r1, r2⟩ := set_row_row s.new_row.1 s.new_row.2 (s.get_row src).m_vars
    (s.get_row src).m_coeff (s.get_row src).m_mod (s.get_row src).m_type (new_row_vars s)
  have hput : s.new_row.1.set_row s.new_row.2 (s.get_row src).m_vars (s.get_row src).m_coeff
      (s.get_row src).m_mod (s.get_row src).m_type
      = s.new_row.1.put_row s.new_row.2
        ((s.new_row.1.set_row s.new_row.2 (s.get_row src).m_vars (s.get_row src).m_coeff
          (s.get_row src).m_mod (s.get_row src).m_type).get_row s.new_row.2) := by
    by_cases hk : s.new_row.2 < s.new_row.1.m_rows.length
    · unfold set_row
      rw [get_row_put_row_eq _ _ _ hk]
    · unfold set_row
      rw [put_row_ge _ _ _ (by omega), put_row_ge _ _ _ (by omega)]
  obtain ⟨n1, n2, n3⟩ := safe_step_new_row_put x s
    ((s.new_row.1.set_row s.new_row.2 (s.get_row src).m_vars (s.get_row src).m_coeff
          (s.get_row src).m_mod (s.get_row src).m_type).get_row s.new_row.2) h
    (fun t ht => hv t (r1 t ht))
    (by
      intro hal hh
      rcases r2 hal with e | e
      · rw [e] at hh
        rcases hh with e2 | e2
        · exact absurd e2 hty.1
        · exact absurd e2 hty.2
      · rw [e] at hh
        simp at hh)
  rw [← hput] at n1
  refine ⟨?_, n2, n3⟩
  refine safe_step_foldl x (fun _ => False) _ s _ ?_ _ n1
  intro st a _ hst
  split
  · exact safe_step_then hst (fun ht => safe_step_push x a.m_id s.new_row.2 _ _ ht n2)
      (fun _ h _ _ => h)
  · exact hst

theorem var_free_mk_coeffs (x p : Nat) (r : row) (h : var_free x r) :
    ∀ t ∈ mk_coeffs_without r.m_vars p, t.m_id ≠ x := by
  intro t ht
  unfold mk_coeffs_without at ht
  exact h t (List.mem_filter.mp ht).1

/-- The integer resolution `mul_add(p, ...)` of a destination row without `x` against a
source row without `x`. -/
theorem safe_step_mul_add_int (x p : Nat) (s : model_based_opt) (src_c : ℚ) (row_src : Nat)
    (dst_c : ℚ) (row_dst : Nat) (h : store_ok x s) (hs : var_free x (s.get_row row_src))
    (hd : var_free x (s.get_row row_dst)) :
    safe_step x (fun i => i = row_dst) s (s.mul_add_int p src_c row_src dst_c row_dst) := by
  unfold mul_add_int
  simp only [Bool.false_and, Bool.or_self, Bool.false_eq_true, if_false]
  split
  · refine safe_step_seq ?_
      (fun ht => safe_step_mul_add x row_dst row_src _ false _ ht.1 (ht.2.2.2.1 row_src hs))
      (fun _ h _ _ => h)
    exact safe_step_then (safe_step_mul x row_dst s _ h)
      (fun ht => safe_step_add x row_dst _ _ ht) (fun _ h _ _ => h)
  · split
    · refine safe_step_seq ?_
        (fun ht => safe_step_mul_add x row_dst row_src _ false _ ht.1 (ht.2.2.2.1 row_src hs))
        (fun _ h _ _ => h)
      refine safe_step_then ?_ (fun ht => safe_step_mul x row_dst _ _ ht) (fun _ h _ _ => h)
      refine safe_step_then ?_ (fun ht => safe_step_add x row_dst _ _ ht) (fun _ h _ _ => h)
      exact safe_step_mono (safe_step_add_divides x s _ _ _ h (var_free_mk_coeffs x p _ hd))
        (fun _ hf => absurd hf id)
    · refine safe_step_seq ?_
        (fun ht => safe_step_mul_add x row_dst row_src _ false _ ht.1 (ht.2.2.2.1 row_src hs))
        (fun _ h _ _ => h)
      refine safe_step_then ?_ (fun ht => safe_step_add x row_dst _ _ ht) (fun _ h _ _ => h)
      refine safe_step_then ?_ (fun ht => safe_step_mul x row_dst _ _ ht) (fun _ h _ _ => h)
      exact safe_step_mono (safe_step_add_divides x s _ _ _ h (var_free_mk_coeffs x p _ hs))
        (fun _ hf => absurd hf id)

/-- The call `resolve` of a destination row other than row 0 against a source row without `x`, in
a store whose live rows are without `x`. -/
theorem safe_step_resolve (x p : Nat) (s : model_based_opt) (row_src : Nat) (a1 : ℚ)
    (row_dst : Nat) (h : var_gone x s) (hs : var_free x (s.get_row row_src))
    (hd : row_dst ≠ 0) :
    safe_step x (fun i => i = row_dst) s (s.resolve row_src a1 row_dst p) := by
  unfold resolve
  split
  · rename_i hal
    have hdv : var_free x (s.get_row row_dst) := h.2 row_dst hd hal
    dsimp only
    split
    · refine safe_step_then ?_ (fun ht => safe_step_normalize x row_dst _ ht hd)
        (fun _ h _ _ => h)
      split
      · exact safe_step_mul_add_int x p s _ _ _ _ h.1 hs hdv
      · exact safe_step_seq (safe_step_mul x row_dst s _ h.1)
          (fun ht => safe_step_mul_add x row_dst row_src _ false _ ht.1
            (ht.2.2.2.1 row_src hs)) (fun _ h _ _ => h)
    · exact safe_step_mul_add x row_dst row_src s _ _ h.1 hs
  · exact safe_step_refl x _ s h.1

/-- The call `solve` of a destination row other than row 0 against a source row without `x`. -/
theorem safe_step_solve (x p : Nat) (s : model_based_opt) (row_src : Nat) (a1 : ℚ)
    (row_dst : Nat) (h : store_ok x s) (hs : var_free x (s.get_row row_src))
    (hd : row_dst ≠ 0) :
    safe_step x (fun i => i = row_dst) s (s.solve row_src a1 row_dst p) := by
  unfold solve
  split
  · exact safe_step_refl x _ s h
  · dsimp only
    refine safe_step_then ?_ (fun ht => safe_step_normalize x row_dst _ ht hd)
      (fun _ h _ _ => h)
    exact safe_step_seq (safe_step_mul x row_dst s _ h)
      (fun ht => safe_step_mul_add x row_dst row_src _ false _ ht.1
        (ht.2.2.2.1 row_src hs)) (fun _ h _ _ => h)

theorem safe_step_solve_for_step (x p row_id1 : Nat) (a : ℚ) (s : model_based_opt)
    (hs : var_free x (s.get_row row_id1)) (pr : model_based_opt × List Nat) (row_id2 : Nat)
    (h2 : row_id2 ≠ 0) (hv : row_id1 ∈ pr.2)
    (hst : safe_step x (fun i => i ≠ row_id1) s pr.1) :
    row_id1 ∈ (solve_for_step row_id1 a p pr row_id2).2 ∧
    safe_step x (fun i => i ≠ row_id1) s (solve_for_step row_id1 a p pr row_id2).1 := by
  unfold solve_for_step
  split
  · exact ⟨hv, hst⟩
  · rename_i hc
    have hne : row_id2 ≠ row_id1 := by
      intro hh
      exact hc ((contains_iff _ _).mpr (hh ▸ hv))
    have hm : row_id1 ∈ pr.2 ++ [row_id2] := List.mem_append_left _ hv
    have hsol : safe_step x (fun i => i ≠ row_id1) s (pr.1.solve row_id1 a row_id2 p) :=
      safe_step_seq hst (fun ht => safe_step_solve x p _ row_id1 a row_id2 ht.1
        (ht.2.2.2.1 row_id1 hs) h2) (fun j hj _ _ => hj ▸ hne)
    dsimp only
    split
    · exact ⟨hm, hst⟩
    · split
      · exact ⟨hm, hst⟩
      · split <;> first | exact ⟨hm, hsol⟩ | exact ⟨hm, hst⟩

theorem safe_step_solve_for_loop (x p row_id1 : Nat) (a : ℚ) (s : model_based_opt)
    (hs : var_free x (s.get_row row_id1)) (l : List Nat) (hl : ∀ j ∈ l, j ≠ 0) :
    ∀ pr : model_based_opt × List Nat, row_id1 ∈ pr.2 →
      safe_step x (fun i => i ≠ row_id1) s pr.1 →
      safe_step x (fun i => i ≠ row_id1) s (l.foldl (solve_for_step row_id1 a p) pr).1 := by
  induction l with
  | nil => intro pr _ h; exact h
  | cons b l ih =>
    intro pr hv hst
    rw [List.foldl_cons]
    obtain ⟨g1, g2⟩ := safe_step_solve_for_step x p row_id1 a s hs pr b
      (hl b (List.mem_cons_self _ _)) hv hst
    exact ih (fun j hj => hl j (List.mem_cons_of_mem _ hj)) _ g1 g2

theorem safe_step_solve_for_tail (x p row_id1 : Nat) (a : ℚ) (s1 : model_based_opt)
    (cd : Bool) (h : store_ok x s1) (h0 : row_id1 ≠ 0) (hr : row_id1 ∉ s1.m_retired_rows)
    (hl : row_id1 < s1.m_rows.length) (hs : var_free x (s1.get_row row_id1)) :
    safe_step x (fun _ => True) s1 (solve_for_loop s1 row_id1 a p cd).1 := by
  have hloop := safe_step_solve_for_loop x p row_id1 a s1 hs (s1.row_ids p)
    (fun j hj e => h.2.2.2.1 p (e ▸ hj)) (s1, [row_id1]) (by simp)
    (safe_step_refl x _ s1 h)
  obtain ⟨-, hnr⟩ := hloop.2.2.2.2.2 row_id1 (by simp) hl hr
  unfold solve_for_loop
  dsimp only
  cases cd with
  | true =>
    simp only [if_true]
    refine safe_step_then ?_ (fun ht => safe_step_retire x row_id1 _ ht h0 hnr)
      (fun _ _ _ _ => trivial)
    exact safe_step_then (safe_step_mono hloop (fun _ _ => trivial))
      (fun ht => safe_step_set_value x (fun _ => True) _ ht _ _) (fun _ _ _ _ => trivial)
  | false =>
    simp only [Bool.false_eq_true, if_false]
    exact safe_step_then (safe_step_mono hloop (fun _ _ => trivial))
      (fun ht => safe_step_retire x row_id1 _ ht h0 hnr) (fun _ _ _ _ => trivial)

theorem var_free_neg (x : Nat) (r : row) (h : var_free x r) : var_free x r.neg := by
  intro t ht
  unfold row.neg at ht
  simp only [List.mem_map] at ht
  obtain ⟨a, ha, rfl⟩ := ht
  exact h a ha

theorem safe_step_pivot (x row_id1 : Nat) (s : model_based_opt) (R2 R3 : row) (b : Bool)
    (coeffs : List var) (c a : ℚ) (h : store_ok x s)
    (ha : (s.get_row row_id1).m_alive = true)
    (hR2 : var_free x R2 ∧ R2.m_alive = true ∧ not_def x R2)
    (hR3 : var_free x R3 ∧ R3.m_alive = true ∧ not_def x R3)
    (hc : ∀ t ∈ coeffs, t.m_id ≠ x) :
    safe_step x (fun _ => True) s
      (if b then (s.put_row row_id1 R3).add_divides coeffs c a else s.put_row row_id1 R2) ∧
    row_id1 ∉ (if b then (s.put_row row_id1 R3).add_divides coeffs c a
      else s.put_row row_id1 R2).m_retired_rows ∧
    var_free x ((if b then (s.put_row row_id1 R3).add_divides coeffs c a
      else s.put_row row_id1 R2).get_row row_id1) := by
  have hl := alive_lt_length s row_id1 ha
  have hr : row_id1 ∉ s.m_retired_rows := fun hh => by
    have := (h.2.2.1 row_id1 hh).1
    rw [ha] at this
    exact absurd this (by simp)
  have p2 := safe_step_put_row x row_id1 s R2 h (fun _ => ha) (fun _ => hR2.1)
    (fun _ _ => hR2.2.2)
  have p3 := safe_step_put_row x row_id1 s R3 h (fun _ => ha) (fun _ => hR3.1)
    (fun _ _ => hR3.2.2)
  cases b with
  | true =>
    simp only [if_true]
    have hd := safe_step_add_divides x (s.put_row row_id1 R3) coeffs c a p3.1 hc
    have hf := hd.2.2.2.2.2 row_id1 (fun hf => hf) (by rw [put_row_length]; exact hl) hr
    refine ⟨safe_step_trans p3 hd (fun _ _ => trivial) (fun _ _ _ _ => trivial), hf.2, ?_⟩
    rw [hf.1, get_row_put_row_eq s row_id1 R3 hl]
    exact hR3.1
  | false =>
    simp only [Bool.false_eq_true, if_false]
    refine ⟨safe_step_mono p2 (fun _ _ => trivial), hr, ?_⟩
    rw [get_row_put_row_eq s row_id1 R2 hl]
    exact hR2.1

/-- The call `solve_for(row_id1, p, _)` with a live pivot row other than row 0 that has no term on
`x`. -/
theorem safe_step_solve_for (x p row_id1 : Nat) (s : model_based_opt) (cd : Bool)
    (h : store_ok x s) (h0 : row_id1 ≠ 0) (ha : (s.get_row row_id1).m_alive = true)
    (hs : var_free x (s.get_row row_id1)) :
    safe_step x (fun _ => True) s (s.solve_for row_id1 p cd).1 := by
  have hl := alive_lt_length s row_id1 ha
  have hnd := h.2.2.2.2.2 row_id1 h0 ha
  -- the sign-normalised pivot row
  have hr1 : ∀ b : Prop, ∀ _ : Decidable b,
      var_free x (if b then (s.get_row row_id1).neg else s.get_row row_id1) ∧
      (if b then (s.get_row row_id1).neg else s.get_row row_id1).m_alive = true ∧
      not_def x (if b then (s.get_row row_id1).neg else s.get_row row_id1) := by
    intro b _
    split
    · exact ⟨var_free_neg x _ hs, ha, hnd⟩
    · exact ⟨hs, ha, hnd⟩
  have hr2 : ∀ (b : Prop) (_ : Decidable b) (r1 : row) (q1 q2 : ℚ),
      var_free x r1 ∧ r1.m_alive = true ∧ not_def x r1 →
      var_free x (if b then { r1 with m_coeff := q1, m_type := ineq_type.t_le, m_value := q2 }
        else r1) ∧
      (if b then { r1 with m_coeff := q1, m_type := ineq_type.t_le, m_value := q2 }
        else r1).m_alive = true ∧
      not_def x (if b then { r1 with m_coeff := q1, m_type := ineq_type.t_le, m_value := q2 }
        else r1) := by
    intro b _ r1 q1 q2 hh
    split
    · exact ⟨hh.1, hh.2.1, fun hty => by simp at hty⟩
    · exact hh
  have hR2 := hr2 ((s.get_row row_id1).m_type = ineq_type.t_lt) inferInstance _
    ((if s.get_coefficient row_id1 p < 0 then (s.get_row row_id1).neg
      else s.get_row row_id1).m_coeff -
     (if s.get_coefficient row_id1 p < 0 then (s.get_row row_id1).neg
      else s.get_row row_id1).m_value) 0
    (hr1 (s.get_coefficient row_id1 p < 0) inferInstance)
  obtain ⟨g1, g2, g3⟩ := safe_step_pivot x row_id1 s _
    { (if (s.get_row row_id1).m_type = ineq_type.t_lt then
        { (if s.get_coefficient row_id1 p < 0 then (s.get_row row_id1).neg
            else s.get_row row_id1) with
          m_coeff := (if s.get_coefficient row_id1 p < 0 then (s.get_row row_id1).neg
              else s.get_row row_id1).m_coeff -
            (if s.get_coefficient row_id1 p < 0 then (s.get_row row_id1).neg
              else s.get_row row_id1).m_value,
          m_type := ineq_type.t_le, m_value := 0 }
        else (if s.get_coefficient row_id1 p < 0 then (s.get_row row_id1).neg
            else s.get_row row_id1)) with
      m_coeff := (if (s.get_row row_id1).m_type = ineq_type.t_lt then
        { (if s.get_coefficient row_id1 p < 0 then (s.get_row row_id1).neg
            else s.get_row row_id1) with
          m_coeff := (if s.get_coefficient row_id1 p < 0 then (s.get_row row_id1).neg
              else s.get_row row_id1).m_coeff -
            (if s.get_coefficient row_id1 p < 0 then (s.get_row row_id1).neg
              else s.get_row row_id1).m_value,
          m_type := ineq_type.t_le, m_value := 0 }
        else (if s.get_coefficient row_id1 p < 0 then (s.get_row row_id1).neg
            else s.get_row row_id1)).m_coeff -
        (if (s.get_row row_id1).m_type = ineq_type.t_lt then
        { (if s.get_coefficient row_id1 p < 0 then (s.get_row row_id1).neg
            else s.get_row row_id1) with
          m_coeff := (if s.get_coefficient row_id1 p < 0 then (s.get_row row_id1).neg
              else s.get_row row_id1).m_coeff -
            (if s.get_coefficient row_id1 p < 0 then (s.get_row row_id1).neg
              else s.get_row row_id1).m_value,
          m_type := ineq_type.t_le, m_value := 0 }
        else (if s.get_coefficient row_id1 p < 0 then (s.get_row row_id1).neg
            else s.get_row row_id1)).m_value,
      m_value := 0 }
    (s.is_int p && !decide ((if s.get_coefficient row_id1 p < 0 then -s.get_coefficient row_id1 p
      else s.get_coefficient row_id1 p) = 1))
    (mk_coeffs_without (if (s.get_row row_id1).m_type = ineq_type.t_lt then
        { (if s.get_coefficient row_id1 p < 0 then (s.get_row row_id1).neg
            else s.get_row row_id1) with
          m_coeff := (if s.get_coefficient row_id1 p < 0 then (s.get_row row_id1).neg
              else s.get_row row_id1).m_coeff -
            (if s.get_coefficient row_id1 p < 0 then (s.get_row row_id1).neg
              else s.get_row row_id1).m_value,
          m_type := ineq_type.t_le, m_value := 0 }
        else (if s.get_coefficient row_id1 p < 0 then (s.get_row row_id1).neg
            else s.get_row row_id1)).m_vars p)
    (mod (-((s.put_row row_id1 (solve_for_pivot s row_id1 p)).eval_vars
      (mk_coeffs_without (solve_for_pivot s row_id1 p).m_vars p))) (solve_for_coeff s row_id1 p))
    (solve_for_coeff s row_id1 p)
    h ha hR2 ⟨hR2.1, hR2.2.1, hR2.2.2⟩ (fun t ht => by
      unfold mk_coeffs_without at ht
      exact hR2.1 t (List.mem_filter.mp ht).1)
  have hlen := g1.2.1
  exact safe_step_trans g1 (safe_step_solve_for_tail x p row_id1 _ _ cd g1.1 h0 g2
    (lt_of_lt_of_le hl hlen) g3) (fun _ _ => trivial) (fun _ _ _ _ => trivial)

theorem project_succ (fuel : Nat) (s : model_based_opt) (x : Nat) (compute_def : Bool) :
    project (fuel + 1) s x compute_def =
      if !(scan_result s x).divide_rows.isEmpty then
        solve_divides (project fuel) s x (scan_result s x).divide_rows compute_def
      else if !(scan_result s x).div_rows.isEmpty || !(scan_result s x).mod_rows.isEmpty then
        solve_mod_div (project fuel) s x (scan_result s x).mod_rows (scan_result s x).div_rows
          compute_def
      else project_bounds s x compute_def (scan_result s x) := by
  unfold project scan_result project_bounds
  rfl

/-- The lists built by the scan loop of `project`: each is without repetition and holds
rows listed for `x` of the corresponding class. -/
theorem scan_lists (s : model_based_opt) (x : Nat) :
    ((scan_result s x).lub_rows.Nodup ∧
      ∀ j ∈ (scan_result s x).lub_rows, j ∈ s.row_ids x ∧ scan_kind s x j = 5) ∧
    ((scan_result s x).glb_rows.Nodup ∧
      ∀ j ∈ (scan_result s x).glb_rows, j ∈ s.row_ids x ∧ scan_kind s x j = 6) ∧
    ((scan_result s x).divide_rows.Nodup ∧
      ∀ j ∈ (scan_result s x).divide_rows, j ∈ s.row_ids x ∧ scan_kind s x j = 4) ∧
    ((scan_result s x).mod_rows.Nodup ∧
      ∀ j ∈ (scan_result s x).mod_rows, j ∈ s.row_ids x ∧ scan_kind s x j = 2) ∧
    ((scan_result s x).div_rows.Nodup ∧
      ∀ j ∈ (scan_result s x).div_rows, j ∈ s.row_ids x ∧ scan_kind s x j = 3) ∧
    (∀ i, (scan_result s x).eq_row = some i → i ∈ s.row_ids x ∧ scan_kind s x i = 1) ∧
    (∀ i, (scan_result s x).lub_index = some i → i ∈ (scan_result s x).lub_rows) ∧
    (∀ i, (scan_result s x).glb_index = some i → i ∈ (scan_result s x).glb_rows) := by
  obtain ⟨-, h1, h2, h3, h4, h5⟩ := scan_fold_lists s x (s.row_ids x) {}
  have hnd := fresh_ids_nodup (s.row_ids x) []
  have hmem : ∀ (k : Nat) (j : Nat),
      j ∈ [] ++ (fresh_ids [] (s.row_ids x)).filter (fun j => scan_kind s x j = k) →
      j ∈ s.row_ids x ∧ scan_kind s x j = k := by
    intro k j hj
    rw [List.nil_append] at hj
    obtain ⟨a, b⟩ := List.mem_filter.mp hj
    exact ⟨(fresh_ids_nil_mem _ _).mp a, by simpa using b⟩
  have hn : ∀ (k : Nat),
      ([] ++ (fresh_ids [] (s.row_ids x)).filter (fun j => scan_kind s x j = k)).Nodup := by
    intro k
    rw [List.nil_append]
    exact List.Nodup.filter _ hnd
  have hl : ∀ j, j ∈ (scan_result s x).lub_rows → j ∈ s.row_ids x ∧ scan_kind s x j = 5 := by
    intro j hj; unfold scan_result at hj; rw [h1] at hj; exact hmem 5 j hj
  have hg : ∀ j, j ∈ (scan_result s x).glb_rows → j ∈ s.row_ids x ∧ scan_kind s x j = 6 := by
    intro j hj; unfold scan_result at hj; rw [h2] at hj; exact hmem 6 j hj
  refine ⟨⟨?_, hl⟩, ⟨?_, hg⟩, ⟨?_, ?_⟩, ⟨?_, ?_⟩, ⟨?_, ?_⟩, ?_, ?_, ?_⟩
  · unfold scan_result; rw [h1]; exact hn 5
  · unfold scan_result; rw [h2]; exact hn 6
  · unfold scan_result; rw [h3]; exact hn 4
  · intro j hj; unfold scan_result at hj; rw [h3] at hj; exact hmem 4 j hj
  · unfold scan_result; rw [h4]; exact hn 2
  · intro j hj; unfold scan_result at hj; rw [h4] at hj; exact hmem 2 j hj
  · unfold scan_result; rw [h5]; exact hn 3
  · intro j hj; unfold scan_result at hj; rw [h5] at hj; exact hmem 3 j hj
  · intro i hi
    rcases scan_fold_eq s x (s.row_ids x) {} with ⟨h, -⟩ | ⟨j, hjf, hk, he⟩
    · unfold scan_result at hi
      rw [h] at hi
      simp at hi
    · unfold scan_result at hi
      rw [he] at hi
      simp only [Option.some.injEq] at hi
      rw [← hi]
      exact ⟨(fresh_ids_nil_mem _ _).mp hjf, hk⟩
  · intro i hi
    rcases (scan_fold_lub_index s x (s.row_ids x) {}).1 with h | ⟨j, hjf, hk, he⟩
    · unfold scan_result at hi
      rw [h] at hi
      simp at hi
    · unfold scan_result at hi ⊢
      rw [he] at hi
      simp only [Option.some.injEq] at hi
      rw [← hi, h1, List.nil_append]
      exact List.mem_filter.mpr ⟨hjf, by simpa using hk⟩
  · intro i hi
    rcases (scan_fold_glb_index s x (s.row_ids x) {}).1 with h | ⟨j, hjf, hk, he⟩
    · unfold scan_result at hi
      rw [h] at hi
      simp at hi
    · unfold scan_result at hi ⊢
      rw [he] at hi
      simp only [Option.some.injEq] at hi
      rw [← hi, h2, List.nil_append]
      exact List.mem_filter.mpr ⟨hjf, by simpa using hk⟩

/-- Retiring the rows of a list without repetition, none of which is row 0 or on the
free list. -/
theorem safe_step_retire_list (x : Nat) (l : List Nat) (hnd : l.Nodup) :
    ∀ s : model_based_opt, store_ok x s →
      (∀ j ∈ l, j ≠ 0 ∧ j < s.m_rows.length ∧ j ∉ s.m_retired_rows) →
      safe_step x (fun i => i ∈ l) s (l.foldl (fun st row_id => st.retire_row row_id) s) := by
  induction l with
  | nil => intro s h _; exact safe_step_refl x _ s h
  | cons a l ih =>
    intro s h hl
    rw [List.foldl_cons]
    obtain ⟨ha, hnd2⟩ := List.nodup_cons.mp hnd
    obtain ⟨a0, a1, a2⟩ := hl a (List.mem_cons_self _ _)
    have h1 := safe_step_retire x a s h a0 a2
    have h2 := ih hnd2 (s.retire_row a) h1.1 (fun j hj => by
      obtain ⟨j0, j1, j2⟩ := hl j (List.mem_cons_of_mem _ hj)
      have hne : j ≠ a := fun e => ha (e ▸ hj)
      exact ⟨j0, lt_of_lt_of_le j1 h1.2.1, (h1.2.2.2.2.2 j hne j1 j2).2⟩)
    exact safe_step_trans h1 h2 (fun j hj => hj ▸ List.mem_cons_self _ _)
      (fun j hj _ _ => List.mem_cons_of_mem _ hj)

/-- The loops of the general case of `project`: every row of the list other than the
chosen bound row is resolved against the bound row. -/
theorem safe_step_resolve_list (x p row_index : Nat) (coeff : ℚ) (s : model_based_opt)
    (hs : var_gone x s) (hsrc : var_free x (s.get_row row_index)) (l : List Nat)
    (hl : ∀ j ∈ l, j ≠ 0) :
    ∀ st, safe_step x (fun i => i ≠ row_index) s st →
      safe_step x (fun i => i ≠ row_index) s
        (l.foldl (fun st row_id =>
          if row_id ≠ row_index then st.resolve row_index coeff row_id p else st) st) := by
  refine safe_step_foldl x _ _ s l ?_
  intro st a ha hst
  split
  · rename_i hne
    exact safe_step_seq hst (fun ht => safe_step_resolve x p _ row_index coeff a
      (var_gone_step hs ht) (ht.2.2.2.1 row_index hsrc) (hl a ha)) (fun j hj _ _ => hj ▸ hne)
  · exact hst

/-- The inner loop of the pairwise case of `project` for the last upper-bound row: the
lower-bound rows themselves are rewritten. -/
theorem safe_step_small_inner_last (x p row_id1 : Nat) (coeff : ℚ) (s : model_based_opt)
    (hs : var_gone x s) (hsrc : var_free x (s.get_row row_id1)) (glb : List Nat)
    (hg : ∀ j ∈ glb, j ≠ 0) :
    ∀ st, safe_step x (fun i => i ∈ glb) s st →
      safe_step x (fun i => i ∈ glb) s (project_small_inner p row_id1 coeff true st glb) := by
  unfold project_small_inner
  simp only [if_true]
  refine safe_step_foldl x _ _ s glb ?_
  intro st a ha hst
  exact safe_step_seq hst (fun ht => safe_step_resolve x p _ row_id1 coeff a
    (var_gone_step hs ht) (ht.2.2.2.1 row_id1 hsrc) (hg a ha)) (fun j hj _ _ => hj ▸ ha)

/-- The inner loop of the pairwise case of `project` for an upper-bound row that is not
the last: copies of the lower-bound rows are rewritten, no row of the state at the start
changes. -/
theorem safe_step_small_inner_copy (x p row_id1 : Nat) (coeff : ℚ) (s : model_based_opt)
    (hs : var_gone x s) (hsrc : var_free x (s.get_row row_id1)) (glb : List Nat)
    (hg : ∀ j ∈ glb, j ≠ 0 ∧ (s.get_row j).m_alive = true ∧
      (s.get_row j).m_type ≠ ineq_type.t_div ∧ (s.get_row j).m_type ≠ ineq_type.t_mod) :
    ∀ st, safe_step x (fun _ => False) s st →
      safe_step x (fun _ => False) s (project_small_inner p row_id1 coeff false st glb) := by
  unfold project_small_inner
  simp only [Bool.false_eq_true, if_false]
  refine safe_step_foldl x _ _ s glb ?_
  intro st a ha hst
  obtain ⟨a0, a1, a2⟩ := hg a ha
  have hl := alive_lt_length s a a1
  have hr : a ∉ s.m_retired_rows := fun hh => by
    have := (hs.1.2.2.1 a hh).1
    rw [a1] at this
    exact absurd this (by simp)
  obtain ⟨e1, e2⟩ := hst.2.2.2.2.2 a (fun hf => hf) hl hr
  have hgo := var_gone_step hs hst
  obtain ⟨c1, c2, c3⟩ := safe_step_copy_row x st a none hst.1 (by rw [e1]; exact a1)
    (hgo.2 a a0 (by rw [e1]; exact a1)) (by rw [e1]; exact a2)
  have hcopy := safe_step_trans hst c1 (fun _ h => h) (fun _ h _ _ => h)
  refine safe_step_seq hcopy (fun ht => safe_step_resolve x p _ row_id1 coeff _
    (var_gone_step hs ht) (ht.2.2.2.1 row_id1 hsrc) c2) ?_
  intro j hj hjl hjr
  have h5 := hst.2.2.2.2.2 j (fun hf => hf) hjl hjr
  exact hjr.elim (by
    have := c3 (hj ▸ lt_of_lt_of_le hjl hst.2.1)
    rw [← hj] at this
    exact absurd this h5.2)

theorem alive_not_retired (x : Nat) (s : model_based_opt) (h : store_ok x s) (j : Nat)
    (ha : (s.get_row j).m_alive = true) : j < s.m_rows.length ∧ j ∉ s.m_retired_rows :=
  ⟨alive_lt_length s j ha, fun hh => by
    have := (h.2.2.1 j hh).1
    rw [ha] at this
    exact absurd this (by simp)⟩

/-- The pairwise case of `project`: only the lower-bound rows of the state at the start
are rewritten. -/
theorem safe_step_project_small (x p : Nat) (glb : List Nat) :
    ∀ (lub : List Nat) (s : model_based_opt), var_gone x s →
      (∀ j ∈ lub, var_free x (s.get_row j)) →
      (∀ j ∈ glb, j ≠ 0 ∧ (s.get_row j).m_alive = true ∧
        (s.get_row j).m_type ≠ ineq_type.t_div ∧ (s.get_row j).m_type ≠ ineq_type.t_mod) →
      safe_step x (fun i => i ∈ glb) s (project_small p glb s lub) := by
  intro lub
  induction lub with
  | nil =>
    intro s hs _ _
    unfold project_small
    exact safe_step_refl x _ s hs.1
  | cons a rest ih =>
    intro s hs hl hg
    unfold project_small
    dsimp only
    cases rest with
    | nil =>
      have h1 := safe_step_small_inner_last x p a (s.get_coefficient a p) s hs
        (hl a (List.mem_cons_self _ _)) glb (fun j hj => (hg j hj).1) s
        (safe_step_refl x _ s hs.1)
      simp only [List.isEmpty_nil]
      unfold project_small
      exact h1
    | cons b rest2 =>
      have h1 := safe_step_small_inner_copy x p a (s.get_coefficient a p) s hs
        (hl a (List.mem_cons_self _ _)) glb hg s (safe_step_refl x _ s hs.1)
      simp only [List.isEmpty_cons]
      have h2 := ih _ (var_gone_step hs h1)
        (fun j hj => h1.2.2.2.1 j (hl j (List.mem_cons_of_mem _ hj)))
        (fun j hj => by
          obtain ⟨j0, j1, j2⟩ := hg j hj
          obtain ⟨k1, k2⟩ := alive_not_retired x s hs.1 j j1
          obtain ⟨e1, -⟩ := h1.2.2.2.2.2 j (fun hf => hf) k1 k2
          rw [e1]
          exact ⟨j0, j1, j2⟩)
      exact safe_step_trans h1 h2 (fun _ hf => absurd hf id) (fun _ h _ _ => h)

/-- The equality, one-sided, pairwise and general resolution cases of `project(p, _)`
return, and keep a store whose live rows are without `x` in that condition. -/
theorem safe_step_project_bounds (x p : Nat) (s : model_based_opt) (cd : Bool)
    (hs : var_gone x s) :
    ∃ s1 d, project_bounds s p cd (scan_result s p) = Except.ok (s1, d) ∧
      safe_step x (fun _ => True) s s1 := by
  obtain ⟨⟨nl, hl⟩, ⟨ng, hg⟩, -, -, -, heq, hli, hgi⟩ := scan_lists s p
  have h0 : ∀ j, j ∈ s.row_ids p → j ≠ 0 := fun j hj e => hs.1.2.2.2.1 p (e ▸ hj)
  have hrow : ∀ j, j ∈ s.row_ids p → scan_kind s p j ≠ 0 →
      j ≠ 0 ∧ (s.get_row j).m_alive = true ∧ var_free x (s.get_row j) ∧
      j < s.m_rows.length ∧ j ∉ s.m_retired_rows := by
    intro j hj hk
    have ha := (scan_kind_on s p j hk).1
    obtain ⟨k1, k2⟩ := alive_not_retired x s hs.1 j ha
    exact ⟨h0 j hj, ha, hs.2 j (h0 j hj) ha, k1, k2⟩
  have hlub : ∀ j ∈ (scan_result s p).lub_rows,
      j ≠ 0 ∧ (s.get_row j).m_alive = true ∧ var_free x (s.get_row j) ∧
      j < s.m_rows.length ∧ j ∉ s.m_retired_rows :=
    fun j hj => hrow j (hl j hj).1 (by rw [(hl j hj).2]; decide)
  have hglb : ∀ j ∈ (scan_result s p).glb_rows,
      j ≠ 0 ∧ (s.get_row j).m_alive = true ∧ var_free x (s.get_row j) ∧
      j < s.m_rows.length ∧ j ∉ s.m_retired_rows :=
    fun j hj => hrow j (hg j hj).1 (by rw [(hg j hj).2]; decide)
  have hdisj : ∀ j ∈ (scan_result s p).glb_rows, j ∉ (scan_result s p).lub_rows := by
    intro j hj hj2
    have := (hl j hj2).2
    rw [(hg j hj).2] at this
    exact absurd this (by decide)
  have hplain : ∀ j ∈ (scan_result s p).glb_rows,
      (s.get_row j).m_type ≠ ineq_type.t_div ∧ (s.get_row j).m_type ≠ ineq_type.t_mod := by
    intro j hj
    obtain ⟨-, -, hty⟩ := (scan_kind_6 s p j).mp (hg j hj).2
    rcases hty with e | e <;> rw [e] <;> exact ⟨by decide, by decide⟩
  have hsolve : ∀ (i : Nat) (c : Bool), i ∈ s.row_ids p → scan_kind s p i ≠ 0 →
      ∃ s1 d, (Except.ok (s.solve_for i p c) : Except error (model_based_opt × Option def_))
          = Except.ok (s1, d) ∧ safe_step x (fun _ => True) s s1 := by
    intro i c hi hk
    obtain ⟨i0, i1, i2, -, -⟩ := hrow i hi hk
    exact ⟨_, _, rfl, safe_step_solve_for x p i s c hs.1 i0 i1 i2⟩
  unfold project_bounds
  rcases he : (scan_result s p).eq_row with _ | i
  · dsimp only
    rcases hri : (if (scan_result s p).lub_rows.length ≤ (scan_result s p).glb_rows.length
        then (scan_result s p).lub_index else (scan_result s p).glb_index) with _ | ri
    · dsimp only
      cases cd with
      | true =>
        simp only [if_true]
        rcases hli2 : (scan_result s p).lub_index with _ | li
        · rcases hgi2 : (scan_result s p).glb_index with _ | gi
          · exact ⟨_, _, rfl, safe_step_refl x _ s hs.1⟩
          · have hm := hgi gi hgi2
            exact hsolve gi true (hg gi hm).1 (by rw [(hg gi hm).2]; decide)
        · have hm := hli li hli2
          exact hsolve li true (hl li hm).1 (by rw [(hl li hm).2]; decide)
      | false =>
        simp only [Bool.false_eq_true, if_false]
        refine ⟨_, _, rfl, ?_⟩
        have h1 := safe_step_retire_list x _ nl s hs.1
          (fun j hj => ⟨(hlub j hj).1, (hlub j hj).2.2.2.1, (hlub j hj).2.2.2.2⟩)
        have h2 := safe_step_retire_list x _ ng _ h1.1
          (fun j hj => ⟨(hglb j hj).1, lt_of_lt_of_le (hglb j hj).2.2.2.1 h1.2.1,
            (h1.2.2.2.2.2 j (hdisj j hj) (hglb j hj).2.2.2.1 (hglb j hj).2.2.2.2).2⟩)
        exact safe_step_trans h1 h2 (fun _ _ => trivial) (fun _ _ _ _ => trivial)
    · dsimp only
      have hrim : ri ∈ (scan_result s p).lub_rows ∨ ri ∈ (scan_result s p).glb_rows := by
        split at hri
        · exact Or.inl (hli ri hri)
        · exact Or.inr (hgi ri hri)
      have hrif : ri ≠ 0 ∧ (s.get_row ri).m_alive = true ∧ var_free x (s.get_row ri) ∧
          ri < s.m_rows.length ∧ ri ∉ s.m_retired_rows := by
        rcases hrim with h | h
        · exact hlub ri h
        · exact hglb ri h
      split
      · refine ⟨_, _, rfl, ?_⟩
        have h1 := safe_step_project_small x p (scan_result s p).glb_rows
          (scan_result s p).lub_rows s hs (fun j hj => (hlub j hj).2.2.1)
          (fun j hj => ⟨(hglb j hj).1, (hglb j hj).2.1, hplain j hj⟩)
        have h2 := safe_step_retire_list x _ nl _ h1.1
          (fun j hj => ⟨(hlub j hj).1, lt_of_lt_of_le (hlub j hj).2.2.2.1 h1.2.1,
            (h1.2.2.2.2.2 j (fun hh => hdisj j hh hj) (hlub j hj).2.2.2.1
              (hlub j hj).2.2.2.2).2⟩)
        exact safe_step_trans h1 h2 (fun _ _ => trivial) (fun _ _ _ _ => trivial)
      · refine ⟨_, _, rfl, ?_⟩
        have h1 := safe_step_resolve_list x p ri (s.get_coefficient ri p) s hs hrif.2.2.1
          (scan_result s p).lub_rows (fun j hj => (hlub j hj).1) s (safe_step_refl x _ s hs.1)
        have h2 := safe_step_resolve_list x p ri (s.get_coefficient ri p) s hs hrif.2.2.1
          (scan_result s p).glb_rows (fun j hj => (hglb j hj).1) _ h1
        obtain ⟨-, hnr⟩ := h2.2.2.2.2.2 ri (fun hh => hh rfl) hrif.2.2.2.1 hrif.2.2.2.2
        exact safe_step_trans h2 (safe_step_retire x ri _ h2.1 hrif.1 hnr)
          (fun _ _ => trivial) (fun _ _ _ _ => trivial)
  · dsimp only
    exact hsolve i cd (heq i he).1 (by rw [(heq i he).2]; decide)

theorem pending_frame {x p : Nat} {L : List Nat} {D : Nat → Prop} {s t : model_based_opt}
    (h : pending x p L s) (hst : safe_step x D s t) (hD : ∀ ri ∈ L, ¬ D ri) :
    pending x p L t := by
  intro ri hri
  obtain ⟨a0, a1, a2, a3, a4⟩ := h ri hri
  obtain ⟨e1, e2⟩ := hst.2.2.2.2.2 ri (hD ri hri) a1 a2
  refine ⟨a0, lt_of_lt_of_le a1 hst.2.1, e2, ?_, ?_⟩
  · rw [e1]; exact a3
  · rw [e1]; exact a4

theorem mul_row_id (s : model_based_opt) (j : Nat) (c : ℚ) (i : Nat) :
    ((s.mul j c).get_row i).m_id = (s.get_row i).m_id ∧
    (s.mul j c).m_retired_rows = s.m_retired_rows := by
  unfold model_based_opt.mul
  split
  · exact ⟨rfl, rfl⟩
  · refine ⟨?_, rfl⟩
    rw [get_row_put_row]
    split
    · rename_i hc
      rw [hc.1]
    · rfl

theorem mark_dead_new (scale : Option ℚ) (pr : model_based_opt × List Nat × List Nat)
    (ri : Nat) (hv : ri ∉ pr.2.1) :
    mark_dead scale pr ri =
      (((match scale with
          | some K => pr.1.mul ri (K / (pr.1.get_row ri).m_mod)
          | none => pr.1).put_row ri
        { (match scale with
            | some K => pr.1.mul ri (K / (pr.1.get_row ri).m_mod)
            | none => pr.1).get_row ri with m_alive := false }), pr.2.1 ++ [ri],
        pr.2.2 ++ [ri]) := by
  unfold mark_dead
  have hc : ¬ (pr.2.1.contains ri = true) := fun hh => hv ((contains_iff _ _).mp hh)
  rw [if_neg hc]

theorem safe_step_mark_dead (x : Nat) (scale : Option ℚ)
    (pr : model_based_opt × List Nat × List Nat) (ri : Nat) (h : store_ok x pr.1)
    (hv : ri ∉ pr.2.1) :
    (mark_dead scale pr ri).2.1 = pr.2.1 ++ [ri] ∧
    (mark_dead scale pr ri).2.2 = pr.2.2 ++ [ri] ∧
    safe_step x (fun i => i = ri) pr.1 (mark_dead scale pr ri).1 ∧
    (mark_dead scale pr ri).1.m_retired_rows = pr.1.m_retired_rows ∧
    ∀ j, ((mark_dead scale pr ri).1.get_row j).m_id = (pr.1.get_row j).m_id := by
  rw [mark_dead_new scale pr ri hv]
  have hm : ∀ i, ((match scale with
      | some K => pr.1.mul ri (K / (pr.1.get_row ri).m_mod)
      | none => pr.1).get_row i).m_id = (pr.1.get_row i).m_id := by
    intro i
    cases scale with
    | none => rfl
    | some K => exact (mul_row_id pr.1 ri _ i).1
  refine ⟨rfl, rfl, ?_, ?_, ?_⟩
  · refine safe_step_then ?_ (fun ht => safe_step_put_row x ri _ _ ht (by simp) (fun hv => hv)
      (by simp)) (fun _ h _ _ => h)
    cases scale with
    | none => exact safe_step_refl x _ _ h
    | some K => exact safe_step_mul x ri _ _ h
  · cases scale with
    | none => rfl
    | some K => exact (mul_row_id pr.1 ri _ 0).2
  · intro j
    dsimp only
    rw [get_row_put_row]
    split
    · rename_i hc2
      dsimp only
      rw [hc2.1]
      exact hm ri
    · exact hm j

theorem safe_step_mark_fold (x : Nat) (scale : Option ℚ) (l : List Nat) (hnd : l.Nodup) :
    ∀ pr : model_based_opt × List Nat × List Nat, store_ok x pr.1 → (∀ j ∈ l, j ∉ pr.2.1) →
      (l.foldl (mark_dead scale) pr).2.1 = pr.2.1 ++ l ∧
      (l.foldl (mark_dead scale) pr).2.2 = pr.2.2 ++ l ∧
      safe_step x (fun i => i ∈ l) pr.1 (l.foldl (mark_dead scale) pr).1 ∧
      (l.foldl (mark_dead scale) pr).1.m_retired_rows = pr.1.m_retired_rows ∧
      ∀ j, ((l.foldl (mark_dead scale) pr).1.get_row j).m_id = (pr.1.get_row j).m_id := by
  induction l with
  | nil =>
    intro pr h _
    exact ⟨by simp, by simp, safe_step_refl x _ _ h, rfl, fun _ => rfl⟩
  | cons a l ih =>
    intro pr h hv
    rw [List.foldl_cons]
    obtain ⟨ha, hnd2⟩ := List.nodup_cons.mp hnd
    obtain ⟨m1, m2, m3, m4, m5⟩ := safe_step_mark_dead x scale pr a h
      (hv a (List.mem_cons_self _ _))
    obtain ⟨i1, i2, i3, i4, i5⟩ := ih hnd2 (mark_dead scale pr a) m3.1 (by
      intro j hj
      rw [m1]
      intro hm
      rcases List.mem_append.mp hm with hm | hm
      · exact hv j (List.mem_cons_of_mem _ hj) hm
      · rw [List.mem_singleton] at hm
        exact ha (hm ▸ hj))
    refine ⟨?_, ?_, ?_, ?_, ?_⟩
    · rw [i1, m1]; simp
    · rw [i2, m2]; simp
    · exact safe_step_trans m3 i3 (fun j hj => hj ▸ List.mem_cons_self _ _)
        (fun j hj _ _ => List.mem_cons_of_mem _ hj)
    · rw [i4, m4]
    · intro j
      rw [i5, m5]

/-- A loop that rewrites the row it visits. -/
theorem safe_step_rows_fold (x : Nat) (f : model_based_opt → Nat → model_based_opt)
    (hf : ∀ st j, store_ok x st → j ≠ 0 → safe_step x (fun i => i = j) st (f st j))
    (L : List Nat) (hL : ∀ j ∈ L, j ≠ 0) (s : model_based_opt) (h : store_ok x s) :
    safe_step x (fun i => i ∈ L) s (L.foldl f s) := by
  refine safe_step_foldl x _ f s L ?_ s (safe_step_refl x _ s h)
  intro st a ha hst
  exact safe_step_then hst (fun ht => hf st a ht (hL a ha)) (fun j hj _ _ => hj ▸ ha)

theorem replace_var1_row_id (s : model_based_opt) (j x : Nat) (C : ℚ) (i : Nat) :
    ((s.replace_var1 j x C).get_row i).m_id = (s.get_row i).m_id ∧
    (s.replace_var1 j x C).m_retired_rows = s.m_retired_rows ∧
    (s.replace_var1 j x C).m_rows.length = s.m_rows.length := by
  unfold replace_var1
  refine ⟨?_, rfl, put_row_length _ _ _⟩
  simp only
  rw [get_row_put_row]
  split
  · rename_i hc
    rw [hc.1]
  · rfl

/-- The first part of the body of the loop of `solve_mod_div` over the div rows. -/
theorem safe_step_solve_div_row_w (x p ri : Nat) (K : ℚ) (s : model_based_opt)
    (h : store_ok x s) (hri : pending x p [ri] s) :
    safe_step x (fun i => i = ri) s (solve_div_row_w s p ri K).1 ∧
    (∀ w, (solve_div_row_w s p ri K).2.1 = some w → w ≠ x) ∧
    ((solve_div_row_w s p ri K).1.get_row ri).m_id ≠ x ∧
    ri ∉ (solve_div_row_w s p ri K).1.m_retired_rows ∧
    var_free x ((s.replace_var1 ri p 0).get_row ri) := by
  obtain ⟨a0, a1, a2, a3, a4⟩ := hri ri (List.mem_singleton_self ri)
  have hvf : var_free x ((s.replace_var1 ri p 0).get_row ri) := by
    by_cases hp : p = x
    · subst hp
      exact replace_var1_var_free s ri p 0
    · exact (safe_step_replace_var1 x ri s p 0 h).2.2.2.1 ri (a4 hp)
  have h1 := safe_step_replace_var1 x ri s p 0 h
  obtain ⟨b1, b2, b3⟩ := replace_var1_row_id s ri p 0 ri
  have hid1 : ((s.replace_var1 ri p 0).get_row ri).m_id ≠ x := by rw [b1]; exact a3
  have hr1 : ri ∉ (s.replace_var1 ri p 0).m_retired_rows := by rw [b2]; exact a2
  refine ⟨?_, ?_, ?_, ?_, hvf⟩
  · unfold solve_div_row_w
    dsimp only
    split
    · exact h1
    · split
      · exact h1
      · exact safe_step_then h1 (fun ht => (safe_step_add_div x _ _ _ _ ht hvf).1)
          (fun _ hf _ _ => absurd hf id)
  · intro w hw
    unfold solve_div_row_w at hw
    dsimp only at hw
    split at hw
    · simp at hw
    · split at hw
      · simp at hw
      · simp only [Option.some.injEq] at hw
        rw [← hw]
        exact (safe_step_add_div x _ _ _ _ h1.1 hvf).2
  · unfold solve_div_row_w
    dsimp only
    split
    · exact hid1
    · split
      · exact hid1
      · have hd := (safe_step_add_div x _ ((s.replace_var1 ri p 0).get_row ri).m_vars
          ((s.replace_var1 ri p 0).get_row ri).m_coeff K h1.1 hvf).1
        obtain ⟨e1, -⟩ := hd.2.2.2.2.2 ri (fun hf => hf) (by rw [b3]; exact a1) hr1
        dsimp only
        rw [e1]
        exact hid1
  · unfold solve_div_row_w
    dsimp only
    split
    · exact hr1
    · split
      · exact hr1
      · have hd := (safe_step_add_div x _ ((s.replace_var1 ri p 0).get_row ri).m_vars
          ((s.replace_var1 ri p 0).get_row ri).m_coeff K h1.1 hvf).1
        exact (hd.2.2.2.2.2 ri (fun hf => hf) (by rw [b3]; exact a1) hr1).2

theorem solve_div_row_terms_ids (x p y ri : Nat) (K : ℚ) (s : model_based_opt)
    (h : store_ok x s) (hri : pending x p [ri] s) (hy : y ≠ x) :
    ∀ t ∈ solve_div_row_terms s p y ri K, t.m_id ≠ x := by
  obtain ⟨-, w1, w2, -, w4⟩ := safe_step_solve_div_row_w x p ri K s h hri
  intro t ht
  unfold solve_div_row_terms at ht
  dsimp only at ht
  rcases List.mem_append.mp ht with h1 | h1
  · simp only [List.mem_cons, List.mem_singleton, List.not_mem_nil, or_false] at h1
    rcases h1 with rfl | rfl
    · exact w2
    · exact hy
  · rcases hw : (solve_div_row_w s p ri K).2.1 with _ | w
    · rw [hw] at h1
      dsimp only at h1
      split at h1
      · exact w4 t h1
      · exact absurd h1 (List.not_mem_nil t)
    · rw [hw] at h1
      dsimp only at h1
      rw [List.mem_singleton] at h1
      subst h1
      exact w1 w hw

/-- The second part of the body of the loop of `solve_mod_div` over the div rows. -/
theorem safe_step_solve_div_row_tail (x z ri : Nat) (K a k coeff : ℚ) (coeffs : List var)
    (v : Nat) (s3 : model_based_opt) (vs : List Nat) (h : store_ok x s3)
    (hc : ∀ t ∈ coeffs, t.m_id ≠ x) (hz : z ≠ x) (hv : v ≠ x) (hvs : ∀ u ∈ vs, u ≠ x)
    (h0 : ri ≠ 0) (hl : ri < s3.m_rows.length) (hr : ri ∉ s3.m_retired_rows) :
    safe_step x (fun i => i = ri) s3 (solve_div_row_tail z ri K a k coeff coeffs v s3 vs).1 ∧
    ∀ u ∈ (solve_div_row_tail z ri K a k coeff coeffs v s3 vs).2, u ≠ x := by
  unfold solve_div_row_tail
  dsimp only
  refine ⟨?_, ?_⟩
  · have hpu : safe_step x (fun _ => False) s3
        (if K = 1 then ((s3, none, 0) : model_based_opt × Option Nat × ℚ)
          else if coeffs.isEmpty = true then (s3, none, mod coeff K)
          else ((s3.add_mod coeffs coeff K).1, some (s3.add_mod coeffs coeff K).2, 0)).1 ∧
        ∀ u, (if K = 1 then ((s3, none, 0) : model_based_opt × Option Nat × ℚ)
          else if coeffs.isEmpty = true then (s3, none, mod coeff K)
          else ((s3.add_mod coeffs coeff K).1, some (s3.add_mod coeffs coeff K).2, 0)).2.1
            = some u → u ≠ x := by
      split
      · exact ⟨safe_step_refl x _ s3 h, fun u hu => by simp at hu⟩
      · split
        · exact ⟨safe_step_refl x _ s3 h, fun u hu => by simp at hu⟩
        · refine ⟨(safe_step_add_mod x s3 coeffs coeff K h hc).1, fun u hu => ?_⟩
          simp only [Option.some.injEq] at hu
          rw [← hu]
          exact (safe_step_add_mod x s3 coeffs coeff K h hc).2
    obtain ⟨q1, q2⟩ := hpu
    have hb : ∀ t ∈ [(⟨z, a⟩ : var)] ++
        (match (if K = 1 then ((s3, none, 0) : model_based_opt × Option Nat × ℚ)
          else if coeffs.isEmpty = true then (s3, none, mod coeff K)
          else ((s3.add_mod coeffs coeff K).1, some (s3.add_mod coeffs coeff K).2, 0)).2.1 with
          | some u => [(⟨u, 1⟩ : var)]
          | none => []), t.m_id ≠ x := by
      intro t ht
      rcases List.mem_append.mp ht with h1 | h1
      · rw [List.mem_singleton] at h1
        subst h1
        exact hz
      · revert q2 h1
        generalize (if K = 1 then ((s3, none, 0) : model_based_opt × Option Nat × ℚ)
          else if coeffs.isEmpty = true then (s3, none, mod coeff K)
          else ((s3.add_mod coeffs coeff K).1, some (s3.add_mod coeffs coeff K).2, 0)).2.1 = o
        intro q2 h1
        cases o with
        | none => exact absurd h1 (List.not_mem_nil t)
        | some u =>
          dsimp only at h1
          rw [List.mem_singleton] at h1
          subst h1
          exact q2 u rfl
    refine safe_step_seq2 (?_ : safe_step x (fun _ => False) s3 _)
      (fun ht => safe_step_retire x ri _ ht.1 h0 (ht.2.2.2.2.2 ri (fun hf => hf) hl hr).2)
      (fun _ hf => absurd hf id) (fun _ h _ _ => h)
    refine safe_step_then ?_
      (fun ht => safe_step_add_constraint x _ _ _ ineq_type.t_le ht
        (fun t ht2 => by
          simp only [List.mem_map] at ht2
          obtain ⟨c, hc2, rfl⟩ := ht2
          exact hb c hc2) (by decide))
      (fun _ hf _ _ => hf)
    exact safe_step_then q1
      (fun ht => safe_step_add_constraint x _ _ _ ineq_type.t_le ht hb (by decide))
      (fun _ hf _ _ => hf)
  · intro u hu
    rcases List.mem_append.mp hu with h1 | h1
    · exact hvs u h1
    · rw [List.mem_singleton] at h1
      subst h1
      exact hv

/-- The body of the loop of `solve_mod_div` over the div rows. -/
theorem safe_step_solve_div_row (x p y z : Nat) (K zv : ℚ) (pr : model_based_opt × List Nat)
    (ri : Nat) (h : store_ok x pr.1) (hri : pending x p [ri] pr.1) (hy : y ≠ x) (hz : z ≠ x)
    (hvs : ∀ u ∈ pr.2, u ≠ x) :
    safe_step x (fun i => i = ri) pr.1 (solve_div_row p y z K zv pr ri).1 ∧
    ∀ u ∈ (solve_div_row p y z K zv pr ri).2, u ≠ x := by
  obtain ⟨a0, a1, a2, -, -⟩ := hri ri (List.mem_singleton_self ri)
  obtain ⟨w0, -, w2, w3, w4⟩ := safe_step_solve_div_row_w x p ri K pr.1 h hri
  have ht := solve_div_row_terms_ids x p y ri K pr.1 h hri hy
  have h3 := safe_step_add_constraint x (solve_div_row_w pr.1 p ri K).1
    (solve_div_row_terms pr.1 p y ri K)
    (solve_div_row_k pr.1 p ri K zv + (solve_div_row_w pr.1 p ri K).2.2) ineq_type.t_eq
    w0.1 ht (by decide)
  obtain ⟨-, f2⟩ := h3.2.2.2.2.2 ri (fun hf => hf) (lt_of_lt_of_le a1 w0.2.1) w3
  obtain ⟨t1, t2⟩ := safe_step_solve_div_row_tail x z ri K (pr.1.get_coefficient ri p)
    (solve_div_row_k pr.1 p ri K zv) ((pr.1.replace_var1 ri p 0).get_row ri).m_coeff
    ((pr.1.replace_var1 ri p 0).get_row ri).m_vars
    ((solve_div_row_w pr.1 p ri K).1.get_row ri).m_id _ pr.2 h3.1 w4 hz w2 hvs a0
    (lt_of_lt_of_le (lt_of_lt_of_le a1 w0.2.1) h3.2.1) f2
  rw [solve_div_row_split]
  exact ⟨safe_step_trans (safe_step_trans w0 h3 (fun _ h => h) (fun _ hf _ _ => absurd hf id))
    t1 (fun _ h => h) (fun _ h _ _ => h), t2⟩

theorem pending_tail {x p : Nat} {a : Nat} {L : List Nat} {s : model_based_opt}
    (h : pending x p (a :: L) s) : pending x p [a] s ∧ pending x p L s :=
  ⟨fun ri hri => h ri (by rw [List.mem_singleton] at hri; rw [hri]; exact List.mem_cons_self _ _),
   fun ri hri => h ri (List.mem_cons_of_mem _ hri)⟩

/-- The loop of `solve_mod_div` over the div rows. -/
theorem safe_step_solve_div_rows (x p y z : Nat) (K zv : ℚ) (hy : y ≠ x) (hz : z ≠ x)
    (L : List Nat) (hnd : L.Nodup) :
    ∀ pr : model_based_opt × List Nat, store_ok x pr.1 → pending x p L pr.1 →
      (∀ u ∈ pr.2, u ≠ x) →
      safe_step x (fun i => i ∈ L) pr.1 (L.foldl (solve_div_row p y z K zv) pr).1 ∧
      ∀ u ∈ (L.foldl (solve_div_row p y z K zv) pr).2, u ≠ x := by
  induction L with
  | nil => intro pr h _ hv; exact ⟨safe_step_refl x _ _ h, hv⟩
  | cons a L ih =>
    intro pr h hp hv
    rw [List.foldl_cons]
    obtain ⟨ha, hnd2⟩ := List.nodup_cons.mp hnd
    obtain ⟨p1, p2⟩ := pending_tail hp
    obtain ⟨s1, s2⟩ := safe_step_solve_div_row x p y z K zv pr a h p1 hy hz hv
    obtain ⟨i1, i2⟩ := ih hnd2 _ s1.1
      (pending_frame p2 s1 (fun ri hri e => ha (e ▸ hri))) s2
    exact ⟨safe_step_trans s1 i1 (fun j hj => hj ▸ List.mem_cons_self _ _)
      (fun j hj _ _ => List.mem_cons_of_mem _ hj), i2⟩

theorem safe_step_mod_row_tail (x ri v z : Nat) (s2 : model_based_opt) (extra : List var)
    (a c lo hi : ℚ) (h : store_ok x s2) (hv : v ≠ x) (hz : z ≠ x)
    (hw : ∀ t ∈ extra, t.m_id ≠ x) (h0 : ri ≠ 0) (hl : ri < s2.m_rows.length)
    (hr : ri ∉ s2.m_retired_rows) :
    safe_step x (fun i => i = ri) s2
      ((((s2.add_constraint ([(⟨v, -1⟩ : var), ⟨z, a⟩] ++ extra)
        c ineq_type.t_eq).add_lower_bound v lo).add_upper_bound v hi).retire_row ri) := by
  have hb : ∀ t ∈ [(⟨v, -1⟩ : var), ⟨z, a⟩] ++ extra, t.m_id ≠ x := by
    intro t ht
    rcases List.mem_append.mp ht with h1 | h1
    · simp only [List.mem_cons, List.mem_singleton, List.not_mem_nil, or_false] at h1
      rcases h1 with rfl | rfl
      · exact hv
      · exact hz
    · exact hw t h1
  refine safe_step_seq2 (?_ : safe_step x (fun _ => False) s2 _)
    (fun ht => safe_step_retire x ri _ ht.1 h0 (ht.2.2.2.2.2 ri (fun hf => hf) hl hr).2)
    (fun _ hf => absurd hf id) (fun _ h _ _ => h)
  refine safe_step_then ?_ (fun ht => safe_step_add_upper_bound x _ v hi ht hv)
    (fun _ hf _ _ => hf)
  refine safe_step_then ?_ (fun ht => safe_step_add_lower_bound x _ v lo ht hv)
    (fun _ hf _ _ => hf)
  exact safe_step_add_constraint x s2 _ c ineq_type.t_eq h hb (by decide)

theorem solve_mod_row_split (x z : Nat) (z_value : ℚ) (p : model_based_opt × List Nat)
    (ri : Nat) :
    solve_mod_row x z z_value p ri =
      (((((solve_mod_row_w p.1 x ri).1.add_constraint
          ([(⟨((p.1.replace_var1 ri x 0).get_row ri).m_id, -1⟩ : var),
              ⟨z, p.1.get_coefficient ri x⟩] ++
            (match (solve_mod_row_w p.1 x ri).2.1 with
              | some w => [(⟨w, 1⟩ : var)]
              | none => []))
          ((p.1.replace_var1 ri x 0).eval ((p.1.replace_var1 ri x 0).get_row ri).m_id
              - p.1.get_coefficient ri x * z_value
              - (match (solve_mod_row_w p.1 x ri).2.1 with
                  | none => (solve_mod_row_w p.1 x ri).2.2
                  | some w => (solve_mod_row_w p.1 x ri).1.eval w)
            + (solve_mod_row_w p.1 x ri).2.2)
          ineq_type.t_eq).add_lower_bound ((p.1.replace_var1 ri x 0).get_row ri).m_id 0
        ).add_upper_bound ((p.1.replace_var1 ri x 0).get_row ri).m_id
          (((p.1.replace_var1 ri x 0).get_row ri).m_mod - 1)).retire_row ri,
       p.2 ++ [((p.1.replace_var1 ri x 0).get_row ri).m_id]) := rfl

/-- The body of the loop of `solve_mod_div` over the mod rows. -/
theorem safe_step_solve_mod_row (x p z : Nat) (zv : ℚ) (pr : model_based_opt × List Nat)
    (ri : Nat) (h : store_ok x pr.1) (hri : pending x p [ri] pr.1) (hz : z ≠ x)
    (hvs : ∀ u ∈ pr.2, u ≠ x) :
    safe_step x (fun i => i = ri) pr.1 (solve_mod_row p z zv pr ri).1 ∧
    ∀ u ∈ (solve_mod_row p z zv pr ri).2, u ≠ x := by
  obtain ⟨a0, a1, a2, a3, a4⟩ := hri ri (List.mem_singleton_self ri)
  have hvf : var_free x ((pr.1.replace_var1 ri p 0).get_row ri) := by
    by_cases hp : p = x
    · subst hp
      exact replace_var1_var_free pr.1 ri p 0
    · exact (safe_step_replace_var1 x ri pr.1 p 0 h).2.2.2.1 ri (a4 hp)
  have h1 := safe_step_replace_var1 x ri pr.1 p 0 h
  obtain ⟨b1, b2, b3⟩ := replace_var1_row_id pr.1 ri p 0 ri
  have hid1 : ((pr.1.replace_var1 ri p 0).get_row ri).m_id ≠ x := by rw [b1]; exact a3
  have hr1 : ri ∉ (pr.1.replace_var1 ri p 0).m_retired_rows := by rw [b2]; exact a2
  have hl1 : ri < (pr.1.replace_var1 ri p 0).m_rows.length := by rw [b3]; exact a1
  have hpw : safe_step x (fun _ => False) (pr.1.replace_var1 ri p 0)
      (solve_mod_row_w pr.1 p ri).1 ∧
      ∀ u, (solve_mod_row_w pr.1 p ri).2.1 = some u → u ≠ x := by
    unfold solve_mod_row_w
    dsimp only
    split
    · exact ⟨safe_step_refl x _ _ h1.1, fun u hu => by simp at hu⟩
    · refine ⟨(safe_step_add_mod x _ _ _ _ h1.1 hvf).1, fun u hu => ?_⟩
      simp only [Option.some.injEq] at hu
      rw [← hu]
      exact (safe_step_add_mod x _ _ _ _ h1.1 hvf).2
  obtain ⟨q1, q2⟩ := hpw
  obtain ⟨f1, f2⟩ := q1.2.2.2.2.2 ri (fun hf => hf) hl1 hr1
  rw [solve_mod_row_split]
  refine ⟨?_, ?_⟩
  · have hex : ∀ t ∈ (match (solve_mod_row_w pr.1 p ri).2.1 with
        | some w => [(⟨w, 1⟩ : var)]
        | none => []), t.m_id ≠ x := by
      intro t ht
      rcases hw : (solve_mod_row_w pr.1 p ri).2.1 with _ | w
      · rw [hw] at ht
        exact absurd ht (List.not_mem_nil t)
      · rw [hw] at ht
        dsimp only at ht
        rw [List.mem_singleton] at ht
        subst ht
        exact q2 w hw
    exact safe_step_trans h1 (safe_step_trans q1
      (safe_step_mod_row_tail x ri _ z _ _ _ _ _ _ q1.1 hid1 hz hex a0
        (lt_of_lt_of_le hl1 q1.2.1) f2) (fun _ hf => absurd hf id) (fun _ h _ _ => h))
      (fun _ h => h) (fun _ h _ _ => h)
  · intro u hu
    rcases List.mem_append.mp hu with h2 | h2
    · exact hvs u h2
    · rw [List.mem_singleton] at h2
      subst h2
      exact hid1

/-- The loop of `solve_mod_div` over the mod rows. -/
theorem safe_step_solve_mod_rows (x p z : Nat) (zv : ℚ) (hz : z ≠ x)
    (L : List Nat) (hnd : L.Nodup) :
    ∀ pr : model_based_opt × List Nat, store_ok x pr.1 → pending x p L pr.1 →
      (∀ u ∈ pr.2, u ≠ x) →
      safe_step x (fun i => i ∈ L) pr.1 (L.foldl (solve_mod_row p z zv) pr).1 ∧
      ∀ u ∈ (L.foldl (solve_mod_row p z zv) pr).2, u ≠ x := by
  induction L with
  | nil => intro pr h _ hv; exact ⟨safe_step_refl x _ _ h, hv⟩
  | cons a L ih =>
    intro pr h hp hv
    rw [List.foldl_cons]
    obtain ⟨ha, hnd2⟩ := List.nodup_cons.mp hnd
    obtain ⟨p1, p2⟩ := pending_tail hp
    obtain ⟨s1, s2⟩ := safe_step_solve_mod_row x p z zv pr a h p1 hz hv
    obtain ⟨i1, i2⟩ := ih hnd2 _ s1.1
      (pending_frame p2 s1 (fun ri hri e => ha (e ▸ hri))) s2
    exact ⟨safe_step_trans s1 i1 (fun j hj => hj ▸ List.mem_cons_self _ _)
      (fun j hj _ _ => List.mem_cons_of_mem _ hj), i2⟩

/-- The recursive calls `project(v, _)` over the auxiliary variables, none of which is
`x`, keep a store whose live rows are without `x` in that condition. -/
theorem project_aux_vars_gone (x : Nat)
    (proj : model_based_opt → Nat → Bool → Except error (model_based_opt × Option def_))
    (cd : Bool)
    (hproj : ∀ s q s1 d, var_gone x s → proj s q cd = Except.ok (s1, d) → var_gone x s1) :
    ∀ (vs : List Nat) (s s8 : model_based_opt), var_gone x s →
      project_aux_vars proj cd s vs = Except.ok s8 → var_gone x s8 := by
  intro vs
  induction vs with
  | nil =>
    intro s s8 hs h
    unfold project_aux_vars at h
    simp only [Except.ok.injEq] at h
    rw [← h]
    exact hs
  | cons v vs ih =>
    intro s s8 hs h
    unfold project_aux_vars at h
    rcases hp : proj s v cd with e | ⟨s1, vd⟩
    · rw [hp] at h
      simp at h
    · rw [hp] at h
      dsimp only at h
      have h1 := hproj s v s1 vd hs hp
      refine ih _ s8 ?_ h
      split
      · cases vd with
        | none => exact h1
        | some d => exact var_gone_step h1 (safe_step_eliminate x (fun _ => True) s1 h1.1 v d)
      · exact h1

/-- The loops over the div and mod rows and the recursive calls of `solve_mod_div`. -/
theorem solve_mod_div_tail_gone (x p y z : Nat) (K zv : ℚ)
    (proj : model_based_opt → Nat → Bool → Except error (model_based_opt × Option def_))
    (cd : Bool)
    (hproj : ∀ s q s1 d, var_gone x s → proj s q cd = Except.ok (s1, d) → var_gone x s1)
    (div_rows mod_rows : List Nat) (s5 : model_based_opt) (h5 : var_gone x s5)
    (hy : y ≠ x) (hz : z ≠ x) (hpend : pending x p (div_rows ++ mod_rows) s5)
    (hnd : (div_rows ++ mod_rows).Nodup) (s1 : model_based_opt) (d : Option def_)
    (h : solve_mod_div_tail proj p y z K zv div_rows mod_rows s5 cd = Except.ok (s1, d)) :
    var_gone x s1 := by
  obtain ⟨n1, n2, n3⟩ := List.nodup_append.mp hnd
  obtain ⟨d1, d2⟩ := safe_step_solve_div_rows x p y z K zv hy hz div_rows n1 (s5, []) h5.1
    (fun ri hri => hpend ri (List.mem_append_left _ hri)) (fun u hu => absurd hu (List.not_mem_nil u))
  have hpm : pending x p mod_rows (div_rows.foldl (solve_div_row p y z K zv) (s5, [])).1 :=
    pending_frame (fun ri hri => hpend ri (List.mem_append_right _ hri)) d1
      (fun ri hri hh => n3 hh hri)
  obtain ⟨m1, m2⟩ := safe_step_solve_mod_rows x p z zv hz mod_rows n2 _ d1.1 hpm d2
  have h7 := var_gone_step (var_gone_step h5 d1) m1
  unfold solve_mod_div_tail at h
  dsimp only at h
  rcases ha : project_aux_vars proj cd
      (mod_rows.foldl (solve_mod_row p z zv) (div_rows.foldl (solve_div_row p y z K zv) (s5, []))).1
      (mod_rows.foldl (solve_mod_row p z zv) (div_rows.foldl (solve_div_row p y z K zv) (s5, []))).2
      with e | s8
  · rw [ha] at h
    simp at h
  · rw [ha] at h
    dsimp only at h
    have h8 := project_aux_vars_gone x proj cd hproj _ _ s8 h7 ha
    rcases hpz : proj s8 z cd with e | ⟨s9, zd⟩
    · rw [hpz] at h
      simp at h
    · rw [hpz] at h
      dsimp only at h
      have h9 := hproj s8 z s9 zd h8 hpz
      rcases hpy : proj s9 y cd with e | ⟨s10, yd⟩
      · rw [hpy] at h
        simp at h
      · rw [hpy] at h
        dsimp only at h
        have h10 := hproj s9 y s10 yd h9 hpy
        split at h
        · split at h
          · simp only [Except.ok.injEq, Prod.mk.injEq] at h
            rw [← h.1]
            refine var_gone_step h10 (?_ : safe_step x (fun _ => True) s10 _)
            refine safe_step_then ?_ (fun ht => safe_step_set_value x (fun _ => True) _ ht _ _)
              (fun _ _ _ _ => trivial)
            refine safe_step_then ?_ (fun ht => safe_step_eliminate x (fun _ => True) _ ht _ _)
              (fun _ _ _ _ => trivial)
            exact safe_step_eliminate x (fun _ => True) _ h10.1 _ _
          · simp only [Except.ok.injEq, Prod.mk.injEq] at h
            rw [← h.1]
            exact h10
        · simp only [Except.ok.injEq, Prod.mk.injEq] at h
          rw [← h.1]
          exact h10

theorem put_dead_rows (S1 : model_based_opt) (a : Nat) :
    ((S1.put_row a { S1.get_row a with m_alive := false }).get_row a).m_alive = false ∧
    ∀ j, j ≠ a → (S1.put_row a { S1.get_row a with m_alive := false }).get_row j
      = S1.get_row j := by
  refine ⟨?_, fun j hj => get_row_put_row_ne _ _ _ _ hj⟩
  rw [get_row_put_row]
  split
  · rfl
  · rename_i hc
    have hl : S1.m_rows.length ≤ a := by
      by_contra hh
      exact hc ⟨rfl, by omega⟩
    rw [get_row_default _ a hl]

theorem mark_dead_rows (scale : Option ℚ) (pr : model_based_opt × List Nat × List Nat)
    (a : Nat) (hv : a ∉ pr.2.1) :
    (mark_dead scale pr a).1.m_var2row_ids = pr.1.m_var2row_ids ∧
    ((mark_dead scale pr a).1.get_row a).m_alive = false ∧
    ∀ j, j ≠ a → (mark_dead scale pr a).1.get_row j = pr.1.get_row j := by
  rw [mark_dead_new scale pr a hv]
  cases scale with
  | none =>
    dsimp only
    exact ⟨rfl, (put_dead_rows pr.1 a).1, (put_dead_rows pr.1 a).2⟩
  | some K =>
    dsimp only
    refine ⟨?_, (put_dead_rows _ a).1, fun j hj => ?_⟩
    · unfold model_based_opt.mul
      split <;> rfl
    · rw [(put_dead_rows _ a).2 j hj]
      exact (same_except_mul pr.1 a _).1 j hj

theorem mark_fold_rows (scale : Option ℚ) (l : List Nat) (hnd : l.Nodup) :
    ∀ pr : model_based_opt × List Nat × List Nat, (∀ j ∈ l, j ∉ pr.2.1) →
      (l.foldl (mark_dead scale) pr).1.m_var2row_ids = pr.1.m_var2row_ids ∧
      (∀ j ∈ l, ((l.foldl (mark_dead scale) pr).1.get_row j).m_alive = false) ∧
      ∀ j, j ∉ l → (l.foldl (mark_dead scale) pr).1.get_row j = pr.1.get_row j := by
  induction l with
  | nil => intro pr _; exact ⟨rfl, fun j hj => absurd hj (List.not_mem_nil j), fun _ _ => rfl⟩
  | cons a l ih =>
    intro pr hv
    rw [List.foldl_cons]
    obtain ⟨ha, hnd2⟩ := List.nodup_cons.mp hnd
    obtain ⟨m1, m2, m3⟩ := mark_dead_rows scale pr a (hv a (List.mem_cons_self _ _))
    have hvis : (mark_dead scale pr a).2.1 = pr.2.1 ++ [a] := by
      rw [mark_dead_new scale pr a (hv a (List.mem_cons_self _ _))]
    obtain ⟨i1, i2, i3⟩ := ih hnd2 (mark_dead scale pr a) (by
      intro j hj
      rw [hvis]
      intro hm
      rcases List.mem_append.mp hm with hm | hm
      · exact hv j (List.mem_cons_of_mem _ hj) hm
      · rw [List.mem_singleton] at hm
        exact ha (hm ▸ hj))
    refine ⟨i1.trans m1, ?_, ?_⟩
    · intro j hj
      rcases List.mem_cons.mp hj with rfl | hj
      · rw [i3 j ha]
        exact m2
      · exact i2 j hj
    · intro j hj
      rw [i3 j (fun hh => hj (List.mem_cons_of_mem _ hh)),
        m3 j (fun hh => hj (hh ▸ List.mem_cons_self _ _))]

/-- The state of `solve_mod_div` after the div and mod rows (without repetition, the two
lists disjoint) have been marked dead. -/
theorem solve_mod_div_marked_rows (x p : Nat) (s : model_based_opt) (mod0 div0 : List Nat)
    (h : store_ok x s) (hd : div0.Nodup) (hm : mod0.Nodup) (hdisj : ∀ j ∈ mod0, j ∉ div0) :
    (solve_mod_div_marked s p mod0 div0).2.1 = div0 ++ mod0 ∧
    (solve_mod_div_marked s p mod0 div0).2.2.1 = div0 ∧
    (solve_mod_div_marked s p mod0 div0).2.2.2 = mod0 ∧
    safe_step x (fun i => i ∈ div0 ++ mod0) s (solve_mod_div_marked s p mod0 div0).1 ∧
    (solve_mod_div_marked s p mod0 div0).1.m_retired_rows = s.m_retired_rows ∧
    (∀ j, ((solve_mod_div_marked s p mod0 div0).1.get_row j).m_id = (s.get_row j).m_id) ∧
    (∀ v, (solve_mod_div_marked s p mod0 div0).1.row_ids v = s.row_ids v) ∧
    (∀ j ∈ div0 ++ mod0, ((solve_mod_div_marked s p mod0 div0).1.get_row j).m_alive = false) ∧
    (∀ j, j ∉ div0 ++ mod0 → (solve_mod_div_marked s p mod0 div0).1.get_row j = s.get_row j) := by
  unfold solve_mod_div_marked
  dsimp only
  generalize solve_mod_div_K s mod0 div0 = K
  obtain ⟨z1, -, -⟩ := safe_step_add_var x (fun i => i ∈ div0 ++ mod0) s h (mod (s.eval p) K) true
  obtain ⟨y1, -, -⟩ := safe_step_add_var x (fun i => i ∈ div0 ++ mod0)
    (s.add_var (mod (s.eval p) K) true).1 z1.1 (div (s.eval p) K) true
  generalize hpy : ((s.add_var (mod (s.eval p) K) true).1.add_var (div (s.eval p) K) true).1 = py
    at y1
  have hpy_rows : ∀ j, py.get_row j = s.get_row j := by
    intro j; rw [← hpy]; rfl
  have hpy_ret : py.m_retired_rows = s.m_retired_rows := by rw [← hpy]; rfl
  have hpy_idx : ∀ v, py.row_ids v = s.row_ids v := by
    intro v
    rw [← hpy, row_ids_add_var, row_ids_add_var]
  have hspy : safe_step x (fun i => i ∈ div0 ++ mod0) s py :=
    safe_step_trans z1 y1 (fun _ h => h) (fun _ h _ _ => h)
  obtain ⟨a1, a2, a3, a4, a5⟩ := safe_step_mark_fold x (some K) div0 hd (py, [], []) y1.1
    (fun j _ hj => absurd hj (List.not_mem_nil j))
  obtain ⟨a6, a7, a8⟩ := mark_fold_rows (some K) div0 hd (py, [], [])
    (fun j _ hj => absurd hj (List.not_mem_nil j))
  simp only [List.nil_append] at a1 a2
  have hv2 : ∀ j ∈ mod0, j ∉ ((div0.foldl (mark_dead (some K)) (py, [], [])).1,
      (div0.foldl (mark_dead (some K)) (py, [], [])).2.1, ([] : List Nat)).2.1 := by
    intro j hj
    dsimp only
    rw [a1]
    exact hdisj j hj
  obtain ⟨b1, b2, b3, b4, b5⟩ := safe_step_mark_fold x none mod0 hm
    ((div0.foldl (mark_dead (some K)) (py, [], [])).1,
      (div0.foldl (mark_dead (some K)) (py, [], [])).2.1, []) a3.1 hv2
  obtain ⟨b6, b7, b8⟩ := mark_fold_rows none mod0 hm
    ((div0.foldl (mark_dead (some K)) (py, [], [])).1,
      (div0.foldl (mark_dead (some K)) (py, [], [])).2.1, []) hv2
  dsimp only at b1 b2 b3 b4 b5 b6 b7 b8
  simp only [List.nil_append] at b2
  refine ⟨by rw [b1, a1], a2, b2, ?_, ?_, ?_, ?_, ?_, ?_⟩
  · exact safe_step_trans hspy (safe_step_trans a3 b3
      (fun j hj => List.mem_append_left _ hj) (fun j hj _ _ => List.mem_append_right _ hj))
      (fun _ h => h) (fun _ h _ _ => h)
  · rw [b4, a4, hpy_ret]
  · intro j
    rw [b5, a5, hpy_rows]
  · intro v
    unfold row_ids
    rw [b6, a6]
    exact hpy_idx v
  · intro j hj
    rcases List.mem_append.mp hj with hj | hj
    · by_cases hjm : j ∈ mod0
      · exact b7 j hjm
      · rw [b8 j hjm]
        exact a7 j hj
    · exact b7 j hj
  · intro j hj
    rw [b8 j (fun hh => hj (List.mem_append_right _ hh)),
      a8 j (fun hh => hj (List.mem_append_left _ hh)), hpy_rows]

theorem solve_mod_div_subst_eq (s : model_based_opt) (x : Nat) (mod0 div0 : List Nat) :
    solve_mod_div_subst s x mod0 div0 =
      (fresh_ids (solve_mod_div_marked s x mod0 div0).2.1
        ((solve_mod_div_marked s x mod0 div0).1.row_ids x)).foldl
        (fun st j => (st.replace_var3 j x (solve_mod_div_K s mod0 div0) (solve_mod_div_y s) 1
          (solve_mod_div_z s)).normalize j) (solve_mod_div_marked s x mod0 div0).1 := by
  unfold solve_mod_div_subst
  dsimp only
  exact visited_fold (fun st j => (st.replace_var3 j x (solve_mod_div_K s mod0 div0)
    (solve_mod_div_y s) 1 (solve_mod_div_z s)).normalize j) _ _ _

theorem safe_step_subst3 (x p y z : Nat) (K : ℚ) (hy : y ≠ x) (hz : z ≠ x)
    (st : model_based_opt) (j : Nat) (h : store_ok x st) (hj : j ≠ 0) :
    safe_step x (fun i => i = j) st ((st.replace_var3 j p K y 1 z).normalize j) :=
  safe_step_then (safe_step_replace_var3 x j st p K y 1 z h hj hy hz)
    (fun ht => safe_step_normalize x j _ ht hj) (fun _ h _ _ => h)

/-- The state of `solve_mod_div` at the loops over the div and mod rows. -/
theorem solve_mod_div_window (x p : Nat) (s : model_based_opt) (mod0 div0 : List Nat)
    (h : store_ok x s) (hd : div0.Nodup) (hm : mod0.Nodup) (hdisj : ∀ j ∈ mod0, j ∉ div0)
    (hrows : ∀ ri ∈ div0 ++ mod0, ri ∈ s.row_ids p ∧ (s.get_row ri).m_alive = true ∧
      (s.get_row ri).m_id ≠ x ∧ (p ≠ x → var_free x (s.get_row ri))) :
    solve_mod_div_y s ≠ x ∧ solve_mod_div_z s ≠ x ∧
    safe_step x (fun i => i ∉ div0 ++ mod0) (solve_mod_div_marked s p mod0 div0).1
      (solve_mod_div_bounds s p mod0 div0) ∧
    safe_step x (fun _ => True) s (solve_mod_div_bounds s p mod0 div0) ∧
    pending x p (div0 ++ mod0) (solve_mod_div_bounds s p mod0 div0) ∧
    (∀ j ∈ div0 ++ mod0, ((solve_mod_div_bounds s p mod0 div0).get_row j).m_alive = false) ∧
    (∀ j, var_free x ((solve_mod_div_subst s p mod0 div0).get_row j) →
      var_free x ((solve_mod_div_bounds s p mod0 div0).get_row j)) := by
  have hy : solve_mod_div_y s ≠ x := by
    unfold solve_mod_div_y
    have := h.2.2.2.2.1
    omega
  have hz : solve_mod_div_z s ≠ x := by
    unfold solve_mod_div_z
    have := h.2.2.2.2.1
    omega
  obtain ⟨m1, m2, m3, m4, m5, m6, m7, m8, m9⟩ :=
    solve_mod_div_marked_rows x p s mod0 div0 h hd hm hdisj
  have hpm : pending x p (div0 ++ mod0) (solve_mod_div_marked s p mod0 div0).1 := by
    intro ri hri
    obtain ⟨r1, r2, r3, r4⟩ := hrows ri hri
    refine ⟨fun e => h.2.2.2.1 p (e ▸ r1), lt_of_lt_of_le (alive_lt_length s ri r2) m4.2.1,
      ?_, ?_, fun hp => m4.2.2.2.1 ri (r4 hp)⟩
    · rw [m5]
      exact (alive_not_retired x s h ri r2).2
    · rw [m6]
      exact r3
  have hsub : safe_step x (fun i => i ∉ div0 ++ mod0) (solve_mod_div_marked s p mod0 div0).1
      (solve_mod_div_subst s p mod0 div0) := by
    rw [solve_mod_div_subst_eq]
    refine safe_step_mono (safe_step_rows_fold x _
      (fun st j hst hj => safe_step_subst3 x p _ _ _ hy hz st j hst hj) _ ?_ _ m4.1) ?_
    · intro j hj
      have := ((mem_fresh_ids _ _ _).mp hj).1
      intro e
      exact m4.1.2.2.2.1 p (e ▸ this)
    · intro j hj
      have := ((mem_fresh_ids _ _ _).mp hj).2
      rw [m1] at this
      exact this
  have hb : safe_step x (fun _ => False) (solve_mod_div_subst s p mod0 div0)
      (solve_mod_div_bounds s p mod0 div0) := by
    unfold solve_mod_div_bounds
    exact safe_step_then (safe_step_add_lower_bound x _ _ 0 hsub.1 hz)
      (fun ht => safe_step_add_upper_bound x _ _ _ ht hz) (fun _ h _ _ => h)
  have hmb : safe_step x (fun i => i ∉ div0 ++ mod0) (solve_mod_div_marked s p mod0 div0).1
      (solve_mod_div_bounds s p mod0 div0) :=
    safe_step_trans hsub hb (fun _ h => h) (fun _ hf _ _ => absurd hf id)
  have hpb := pending_frame hpm hmb (fun ri hri hh => hh hri)
  refine ⟨hy, hz, hmb, safe_step_trans m4 hmb (fun _ _ => trivial) (fun _ _ _ _ => trivial),
    hpb, ?_, hb.2.2.2.1⟩
  intro j hj
  obtain ⟨q1, q2, q3, -, -⟩ := hpm j hj
  obtain ⟨e1, -⟩ := hmb.2.2.2.2.2 j (fun hh => hh hj) q2 q3
  rw [e1]
  exact m8 j hj

/-- The call `solve_mod_div` keeps a store whose live rows are without `x` in that condition, given
that the state at the loops over the div and mod rows is in that condition. -/
theorem solve_mod_div_gone (x p : Nat)
    (proj : model_based_opt → Nat → Bool → Except error (model_based_opt × Option def_))
    (cd : Bool)
    (hproj : ∀ s q s1 d, var_gone x s → proj s q cd = Except.ok (s1, d) → var_gone x s1)
    (s : model_based_opt) (mod0 div0 : List Nat)
    (h : store_ok x s) (hd : div0.Nodup) (hm : mod0.Nodup) (hdisj : ∀ j ∈ mod0, j ∉ div0)
    (hrows : ∀ ri ∈ div0 ++ mod0, ri ∈ s.row_ids p ∧ (s.get_row ri).m_alive = true ∧
      (s.get_row ri).m_id ≠ x ∧ (p ≠ x → var_free x (s.get_row ri)))
    (h5 : var_gone x (solve_mod_div_bounds s p mod0 div0))
    (s1 : model_based_opt) (d : Option def_)
    (hres : solve_mod_div proj s p mod0 div0 cd = Except.ok (s1, d)) : var_gone x s1 := by
  obtain ⟨-, m2, m3, -⟩ := solve_mod_div_marked_rows x p s mod0 div0 h hd hm hdisj
  obtain ⟨hy, hz, -, -, hp, -, -⟩ := solve_mod_div_window x p s mod0 div0 h hd hm hdisj hrows
  rw [solve_mod_div_split, m2, m3] at hres
  refine solve_mod_div_tail_gone x p _ _ _ _ proj cd hproj div0 mod0 _ h5 hy hz hp ?_ s1 d hres
  exact List.Nodup.append hd hm (fun j hj1 hj2 => hdisj j hj2 hj1)

theorem solve_divides_prep_eq (s : model_based_opt) (x : Nat) (divide_rows : List Nat) :
    (solve_divides_prep s x divide_rows).1 =
      (fresh_ids [] (((solve_divides_rows s x divide_rows).add_var
          ((s.eval x - solve_divides_u s x divide_rows) / solve_divides_D s divide_rows)
          true).1.row_ids x)).foldl
        (fun st j => (st.replace_var2 j x (solve_divides_D s divide_rows)
          ((solve_divides_rows s x divide_rows).add_var
            ((s.eval x - solve_divides_u s x divide_rows) / solve_divides_D s divide_rows)
            true).2 (solve_divides_u s x divide_rows)).normalize j)
        ((solve_divides_rows s x divide_rows).add_var
          ((s.eval x - solve_divides_u s x divide_rows) / solve_divides_D s divide_rows)
          true).1 := by
  unfold solve_divides_prep
  dsimp only
  exact visited_fold (fun st j => (st.replace_var2 j x (solve_divides_D s divide_rows)
    ((solve_divides_rows s x divide_rows).add_var
      ((s.eval x - solve_divides_u s x divide_rows) / solve_divides_D s divide_rows)
      true).2 (solve_divides_u s x divide_rows)).normalize j) _ _ _

/-- The state of `solve_divides` at its recursive call. -/
theorem solve_divides_prep_step (x p : Nat) (s : model_based_opt) (divide_rows : List Nat)
    (h : store_ok x s) (hdr : ∀ j ∈ divide_rows, j ≠ 0) :
    safe_step x (fun i => i ∈ divide_rows) s (solve_divides_rows s p divide_rows) ∧
    safe_step x (fun _ => True) s (solve_divides_prep s p divide_rows).1 ∧
    (solve_divides_prep s p divide_rows).2 ≠ x ∧
    safe_step x (fun _ => True) (solve_divides_rows s p divide_rows)
      (solve_divides_prep s p divide_rows).1 := by
  have h1 : safe_step x (fun i => i ∈ divide_rows) s (solve_divides_rows s p divide_rows) := by
    unfold solve_divides_rows
    exact safe_step_rows_fold x _ (fun st j hst hj =>
      safe_step_then (safe_step_replace_var1 x j st p _ hst)
        (fun ht => safe_step_normalize x j _ ht hj) (fun _ h _ _ => h)) _ hdr s h
  obtain ⟨a1, a2, a3⟩ := safe_step_add_var x (fun _ => True)
    (solve_divides_rows s p divide_rows) h1.1
    ((s.eval p - solve_divides_u s p divide_rows) / solve_divides_D s divide_rows) true
  have hy : (solve_divides_prep s p divide_rows).2 ≠ x := by
    unfold solve_divides_prep
    dsimp only
    exact Ne.symm a3
  have h2 : safe_step x (fun _ => True) (solve_divides_rows s p divide_rows)
      (solve_divides_prep s p divide_rows).1 := by
    rw [solve_divides_prep_eq]
    refine safe_step_trans a1
      (safe_step_rows_fold x _ (fun st j hst hj =>
        safe_step_then (safe_step_replace_var2 x j st p _ _ _ hst hj (Ne.symm a3))
          (fun ht => safe_step_normalize x j _ ht hj) (fun _ h _ _ => h)) _ ?_ _ a1.1)
      (fun _ _ => trivial) (fun _ _ _ _ => trivial)
    intro j hj
    have := (fresh_ids_nil_mem _ _).mp hj
    intro e
    exact a1.1.2.2.2.1 p (e ▸ this)
  exact ⟨h1, safe_step_trans h1 h2 (fun _ _ => trivial) (fun _ _ _ _ => trivial), hy, h2⟩

/-- The call `solve_divides` keeps a store whose live rows are without `x` in that condition, given
that the state at the recursive call is in that condition. -/
theorem solve_divides_gone (x p : Nat)
    (proj : model_based_opt → Nat → Bool → Except error (model_based_opt × Option def_))
    (cd : Bool)
    (hproj : ∀ s q s1 d, var_gone x s → proj s q cd = Except.ok (s1, d) → var_gone x s1)
    (s : model_based_opt) (divide_rows : List Nat)
    (hprep : var_gone x (solve_divides_prep s p divide_rows).1)
    (s1 : model_based_opt) (d : Option def_)
    (hres : solve_divides proj s p divide_rows cd = Except.ok (s1, d)) : var_gone x s1 := by
  by_cases hD : divide_rows.foldl (fun D idx => lcm D (s.get_row idx).m_mod) 1 = 0
  · unfold solve_divides at hres
    simp only [hD, if_true] at hres
    simp at hres
  · rw [solve_divides_split proj s p divide_rows cd hD] at hres
    rcases hp : proj (solve_divides_prep s p divide_rows).1 (solve_divides_prep s p divide_rows).2
        cd with e | ⟨s3, res⟩
    · rw [hp] at hres
      simp at hres
    · rw [hp] at hres
      dsimp only at hres
      have h3 := hproj _ _ s3 res hprep hp
      unfold solve_divides_finish at hres
      split at hres
      · cases res with
        | none =>
          simp only [Except.ok.injEq, Prod.mk.injEq] at hres
          rw [← hres.1]
          exact h3
        | some d0 =>
          simp only [Except.ok.injEq, Prod.mk.injEq] at hres
          rw [← hres.1]
          exact var_gone_step h3 (safe_step_set_value x (fun _ => True) s3 h3.1 _ _)
      · simp only [Except.ok.injEq, Prod.mk.injEq] at hres
        rw [← hres.1]
        exact h3

/-- The rows that the scan of `project(p, _)` classifies as div or mod rows, in a store
that is `store_ok` for `x`. -/
theorem scan_div_mod_rows (x p : Nat) (s : model_based_opt) (h : store_ok x s) :
    (scan_result s p).div_rows.Nodup ∧ (scan_result s p).mod_rows.Nodup ∧
    (∀ j ∈ (scan_result s p).mod_rows, j ∉ (scan_result s p).div_rows) ∧
    ∀ ri ∈ (scan_result s p).div_rows ++ (scan_result s p).mod_rows,
      ri ∈ s.row_ids p ∧ (s.get_row ri).m_alive = true ∧ s.get_coefficient ri p ≠ 0 ∧
      (s.get_row ri).m_id ≠ x := by
  obtain ⟨-, -, -, ⟨nm, hm⟩, ⟨nd, hd⟩, -, -, -⟩ := scan_lists s p
  refine ⟨nd, nm, ?_, ?_⟩
  · intro j hj hj2
    have := (hd j hj2).2
    rw [(hm j hj).2] at this
    exact absurd this (by decide)
  · intro ri hri
    have h0 : ri ∈ s.row_ids p → ri ≠ 0 := fun hh e => h.2.2.2.1 p (e ▸ hh)
    rcases List.mem_append.mp hri with hri | hri
    · obtain ⟨k1, k2, k3⟩ := (scan_kind_3 s p ri).mp (hd ri hri).2
      exact ⟨(hd ri hri).1, k1, k2, h.2.2.2.2.2 ri (h0 (hd ri hri).1) k1 (Or.inl k3)⟩
    · obtain ⟨k1, k2, k3⟩ := (scan_kind_2 s p ri).mp (hm ri hri).2
      exact ⟨(hm ri hri).1, k1, k2, h.2.2.2.2.2 ri (h0 (hm ri hri).1) k1 (Or.inr k3)⟩

/-- Elimination of another variable keeps `x` out of the live rows: if no live row other
than row 0 has a term on `x`, the same holds after `project(p, _)` returns. -/
theorem project_var_gone (x : Nat) :
    ∀ (fuel : Nat) (s : model_based_opt) (p : Nat) (cd : Bool) (s1 : model_based_opt)
      (d : Option def_), var_gone x s → project fuel s p cd = Except.ok (s1, d) →
      var_gone x s1 := by
  intro fuel
  induction fuel with
  | zero =>
    intro s p cd s1 d _ h
    unfold project at h
    simp at h
  | succ n ih =>
    intro s p cd s1 d hs h
    rw [project_succ] at h
    have hproj : ∀ s q s1 d, var_gone x s → project n s q cd = Except.ok (s1, d) →
        var_gone x s1 := fun s q s1 d hs hh => ih s q cd s1 d hs hh
    split at h
    · obtain ⟨-, -, ⟨-, hdv⟩, -⟩ := scan_lists s p
      obtain ⟨-, p2, -, -⟩ := solve_divides_prep_step x p s (scan_result s p).divide_rows hs.1
        (fun j hj e => hs.1.2.2.2.1 p (e ▸ (hdv j hj).1))
      exact solve_divides_gone x p (project n) cd hproj s _ (var_gone_step hs p2) s1 d h
    · split at h
      · obtain ⟨nd, nm, hdisj, hrows⟩ := scan_div_mod_rows x p s hs.1
        have hrows2 : ∀ ri ∈ (scan_result s p).div_rows ++ (scan_result s p).mod_rows,
            ri ∈ s.row_ids p ∧ (s.get_row ri).m_alive = true ∧
            (s.get_row ri).m_id ≠ x ∧ (p ≠ x → var_free x (s.get_row ri)) := by
          intro ri hri
          obtain ⟨r1, r2, -, r4⟩ := hrows ri hri
          exact ⟨r1, r2, r4, fun _ => hs.2 ri (fun e => hs.1.2.2.2.1 p (e ▸ r1)) r2⟩
        obtain ⟨-, -, -, w4, -⟩ := solve_mod_div_window x p s _ _ hs.1 nd nm hdisj hrows2
        exact solve_mod_div_gone x p (project n) cd hproj s _ _ hs.1 nd nm hdisj hrows2
          (var_gone_step hs w4) s1 d h
      · obtain ⟨t1, t2, e1, e2⟩ := safe_step_project_bounds x p s cd hs
        rw [e1] at h
        simp only [Except.ok.injEq, Prod.mk.injEq] at h
        rw [← h.1]
        exact var_gone_step hs e2

/-- A loop that rewrites the row it visits and removes `x` from a live row with a nonzero
coefficient for `x`: afterwards every such row of the list is without `x`. -/
theorem rows_fold_var_free (x : Nat) (f : model_based_opt → Nat → model_based_opt)
    (hstep : ∀ st j, store_ok x st → j ≠ 0 → safe_step x (fun i => i = j) st (f st j))
    (hfree : ∀ st j, store_ok x st → j ≠ 0 → (st.get_row j).m_alive = true →
      st.get_coefficient j x ≠ 0 → var_free x ((f st j).get_row j)) :
    ∀ L : List Nat, L.Nodup → (∀ j ∈ L, j ≠ 0) → ∀ t : model_based_opt, store_ok x t →
      ∀ j ∈ L, (t.get_row j).m_alive = true → t.get_coefficient j x ≠ 0 →
        var_free x ((L.foldl f t).get_row j) := by
  intro L
  induction L with
  | nil => intro _ _ t _ j hj; exact absurd hj (List.not_mem_nil j)
  | cons a L ih =>
    intro hnd hL t ht j hj hal hco
    rw [List.foldl_cons]
    obtain ⟨ha, hnd2⟩ := List.nodup_cons.mp hnd
    have ha0 := hL a (List.mem_cons_self _ _)
    have h1 := hstep t a ht ha0
    have hL2 : ∀ j ∈ L, j ≠ 0 := fun j hj => hL j (List.mem_cons_of_mem _ hj)
    rcases List.mem_cons.mp hj with rfl | hj2
    · have hv := hfree t j ht ha0 hal hco
      exact (safe_step_rows_fold x f hstep L hL2 _ h1.1).2.2.2.1 j hv
    · have hne : j ≠ a := fun e => ha (e ▸ hj2)
      obtain ⟨k1, k2⟩ := alive_not_retired x t ht j hal
      obtain ⟨e1, -⟩ := h1.2.2.2.2.2 j hne k1 k2
      refine ih hnd2 hL2 _ h1.1 j hj2 (by rw [e1]; exact hal) ?_
      unfold model_based_opt.get_coefficient at hco ⊢
      rw [e1]
      exact hco

/-- In a live row with sorted terms and nonzero coefficients, a zero coefficient for `x`
means that the row has no term on `x`. -/
theorem var_free_of_coefficient (x : Nat) (r : row) (hs : sorted_ids r.m_vars)
    (hnz : ∀ t ∈ r.m_vars, t.m_coeff ≠ 0) (h : r.get_coefficient x = 0) : var_free x r := by
  intro t ht hid
  have := row_get_coefficient_present r x hs t ht hid
  rw [h] at this
  exact hnz t ht this.symm

/-- The condition of a well-formed store before `project(x, _)`: every live row other than
row 0 is without `x` or is listed for `x` with a nonzero coefficient. -/
theorem entry_rows (x : Nat) (s : model_based_opt) (hwf : store_wf s)
    (hidx : ∀ j, j ≠ m_objective_id → (s.get_row j).m_alive = true →
      s.get_coefficient j x ≠ 0 → j ∈ s.row_ids x)
    (hnz : ∀ j, j ≠ 0 → (s.get_row j).m_alive = true →
      ∀ t ∈ (s.get_row j).m_vars, t.m_coeff ≠ 0) :
    ∀ j, j ≠ 0 → (s.get_row j).m_alive = true →
      var_free x (s.get_row j) ∨ (j ∈ s.row_ids x ∧ s.get_coefficient j x ≠ 0) := by
  intro j hj hal
  by_cases hc : s.get_coefficient j x = 0
  · exact Or.inl (var_free_of_coefficient x _ (hwf.2.2 j hal) (hnz j hj hal) hc)
  · exact Or.inr ⟨hidx j hj hal hc, hc⟩

theorem normalize_row_ids (s : model_based_opt) (j : Nat) :
    (s.normalize j).m_var2row_ids = s.m_var2row_ids := by
  unfold model_based_opt.normalize
  simp only
  split_ifs
  all_goals first
    | rfl
    | (unfold model_based_opt.mul; split <;> rfl)

theorem solve_divides_rows_ids (s : model_based_opt) (x : Nat) (divide_rows : List Nat) :
    (solve_divides_rows s x divide_rows).m_var2row_ids = s.m_var2row_ids := by
  unfold solve_divides_rows
  generalize solve_divides_u s x divide_rows = u
  induction divide_rows generalizing s with
  | nil => rfl
  | cons a l ih =>
    rw [List.foldl_cons, ih]
    rw [normalize_row_ids]
    rfl

/-- The state of `solve_divides(x, ...)` at its recursive call has no live row with a term
on `x`. -/
theorem solve_divides_prep_gone (x : Nat) (s : model_based_opt) (h : store_ok x s)
    (hentry : ∀ j, j ≠ 0 → (s.get_row j).m_alive = true →
      var_free x (s.get_row j) ∨ (j ∈ s.row_ids x ∧ s.get_coefficient j x ≠ 0))
    (divide_rows : List Nat) (hnd : divide_rows.Nodup)
    (hdr : ∀ j ∈ divide_rows, j ∈ s.row_ids x ∧ (s.get_row j).m_alive = true ∧
      s.get_coefficient j x ≠ 0) :
    var_gone x (solve_divides_prep s x divide_rows).1 := by
  have h0 : ∀ j, j ∈ s.row_ids x → j ≠ 0 := fun j hj e => h.2.2.2.1 x (e ▸ hj)
  obtain ⟨h1, p2, hy, h2⟩ := solve_divides_prep_step x x s divide_rows h
    (fun j hj => h0 j (hdr j hj).1)
  refine ⟨p2.1, fun j hj hal => ?_⟩
  rcases p2.2.2.2.2.1 j hal with hal_s | hv
  swap
  · exact hv
  rcases hentry j hj hal_s with hv | ⟨hjx, hco⟩
  · exact p2.2.2.2.1 j hv
  · by_cases hjd : j ∈ divide_rows
    · have hv1 : var_free x ((solve_divides_rows s x divide_rows).get_row j) := by
        unfold solve_divides_rows
        refine rows_fold_var_free x _ ?_ ?_ divide_rows hnd (fun j hj => h0 j (hdr j hj).1) s h
          j hjd hal_s hco
        · intro st i hst hi
          exact safe_step_then (safe_step_replace_var1 x i st x _ hst)
            (fun ht => safe_step_normalize x i _ ht hi) (fun _ h _ _ => h)
        · intro st i hst hi _ _
          exact (safe_step_normalize x i _ (safe_step_replace_var1 x i st x _ hst).1
            hi).2.2.2.1 i (replace_var1_var_free st i x _)
      exact h2.2.2.2.1 j hv1
    · obtain ⟨k1, k2⟩ := alive_not_retired x s h j hal_s
      obtain ⟨e1, -⟩ := h1.2.2.2.2.2 j hjd k1 k2
      rw [solve_divides_prep_eq]
      have hrow : ∀ i, ((solve_divides_rows s x divide_rows).add_var
          ((s.eval x - solve_divides_u s x divide_rows) / solve_divides_D s divide_rows)
          true).1.get_row i = (solve_divides_rows s x divide_rows).get_row i := fun i => rfl
      obtain ⟨a1, -, a3⟩ := safe_step_add_var x (fun _ => True)
        (solve_divides_rows s x divide_rows) h1.1
        ((s.eval x - solve_divides_u s x divide_rows) / solve_divides_D s divide_rows) true
      have hidx : ∀ i, i ∈ ((solve_divides_rows s x divide_rows).add_var
          ((s.eval x - solve_divides_u s x divide_rows) / solve_divides_D s divide_rows)
          true).1.row_ids x ↔ i ∈ s.row_ids x := by
        intro i
        rw [row_ids_add_var]
        unfold row_ids
        rw [solve_divides_rows_ids]
      refine rows_fold_var_free x _ ?_ ?_ _ (fresh_ids_nodup _ _) ?_ _ a1.1 j ?_ ?_ ?_
      · intro st i hst hi
        exact safe_step_then (safe_step_replace_var2 x i st x _ _ _ hst hi (Ne.symm a3))
          (fun ht => safe_step_normalize x i _ ht hi) (fun _ h _ _ => h)
      · intro st i hst hi hal2 hco2
        exact (safe_step_normalize x i _
          (safe_step_replace_var2 x i st x _ _ _ hst hi (Ne.symm a3)).1 hi).2.2.2.1 i
          (replace_var2_var_free st i x _ _ _ hco2 hal2 (Ne.symm a3))
      · intro i hi
        exact h0 i ((hidx i).mp ((fresh_ids_nil_mem _ _).mp hi))
      · exact (fresh_ids_nil_mem _ _).mpr ((hidx j).mpr hjx)
      · rw [hrow, e1]
        exact hal_s
      · unfold model_based_opt.get_coefficient at hco ⊢
        rw [hrow, e1]
        exact hco

/-- The state of `solve_mod_div(x, ...)` at the loops over the div and mod rows has no live
row with a term on `x`. -/
theorem solve_mod_div_bounds_gone (x : Nat) (s : model_based_opt) (h : store_ok x s)
    (hentry : ∀ j, j ≠ 0 → (s.get_row j).m_alive = true →
      var_free x (s.get_row j) ∨ (j ∈ s.row_ids x ∧ s.get_coefficient j x ≠ 0))
    (mod0 div0 : List Nat) (hd : div0.Nodup) (hm : mod0.Nodup)
    (hdisj : ∀ j ∈ mod0, j ∉ div0)
    (hrows : ∀ ri ∈ div0 ++ mod0, ri ∈ s.row_ids x ∧ (s.get_row ri).m_alive = true ∧
      (s.get_row ri).m_id ≠ x ∧ (x ≠ x → var_free x (s.get_row ri))) :
    var_gone x (solve_mod_div_bounds s x mod0 div0) := by
  have h0 : ∀ j, j ∈ s.row_ids x → j ≠ 0 := fun j hj e => h.2.2.2.1 x (e ▸ hj)
  obtain ⟨m1, -, -, m4, -, -, m7, -, m9⟩ := solve_mod_div_marked_rows x x s mod0 div0 h hd hm hdisj
  obtain ⟨hy, hz, -, w4, -, w6, w7⟩ := solve_mod_div_window x x s mod0 div0 h hd hm hdisj hrows
  refine ⟨w4.1, fun j hj hal => ?_⟩
  rcases w4.2.2.2.2.1 j hal with hal_s | hv
  swap
  · exact hv
  rcases hentry j hj hal_s with hv | ⟨hjx, hco⟩
  · exact w4.2.2.2.1 j hv
  · by_cases hjd : j ∈ div0 ++ mod0
    · have := w6 j hjd
      rw [hal] at this
      exact absurd this (by simp)
    · apply w7
      rw [solve_mod_div_subst_eq]
      refine rows_fold_var_free x _ ?_ ?_ _ (fresh_ids_nodup _ _) ?_ _ m4.1 j ?_ ?_ ?_
      · intro st i hst hi
        exact safe_step_subst3 x x _ _ _ hy hz st i hst hi
      · intro st i hst hi hal2 hco2
        exact (safe_step_normalize x i _
          (safe_step_replace_var3 x i st x _ _ 1 _ hst hi hy hz).1 hi).2.2.2.1 i
          (replace_var3_var_free st i x _ _ _ 1 hco2 hal2 hy hz)
      · intro i hi
        have := ((mem_fresh_ids _ _ _).mp hi).1
        rw [m7] at this
        exact h0 i this
      · rw [mem_fresh_ids, m7, m1]
        exact ⟨hjx, hjd⟩
      · rw [m9 j hjd]
        exact hal_s
      · unfold model_based_opt.get_coefficient at hco ⊢
        rw [m9 j hjd]
        exact hco

theorem no_div_rows_of_scan (s : model_based_opt) (x : Nat)
    (h1 : (scan_result s x).divide_rows = []) (h2 : (scan_result s x).mod_rows = [])
    (h3 : (scan_result s x).div_rows = []) : no_div_rows s x := by
  obtain ⟨-, -, -, g3, g4, g5⟩ := scan_fold_lists s x (s.row_ids x) {}
  unfold scan_result at h1 h2 h3
  rw [g3] at h1
  rw [g4] at h2
  rw [g5] at h3
  simp only [List.nil_append] at h1 h2 h3
  intro j hj hal hco
  have hf := (fresh_ids_nil_mem (s.row_ids x) j).mpr hj
  refine ⟨?_, ?_, ?_⟩
  · intro hty
    have : j ∈ (fresh_ids [] (s.row_ids x)).filter (fun j => scan_kind s x j = 2) :=
      List.mem_filter.mpr ⟨hf, by simpa using (scan_kind_2 s x j).mpr ⟨hal, hco, hty⟩⟩
    rw [h2] at this
    exact absurd this (List.not_mem_nil j)
  · intro hty
    have : j ∈ (fresh_ids [] (s.row_ids x)).filter (fun j => scan_kind s x j = 3) :=
      List.mem_filter.mpr ⟨hf, by simpa using (scan_kind_3 s x j).mpr ⟨hal, hco, hty⟩⟩
    rw [h3] at this
    exact absurd this (List.not_mem_nil j)
  · intro hty
    have : j ∈ (fresh_ids [] (s.row_ids x)).filter (fun j => scan_kind s x j = 4) :=
      List.mem_filter.mpr ⟨hf, by simpa using (scan_kind_4 s x j).mpr ⟨hal, hco, hty⟩⟩
    rw [h1] at this
    exact absurd this (List.not_mem_nil j)

theorem var_gone_coefficient (x : Nat) (s : model_based_opt) (h : var_gone x s) :
    ∀ j, j ≠ m_objective_id → (s.get_row j).m_alive = true → s.get_coefficient j x = 0 :=
  fun j hj hal => row_get_coefficient_absent _ x (h.2 j hj hal)

/-- C1 (amended): for a store whose retired row ids are distinct dead rows, whose live rows
have terms sorted by strictly ascending id, and in which every live row other than the
objective row (row 0) with a nonzero coefficient for `x` is listed in `m_var2row_ids[x]`:
when `x` occurs in no live divisibility, mod or div row listed for it, `project(x, _)`
returns (for every positive fuel) and afterwards no live row other than the objective row
has a nonzero coefficient for `x`; and whatever rows `x` occurs in (the paths through
`solve_divides` and `solve_mod_div` included), if the store has a row 0 that is neither
retired nor listed in a row index, `x` is one of its variables, the terms of its live rows
have nonzero coefficients and no live row is the mod- or div-definition of `x` itself,
then after `project(x, _)` returns no live row other than the objective row has a nonzero
coefficient for `x`. -/
theorem project_removes_var (s : model_based_opt) (x fuel : Nat) (cd : Bool)
    (hwf : store_wf s)
    (hidx : ∀ j, j ≠ m_objective_id → (s.get_row j).m_alive = true →
      s.get_coefficient j x ≠ 0 → j ∈ s.row_ids x) :
    (no_div_rows s x →
      ∃ s1 d, project (fuel + 1) s x cd = Except.ok (s1, d) ∧
        ∀ j, j ≠ m_objective_id → (s1.get_row j).m_alive = true →
          s1.get_coefficient j x = 0) ∧
    (s.m_rows ≠ [] → 0 ∉ s.m_retired_rows → (∀ v, 0 ∉ s.row_ids v) →
      x < s.m_var2value.length →
      (∀ j, j ≠ m_objective_id → (s.get_row j).m_alive = true →
        ∀ t ∈ (s.get_row j).m_vars, t.m_coeff ≠ 0) →
      (∀ j, j ≠ m_objective_id → (s.get_row j).m_alive = true →
        (s.get_row j).m_type = ineq_type.t_div ∨ (s.get_row j).m_type = ineq_type.t_mod →
        (s.get_row j).m_id ≠ x) →
      ∀ s1 d, project fuel s x cd = Except.ok (s1, d) →
        ∀ j, j ≠ m_objective_id → (s1.get_row j).m_alive = true →
          s1.get_coefficient j x = 0) := by
  refine ⟨fun hnd => project_eliminates s x fuel cd hwf hidx hnd, ?_⟩
  intro hrows h0 hobj hx hnz hdef s1 d hres
  have hok : store_ok x s :=
    ⟨hrows, hwf.2.1, fun j hj => ⟨(hwf.1 j hj).1, fun e => h0 (e ▸ hj)⟩, hobj, hx, hdef⟩
  have hentry := entry_rows x s hwf hidx hnz
  cases fuel with
  | zero =>
    unfold project at hres
    simp at hres
  | succ n =>
    have hproj : ∀ s q s1 d, var_gone x s → project n s q cd = Except.ok (s1, d) →
        var_gone x s1 := fun s q s1 d hs hh => project_var_gone x n s q cd s1 d hs hh
    have hres2 := hres
    rw [project_succ] at hres
    split at hres
    · obtain ⟨-, -, ⟨nd, hdv⟩, -⟩ := scan_lists s x
      have hprep := solve_divides_prep_gone x s hok hentry _ nd (fun j hj =>
        ⟨(hdv j hj).1, ((scan_kind_4 s x j).mp (hdv j hj).2).1,
          ((scan_kind_4 s x j).mp (hdv j hj).2).2.1⟩)
      exact var_gone_coefficient x s1
        (solve_divides_gone x x (project n) cd hproj s _ hprep s1 d hres)
    · split at hres
      · obtain ⟨nd, nm, hdisj, hrw⟩ := scan_div_mod_rows x x s hok
        have hrows2 : ∀ ri ∈ (scan_result s x).div_rows ++ (scan_result s x).mod_rows,
            ri ∈ s.row_ids x ∧ (s.get_row ri).m_alive = true ∧
            (s.get_row ri).m_id ≠ x ∧ (x ≠ x → var_free x (s.get_row ri)) := by
          intro ri hri
          obtain ⟨r1, r2, -, r4⟩ := hrw ri hri
          exact ⟨r1, r2, r4, fun hh => absurd rfl hh⟩
        have h5 := solve_mod_div_bounds_gone x s hok hentry _ _ nd nm hdisj hrows2
        exact var_gone_coefficient x s1
          (solve_mod_div_gone x x (project n) cd hproj s _ _ hok nd nm hdisj hrows2 h5 s1 d hres)
      · rename_i hc1 hc2
        have e1 : (scan_result s x).divide_rows = [] := by
          cases h : (scan_result s x).divide_rows with
          | nil => rfl
          | cons a l => rw [h] at hc1; simp at hc1
        have e2 : (scan_result s x).div_rows = [] := by
          cases h : (scan_result s x).div_rows with
          | nil => rfl
          | cons a l => rw [h] at hc2; simp at hc2
        have e3 : (scan_result s x).mod_rows = [] := by
          cases h : (scan_result s x).mod_rows with
          | nil => rfl
          | cons a l => rw [h] at hc2; simp at hc2
        obtain ⟨s2, d2, hp, hel⟩ := project_eliminates s x n cd hwf hidx
          (no_div_rows_of_scan s x e1 e3 e2)
        rw [hp] at hres2
        simp only [Except.ok.injEq, Prod.mk.injEq] at hres2
        rw [← hres2.1]
        exact hel

theorem rows_all_of_range (s : model_based_opt) (P : row → Prop)
    (h : ∀ j ∈ List.range s.m_rows.length, j = m_objective_id ∨
      (s.get_row j).m_alive = false ∨ P (s.get_row j)) :
    ∀ j, j ≠ m_objective_id → (s.get_row j).m_alive = true → P (s.get_row j) := by
  intro j h0 ha
  rcases h j (List.mem_range.mpr (alive_lt_length s j ha)) with h1 | h1 | h1
  · exact absurd h1 h0
  · rw [ha] at h1; simp at h1
  · exact h1

theorem not_indexed_of_lists (s : model_based_opt) (k : Nat)
    (h : ∀ l ∈ s.m_var2row_ids, k ∉ l) : ∀ v, k ∉ s.row_ids v := by
  intro v
  unfold row_ids
  by_cases hv : v < s.m_var2row_ids.length
  · rw [List.getD_eq_getElem _ _ hv]
    exact h _ (List.getElem_mem hv)
  · rw [List.getD_eq_default _ _ (Nat.le_of_not_lt hv)]
    exact List.not_mem_nil k

set_option maxRecDepth 100000 in
/-- Witness of C1 (amended): on `eq_mod_store` the variable `x` occurs in a mod-definition
row and in an equality row; `project(x, true)` goes through `solve_mod_div` and returns,
and afterwards no live row other than the objective row has a nonzero coefficient for
`x`. -/
theorem project_removes_var_witness :
    (scan_result eq_mod_store 0).mod_rows = [1] ∧
    ∃ s1 d, project 5 eq_mod_store 0 true = Except.ok (s1, d) ∧
      ∀ j, j ≠ m_objective_id → (s1.get_row j).m_alive = true →
        s1.get_coefficient j 0 = 0 :=
  have hok : project 5 eq_mod_store 0 true = Except.ok
      (((project 5 eq_mod_store 0 true).toOption.getD (init, none)).1,
        ((project 5 eq_mod_store 0 true).toOption.getD (init, none)).2) := by decide!
  ⟨by decide!, _, _, hok,
    (project_removes_var eq_mod_store 0 5 true
      (store_wf_of_rows _ (by decide!) (by decide!) (by simp only [sorted_ids]; decide!))
      (indexed_of_rows _ 0 (by decide!))).2
      (by decide!) (by decide!) (not_indexed_of_lists _ 0 (by decide!)) (by decide!)
      (rows_all_of_range _ (fun r => ∀ t ∈ r.m_vars, t.m_coeff ≠ 0) (by decide!))
      (rows_all_of_range _ (fun r => r.m_type = ineq_type.t_div ∨ r.m_type = ineq_type.t_mod →
        r.m_id ≠ 0) (by decide!))
      _ _ hok⟩

/-! ### The free list holds dead rows -/

theorem dead_put_row (s : model_based_opt) (j : Nat) (r : row)
    (hr : r.m_alive = true → (s.get_row j).m_alive = true)
    (h : ∀ i ∈ s.m_retired_rows, (s.get_row i).m_alive = false) :
    ∀ i ∈ (s.put_row j r).m_retired_rows, ((s.put_row j r).get_row i).m_alive = false := by
  intro i hi
  have hi2 : i ∈ s.m_retired_rows := hi
  rw [get_row_put_row]
  split
  · rename_i hc
    by_contra hal
    have h1 := hr (by simpa using hal)
    rw [← hc.1, h i hi2] at h1
    exact absurd h1 (by simp)
  · exact h i hi2

theorem dead_retire_row (s : model_based_opt) (j : Nat)
    (h : ∀ i ∈ s.m_retired_rows, (s.get_row i).m_alive = false) :
    ∀ i ∈ (s.retire_row j).m_retired_rows, ((s.retire_row j).get_row i).m_alive = false := by
  intro i hi
  have hrow : (s.retire_row j).get_row i
      = (s.put_row j { s.get_row j with m_alive := false }).get_row i := rfl
  have hret : (s.retire_row j).m_retired_rows = s.m_retired_rows ++ [j] := rfl
  rw [hrow, get_row_put_row]
  rw [hret] at hi
  split
  · rfl
  · rename_i hc
    rcases List.mem_append.mp hi with h1 | h1
    · exact h i h1
    · have hij : i = j := by simpa using h1
      have hl : ¬ j < s.m_rows.length := fun hl => hc ⟨hij, hl⟩
      rw [hij, get_row_default s j (by omega)]

theorem dead_replace_var1 (s : model_based_opt) (j x : Nat) (C : ℚ)
    (h : ∀ i ∈ s.m_retired_rows, (s.get_row i).m_alive = false) :
    ∀ i ∈ (s.replace_var1 j x C).m_retired_rows,
      ((s.replace_var1 j x C).get_row i).m_alive = false := by
  unfold replace_var1
  exact dead_put_row s j _ (fun hh => hh) h

theorem dead_mul (s : model_based_opt) (j : Nat) (c : ℚ)
    (h : ∀ i ∈ s.m_retired_rows, (s.get_row i).m_alive = false) :
    ∀ i ∈ (s.mul j c).m_retired_rows, ((s.mul j c).get_row i).m_alive = false := by
  unfold model_based_opt.mul
  split
  · exact h
  · exact dead_put_row s j _ (fun hh => hh) h

theorem dead_normalize (s : model_based_opt) (j : Nat)
    (h : ∀ i ∈ s.m_retired_rows, (s.get_row i).m_alive = false) :
    ∀ i ∈ (s.normalize j).m_retired_rows, ((s.normalize j).get_row i).m_alive = false := by
  unfold model_based_opt.normalize
  simp only
  split_ifs
  all_goals first
    | exact h
    | exact dead_retire_row s j h
    | exact dead_mul s j _ h

theorem dead_replace_var2 (s : model_based_opt) (j x y : Nat) (A B : ℚ)
    (h : ∀ i ∈ s.m_retired_rows, (s.get_row i).m_alive = false) :
    ∀ i ∈ (s.replace_var2 j x A y B).m_retired_rows,
      ((s.replace_var2 j x A y B).get_row i).m_alive = false := by
  unfold replace_var2
  dsimp only
  split
  · exact h
  · split
    · exact h
    · exact dead_put_row (s.replace_var1 j x B) j _ (fun hh => hh) (dead_replace_var1 s j x B h)

theorem dead_foldl (f : model_based_opt → Nat → model_based_opt)
    (hf : ∀ st a, (∀ i ∈ st.m_retired_rows, (st.get_row i).m_alive = false) →
      ∀ i ∈ (f st a).m_retired_rows, ((f st a).get_row i).m_alive = false)
    (L : List Nat) (s : model_based_opt)
    (h : ∀ i ∈ s.m_retired_rows, (s.get_row i).m_alive = false) :
    ∀ i ∈ (L.foldl f s).m_retired_rows, ((L.foldl f s).get_row i).m_alive = false := by
  induction L generalizing s with
  | nil => exact h
  | cons a L ih =>
    rw [List.foldl_cons]
    exact ih _ (hf s a h)

/-- The free list of the state of `solve_divides` at its recursive call holds dead rows. -/
theorem dead_solve_divides_prep (s : model_based_opt) (x : Nat) (divide_rows : List Nat)
    (h : ∀ i ∈ s.m_retired_rows, (s.get_row i).m_alive = false) :
    ∀ i ∈ (solve_divides_prep s x divide_rows).1.m_retired_rows,
      ((solve_divides_prep s x divide_rows).1.get_row i).m_alive = false := by
  have h1 : ∀ i ∈ (solve_divides_rows s x divide_rows).m_retired_rows,
      ((solve_divides_rows s x divide_rows).get_row i).m_alive = false := by
    unfold solve_divides_rows
    exact dead_foldl _ (fun st a hst => dead_normalize _ a (dead_replace_var1 st a x _ hst)) _ _ h
  rw [solve_divides_prep_eq]
  exact dead_foldl _ (fun st a hst => dead_normalize _ a (dead_replace_var2 st a x _ _ _ hst))
    _ _ h1

/-! ### The row index of the fresh variable of `solve_divides` -/

theorem row_ids_replace_var2 (s : model_based_opt) (j x y : Nat) (A B : ℚ)
    (hy : y < s.m_var2row_ids.length) :
    (s.replace_var2 j x A y B).m_var2row_ids.length = s.m_var2row_ids.length ∧
    ∀ i, i ∈ (s.replace_var2 j x A y B).row_ids y ↔
      i ∈ s.row_ids y ∨
        (i = j ∧ s.get_coefficient j x ≠ 0 ∧ (s.get_row j).m_alive = true) := by
  unfold replace_var2
  dsimp only
  by_cases hc : s.get_coefficient j x = 0
  · rw [if_pos hc]
    refine ⟨rfl, fun i => ⟨Or.inl, ?_⟩⟩
    rintro (h | ⟨-, h, -⟩)
    · exact h
    · exact absurd hc h
  · rw [if_neg hc]
    by_cases hal : (s.get_row j).m_alive = true
    · rw [if_neg (by simp [hal])]
      refine ⟨?_, fun i => ?_⟩
      · rw [push_row_id_length]
        rfl
      · have e : ∀ (t : model_based_opt) (k : Nat), t.m_var2row_ids = s.m_var2row_ids →
            (i ∈ (t.push_row_id y k).row_ids y ↔ i ∈ s.row_ids y ∨ i = k) := by
          intro t k ht
          unfold push_row_id row_ids
          simp only
          rw [ht, getD_set_eq _ _ _ _ hy]
          simp
        refine (e _ j (by rfl)).trans ?_
        constructor
        · rintro (h | h)
          · exact Or.inl h
          · exact Or.inr ⟨h, hc, hal⟩
        · rintro (h | ⟨h, -, -⟩)
          · exact Or.inl h
          · exact Or.inr h
    · rw [if_pos (by simp [hal])]
      refine ⟨rfl, fun i => ⟨Or.inl, ?_⟩⟩
      rintro (h | ⟨-, -, h⟩)
      · exact h
      · exact absurd h hal

/-- The second loop of `solve_divides` lists for the fresh variable `y` exactly the live
rows with a nonzero coefficient for `x` among the rows it visits. -/
theorem row_ids_replace_fold (x y : Nat) (A B : ℚ) :
    ∀ (L : List Nat) (t : model_based_opt), L.Nodup → y < t.m_var2row_ids.length →
      ∀ i, i ∈ (L.foldl (fun st j => (st.replace_var2 j x A y B).normalize j) t).row_ids y ↔
        i ∈ t.row_ids y ∨
          (i ∈ L ∧ t.get_coefficient i x ≠ 0 ∧ (t.get_row i).m_alive = true) := by
  intro L
  induction L with
  | nil =>
    intro t _ _ i
    simp
  | cons a L ih =>
    intro t hnd hy i
    rw [List.foldl_cons]
    obtain ⟨hna, hndL⟩ := List.nodup_cons.mp hnd
    obtain ⟨hlen, hmem⟩ := row_ids_replace_var2 t a x y A B hy
    have hids : ((t.replace_var2 a x A y B).normalize a).m_var2row_ids
        = (t.replace_var2 a x A y B).m_var2row_ids := normalize_row_ids _ a
    have hrid : ((t.replace_var2 a x A y B).normalize a).row_ids y
        = (t.replace_var2 a x A y B).row_ids y := by
      unfold row_ids
      rw [hids]
    have se : same_except a t ((t.replace_var2 a x A y B).normalize a) :=
      same_except_trans (same_except_replace_var2 t a x y A B) (same_except_normalize _ a)
    have hrow : ∀ k, k ≠ a → ((t.replace_var2 a x A y B).normalize a).get_row k = t.get_row k :=
      se.1
    have hco : ∀ k, k ≠ a →
        ((t.replace_var2 a x A y B).normalize a).get_coefficient k x = t.get_coefficient k x := by
      intro k hk
      unfold model_based_opt.get_coefficient
      rw [hrow k hk]
    rw [ih _ hndL (by rw [hids, hlen]; exact hy) i, hrid, hmem i]
    constructor
    · rintro ((h | ⟨h1, h2, h3⟩) | ⟨h1, h2, h3⟩)
      · exact Or.inl h
      · exact Or.inr ⟨h1 ▸ List.mem_cons_self _ _, h1 ▸ h2, h1 ▸ h3⟩
      · have hia : i ≠ a := fun e => hna (e ▸ h1)
        rw [hco i hia] at h2
        rw [hrow i hia] at h3
        exact Or.inr ⟨List.mem_cons_of_mem _ h1, h2, h3⟩
    · rintro (h | ⟨h1, h2, h3⟩)
      · exact Or.inl (Or.inl h)
      · rcases List.mem_cons.mp h1 with h1 | h1
        · exact Or.inl (Or.inr ⟨h1, h1 ▸ h2, h1 ▸ h3⟩)
        · have hia : i ≠ a := fun e => hna (e ▸ h1)
          refine Or.inr ⟨h1, ?_, ?_⟩
          · rw [hco i hia]; exact h2
          · rw [hrow i hia]; exact h3

theorem scan_divide_rows_mem (s : model_based_opt) (x j : Nat) :
    j ∈ (scan_result s x).divide_rows ↔ j ∈ s.row_ids x ∧ scan_kind s x j = 4 := by
  obtain ⟨-, -, -, h3, -, -⟩ := scan_fold_lists s x (s.row_ids x) {}
  unfold scan_result
  rw [h3]
  simp only [List.nil_append, List.mem_filter, decide_eq_true_eq]
  rw [fresh_ids_nil_mem]

/-- The rows listed for the fresh variable at the recursive call of `solve_divides` are the
live rows listed for `x` that have a nonzero coefficient for `x` and are not among the
divisibility rows. -/
theorem solve_divides_prep_ids (s : model_based_opt) (x : Nat) (divide_rows : List Nat)
    (hwf : store_wf s) (hnd : divide_rows.Nodup)
    (hdiv : ∀ idx ∈ divide_rows, (s.get_row idx).m_alive = true ∧
      (s.get_row idx).m_type = ineq_type.t_divides)
    (hidx : s.m_var2row_ids.length = s.m_var2value.length) (i : Nat) :
    i ∈ (solve_divides_prep s x divide_rows).1.row_ids s.m_var2value.length ↔
      i ∈ s.row_ids x ∧ i ∉ divide_rows ∧ s.get_coefficient i x ≠ 0 ∧
        (s.get_row i).m_alive = true := by
  obtain ⟨r1, -, r3, r4, r5⟩ := solve_divides_rows_spec s x divide_rows hwf hnd hdiv
  have hy : ((solve_divides_rows s x divide_rows).add_var
      ((s.eval x - solve_divides_u s x divide_rows) / solve_divides_D s divide_rows) true).2
      = s.m_var2value.length := by
    show (solve_divides_rows s x divide_rows).m_var2value.length = _
    rw [r1]
  have hlen : s.m_var2value.length < ((solve_divides_rows s x divide_rows).add_var
      ((s.eval x - solve_divides_u s x divide_rows) / solve_divides_D s divide_rows)
      true).1.m_var2row_ids.length := by
    show _ < ((solve_divides_rows s x divide_rows).m_var2row_ids ++ [[]]).length
    rw [r3, List.length_append, hidx]
    simp
  have hrid : ∀ v, ((solve_divides_rows s x divide_rows).add_var
      ((s.eval x - solve_divides_u s x divide_rows) / solve_divides_D s divide_rows)
      true).1.row_ids v = s.row_ids v := by
    intro v
    rw [row_ids_add_var]
    unfold row_ids
    rw [r3]
  have hrow : ∀ k, ((solve_divides_rows s x divide_rows).add_var
      ((s.eval x - solve_divides_u s x divide_rows) / solve_divides_D s divide_rows)
      true).1.get_row k = (solve_divides_rows s x divide_rows).get_row k := fun _ => rfl
  have hnil : s.row_ids s.m_var2value.length = [] := by
    unfold row_ids
    exact List.getD_eq_default _ _ (by omega)
  rw [solve_divides_prep_eq, hy,
    row_ids_replace_fold x s.m_var2value.length _ _ _ _ (fresh_ids_nodup _ _) hlen i,
    hrid, hrid, hnil, fresh_ids_nil_mem]
  unfold model_based_opt.get_coefficient
  rw [hrow]
  constructor
  · rintro (h | ⟨h1, h2, h3⟩)
    · exact absurd h (List.not_mem_nil i)
    · by_cases hi : i ∈ divide_rows
      · exfalso
        rw [r5 i hi] at h2
        apply h2
        exact row_get_coefficient_absent _ x
          (mk_coeffs_without_spec _ x (hwf.2.2 i (hdiv i hi).1)).2
      · rw [r4 i hi] at h2 h3
        exact ⟨h1, hi, h2, h3⟩
  · rintro ⟨h1, hi, h2, h3⟩
    right
    rw [r4 i hi]
    exact ⟨h1, h2, h3⟩

theorem lin_congr_mem (r : row) (val1 val2 : Nat → ℚ)
    (h : ∀ t ∈ r.m_vars, val1 t.m_id = val2 t.m_id) : lin r val1 = lin r val2 := by
  rw [lin_eq, lin_eq, sum_vars_congr_mem val1 val2 _ h]

/-- The definition of `x` on the path through `solve_divides`: if `x` occurs in a live
divisibility row with nonzero modulus, in no live mod or div row, and in a live equality
row with cached value and evaluation 0, in a well-formed store whose rows on `x` have
nonzero coefficients on declared variables, then `project(x, true)` returns a definition
that evaluates to the value `x` had before, and the values of the variables are kept. -/
theorem project_divides_eq_def (s : model_based_opt) (x fuel : Nat)
    (hwf : store_wf s)
    (hidx : s.m_var2row_ids.length = s.m_var2value.length)
    (hmod : ∀ j ∈ s.row_ids x, (s.get_row j).m_alive = true →
      (s.get_row j).m_type = ineq_type.t_divides → (s.get_row j).m_mod ≠ 0)
    (hx : is_int_q (s.eval x) = true)
    (hbound : ∀ j ∈ s.row_ids x, (s.get_row j).m_alive = true →
      ∀ t ∈ (s.get_row j).m_vars, t.m_coeff ≠ 0 ∧ t.m_id < s.m_var2value.length)
    (hmd : ∀ j ∈ s.row_ids x, (s.get_row j).m_alive = true → s.get_coefficient j x ≠ 0 →
      (s.get_row j).m_type ≠ ineq_type.t_mod ∧ (s.get_row j).m_type ≠ ineq_type.t_div)
    (heq : ∃ j ∈ s.row_ids x, (s.get_row j).m_alive = true ∧ s.get_coefficient j x ≠ 0 ∧
      (s.get_row j).m_type = ineq_type.t_eq)
    (hrow : ∀ j ∈ s.row_ids x, (s.get_row j).m_alive = true →
      (s.get_row j).m_type = ineq_type.t_eq →
      s.eval_row (s.get_row j) = 0 ∧ (s.get_row j).m_value = 0)
    (hne : (scan_result s x).divide_rows ≠ []) :
    ∃ s1 d, project (fuel + 2) s x true = Except.ok (s1, some d) ∧
      s1.eval_def d = s.eval x ∧ ∀ v, v < s.m_var2value.length → s1.eval v = s.eval v := by
  have hL := fun j => scan_divide_rows_mem s x j
  obtain ⟨-, -, ⟨hnd, -⟩, -⟩ := scan_lists s x
  have hstep : project (fuel + 2) s x true
      = solve_divides (project (fuel + 1)) s x (scan_result s x).divide_rows true := by
    rw [show fuel + 2 = (fuel + 1) + 1 from rfl, project_succ, if_pos]
    cases hl : (scan_result s x).divide_rows with
    | nil => exact absurd hl hne
    | cons a l => rfl
  generalize (scan_result s x).divide_rows = L at hL hnd hne hstep
  have hdiv : ∀ idx ∈ L, (s.get_row idx).m_alive = true ∧
      (s.get_row idx).m_type = ineq_type.t_divides := by
    intro idx hi
    obtain ⟨k1, -, k3⟩ := (scan_kind_4 s x idx).mp ((hL idx).mp hi).2
    exact ⟨k1, k3⟩
  have hD : L.foldl (fun D idx => lcm D (s.get_row idx).m_mod) 1 ≠ 0 := by
    intro h0
    rcases (lcm_fold_eq_zero s L 1).mp h0 with h1 | ⟨idx, hi, hm⟩
    · exact one_ne_zero h1
    · exact hmod idx ((hL idx).mp hi).1 (hdiv idx hi).1 (hdiv idx hi).2 hm
  obtain ⟨n, hn, hDn, -, -, -, -, -, -, harith⟩ := solve_divides_arith s x L hD hx
  have hDne : solve_divides_D s L ≠ 0 := by
    rw [hDn]
    have : (n : ℕ) ≠ 0 := by omega
    exact_mod_cast this
  obtain ⟨p1, p2, -, -, p5⟩ := solve_divides_prep_spec s x L hwf hD hx hnd hdiv
  have hK := solve_divides_prep_ids s x L hwf hnd hdiv hidx
  have hdead := dead_solve_divides_prep s x L (fun i hi => (hwf.1 i hi).1)
  -- the variable `x` is declared
  have hxlt : x < s.m_var2value.length := by
    obtain ⟨j, hj, hal, hco, -⟩ := heq
    obtain ⟨t, ht, hid, -⟩ := get_coefficient_mem (s.get_row j) x hco
    rw [← hid]
    exact (hbound j hj hal t ht).2
  have hev : ∀ (t : model_based_opt) (v : Nat), t.eval v = t.m_var2value.getD v 0 :=
    fun _ _ => rfl
  have hevy : (solve_divides_prep s x L).1.eval s.m_var2value.length
      = (s.eval x - solve_divides_u s x L) / solve_divides_D s L := by
    rw [hev, p2, getD_append_last]
  have hevv : ∀ v, v < s.m_var2value.length →
      (solve_divides_prep s x L).1.eval v = s.eval v := by
    intro v hv
    rw [hev, hev, p2, getD_append_lt _ _ _ _ hv]
  -- the rows listed for the fresh variable
  have hsub : ∀ j, j ∈ (solve_divides_prep s x L).1.row_ids s.m_var2value.length →
      (j ∈ s.row_ids x ∧ j ∉ L ∧ s.get_coefficient j x ≠ 0 ∧ (s.get_row j).m_alive = true) ∧
      substituted x (solve_divides_D s L) s.m_var2value.length (solve_divides_u s x L)
        (s.get_row j) ((solve_divides_prep s x L).1.get_row j) := by
    intro j hj
    have h := (hK j).mp hj
    exact ⟨h, p5 j h.1 h.2.1 h.2.2.2 h.2.2.1 (hbound j h.1 h.2.2.2)⟩
  generalize hP : solve_divides_prep s x L = P at p1 p2 hK hdead hevy hevv hsub
  have hdm : no_div_rows P.1 s.m_var2value.length := by
    intro j hj _ _
    obtain ⟨⟨h1, h2, h3, h4⟩, k, -, -, -, -, hty, -, -, -⟩ := hsub j hj
    rw [hty]
    refine ⟨(hmd j h1 h4 h3).1, (hmd j h1 h4 h3).2, ?_⟩
    intro h5
    exact h2 ((hL j).mpr ⟨h1, (scan_kind_4 s x j).mpr ⟨h4, h3, h5⟩⟩)
  have heq2 : ∃ j ∈ P.1.row_ids s.m_var2value.length, (P.1.get_row j).m_alive = true ∧
      P.1.get_coefficient j s.m_var2value.length ≠ 0 ∧
      (P.1.get_row j).m_type = ineq_type.t_eq := by
    obtain ⟨j, hj, hal, hco, hty⟩ := heq
    have hjL : j ∉ L := by
      intro hi
      have := (hdiv j hi).2
      rw [hty] at this
      exact absurd this (by decide)
    have hjP := (hK j).mpr ⟨hj, hjL, hco, hal⟩
    obtain ⟨-, k, hk, -, -, hal2, hty2, -, -, hcy⟩ := hsub j hjP
    refine ⟨j, hjP, hal2, ?_, hty2.trans hty⟩
    unfold model_based_opt.get_coefficient
    rw [hcy]
    exact mul_ne_zero (mul_ne_zero hco hDne) (ne_of_gt hk)
  have hrow2 : ∀ j ∈ P.1.row_ids s.m_var2value.length, (P.1.get_row j).m_alive = true →
      (P.1.get_row j).m_type = ineq_type.t_eq →
      sorted_ids (P.1.get_row j).m_vars ∧ P.1.eval_row (P.1.get_row j) = 0 ∧
        (P.1.get_row j).m_value = 0 := by
    intro j hj _ hty
    obtain ⟨⟨h1, -, -, h4⟩, k, -, hlin, hval, -, hty2, -, hsorted, -⟩ := hsub j hj
    obtain ⟨e0, v0⟩ := hrow j h1 h4 (hty2.symm.trans hty)
    refine ⟨hsorted, ?_, ?_⟩
    · rw [eval_row_lin, hlin]
      have : lin (s.get_row j) (Function.update P.1.eval x
          (solve_divides_D s L * P.1.eval s.m_var2value.length + solve_divides_u s x L))
          = lin (s.get_row j) s.eval := by
        apply lin_congr_mem
        intro t ht
        by_cases htx : t.m_id = x
        · rw [htx, Function.update_same, hevy]
          exact harith.symm
        · rw [Function.update_noteq htx]
          exact hevv _ (hbound j h1 h4 t ht).2
      rw [this, ← eval_row_lin, e0, zero_mul]
    · rw [hval, v0, zero_mul]
  obtain ⟨s3, d, hproj, e1, -, e3⟩ :=
    project_eq_def P.1 s.m_var2value.length fuel hdm heq2 hrow2 hdead
  have hv3 : s3.m_var2value = s.m_var2value ++
      [(s.eval x - solve_divides_u s x L) / solve_divides_D s L] := e3.trans p2
  have hval : s3.eval_def ((d.mul_q (solve_divides_D s L)).add_q (solve_divides_u s x L))
      = s.eval x := by
    rw [eval_def_mul_add_q, e1, hevy]
    exact harith.symm
  have hset : (s3.set_value x (s.eval x)).m_var2value = s3.m_var2value := by
    unfold set_value
    simp only
    have hx3 : s.eval x = s3.m_var2value.getD x 0 := by
      rw [hv3, getD_append_lt _ _ _ _ hxlt]
      rfl
    rw [hx3, set_getD_self]
  refine ⟨s3.set_value x (s.eval x),
    (d.mul_q (solve_divides_D s L)).add_q (solve_divides_u s x L), ?_, ?_, ?_⟩
  · rw [hstep, solve_divides_split _ s x L true hD, hP, p1, hproj]
    unfold solve_divides_finish
    simp only [if_true]
    rw [hval]
  · rw [eval_def_congr s3 _ hset, hval]
  · intro v hv
    rw [eval_congr s3 _ hset, hev, hev, hv3, getD_append_lt _ _ _ _ hv]

set_option maxRecDepth 100000 in
/-- C3 (counterexample): `project(x, true)` returns a definition that does not evaluate to
the value `x` had before the projection (i) on `counter_two_sided` (real `x = 3`, rows
`x - 5 <= 0` and `-x + 1 <= 0`, both satisfied): the definition is the constant 5, taken
from the upper bound; (ii) on `eq_mod_store` (integral `x = 7`, `q = 2`, `v = x mod 3 = 1`
and the satisfied equality row `x - 3q - v = 0`): the definition evaluates to 8; (iii) on
`eq_div_store` (integral `x = 5`, `r = 3`, `v = x div 2 = 2` and the satisfied equality
row `x - r - v = 0`): the definition evaluates to 6. -/
theorem project_def_differs :
    ((∀ r ∈ counter_two_sided.m_rows.tail, r.m_alive = true ∧ r.m_value ≤ 0) ∧
      counter_two_sided.eval 0 = 3 ∧
      ∃ s1 d, project 1 counter_two_sided 0 true = Except.ok (s1, some d) ∧
        d = def_.const_def 5 ∧ s1.eval_def d = 5 ∧
        s1.eval_def d ≠ counter_two_sided.eval 0) ∧
    ((eq_mod_store.get_row 1).m_type = ineq_type.t_mod ∧ (eq_mod_store.get_row 1).m_id = 2 ∧
      eq_mod_store.eval 2 = mod (eq_mod_store.eval 0) 3 ∧
      (eq_mod_store.get_row 2).m_type = ineq_type.t_eq ∧
      eq_mod_store.eval_row (eq_mod_store.get_row 2) = 0 ∧
      eq_mod_store.eval 0 = 7 ∧
      ∃ s1 d, project 2 eq_mod_store 0 true = Except.ok (s1, some d) ∧
        s1.eval_def d = 8 ∧ eq_mod_store.eval_def d = 8 ∧
        s1.eval_def d ≠ eq_mod_store.eval 0) ∧
    ((eq_div_store.get_row 1).m_type = ineq_type.t_div ∧ (eq_div_store.get_row 1).m_id = 2 ∧
      eq_div_store.eval 2 = div (eq_div_store.eval 0) 2 ∧
      (eq_div_store.get_row 2).m_type = ineq_type.t_eq ∧
      eq_div_store.eval_row (eq_div_store.get_row 2) = 0 ∧
      eq_div_store.eval 0 = 5 ∧
      ∃ s1 d, project 2 eq_div_store 0 true = Except.ok (s1, some d) ∧
        s1.eval_def d = 6 ∧ eq_div_store.eval_def d = 6 ∧
        s1.eval_def d ≠ eq_div_store.eval 0) := by
  refine ⟨⟨by decide!, by decide!,
    ((project 1 counter_two_sided 0 true).toOption.getD (init, none)).1,
    (((project 1 counter_two_sided 0 true).toOption.getD (init, none)).2).getD
      (def_.const_def 0), ?_⟩,
    ⟨by decide!, by decide!, by decide!, by decide!, by decide!, by decide!,
    ((project 2 eq_mod_store 0 true).toOption.getD (init, none)).1,
    (((project 2 eq_mod_store 0 true).toOption.getD (init, none)).2).getD
      (def_.const_def 0), ?_⟩,
    ⟨by decide!, by decide!, by decide!, by decide!, by decide!, by decide!,
    ((project 2 eq_div_store 0 true).toOption.getD (init, none)).1,
    (((project 2 eq_div_store 0 true).toOption.getD (init, none)).2).getD
      (def_.const_def 0), ?_⟩⟩
  · decide!
  · decide!
  · decide!

/-- C3 (amended): let `x` occur with nonzero coefficient in a live equality row listed
for it, let the live equality rows on `x` have terms sorted by strictly ascending id,
cached value 0 and evaluation 0, and let the retired row ids be dead rows.  (a) If `x`
occurs in no live divisibility, mod or div row, `project(x, true)` returns (for every
positive fuel) a definition whose evaluation, at the assignment before and after the
projection, is the value `x` had before, and the variable values are unchanged.  (b) If `x`
occurs in no live mod or div row (divisibility rows are allowed), in a well-formed store
whose row index has one entry per variable, whose live divisibility rows on `x` have a
nonzero modulus, where `x` has an integer value and the live rows on `x` have nonzero
coefficients on declared variables, `project(x, true)` returns (for every fuel of at least
2) a definition whose evaluation at the assignment after the projection is the value `x`
had before, and the values of the variables declared before the call are unchanged. -/
theorem project_def_exact (s : model_based_opt) (x fuel : Nat)
    (heq : ∃ j ∈ s.row_ids x, (s.get_row j).m_alive = true ∧ s.get_coefficient j x ≠ 0 ∧
      (s.get_row j).m_type = ineq_type.t_eq)
    (hrow : ∀ j ∈ s.row_ids x, (s.get_row j).m_alive = true →
      (s.get_row j).m_type = ineq_type.t_eq →
      sorted_ids (s.get_row j).m_vars ∧ s.eval_row (s.get_row j) = 0 ∧
        (s.get_row j).m_value = 0)
    (hret : ∀ j ∈ s.m_retired_rows, (s.get_row j).m_alive = false) :
    (no_div_rows s x →
      ∃ s1 d, project (fuel + 1) s x true = Except.ok (s1, some d) ∧
        s1.eval_def d = s.eval x ∧ s.eval_def d = s.eval x ∧
        s1.m_var2value = s.m_var2value) ∧
    ((∀ j ∈ s.row_ids x, (s.get_row j).m_alive = true → s.get_coefficient j x ≠ 0 →
        (s.get_row j).m_type ≠ ineq_type.t_mod ∧ (s.get_row j).m_type ≠ ineq_type.t_div) →
      store_wf s → s.m_var2row_ids.length = s.m_var2value.length →
      (∀ j ∈ s.row_ids x, (s.get_row j).m_alive = true →
        (s.get_row j).m_type = ineq_type.t_divides → (s.get_row j).m_mod ≠ 0) →
      is_int_q (s.eval x) = true →
      (∀ j ∈ s.row_ids x, (s.get_row j).m_alive = true →
        ∀ t ∈ (s.get_row j).m_vars, t.m_coeff ≠ 0 ∧ t.m_id < s.m_var2value.length) →
      ∃ s1 d, project (fuel + 2) s x true = Except.ok (s1, some d) ∧
        s1.eval_def d = s.eval x ∧
        ∀ v, v < s.m_var2value.length → s1.eval v = s.eval v) := by
  refine ⟨fun hdm => project_eq_def s x fuel hdm heq hrow hret, ?_⟩
  intro hmd hwf hidx hmod hx hbound
  by_cases hne : (scan_result s x).divide_rows = []
  · have hdm : no_div_rows s x := by
      intro j hj hal hco
      refine ⟨(hmd j hj hal hco).1, (hmd j hj hal hco).2, ?_⟩
      intro hty
      have hm := (scan_divide_rows_mem s x j).mpr ⟨hj, (scan_kind_4 s x j).mpr ⟨hal, hco, hty⟩⟩
      rw [hne] at hm
      exact absurd hm (List.not_mem_nil j)
    obtain ⟨s1, d, h1, h2, -, h4⟩ := project_eq_def s x (fuel + 1) hdm heq hrow hret
    exact ⟨s1, d, h1, h2, fun v _ => congrFun (eval_congr s s1 h4) v⟩
  · exact project_divides_eq_def s x fuel hwf hidx hmod hx hbound hmd heq
      (fun j hj hal hty => (hrow j hj hal hty).2) hne

set_option maxRecDepth 100000 in
/-- Witness of C3 (amended): on `eq_divides_store` the variable `x` occurs in the
divisibility row `3 | x + 2` and in the equality row `x - 2w - 1 = 0`; `project(x, true)`
goes through `solve_divides` and returns a definition that evaluates to 7, the value of
`x` before the call. -/
theorem project_def_exact_witness :
    (scan_result eq_divides_store 0).divide_rows = [1] ∧
    ∃ s1 d, project 2 eq_divides_store 0 true = Except.ok (s1, some d) ∧
      s1.eval_def d = eq_divides_store.eval 0 ∧
      ∀ v, v < eq_divides_store.m_var2value.length → s1.eval v = eq_divides_store.eval v :=
  ⟨by decide!,
    (project_def_exact eq_divides_store 0 0 (by decide!)
      (by simp only [sorted_ids]; decide!) (by decide!)).2
      (by decide!)
      (store_wf_of_rows _ (by decide!) (by decide!) (by simp only [sorted_ids]; decide!))
      (by decide!) (by decide!) (by decide!) (by decide!)⟩

theorem bound_tracked_init (s : model_based_opt) (x : Nat) (is_pos : Bool) :
    bound_tracked s x is_pos {} :=
  ⟨List.nodup_nil, List.nodup_nil, fun j hj => absurd hj (List.not_mem_nil j),
    fun j hj => absurd hj (List.not_mem_nil j), fun i hi => by simp at hi,
    fun j hj => absurd hj (List.not_mem_nil j), fun _ => rfl⟩

/-- A row that is dead or without `x` only enters the visited set. -/
theorem bound_tracked_skip (s : model_based_opt) (x : Nat) (is_pos : Bool) (b : bound_scan)
    (j : Nat) (h : bound_tracked s x is_pos b) (hn : ¬ row_on s x j) :
    bound_tracked s x is_pos { b with visited := b.visited ++ [j] } := by
  obtain ⟨h1, h2, h3, h4, h5, h6, h7⟩ := h
  refine ⟨h1, h2, ?_, ?_, ?_, ?_, h7⟩
  · intro k hk
    obtain ⟨a1, a2⟩ := h3 k hk
    exact ⟨List.mem_append_left _ a1, a2⟩
  · intro k hk
    obtain ⟨a1, a2⟩ := h4 k hk
    exact ⟨List.mem_append_left _ a1, a2⟩
  · intro i hi
    obtain ⟨a1, a2⟩ := h5 i hi
    exact ⟨List.mem_append_left _ a1, a2⟩
  · intro k hk hon
    rcases List.mem_append.mp hk with hk | hk
    · exact h6 k hk hon
    · have : k = j := by simpa using hk
      rw [this] at hon
      exact absurd hon hn

/-- A row of the other side enters `m_below`. -/
theorem bound_tracked_below (s : model_based_opt) (x : Nat) (is_pos : Bool) (b : bound_scan)
    (j : Nat) (h : bound_tracked s x is_pos b) (hv : j ∉ b.visited) (hon : row_on s x j)
    (hs : bound_side s x is_pos j = false) :
    bound_tracked s x is_pos
      { b with visited := b.visited ++ [j], m_below := b.m_below ++ [j] } := by
  obtain ⟨h1, h2, h3, h4, h5, h6, h7⟩ := h
  refine ⟨h1, ?_, ?_, ?_, ?_, ?_, h7⟩
  · refine List.Nodup.append h2 (List.nodup_singleton j) ?_
    intro k hk hk2
    have : k = j := by simpa using hk2
    exact hv (this ▸ (h4 k hk).1)
  · intro k hk
    obtain ⟨a1, a2⟩ := h3 k hk
    exact ⟨List.mem_append_left _ a1, a2⟩
  · intro k hk
    rcases List.mem_append.mp hk with hk | hk
    · obtain ⟨a1, a2⟩ := h4 k hk
      exact ⟨List.mem_append_left _ a1, a2⟩
    · have : k = j := by simpa using hk
      rw [this]
      exact ⟨List.mem_append_right _ (List.mem_singleton_self j), hon, hs⟩
  · intro i hi
    obtain ⟨a1, a2⟩ := h5 i hi
    exact ⟨List.mem_append_left _ a1, a2⟩
  · intro k hk hon2
    rcases List.mem_append.mp hk with hk | hk
    · obtain ⟨a1, a2⟩ := h6 k hk hon2
      exact ⟨a1, fun hh => List.mem_append_left _ (a2 hh)⟩
    · have : k = j := by simpa using hk
      rw [this]
      refine ⟨fun hh => ?_, fun _ => List.mem_append_right _ (List.mem_singleton_self j)⟩
      rw [hs] at hh
      exact absurd hh (by decide)

/-- The first row of the requested side becomes the tracked bound row. -/
theorem bound_tracked_first (s : model_based_opt) (x : Nat) (is_pos : Bool) (b : bound_scan)
    (j : Nat) (h : bound_tracked s x is_pos b) (hon : row_on s x j)
    (hs : bound_side s x is_pos j = true) (hb : b.bound_row_index = none) :
    bound_tracked s x is_pos
      { b with visited := b.visited ++ [j], lub_val := bound_value s x j,
               bound_row_index := some j, bound_coeff := s.get_coefficient j x } := by
  obtain ⟨h1, h2, h3, h4, h5, h6, h7⟩ := h
  have hnil := h7 hb
  refine ⟨h1, h2, ?_, ?_, ?_, ?_, fun hh => by simp at hh⟩
  · intro k hk
    rw [hnil] at hk
    exact absurd hk (List.not_mem_nil k)
  · intro k hk
    obtain ⟨a1, a2⟩ := h4 k hk
    exact ⟨List.mem_append_left _ a1, a2⟩
  · intro i hi
    have : j = i := by simpa using hi
    rw [← this]
    exact ⟨List.mem_append_right _ (List.mem_singleton_self j), hon, hs, rfl, rfl⟩
  · intro k hk hon2
    rcases List.mem_append.mp hk with hk | hk
    · obtain ⟨a1, a2⟩ := h6 k hk hon2
      refine ⟨fun hh => ?_, a2⟩
      rcases a1 hh with a | a
      · rw [hb] at a
        simp at a
      · rw [hnil] at a
        exact absurd a (List.not_mem_nil k)
    · have : k = j := by simpa using hk
      rw [this]
      refine ⟨fun _ => Or.inl rfl, fun hh => ?_⟩
      rw [hs] at hh
      exact absurd hh (by decide)

/-- A row of the requested side that does not replace the tracked bound row enters
`m_above`. -/
theorem bound_tracked_keep (s : model_based_opt) (x : Nat) (is_pos : Bool) (b : bound_scan)
    (j old : Nat) (h : bound_tracked s x is_pos b) (hv : j ∉ b.visited) (hon : row_on s x j)
    (hs : bound_side s x is_pos j = true) (hb : b.bound_row_index = some old)
    (h1p : is_pos = true → b.lub_val ≤ bound_value s x j)
    (h1n : is_pos = false → bound_value s x j ≤ b.lub_val) :
    bound_tracked s x is_pos
      { b with visited := b.visited ++ [j], m_above := b.m_above ++ [j] } := by
  obtain ⟨h1, h2, h3, h4, h5, h6, h7⟩ := h
  have hold := h5 old hb
  refine ⟨?_, h2, ?_, ?_, ?_, ?_, fun hh => by rw [hb] at hh; simp at hh⟩
  · refine List.Nodup.append h1 (List.nodup_singleton j) ?_
    intro k hk hk2
    have : k = j := by simpa using hk2
    exact hv (this ▸ (h3 k hk).1)
  · intro k hk
    rcases List.mem_append.mp hk with hk | hk
    · obtain ⟨a1, a2⟩ := h3 k hk
      exact ⟨List.mem_append_left _ a1, a2⟩
    · have : k = j := by simpa using hk
      rw [this]
      refine ⟨List.mem_append_right _ (List.mem_singleton_self j), hon, hs, ?_, h1p, h1n⟩
      intro e
      rw [hb] at e
      have : old = j := by simpa using e
      exact hv (this ▸ hold.1)
  · intro k hk
    obtain ⟨a1, a2⟩ := h4 k hk
    exact ⟨List.mem_append_left _ a1, a2⟩
  · intro i hi
    obtain ⟨a1, a2⟩ := h5 i hi
    exact ⟨List.mem_append_left _ a1, a2⟩
  · intro k hk hon2
    rcases List.mem_append.mp hk with hk | hk
    · obtain ⟨a1, a2⟩ := h6 k hk hon2
      exact ⟨fun hh => (a1 hh).elim Or.inl (fun a => Or.inr (List.mem_append_left _ a)), a2⟩
    · have : k = j := by simpa using hk
      rw [this]
      refine ⟨fun _ => Or.inr (List.mem_append_right _ (List.mem_singleton_self j)),
        fun hh => ?_⟩
      rw [hs] at hh
      exact absurd hh (by decide)

/-- A row of the requested side that gives a bound at least as tight replaces the tracked
bound row, which enters `m_above`. -/
theorem bound_tracked_swap (s : model_based_opt) (x : Nat) (is_pos : Bool) (b : bound_scan)
    (j old : Nat) (h : bound_tracked s x is_pos b) (hv : j ∉ b.visited) (hon : row_on s x j)
    (hs : bound_side s x is_pos j = true) (hb : b.bound_row_index = some old)
    (h1p : is_pos = true → bound_value s x j ≤ b.lub_val)
    (h1n : is_pos = false → b.lub_val ≤ bound_value s x j) :
    bound_tracked s x is_pos
      { b with visited := b.visited ++ [j], m_above := b.m_above ++ [old],
               lub_val := bound_value s x j, bound_row_index := some j,
               bound_coeff := s.get_coefficient j x } := by
  obtain ⟨h1, h2, h3, h4, h5, h6, h7⟩ := h
  obtain ⟨o1, o2, o3, -, o5⟩ := h5 old hb
  have hoj : old ≠ j := fun e => hv (e ▸ o1)
  refine ⟨?_, h2, ?_, ?_, ?_, ?_, fun hh => by simp at hh⟩
  · refine List.Nodup.append h1 (List.nodup_singleton old) ?_
    intro k hk hk2
    have : k = old := by simpa using hk2
    exact (h3 k hk).2.2.2.1 (this ▸ hb)
  · intro k hk
    rcases List.mem_append.mp hk with hk | hk
    · obtain ⟨a1, a2, a3, -, a5, a6⟩ := h3 k hk
      refine ⟨List.mem_append_left _ a1, a2, a3, ?_, fun hp => le_trans (h1p hp) (a5 hp),
        fun hp => le_trans (a6 hp) (h1n hp)⟩
      intro e
      have : j = k := by simpa using e
      exact hv (this ▸ a1)
    · have : k = old := by simpa using hk
      rw [this]
      refine ⟨List.mem_append_left _ o1, o2, o3, ?_, ?_, ?_⟩
      · intro e
        have : j = old := by simpa using e
        exact hoj this.symm
      · intro hp
        have := h1p hp
        rw [o5] at this
        exact this
      · intro hp
        have := h1n hp
        rw [o5] at this
        exact this
  · intro k hk
    obtain ⟨a1, a2⟩ := h4 k hk
    exact ⟨List.mem_append_left _ a1, a2⟩
  · intro i hi
    have : j = i := by simpa using hi
    rw [← this]
    exact ⟨List.mem_append_right _ (List.mem_singleton_self j), hon, hs, rfl, rfl⟩
  · intro k hk hon2
    rcases List.mem_append.mp hk with hk | hk
    · obtain ⟨a1, a2⟩ := h6 k hk hon2
      refine ⟨fun hh => ?_, a2⟩
      rcases a1 hh with a | a
      · rw [hb] at a
        have : old = k := by simpa using a
        rw [← this]
        exact Or.inr (List.mem_append_right _ (List.mem_singleton_self old))
      · exact Or.inr (List.mem_append_left _ a)
    · have : k = j := by simpa using hk
      rw [this]
      refine ⟨fun _ => Or.inl rfl, fun hh => ?_⟩
      rw [hs] at hh
      exact absurd hh (by decide)

theorem bound_tracked_step (s : model_based_opt) (x : Nat) (is_pos : Bool) (b : bound_scan)
    (j : Nat) (h : bound_tracked s x is_pos b) :
    bound_tracked s x is_pos (find_bound_step s x is_pos b j) ∧
    ∀ i, i ∈ (find_bound_step s x is_pos b j).visited ↔ i ∈ b.visited ∨ i = j := by
  by_cases hv : j ∈ b.visited
  · have e : find_bound_step s x is_pos b j = b := by
      unfold find_bound_step
      rw [if_pos ((contains_iff _ _).mpr hv)]
    rw [e]
    exact ⟨h, fun i => ⟨Or.inl, fun hh => hh.elim id (fun e => e ▸ hv)⟩⟩
  have hvis : ∀ (l : List Nat) (i : Nat), i ∈ l ++ [j] ↔ i ∈ l ∨ i = j := by
    intro l i
    simp
  unfold find_bound_step
  rw [if_neg (fun hc => hv ((contains_iff _ _).mp hc))]
  dsimp only
  by_cases hal : (s.get_row j).m_alive = true
  swap
  · rw [if_pos (by simp [hal])]
    exact ⟨bound_tracked_skip s x is_pos b j h (fun hon => hal hon.1), hvis _⟩
  rw [if_neg (by simp [hal])]
  by_cases ha : s.get_coefficient j x = 0
  · rw [if_pos ha]
    exact ⟨bound_tracked_skip s x is_pos b j h (fun hon => hon.2 ha), hvis _⟩
  rw [if_neg ha]
  have hon : row_on s x j := ⟨hal, ha⟩
  by_cases hs : bound_side s x is_pos j = true
  swap
  · have hs2 : bound_side s x is_pos j = false := by
      cases hh : bound_side s x is_pos j
      · rfl
      · exact absurd hh hs
    rw [if_neg (by unfold bound_side at hs; exact hs)]
    exact ⟨bound_tracked_below s x is_pos b j h hv hon hs2, hvis _⟩
  rw [if_pos (by unfold bound_side at hs; exact hs)]
  cases hb : b.bound_row_index with
  | none =>
    exact ⟨bound_tracked_first s x is_pos b j h hon hs hb, hvis _⟩
  | some old =>
    dsimp only
    have hval : s.eval x - (s.get_row j).m_value / s.get_coefficient j x
        = bound_value s x j := rfl
    rw [hval]
    by_cases hc : ((decide (bound_value s x j = b.lub_val) &&
        decide ((s.get_row j).m_type = ineq_type.t_lt))
        || (is_pos && decide (bound_value s x j < b.lub_val))
        || (!is_pos && decide (bound_value s x j > b.lub_val))) = true
    · rw [if_pos hc]
      refine ⟨bound_tracked_swap s x is_pos b j old h hv hon hs hb ?_ ?_, hvis _⟩
      · intro hp
        by_contra hgt
        push_neg at hgt
        rw [hp] at hc
        simp [ne_of_gt hgt, not_lt.mpr (le_of_lt hgt)] at hc
      · intro hp
        by_contra hgt
        push_neg at hgt
        rw [hp] at hc
        simp [ne_of_lt hgt, not_lt.mpr (le_of_lt hgt)] at hc
    · rw [if_neg hc]
      have hk := bound_tracked_keep s x is_pos b j old h hv hon hs hb (by
        intro hp
        by_contra hgt
        push_neg at hgt
        apply hc
        rw [hp]
        simp [hgt]) (by
        intro hp
        by_contra hgt
        push_neg at hgt
        apply hc
        rw [hp]
        simp [hgt])
      rw [hb] at hk
      exact ⟨hk, hvis _⟩

theorem bound_tracked_fold (s : model_based_opt) (x : Nat) (is_pos : Bool) (l : List Nat)
    (b : bound_scan) (h : bound_tracked s x is_pos b) :
    bound_tracked s x is_pos (l.foldl (find_bound_step s x is_pos) b) ∧
    ∀ i, i ∈ (l.foldl (find_bound_step s x is_pos) b).visited ↔ i ∈ b.visited ∨ i ∈ l := by
  induction l generalizing b with
  | nil => exact ⟨h, fun i => by simp⟩
  | cons a l ih =>
    rw [List.foldl_cons]
    obtain ⟨h1, h2⟩ := bound_tracked_step s x is_pos b a h
    obtain ⟨i1, i2⟩ := ih _ h1
    refine ⟨i1, fun i => ?_⟩
    rw [i2 i, h2 i, List.mem_cons]
    tauto

/-- The result of `find_bound(x, _, _, is_pos)`: the visited rows are the rows listed for
`x`, and the locals are as described by `bound_tracked`. -/
theorem find_bound_spec (s : model_based_opt) (x : Nat) (is_pos : Bool) :
    bound_tracked s x is_pos (s.find_bound x is_pos) ∧
    ∀ i, i ∈ (s.find_bound x is_pos).visited ↔ i ∈ s.row_ids x := by
  obtain ⟨h1, h2⟩ := bound_tracked_fold s x is_pos (s.row_ids x) {}
    (bound_tracked_init s x is_pos)
  refine ⟨h1, fun i => ?_⟩
  unfold find_bound
  rw [h2 i]
  constructor
  · rintro (h | h)
    · exact absurd h (List.not_mem_nil i)
    · exact h
  · exact Or.inr

theorem tie_tracked_step (s : model_based_opt) (x : Nat) (is_pos : Bool) (b : bound_scan)
    (j : Nat) (h : bound_tracked s x is_pos b) (ht : tie_tracked s x b) :
    tie_tracked s x (find_bound_step s x is_pos b j) := by
  by_cases hv : j ∈ b.visited
  · have e : find_bound_step s x is_pos b j = b := by
      unfold find_bound_step
      rw [if_pos ((contains_iff _ _).mpr hv)]
    rw [e]
    exact ht
  unfold find_bound_step
  rw [if_neg (fun hc => hv ((contains_iff _ _).mp hc))]
  dsimp only
  by_cases hal : (s.get_row j).m_alive = true
  swap
  · rw [if_pos (by simp [hal])]
    exact ht
  rw [if_neg (by simp [hal])]
  by_cases ha : s.get_coefficient j x = 0
  · rw [if_pos ha]
    exact ht
  rw [if_neg ha]
  by_cases hs : bound_side s x is_pos j = true
  swap
  · rw [if_neg (by unfold bound_side at hs; exact hs)]
    exact ht
  rw [if_pos (by unfold bound_side at hs; exact hs)]
  obtain ⟨-, -, h3, -, h5, -, h7⟩ := h
  cases hb : b.bound_row_index with
  | none =>
    dsimp only
    intro i _ k hk
    rw [h7 hb] at hk
    exact absurd hk (List.not_mem_nil k)
  | some old =>
    dsimp only
    have hval : s.eval x - (s.get_row j).m_value / s.get_coefficient j x
        = bound_value s x j := rfl
    rw [hval]
    by_cases hc : ((decide (bound_value s x j = b.lub_val) &&
        decide ((s.get_row j).m_type = ineq_type.t_lt))
        || (is_pos && decide (bound_value s x j < b.lub_val))
        || (!is_pos && decide (bound_value s x j > b.lub_val))) = true
    · rw [if_pos hc]
      have hp : is_pos = true → bound_value s x j ≤ b.lub_val := by
        intro hp
        by_contra hgt
        push_neg at hgt
        rw [hp] at hc
        simp [ne_of_gt hgt, not_lt.mpr (le_of_lt hgt)] at hc
      have hn : is_pos = false → b.lub_val ≤ bound_value s x j := by
        intro hp
        by_contra hgt
        push_neg at hgt
        rw [hp] at hc
        simp [ne_of_lt hgt, not_lt.mpr (le_of_lt hgt)] at hc
      have hstrict : bound_value s x j = b.lub_val →
          (s.get_row j).m_type = ineq_type.t_lt := by
        intro e
        rw [e] at hc
        simpa using hc
      intro i hi k hk hkv _
      have hij : j = i := by simpa using hi
      replace hkv : bound_value s x k = bound_value s x j := hkv
      rw [← hij]
      apply hstrict
      rcases List.mem_append.mp hk with hk | hk
      · obtain ⟨-, -, -, -, a5, a6⟩ := h3 k hk
        cases is_pos
        · exact le_antisymm (hkv ▸ a6 rfl) (hn rfl)
        · exact le_antisymm (hp rfl) (hkv ▸ a5 rfl)
      · have hko : k = old := by simpa using hk
        rw [hko] at hkv
        rw [(h5 old hb).2.2.2.2]
        exact hkv.symm
    · rw [if_neg hc]
      intro i hi k hk hkv hkt
      replace hi : some old = some i := hi
      replace hkv : bound_value s x k = b.lub_val := hkv
      rcases List.mem_append.mp hk with hk | hk
      · exact ht i (hb.trans hi) k hk hkv hkt
      · exfalso
        have hkj : k = j := by simpa using hk
        rw [hkj] at hkv hkt
        apply hc
        simp [hkv, hkt]

theorem tie_tracked_fold (s : model_based_opt) (x : Nat) (is_pos : Bool) (l : List Nat)
    (b : bound_scan) (h : bound_tracked s x is_pos b) (ht : tie_tracked s x b) :
    tie_tracked s x (l.foldl (find_bound_step s x is_pos) b) := by
  induction l generalizing b with
  | nil => exact ht
  | cons a l ih =>
    rw [List.foldl_cons]
    exact ih _ (bound_tracked_step s x is_pos b a h).1 (tie_tracked_step s x is_pos b a h ht)

/-- The tie rule holds for the result of `find_bound`. -/
theorem find_bound_tie (s : model_based_opt) (x : Nat) (is_pos : Bool) :
    tie_tracked s x (s.find_bound x is_pos) := by
  unfold find_bound
  exact tie_tracked_fold s x is_pos _ {} (bound_tracked_init s x is_pos)
    (fun i hi => by simp at hi)

theorem foldl_push_ids_length (k : Nat) (l : List Nat) (s : model_based_opt) :
    (l.foldl (fun st v => st.push_row_id v k) s).m_var2row_ids.length
      = s.m_var2row_ids.length := by
  induction l generalizing s with
  | nil => rfl
  | cons a l ih => rw [List.foldl_cons, ih, push_row_id_length]

theorem foldl_push_mono (k : Nat) (l : List Nat) (s : model_based_opt) (v i : Nat)
    (h : i ∈ s.row_ids v) : i ∈ (l.foldl (fun st v => st.push_row_id v k) s).row_ids v := by
  induction l generalizing s with
  | nil => exact h
  | cons a l ih =>
    rw [List.foldl_cons]
    exact ih _ (row_ids_push_mono s a k v i h)

theorem mem_foldl_push (k : Nat) (l : List Nat) (s : model_based_opt) (v i : Nat)
    (h : i ∈ (l.foldl (fun st v => st.push_row_id v k) s).row_ids v) :
    i ∈ s.row_ids v ∨ i = k := by
  induction l generalizing s with
  | nil => exact Or.inl h
  | cons a l ih =>
    rw [List.foldl_cons] at h
    rcases ih _ h with h1 | h1
    · exact mem_row_ids_push s a k v i h1
    · exact Or.inr h1

/-- The row index after `mul_add`. -/
theorem mul_add_ids (s : model_based_opt) (b : Bool) (j : Nat) (c : ℚ) (k : Nat) :
    (s.mul_add b j c k).m_var2row_ids.length = s.m_var2row_ids.length ∧
    (∀ v i, i ∈ s.row_ids v → i ∈ (s.mul_add b j c k).row_ids v) ∧
    (∀ v i, i ∈ (s.mul_add b j c k).row_ids v →
      i ∈ s.row_ids v ∨ (i = j ∧ j ≠ m_objective_id)) := by
  unfold model_based_opt.mul_add
  by_cases hc : c = 0
  · rw [if_pos hc]
    exact ⟨rfl, fun _ _ h => h, fun _ _ h => Or.inl h⟩
  · rw [if_neg hc]
    dsimp only
    by_cases hobj : j ≠ m_objective_id
    · rw [if_pos hobj]
      refine ⟨?_, ?_, ?_⟩
      · exact foldl_push_ids_length j _ s
      · intro v i h
        exact foldl_push_mono j _ s v i h
      · intro v i h
        rcases mem_foldl_push j _ s v i h with h1 | h1
        · exact Or.inl h1
        · exact Or.inr ⟨h1, hobj⟩
    · rw [if_neg hobj]
      exact ⟨rfl, fun _ _ h => h, fun _ _ h => Or.inl h⟩

/-- The step `mul_add(same_sign, j, c, k)` on well-formed rows `j != k`. -/
theorem mul_add_step (s : model_based_opt) (b : Bool) (j : Nat) (c : ℚ) (k : Nat)
    (hj : j < s.m_rows.length) (h1 : row_wf s j) (h2 : row_wf s k) :
    row_wf (s.mul_add b j c k) j ∧
    (∀ val, lin ((s.mul_add b j c k).get_row j) val
      = lin (s.get_row j) val + c * lin (s.get_row k) val) ∧
    ((s.mul_add b j c k).get_row j).m_value
      = (s.get_row j).m_value + c * (s.get_row k).m_value ∧
    ((s.mul_add b j c k).get_row j).m_alive = (s.get_row j).m_alive ∧
    (∀ v, (s.mul_add b j c k).get_coefficient j v
      = s.get_coefficient j v + c * s.get_coefficient k v) ∧
    (∀ w ∈ ((s.mul_add b j c k).get_row j).m_vars,
      (∃ t ∈ (s.get_row j).m_vars, t.m_id = w.m_id) ∨
      (∃ t ∈ (s.get_row k).m_vars, t.m_id = w.m_id)) ∧
    same_except j s (s.mul_add b j c k) ∧
    (j ≠ m_objective_id → row_listed s j → row_listed (s.mul_add b j c k) j) ∧
    (c ≠ 0 → ((s.mul_add b j c k).get_row j).m_type
      = resolved_type b (s.get_row j).m_type (s.get_row k).m_type) := by
  obtain ⟨s1, n1, v1⟩ := h1
  obtain ⟨s2, n2, v2⟩ := h2
  obtain ⟨a1, a2, -, a4, a5, a6, a7⟩ := mul_add_row_spec s b j c k hj s1 s2
  obtain ⟨l1, -, -, -, -, l6, -⟩ := mul_add_lin s b j c k hj
  have se := same_except_mul_add s b j c k
  have ev : (s.mul_add b j c k).eval = s.eval := eval_congr _ _ se.2.1
  obtain ⟨i1, i2, -⟩ := mul_add_ids s b j c k
  refine ⟨⟨a1, ?_, ?_⟩, l1, a4, a5, a2, a6, se, ?_, fun hc => (l6 hc).trans rfl⟩
  · intro w hw
    refine ⟨a7 (fun t ht => (n1 t ht).1) (fun t ht => (n2 t ht).1) w hw, ?_⟩
    rw [i1]
    rcases a6 w hw with ⟨t, ht, he⟩ | ⟨t, ht, he⟩
    · rw [← he]; exact (n1 t ht).2
    · rw [← he]; exact (n2 t ht).2
  · rw [ev, l1, a4, v1, v2]
  · intro hobj hidx
    by_cases hc : c = 0
    · subst hc
      rw [mul_add_zero]
      exact hidx
    · intro w hw
      have hr := get_row_mul_add s b j c k hc hj
      have hv : ((s.mul_add b j c k).get_row j).m_vars =
          (mul_add_merge c ((s.get_row j).m_vars.length + (s.get_row k).m_vars.length + 1)
            (s.get_row j).m_vars (s.get_row k).m_vars).1 := by rw [hr]
      rw [hv] at hw
      obtain ⟨m1, m2⟩ := merge_pushed c
        ((s.get_row j).m_vars.length + (s.get_row k).m_vars.length + 1)
        (s.get_row j).m_vars (s.get_row k).m_vars (le_refl _)
      obtain ⟨f1, f2⟩ := row_ids_foldl_push_mem j
        (mul_add_merge c ((s.get_row j).m_vars.length + (s.get_row k).m_vars.length + 1)
          (s.get_row j).m_vars (s.get_row k).m_vars).2 s
        (fun v hv => by
          obtain ⟨t, ht, he⟩ := m2 v hv
          rw [← he]; exact (n2 t ht).2)
      have hids : (s.mul_add b j c k).row_ids w.m_id =
          ((mul_add_merge c ((s.get_row j).m_vars.length + (s.get_row k).m_vars.length + 1)
            (s.get_row j).m_vars (s.get_row k).m_vars).2.foldl
              (fun st v => st.push_row_id v j) s).row_ids w.m_id := by
        unfold model_based_opt.mul_add
        simp only [hc, if_false, ne_eq, hobj, not_false_eq_true, if_true]
        rfl
      rw [hids]
      rcases m1 w hw with ⟨t, ht, he⟩ | h
      · rw [← he]
        exact f1 _ _ (hidx t ht)
      · exact f2 _ h

/-- A well-formed row that is not touched stays well formed when the values and the length
of the index are kept. -/
theorem row_wf_congr (s t : model_based_opt) (j : Nat) (h : row_wf s j)
    (hr : t.get_row j = s.get_row j) (hv : t.m_var2value = s.m_var2value)
    (hl : t.m_var2row_ids.length = s.m_var2row_ids.length) : row_wf t j := by
  unfold row_wf at h ⊢
  rw [hr, hl, eval_congr s t hv]
  exact h

theorem row_listed_congr (s t : model_based_opt) (j : Nat) (h : row_listed s j)
    (hr : t.get_row j = s.get_row j)
    (hm : ∀ v i, i ∈ s.row_ids v → i ∈ t.row_ids v) : row_listed t j := by
  unfold row_listed at h ⊢
  rw [hr]
  exact fun w hw => hm _ _ (h w hw)

/-- The step `resolve(B, a, j, x)` on a real variable. -/
theorem resolve_real_eq (s : model_based_opt) (B : Nat) (a : ℚ) (j x : Nat)
    (hint : s.is_int x = false) (hal : (s.get_row j).m_alive = true) :
    s.resolve B a j x =
      s.mul_add (decide (j ≠ m_objective_id) &&
        (decide (0 < a) == decide (0 < s.get_coefficient j x)))
        j (-(s.get_coefficient j x) / a) B := by
  unfold resolve
  simp only [hal, hint, if_true, Bool.false_eq_true, if_false]

/-- The loops of `maximize` over `m_above` and `m_below` on a real variable `x`: every
visited row `j` becomes `row j + (-a_j / a) * row B` and stays well formed, live and listed
in the index, without a term on `x`, with the type given by `resolved_type`; the other
rows, the values and the integrality flags are unchanged, and the index only gains entries
for the visited rows. -/
theorem resolve_fold_spec (B x : Nat) (a : ℚ) (ha : a ≠ 0) :
    ∀ (L : List Nat) (s : model_based_opt), L.Nodup → B ∉ L → m_objective_id ∉ L →
      s.is_int x = false → s.get_coefficient B x = a → row_wf s B →
      (∀ j ∈ L, (s.get_row j).m_alive = true ∧ row_wf s j ∧ row_listed s j ∧
        s.get_coefficient j x ≠ 0) →
      (∀ i, i ∉ L → (L.foldl (fun st j => st.resolve B a j x) s).get_row i = s.get_row i) ∧
      (L.foldl (fun st j => st.resolve B a j x) s).m_var2value = s.m_var2value ∧
      (L.foldl (fun st j => st.resolve B a j x) s).m_var2is_int = s.m_var2is_int ∧
      (L.foldl (fun st j => st.resolve B a j x) s).m_rows.length = s.m_rows.length ∧
      (L.foldl (fun st j => st.resolve B a j x) s).m_var2row_ids.length
        = s.m_var2row_ids.length ∧
      (∀ v i, i ∈ s.row_ids v → i ∈ (L.foldl (fun st j => st.resolve B a j x) s).row_ids v) ∧
      (∀ v i, i ∈ (L.foldl (fun st j => st.resolve B a j x) s).row_ids v →
        i ∈ s.row_ids v ∨ i ∈ L) ∧
      ∀ j ∈ L,
        row_wf (L.foldl (fun st j => st.resolve B a j x) s) j ∧
        row_listed (L.foldl (fun st j => st.resolve B a j x) s) j ∧
        ((L.foldl (fun st j => st.resolve B a j x) s).get_row j).m_alive = true ∧
        (L.foldl (fun st j => st.resolve B a j x) s).get_coefficient j x = 0 ∧
        (∀ val, lin ((L.foldl (fun st j => st.resolve B a j x) s).get_row j) val
          = lin (s.get_row j) val + (-(s.get_coefficient j x) / a) * lin (s.get_row B) val) ∧
        ((L.foldl (fun st j => st.resolve B a j x) s).get_row j).m_value
          = (s.get_row j).m_value + (-(s.get_coefficient j x) / a) * (s.get_row B).m_value ∧
        (∀ w ∈ ((L.foldl (fun st j => st.resolve B a j x) s).get_row j).m_vars,
          (∃ t ∈ (s.get_row j).m_vars, t.m_id = w.m_id) ∨
          (∃ t ∈ (s.get_row B).m_vars, t.m_id = w.m_id)) ∧
        ((L.foldl (fun st j => st.resolve B a j x) s).get_row j).m_type
          = resolved_type (decide (0 < a) == decide (0 < s.get_coefficient j x))
              (s.get_row j).m_type (s.get_row B).m_type := by
  intro L
  induction L with
  | nil =>
    intro s _ _ _ _ _ _ _
    exact ⟨fun _ _ => rfl, rfl, rfl, rfl, rfl, fun _ _ h => h, fun _ _ h => Or.inl h,
      fun j hj => absurd hj (List.not_mem_nil j)⟩
  | cons j L ih =>
    intro s hnd hB h0 hint haB hwB hL
    rw [List.foldl_cons]
    obtain ⟨hjL, hndL⟩ := List.nodup_cons.mp hnd
    have hjB : j ≠ B := fun e => hB (e ▸ List.mem_cons_self _ _)
    have hj0 : j ≠ m_objective_id := fun e => h0 (e ▸ List.mem_cons_self _ _)
    obtain ⟨hjal, hjwf, hjli, hjco⟩ := hL j (List.mem_cons_self _ _)
    have hjlt := alive_lt_length s j hjal
    rw [resolve_real_eq s B a j x hint hjal]
    have hb : (decide (j ≠ m_objective_id) &&
        (decide (0 < a) == decide (0 < s.get_coefficient j x)))
        = (decide (0 < a) == decide (0 < s.get_coefficient j x)) := by
      rw [decide_eq_true hj0, Bool.true_and]
    rw [hb]
    have hcne : -(s.get_coefficient j x) / a ≠ 0 :=
      div_ne_zero (neg_ne_zero.mpr hjco) ha
    obtain ⟨m1, m2, m3, m4, m5, m6, se, m8, m9⟩ :=
      mul_add_step s (decide (0 < a) == decide (0 < s.get_coefficient j x)) j
        (-(s.get_coefficient j x) / a) B hjlt hjwf hwB
    have m10 := m9 hcne
    clear m9 hb
    obtain ⟨i1, i2, i3⟩ := mul_add_ids s
      (decide (0 < a) == decide (0 < s.get_coefficient j x)) j (-(s.get_coefficient j x) / a) B
    generalize hs1 : s.mul_add (decide (0 < a) == decide (0 < s.get_coefficient j x)) j
      (-(s.get_coefficient j x) / a) B = s1 at *
    have hrowB : s1.get_row B = s.get_row B := se.1 B (Ne.symm hjB)
    have hint1 : s1.is_int x = false := by
      unfold model_based_opt.is_int at hint ⊢
      rw [se.2.2.1]; exact hint
    have haB1 : s1.get_coefficient B x = a := by
      unfold model_based_opt.get_coefficient at haB ⊢
      rw [hrowB]; exact haB
    have hwB1 : row_wf s1 B := row_wf_congr s s1 B hwB hrowB se.2.1 i1
    have hL1 : ∀ k ∈ L, (s1.get_row k).m_alive = true ∧ row_wf s1 k ∧ row_listed s1 k ∧
        s1.get_coefficient k x ≠ 0 := by
      intro k hk
      have hkj : k ≠ j := fun e => hjL (e ▸ hk)
      obtain ⟨q1, q2, q3, q4⟩ := hL k (List.mem_cons_of_mem _ hk)
      have hr := se.1 k hkj
      refine ⟨by rw [hr]; exact q1, row_wf_congr s s1 k q2 hr se.2.1 i1,
        row_listed_congr s s1 k q3 hr i2, ?_⟩
      unfold model_based_opt.get_coefficient at q4 ⊢
      rw [hr]; exact q4
    obtain ⟨r1, r2, r3, r4, r5, r6, r7, r8⟩ := ih s1 hndL
      (fun h => hB (List.mem_cons_of_mem _ h)) (fun h => h0 (List.mem_cons_of_mem _ h))
      hint1 haB1 hwB1 hL1
    generalize hT : L.foldl (fun st j => st.resolve B a j x) s1 = T at *
    refine ⟨?_, r2.trans se.2.1, r3.trans se.2.2.1, r4.trans se.2.2.2, r5.trans i1, ?_, ?_, ?_⟩
    · intro i hi
      have hij : i ≠ j := fun e => hi (e ▸ List.mem_cons_self _ _)
      rw [r1 i (fun h => hi (List.mem_cons_of_mem _ h)), se.1 i hij]
    · intro v i h
      exact r6 v i (i2 v i h)
    · intro v i h
      rcases r7 v i h with h1 | h1
      · rcases i3 v i h1 with h2 | h2
        · exact Or.inl h2
        · exact Or.inr (h2.1 ▸ List.mem_cons_self _ _)
      · exact Or.inr (List.mem_cons_of_mem _ h1)
    · intro k hk
      rcases List.mem_cons.mp hk with hk | hk
      · subst hk
        have hr := r1 k hjL
        refine ⟨row_wf_congr s1 T k m1 hr r2 r5, row_listed_congr s1 T k (m8 hj0 hjli) hr r6,
          ?_, ?_, ?_, ?_, ?_, ?_⟩
        · rw [hr, m4]; exact hjal
        · unfold model_based_opt.get_coefficient
          rw [hr]
          have := m5 x
          unfold model_based_opt.get_coefficient at this haB
          rw [this, haB]
          field_simp
        · intro val
          rw [hr]; exact m2 val
        · rw [hr]; exact m3
        · rw [hr]; exact m6
        · rw [hr]; exact m10
      · have hkj : k ≠ j := fun e => hjL (e ▸ hk)
        obtain ⟨q1, q2, q3, q4, q5, q6, q7, q8⟩ := r8 k hk
        have hr := se.1 k hkj
        refine ⟨q1, q2, q3, q4, ?_, ?_, ?_, ?_⟩
        · intro val
          rw [q5 val, hr, hrowB]
          unfold model_based_opt.get_coefficient
          rw [hr]
        · rw [q6, hr, hrowB]
          unfold model_based_opt.get_coefficient
          rw [hr]
        · intro w hw
          have := q7 w hw
          rw [hr, hrowB] at this
          exact this
        · rw [q8, hr, hrowB]
          unfold model_based_opt.get_coefficient
          rw [hr]

/-- The iteration of the loop of `maximize` that finds a bound row, written out. -/
theorem maximize_iteration_cases (s s4 : model_based_opt) (B x : Nat)
    (h : maximize_iteration s = some (s4, B, x)) :
    ∃ v, s.objective.m_vars.getLast? = some v ∧ x = v.m_id ∧
      (s.find_bound x (decide (0 < v.m_coeff))).bound_row_index = some B ∧
      s4 = ((((s.find_bound x (decide (0 < v.m_coeff))).m_above ++
          (s.find_bound x (decide (0 < v.m_coeff))).m_below).foldl
          (fun st j => st.resolve B (s.find_bound x (decide (0 < v.m_coeff))).bound_coeff j x)
          s).mul_add false m_objective_id
          (-v.m_coeff / (s.find_bound x (decide (0 < v.m_coeff))).bound_coeff) B).retire_row
          B := by
  unfold maximize_iteration at h
  cases hv : s.objective.m_vars.getLast? with
  | none => rw [hv] at h; simp at h
  | some v =>
    rw [hv] at h
    simp only at h
    cases hb : (s.find_bound v.m_id (decide (0 < v.m_coeff))).bound_row_index with
    | none => rw [hb] at h; simp at h
    | some i =>
      rw [hb] at h
      simp only [Option.some.injEq, Prod.mk.injEq] at h
      obtain ⟨h1, h2, h3⟩ := h
      subst h2
      subst h3
      refine ⟨v, rfl, rfl, hb, ?_⟩
      rw [List.foldl_append]
      exact h1.symm

/-- The side test of `find_bound` for the sign of `k`. -/
theorem side_iff (s : model_based_opt) (x : Nat) (k : ℚ) (j : Nat) :
    (bound_side s x (decide (0 < k)) j = true ↔
      ((s.get_row j).m_type = ineq_type.t_eq ∨ (0 < s.get_coefficient j x ↔ 0 < k))) := by
  unfold bound_side
  simp only [Bool.or_eq_true, beq_iff_eq, decide_eq_decide, decide_eq_true_eq]
  exact Or.comm

theorem side_false_iff (s : model_based_opt) (x : Nat) (k : ℚ) (j : Nat) :
    (bound_side s x (decide (0 < k)) j = false ↔
      ((s.get_row j).m_type ≠ ineq_type.t_eq ∧ ¬ (0 < s.get_coefficient j x ↔ 0 < k))) := by
  rw [← not_or, ← side_iff s x k j]
  cases bound_side s x (decide (0 < k)) j <;> simp

/-- The facts that `find_bound` delivers on a store of linear real arithmetic. -/
theorem find_bound_facts (s : model_based_opt) (h : lp_store s) (v : var) (B : Nat)
    (hv : s.objective.m_vars.getLast? = some v)
    (hb : (s.find_bound v.m_id (decide (0 < v.m_coeff))).bound_row_index = some B) :
    bound_facts s v.m_id B (s.find_bound v.m_id (decide (0 < v.m_coeff))).bound_coeff
      v.m_coeff
      ((s.find_bound v.m_id (decide (0 < v.m_coeff))).m_above ++
        (s.find_bound v.m_id (decide (0 < v.m_coeff))).m_below) := by
  obtain ⟨-, -, h0, hobj, hrows⟩ := h
  obtain ⟨⟨t1, t2, t3, t4, t5, t6, -⟩, hvis⟩ :=
    find_bound_spec s v.m_id (decide (0 < v.m_coeff))
  have htie := find_bound_tie s v.m_id (decide (0 < v.m_coeff))
  unfold tie_tracked at htie
  generalize s.find_bound v.m_id (decide (0 < v.m_coeff)) = b at *
  have hvm : v ∈ (s.get_row m_objective_id).m_vars := getLast?_mem _ _ hv
  have hk : v.m_coeff ≠ 0 := (hobj.2.1 v hvm).1
  have hck : s.get_coefficient m_objective_id v.m_id = v.m_coeff :=
    row_get_coefficient_present _ _ hobj.1 v hvm rfl
  obtain ⟨b1, ⟨b2, b3⟩, b4, b5, b6⟩ := t5 B hb
  have hin0 : ∀ j, j ∈ b.visited → j ≠ m_objective_id := by
    intro j hj e
    exact h0 v.m_id (e ▸ (hvis j).mp hj)
  have hB0 := hin0 B b1
  have hsB := (side_iff s v.m_id v.m_coeff B).mp b4
  have hab : b.bound_coeff ≠ 0 := by rw [b5]; exact b3
  refine ⟨hk, hck, hB0, b2, b5.symm, hab, by rw [b5]; exact hsB, ?_, ?_, ?_, ?_, ?_⟩
  · refine List.Nodup.append t1 t2 ?_
    intro j hj1 hj2
    have e1 := (t3 j hj1).2.2.1
    have e2 := (t4 j hj2).2.2
    rw [e1] at e2
    exact absurd e2 (by decide)
  · intro hB
    rcases List.mem_append.mp hB with hB | hB
    · exact (t3 B hB).2.2.2.1 hb
    · have e2 := (t4 B hB).2.2
      rw [b4] at e2
      exact absurd e2 (by decide)
  · intro hm
    rcases List.mem_append.mp hm with hm | hm
    · exact hin0 _ (t3 _ hm).1 rfl
    · exact hin0 _ (t4 _ hm).1 rfl
  · intro j hj
    rcases List.mem_append.mp hj with hj | hj
    · obtain ⟨c1, ⟨c2, c3⟩, c4, -, c5, c6⟩ := t3 j hj
      refine ⟨c2, c3, Or.inl ⟨(side_iff s v.m_id v.m_coeff j).mp c4, fun hpos => ?_,
        fun hneg => ?_, fun hbv hlt => ?_⟩⟩
      · rw [← b6]
        exact c5 (by simpa using hpos)
      · rw [← b6]
        exact c6 (by simpa using hneg)
      · rw [← b6] at hbv
        exact htie B hb j hj hbv hlt
    · obtain ⟨c1, ⟨c2, c3⟩, c4⟩ := t4 j hj
      exact ⟨c2, c3, Or.inr ((side_false_iff s v.m_id v.m_coeff j).mp c4)⟩
  · intro j hj0 hal hco
    obtain ⟨u, hu, hid, -⟩ := get_coefficient_mem (s.get_row j) v.m_id hco
    have hjl : j ∈ s.row_ids v.m_id := by
      have := (hrows j hj0 hal).2.1 u hu
      rw [hid] at this
      exact this
    obtain ⟨d1, d2⟩ := t6 j ((hvis j).mpr hjl) ⟨hal, hco⟩
    cases hside : bound_side s v.m_id (decide (0 < v.m_coeff)) j
    · exact Or.inr (List.mem_append_right _ (d2 hside))
    · rcases d1 hside with e | e
      · rw [hb] at e
        left
        simpa using e.symm
      · exact Or.inr (List.mem_append_left _ e)

theorem retire_row_ids (s : model_based_opt) (j v : Nat) :
    (s.retire_row j).row_ids v = s.row_ids v := rfl

theorem retire_row_ids_length (s : model_based_opt) (j : Nat) :
    (s.retire_row j).m_var2row_ids.length = s.m_var2row_ids.length := rfl

/-- The state after an iteration of the loop of `maximize` on a store of linear real
arithmetic. -/
theorem maximize_step_eliminated (s : model_based_opt) (h : lp_store s) (x B : Nat) (a k : ℚ)
    (L : List Nat) (hf : bound_facts s x B a k L) :
    eliminated s (((L.foldl (fun st j => st.resolve B a j x) s).mul_add false m_objective_id
      (-k / a) B).retire_row B) x B a k L := by
  obtain ⟨hlen, hint, h0, hobj, hrows⟩ := h
  obtain ⟨hk, hck, hB0, hBal, hBa, ha, -, hnd, hBL, h0L, hL, -⟩ := hf
  have hwB := (hrows B hB0 hBal).1
  obtain ⟨r1, r2, r3, r4, r5, r6, r7, r8⟩ := resolve_fold_spec B x a ha L s hnd hBL h0L
    (hint x) hBa hwB (fun j hj => by
      have hj0 : j ≠ m_objective_id := fun e => h0L (e ▸ hj)
      obtain ⟨q1, q2, -⟩ := hrows j hj0 (hL j hj).1
      exact ⟨(hL j hj).1, q1, q2, (hL j hj).2.1⟩)
  generalize L.foldl (fun st j => st.resolve B a j x) s = T at *
  have hT0 : T.get_row m_objective_id = s.get_row m_objective_id := r1 _ h0L
  have hTB : T.get_row B = s.get_row B := r1 _ hBL
  obtain ⟨m1, m2, -, -, m5, m6, se, -, m9⟩ := mul_add_step T false m_objective_id (-k / a) B
    (by rw [r4]; exact hlen) (row_wf_congr s T _ hobj hT0 r2 r5)
    (row_wf_congr s T _ hwB hTB r2 r5)
  have m10 := m9 (div_ne_zero (neg_ne_zero.mpr hk) ha)
  clear m9
  obtain ⟨i1, i2, i3⟩ := mul_add_ids T false m_objective_id (-k / a) B
  generalize T.mul_add false m_objective_id (-k / a) B = S3 at *
  have sr := same_except_retire_row S3 B
  have hrow : ∀ i, i ≠ B → i ≠ m_objective_id → (S3.retire_row B).get_row i = T.get_row i :=
    fun i hiB hi0 => (sr.1 i hiB).trans (se.1 i hi0)
  have hrow0 : (S3.retire_row B).get_row m_objective_id = S3.get_row m_objective_id :=
    sr.1 _ (Ne.symm hB0)
  have hval : (S3.retire_row B).m_var2value = T.m_var2value := sr.2.1.trans se.2.1
  have hil : (S3.retire_row B).m_var2row_ids.length = T.m_var2row_ids.length := by
    rw [retire_row_ids_length, i1]
  refine ⟨hval.trans r2, (sr.2.2.1.trans se.2.2.1).trans r3,
    (sr.2.2.2.trans se.2.2.2).trans r4, hil.trans r5, ?_, ?_, retire_row_dead S3 B, ?_, ?_, ?_⟩
  · intro v i hi
    rw [retire_row_ids]
    exact i2 v i (r6 v i hi)
  · intro v i hi
    rw [retire_row_ids] at hi
    rcases i3 v i hi with h1 | h1
    · exact r7 v i h1
    · exact absurd rfl h1.2
  · intro i hiB hi0 hiL
    rw [hrow i hiB hi0, r1 i hiL]
  · refine ⟨row_wf_congr S3 _ _ m1 hrow0 sr.2.1 (retire_row_ids_length S3 B), ?_, ?_, ?_, ?_⟩
    · intro val
      rw [hrow0, m2 val, hT0, hTB]
    · unfold model_based_opt.get_coefficient
      rw [hrow0]
      have := m5 x
      unfold model_based_opt.get_coefficient at this hck hBa
      rw [this, hT0, hTB, hck, hBa]
      field_simp
    · intro w hw
      rw [hrow0] at hw
      have := m6 w hw
      rw [hT0, hTB] at this
      exact this
    · rw [hrow0, m10, hT0, hTB]
  · intro j hj
    have hjB : j ≠ B := fun e => hBL (e ▸ hj)
    have hj0 : j ≠ m_objective_id := fun e => h0L (e ▸ hj)
    obtain ⟨q1, q2, q3, q4, q5, -, q7, q8⟩ := r8 j hj
    have hr := hrow j hjB hj0
    refine ⟨row_wf_congr T _ j q1 hr hval hil, ?_, by rw [hr]; exact q3, ?_, ?_, ?_, ?_⟩
    · refine row_listed_congr T _ j q2 hr ?_
      intro v i hi
      rw [retire_row_ids]
      exact i2 v i hi
    · unfold model_based_opt.get_coefficient at q4 ⊢
      rw [hr]; exact q4
    · intro val
      rw [hr]; exact q5 val
    · rw [hr]; exact q7
    · rw [hr]; exact q8

theorem lin_update_diff (r : row) (x : Nat) (q : ℚ) (val : Nat → ℚ)
    (hs : sorted_ids r.m_vars) :
    lin r (Function.update val x q) = lin r val + r.get_coefficient x * (q - val x) := by
  have h1 := lin_update r x q val hs
  have h2 := lin_update r x (val x) val hs
  rw [Function.update_eq_self] at h2
  rw [h1, h2]
  ring

theorem lin_update_absent (r : row) (x : Nat) (q : ℚ) (val : Nat → ℚ)
    (hs : sorted_ids r.m_vars) (h : r.get_coefficient x = 0) :
    lin r (Function.update val x q) = lin r val := by
  rw [lin_update_diff r x q val hs, h]
  ring

/-- For a row of type `<=`, `<` or `=` the relation of the row is the relation of its type
on the value of its linear form. -/
theorem holds_iff_rel (r : row) (val : Nat → ℚ) (h : lp_type r.m_type) :
    holds r val ↔ rel_holds r.m_type (lin r val) := by
  unfold holds rel_holds
  rcases h with h | h | h <;> rw [h]

theorem resolved_type_weak (b : Bool) (tj tB : ineq_type) (h : tB ≠ ineq_type.t_lt) :
    resolved_type b tj tB = tj := by
  unfold resolved_type
  cases b <;> simp [h]

theorem resolved_type_same (tj : ineq_type) :
    resolved_type true tj ineq_type.t_lt
      = if tj = ineq_type.t_lt then ineq_type.t_le else tj := by
  cases tj <;> rfl

theorem resolved_type_other (tj : ineq_type) :
    resolved_type false tj ineq_type.t_lt = ineq_type.t_lt := by
  cases tj <;> rfl

theorem lp_type_resolved (b : Bool) (tj tB : ineq_type) (h : lp_type tj) :
    lp_type (resolved_type b tj tB) := by
  unfold lp_type at h ⊢
  rcases h with h | h | h <;> subst h <;> cases b <;> cases tB <;> decide

theorem rel_holds_le (t : ineq_type) (v : ℚ) (h : rel_holds t v) : v ≤ 0 := by
  cases t <;> simp only [rel_holds] at h
  · exact le_of_eq h
  · exact le_of_lt h
  · exact h

theorem neg_div_same_sign (a k : ℚ) (ha : a ≠ 0) (hk : k ≠ 0) (hs : 0 < a ↔ 0 < k) :
    -k / a < 0 := by
  by_cases hp : 0 < a
  · exact div_neg_of_neg_of_pos (by linarith [hs.mp hp]) hp
  · have hna : a < 0 := lt_of_le_of_ne (not_lt.mp hp) ha
    have hnk : k < 0 := lt_of_le_of_ne (not_lt.mp (fun hh => hp (hs.mpr hh))) hk
    exact div_neg_of_pos_of_neg (by linarith) hna

theorem neg_div_other_sign (aj a : ℚ) (haj : aj ≠ 0) (ha : a ≠ 0)
    (hs : ¬ (0 < aj ↔ 0 < a)) : 0 < -aj / a := by
  by_cases hp : 0 < a
  · have hnj : aj < 0 :=
      lt_of_le_of_ne (not_lt.mp (fun hh => hs ⟨fun _ => hp, fun _ => hh⟩)) haj
    exact div_pos (by linarith) hp
  · have hna : a < 0 := lt_of_le_of_ne (not_lt.mp hp) ha
    have hpj : 0 < aj := by
      by_contra hh
      exact hs ⟨fun h3 => absurd h3 hh, fun h3 => absurd h3 hp⟩
    exact div_pos_of_neg_of_neg (by linarith) hna

theorem flag_true_iff (a aj : ℚ) :
    (decide (0 < a) == decide (0 < aj)) = true ↔ (0 < a ↔ 0 < aj) := by
  simp

theorem flag_false_iff (a aj : ℚ) :
    (decide (0 < a) == decide (0 < aj)) = false ↔ ¬ (0 < a ↔ 0 < aj) := by
  rw [← flag_true_iff]
  cases (decide (0 < a) == decide (0 < aj)) <;> simp

/-- A row on the side of the bound row that is at most as tight has a resolvent that is
not positive at the stored assignment. -/
theorem resolvent_same_side (aj a vj vB x0 : ℚ) (haj : aj ≠ 0) (ha : a ≠ 0)
    (hs : 0 < aj ↔ 0 < a)
    (h1 : 0 < a → x0 - vB / a ≤ x0 - vj / aj)
    (h2 : ¬ 0 < a → x0 - vj / aj ≤ x0 - vB / a) :
    vj + (-aj / a) * vB ≤ 0 := by
  have e : vj + (-aj / a) * vB = aj * (vj / aj - vB / a) := by
    field_simp
    ring
  rw [e]
  by_cases hp : 0 < a
  · have hpj : 0 < aj := hs.mpr hp
    have := h1 hp
    exact mul_nonpos_of_nonneg_of_nonpos (le_of_lt hpj) (by linarith)
  · have hnj : aj < 0 := lt_of_le_of_ne (not_lt.mp (fun hh => hp (hs.mp hh))) haj
    have := h2 hp
    exact mul_nonpos_of_nonpos_of_nonneg (le_of_lt hnj) (by linarith)

/-- An inequality bound row that is at least as tight as a satisfied equality row is
tight at the stored assignment. -/
theorem tight_of_eq_row (aj a k vB x0 : ℚ) (ha : a ≠ 0) (hsa : 0 < a ↔ 0 < k)
    (hvB : vB ≤ 0)
    (ht1 : 0 < k → x0 - vB / a ≤ x0 - 0 / aj)
    (ht2 : ¬ 0 < k → x0 - 0 / aj ≤ x0 - vB / a) : vB = 0 := by
  rw [zero_div, sub_zero] at ht1 ht2
  by_cases hk : 0 < k
  · have h0 := ht1 hk
    have ha0 : 0 < a := hsa.mpr hk
    have h1 : 0 ≤ vB / a := by linarith
    have h2 : 0 ≤ vB := by
      have := mul_nonneg h1 (le_of_lt ha0)
      rwa [div_mul_cancel₀ _ ha] at this
    linarith
  · have h0 := ht2 hk
    have ha0 : a < 0 := lt_of_le_of_ne (not_lt.mp (fun h => hk (hsa.mp h))) ha
    have h1 : vB / a ≤ 0 := by linarith
    have h2 : 0 ≤ vB := by
      have := mul_nonneg_of_nonpos_of_nonpos h1 (le_of_lt ha0)
      rwa [div_mul_cancel₀ _ ha] at this
    linarith

/-- The resolvent of a satisfied row with the bound row chosen by `find_bound` is
satisfied at the stored assignment, with the type that `mul_add` gives it. -/
theorem resolvent_holds (tj tB : ineq_type) (aj a k vj vB x0 : ℚ) (haj : aj ≠ 0)
    (ha : a ≠ 0) (hj : rel_holds tj vj) (hB : rel_holds tB vB)
    (hsB : tB = ineq_type.t_eq ∨ (0 < a ↔ 0 < k))
    (hside : ((tj = ineq_type.t_eq ∨ (0 < aj ↔ 0 < k)) ∧
        (0 < k → x0 - vB / a ≤ x0 - vj / aj) ∧ (¬ 0 < k → x0 - vj / aj ≤ x0 - vB / a) ∧
        (x0 - vj / aj = x0 - vB / a → tj = ineq_type.t_lt → tB = ineq_type.t_lt)) ∨
      (tj ≠ ineq_type.t_eq ∧ ¬ (0 < aj ↔ 0 < k))) :
    rel_holds (resolved_type (decide (0 < a) == decide (0 < aj)) tj tB)
      (vj + (-aj / a) * vB) := by
  by_cases hBeq : tB = ineq_type.t_eq
  · subst hBeq
    have hv : vB = 0 := hB
    rw [resolved_type_weak _ _ _ (by decide), hv, mul_zero, add_zero]
    exact hj
  have hsa : (0 < a ↔ 0 < k) := hsB.resolve_left hBeq
  have hvB : vB ≤ 0 := rel_holds_le tB vB hB
  have hBlt : tB = ineq_type.t_lt → vB < 0 := by
    intro e
    subst e
    exact hB
  have hev : vj + (-aj / a) * vB = aj * (vj / aj - vB / a) := by
    field_simp
    ring
  rcases hside with ⟨hs1, ht1, ht2, htie⟩ | ⟨hne, hopp⟩
  · by_cases hjeq : tj = ineq_type.t_eq
    · subst hjeq
      have hvj : vj = 0 := hj
      subst hvj
      have hvB0 : vB = 0 := tight_of_eq_row aj a k vB x0 ha hsa hvB ht1 ht2
      have hBnl : tB ≠ ineq_type.t_lt := by
        intro e
        have := hBlt e
        rw [hvB0] at this
        exact lt_irrefl _ this
      rw [resolved_type_weak _ _ _ hBnl, hvB0, mul_zero, add_zero]
      rfl
    · have hsj : (0 < aj ↔ 0 < k) := hs1.resolve_left hjeq
      have hle : vj + (-aj / a) * vB ≤ 0 :=
        resolvent_same_side aj a vj vB x0 haj ha (hsj.trans hsa.symm)
          (fun hp => ht1 (hsa.mp hp)) (fun hp => ht2 (fun hh => hp (hsa.mpr hh)))
      rw [(flag_true_iff a aj).mpr (hsa.trans hsj.symm)]
      by_cases hBl : tB = ineq_type.t_lt
      · subst hBl
        rw [resolved_type_same]
        by_cases hjl : tj = ineq_type.t_lt
        · rw [if_pos hjl]
          exact hle
        · rw [if_neg hjl]
          cases tj <;> simp only [rel_holds] at hj ⊢
          · exact absurd rfl hjeq
          · exact absurd rfl hjl
          · exact hle
      · rw [resolved_type_weak _ _ _ hBl]
        cases tj <;> simp only [rel_holds] at hj ⊢
        · exact absurd rfl hjeq
        · have hne : x0 - vj / aj ≠ x0 - vB / a := fun e => hBl (htie e rfl)
          refine lt_of_le_of_ne hle ?_
          rw [hev]
          intro h0
          rcases mul_eq_zero.mp h0 with h | h
          · exact haj h
          · exact hne (by linarith)
        · exact hle
  · have hopp2 : ¬ (0 < aj ↔ 0 < a) := fun h => hopp (h.trans hsa)
    have hc := neg_div_other_sign aj a haj ha hopp2
    rw [(flag_false_iff a aj).mpr (fun h => hopp2 h.symm)]
    have hvj : vj ≤ 0 := rel_holds_le tj vj hj
    by_cases hBl : tB = ineq_type.t_lt
    · subst hBl
      rw [resolved_type_other]
      have := mul_neg_of_pos_of_neg hc (hBlt rfl)
      show vj + (-aj / a) * vB < 0
      linarith
    · rw [resolved_type_weak _ _ _ hBl]
      have := mul_nonpos_of_nonneg_of_nonpos (le_of_lt hc) hvB
      cases tj <;> simp only [rel_holds] at hj ⊢
      · exact absurd rfl hne
      · linarith
      · linarith

/-- The resolvent with a satisfied equality row keeps the relation of a row. -/
theorem resolvent_holds_eq (b : Bool) (tj : ineq_type) (c vj vB : ℚ) (hj : rel_holds tj vj)
    (hB : rel_holds ineq_type.t_eq vB) :
    rel_holds (resolved_type b tj ineq_type.t_eq) (vj + c * vB) := by
  have hv : vB = 0 := hB
  rw [resolved_type_weak _ _ _ (by decide), hv, mul_zero, add_zero]
  exact hj

/-- With a strict bound row, an inequality row is satisfied again when the bound row is
satisfied with a small enough slack `δ`. -/
theorem lift_strict (tj : ineq_type) (b : Bool) (c w : ℚ) (hlp : lp_type tj)
    (hne : tj ≠ ineq_type.t_eq) (hb1 : b = true → c < 0) (hb2 : b = false → 0 < c)
    (h : rel_holds (resolved_type b tj ineq_type.t_lt) w) :
    ∃ d : ℚ, 0 < d ∧ ∀ δ : ℚ, 0 < δ → δ ≤ d → rel_holds tj (w + c * δ) := by
  cases b
  · rw [resolved_type_other] at h
    have hw : w < 0 := h
    have hc := hb2 rfl
    refine ⟨-w / (2 * c), div_pos (by linarith) (by linarith), fun δ hδ hle => ?_⟩
    have h1 : c * δ ≤ c * (-w / (2 * c)) := mul_le_mul_of_nonneg_left hle (le_of_lt hc)
    have h2 : c * (-w / (2 * c)) = -w / 2 := by
      field_simp
      ring
    rw [h2] at h1
    rcases hlp with e | e | e <;> subst e <;> simp only [rel_holds]
    · linarith
    · linarith
    · exact absurd rfl hne
  · have hc := hb1 rfl
    rw [resolved_type_same] at h
    refine ⟨1, one_pos, fun δ hδ _ => ?_⟩
    have h1 : c * δ < 0 := mul_neg_of_neg_of_pos hc hδ
    have hw : w ≤ 0 := rel_holds_le _ w h
    rcases hlp with e | e | e <;> subst e <;> simp only [rel_holds]
    · linarith
    · linarith
    · exact absurd rfl hne

theorem exists_common_bound (L : List Nat) (P : Nat → ℚ → Prop)
    (h : ∀ j ∈ L, ∃ d : ℚ, 0 < d ∧ ∀ δ : ℚ, 0 < δ → δ ≤ d → P j δ) :
    ∃ d : ℚ, 0 < d ∧ ∀ δ : ℚ, 0 < δ → δ ≤ d → ∀ j ∈ L, P j δ := by
  induction L with
  | nil => exact ⟨1, one_pos, fun _ _ _ j hj => absurd hj (List.not_mem_nil j)⟩
  | cons a L ih =>
    obtain ⟨d1, hd1, p1⟩ := h a (List.mem_cons_self _ _)
    obtain ⟨d2, hd2, p2⟩ := ih (fun j hj => h j (List.mem_cons_of_mem _ hj))
    refine ⟨min d1 d2, lt_min hd1 hd2, fun δ hδ hle j hj => ?_⟩
    rcases List.mem_cons.mp hj with e | hj
    · rw [e]
      exact p1 δ hδ (le_trans hle (min_le_left _ _))
    · exact p2 δ hδ (le_trans hle (min_le_right _ _)) j hj

/-- The elimination step keeps the store in the class `lp_store`, removes `x` from the
objective and from every live row, uses no new variable and does not decrease the
objective at the stored assignment.  Every assignment that satisfies the new rows extends,
by a new value for `x`, to one that satisfies the old rows: with the same objective value
when the bound row is not strict, and with an objective value that is smaller by at most
any given `ε > 0` in general.  When the bound row is an equality, or every other live row
on `x` is an inequality of the other side, every assignment that satisfies the old rows
satisfies the new rows, with an objective value that is not smaller. -/
theorem eliminated_spec (s t : model_based_opt) (x B : Nat) (a k : ℚ) (L : List Nat)
    (h : lp_store s) (hf : bound_facts s x B a k L) (he : eliminated s t x B a k L) :
    lp_store t ∧
    (∀ y, var_used t y → var_used s y ∧ y ≠ x) ∧
    lin (s.get_row m_objective_id) s.eval ≤ lin (t.get_row m_objective_id) t.eval ∧
    (∀ val, sat t val → ∀ ε : ℚ, 0 < ε →
      ∃ val2, sat s val2 ∧
        lin (t.get_row m_objective_id) val - ε ≤ lin (s.get_row m_objective_id) val2) ∧
    ((s.get_row B).m_type ≠ ineq_type.t_lt → ∀ val, sat t val →
      ∃ val2, sat s val2 ∧
        lin (s.get_row m_objective_id) val2 = lin (t.get_row m_objective_id) val) ∧
    (((s.get_row B).m_type = ineq_type.t_eq ∨
        ∀ j ∈ L, (s.get_row j).m_type ≠ ineq_type.t_eq ∧
          ¬ (0 < s.get_coefficient j x ↔ 0 < k)) →
      ∀ val, sat s val → sat t val ∧
        lin (s.get_row m_objective_id) val ≤ lin (t.get_row m_objective_id) val) := by
  obtain ⟨hlen, hint, h0, hobj, hrows⟩ := h
  obtain ⟨hk, hck, hB0, hBal, hBa, ha, hsign, hnd, hBL, h0L, hL, hcov⟩ := hf
  obtain ⟨e1, e2, e3, e4, e5, e6, e7, e8, ⟨o1, o2, o3, o4, -⟩, e10⟩ := he
  obtain ⟨wB, lB, tB, vB⟩ := hrows B hB0 hBal
  have hev : t.eval = s.eval := eval_congr s t e1
  have hvB := (holds_iff_rel _ _ tB).mp vB
  have hBle : lin (s.get_row B) s.eval ≤ 0 := rel_holds_le _ _ hvB
  -- the facts of `find_bound` for a row of `L`, on the values of the linear forms
  have hsideL : ∀ j ∈ L,
      (((s.get_row j).m_type = ineq_type.t_eq ∨ (0 < s.get_coefficient j x ↔ 0 < k)) ∧
        (0 < k → s.eval x - lin (s.get_row B) s.eval / a
          ≤ s.eval x - lin (s.get_row j) s.eval / s.get_coefficient j x) ∧
        (¬ 0 < k → s.eval x - lin (s.get_row j) s.eval / s.get_coefficient j x
          ≤ s.eval x - lin (s.get_row B) s.eval / a) ∧
        (s.eval x - lin (s.get_row j) s.eval / s.get_coefficient j x
          = s.eval x - lin (s.get_row B) s.eval / a →
          (s.get_row j).m_type = ineq_type.t_lt → (s.get_row B).m_type = ineq_type.t_lt)) ∨
      ((s.get_row j).m_type ≠ ineq_type.t_eq ∧ ¬ (0 < s.get_coefficient j x ↔ 0 < k)) := by
    intro j hj
    have hj0 : j ≠ m_objective_id := fun e => h0L (e ▸ hj)
    obtain ⟨l1, l2, l3⟩ := hL j hj
    obtain ⟨wj, -, -, -⟩ := hrows j hj0 l1
    unfold bound_value at l3
    rw [hBa, wj.2.2, wB.2.2] at l3
    exact l3
  -- with a strict bound row no equality row is in `L`
  have hnoeq : (s.get_row B).m_type = ineq_type.t_lt → ∀ j ∈ L,
      (s.get_row j).m_type ≠ ineq_type.t_eq := by
    intro hBl j hj hje
    have hj0 : j ≠ m_objective_id := fun e => h0L (e ▸ hj)
    obtain ⟨l1, l2, -⟩ := hL j hj
    obtain ⟨-, -, tj, vj⟩ := hrows j hj0 l1
    have hvj := (holds_iff_rel _ _ tj).mp vj
    rw [hje] at hvj
    have hvj0 : lin (s.get_row j) s.eval = 0 := hvj
    have hsa : (0 < a ↔ 0 < k) := hsign.resolve_left (by rw [hBl]; decide)
    rcases hsideL j hj with ⟨-, t1, t2, -⟩ | ⟨hne, -⟩
    · rw [hvj0] at t1 t2
      have h0B := tight_of_eq_row _ a k _ (s.eval x) ha hsa hBle t1 t2
      rw [hBl] at hvB
      have hlt : lin (s.get_row B) s.eval < 0 := hvB
      rw [h0B] at hlt
      exact lt_irrefl _ hlt
    · exact hne hje
  -- live rows of `t` outside `L` are live rows of `s`
  have hout : ∀ j, j ≠ m_objective_id → (t.get_row j).m_alive = true → j ∉ L →
      j ≠ B ∧ t.get_row j = s.get_row j ∧ (s.get_row j).m_alive = true := by
    intro j hj0 hal hjL
    have hjB : j ≠ B := by
      intro e
      rw [e, e7] at hal
      exact absurd hal (by decide)
    have hr := e8 j hjB hj0 hjL
    exact ⟨hjB, hr, by rw [← hr]; exact hal⟩
  -- `x` is gone from the live rows
  have hgone : ∀ j, j ≠ m_objective_id → (t.get_row j).m_alive = true →
      t.get_coefficient j x = 0 := by
    intro j hj0 hal
    by_cases hjL : j ∈ L
    · exact (e10 j hjL).2.2.2.1
    · obtain ⟨hjB, hr, hals⟩ := hout j hj0 hal hjL
      by_contra hc
      have hc2 : s.get_coefficient j x ≠ 0 := by
        unfold model_based_opt.get_coefficient at hc ⊢
        rw [← hr]; exact hc
      rcases hcov j hj0 hals hc2 with e | e
      · exact hjB e
      · exact hjL e
  have hnox : ∀ j, row_wf t j → t.get_coefficient j x = 0 →
      ∀ w ∈ (t.get_row j).m_vars, w.m_id ≠ x := by
    intro j hw hc w hwm hid
    have := row_get_coefficient_present (t.get_row j) x hw.1 w hwm hid
    unfold model_based_opt.get_coefficient at hc
    rw [hc] at this
    exact (hw.2.1 w hwm).1 this.symm
  have hlp : lp_store t := by
    refine ⟨by rw [e3]; exact hlen, ?_, ?_, o1, ?_⟩
    · intro y
      unfold model_based_opt.is_int
      rw [e2]
      exact hint y
    · intro v hv
      rcases e6 v _ hv with h1 | h1
      · exact h0 v h1
      · exact h0L h1
    · intro j hj0 hal
      by_cases hjL : j ∈ L
      · obtain ⟨q1, q2, -, -, q5, -, q7⟩ := e10 j hjL
        obtain ⟨l1, l2, -⟩ := hL j hjL
        obtain ⟨-, -, tj, vj⟩ := hrows j hj0 l1
        have hty : lp_type (t.get_row j).m_type := by
          rw [q7]
          exact lp_type_resolved _ _ _ tj
        refine ⟨q1, q2, hty, ?_⟩
        rw [holds_iff_rel _ _ hty, q5, q7, hev]
        exact resolvent_holds _ _ _ a k _ _ (s.eval x) l2 ha
          ((holds_iff_rel _ _ tj).mp vj) hvB hsign (hsideL j hjL)
      · obtain ⟨-, hr, hals⟩ := hout j hj0 hal hjL
        obtain ⟨q1, q2, q3, q4⟩ := hrows j hj0 hals
        refine ⟨row_wf_congr s t j q1 hr e1 e4, row_listed_congr s t j q2 hr e5,
          by rw [hr]; exact q3, ?_⟩
        rw [hr, hev]
        exact q4
  -- the assignment with the bound row at the slack `δ`
  have hBx : (s.get_row B).get_coefficient x = a := hBa
  have hBnew : ∀ (val : Nat → ℚ) (δ : ℚ), lin (s.get_row B)
      (Function.update val x (val x - (lin (s.get_row B) val + δ) / a)) = -δ := by
    intro val δ
    rw [lin_update_diff _ x _ val wB.1, hBx]
    field_simp
    ring
  have hcore : ∀ (val : Nat → ℚ), sat t val → ∀ δ : ℚ,
      rel_holds (s.get_row B).m_type (-δ) →
      (∀ j ∈ L, rel_holds (s.get_row j).m_type
        (lin (t.get_row j) val + (-(s.get_coefficient j x) / a) * δ)) →
      sat s (Function.update val x (val x - (lin (s.get_row B) val + δ) / a)) ∧
      lin (s.get_row m_objective_id)
          (Function.update val x (val x - (lin (s.get_row B) val + δ) / a))
        = lin (t.get_row m_objective_id) val + (-k / a) * δ := by
    intro val hsat δ hδB hδL
    refine ⟨?_, ?_⟩
    · intro j hj0 hals
      by_cases hjB : j = B
      · rw [hjB, holds_iff_rel _ _ tB, hBnew]
        exact hδB
      by_cases hjL : j ∈ L
      · obtain ⟨q1, -, q3, q4, q5, -, -⟩ := e10 j hjL
        obtain ⟨-, -, tj, -⟩ := hrows j hj0 hals
        have h1 := q5 (Function.update val x (val x - (lin (s.get_row B) val + δ) / a))
        rw [hBnew, lin_update_absent _ x _ val q1.1 q4] at h1
        have h2 : lin (s.get_row j)
            (Function.update val x (val x - (lin (s.get_row B) val + δ) / a))
            = lin (t.get_row j) val + (-(s.get_coefficient j x) / a) * δ := by
          rw [h1]
          ring
        rw [holds_iff_rel _ _ tj, h2]
        exact hδL j hjL
      · have hr := e8 j hjB hj0 hjL
        have halt : (t.get_row j).m_alive = true := by rw [hr]; exact hals
        have hc := hgone j hj0 halt
        unfold model_based_opt.get_coefficient at hc
        rw [hr] at hc
        obtain ⟨wj, -, tj, -⟩ := hrows j hj0 hals
        have h3 := hsat j hj0 halt
        rw [hr] at h3
        rw [holds_iff_rel _ _ tj] at h3 ⊢
        rw [lin_update_absent _ x _ val wj.1 hc]
        exact h3
    · have h1 := o2 (Function.update val x (val x - (lin (s.get_row B) val + δ) / a))
      rw [hBnew, lin_update_absent _ x _ val o1.1 o3] at h1
      rw [h1]
      ring
  -- the exact extension for a bound row that is not strict
  have hexact : (s.get_row B).m_type ≠ ineq_type.t_lt → ∀ val, sat t val →
      ∃ val2, sat s val2 ∧
        lin (s.get_row m_objective_id) val2 = lin (t.get_row m_objective_id) val := by
    intro hBnl val hsat
    obtain ⟨c1, c2⟩ := hcore val hsat 0 (by
        rw [neg_zero]
        rcases tB with e | e | e
        · rw [e]; exact le_refl (0 : ℚ)
        · exact absurd e hBnl
        · rw [e]; rfl) (by
        intro j hj
        have hj0 : j ≠ m_objective_id := fun e => h0L (e ▸ hj)
        obtain ⟨-, -, q3, -, -, -, q7⟩ := e10 j hj
        have h3 := hsat j hj0 q3
        have hty : lp_type (t.get_row j).m_type := by
          rw [q7]
          exact lp_type_resolved _ _ _ (hrows j hj0 (hL j hj).1).2.2.1
        rw [holds_iff_rel _ _ hty, q7, resolved_type_weak _ _ _ hBnl] at h3
        rw [mul_zero, add_zero]
        exact h3)
    exact ⟨_, c1, by rw [c2]; ring⟩
  -- the restriction of an assignment when the elimination is exact
  have hproj : ((s.get_row B).m_type = ineq_type.t_eq ∨
      ∀ j ∈ L, (s.get_row j).m_type ≠ ineq_type.t_eq ∧
        ¬ (0 < s.get_coefficient j x ↔ 0 < k)) →
      ∀ val, sat s val → sat t val ∧
        lin (s.get_row m_objective_id) val ≤ lin (t.get_row m_objective_id) val := by
    intro hex val hsat
    have hBv := (holds_iff_rel _ _ tB).mp (hsat B hB0 hBal)
    have hBle2 : lin (s.get_row B) val ≤ 0 := rel_holds_le _ _ hBv
    refine ⟨?_, ?_⟩
    · intro j hj0 hal
      by_cases hjL : j ∈ L
      · obtain ⟨-, -, -, -, q5, -, q7⟩ := e10 j hjL
        obtain ⟨l1, l2, -⟩ := hL j hjL
        obtain ⟨-, -, tj, -⟩ := hrows j hj0 l1
        have hty : lp_type (t.get_row j).m_type := by
          rw [q7]
          exact lp_type_resolved _ _ _ tj
        have hvj := (holds_iff_rel _ _ tj).mp (hsat j hj0 l1)
        rw [holds_iff_rel _ _ hty, q5, q7]
        by_cases hBe : (s.get_row B).m_type = ineq_type.t_eq
        · rw [hBe] at hBv ⊢
          exact resolvent_holds_eq _ _ _ _ _ hvj hBv
        · exact resolvent_holds _ _ _ a k _ _ 0 l2 ha hvj hBv hsign
            (Or.inr (hex.resolve_left hBe j hjL))
      · obtain ⟨-, hr, hals⟩ := hout j hj0 hal hjL
        rw [hr]
        exact hsat j hj0 hals
    · rw [o2]
      rcases hsign with hBe | hsa
      · rw [hBe] at hBv
        have h0B : lin (s.get_row B) val = 0 := hBv
        rw [h0B, mul_zero, add_zero]
      · have hc := neg_div_same_sign a k ha hk hsa
        have := mul_nonneg_of_nonpos_of_nonpos (le_of_lt hc) hBle2
        linarith
  refine ⟨hlp, ?_, ?_, ?_, hexact, hproj⟩
  · rintro y ⟨j, hj, w, hw, hid⟩
    by_cases hj0 : j = m_objective_id
    · subst hj0
      refine ⟨?_, fun e => hnox _ o1 o3 w hw (hid.trans e)⟩
      rcases o4 w hw with ⟨u, hu, he⟩ | ⟨u, hu, he⟩
      · exact ⟨m_objective_id, Or.inl rfl, u, hu, he.trans hid⟩
      · exact ⟨B, Or.inr hBal, u, hu, he.trans hid⟩
    · have hal : (t.get_row j).m_alive = true := hj.resolve_left hj0
      refine ⟨?_, fun e => hnox j (hlp.2.2.2.2 j hj0 hal).1 (hgone j hj0 hal) w hw
        (hid.trans e)⟩
      by_cases hjL : j ∈ L
      · rcases (e10 j hjL).2.2.2.2.2.1 w hw with ⟨u, hu, he⟩ | ⟨u, hu, he⟩
        · exact ⟨j, Or.inr (hL j hjL).1, u, hu, he.trans hid⟩
        · exact ⟨B, Or.inr hBal, u, hu, he.trans hid⟩
      · obtain ⟨-, hr, hals⟩ := hout j hj0 hal hjL
        rw [hr] at hw
        exact ⟨j, Or.inr hals, w, hw, hid⟩
  · rw [hev, o2]
    rcases hsign with hBe | hsa
    · rw [hBe] at hvB
      have h0B : lin (s.get_row B) s.eval = 0 := hvB
      rw [h0B, mul_zero, add_zero]
    · have hc := neg_div_same_sign a k ha hk hsa
      have := mul_nonneg_of_nonpos_of_nonpos (le_of_lt hc) hBle
      linarith
  · intro val hsat ε hε
    by_cases hBl : (s.get_row B).m_type = ineq_type.t_lt
    swap
    · obtain ⟨val2, c1, c2⟩ := hexact hBl val hsat
      exact ⟨val2, c1, by rw [c2]; linarith⟩
    have hsa : (0 < a ↔ 0 < k) := hsign.resolve_left (by rw [hBl]; decide)
    have hc0 := neg_div_same_sign a k ha hk hsa
    obtain ⟨d, hd, hP⟩ := exists_common_bound L
      (fun j δ => rel_holds (s.get_row j).m_type
        (lin (t.get_row j) val + (-(s.get_coefficient j x) / a) * δ)) (by
        intro j hj
        have hj0 : j ≠ m_objective_id := fun e => h0L (e ▸ hj)
        obtain ⟨l1, l2, -⟩ := hL j hj
        obtain ⟨-, -, q3, -, -, -, q7⟩ := e10 j hj
        obtain ⟨-, -, tj, -⟩ := hrows j hj0 l1
        have h3 := hsat j hj0 q3
        have hty : lp_type (t.get_row j).m_type := by
          rw [q7]
          exact lp_type_resolved _ _ _ tj
        rw [holds_iff_rel _ _ hty, q7, hBl] at h3
        exact lift_strict _ _ _ _ tj (hnoeq hBl j hj)
          (fun hb => neg_div_same_sign a _ ha l2 ((flag_true_iff _ _).mp hb))
          (fun hb => neg_div_other_sign _ a l2 ha
            (fun hh => (flag_false_iff _ _).mp hb hh.symm)) h3)
    have hq : 0 < ε / (k / a) := by
      have : 0 < k / a := by
        have e : k / a = -(-k / a) := by ring
        rw [e]
        linarith
      exact div_pos hε this
    obtain ⟨c1, c2⟩ := hcore val hsat (min d (ε / (k / a))) (by
        rw [hBl]
        show -(min d (ε / (k / a))) < 0
        have := lt_min hd hq
        linarith) (hP _ (lt_min hd hq) (min_le_left _ _))
    refine ⟨_, c1, ?_⟩
    rw [c2]
    have hka : 0 < k / a := by
      have e : k / a = -(-k / a) := by ring
      rw [e]
      linarith
    have h1 : min d (ε / (k / a)) ≤ ε / (k / a) := min_le_right _ _
    have h2 : (k / a) * min d (ε / (k / a)) ≤ (k / a) * (ε / (k / a)) :=
      mul_le_mul_of_nonneg_left h1 (le_of_lt hka)
    have h3 : (k / a) * (ε / (k / a)) = ε := by
      rw [mul_comm]
      exact div_mul_cancel₀ ε (ne_of_gt hka)
    have h4 : (-k / a) * min d (ε / (k / a)) = -((k / a) * min d (ε / (k / a))) := by ring
    rw [h4]
    linarith

/-! ### The exits of the loop of `maximize` -/

theorem row_ids_congr (s t : model_based_opt) (h : t.m_var2row_ids = s.m_var2row_ids)
    (x : Nat) : t.row_ids x = s.row_ids x := by
  unfold row_ids
  rw [h]

theorem update_values_step_keeps (s : model_based_opt) (x row_id : Nat)
    (h : row_id ≠ m_objective_id) :
    (s.update_values_step x row_id).get_row m_objective_id = s.get_row m_objective_id ∧
    (s.update_values_step x row_id).m_var2row_ids = s.m_var2row_ids := by
  unfold update_values_step
  dsimp only
  refine ⟨?_, rfl⟩
  rw [get_row_put_row_ne _ _ _ _ (Ne.symm h)]
  rfl

theorem refresh_fold_keeps (l : List Nat) (h : m_objective_id ∉ l) :
    ∀ s : model_based_opt,
      (l.foldl (fun st2 row_id =>
        st2.put_row row_id { st2.get_row row_id with
          m_value := st2.eval_row (st2.get_row row_id) }) s).get_row m_objective_id
        = s.get_row m_objective_id ∧
      (l.foldl (fun st2 row_id =>
        st2.put_row row_id { st2.get_row row_id with
          m_value := st2.eval_row (st2.get_row row_id) }) s).m_var2row_ids
        = s.m_var2row_ids := by
  induction l with
  | nil => exact fun s => ⟨rfl, rfl⟩
  | cons a l ih =>
    intro s
    rw [List.foldl_cons]
    have ha : a ≠ m_objective_id := fun e => h (e ▸ List.mem_cons_self _ _)
    obtain ⟨i1, i2⟩ := ih (fun hh => h (List.mem_cons_of_mem _ hh))
      (s.put_row a { s.get_row a with m_value := s.eval_row (s.get_row a) })
    refine ⟨i1.trans (get_row_put_row_ne _ _ _ _ (Ne.symm ha)), i2.trans rfl⟩

/-- The call `update_values` leaves the objective row as it is when neither the trail nor
the row index mentions row 0. -/
theorem update_values_objective (s : model_based_opt) (bound_vars bound_trail : List Nat)
    (h0 : ∀ x, m_objective_id ∉ s.row_ids x)
    (ht : ∀ i ∈ bound_trail, i ≠ m_objective_id) :
    (s.update_values bound_vars bound_trail).get_row m_objective_id
      = s.get_row m_objective_id := by
  unfold update_values
  dsimp only
  have hmem : ∀ p ∈ (bound_vars.zip bound_trail).reverse, p.2 ≠ m_objective_id := by
    intro p hp
    have := List.mem_reverse.mp hp
    exact ht _ (List.of_mem_zip this).2
  generalize (bound_vars.zip bound_trail).reverse = trail at hmem
  have h1 : ∀ (l : List (Nat × Nat)) (st : model_based_opt),
      (∀ p ∈ l, p.2 ≠ m_objective_id) →
      (l.foldl (fun st p => st.update_values_step p.1 p.2) st).get_row m_objective_id
        = st.get_row m_objective_id ∧
      (l.foldl (fun st p => st.update_values_step p.1 p.2) st).m_var2row_ids
        = st.m_var2row_ids := by
    intro l
    induction l with
    | nil => exact fun st _ => ⟨rfl, rfl⟩
    | cons a l ih =>
      intro st hl
      rw [List.foldl_cons]
      obtain ⟨k1, k2⟩ := update_values_step_keeps st a.1 a.2 (hl a (List.mem_cons_self _ _))
      obtain ⟨i1, i2⟩ := ih (st.update_values_step a.1 a.2)
        (fun p hp => hl p (List.mem_cons_of_mem _ hp))
      exact ⟨i1.trans k1, i2.trans k2⟩
  have h2 : ∀ (l : List (Nat × Nat)) (st : model_based_opt),
      (∀ x, m_objective_id ∉ st.row_ids x) →
      (l.foldl (fun st p => (st.row_ids p.1).foldl
        (fun st2 row_id =>
          st2.put_row row_id { st2.get_row row_id with
            m_value := st2.eval_row (st2.get_row row_id) }) st) st).get_row m_objective_id
        = st.get_row m_objective_id := by
    intro l
    induction l with
    | nil => exact fun st _ => rfl
    | cons a l ih =>
      intro st hst
      rw [List.foldl_cons]
      obtain ⟨k1, k2⟩ := refresh_fold_keeps (st.row_ids a.1) (hst a.1) st
      rw [ih _ (fun x => by rw [row_ids_congr _ _ k2 x]; exact hst x), k1]
  obtain ⟨a1, a2⟩ := h1 trail s hmem
  rw [h2 trail _ (fun x => by rw [row_ids_congr _ _ a2 x]; exact h0 x), a1]

theorem maximize_loop_done (fuel : Nat) (s : model_based_opt) (bound_trail bound_vars : List Nat)
    (hv : s.objective.m_vars.getLast? = none) :
    maximize_loop (fuel + 1) s bound_trail bound_vars =
      if (s.update_values bound_vars bound_trail).objective.m_type = ineq_type.t_lt then
        some (s.update_values bound_vars bound_trail,
          inf_eps.finite (s.update_values bound_vars bound_trail).objective.m_value (-1))
      else
        some (s.update_values bound_vars bound_trail,
          inf_eps.finite (s.update_values bound_vars bound_trail).objective.m_value 0) := by
  rw [maximize_loop]
  simp only [hv]

theorem maximize_loop_unbounded (fuel : Nat) (s : model_based_opt)
    (bound_trail bound_vars : List Nat) (v : var)
    (hv : s.objective.m_vars.getLast? = some v)
    (hb : (s.find_bound v.m_id (decide (0 < v.m_coeff))).bound_row_index = none) :
    maximize_loop (fuel + 1) s bound_trail bound_vars =
      some (s.update_values bound_vars bound_trail, inf_eps.infinity) := by
  rw [maximize_loop]
  simp only [hv, hb]

theorem maximize_iteration_some (s : model_based_opt) (v : var) (B : Nat)
    (hv : s.objective.m_vars.getLast? = some v)
    (hb : (s.find_bound v.m_id (decide (0 < v.m_coeff))).bound_row_index = some B) :
    ∃ s4, maximize_iteration s = some (s4, B, v.m_id) := by
  unfold maximize_iteration
  simp only [hv, hb]
  exact ⟨_, rfl⟩

theorem rel_holds_add_nonpos (t : ineq_type) (v d : ℚ) (hne : t ≠ ineq_type.t_eq)
    (h : rel_holds t v) (hd : d ≤ 0) : rel_holds t (v + d) := by
  cases t <;> simp only [rel_holds] at h ⊢
  · exact absurd rfl hne
  · linarith
  · linarith

/-- The stored assignment satisfies the rows of a store of the class `lp_store`. -/
theorem sat_assignment (s : model_based_opt) (h : lp_store s) : sat s s.eval :=
  fun j hj0 hal => (h.2.2.2.2 j hj0 hal).2.2.2

/-- Without a bound row for the chosen variable the objective is unbounded above on the
assignments that satisfy the rows. -/
theorem unbounded_of_no_bound (s : model_based_opt) (h : lp_store s) (v : var)
    (hv : s.objective.m_vars.getLast? = some v)
    (hb : (s.find_bound v.m_id (decide (0 < v.m_coeff))).bound_row_index = none) :
    ∀ N : ℚ, ∃ val, sat s val ∧ N < lin (s.get_row m_objective_id) val := by
  obtain ⟨-, -, h0, hobj, hrows⟩ := h
  obtain ⟨⟨-, -, -, -, -, t6, t7⟩, hvis⟩ :=
    find_bound_spec s v.m_id (decide (0 < v.m_coeff))
  generalize s.find_bound v.m_id (decide (0 < v.m_coeff)) = b at *
  have hvm : v ∈ (s.get_row m_objective_id).m_vars := getLast?_mem _ _ hv
  have hk : v.m_coeff ≠ 0 := (hobj.2.1 v hvm).1
  have hck : (s.get_row m_objective_id).get_coefficient v.m_id = v.m_coeff :=
    row_get_coefficient_present _ _ hobj.1 v hvm rfl
  -- every live row on `x` is an inequality of the other side
  have hside : ∀ j, j ≠ m_objective_id → (s.get_row j).m_alive = true →
      s.get_coefficient j v.m_id ≠ 0 →
      (s.get_row j).m_type ≠ ineq_type.t_eq ∧
      ¬ (0 < s.get_coefficient j v.m_id ↔ 0 < v.m_coeff) := by
    intro j hj0 hal hco
    obtain ⟨u, hu, hid, -⟩ := get_coefficient_mem (s.get_row j) v.m_id hco
    obtain ⟨w, hl, -⟩ := hrows j hj0 hal
    have hjl : j ∈ s.row_ids v.m_id := by
      have := hl u hu
      rw [hid] at this
      exact this
    obtain ⟨d1, -⟩ := t6 j ((hvis j).mpr hjl) ⟨hal, hco⟩
    cases hs : bound_side s v.m_id (decide (0 < v.m_coeff)) j
    · exact (side_false_iff s v.m_id v.m_coeff j).mp hs
    · rcases d1 hs with e | e
      · rw [hb] at e
        exact absurd e (by simp)
      · rw [t7 hb] at e
        exact absurd e (List.not_mem_nil j)
  intro N
  refine ⟨Function.update s.eval v.m_id
    (s.eval v.m_id + (|N - lin (s.get_row m_objective_id) s.eval| + 1) / v.m_coeff), ?_, ?_⟩
  · intro j hj0 hal
    obtain ⟨w, -, tj, hvj⟩ := hrows j hj0 hal
    rw [holds_iff_rel _ _ tj] at hvj ⊢
    rw [lin_update_diff _ _ _ _ w.1]
    by_cases hco : s.get_coefficient j v.m_id = 0
    · unfold model_based_opt.get_coefficient at hco
      rw [hco, zero_mul, add_zero]
      exact hvj
    · obtain ⟨hne, hs⟩ := hside j hj0 hal hco
      have hpos : 0 < |N - lin (s.get_row m_objective_id) s.eval| + 1 := by positivity
      have hneg : (s.get_row j).get_coefficient v.m_id / v.m_coeff < 0 := by
        have := neg_div_other_sign (s.get_coefficient j v.m_id) v.m_coeff hco hk hs
        unfold model_based_opt.get_coefficient at this
        have e : (s.get_row j).get_coefficient v.m_id / v.m_coeff
            = -(-(s.get_row j).get_coefficient v.m_id / v.m_coeff) := by ring
        rw [e]
        linarith
      have e : (s.get_row j).get_coefficient v.m_id *
          (s.eval v.m_id + (|N - lin (s.get_row m_objective_id) s.eval| + 1) / v.m_coeff
            - s.eval v.m_id)
          = ((s.get_row j).get_coefficient v.m_id / v.m_coeff) *
            (|N - lin (s.get_row m_objective_id) s.eval| + 1) := by
        ring
      rw [e]
      exact rel_holds_add_nonpos _ _ _ hne hvj (le_of_lt (mul_neg_of_neg_of_pos hneg hpos))
  · rw [lin_update_diff _ _ _ _ hobj.1, hck]
    have e : v.m_coeff *
        (s.eval v.m_id + (|N - lin (s.get_row m_objective_id) s.eval| + 1) / v.m_coeff
          - s.eval v.m_id)
        = |N - lin (s.get_row m_objective_id) s.eval| + 1 := by
      rw [add_sub_cancel_left]
      exact mul_div_cancel₀ _ hk
    rw [e]
    have := le_abs_self (N - lin (s.get_row m_objective_id) s.eval)
    linarith

theorem lin_no_vars (r : row) (val : Nat → ℚ) (h : r.m_vars = []) : lin r val = r.m_coeff := by
  unfold lin
  rw [h]
  rfl

/-- The rows that `find_bound` puts into `m_below` are inequalities of the other side. -/
theorem find_bound_below_side (s : model_based_opt) (x : Nat) (k : ℚ) :
    ∀ j ∈ (s.find_bound x (decide (0 < k))).m_below,
      (s.get_row j).m_type ≠ ineq_type.t_eq ∧ ¬ (0 < s.get_coefficient j x ↔ 0 < k) := by
  intro j hj
  obtain ⟨⟨-, -, -, t4, -⟩, -⟩ := find_bound_spec s x (decide (0 < k))
  exact (side_false_iff s x k j).mp (t4 j hj).2.2

/-- The elimination step makes no strict row when there was none. -/
theorem eliminated_no_strict (s t : model_based_opt) (x B : Nat) (a k : ℚ) (L : List Nat)
    (hf : bound_facts s x B a k L) (he : eliminated s t x B a k L) (h : no_strict s) :
    no_strict t := by
  obtain ⟨-, -, hB0, hBal, -, -, -, -, -, h0L, hL, -⟩ := hf
  obtain ⟨-, -, -, -, -, -, e7, e8, ⟨-, -, -, -, o5⟩, e10⟩ := he
  have hBnl := h.2 B hB0 hBal
  refine ⟨?_, fun j hj0 hal => ?_⟩
  · rw [o5, resolved_type_weak _ _ _ hBnl]
    exact h.1
  · by_cases hjL : j ∈ L
    · rw [(e10 j hjL).2.2.2.2.2.2, resolved_type_weak _ _ _ hBnl]
      exact h.2 j hj0 (hL j hjL).1
    · have hjB : j ≠ B := by
        intro e
        rw [e, e7] at hal
        exact absurd hal (by decide)
      have hr := e8 j hjB hj0 hjL
      rw [hr] at hal ⊢
      exact h.2 j hj0 hal

/-- The loop of `maximize` on a store of linear real arithmetic: with more fuel than
variables in use it returns, and the result is right. -/
theorem maximize_loop_spec :
    ∀ (fuel n : Nat) (s : model_based_opt) (trail vars : List Nat) (V : Finset Nat),
      lp_store s → (∀ y, var_used s y → y ∈ V) → V.card ≤ n → n < fuel →
      (∀ i ∈ trail, i ≠ m_objective_id) →
      ∃ s1 r, maximize_loop fuel s trail vars = some (s1, r) ∧ max_result_ok fuel s r := by
  intro fuel
  induction fuel with
  | zero =>
    intro n s trail vars V _ _ _ hn _
    omega
  | succ fuel ih =>
    intro n s trail vars V hlp hV hcard hn htrail
    cases hv : s.objective.m_vars.getLast? with
    | none =>
      rw [maximize_loop_done fuel s trail vars hv]
      have hrow : (s.update_values vars trail).objective = s.get_row m_objective_id :=
        update_values_objective s vars trail hlp.2.2.1 htrail
      rw [hrow]
      have hval : (s.get_row m_objective_id).m_value
          = lin (s.get_row m_objective_id) s.eval := hlp.2.2.2.1.2.2
      have hnil : (s.get_row m_objective_id).m_vars = [] := List.getLast?_eq_none_iff.mp hv
      by_cases hty : (s.get_row m_objective_id).m_type = ineq_type.t_lt
      · rw [if_pos hty]
        refine ⟨_, _, rfl, ?_⟩
        unfold max_result_ok
        refine ⟨fun h => absurd h (by simp), ?_⟩
        intro v e he
        simp only [inf_eps.finite.injEq] at he
        rw [← he.1, ← he.2]
        refine ⟨Or.inr rfl, le_of_eq hval.symm, fun ε hε => ?_, fun h => ?_,
          fun hns => absurd hty hns.1, fun _ val _ => ?_⟩
        · exact ⟨s.eval, sat_assignment s hlp, by rw [hval]; linarith⟩
        · exact absurd h (by norm_num)
        · rw [hval, lin_no_vars _ val hnil, lin_no_vars _ s.eval hnil]
      · rw [if_neg hty]
        refine ⟨_, _, rfl, ?_⟩
        unfold max_result_ok
        refine ⟨fun h => absurd h (by simp), ?_⟩
        intro v e he
        simp only [inf_eps.finite.injEq] at he
        rw [← he.1, ← he.2]
        refine ⟨Or.inl rfl, le_of_eq hval.symm, fun ε hε => ?_, fun _ => ?_, fun _ => rfl,
          fun _ val _ => ?_⟩
        · exact ⟨s.eval, sat_assignment s hlp, by rw [hval]; linarith⟩
        · exact ⟨hty, s.eval, sat_assignment s hlp, hval.symm⟩
        · rw [hval, lin_no_vars _ val hnil, lin_no_vars _ s.eval hnil]
    | some v =>
      cases hb : (s.find_bound v.m_id (decide (0 < v.m_coeff))).bound_row_index with
      | none =>
        rw [maximize_loop_unbounded fuel s trail vars v hv hb]
        refine ⟨_, _, rfl, ?_⟩
        unfold max_result_ok
        exact ⟨fun _ => unbounded_of_no_bound s hlp v hv hb,
          fun _ _ he => absurd he (by simp)⟩
      | some B =>
        obtain ⟨s4, h4⟩ := maximize_iteration_some s v B hv hb
        rw [maximize_loop_step fuel s s4 B v.m_id trail vars h4]
        obtain ⟨v2, hv2, -, -, hs4⟩ := maximize_iteration_cases s s4 B v.m_id h4
        have hvv : v2 = v := by
          rw [hv] at hv2
          simpa using hv2.symm
        subst hvv
        have hf := find_bound_facts s hlp v2 B hv hb
        have he := maximize_step_eliminated s hlp v2.m_id B _ _ _ hf
        rw [← hs4] at he
        obtain ⟨hlp4, hused, hmono, hlift, hexact, hproj⟩ :=
          eliminated_spec s s4 _ _ _ _ _ hlp hf he
        have htype : (s4.get_row m_objective_id).m_type
            = resolved_type false (s.get_row m_objective_id).m_type (s.get_row B).m_type :=
          he.2.2.2.2.2.2.2.2.1.2.2.2.2
        have hxV : v2.m_id ∈ V :=
          hV _ ⟨m_objective_id, Or.inl rfl, v2, getLast?_mem _ _ hv, rfl⟩
        have hpos : 0 < V.card := Finset.card_pos.mpr ⟨_, hxV⟩
        obtain ⟨s1, r, hr, hok1, hok2⟩ := ih (n - 1) s4 (trail ++ [B]) (vars ++ [v2.m_id])
          (V.erase v2.m_id) hlp4
          (fun y hy => Finset.mem_erase.mpr ⟨(hused y hy).2, hV y (hused y hy).1⟩)
          (by rw [Finset.card_erase_of_mem hxV]; omega) (by omega)
          (by
            intro i hi
            rcases List.mem_append.mp hi with hi | hi
            · exact htrail i hi
            · have : i = B := by simpa using hi
              rw [this]
              exact hf.2.2.1)
        refine ⟨s1, r, hr, ?_⟩
        unfold max_result_ok
        refine ⟨?_, ?_⟩
        · intro hinf N
          obtain ⟨val, hs, hN⟩ := hok1 hinf (N + 1)
          obtain ⟨val2, hs2, hge⟩ := hlift val hs 1 one_pos
          exact ⟨val2, hs2, by linarith⟩
        · intro w e hfin
          obtain ⟨k1, k2, k3, k4, k5, k6⟩ := hok2 w e hfin
          refine ⟨k1, le_trans hmono k2, fun ε hε => ?_, fun he0 => ?_,
            fun hns => k5 (eliminated_no_strict s s4 _ _ _ _ _ hf he hns),
            fun hrun val hs => ?_⟩
          · obtain ⟨val, hs, hval⟩ := k3 (ε / 2) (by linarith)
            obtain ⟨val2, hs2, hge⟩ := hlift val hs (ε / 2) (by linarith)
            exact ⟨val2, hs2, by linarith⟩
          · obtain ⟨hty4, val, hs, hval⟩ := k4 he0
            have hBnl : (s.get_row B).m_type ≠ ineq_type.t_lt := by
              intro hBl
              rw [htype, hBl, resolved_type_other] at hty4
              exact hty4 rfl
            rw [htype, resolved_type_weak _ _ _ hBnl] at hty4
            obtain ⟨val2, hs2, heq⟩ := hexact hBnl val hs
            exact ⟨hty4, val2, hs2, by rw [heq]; exact hval⟩
          · rw [single_bound_run, h4, Bool.and_eq_true] at hrun
            obtain ⟨hstep, hrun4⟩ := hrun
            unfold single_bound_step at hstep
            rw [hv] at hstep
            simp only [hb, Bool.or_eq_true, decide_eq_true_eq, List.isEmpty_iff] at hstep
            obtain ⟨hs4sat, hle⟩ := hproj (hstep.imp_right (fun habove j hj => by
              rw [habove, List.nil_append] at hj
              exact find_bound_below_side s v2.m_id v2.m_coeff j hj)) val hs
            exact le_trans hle (k6 hrun4 val hs4sat)

theorem mem_tail_get_row (s : model_based_opt) (r : row) :
    r ∈ s.m_rows.tail ↔ ∃ j, j ≠ 0 ∧ j < s.m_rows.length ∧ s.get_row j = r := by
  unfold get_row
  generalize s.m_rows = rows
  cases rows with
  | nil => simp
  | cons a l =>
    simp only [List.tail_cons, List.length_cons]
    constructor
    · intro h
      obtain ⟨i, hi, he⟩ := List.getElem_of_mem h
      refine ⟨i + 1, by omega, by omega, ?_⟩
      rw [List.getD_cons_succ, List.getD_eq_getElem _ _ hi]
      exact he
    · rintro ⟨j, hj0, hjl, he⟩
      obtain ⟨i, rfl⟩ := Nat.exists_eq_succ_of_ne_zero hj0
      have hi : i < l.length := by omega
      rw [List.getD_cons_succ, List.getD_eq_getElem _ _ hi] at he
      rw [← he]
      exact List.getElem_mem hi

/-- On a store of real variables the feasible assignments are those that satisfy every
live constraint row. -/
theorem feasible_iff_sat (s : model_based_opt) (h : lp_store s) (val : Nat → ℚ) :
    feasible s val ↔ sat s val := by
  constructor
  · rintro ⟨-, hr⟩ j hj0 hal
    exact hr _ ((mem_tail_get_row s _).mpr ⟨j, hj0, alive_lt_length s j hal, rfl⟩) hal
  · intro hs
    refine ⟨fun x _ hx => ?_, fun r hr hal => ?_⟩
    · rw [h.2.1 x] at hx
      exact absurd hx (by decide)
    · obtain ⟨j, hj0, -, he⟩ := (mem_tail_get_row s r).mp hr
      subst he
      exact hs j hj0 hal

/-- A store is of the class `lp_store` when the conditions hold on its lists. -/
theorem lp_store_of_rows (s : model_based_opt)
    (h1 : 0 < s.m_rows.length)
    (h2 : ∀ b ∈ s.m_var2is_int, b = false)
    (h3 : ∀ l ∈ s.m_var2row_ids, m_objective_id ∉ l)
    (h4 : row_wf s m_objective_id)
    (h5 : ∀ j ∈ List.range s.m_rows.length, j = m_objective_id ∨
      (s.get_row j).m_alive = false ∨
      (row_wf s j ∧ row_listed s j ∧ lp_type (s.get_row j).m_type ∧
        holds (s.get_row j) s.eval)) : lp_store s := by
  refine ⟨h1, ?_, ?_, h4, ?_⟩
  · intro x
    unfold model_based_opt.is_int
    by_cases hx : x < s.m_var2is_int.length
    · rw [List.getD_eq_getElem _ _ hx]
      exact h2 _ (List.getElem_mem hx)
    · rw [List.getD_eq_default _ _ (by omega)]
  · intro x
    unfold row_ids
    by_cases hx : x < s.m_var2row_ids.length
    · rw [List.getD_eq_getElem _ _ hx]
      exact h3 _ (List.getElem_mem hx)
    · rw [List.getD_eq_default _ _ (by omega)]
      exact List.not_mem_nil _
  · intro j hj0 hal
    rcases h5 j (List.mem_range.mpr (alive_lt_length s j hal)) with h | h | h
    · exact absurd h hj0
    · rw [hal] at h
      exact absurd h (by decide)
    · exact h

/-- C6 (amended): on a store of linear real arithmetic (`lp_store`: no variable is
integral; row 0 is the objective and is in no row index; the objective row and the live
rows have terms sorted by strictly ascending id with nonzero coefficients on declared
variables and a cached value equal to their evaluation; every live constraint row is of
type `<=`, `<` or `=`, is listed in the index of each of its variables and is satisfied by
the stored assignment), `maximize()` returns for every fuel above the number of variables.
If it returns infinity, the objective is unbounded above on the feasible assignments.  If
it returns a finite value `v` with the infinitesimal coefficient `e`, then `e` is 0 or -1,
`v` is at least the objective at the stored assignment, `v` is approached within every
`ε > 0` by feasible assignments, `v` is attained at a feasible assignment when `e = 0`,
`e = 0` when neither the objective row nor a live row is strict, and `v` is at most every
upper bound of the objective on the feasible assignments (it is at most the supremum).
When in every iteration of the loop the bound row is an equality or the only live row on
the chosen variable of its side (`single_bound_run`), `v` is an upper bound of the
objective on the feasible assignments, so it is the supremum.  For an objective that is
bounded above the result is finite. -/
theorem maximize_in_cell (s : model_based_opt) (fuel : Nat) (h : lp_store s)
    (hfuel : s.m_var2row_ids.length < fuel) :
    ∃ s1 r, maximize fuel s = some (s1, r) ∧
      (r = inf_eps.infinity →
        ∀ N : ℚ, ∃ val, feasible s val ∧ N < lin s.objective val) ∧
      (∀ v e, r = inf_eps.finite v e →
        (e = 0 ∨ e = -1) ∧ lin s.objective (assignment s) ≤ v ∧
        (∀ ε : ℚ, 0 < ε → ∃ val, feasible s val ∧ v - ε < lin s.objective val) ∧
        (e = 0 → ∃ val, feasible s val ∧ lin s.objective val = v) ∧
        (no_strict s → e = 0) ∧
        (∀ U : ℚ, (∀ val, feasible s val → lin s.objective val ≤ U) → v ≤ U) ∧
        (single_bound_run fuel s = true →
          ∀ val, feasible s val → lin s.objective val ≤ v)) ∧
      ((∃ U : ℚ, ∀ val, feasible s val → lin s.objective val ≤ U) →
        ∃ v e, r = inf_eps.finite v e) := by
  have hV : ∀ y, var_used s y → y ∈ Finset.range s.m_var2row_ids.length := by
    rintro y ⟨j, hj, t, ht, hid⟩
    rw [Finset.mem_range, ← hid]
    rcases hj with hj | hj
    · rw [hj] at ht
      exact (h.2.2.2.1.2.1 t ht).2
    · by_cases hj0 : j = m_objective_id
      · rw [hj0] at ht
        exact (h.2.2.2.1.2.1 t ht).2
      · exact ((h.2.2.2.2 j hj0 hj).1.2.1 t ht).2
  obtain ⟨s1, r, hr, hok1, hok2⟩ := maximize_loop_spec fuel s.m_var2row_ids.length s [] []
    (Finset.range s.m_var2row_ids.length) h hV (by rw [Finset.card_range]) hfuel
    (fun i hi => absurd hi (List.not_mem_nil i))
  have hinf : r = inf_eps.infinity →
      ∀ N : ℚ, ∃ val, feasible s val ∧ N < lin s.objective val := by
    intro hi N
    obtain ⟨val, hs, hN⟩ := hok1 hi N
    exact ⟨val, (feasible_iff_sat s h val).mpr hs, hN⟩
  have hfin : ∀ v e, r = inf_eps.finite v e →
      (e = 0 ∨ e = -1) ∧ lin s.objective (assignment s) ≤ v ∧
      (∀ ε : ℚ, 0 < ε → ∃ val, feasible s val ∧ v - ε < lin s.objective val) ∧
      (e = 0 → ∃ val, feasible s val ∧ lin s.objective val = v) ∧
      (no_strict s → e = 0) ∧
      (∀ U : ℚ, (∀ val, feasible s val → lin s.objective val ≤ U) → v ≤ U) ∧
      (single_bound_run fuel s = true →
        ∀ val, feasible s val → lin s.objective val ≤ v) := by
    intro v e hf
    obtain ⟨k1, k2, k3, k4, k5, k6⟩ := hok2 v e hf
    have happ : ∀ ε : ℚ, 0 < ε → ∃ val, feasible s val ∧ v - ε < lin s.objective val := by
      intro ε hε
      obtain ⟨val, hs, hval⟩ := k3 (ε / 2) (by linarith)
      refine ⟨val, (feasible_iff_sat s h val).mpr hs, ?_⟩
      unfold objective
      linarith
    refine ⟨k1, k2, happ, fun he0 => ?_, k5, fun U hU => ?_,
      fun hrun val hfe => k6 hrun val ((feasible_iff_sat s h val).mp hfe)⟩
    · obtain ⟨-, val, hs, hval⟩ := k4 he0
      exact ⟨val, (feasible_iff_sat s h val).mpr hs, hval⟩
    · by_contra hlt
      push_neg at hlt
      obtain ⟨val, hfe, hval⟩ := happ (v - U) (by linarith)
      have := hU val hfe
      linarith
  refine ⟨s1, r, hr, hinf, hfin, ?_⟩
  rintro ⟨U, hU⟩
  cases r with
  | infinity =>
    exfalso
    obtain ⟨val, hfe, hN⟩ := hinf rfl U
    exact absurd (hU val hfe) (not_le.mpr hN)
  | finite v e => exact ⟨v, e, rfl⟩

set_option maxRecDepth 100000 in
/-- Witness of C6 (amended): the store `lp_mixed_store` (real `x = 0`, `y = 3`, objective
`x`, rows `x - y < 0` and `y - 3 = 0`) is of the class `lp_store` and every iteration on it
is exact; `maximize()` returns the value 3 with the infinitesimal coefficient -1, and so 3
is an upper bound of the objective on the feasible assignments that is approached within
every `ε > 0`. -/
theorem maximize_in_cell_witness :
    lp_store lp_mixed_store ∧ single_bound_run 3 lp_mixed_store = true ∧
    (maximize 3 lp_mixed_store).map (fun p => p.2) = some (inf_eps.finite 3 (-1)) ∧
    (∀ val, feasible lp_mixed_store val → lin lp_mixed_store.objective val ≤ 3) ∧
    (∀ ε : ℚ, 0 < ε →
      ∃ val, feasible lp_mixed_store val ∧ 3 - ε < lin lp_mixed_store.objective val) := by
  have hlp : lp_store lp_mixed_store :=
    lp_store_of_rows _ (by decide!) (by decide!) (by decide!)
      (by simp only [row_wf, sorted_ids]; decide!)
      (by simp only [row_wf, row_listed, sorted_ids, lp_type]; decide!)
  have hrun : single_bound_run 3 lp_mixed_store = true := by decide!
  have hmax : (maximize 3 lp_mixed_store).map (fun p => p.2)
      = some (inf_eps.finite 3 (-1)) := by decide!
  obtain ⟨s1, r, hr, -, hfin, -⟩ := maximize_in_cell lp_mixed_store 3 hlp (by decide!)
  have hr2 : r = inf_eps.finite 3 (-1) := by
    rw [hr] at hmax
    simpa using hmax
  obtain ⟨-, -, happ, -, -, -, hub⟩ := hfin 3 (-1) hr2
  exact ⟨hlp, hrun, hmax, hub hrun, happ⟩

theorem int_half_store_rows : int_half_store.m_rows =
    [⟨[⟨0, 1⟩], 0, 0, ineq_type.t_le, 0, true, 0⟩,
     ⟨[⟨0, 2⟩], -3, 0, ineq_type.t_le, -3, true, 0⟩] := by decide!

/-- C6 (counterexample): the value returned by `maximize()` is not the supremum of the
objective over the feasible assignments.  (i) On the well-formed store `counter_cell` (real
`x = y = 0`, objective `x`, rows `x - y <= 0`, `2x - y - 2 <= 0`, `y - 10 <= 0`, all
satisfied) the objective is bounded above by 6, `maximize()` returns the finite value 2,
and the assignment `x = 6, y = 10` satisfies every row with objective value 6.  (ii) On
`int_half_store` (integral `x = 0`, objective `x`, row `2x - 3 <= 0`, satisfied) every
feasible assignment has an integer `x <= 1` and `x = 1` is feasible, so the supremum is 1,
but `maximize()` returns `3/2`. -/
theorem maximize_not_supremum :
    (feasible counter_cell (assignment counter_cell) ∧
      (∀ val, feasible counter_cell val → lin counter_cell.objective val ≤ 6) ∧
      (maximize 3 counter_cell).map (fun p => p.2) = some (inf_eps.finite 2 0) ∧
      ∃ val, feasible counter_cell val ∧ lin counter_cell.objective val = 6) ∧
    (feasible int_half_store (assignment int_half_store) ∧
      (∀ val, feasible int_half_store val → lin int_half_store.objective val ≤ 1) ∧
      (∃ val, feasible int_half_store val ∧ lin int_half_store.objective val = 1) ∧
      (maximize 2 int_half_store).map (fun p => p.2) = some (inf_eps.finite (3 / 2) 0)) := by
  refine ⟨⟨?_, ?_, by decide!, fun i => [6, 10].getD i 0, ?_, ?_⟩,
    ⟨?_, ?_, ⟨fun _ => 1, ?_, ?_⟩, by decide!⟩⟩
  · refine ⟨by decide!, ?_⟩
    rw [counter_cell_rows]
    simp [holds, lin, assignment, model_based_opt.eval]
    decide!
  · intro val hv
    have h := hv.2
    rw [counter_cell_rows] at h
    simp [holds, lin] at h
    simp [objective, get_row, m_objective_id, counter_cell_rows, lin]
    linarith [h.1, h.2.1, h.2.2]
  · refine ⟨by decide!, ?_⟩
    rw [counter_cell_rows]
    simp [holds, lin]
    norm_num
  · simp [objective, get_row, m_objective_id, counter_cell_rows, lin]
  · refine ⟨by decide!, ?_⟩
    rw [int_half_store_rows]
    simp [holds, lin, assignment, model_based_opt.eval]
    decide!
  · intro val hv
    have hi := hv.1 0 (by decide!) (by decide!)
    obtain ⟨n, hn⟩ := (is_int_q_iff _).mp hi
    have h := hv.2
    rw [int_half_store_rows] at h
    simp [holds, lin] at h
    simp [objective, get_row, m_objective_id, int_half_store_rows, lin]
    rw [hn] at h ⊢
    have h2 : (2 * n : ℤ) ≤ 3 := by
      have : ((2 * n : ℤ) : ℚ) ≤ 3 := by push_cast; linarith
      exact_mod_cast this
    have h3 : n ≤ 1 := by omega
    exact_mod_cast h3
  · refine ⟨?_, ?_⟩
    · intro x _ _
      show is_int_q (1 : ℚ) = true
      decide!
    · rw [int_half_store_rows]
      simp [holds, lin]
      norm_num
  · simp [objective, get_row, m_objective_id, int_half_store_rows, lin]

end opt
